import Mathlib

set_option autoImplicit false

/-!
# vue-router 3.0.5: route registry, matcher and transition engine

A shallow embedding of `src/create-route-map.js`, `src/history/base.js`,
`src/index.js` and of the parts of `dist/vue-router.esm.browser.js`
(path-to-regexp, location normalisation, the matcher) they depend on.

Conventions of the embedding.

* A JavaScript string is the list of its characters (`Str`).
* A JavaScript object used as a dictionary is an association list in
  insertion order (`Dict`); reading a key returns the first binding.  A `Dict`
  holds the own properties of a plain object.  The members the object
  inherits from `Object.prototype` are the names `protoNames`: the operator
  `in` (`Dict.hasIn`) and the read `res[key]` of `parseQuery` (`readMember`)
  find them.  `Dict.get?`, used for every other read `obj[key]`, returns own
  properties only, and a write is an ordinary write; this is exact for keys
  outside `protoNames`, and the theorems that turn on such a read or write
  say so in a hypothesis.
* A `RegExp` is not kept as source text but as the syntax tree (`Re`) of the
  source text that `tokensToRegExp` concatenates, and it is run by a
  backtracking matcher that explores alternatives in the priority order of
  the ECMAScript semantics.  A user-written group `(...)` of a path template
  is kept as its source and run by a caller-supplied oracle.
* Functions held by records (redirect functions, guards, components) are
  handles (`Nat`); their behaviour is supplied by the caller.
* Loops whose termination is not structural take a fuel argument.
-/

namespace VueRouter

/-- JavaScript strings. -/
abbrev Str := List Char

/-- Insertion-ordered dictionaries (plain JavaScript objects). -/
abbrev Dict (α : Type) := List (Str × α)

/-- Property read `obj[key]`. -/
def Dict.get? {α : Type} (d : Dict α) (k : Str) : Option α :=
  (d.find? (fun kv => kv.1 == k)).map (fun kv => kv.2)

/-- Whether `key` is an own property of `obj`. -/
def Dict.has {α : Type} (d : Dict α) (k : Str) : Bool :=
  d.any (fun kv => kv.1 == k)

/-- The names of the members of `Object.prototype`, which every plain object
inherits. -/
def protoNames : List Str :=
  ["constructor".toList, "__defineGetter__".toList, "__defineSetter__".toList,
   "hasOwnProperty".toList, "__lookupGetter__".toList, "__lookupSetter__".toList,
   "isPrototypeOf".toList, "propertyIsEnumerable".toList, "toString".toList,
   "valueOf".toList, "__proto__".toList, "toLocaleString".toList]

def isProtoName (k : Str) : Bool := protoNames.contains k

/-- The `in` operator on a plain object: `key in obj` holds for the own
properties and for the members inherited from `Object.prototype`. -/
def Dict.hasIn {α : Type} (d : Dict α) (k : Str) : Bool :=
  Dict.has d k || isProtoName k

/-- Property write `obj[key] = v`: an existing key keeps its position. -/
def Dict.set {α : Type} : Dict α → Str → α → Dict α
  | [], k, v => [(k, v)]
  | (k0, v0) :: rest, k, v =>
    if k0 == k then (k0, v) :: rest else (k0, v0) :: Dict.set rest k v

/-- The helper `extend(a, b)`: copy every key of `b` onto `a`. -/
def extend {α : Type} (a b : Dict α) : Dict α :=
  b.foldl (fun acc kv => Dict.set acc kv.1 kv.2) a

/-! ## Characters and the URI codec of the host -/

def backslash : Char := Char.ofNat 92

def apostrophe : Char := Char.ofNat 39

/-- Line terminators: the characters `.` does not match. -/
def isLineTerminator (c : Char) : Bool :=
  c.toNat == 10 || c.toNat == 13 || c.toNat == 8232 || c.toNat == 8233

/-- The class `\w`. -/
def isWordChar (c : Char) : Bool :=
  (48 ≤ c.toNat && c.toNat ≤ 57) || (65 ≤ c.toNat && c.toNat ≤ 90) ||
  (97 ≤ c.toNat && c.toNat ≤ 122) || c == '_'

/-- Canonicalisation of a character under the `i` flag, for the code units
below 128 (an ASCII letter is compared by its upper case; the host never lets
a unit of 128 or more match a unit below 128).  Units of 128 or more are
compared exactly. -/
def canonicalize (c : Char) : Char :=
  if 97 ≤ c.toNat ∧ c.toNat ≤ 122 then Char.ofNat (c.toNat - 32) else c

def hexDigit (n : Nat) : Char :=
  if n < 10 then Char.ofNat (48 + n) else Char.ofNat (55 + n)

def hexValue (c : Char) : Option Nat :=
  if 48 ≤ c.toNat ∧ c.toNat ≤ 57 then some (c.toNat - 48)
  else if 65 ≤ c.toNat ∧ c.toNat ≤ 70 then some (c.toNat - 55)
  else if 97 ≤ c.toNat ∧ c.toNat ≤ 102 then some (c.toNat - 87)
  else none

/-- The octets of the UTF-8 encoding of a character. -/
def utf8Octets (c : Char) : List Nat :=
  let n := c.toNat
  if n < 128 then [n]
  else if n < 2048 then [192 + n / 64, 128 + n % 64]
  else if n < 65536 then [224 + n / 4096, 128 + (n / 64) % 64, 128 + n % 64]
  else [240 + n / 262144, 128 + (n / 4096) % 64, 128 + (n / 64) % 64, 128 + n % 64]

def percentOctet (b : Nat) : Str := ['%', hexDigit (b / 16), hexDigit (b % 16)]

def isAlphaNum (c : Char) : Bool :=
  (48 ≤ c.toNat && c.toNat ≤ 57) || (65 ≤ c.toNat && c.toNat ≤ 90) ||
  (97 ≤ c.toNat && c.toNat ≤ 122)

/-- Characters `encodeURIComponent` leaves alone. -/
def uriUnescaped (c : Char) : Bool :=
  isAlphaNum c || c == '-' || c == '_' || c == '.' || c == '!' || c == '~' ||
  c == '*' || c == apostrophe || c == '(' || c == ')'

/-- Characters `encodeURI` leaves alone in addition. -/
def uriReserved (c : Char) : Bool :=
  c == ';' || c == '/' || c == '?' || c == ':' || c == '@' || c == '&' ||
  c == '=' || c == '+' || c == '$' || c == ',' || c == '#'

def encodeWith (keep : Char → Bool) (s : Str) : Str :=
  s.flatMap (fun c => if keep c then [c] else (utf8Octets c).flatMap percentOctet)

def encodeURIComponent (s : Str) : Str := encodeWith uriUnescaped s

def encodeURI (s : Str) : Str := encodeWith (fun c => uriUnescaped c || uriReserved c) s

/-- Read one `%XX` escape. -/
def readOctet : Str → Option (Nat × Str)
  | '%' :: h1 :: h2 :: rest =>
    match hexValue h1, hexValue h2 with
    | some a, some b => some (16 * a + b, rest)
    | _, _ => none
  | _ => none

/-- Read `n` continuation octets `%XX` of the form `10xxxxxx`, accumulating
their payload. -/
def readContinuation : Nat → Nat → Str → Option (Nat × Str)
  | 0, acc, s => some (acc, s)
  | n + 1, acc, s =>
    match readOctet s with
    | some (b, rest) =>
      if b / 64 = 2 then readContinuation n (acc * 64 + b % 64) rest else none
    | none => none

/-- The host function `decodeURIComponent`; `none` stands for the `URIError`
it throws on a malformed escape sequence. -/
def decodeURIComponentAux : Nat → Str → Option Str
  | 0, _ => some []
  | _ + 1, [] => some []
  | fuel + 1, c :: rest =>
    if c ≠ '%' then (decodeURIComponentAux fuel rest).map (fun t => c :: t)
    else
      match readOctet (c :: rest) with
      | none => none
      | some (b, rest1) =>
        if b < 128 then (decodeURIComponentAux fuel rest1).map (fun t => Char.ofNat b :: t)
        else
          let decoded : Option (Nat × Str) :=
            if b / 32 = 6 then
              (readContinuation 1 (b % 32) rest1).bind
                (fun r => if 128 ≤ r.1 then some r else none)
            else if b / 16 = 14 then
              (readContinuation 2 (b % 16) rest1).bind
                (fun r => if 2048 ≤ r.1 ∧ ¬ (55296 ≤ r.1 ∧ r.1 ≤ 57343) then some r else none)
            else if b / 8 = 30 then
              (readContinuation 3 (b % 8) rest1).bind
                (fun r => if 65536 ≤ r.1 ∧ r.1 ≤ 1114111 then some r else none)
            else none
          match decoded with
          | none => none
          | some (v, rest2) =>
            (decodeURIComponentAux fuel rest2).map (fun t => Char.ofNat v :: t)

def decodeURIComponent (s : Str) : Option Str := decodeURIComponentAux s.length s

/-! ## Regular expressions of the host, restricted to what `tokensToRegExp` builds -/

/-- Syntax trees of the regular expressions built by `tokensToRegExp`. -/
inductive Re where
  /-- An escaped literal character. -/
  | chr (c : Char)
  /-- The atom `.`. -/
  | dot
  /-- A negated class `[^...]`. -/
  | noneOf (cs : Str)
  /-- A user-written group of a path template, kept as source text. -/
  | custom (src : Str)
  /-- The empty pattern. -/
  | eps
  /-- Concatenation. -/
  | cat (a b : Re)
  /-- Alternation `a|b`. -/
  | alt (a b : Re)
  /-- Iteration `a*` (greedy) or `a*?` (lazy). -/
  | star (greedy : Bool) (a : Re)
  /-- The greedy option `a?`. -/
  | opt (a : Re)
  /-- The capturing group number `i`. -/
  | group (i : Nat) (a : Re)
  /-- The assertion `$`. -/
  | eol
  /-- The positive lookahead `(?=a)`. -/
  | look (a : Re)
deriving DecidableEq, Repr

/-- Matcher state: the input not yet consumed and the captures made. -/
structure MState where
  rest : Str
  caps : List (Nat × Str)
deriving DecidableEq, Repr

/-- The host's matching of user-written groups: for a source text, the
ignore-case flag and the remaining input, the lengths of input the group can
consume, in the matcher's priority order. -/
abbrev CustomGroups := Str → Bool → Str → List Nat

/-- A host without user-written groups. -/
def noCustomGroups : CustomGroups := fun _ _ _ => []

def charEq (ignoreCase : Bool) (a b : Char) : Bool :=
  if ignoreCase then canonicalize a == canonicalize b else a == b

/-- Iterations of a starred body: every iteration has to consume input. -/
def starLoop (step : MState → List MState) (greedy : Bool) : Nat → MState → List MState
  | 0, s => [s]
  | fuel + 1, s =>
    let more := ((step s).filter (fun t => t.rest.length < s.rest.length)).flatMap
      (starLoop step greedy fuel)
    if greedy then more ++ [s] else s :: more

/-- All the ways a pattern matches at the head of the input, best first. -/
def Re.run (host : CustomGroups) (ignoreCase : Bool) : Re → MState → List MState
  | .chr c, s =>
    match s.rest with
    | d :: rest => if charEq ignoreCase c d then [{ s with rest := rest }] else []
    | [] => []
  | .dot, s =>
    match s.rest with
    | d :: rest => if isLineTerminator d then [] else [{ s with rest := rest }]
    | [] => []
  | .noneOf cs, s =>
    match s.rest with
    | d :: rest => if cs.any (fun c => charEq ignoreCase c d) then [] else [{ s with rest := rest }]
    | [] => []
  | .custom src, s =>
    (host src ignoreCase s.rest).filterMap
      (fun n => if n ≤ s.rest.length then some { s with rest := s.rest.drop n } else none)
  | .eps, s => [s]
  | .cat a b, s => (Re.run host ignoreCase a s).flatMap (Re.run host ignoreCase b)
  | .alt a b, s => Re.run host ignoreCase a s ++ Re.run host ignoreCase b s
  | .star greedy a, s => starLoop (Re.run host ignoreCase a) greedy s.rest.length s
  | .opt a, s => Re.run host ignoreCase a s ++ [s]
  | .group i a, s =>
    (Re.run host ignoreCase a s).map (fun t =>
      { t with caps := (i, s.rest.take (s.rest.length - t.rest.length)) :: t.caps })
  | .eol, s => if s.rest.isEmpty then [s] else []
  | .look a, s =>
    match Re.run host ignoreCase a s with
    | [] => []
    | t :: _ => [{ s with caps := t.caps }]

/-- First match of a pattern anchored at the start of the input (the source
text always begins with `^`): the state of the best match. -/
def Re.exec (host : CustomGroups) (ignoreCase : Bool) (re : Re) (input : Str) : Option MState :=
  (Re.run host ignoreCase re { rest := input, caps := [] }).head?

/-! ## path-to-regexp -/

/-- Errors a JavaScript call can throw in the embedded code. -/
inductive JsError where
  /-- A `TypeError` of the filler of `tokensToFunction`. -/
  | typeError (msg : Str)
  /-- The `URIError` of `decodeURIComponent`. -/
  | uriError
  /-- The `Error` of a failed `assert`. -/
  | assertion (msg : Str)
  /-- The `RangeError` of an exhausted call stack. -/
  | stackOverflow
deriving DecidableEq, Repr

/-- Results of calls that can throw. -/
abbrev Js (α : Type) := Except JsError α

/-- Name of a key: the `name` of a `:name` parameter, or the running number
given to an unnamed group or to an asterisk. -/
inductive KeyName where
  | named (s : Str)
  | index (n : Nat)
deriving DecidableEq, Repr

/-- The `pattern` of a key. -/
inductive Pattern where
  /-- The default, `'[^' + escapeString(delimiter) + ']+?'`. -/
  | segment (delimiter : Str)
  /-- The pattern `'.*'` of an asterisk. -/
  | wildcard
  /-- The pattern `escapeGroup(capture || group)` of a user-written group. -/
  | custom (src : Str)
deriving DecidableEq, Repr

/-- Parameter tokens of `parse`. -/
structure Key where
  name : KeyName
  pre : Str
  delimiter : Str
  optional : Bool
  isRepeat : Bool
  isPartial : Bool
  asterisk : Bool
  pattern : Pattern
deriving DecidableEq, Repr

/-- Tokens of `parse`: literal text or a parameter. -/
inductive Token where
  | str (s : Str)
  | key (k : Key)
deriving DecidableEq, Repr

/-- The function `escapeGroup`: `group.replace(/([=!:$\/()])/g, '\\$1')`. -/
def escapeGroup (group : Str) : Str :=
  group.flatMap (fun c =>
    if c == '=' || c == '!' || c == ':' || c == '$' || c == '/' || c == '(' || c == ')'
    then [backslash, c] else [c])

/-- The part `(?:\\.|[^\\()])+` of `PATH_REGEXP` followed by `\)`: the
text of the group and the input after the closing parenthesis. -/
def scanGroupBody : Nat → Str → Str → Option (Str × Str)
  | 0, _, _ => none
  | fuel + 1, acc, s =>
    match s with
    | [] => none
    | c :: rest =>
      if c == backslash then
        match rest with
        | d :: rest1 =>
          if isLineTerminator d then none else scanGroupBody fuel (acc ++ [c, d]) rest1
        | [] => none
      else if c == ')' then (if acc.isEmpty then none else some (acc, rest))
      else if c == '(' then none
      else scanGroupBody fuel (acc ++ [c]) rest

/-- The part `\(((?:\\.|[^\\()])+)\)` of `PATH_REGEXP`. -/
def scanGroup : Str → Option (Str × Str)
  | '(' :: rest => scanGroupBody (rest.length + 1) [] rest
  | _ => none

/-- The part `([+*?])?` of `PATH_REGEXP`. -/
def scanModifier : Str → Option Char × Str
  | c :: rest => if c == '+' || c == '*' || c == '?' then (some c, rest) else (none, c :: rest)
  | [] => (none, [])

/-- Result array of one `PATH_REGEXP.exec`: `res[1]` to `res[7]`. -/
structure PathMatch where
  escaped : Option Char
  pre : Option Char
  name : Option Str
  capture : Option Str
  group : Option Str
  modifier : Option Char
  asterisk : Bool
deriving DecidableEq, Repr

/-- Second alternative of `PATH_REGEXP` after the optional prefix:
`(?:\:(\w+)(?:\((...)\))?|\((...)\))([+*?])?|(\*)`. -/
def scanParam (pre : Option Char) (s : Str) : Option (PathMatch × Str) :=
  match s with
  | ':' :: r1 =>
    let name := r1.takeWhile isWordChar
    if name.isEmpty then none
    else
      let r2 := r1.dropWhile isWordChar
      match scanGroup r2 with
      | some (g, r3) =>
        let mr := scanModifier r3
        some ({ escaped := none, pre := pre, name := some name, capture := some g,
                group := none, modifier := mr.1, asterisk := false }, mr.2)
      | none =>
        let mr := scanModifier r2
        some ({ escaped := none, pre := pre, name := some name, capture := none,
                group := none, modifier := mr.1, asterisk := false }, mr.2)
  | '(' :: _ =>
    match scanGroup s with
    | some (g, r3) =>
      let mr := scanModifier r3
      some ({ escaped := none, pre := pre, name := none, capture := none,
              group := some g, modifier := mr.1, asterisk := false }, mr.2)
    | none => none
  | '*' :: r1 =>
    some ({ escaped := none, pre := pre, name := none, capture := none,
            group := none, modifier := none, asterisk := true }, r1)
  | _ => none

/-- A match of `PATH_REGEXP` that starts at the head of the input, with the
input after the match. -/
def pathRegexpAt (s : Str) : Option (PathMatch × Str) :=
  match s with
  | [] => none
  | c :: rest =>
    let escapedAlt : Option (PathMatch × Str) :=
      if c == backslash then
        match rest with
        | d :: rest1 =>
          if isLineTerminator d then none
          else some ({ escaped := some d, pre := none, name := none, capture := none,
                       group := none, modifier := none, asterisk := false }, rest1)
        | [] => none
      else none
    match escapedAlt with
    | some r => some r
    | none =>
      if c == '/' || c == '.' then
        match scanParam (some c) rest with
        | some r => some r
        | none => scanParam none s
      else scanParam none s

/-- Loop state of `parse`. -/
structure ParseState where
  tokens : List Token
  key : Nat
  path : Str
deriving DecidableEq, Repr

/-- The token `parse` pushes for one match of `PATH_REGEXP`. -/
def tokenOfMatch (m : PathMatch) (next : Option Char) (key : Nat) : Key :=
  let isPartial := match m.pre, next with
    | some p, some n => n != p
    | _, _ => false
  let isRepeat := m.modifier == some '+' || m.modifier == some '*'
  let optional := m.modifier == some '?' || m.modifier == some '*'
  let delimiter : Str := match m.pre with
    | some p => [p]
    | none => ['/']
  let pattern : Option Str := match m.capture with
    | some c => some c
    | none => m.group
  { name := match m.name with
      | some n => KeyName.named n
      | none => KeyName.index key
    pre := match m.pre with
      | some p => [p]
      | none => []
    delimiter := delimiter
    optional := optional
    isRepeat := isRepeat
    isPartial := isPartial
    asterisk := m.asterisk
    pattern := match pattern with
      | some p => Pattern.custom (escapeGroup p)
      | none => if m.asterisk then Pattern.wildcard else Pattern.segment delimiter }

/-- The `while` loop of `parse` and the two statements after it. -/
def parseLoop : Nat → Str → ParseState → List Token
  | 0, _, st => if st.path.isEmpty then st.tokens else st.tokens ++ [Token.str st.path]
  | fuel + 1, s, st =>
    match s with
    | [] => if st.path.isEmpty then st.tokens else st.tokens ++ [Token.str st.path]
    | c :: rest =>
      match pathRegexpAt s with
      | none => parseLoop fuel rest { st with path := st.path ++ [c] }
      | some (m, after) =>
        match m.escaped with
        | some e => parseLoop fuel after { st with path := st.path ++ [e] }
        | none =>
          let tokens := if st.path.isEmpty then st.tokens else st.tokens ++ [Token.str st.path]
          let k := tokenOfMatch m after.head? st.key
          parseLoop fuel after
            { tokens := tokens ++ [Token.key k]
              key := if m.name.isSome then st.key else st.key + 1
              path := [] }

/-- The function `parse(str)` with the default delimiter. -/
def parse (str : Str) : List Token :=
  parseLoop (str.length + 1) str { tokens := [], key := 0, path := [] }

/-- Options of `pathToRegexp` a route configuration can set
(`pathToRegexpOptions`); the delimiter is the default `/`. -/
structure PathToRegexpOptions where
  sensitive : Bool := false
  strict : Bool := false
  /-- The option `end`; only an explicit `false` turns it off. -/
  toEnd : Bool := true
deriving DecidableEq, Repr

/-- A compiled `RegExp` with its `keys` attached (`attachKeys`). -/
structure RouteRegExp where
  re : Re
  ignoreCase : Bool
  keys : List Key
deriving DecidableEq, Repr

/-- Concatenation of the pieces of a source text. -/
def Re.catAll : List Re → Re
  | [] => Re.eps
  | [a] => a
  | a :: rest => Re.cat a (Re.catAll rest)

/-- The pattern of a key, wrapped as `(?:pattern)`. -/
def Pattern.toRe : Pattern → Re
  | .segment delimiter => Re.cat (Re.noneOf delimiter) (Re.star false (Re.noneOf delimiter))
  | .wildcard => Re.star true Re.dot
  | .custom src => Re.custom src

/-- The text `escapeString(s)` as pattern: every character stands for itself. -/
def literalRe (s : Str) : List Re := s.map Re.chr

/-- The piece `tokensToRegExp` appends for a parameter token whose capturing
group gets the number `idx`. -/
def keyRe (k : Key) (idx : Nat) : Re :=
  let pre := Re.catAll (literalRe k.pre)
  let capture0 := k.pattern.toRe
  let capture := if k.isRepeat then Re.cat capture0 (Re.star true (Re.cat pre capture0)) else capture0
  if k.optional then
    if !k.isPartial then Re.opt (Re.cat pre (Re.group idx capture))
    else Re.cat pre (Re.opt (Re.group idx capture))
  else Re.cat pre (Re.group idx capture)

/-- The `for` loop of `tokensToRegExp`: the pieces of `route` and the keys. -/
def tokensToRoute : List Token → List Re → List Key → List Re × List Key
  | [], route, keys => (route, keys)
  | Token.str s :: rest, route, keys => tokensToRoute rest (route ++ literalRe s) keys
  | Token.key k :: rest, route, keys =>
    tokensToRoute rest (route ++ [keyRe k (keys.length + 1)]) (keys ++ [k])

/-- The function `tokensToRegExp(tokens, keys, options)` called with `keys = []`.
The source text of `route` ends with the escaped delimiter exactly when its
last piece is the literal character `/`. -/
def tokensToRegExp (tokens : List Token) (options : PathToRegexpOptions) : RouteRegExp :=
  let rk := tokensToRoute tokens [] []
  let route := rk.1
  let endsWithDelimiter := route.getLast? == some (Re.chr '/')
  let route1 :=
    if !options.strict then
      (if endsWithDelimiter then route.dropLast else route) ++
        [Re.opt (Re.cat (Re.chr '/') (Re.look Re.eol))]
    else route
  let route2 :=
    if options.toEnd then route1 ++ [Re.eol]
    else if options.strict && endsWithDelimiter then route1
    else route1 ++ [Re.look (Re.alt (Re.chr '/') Re.eol)]
  { re := Re.catAll route2, ignoreCase := !options.sensitive, keys := rk.2 }

/-- The function `pathToRegexp(path, [], options)` for a string `path`. -/
def pathToRegexp (path : Str) (options : PathToRegexpOptions) : RouteRegExp :=
  tokensToRegExp (parse path) options

/-- The call `path.match(regex)`: `none` for `null`, else the captures
`m[1]`, ..., `m[m.length - 1]` (`none` for `undefined`). -/
def RouteRegExp.exec (host : CustomGroups) (regex : RouteRegExp) (path : Str) :
    Option (List (Option Str)) :=
  (Re.exec host regex.ignoreCase regex.re path).map (fun st =>
    (List.range regex.keys.length).map (fun i =>
      (st.caps.find? (fun c => c.1 == i + 1)).map (fun c => c.2)))

/-- Scalar values held by params and query objects. -/
inductive Atom where
  | undef
  | null
  | str (s : Str)
deriving DecidableEq, Repr

/-- Values of a params or query object: a scalar or an array of scalars. -/
inductive Value where
  | atom (a : Atom)
  | arr (xs : List Atom)
deriving DecidableEq, Repr

abbrev Params := Dict Value

abbrev Query := Dict Value

/-- The coercion `String(v)` of a scalar. -/
def Atom.toStr : Atom → Str
  | .undef => "undefined".toList
  | .null => "null".toList
  | .str s => s

/-- Truthiness of a value. -/
def Value.truthy : Value → Bool
  | .atom .undef => false
  | .atom .null => false
  | .atom (.str s) => !s.isEmpty
  | .arr _ => true

/-- Decimal text of a number, `String(n)`. -/
def natToStr (n : Nat) : Str := (Nat.repr n).toList

/-- Property name a key name denotes: `String(key.name)`. -/
def KeyName.prop : KeyName → Str
  | .named s => s
  | .index n => natToStr n

/-- The expression `key.name || 'pathMatch'` of `matchRoute`, as property name. -/
def KeyName.orPathMatch : KeyName → Str
  | .named s => if s.isEmpty then "pathMatch".toList else s
  | .index 0 => "pathMatch".toList
  | .index (n + 1) => natToStr (n + 1)

/-- The `for` loop of `matchRoute` over the captures and their keys.  The
assignment `params[key.name || 'pathMatch'] = val` is taken as an ordinary
write, which it is for every name but `__proto__`; the round trip of filling
and matching sets that name aside by a hypothesis. -/
def matchRouteLoop : List (Option Str) → List Key → Params → Js Params
  | [], _, params => .ok params
  | _ :: ms, [], params => matchRouteLoop ms [] params
  | m :: ms, key :: keys, params =>
    match m with
    | none => matchRouteLoop ms keys (Dict.set params key.name.orPathMatch (Value.atom Atom.undef))
    | some text =>
      match decodeURIComponent text with
      | none => .error JsError.uriError
      | some val => matchRouteLoop ms keys (Dict.set params key.name.orPathMatch (Value.atom (Atom.str val)))

/-- The function `matchRoute(regex, path, params)` with a `params` object:
`ok none` for `false`, `ok (some p)` for `true` with `params` updated to `p`. -/
def matchRoute (host : CustomGroups) (regex : RouteRegExp) (path : Str) (params : Params) :
    Js (Option Params) :=
  match regex.exec host path with
  | none => .ok none
  | some m => (matchRouteLoop m regex.keys params).map some

/-- Replace every character `keep` rejects by its `%XX` escape (upper case). -/
def escapeChars (bad : Char → Bool) (s : Str) : Str :=
  s.flatMap (fun c => if bad c then percentOctet c.toNat else [c])

def encodeURIComponentPretty (str : Str) : Str :=
  escapeChars (fun c => c == '/' || c == '?' || c == '#') (encodeURI str)

def encodeAsterisk (str : Str) : Str :=
  escapeChars (fun c => c == '?' || c == '#') (encodeURI str)

/-- The test `matches[i].test(segment)` of the filler, against
`new RegExp('^(?:' + pattern + ')$')`. -/
def segmentMatches (host : CustomGroups) (k : Key) (segment : Str) : Bool :=
  (Re.exec host false (Re.cat k.pattern.toRe Re.eol) segment).isSome

/-- The inner `for` loop of the filler over the values of a repeated key. -/
def fillRepeat (host : CustomGroups) (k : Key) (encode : Str → Str) :
    List Atom → Bool → Str → Js Str
  | [], _, path => .ok path
  | v :: vs, first, path =>
    let segment := encode v.toStr
    if !segmentMatches host k segment then
      .error (JsError.typeError "Expected all to match".toList)
    else fillRepeat host k encode vs false (path ++ (if first then k.pre else k.delimiter) ++ segment)

/-- The function returned by `tokensToFunction(tokens)`, applied to `(data, opts)`. -/
def tokensToFunction (host : CustomGroups) : List Token → Params → Bool → Str → Js Str
  | [], _, _, path => .ok path
  | Token.str s :: rest, data, pretty, path => tokensToFunction host rest data pretty (path ++ s)
  | Token.key k :: rest, data, pretty, path =>
    let encode := if pretty then encodeURIComponentPretty else encodeURIComponent
    match (Dict.get? data k.name.prop).getD (Value.atom Atom.undef) with
    | Value.atom Atom.undef | Value.atom Atom.null =>
      if k.optional then
        tokensToFunction host rest data pretty (if k.isPartial then path ++ k.pre else path)
      else .error (JsError.typeError "Expected to be defined".toList)
    | Value.arr xs =>
      if !k.isRepeat then .error (JsError.typeError "Expected to not repeat".toList)
      else if xs.isEmpty then
        if k.optional then tokensToFunction host rest data pretty path
        else .error (JsError.typeError "Expected to not be empty".toList)
      else
        match fillRepeat host k encode xs true path with
        | .error e => .error e
        | .ok path1 => tokensToFunction host rest data pretty path1
    | Value.atom (Atom.str value) =>
      let segment := if k.asterisk then encodeAsterisk value else encode value
      if !segmentMatches host k segment then
        .error (JsError.typeError "Expected to match".toList)
      else tokensToFunction host rest data pretty (path ++ k.pre ++ segment)

/-- The function `compile(str)`. -/
def compile (host : CustomGroups) (str : Str) (data : Params) (pretty : Bool) : Js Str :=
  tokensToFunction host (parse str) data pretty []

/-- The statement `delete obj[key]`. -/
def Dict.delete {α : Type} (d : Dict α) (k : Str) : Dict α :=
  d.filter (fun kv => !(kv.1 == k))

/-- The function `fillParams(path, params, routeMsg)`: the path returned (the
empty string when the filler throws) and the `params` object as the call
leaves it (its key `0` deleted). -/
def fillParams (host : CustomGroups) (path : Str) (params : Params) : Str × Params :=
  let params1 :=
    match Dict.get? params "pathMatch".toList with
    | some v => if v.truthy then Dict.set params "0".toList v else params
    | none => params
  let filled :=
    match compile host path params1 true with
    | .ok p => p
    | .error _ => []
  (filled, Dict.delete params1 "0".toList)

/-! ## Locations, records and routes -/

/-- Location objects, raw or normalised; an absent property is `none`. -/
structure Location where
  normalized : Bool := false
  name : Option Str := none
  path : Option Str := none
  hash : Option Str := none
  query : Option Query := none
  params : Option Params := none
  append : Bool := false
  replace : Bool := false
deriving DecidableEq, Repr

/-- Raw locations: a string or an object. -/
inductive RawLocation where
  | str (s : Str)
  | obj (loc : Location)
deriving DecidableEq, Repr

/-- Truthiness of an optional string property. -/
def truthy (s : Option Str) : Bool :=
  match s with
  | some t => !t.isEmpty
  | none => false

/-- What a `redirect` option evaluates to. -/
inductive RedirectTarget where
  | str (s : Str)
  | obj (loc : Location)
  /-- Any other value (`undefined`, a number, ...). -/
  | other
deriving DecidableEq, Repr

/-- The `redirect` option: a value, or a function (a handle). -/
inductive Redirect where
  | value (t : RedirectTarget)
  | fn (handle : Nat)
deriving DecidableEq, Repr

/-- Truthiness of `record.redirect`. -/
def Redirect.truthy : Redirect → Bool
  | .value (.str s) => !s.isEmpty
  | .value (.obj _) => true
  | .value .other => false
  | .fn _ => true

/-- The `props` of a record. -/
inductive RecordProps where
  /-- The value `{}`. -/
  | empty
  /-- The value `route.props`. -/
  | given (handle : Nat)
  /-- The value `{ default: route.props }`. -/
  | default (handle : Nat)
deriving DecidableEq, Repr

/-- Route records.  `uid` stands for the identity of the object (records are
compared with `===`); `instances` is owned by the view layer and is not part
of the record here. -/
inductive RouteRecord where
  | mk (uid : Nat) (path : Str) (regex : RouteRegExp)
      (components : Dict (Option Nat)) (name : Option Str)
      (parent : Option RouteRecord) (matchAs : Option Str)
      (redirect : Option Redirect) (beforeEnter : Option Nat)
      (metaData : Option Nat) (props : RecordProps)
deriving Repr

namespace RouteRecord

def uid : RouteRecord → Nat
  | mk u _ _ _ _ _ _ _ _ _ _ => u

def path : RouteRecord → Str
  | mk _ p _ _ _ _ _ _ _ _ _ => p

def regex : RouteRecord → RouteRegExp
  | mk _ _ r _ _ _ _ _ _ _ _ => r

def components : RouteRecord → Dict (Option Nat)
  | mk _ _ _ c _ _ _ _ _ _ _ => c

def name : RouteRecord → Option Str
  | mk _ _ _ _ n _ _ _ _ _ _ => n

def parent : RouteRecord → Option RouteRecord
  | mk _ _ _ _ _ p _ _ _ _ _ => p

def matchAs : RouteRecord → Option Str
  | mk _ _ _ _ _ _ m _ _ _ _ => m

def redirect : RouteRecord → Option Redirect
  | mk _ _ _ _ _ _ _ r _ _ _ => r

def beforeEnter : RouteRecord → Option Nat
  | mk _ _ _ _ _ _ _ _ b _ _ => b

/-- The field `meta`. -/
def metaData : RouteRecord → Option Nat
  | mk _ _ _ _ _ _ _ _ _ m _ => m

def props : RouteRecord → RecordProps
  | mk _ _ _ _ _ _ _ _ _ _ p => p

end RouteRecord

/-- The scalar options of a route configuration. -/
structure RouteOptions where
  path : Str
  name : Option Str := none
  component : Option Nat := none
  components : Option (Dict (Option Nat)) := none
  redirect : Option Redirect := none
  /-- The option `alias`: a string is the one-element list. -/
  aliases : Option (List Str) := none
  beforeEnter : Option Nat := none
  /-- The option `meta`. -/
  metaData : Option Nat := none
  props : Option Nat := none
  caseSensitive : Option Bool := none
  pathToRegexpOptions : Option PathToRegexpOptions := none
deriving DecidableEq, Repr

/-- Route configurations: the options and the `children`. -/
inductive RouteConfig where
  | mk (options : RouteOptions) (children : Option (List RouteConfig))
deriving Repr

def RouteConfig.options : RouteConfig → RouteOptions
  | .mk o _ => o

def RouteConfig.children : RouteConfig → Option (List RouteConfig)
  | .mk _ c => c

mutual
/-- Nesting depth of a configuration. -/
def RouteConfig.depth : RouteConfig → Nat
  | .mk _ none => 1
  | .mk _ (some cs) => RouteConfig.depthList cs + 1
/-- Largest nesting depth in a list of configurations. -/
def RouteConfig.depthList : List RouteConfig → Nat
  | [] => 0
  | c :: cs => max (RouteConfig.depth c) (RouteConfig.depthList cs)
end

/-- Resolved routes (the objects `createRoute` freezes). -/
structure Route where
  name : Option Str
  /-- The field `meta`: `none` stands for `{}`. -/
  metaData : Option Nat
  path : Str
  hash : Str
  query : Query
  params : Params
  fullPath : Str
  matched : List RouteRecord
  redirectedFrom : Option Str
deriving Repr

/-! ## String helpers of `util/path` and `util/query` -/

/-- The call `path.replace(/\/$/, '')`. -/
def stripTrailingSlash (path : Str) : Str :=
  if path.getLast? == some '/' then path.dropLast else path

/-- The function `cleanPath`: `path.replace(/\/\//g, '/')`. -/
def cleanPath : Str → Str
  | [] => []
  | [c] => [c]
  | c :: d :: rest =>
    if c == '/' && d == '/' then '/' :: cleanPath rest else c :: cleanPath (d :: rest)

/-- The call `s.split(sep)` for a one-character separator. -/
def splitOn (sep : Char) : Str → List Str
  | [] => [[]]
  | c :: rest =>
    match splitOn sep rest with
    | [] => [[]]
    | seg :: segs => if c == sep then [] :: seg :: segs else (c :: seg) :: segs

/-- The call `parts.join(sep)`. -/
def joinWith (sep : Str) : List Str → Str
  | [] => []
  | [a] => a
  | a :: rest => a ++ sep ++ joinWith sep rest

/-- The `for` loop of `resolvePath` over the segments of the relative path. -/
def resolveSegments : List Str → List Str → List Str
  | [], stack => stack
  | segment :: rest, stack =>
    if segment == "..".toList then resolveSegments rest stack.dropLast
    else if segment != ".".toList then resolveSegments rest (stack ++ [segment])
    else resolveSegments rest stack

/-- The function `resolvePath(relative, base, append)`. -/
def resolvePath (relative base : Str) (append : Bool) : Str :=
  match relative.head? with
  | some '/' => relative
  | some '?' => base ++ relative
  | some '#' => base ++ relative
  | _ =>
    let stack0 := splitOn '/' base
    let stack1 :=
      if !append || (stack0.getLast?.getD []).isEmpty then stack0.dropLast else stack0
    let segments := splitOn '/' (match relative with
      | '/' :: r => r
      | r => r)
    let stack2 := resolveSegments segments stack1
    let stack3 := if stack2.head? != some [] then [] :: stack2 else stack2
    joinWith ['/'] stack3

/-- The result of `parsePath`. -/
structure ParsedPath where
  path : Str
  query : Str
  hash : Str
deriving DecidableEq, Repr

/-- The function `parsePath(path)`. -/
def parsePath (path : Str) : ParsedPath :=
  let hash := path.dropWhile (fun c => c != '#')
  let path1 := path.takeWhile (fun c => c != '#')
  let query := (path1.dropWhile (fun c => c != '?')).drop 1
  let path2 := path1.takeWhile (fun c => c != '?')
  { path := path2, query := query, hash := hash }

/-- White space and line terminators, as `String.prototype.trim` strips them. -/
def isJsWhitespace (c : Char) : Bool :=
  let n := c.toNat
  (9 ≤ n && n ≤ 13) || n == 32 || n == 160 || n == 5760 || (8192 ≤ n && n ≤ 8202) ||
  n == 8232 || n == 8233 || n == 8239 || n == 8287 || n == 12288 || n == 65279

/-- The call `s.trim()`. -/
def trim (s : Str) : Str :=
  ((s.dropWhile isJsWhitespace).reverse.dropWhile isJsWhitespace).reverse

/-- Lower-case hexadecimal text of a number below 256, `n.toString(16)`. -/
def toLowerHex (n : Nat) : Str :=
  let digit := fun (d : Nat) => if d < 10 then Char.ofNat (48 + d) else Char.ofNat (87 + d)
  if n < 16 then [digit n] else [digit (n / 16), digit (n % 16)]

/-- The call `s.replace(/%2C/g, ',')`. -/
def restoreCommas : Str → Str
  | [] => []
  | [c] => [c]
  | [c, d] => [c, d]
  | c :: d :: e :: rest =>
    if c == '%' && d == '2' && e == 'C' then ',' :: restoreCommas rest
    else c :: restoreCommas (d :: e :: rest)

/-- The function `encode` of `util/query`. -/
def encode (str : Str) : Str :=
  restoreCommas ((encodeURIComponent str).flatMap (fun c =>
    if c == '!' || c == apostrophe || c == '(' || c == ')' || c == '*'
    then '%' :: toLowerHex c.toNat else [c]))

/-- The function `decode` of `util/query`. -/
def decode (s : Str) : Js Str :=
  match decodeURIComponent s with
  | some t => .ok t
  | none => .error JsError.uriError

/-- What one key of a query object contributes to `stringifyQuery`. -/
def stringifyEntry (key : Str) : Value → Str
  | .atom .undef => []
  | .atom .null => encode key
  | .atom (.str v) => encode key ++ ['='] ++ encode v
  | .arr xs =>
    joinWith ['&'] (xs.filterMap (fun v =>
      match v with
      | .undef => none
      | .null => some (encode key)
      | .str v2 => some (encode key ++ ['='] ++ encode v2)))

/-- The function `stringifyQuery(obj)` for a query object. -/
def stringifyQuery (obj : Query) : Str :=
  let res := joinWith ['&']
    ((obj.map (fun kv => stringifyEntry kv.1 kv.2)).filter (fun x => 0 < x.length))
  if res.isEmpty then [] else '?' :: res

/-- The text `String(f)` of the function that `Object.prototype` holds under a
name, as V8 prints it: `function toString() { [native code] }`. -/
def nativeText (name : Str) : Str :=
  "function ".toList ++ (if name == "constructor".toList then "Object".toList else name) ++
    "() { [native code] }".toList

/-- The read `res[key]` on the object `res` of `parseQuery`, which starts as
`{}`: an own property, else the member inherited from `Object.prototype`.
The inherited members are functions; a function is held by the text
`String(f)`, which is all that `stringifyQuery` and `isObjectEqual` read of a
value.  The accessor `__proto__` is treated by `parseQueryParam`. -/
def readMember (res : Query) (key : Str) : Option Value :=
  match Dict.get? res key with
  | some v => some v
  | none => if isProtoName key then some (Value.atom (Atom.str (nativeText key))) else none

/-- The body of the `forEach` of `parseQuery` for one `key=value` part.  For
the key `__proto__` the value read is the prototype, which is not `undefined`,
and the write goes to the setter of `Object.prototype` (or pushes onto the
array that an earlier such part has made the prototype): no own property is
stored.  The reads of later parts are exact as long as no part with the key
`__proto__` came before. -/
def parseQueryParam (res : Query) (param : Str) : Js Query :=
  let parts := splitOn '=' (param.map (fun c => if c == '+' then ' ' else c))
  match parts with
  | [] => .ok res
  | k :: vs =>
    match decode k with
    | .error e => .error e
    | .ok key =>
      let val : Js Atom :=
        if 0 < vs.length then (decode (joinWith ['='] vs)).map Atom.str else .ok Atom.null
      match val with
      | .error e => .error e
      | .ok v =>
        if key == "__proto__".toList then .ok res
        else
          match readMember res key with
          | none => .ok (Dict.set res key (Value.atom v))
          | some (Value.atom .undef) => .ok (Dict.set res key (Value.atom v))
          | some (Value.arr xs) => .ok (Dict.set res key (Value.arr (xs ++ [v])))
          | some (Value.atom a) => .ok (Dict.set res key (Value.arr [a, v]))

/-- The `forEach` of `parseQuery`. -/
def parseQueryParams : List Str → Query → Js Query
  | [], res => .ok res
  | param :: rest, res =>
    match parseQueryParam res param with
    | .error e => .error e
    | .ok res1 => parseQueryParams rest res1

/-- The function `parseQuery(query)`. -/
def parseQuery (query : Str) : Js Query :=
  let q0 := trim query
  let q1 := match q0 with
    | c :: rest => if c == '?' || c == '#' || c == '&' then rest else q0
    | [] => []
  if q1.isEmpty then .ok [] else parseQueryParams (splitOn '&' q1) []

/-- Options of the router the matcher reads (`router.options`), with the host's
matching of user-written groups and the behaviour of the redirect functions
behind their handles. -/
structure Router where
  parseQuery : Option (Str → Js Query) := none
  stringifyQuery : Option (Query → Str) := none
  customGroups : CustomGroups := noCustomGroups
  redirectFn : Nat → Route → RedirectTarget := fun _ _ => RedirectTarget.other

/-- The function `resolveQuery(query, extraQuery, _parseQuery)`. -/
def resolveQuery (query : Str) (extraQuery : Option Query) (customParse : Option (Str → Js Query)) :
    Query :=
  let parse := customParse.getD parseQuery
  let parsedQuery := match parse query with
    | .ok q => q
    | .error _ => []
  extend parsedQuery (extraQuery.getD [])

/-- The function `formatMatch(record)`: the chain of ancestors, root first. -/
def formatMatch : RouteRecord → List RouteRecord
  | .mk u p r c n none m rd b md pr => [.mk u p r c n none m rd b md pr]
  | .mk u p r c n (some par) m rd b md pr => formatMatch par ++ [.mk u p r c n (some par) m rd b md pr]

/-- The function `getFullPath(location, _stringifyQuery)`. -/
def getFullPath (location : Location) (customStringify : Option (Query → Str)) : Str :=
  let stringify := customStringify.getD stringifyQuery
  (if truthy location.path then location.path.getD [] else ['/']) ++
    stringify (location.query.getD []) ++ location.hash.getD []

/-- The function `createRoute(record, location, redirectedFrom, router)`. -/
def createRoute (record : Option RouteRecord) (location : Location)
    (redirectedFrom : Option Location) (router : Router) : Route :=
  { name := if truthy location.name then location.name else record.bind RouteRecord.name
    metaData := record.bind RouteRecord.metaData
    path := if truthy location.path then location.path.getD [] else ['/']
    hash := if truthy location.hash then location.hash.getD [] else []
    query := location.query.getD []
    params := location.params.getD []
    fullPath := getFullPath location router.stringifyQuery
    matched := match record with
      | some r => formatMatch r
      | none => []
    redirectedFrom := redirectedFrom.map (fun l => getFullPath l router.stringifyQuery) }

/-- The constant `START`. -/
def START : Route := createRoute none { path := some ['/'] } none {}

/-- The function `normalizeLocation(raw, current, append, router)`. -/
def normalizeLocation (raw : RawLocation) (current : Option Route) (append : Bool)
    (router : Router) : Location :=
  let next : Location := match raw with
    | .str s => { path := some s }
    | .obj l => l
  if next.normalized then next
  else if truthy next.name then next
  else
    match truthy next.path, next.params, current with
    | false, some nextParams, some cur =>
      let params := extend (extend [] cur.params) nextParams
      if truthy cur.name then
        { next with normalized := true, name := cur.name, params := some params }
      else
        match cur.matched.getLast? with
        | some leaf =>
          { next with normalized := true
                      path := some (fillParams router.customGroups leaf.path params).1 }
        | none => { next with normalized := true }
    | _, _, _ =>
      let parsedPath := parsePath (next.path.getD [])
      let basePath := match current with
        | some cur => if cur.path.isEmpty then ['/'] else cur.path
        | none => ['/']
      let path :=
        if !parsedPath.path.isEmpty then resolvePath parsedPath.path basePath (append || next.append)
        else basePath
      let query := resolveQuery parsedPath.query next.query router.parseQuery
      let hash0 := if truthy next.hash then next.hash.getD [] else parsedPath.hash
      let hash := if !hash0.isEmpty && hash0.head? != some '#' then '#' :: hash0 else hash0
      { normalized := true, path := some path, query := some query, hash := some hash }

/-! ## The route registry (`create-route-map.js`) -/

/-- The three tables of `createRouteMap`; `nextUid` is the identity the next
record object created will get. -/
structure RouteMap where
  pathList : List Str
  pathMap : Dict RouteRecord
  nameMap : Dict RouteRecord
  nextUid : Nat
deriving Repr

/-- Empty tables: `[]`, `Object.create(null)`, `Object.create(null)`. -/
def RouteMap.empty : RouteMap := { pathList := [], pathMap := [], nameMap := [], nextUid := 0 }

/-- The function `normalizePath(path, parent, strict)`. -/
def normalizePath (path : Str) (parent : Option RouteRecord) (strict : Bool) : Str :=
  let path1 := if !strict then stripTrailingSlash path else path
  if path1.head? == some '/' then path1
  else
    match parent with
    | none => path1
    | some par => cleanPath (par.path ++ ['/'] ++ path1)

/-- The function `compileRouteRegex(path, pathToRegexpOptions)`. -/
def compileRouteRegex (path : Str) (pathToRegexpOptions : PathToRegexpOptions) : RouteRegExp :=
  pathToRegexp path pathToRegexpOptions

/-- The record object `addRouteRecord` builds for a configuration. -/
def makeRecord (uid : Nat) (route : RouteOptions) (parent : Option RouteRecord)
    (matchAs : Option Str) : RouteRecord :=
  let options0 := route.pathToRegexpOptions.getD {}
  let normalizedPath := normalizePath route.path parent options0.strict
  let options := match route.caseSensitive with
    | some b => { options0 with sensitive := b }
    | none => options0
  RouteRecord.mk uid normalizedPath (compileRouteRegex normalizedPath options)
    (match route.components with
      | some cs => cs
      | none => [("default".toList, route.component)])
    route.name parent matchAs route.redirect route.beforeEnter route.metaData
    (match route.props with
      | none => RecordProps.empty
      | some h => if route.components.isSome then RecordProps.given h else RecordProps.default h)

/-- The last two statements of `addRouteRecord`: register the record under
its path and under its name unless the key is taken. -/
def registerRecord (m : RouteMap) (record : RouteRecord) : RouteMap :=
  let m1 :=
    if (Dict.get? m.pathMap record.path).isNone then
      { m with pathList := m.pathList ++ [record.path]
               pathMap := Dict.set m.pathMap record.path record }
    else m
  match record.name with
  | some name =>
    if !name.isEmpty && (Dict.get? m1.nameMap name).isNone then
      { m1 with nameMap := Dict.set m1.nameMap name record }
    else m1
  | none => m1

/-- The function `addRouteRecord(pathList, pathMap, nameMap, route, parent, matchAs)`.
The fuel bounds the depth of the recursion (into children and into aliases). -/
def addRouteRecord : Nat → RouteMap → RouteConfig → Option RouteRecord → Option Str → RouteMap
  | 0, m, _, _, _ => m
  | fuel + 1, m, route, parent, matchAs =>
    let record := makeRecord m.nextUid route.options parent matchAs
    let m0 := { m with nextUid := m.nextUid + 1 }
    let m1 := match route.children with
      | some children =>
        children.foldl (fun acc child =>
          let childMatchAs :=
            if truthy matchAs then
              some (cleanPath (matchAs.getD [] ++ ['/'] ++ child.options.path))
            else none
          addRouteRecord fuel acc child (some record) childMatchAs) m0
      | none => m0
    let m2 := match route.options.aliases with
      | some aliases =>
        aliases.foldl (fun acc aliasPath =>
          let aliasRoute := RouteConfig.mk { path := aliasPath } route.children
          addRouteRecord fuel acc aliasRoute parent
            (some (if record.path.isEmpty then ['/'] else record.path))) m1
      | none => m1
    registerRecord m2 record

/-- The `for` loop of `createRouteMap` that moves each entry `'*'` to the end:
`i` and `l` are the loop variables (an entry moved leaves `i` in place, by
`i--` followed by `i++`). -/
def moveWildcards : Nat → Nat → Nat → List Str → List Str
  | 0, _, _, pathList => pathList
  | fuel + 1, i, l, pathList =>
    if i < l then
      if pathList.get? i == some "*".toList then
        moveWildcards fuel i (l - 1) (pathList.eraseIdx i ++ ["*".toList])
      else moveWildcards fuel (i + 1) l pathList
    else pathList

/-- The statement `routes.forEach(route => addRouteRecord(...))` of
`createRouteMap`. -/
def addRouteRecords (routes : List RouteConfig) (old : RouteMap) : RouteMap :=
  let fuel := 2 * RouteConfig.depthList routes + 1
  routes.foldl (fun acc route => addRouteRecord fuel acc route none none) old

/-- The function `createRouteMap(routes, oldPathList, oldPathMap, oldNameMap)`;
the old tables are `RouteMap.empty` when they are not given. -/
def createRouteMap (routes : List RouteConfig) (old : RouteMap) : RouteMap :=
  let m := addRouteRecords routes old
  { m with pathList := moveWildcards m.pathList.length 0 m.pathList.length m.pathList }

/-! ## The matcher (`createMatcher`) -/

/-- The function `resolveRecordPath(path, record)`. -/
def resolveRecordPath (path : Str) (record : RouteRecord) : Str :=
  resolvePath path (match record.parent with
    | some par => par.path
    | none => ['/']) true

/-- The `for ... in` loop of `match` that copies params of the current route
onto a named location. -/
def backfillParams (paramNames : List KeyName) (currentParams : Params) (params : Params) : Params :=
  currentParams.foldl (fun acc kv =>
    if !Dict.hasIn acc kv.1 && paramNames.contains (KeyName.named kv.1) then Dict.set acc kv.1 kv.2
    else acc) params

/-- The `for` loop of `match` over `pathList`: the first record whose regex
matches the path, with the params `matchRoute` extracted.  A path of the list
without record in `pathMap` makes `record.regex` throw. -/
def scanPathList (host : CustomGroups) (pathMap : Dict RouteRecord) (path : Str) :
    List Str → Js (Option (RouteRecord × Params))
  | [] => .ok none
  | p :: rest =>
    match Dict.get? pathMap p with
    | none => .error (JsError.typeError "Cannot read property regex of undefined".toList)
    | some record =>
      match matchRoute host record.regex path [] with
      | .error e => .error e
      | .ok (some params) => .ok (some (record, params))
      | .ok none => scanPathList host pathMap path rest

/-- The inner function `redirect(record, location)` of `createMatcher`;
`doMatch` is `match` and `doCreate` is `_createRoute`. -/
def redirect (router : Router) (m : RouteMap)
    (doMatch : RawLocation → Option Route → Option Location → Js Route)
    (doCreate : Option RouteRecord → Location → Option Location → Js Route)
    (record : RouteRecord) (location : Location) : Js Route :=
  let target : RedirectTarget := match record.redirect with
    | some (.fn h) => router.redirectFn h (createRoute (some record) location none router)
    | some (.value t) => t
    | none => RedirectTarget.other
  let asObject : Option Location := match target with
    | .str s => some { path := some s }
    | .obj l => some l
    | .other => none
  match asObject with
  | none => doCreate none location none
  | some re =>
    let query := if re.query.isSome then re.query else location.query
    let hash := if re.hash.isSome then re.hash else location.hash
    let params := if re.params.isSome then re.params else location.params
    if truthy re.name then
      match Dict.get? m.nameMap (re.name.getD []) with
      | none => .error (JsError.assertion "redirect failed: named route not found".toList)
      | some _ =>
        doMatch (.obj { normalized := true, name := re.name, query := query, hash := hash,
                        params := params }) none (some location)
    else if truthy re.path then
      let rawPath := resolveRecordPath (re.path.getD []) record
      let resolvedPath := (fillParams router.customGroups rawPath (params.getD [])).1
      doMatch (.obj { normalized := true, path := some resolvedPath, query := query,
                      hash := hash }) none (some location)
    else doCreate none location none

/-- The inner function `alias(record, location, matchAs)` of `createMatcher`. -/
def resolveAlias (router : Router)
    (doMatch : RawLocation → Option Route → Option Location → Js Route)
    (doCreate : Option RouteRecord → Location → Option Location → Js Route)
    (location : Location) (matchAs : Str) : Js Route :=
  let aliasedPath := (fillParams router.customGroups matchAs (location.params.getD [])).1
  match doMatch (.obj { normalized := true, path := some aliasedPath }) none none with
  | .error e => .error e
  | .ok aliasedMatch =>
    doCreate aliasedMatch.matched.getLast? { location with params := some aliasedMatch.params } none

mutual
/-- The inner function `match(raw, currentRoute, redirectedFrom)` of
`createMatcher`.  The fuel is the depth of calls left on the stack. -/
def matcherMatch (router : Router) (m : RouteMap) :
    Nat → RawLocation → Option Route → Option Location → Js Route
  | 0, _, _, _ => .error JsError.stackOverflow
  | fuel + 1, raw, currentRoute, redirectedFrom =>
    let location := normalizeLocation raw currentRoute false router
    if truthy location.name then
      match Dict.get? m.nameMap (location.name.getD []) with
      | none => _createRoute router m fuel none location none
      | some record =>
        let paramNames := (record.regex.keys.filter (fun key => !key.optional)).map (fun key => key.name)
        let params0 := location.params.getD []
        let params1 := match currentRoute with
          | some cur => backfillParams paramNames cur.params params0
          | none => params0
        let filled := fillParams router.customGroups record.path params1
        _createRoute router m fuel (some record)
          { location with params := some filled.2, path := some filled.1 } redirectedFrom
    else if truthy location.path then
      match scanPathList router.customGroups m.pathMap (location.path.getD []) m.pathList with
      | .error e => .error e
      | .ok (some (record, params)) =>
        _createRoute router m fuel (some record) { location with params := some params } redirectedFrom
      | .ok none => _createRoute router m fuel none { location with params := some [] } none
    else _createRoute router m fuel none location none
/-- The inner function `_createRoute(record, location, redirectedFrom)` of
`createMatcher`. -/
def _createRoute (router : Router) (m : RouteMap) :
    Nat → Option RouteRecord → Location → Option Location → Js Route
  | 0, _, _, _ => .error JsError.stackOverflow
  | fuel + 1, record, location, redirectedFrom =>
    match record with
    | some r =>
      if (r.redirect.map Redirect.truthy).getD false then
        redirect router m (matcherMatch router m fuel) (_createRoute router m fuel) r
          (redirectedFrom.getD location)
      else if truthy r.matchAs then
        resolveAlias router (matcherMatch router m fuel) (_createRoute router m fuel) location
          (r.matchAs.getD [])
      else .ok (createRoute record location redirectedFrom router)
    | none => .ok (createRoute record location redirectedFrom router)
end

/-! ## Route equality (`util/route`) -/

/-- Whether `typeof v === 'object'` for a scalar. -/
def Atom.isObject : Atom → Bool
  | .null => true
  | _ => false

/-- The comparison of two property values in `isObjectEqual` when they are
scalars: nested equality for two `null`s, else equality of `String(v)`. -/
def atomEqual (a b : Atom) : Bool :=
  if a.isObject && b.isObject then true else a.toStr == b.toStr

/-- The coercion `String(v)`: an array joins the coercions of its entries
(`null` and `undefined` entries as the empty string) with commas. -/
def Value.toStr : Value → Str
  | .atom a => a.toStr
  | .arr xs => joinWith [','] (xs.map (fun a =>
      match a with
      | .str s => s
      | _ => []))

/-- The comparison of two property values in `isObjectEqual`: `none` is a
missing property (`undefined`). -/
def valueEqual (a b : Option Value) : Bool :=
  match a, b with
  | some (.arr xs), some (.arr ys) =>
    xs.length == ys.length && (List.zipWith atomEqual xs ys).all id
  | some (.arr _), some (.atom .null) => false
  | some (.atom .null), some (.arr _) => false
  | _, _ =>
    (a.getD (.atom .undef)).toStr == (b.getD (.atom .undef)).toStr ||
      (a == some (.atom .null) && b == some (.atom .null))

/-- The function `isObjectEqual(a, b)` on two params or query objects. -/
def isObjectEqual (a b : Dict Value) : Bool :=
  let aKeys := a.map (fun kv => kv.1)
  let bKeys := b.map (fun kv => kv.1)
  if aKeys.length != bKeys.length then false
  else aKeys.all (fun key => valueEqual (Dict.get? a key) (Dict.get? b key))

/-- Route objects: `id` stands for the identity of the object, `0` being the
object `START`. -/
structure RouteObj where
  id : Nat
  route : Route
deriving Repr

/-- The call `path.replace(trailingSlashRE, '')`. -/
def dropTrailingSlash (path : Str) : Str := stripTrailingSlash path

/-- The function `isSameRoute(a, b)`. -/
def isSameRoute (a b : RouteObj) : Bool :=
  if b.id == 0 then a.id == b.id
  else if !a.route.path.isEmpty && !b.route.path.isEmpty then
    dropTrailingSlash a.route.path == dropTrailingSlash b.route.path &&
    a.route.hash == b.route.hash && isObjectEqual a.route.query b.route.query
  else if truthy a.route.name && truthy b.route.name then
    a.route.name == b.route.name && a.route.hash == b.route.hash &&
    isObjectEqual a.route.query b.route.query && isObjectEqual a.route.params b.route.params
  else false

/-! ## The transition engine (`history/base.js`)

Guards are functions of the application: the engine calls a guard and the
guard later calls the continuation it was given.  The embedding is a state
machine.  Its state is the `History` object together with the closures of
the `confirmTransition` calls made so far; its events are the call
`transitionTo` and what guards do with their continuations.  Every call the
engine makes to the outside (guards, callbacks, `ensureURL`, `push`) is
appended to a log.  Callbacks are taken not to throw and not to call back
into the engine before they return. -/

/-- The component options a route guard is read from. -/
inductive HookName where
  | beforeRouteLeave
  | beforeRouteUpdate
  | beforeRouteEnter
deriving DecidableEq, Repr

/-- The value `def.options[key]` that `extractGuard` returns: nothing, a guard
or an array of guards (guards are handles). -/
inductive GuardOption where
  | undefined
  | single (g : Nat)
  | array (gs : List Nat)
deriving DecidableEq, Repr

/-- What the engine reads from the view layer when it builds a queue. -/
structure ViewLayer where
  /-- The value `extractGuard(def, key)` for a component `def`. -/
  extractGuard : Option Nat → HookName → GuardOption
  /-- The value `record.instances[key]`, by the identity of the record. -/
  instances : Nat → Str → Option Nat
  /-- Whether `typeof def === 'function' && def.cid === undefined`. -/
  isAsync : Option Nat → Bool

/-- Entries of a guard queue. -/
inductive Guard where
  /-- The result `boundRouteGuard` of `bindGuard(guard, instance)`. -/
  | bound (name : HookName) (fn : Nat) (vm : Nat)
  /-- An entry of `router.beforeHooks`. -/
  | beforeEach (fn : Nat)
  /-- The `beforeEnter` of a record. -/
  | beforeEnter (fn : Nat)
  /-- The step `resolveAsyncComponents(activated)`. -/
  | resolveAsync
  /-- The result `routeEnterGuard` of `bindEnterGuard(guard, match, key, ...)`. -/
  | enter (fn : Nat) (record : Nat) (key : Str)
  /-- An entry of `router.resolveHooks`. -/
  | beforeResolve (fn : Nat)
deriving DecidableEq, Repr

/-- The function `flatMapComponents(matched, fn)`. -/
def flatMapComponents {α : Type} (view : ViewLayer) (matched : List RouteRecord)
    (fn : Option Nat → Option Nat → RouteRecord → Str → α) : List α :=
  matched.flatMap (fun m =>
    m.components.map (fun kv => fn kv.2 (view.instances m.uid kv.1) m kv.1))

/-- The function `extractGuards(records, name, bind, reverse)`.  The callback
given to `flatMapComponents` returns `undefined`, one bound guard or an array
of bound guards; the final `flatten` spreads the arrays. -/
def extractGuards (view : ViewLayer) (records : List RouteRecord) (name : HookName)
    (bind : Nat → Option Nat → RouteRecord → Str → Option Guard) (reverse : Bool) :
    List (Option Guard) :=
  let guards : List (List (Option Guard)) :=
    flatMapComponents view records (fun comp vm m key =>
      match view.extractGuard comp name with
      | .undefined => [none]
      | .single g => [bind g vm m key]
      | .array gs => gs.map (fun g => bind g vm m key))
  (if reverse then guards.reverse else guards).flatten

/-- The function `bindGuard(guard, instance)`. -/
def bindGuard (name : HookName) (guard : Nat) (vm : Option Nat) : Option Guard :=
  vm.map (fun i => Guard.bound name guard i)

/-- The function `extractLeaveGuards(deactivated)`. -/
def extractLeaveGuards (view : ViewLayer) (deactivated : List RouteRecord) : List (Option Guard) :=
  extractGuards view deactivated HookName.beforeRouteLeave
    (fun g vm _ _ => bindGuard HookName.beforeRouteLeave g vm) true

/-- The function `extractUpdateHooks(updated)`. -/
def extractUpdateHooks (view : ViewLayer) (updated : List RouteRecord) : List (Option Guard) :=
  extractGuards view updated HookName.beforeRouteUpdate
    (fun g vm _ _ => bindGuard HookName.beforeRouteUpdate g vm) false

/-- The function `extractEnterGuards(activated, cbs, isValid)`. -/
def extractEnterGuards (view : ViewLayer) (activated : List RouteRecord) : List (Option Guard) :=
  extractGuards view activated HookName.beforeRouteEnter
    (fun g _ m key => some (Guard.enter g m.uid key)) false

/-- The test `current[i] !== next[i]` of `resolveQueue`, negated. -/
def sameRecord (a b : Option RouteRecord) : Bool :=
  match a, b with
  | some x, some y => x.uid == y.uid
  | none, none => true
  | _, _ => false

/-- The `for` loop of `resolveQueue`: the value of `i` when it ends. -/
def resolveQueueLoop (current next : List RouteRecord) : Nat → Nat → Nat
  | 0, i => i
  | fuel + 1, i =>
    if i < max current.length next.length then
      if sameRecord (current.get? i) (next.get? i) then resolveQueueLoop current next fuel (i + 1)
      else i
    else i

/-- The result of `resolveQueue`. -/
structure ResolvedQueue where
  updated : List RouteRecord
  activated : List RouteRecord
  deactivated : List RouteRecord

/-- The function `resolveQueue(current, next)`. -/
def resolveQueue (current next : List RouteRecord) : ResolvedQueue :=
  let i := resolveQueueLoop current next (max current.length next.length) 0
  { updated := next.take i, activated := next.drop i, deactivated := current.drop i }

/-- What a guard passes to its continuation. -/
inductive NextArg where
  /-- Nothing, or `undefined`. -/
  | undef
  /-- The value `null`. -/
  | null
  | boolFalse
  /-- An error-like value (`isError`). -/
  | error (e : Nat)
  | str (s : Str)
  /-- A location object. -/
  | obj (loc : Location)
  /-- A route object (it has a string `path`). -/
  | route (id : Nat)
  /-- A function, as an enter guard may pass. -/
  | callback (cb : Nat)
  /-- Any other value: `true`, a number, an object without a string `path` or
  `name` that is not error-like. -/
  | other
deriving DecidableEq, Repr

/-- How the continuation of `iterator` reads the value it is called with. -/
inductive Resolution where
  | abort
  | redirect (replace : Bool)
  | proceed
  /-- The continuation throws a `TypeError` before it does anything: the test
  `typeof to.path === 'string'` reads a property of `null`. -/
  | throws
deriving DecidableEq, Repr

/-- The case distinction of the continuation built by `iterator`. -/
def classify : NextArg → Resolution
  | .null => .throws
  | .boolFalse => .abort
  | .error _ => .abort
  | .str _ => .redirect false
  | .obj loc => if loc.path.isSome || loc.name.isSome then .redirect loc.replace else .proceed
  | .route _ => .redirect false
  | _ => .proceed

/-- The argument of `abort`. -/
inductive AbortArg where
  | undef
  | boolFalse
  | error (e : Nat)
  /-- A thrown value that is not error-like; `truthy` is its truthiness. -/
  | thrown (truthy : Bool)
deriving DecidableEq, Repr

/-- Calls the engine makes to the outside. -/
inductive Effect where
  /-- The call `hook(route, current, ...)` of `iterator` for transition `t`. -/
  | guardCalled (t : Nat) (g : Guard)
  | ensureURL (push : Bool)
  /-- An error observer registered with `onError` is called. -/
  | errorCb (cb : Nat) (e : Nat)
  /-- The call `console.error(err)` when no observer is registered. -/
  | consoleError (e : Nat)
  /-- The `onAbort` given to `confirmTransition` for transition `t` is called. -/
  | onAbort (t : Nat) (err : AbortArg)
  /-- The `onAbort` given to `transitionTo` is called. -/
  | userOnAbort (t : Nat) (cb : Nat) (err : AbortArg)
  /-- The `onComplete` given to `confirmTransition` for transition `t` is called. -/
  | onComplete (t : Nat)
  /-- The `onComplete` given to `transitionTo` is called. -/
  | userOnComplete (t : Nat) (cb : Nat)
  /-- The listener `this.cb` is called by `updateRoute`. -/
  | listener (t : Nat)
  | afterHook (fn : Nat) (t : Nat)
  | readyCb (cb : Nat) (t : Nat)
  | readyErrorCb (cb : Nat) (err : AbortArg)
  /-- The call `cb()` of `onReady` in an engine that is ready. -/
  | readyNow (cb : Nat)
  /-- The call `this.push(to)` of a redirecting guard. -/
  | push (target : NextArg)
  /-- The call `this.replace(to)` of a redirecting guard. -/
  | replace (target : NextArg)
deriving DecidableEq, Repr

/-- The closure of one `confirmTransition` call made by `transitionTo`. -/
structure Transition where
  /-- The target `route`; its identity names the transition. -/
  route : RouteObj
  /-- The constant `current` of the closure. -/
  current : RouteObj
  activated : List RouteRecord
  /-- The first queue. -/
  queue : List (Option Guard)
  /-- The second queue, once the first has drained. -/
  enterQueue : Option (List (Option Guard))
  /-- The continuations handed out so far: second queue or not, and index. -/
  invoked : List (Bool × Nat)
  /-- The continuations called so far. -/
  answered : List (Bool × Nat)
  userOnComplete : Option Nat
  userOnAbort : Option Nat

/-- The `History` object, the hook lists of its router, the closures of its
transitions (by the identity of their route) and the log of its calls to the
outside. -/
structure History where
  current : RouteObj
  /-- The field `pending`, by the identity of the route. -/
  pending : Option Nat
  ready : Bool
  /-- The listener `this.cb` is set. -/
  hasListener : Bool
  readyCbs : List Nat
  readyErrorCbs : List Nat
  errorCbs : List Nat
  beforeHooks : List (Option Nat)
  resolveHooks : List (Option Nat)
  afterHooks : List (Option Nat)
  transitions : Nat → Option Transition
  /-- The number of route objects `transitionTo` has made. -/
  made : Nat
  log : List Effect

/-- A new `History`: `current = START`, `pending = null`, `ready = false`. -/
def History.init : History :=
  { current := { id := 0, route := START }, pending := none, ready := false,
    hasListener := false, readyCbs := [], readyErrorCbs := [], errorCbs := [],
    beforeHooks := [], resolveHooks := [], afterHooks := [], transitions := fun _ => none,
    made := 0, log := [] }

def History.emit (s : History) (es : List Effect) : History := { s with log := s.log ++ es }

def History.setTransition (s : History) (tr : Transition) : History :=
  { s with transitions := fun t => if t = tr.route.id then some tr else s.transitions t }

/-- Truthiness of the argument of `abort`. -/
def AbortArg.truthy : AbortArg → Bool
  | .undef => false
  | .boolFalse => false
  | .error _ => true
  | .thrown b => b

/-- The closure `abort` of `confirmTransition`, followed by the `onAbort`
that `transitionTo` passes. -/
def abort (s : History) (tr : Transition) (err : AbortArg) : History :=
  let s1 := match err with
    | .error e =>
      if 0 < s.errorCbs.length then s.emit (s.errorCbs.map (fun cb => Effect.errorCb cb e))
      else s.emit [Effect.consoleError e]
    | _ => s
  let s2 := s1.emit [Effect.onAbort tr.route.id err]
  let s3 := match tr.userOnAbort with
    | some cb => s2.emit [Effect.userOnAbort tr.route.id cb err]
    | none => s2
  if err.truthy && !s3.ready then
    { s3.emit (s3.readyErrorCbs.map (fun cb => Effect.readyErrorCb cb err)) with ready := true }
  else s3

/-- The method `updateRoute(route)`. -/
def updateRoute (s : History) (route : RouteObj) : History :=
  let s1 := { s with current := route }
  let s2 := if s1.hasListener then s1.emit [Effect.listener route.id] else s1
  s2.emit (s2.afterHooks.filterMap (fun h => h.map (fun fn => Effect.afterHook fn route.id)))

/-- The `onComplete` that `transitionTo` passes to `confirmTransition`. -/
def complete (s : History) (tr : Transition) : History :=
  let s1 := (updateRoute (s.emit [Effect.onComplete tr.route.id]) tr.route)
  let s2 := match tr.userOnComplete with
    | some cb => s1.emit [Effect.userOnComplete tr.route.id cb]
    | none => s1
  let s3 := s2.emit [Effect.ensureURL false]
  if !s3.ready then
    { s3.emit (s3.readyCbs.map (fun cb => Effect.readyCb cb tr.route.id)) with ready := true }
  else s3

/-- Whether `resolveAsyncComponents(activated)` finds a component to load. -/
def hasAsync (view : ViewLayer) (activated : List RouteRecord) : Bool :=
  (flatMapComponents view activated (fun comp _ _ _ => view.isAsync comp)).any id

/-- The function `step(index)` of `runQueue(queue, iterator, cb)` for the
transition `t`: the state when it stops, and whether it stopped by calling
`cb`.  A guard that is called gets its continuation and the engine waits; the
step `resolveAsyncComponents` calls its continuation at once when there is
nothing to load. -/
def stepQueue (view : ViewLayer) (t : Nat) (enter : Bool) (queue : List (Option Guard)) :
    Nat → Nat → History → History × Bool
  | 0, _, s => (s, false)
  | fuel + 1, index, s =>
    if queue.length ≤ index then (s, true)
    else
      match queue.get? index with
      | some (some hook) =>
        match s.transitions t with
        | none => (s, false)
        | some tr =>
          if s.pending != some t then (abort s tr AbortArg.undef, false)
          else
            let s1 := (s.emit [Effect.guardCalled t hook]).setTransition
              { tr with invoked := tr.invoked ++ [(enter, index)] }
            if hook == Guard.resolveAsync && !hasAsync view tr.activated then
              stepQueue view t enter queue fuel (index + 1)
                (s1.setTransition { tr with invoked := tr.invoked ++ [(enter, index)]
                                            answered := tr.answered ++ [(enter, index)] })
            else (s1, false)
      | _ => stepQueue view t enter queue fuel (index + 1) s

/-- The callback of the second `runQueue` of `confirmTransition`. -/
def finishTransition (s : History) (t : Nat) : History :=
  match s.transitions t with
  | none => s
  | some tr =>
    if s.pending != some t then abort s tr AbortArg.undef
    else complete { s with pending := none } tr

/-- The callback of the first `runQueue` of `confirmTransition`: build the
second queue and run it. -/
def runEnterQueue (view : ViewLayer) (s : History) (t : Nat) : History :=
  match s.transitions t with
  | none => s
  | some tr =>
    let queue := extractEnterGuards view tr.activated ++
      s.resolveHooks.map (fun h => h.map Guard.beforeResolve)
    let s1 := s.setTransition { tr with enterQueue := some queue }
    let r := stepQueue view t true queue (queue.length + 1) 0 s1
    if r.2 then finishTransition r.1 t else r.1

/-- The call `step(index)` in the queue a continuation belongs to, with the
callback of that queue. -/
def continueQueue (view : ViewLayer) (s : History) (t : Nat) (enter : Bool) (index : Nat) :
    History :=
  match s.transitions t with
  | none => s
  | some tr =>
    let queue := if enter then tr.enterQueue.getD [] else tr.queue
    let r := stepQueue view t enter queue (queue.length + 1) index s
    if r.2 then (if enter then finishTransition r.1 t else runEnterQueue view r.1 t) else r.1

/-- The argument `abort(to)` gets from a continuation called with `to`. -/
def NextArg.toAbortArg : NextArg → AbortArg
  | .boolFalse => AbortArg.boolFalse
  | .error e => AbortArg.error e
  | _ => AbortArg.undef

/-- The continuation `(to) => ...` that `iterator` gives the guard at `index`. -/
def callContinuation (view : ViewLayer) (s : History) (tr : Transition) (enter : Bool)
    (index : Nat) (arg : NextArg) : History :=
  let s0 := s.setTransition { tr with answered := tr.answered ++ [(enter, index)] }
  match classify arg with
  | .abort => abort (s0.emit [Effect.ensureURL true]) tr arg.toAbortArg
  | .redirect replace =>
    (abort s0 tr AbortArg.undef).emit [if replace then Effect.replace arg else Effect.push arg]
  | .proceed => continueQueue view s0 tr.route.id enter (index + 1)
  | .throws => s0

/-- The method `confirmTransition(route, onComplete, onAbort)` as `transitionTo`
calls it. -/
def confirmTransition (view : ViewLayer) (s : History) (route : RouteObj)
    (userOnComplete userOnAbort : Option Nat) : History :=
  let current := s.current
  let tr0 : Transition :=
    { route := route, current := current, activated := [], queue := [], enterQueue := none,
      invoked := [], answered := [], userOnComplete := userOnComplete, userOnAbort := userOnAbort }
  if isSameRoute route current && route.route.matched.length == current.route.matched.length then
    abort ((s.setTransition tr0).emit [Effect.ensureURL false]) tr0 AbortArg.undef
  else
    let q := resolveQueue s.current.route.matched route.route.matched
    let queue :=
      extractLeaveGuards view q.deactivated ++
      s.beforeHooks.map (fun h => h.map Guard.beforeEach) ++
      extractUpdateHooks view q.updated ++
      q.activated.map (fun m => m.beforeEnter.map Guard.beforeEnter) ++
      [some Guard.resolveAsync]
    let tr := { tr0 with activated := q.activated, queue := queue }
    continueQueue view { s.setTransition tr with pending := some route.id } route.id false 0

/-- What happens to the engine. -/
inductive Event where
  /-- The call `transitionTo(location, onComplete, onAbort)`, where `route` is
  what `router.match(location, current)` returned. -/
  | transitionTo (route : Route) (onComplete onAbort : Option Nat)
  /-- The guard at `index` of the first or second queue of transition `t` calls
  its continuation with `arg`. -/
  | next (t : Nat) (enter : Bool) (index : Nat) (arg : NextArg)
  /-- The guard at `index` throws `e` before it returns. -/
  | throws (t : Nat) (enter : Bool) (index : Nat) (e : AbortArg)
  /-- The last component the step `resolveAsyncComponents` waits for has
  resolved: the step calls `next(to)`. -/
  | asyncResolved (t : Nat)
  /-- A component the step `resolveAsyncComponents` waits for is rejected with
  an error: the step calls `next(error)`. -/
  | asyncRejected (t : Nat) (e : Nat)

/-- Whether the continuation of the guard at `index` has been handed out to an
application guard. -/
def Transition.handedOut (tr : Transition) (enter : Bool) (index : Nat) : Bool :=
  tr.invoked.contains (enter, index) &&
    (if enter then true else tr.queue.get? index != some (some Guard.resolveAsync))

/-- One event of the engine. -/
def step (view : ViewLayer) (s : History) : Event → History
  | .transitionTo route onComplete onAbort =>
    confirmTransition view { s with made := s.made + 1 } { id := s.made + 1, route := route }
      onComplete onAbort
  | .next t enter index arg =>
    match s.transitions t with
    | some tr => if tr.handedOut enter index then callContinuation view s tr enter index arg else s
    | none => s
  | .throws t enter index e =>
    match s.transitions t with
    | some tr => if tr.handedOut enter index then abort s tr e else s
    | none => s
  | .asyncResolved t =>
    match s.transitions t with
    | some tr =>
      if tr.invoked.contains (false, tr.queue.length - 1) && hasAsync view tr.activated then
        callContinuation view s tr false (tr.queue.length - 1) (NextArg.route t)
      else s
    | none => s
  | .asyncRejected t e =>
    match s.transitions t with
    | some tr =>
      if tr.invoked.contains (false, tr.queue.length - 1) && hasAsync view tr.activated then
        callContinuation view s tr false (tr.queue.length - 1) (NextArg.error e)
      else s
    | none => s

/-- A run of events. -/
def run (view : ViewLayer) (s : History) (events : List Event) : History :=
  events.foldl (step view) s

/-- The method `onReady(cb, errorCb)`. -/
def onReady (s : History) (cb : Nat) (errorCb : Option Nat) : History :=
  if s.ready then s.emit [Effect.readyNow cb]
  else
    { s with readyCbs := s.readyCbs ++ [cb]
             readyErrorCbs := match errorCb with
               | some e => s.readyErrorCbs ++ [e]
               | none => s.readyErrorCbs }

/-- What the application does with the engine: an event of a transition, or a
call of `onReady`. -/
inductive Action where
  | event (e : Event)
  | onReady (cb : Nat) (errorCb : Option Nat)

/-- One action. -/
def act (view : ViewLayer) (s : History) : Action → History
  | .event e => step view s e
  | .onReady cb errorCb => onReady s cb errorCb

/-- A run of actions. -/
def runActions (view : ViewLayer) (s : History) (actions : List Action) : History :=
  actions.foldl (act view) s

/-- The application guard of transition `t` that has been called and has not
called its continuation yet, under the discipline that every guard calls its
continuation once. -/
def History.awaiting (s : History) (t : Nat) : Option (Bool × Nat) :=
  match s.transitions t with
  | some tr =>
    match tr.invoked.getLast? with
    | some (enter, index) =>
      if tr.handedOut enter index && !tr.answered.contains (enter, index) then some (enter, index)
      else none
    | none => none
  | none => none

/-- The guard that transition `t` waits for calls its continuation with `arg`. -/
def respond (view : ViewLayer) (s : History) (t : Nat) (arg : NextArg) : History :=
  match s.awaiting t with
  | some (enter, index) => step view s (Event.next t enter index arg)
  | none => s

/-- The guards transition `t` waits for, one after the other, call their
continuations with the values of `args`. -/
def drive (view : ViewLayer) (s : History) (t : Nat) (args : List NextArg) : History :=
  args.foldl (fun acc arg => respond view acc t arg) s

/-! ## Notions used to state properties -/

/-- A path template has a wildcard token: `parse` yields an asterisk key. -/
def hasWildcardToken (path : Str) : Bool :=
  (parse path).any (fun tok =>
    match tok with
    | Token.key k => k.asterisk
    | Token.str _ => false)

/-- Every entry with a wildcard token comes after every entry without one. -/
def WildcardPatternsLast (pathList : List Str) : Prop :=
  ∀ i j p q, pathList.get? i = some p → pathList.get? j = some q →
    hasWildcardToken p = true → hasWildcardToken q = false → j < i

/-- A route configuration without children that only sets `path` and `component`. -/
def RouteConfig.leaf (path : Str) (component : Nat) : RouteConfig :=
  RouteConfig.mk { path := path, component := some component } none

/-- A record is plain: it neither redirects nor stands for an alias. -/
def RouteRecord.isPlain (r : RouteRecord) : Prop :=
  (r.redirect.map Redirect.truthy).getD false = false ∧ truthy r.matchAs = false

/-- The last record of the matched chain of a route, if any, is plain. -/
def Route.endsPlain (route : Route) : Prop :=
  ∀ z, route.matched.getLast? = some z → z.isPlain

/-! ## Example configurations -/

/-- The routes `[{ path: '/old', redirect: '/new' }, { path: '/new', component }]`. -/
def Example.redirectRoutes : List RouteConfig :=
  [RouteConfig.mk
    { path := "/old".toList, redirect := some (Redirect.value (RedirectTarget.str "/new".toList)) }
    none,
   RouteConfig.leaf "/new".toList 1]

/-- The routes `[{ path: '/p', component, children: [{ path: 'old', redirect: 'new' },
{ path: 'new', component }] }, { path: '/new', component }]`. -/
def Example.relativeRedirectRoutes : List RouteConfig :=
  [RouteConfig.mk { path := "/p".toList, component := some 1 }
    (some [RouteConfig.mk
            { path := "old".toList, redirect := some (Redirect.value (RedirectTarget.str "new".toList)) }
            none,
           RouteConfig.leaf "new".toList 2]),
   RouteConfig.leaf "/new".toList 3]

/-- The routes `[{ path: '/old', redirect: '/alt' }, { path: '/real', component, alias: '/alt' },
{ path: '/old2', redirect: '/real' }]`. -/
def Example.redirectToAliasRoutes : List RouteConfig :=
  [RouteConfig.mk
    { path := "/old".toList, redirect := some (Redirect.value (RedirectTarget.str "/alt".toList)) }
    none,
   RouteConfig.mk { path := "/real".toList, component := some 1, aliases := some ["/alt".toList] }
    none,
   RouteConfig.mk
    { path := "/old2".toList, redirect := some (Redirect.value (RedirectTarget.str "/real".toList)) }
    none]

/-- The routes `[{ path: '/real', component, alias: '/alt' }]`. -/
def Example.aliasRoutes : List RouteConfig :=
  [RouteConfig.mk { path := "/real".toList, component := some 1, aliases := some ["/alt".toList] }
    none]

/-- The routes `[{ path: '/r:x', component }, { path: '/real', component, alias: '/alt' }]`. -/
def Example.shadowedAliasRoutes : List RouteConfig :=
  [RouteConfig.leaf "/r:x".toList 4,
   RouteConfig.mk { path := "/real".toList, component := some 1, aliases := some ["/alt".toList] }
    none]

/-- The route `{ path: '/user/:id/post/:pid?', name: 'post', component }`. -/
def Example.namedRoutes : List RouteConfig :=
  [RouteConfig.mk { path := "/user/:id/post/:pid?".toList, name := some "post".toList, component := some 1 }
    none]

/-- A current route with the params `{ id: '7', pid: '9', tab: 'z' }`. -/
def Example.currentRoute : Route :=
  createRoute none
    { path := some "/user/7/post/9".toList,
      params := some [("id".toList, Value.atom (Atom.str "7".toList)),
                      ("pid".toList, Value.atom (Atom.str "9".toList)),
                      ("tab".toList, Value.atom (Atom.str "z".toList))] }
    none {}

/-- The record `createRouteMap` registers for `Example.namedRoutes`. -/
def Example.postRecord : RouteRecord :=
  makeRecord 0
    { path := "/user/:id/post/:pid?".toList, name := some "post".toList, component := some 1 }
    none none

/-- The record of `{ path: '/u/:constructor', name: 'u', component }`. -/
def Example.ctorRecord : RouteRecord :=
  makeRecord 0 { path := "/u/:constructor".toList, name := some "u".toList, component := some 1 }
    none none

/-- The named location `{ name: 'post', params: {} }`. -/
def Example.postTarget : RawLocation :=
  RawLocation.obj { name := some "post".toList, params := some [] }

/-- The fields of a `History` that no step of a transition before its commit
changes: the listener flag, the hook lists, the ready flag and callbacks, the
error observers. -/
structure HistoryEnv where
  ready : Bool
  hasListener : Bool
  readyCbs : List Nat
  readyErrorCbs : List Nat
  errorCbs : List Nat
  beforeHooks : List (Option Nat)
  resolveHooks : List (Option Nat)
  afterHooks : List (Option Nat)
deriving DecidableEq

def History.env (s : History) : HistoryEnv :=
  { ready := s.ready, hasListener := s.hasListener, readyCbs := s.readyCbs,
    readyErrorCbs := s.readyErrorCbs, errorCbs := s.errorCbs, beforeHooks := s.beforeHooks,
    resolveHooks := s.resolveHooks, afterHooks := s.afterHooks }

/-- The calls `complete` makes for transition `t`. -/
def completionLog (env : HistoryEnv) (t : Nat) (userOnComplete : Option Nat) : List Effect :=
  [Effect.onComplete t] ++
  (if env.hasListener then [Effect.listener t] else []) ++
  env.afterHooks.filterMap (fun h => h.map (fun fn => Effect.afterHook fn t)) ++
  (match userOnComplete with
    | some cb => [Effect.userOnComplete t cb]
    | none => []) ++
  [Effect.ensureURL false] ++
  (if !env.ready then env.readyCbs.map (fun cb => Effect.readyCb cb t) else [])
/-- A queue is made of application guards: it does not hold the step
`resolveAsyncComponents`. -/
def AppQueue (R : List (Option Guard)) : Prop := ∀ x ∈ R, x ≠ some Guard.resolveAsync

/-- The state `fin` is the state `s` after the guards `gs` of the transition
`tr` were called, one after the other, and the transition committed. -/
def CommitsAfter (fin s : History) (tr : Transition) (gs : List Guard) : Prop :=
  fin.log = s.log ++ gs.map (Effect.guardCalled tr.route.id) ++
      completionLog s.env tr.route.id tr.userOnComplete ∧
    fin.current = tr.route ∧ fin.pending = none

/-- The first queue of `confirmTransition` before its last entry: leave guards,
global before-each hooks, update guards, `beforeEnter` of the activated
records. -/
def firstQueue (view : ViewLayer) (s : History) (route : Route) : List (Option Guard) :=
  extractLeaveGuards view (resolveQueue s.current.route.matched route.matched).deactivated ++
    s.beforeHooks.map (fun h => h.map Guard.beforeEach) ++
    extractUpdateHooks view (resolveQueue s.current.route.matched route.matched).updated ++
    (resolveQueue s.current.route.matched route.matched).activated.map
      (fun m => m.beforeEnter.map Guard.beforeEnter)

/-- The second queue of `confirmTransition`: enter guards of the activated
records, global resolve hooks. -/
def secondQueue (view : ViewLayer) (s : History) (route : Route) : List (Option Guard) :=
  extractEnterGuards view (resolveQueue s.current.route.matched route.matched).activated ++
    s.resolveHooks.map (fun h => h.map Guard.beforeResolve)

/-- The test of `confirmTransition` that ends a transition to the current
route at once. -/
def isNoop (s : History) (route : Route) : Bool :=
  isSameRoute { id := s.made + 1, route := route } s.current &&
    route.matched.length == s.current.route.matched.length

/-- A parent record with a component and a `beforeEnter`. -/
def Example.parentRecord : RouteRecord :=
  makeRecord 0 { path := "/p".toList, component := some 1, beforeEnter := some 50 } none none

/-- A child of `Example.parentRecord`. -/
def Example.childRecord : RouteRecord :=
  makeRecord 1 { path := "c".toList, component := some 2 } (some Example.parentRecord) none

/-- A record outside `Example.parentRecord`. -/
def Example.otherRecord : RouteRecord :=
  makeRecord 2 { path := "/q".toList, component := some 3, beforeEnter := some 51 } none none

/-- The route `/p/c`: its matched records are the parent, then the child. -/
def Example.childRoute : Route :=
  createRoute (some Example.childRecord) { path := some "/p/c".toList } none {}

/-- The route `/q`. -/
def Example.otherRoute : Route :=
  createRoute (some Example.otherRecord) { path := some "/q".toList } none {}

/-- A view layer: component 1 has a leave guard, component 2 an array of two
leave guards, component 3 an enter guard; every record has an instance; no
component is to be loaded. -/
def Example.view : ViewLayer :=
  { extractGuard := fun comp name =>
      match comp, name with
      | some 1, HookName.beforeRouteLeave => GuardOption.single 31
      | some 2, HookName.beforeRouteLeave => GuardOption.array [32, 33]
      | some 3, HookName.beforeRouteEnter => GuardOption.single 43
      | _, _ => GuardOption.undefined
    instances := fun uid _ => some (100 + uid)
    isAsync := fun _ => false }

/-- An engine at `/p/c` with two before-each hooks, a resolve hook, an after
hook and a listener. -/
def Example.history : History :=
  { History.init with
    current := { id := 1, route := Example.childRoute }
    made := 1
    ready := true
    hasListener := true
    beforeHooks := [some 10, some 11]
    resolveHooks := [some 20]
    afterHooks := [some 60] }

/-- Every closure is stored under the identity of its route. -/
def History.WF (s : History) : Prop := ∀ t tr, s.transitions t = some tr → tr.route.id = t

/-- No `onComplete` of a transition is among the calls. -/
def NoComplete (es : List Effect) : Prop := ∀ t, Effect.onComplete t ∉ es

/-- From `s` to `r` no route object was made and every closure kept its route
and its `onAbort`. -/
def Frame (s r : History) : Prop :=
  r.WF ∧ r.made = s.made ∧
    ∀ t tr, s.transitions t = some tr →
      ∃ tr', r.transitions t = some tr' ∧ tr'.route = tr.route ∧ tr'.userOnAbort = tr.userOnAbort

/-- From `s` to `r` no transition committed. -/
def Stays (s r : History) : Prop :=
  r.current = s.current ∧ r.pending = s.pending ∧ ∃ new, r.log = s.log ++ new ∧ NoComplete new

/-- From `s` to `r` the transition `t`, which was pending, committed, and no
other did. -/
def Commits (t : Nat) (s r : History) : Prop :=
  s.pending = some t ∧ r.pending = none ∧
    (∃ tr, r.transitions t = some tr ∧ r.current = tr.route) ∧
    ∃ new, r.log = s.log ++ new ∧ Effect.onComplete t ∈ new ∧
      ∀ u, u ≠ t → Effect.onComplete u ∉ new

/-- From `s` to `r` guards of `t` were called and nothing else happened, or the
transition `t` waits for no guard (if it did not in `s`). -/
def QuietOrDone (t : Nat) (s r : History) : Prop :=
  (r.current = s.current ∧ ∃ gs : List Guard, r.log = s.log ++ gs.map (Effect.guardCalled t)) ∨
    (s.awaiting t = none → r.awaiting t = none)

/-- What running a queue of the transition `t` may do. -/
def Outcome (t : Nat) (s r : History) : Prop :=
  Frame s r ∧ (Stays s r ∨ Commits t s r) ∧ QuietOrDone t s r
/-- What `step(index)` of `runQueue` may do for the transition `t`: from `s`
to `r`, with `drained` telling whether the callback of the queue is due. -/
def QueueOutcome (t : Nat) (s r : History) (drained : Bool) : Prop :=
  Frame s r ∧ Stays s r ∧
    (((∃ gs : List Guard, r.log = s.log ++ gs.map (Effect.guardCalled t)) ∧
        (drained = true → s.awaiting t = none → r.awaiting t = none)) ∨
      (drained = false ∧ (s.awaiting t = none → r.awaiting t = none)))

/-- Since the state `s`, the transition `t` has called guards and nothing else
has happened: the state is `x`. -/
def Quiet (t : Nat) (s x : History) (onAbort : Option Nat) : Prop :=
  x.WF ∧ x.current = s.current ∧
    (∃ gs : List Guard, x.log = s.log ++ gs.map (Effect.guardCalled t)) ∧
    ∃ tr, x.transitions t = some tr ∧ tr.userOnAbort = onAbort

/-- The event is a call of `transitionTo`. -/
def Event.isTransitionTo : Event → Bool
  | .transitionTo _ _ _ => true
  | _ => false

/-- The transition `t` has not committed and cannot: it was started, it is not
pending, it is not the current route, and its `onComplete` was not called. -/
def Superseded (t : Nat) (x : History) : Prop :=
  x.WF ∧ t ≤ x.made ∧ x.pending ≠ some t ∧ x.current.id ≠ t ∧ Effect.onComplete t ∉ x.log

/-- Since the state `s` the transition to `target` is the last one started: in
the state `x` it is pending and has not committed, or it has committed and is
the current route. -/
def LastStarted (s x : History) (target : RouteObj) : Prop :=
  x.WF ∧ (∃ tr, x.transitions target.id = some tr ∧ tr.route = target) ∧
    ∃ new, x.log = s.log ++ new ∧
      ((x.pending = some target.id ∧ x.current = s.current ∧
          Effect.onComplete target.id ∉ new) ∨
        (x.pending = none ∧ x.current = target ∧ Effect.onComplete target.id ∈ new))

/-- The route `/p`. -/
def Example.parentRoute : Route :=
  createRoute (some Example.parentRecord) { path := some "/p".toList } none {}

/-- The engine of `Example.history` after `transitionTo` the route `/q`: the
transition 2 waits for the first leave guard. -/
def Example.leaving : History :=
  step Example.view Example.history (Event.transitionTo Example.otherRoute none none)

/-- The calls of `abort(err)` and of the `onAbort` that `transitionTo` passes,
in an engine with the observers and the flag `ready` of `env`. -/
def abortLog (env : HistoryEnv) (tr : Transition) (err : AbortArg) : List Effect :=
  (match err with
    | .error e =>
      if 0 < env.errorCbs.length then env.errorCbs.map (fun cb => Effect.errorCb cb e)
      else [Effect.consoleError e]
    | _ => []) ++
  [Effect.onAbort tr.route.id err] ++
  tr.userOnAbort.toList.map (fun cb => Effect.userOnAbort tr.route.id cb err) ++
  (if err.truthy && !env.ready then env.readyErrorCbs.map (fun cb => Effect.readyErrorCb cb err)
   else [])

/-- The log of a queue run of the transition `t` from `x` to `r`: calls of
guards of `t`, followed by nothing, by the calls of `abort()`, or by the calls
of a commit; the observers and hooks are untouched, and `ready` is set by a
commit only. -/
def QueueShape (t : Nat) (x r : History) : Prop :=
  (r.env = x.env ∧ ∃ gs : List Guard, r.log = x.log ++ gs.map (Effect.guardCalled t)) ∨
  (r.env = x.env ∧ ∃ (gs : List Guard) (tr : Transition),
    r.log = x.log ++ gs.map (Effect.guardCalled t) ++ abortLog x.env tr AbortArg.undef) ∨
  (r.env = { x.env with ready := true } ∧ ∃ (gs : List Guard) (u : Nat) (uc : Option Nat),
    r.log = x.log ++ gs.map (Effect.guardCalled t) ++ completionLog x.env u uc)

/-- The calls `cb(route)` of callbacks of `onReady` among the calls `es`: the
callback and the transition whose route it gets. -/
def readyCalls (es : List Effect) : List (Nat × Nat) :=
  es.filterMap (fun e =>
    match e with
    | Effect.readyCb cb t => some (cb, t)
    | _ => none)

/-- No `onAbort` among the calls `es` got a truthy value. -/
def NoErrorAbort (es : List Effect) : Prop :=
  ∀ t err, Effect.onAbort t err ∈ es → err.truthy = false

/-- The engine of `Example.history` before it is ready, with the callback 90
and the error callback 91 registered by `onReady`. -/
def Example.notReady : History :=
  { Example.history with ready := false, readyCbs := [90], readyErrorCbs := [91] }

/-- The guards of the transition `t` from `/p/c` to `/q` proceed one after the
other: six guards of the first queue, two of the second. -/
def Example.proceedAll (t : Nat) : List Action :=
  [Action.event (Event.next t false 0 NextArg.undef),
   Action.event (Event.next t false 1 NextArg.undef),
   Action.event (Event.next t false 2 NextArg.undef),
   Action.event (Event.next t false 3 NextArg.undef),
   Action.event (Event.next t false 4 NextArg.undef),
   Action.event (Event.next t false 5 NextArg.undef),
   Action.event (Event.next t true 0 NextArg.undef),
   Action.event (Event.next t true 1 NextArg.undef)]

/-- A transition to `/q` whose first guard answers with the error 5, then a
transition to `/q` whose guards all proceed. -/
def Example.errorThenCommit : List Action :=
  [Action.event (Event.transitionTo Example.otherRoute none none),
   Action.event (Event.next 2 false 0 (NextArg.error 5)),
   Action.event (Event.transitionTo Example.otherRoute none none)] ++ Example.proceedAll 3

/-- The test `value == null` of the filler on `data[token.name]`. -/
def isMissing (data : Params) (k : Key) : Bool :=
  match (Dict.get? data k.name.prop).getD (Value.atom Atom.undef) with
  | Value.atom Atom.undef => true
  | Value.atom Atom.null => true
  | _ => false

/-- The test `params.pathMatch` of `fillParams`. -/
def hasPathMatch (params : Params) : Bool :=
  match Dict.get? params "pathMatch".toList with
  | some v => v.truthy
  | none => false

/-- What `encodeURIComponentPretty` makes of one character. -/
def encodePrettyChar (c : Char) : Str :=
  escapeChars (fun c => c == '/' || c == '?' || c == '#')
    (if uriUnescaped c || uriReserved c then [c] else (utf8Octets c).flatMap percentOctet)

/-- A parameter written `/:name`: required, not repeated, with the default
pattern of a segment. -/
def Key.isPlain (k : Key) : Bool :=
  k.pre == ['/'] && !k.optional && !k.isRepeat && !k.asterisk &&
  k.pattern == Pattern.segment ['/'] &&
  (match k.name with
   | KeyName.named s => !s.isEmpty
   | KeyName.index _ => false)

/-- What may follow a parameter in a plain template: nothing, another
parameter, or text that starts with `/`. -/
def followsKey : List Token → Bool
  | [] => true
  | Token.str s :: _ => s.head? == some '/'
  | Token.key _ :: _ => true

/-- Token lists of plain templates: non-empty text and parameters written
`/:name`, each parameter followed by `/` or by the end of the template. -/
def plainTokens : List Token → Bool
  | [] => true
  | Token.str s :: rest => !s.isEmpty && plainTokens rest
  | Token.key k :: rest => k.isPlain && followsKey rest && plainTokens rest

/-- Whether the last token of a list is a parameter. -/
def lastIsKey : List Token → Bool
  | [] => false
  | [Token.key _] => true
  | [Token.str _] => false
  | _ :: t :: rest => lastIsKey (t :: rest)

/-- The string a params object holds for a key (empty when it holds none). -/
def paramText (params : Params) (k : Key) : Str :=
  match Dict.get? params k.name.prop with
  | some (Value.atom (Atom.str v)) => v
  | _ => []

/-- The text the filler appends for the tokens of a plain template. -/
def filledText (encode : Str → Str) (params : Params) : List Token → Str
  | [] => []
  | Token.str s :: rest => s ++ filledText encode params rest
  | Token.key k :: rest => k.pre ++ encode (paramText params k) ++ filledText encode params rest

/-- The pieces `tokensToRegExp` makes of a list of tokens when `n` keys came
before. -/
def routePieces : List Token → Nat → List Re
  | [], _ => []
  | Token.str s :: rest, n => literalRe s ++ routePieces rest n
  | Token.key k :: rest, n => keyRe k (n + 1) :: routePieces rest (n + 1)

/-- The parameters among a list of tokens. -/
def tokenKeys : List Token → List Key
  | [] => []
  | Token.str _ :: rest => tokenKeys rest
  | Token.key k :: rest => k :: tokenKeys rest

/-- The captures the matcher holds after the filled text of plain tokens. -/
def filledCaps (encode : Str → Str) (params : Params) :
    List Token → Nat → List (Nat × Str) → List (Nat × Str)
  | [], _, caps => caps
  | Token.str _ :: rest, n, caps => filledCaps encode params rest n caps
  | Token.key k :: rest, n, caps =>
    filledCaps encode params rest (n + 1) ((n + 1, encode (paramText params k)) :: caps)

/-- A continuation of the matcher that fails on input starting with a
character other than `/`. -/
def RejectsNonSlash (K : MState → List MState) : Prop :=
  ∀ d r caps, d ≠ '/' → K { rest := d :: r, caps := caps } = []

/-- Input that is empty or starts with `/`. -/
def SlashOrEnd (r : Str) : Prop := r = [] ∨ ∃ r1, r = '/' :: r1

/-- The matcher on a list of pieces, followed by a continuation. -/
def runThen (host : CustomGroups) (ic : Bool) (pieces : List Re)
    (K : MState → List MState) (s : MState) : List MState :=
  (Re.run host ic (Re.catAll pieces) s).flatMap K

/-- The pieces `tokensToRegExp` appends to a route that does not end with the
delimiter. -/
def endPieces (options : PathToRegexpOptions) : List Re :=
  (if !options.strict then [Re.opt (Re.cat (Re.chr '/') (Re.look Re.eol))] else []) ++
    (if options.toEnd then [Re.eol] else [Re.look (Re.alt (Re.chr '/') Re.eol)])

/-- The capturing group `i` has taken part in the match that led to a state. -/
def HasCap (i : Nat) (s : MState) : Prop := ∃ c ∈ s.caps, c.1 = i

/-- Objects whose keys are distinct and none of whose values coerces to the
string `undefined`. -/
def PlainObject (o : Dict Value) : Prop :=
  (o.map (fun kv => kv.1)).Nodup ∧ ∀ kv ∈ o, kv.2.toStr ≠ "undefined".toList

/-- Two values agree: when both are objects (`null` or an array) they are
equal by the rule of `isObjectEqual` (both `null`, or arrays of the same
length whose entries agree); otherwise their string coercions are equal. -/
def valuesAgree (x y : Value) : Prop :=
  match x, y with
  | .arr xs, .arr ys =>
    xs.length = ys.length ∧ ∀ (i : Nat) (a b : Atom), xs[i]? = some a → ys[i]? = some b →
      ((a = Atom.null ∧ b = Atom.null) ∨ a.toStr = b.toStr)
  | .arr _, .atom .null => False
  | .atom .null, .arr _ => False
  | _, _ => x.toStr = y.toStr

/-- The home route the examples use: built by `createRoute` for the location
`/` without a record. -/
def Example.home : Route := createRoute none { path := some ['/'] } none {}

/-- A record for the path `/` named `home`. -/
def Example.homeRecord : RouteRecord :=
  makeRecord 7 { path := ['/'], name := some "home".toList, component := some 1 } none none

/-- The call `path.replace(trailingSlashRE, '/')` with
`trailingSlashRE = /\/?$/`: the regex matches the last `/` of a path that ends
with one, and the empty string at the end of any other path. -/
def replaceTrailingSlash (path : Str) : Str :=
  if path.getLast? == some '/' then path.dropLast ++ ['/'] else path ++ ['/']

/-- The call `s.indexOf(x)`; `none` stands for `-1`. -/
def indexOf : Str → Str → Option Nat
  | [], x => if x.isEmpty then some 0 else none
  | c :: s, x =>
    if x.isPrefixOf (c :: s) then some 0 else (indexOf s x).map (fun i => i + 1)

/-- The function `queryIncludes(current, target)`. -/
def queryIncludes (current target : Query) : Bool :=
  target.all (fun kv => Dict.hasIn current kv.1)

/-- The function `isIncludedRoute(current, target)`. -/
def isIncludedRoute (current target : Route) : Bool :=
  indexOf (replaceTrailingSlash current.path) (replaceTrailingSlash target.path) == some 0 &&
    (target.hash.isEmpty || current.hash == target.hash) &&
    queryIncludes current.query target.query

/-- A path with its trailing slash normalised: a path that ends with `/` is
kept, any other path gets one `/` appended. -/
def withTrailingSlash (path : Str) : Str :=
  if path.getLast? = some '/' then path else path ++ ['/']

/-- The route the examples are at: built by `createRoute` for the location
`/a/b`. -/
def Example.atAB : Route := createRoute none { path := some "/a/b".toList } none {}

/-- The text `parseQuery` splits: the query after `trim()` and after the
removal of one leading `?`, `#` or `&`. -/
def queryBody (query : Str) : Str :=
  match trim query with
  | c :: rest => if c == '?' || c == '#' || c == '&' then rest else trim query
  | [] => []

/-- The parts `key=value` of a query string: none for an empty query, else the
texts between the `&`. -/
def queryParts (query : Str) : List Str :=
  if (queryBody query).isEmpty then [] else splitOn '&' (queryBody query)

/-- The key text and the value text of a part, with every `+` read as a
space: the key is the text before the first `=`, the value the text after it,
and there is no value when the part has no `=`. -/
def partKeyValue (part : Str) : Str × Option Str :=
  let p := part.map (fun c => if c == '+' then ' ' else c)
  (p.takeWhile (fun c => c != '='),
    if '=' ∈ p then some ((p.dropWhile (fun c => c != '=')).drop 1) else none)

/-- The decoded key and value of a part (`null` for a part without `=`);
`none` when an escape of the part is malformed. -/
def decodePart (part : Str) : Option (Str × Atom) :=
  match decodeURIComponent (partKeyValue part).1 with
  | none => none
  | some key =>
    match (partKeyValue part).2 with
    | none => some (key, Atom.null)
    | some v => (decodeURIComponent v).map (fun val => (key, Atom.str val))

/-- What a query object holds for a key, given the decoded parts in order:
nothing when the key does not occur, the value when it occurs once, and the
array of its values in order of occurrence when it occurs several times. -/
def queryValue (pairs : List (Str × Atom)) (key : Str) : Option Value :=
  match (pairs.filter (fun kv => kv.1 == key)).map (fun kv => kv.2) with
  | [] => none
  | [v] => some (Value.atom v)
  | vs => some (Value.arr vs)

/-- The last statement of the `forEach` body of `parseQuery`. -/
def addQueryPair (res : Query) (kv : Str × Atom) : Query :=
  if kv.1 == "__proto__".toList then res
  else
    match readMember res kv.1 with
    | none => Dict.set res kv.1 (Value.atom kv.2)
    | some (Value.atom .undef) => Dict.set res kv.1 (Value.atom kv.2)
    | some (Value.arr xs) => Dict.set res kv.1 (Value.arr (xs ++ [kv.2]))
    | some (Value.atom a) => Dict.set res kv.1 (Value.arr [a, kv.2])

/-- No key of the object names a member of `Object.prototype`. -/
@[reducible] def OwnNamed {α : Type} (o : Dict α) : Prop := ∀ kv ∈ o, isProtoName kv.1 = false

/-- A path with its trailing slashes normalised to exactly one `/`. -/
def oneTrailingSlash (path : Str) : Str :=
  (path.reverse.dropWhile (fun c => c == '/')).reverse ++ ['/']

/-- Run `g` over a list, threading the identity of the next record and
collecting the records in order. -/
def collectRecords {α : Type} (g : Nat → α → List RouteRecord × Nat) (xs : List α)
    (start : List RouteRecord × Nat) : List RouteRecord × Nat :=
  xs.foldl (fun acc x => (acc.1 ++ (g acc.2 x).1, (g acc.2 x).2)) start

/-- The records a call of `addRouteRecord` registers, in the order in which
its last two statements run for them (the records of the children first, then
those of the aliases, then the record of the route itself), together with the
identity the next record will get.  The fuel is that of `addRouteRecord`. -/
def registrations : Nat → Nat → RouteConfig → Option RouteRecord → Option Str →
    List RouteRecord × Nat
  | 0, uid, _, _, _ => ([], uid)
  | fuel + 1, uid, route, parent, matchAs =>
    let record := makeRecord uid route.options parent matchAs
    let r1 := match route.children with
      | some children =>
        collectRecords (fun u child =>
          let childMatchAs :=
            if truthy matchAs then
              some (cleanPath (matchAs.getD [] ++ ['/'] ++ child.options.path))
            else none
          registrations fuel u child (some record) childMatchAs) children ([], uid + 1)
      | none => ([], uid + 1)
    let r2 := match route.options.aliases with
      | some aliases =>
        collectRecords (fun u aliasPath =>
          let aliasRoute := RouteConfig.mk { path := aliasPath } route.children
          registrations fuel u aliasRoute parent
            (some (if record.path.isEmpty then ['/'] else record.path))) aliases r1
      | none => r1
    (r2.1 ++ [record], r2.2)

/-- The records `createRouteMap(routes, ...)` registers, in order, when the
next record gets the identity `uid`. -/
def registrationsOf (routes : List RouteConfig) (uid : Nat) : List RouteRecord :=
  (collectRecords (fun u route =>
    registrations (2 * RouteConfig.depthList routes + 1) u route none none) routes ([], uid)).1

/-- The tables are aligned: `pathList` has no duplicate, its entries are the
keys of `pathMap`, and the record under a key has that key as its path. -/
def TablesAligned (m : RouteMap) : Prop :=
  m.pathList.Nodup ∧ (∀ p, p ∈ m.pathList ↔ (Dict.get? m.pathMap p).isSome = true) ∧
    ∀ p r, Dict.get? m.pathMap p = some r → r.path = p

/-- A route named `page` at `/a` with a child named `page` at `/a/b`, followed
by a route named `page` at `/c`. -/
def Example.samePageNames : List RouteConfig :=
  [RouteConfig.mk { path := "/a".toList, name := some "page".toList, component := some 1 }
     (some [RouteConfig.mk { path := "b".toList, name := some "page".toList,
                             component := some 2 } none]),
   RouteConfig.mk { path := "/c".toList, name := some "page".toList, component := some 3 } none]

/-- The path of a record begins with `/`, or it is empty and the record has no
parent. -/
def RouteRecord.AbsoluteOrRoot (r : RouteRecord) : Prop :=
  r.path.head? = some '/' ∨ (r.path = [] ∧ r.parent = none)

/-- The path and the aliases of a top-level route configuration begin with `/`. -/
def RouteConfig.TopAbsolute (route : RouteConfig) : Prop :=
  route.options.path.head? = some '/' ∧
    ∀ aliases, route.options.aliases = some aliases → ∀ a ∈ aliases, a.head? = some '/'

/-- The first record of the name `n` in a list of records, if any, has no
`matchAs`. -/
def FirstNamedIsReal (n : Str) (rs : List RouteRecord) : Prop :=
  ∀ r, rs.find? (fun r => r.name == some n) = some r → r.matchAs = none

/-- The route `/a` named `a` with the alias `/b` and a child `c` named `c` that
has the alias `d`. -/
def Example.aliasedTree : List RouteConfig :=
  [RouteConfig.mk { path := "/a".toList, name := some "a".toList, aliases := some ["/b".toList] }
    (some [RouteConfig.mk
      { path := "c".toList, name := some "c".toList, aliases := some ["d".toList] } none])]

/-- The call `list.indexOf(fn)` on a list of hooks: the first index that holds
`fn`, if any. -/
def hookIndexOf : List (Option Nat) → Option Nat → Option Nat
  | [], _ => none
  | x :: rest, fn => if x == fn then some 0 else (hookIndexOf rest fn).map (fun i => i + 1)

/-- The function that `registerHook(list, fn)` returns, on the list as it is
when the function is called: `const i = list.indexOf(fn); if (i > -1) list.splice(i, 1)`. -/
def unregisterHook (fn : Option Nat) (list : List (Option Nat)) : List (Option Nat) :=
  match hookIndexOf list fn with
  | some i => list.eraseIdx i
  | none => list

/-- The function `registerHook(list, fn)`: the list after `list.push(fn)`, and
the function returned. -/
def registerHook (list : List (Option Nat)) (fn : Option Nat) :
    List (Option Nat) × (List (Option Nat) → List (Option Nat)) :=
  (list ++ [fn], unregisterHook fn)

/-- The method `beforeEach(fn)` of the router: the router after the call, and
the function returned (it acts on the router it is called in). -/
def beforeEach (s : History) (fn : Option Nat) : History × (History → History) :=
  ({ s with beforeHooks := (registerHook s.beforeHooks fn).1 },
    fun x => { x with beforeHooks := (registerHook s.beforeHooks fn).2 x.beforeHooks })

/-- The method `beforeResolve(fn)` of the router. -/
def beforeResolve (s : History) (fn : Option Nat) : History × (History → History) :=
  ({ s with resolveHooks := (registerHook s.resolveHooks fn).1 },
    fun x => { x with resolveHooks := (registerHook s.resolveHooks fn).2 x.resolveHooks })

/-- The method `afterEach(fn)` of the router. -/
def afterEach (s : History) (fn : Option Nat) : History × (History → History) :=
  ({ s with afterHooks := (registerHook s.afterHooks fn).1 },
    fun x => { x with afterHooks := (registerHook s.afterHooks fn).2 x.afterHooks })

/-- A view layer in which component 3 is loaded lazily and no component has a
guard. -/
def Example.lazyView : ViewLayer :=
  { extractGuard := fun _ _ => GuardOption.undefined
    instances := fun _ _ => none
    isAsync := fun comp => comp == some 3 }

/-- A new engine after `transitionTo` the route `/q`, whose component is
loaded lazily, once the `beforeEnter` of the record has proceeded: transition 1
waits for the component. -/
def Example.loading : History :=
  run Example.lazyView History.init
    [Event.transitionTo Example.otherRoute none none, Event.next 1 false 0 NextArg.undef]

/-- The tables of a call of `addRouteRecord` once the children and the aliases
of the configuration are processed, before the record of the call is
registered (the body of `addRouteRecord` without its last two statements). -/
def addDescendants (fuel : Nat) (m : RouteMap) (route : RouteConfig)
    (parent : Option RouteRecord) (matchAs : Option Str) : RouteMap :=
  let record := makeRecord m.nextUid route.options parent matchAs
  let m0 := { m with nextUid := m.nextUid + 1 }
  let m1 := match route.children with
    | some children =>
      children.foldl (fun acc child =>
        let childMatchAs :=
          if truthy matchAs then
            some (cleanPath (matchAs.getD [] ++ ['/'] ++ child.options.path))
          else none
        addRouteRecord fuel acc child (some record) childMatchAs) m0
    | none => m0
  match route.options.aliases with
  | some aliases =>
    aliases.foldl (fun acc aliasPath =>
      let aliasRoute := RouteConfig.mk { path := aliasPath } route.children
      addRouteRecord fuel acc aliasRoute parent
        (some (if record.path.isEmpty then ['/'] else record.path))) m1
  | none => m1

/-- A list of paths with the entries `*` moved behind the others. -/
def wildcardsLast (pathList : List Str) : List Str :=
  pathList.filter (fun p => p != ['*']) ++ pathList.filter (fun p => p == ['*'])

/-- The entry `p` of the list comes before every entry `q`, and there is one. -/
def Precedes (p q : Str) (l : List Str) : Prop :=
  ∃ xs ys, l = xs ++ p :: ys ∧ q ∉ xs ∧ q ∈ ys

/-- The route `/a` with a child of empty path. -/
def Example.defaultChild : List RouteConfig :=
  [RouteConfig.mk { path := "/a".toList, component := some 1 }
    (some [RouteConfig.leaf [] 2])]

/-- The value `path || '/'`. -/
def pathOrSlash (p : Str) : Str := if p.isEmpty then ['/'] else p

/-- The path of a configuration is relative and is kept as it is by
`normalizePath`: it does not begin with `/`, and it does not end with `/` unless
the configuration is strict. -/
def RouteConfig.relativePath (c : RouteConfig) : Bool :=
  c.options.path.head? != some '/' &&
    ((c.options.pathToRegexpOptions.getD {}).strict || c.options.path.getLast? != some '/')

mutual
/-- Every configuration below this one has a relative path. -/
def RouteConfig.relativeBelow : RouteConfig → Bool
  | .mk _ none => true
  | .mk _ (some cs) => RouteConfig.relativeAll cs
/-- Every configuration of the list, and every one below, has a relative path. -/
def RouteConfig.relativeAll : List RouteConfig → Bool
  | [] => true
  | c :: cs => c.relativePath && RouteConfig.relativeBelow c && RouteConfig.relativeAll cs
end

/-- The record an alias-derived record stands for.  The record made for an
alias `a` of a configuration stands for the record made for that
configuration under the same parent; the record made for a child
configuration under a record that stands for another one stands for the record
made for the same child configuration under that other record. -/
inductive StandsFor : RouteRecord → RouteRecord → Prop
  | ofAlias (u v : Nat) (opts : RouteOptions) (parent : Option RouteRecord) (mR : Option Str)
      (aliases : List Str) (a : Str) (h : opts.aliases = some aliases) (ha : a ∈ aliases) :
      StandsFor
        (makeRecord v { path := a } parent
          (some (pathOrSlash (makeRecord u opts parent mR).path)))
        (makeRecord u opts parent mR)
  | ofChild (u v : Nat) (opts : RouteOptions) (pa pr : RouteRecord) (m mR : Option Str)
      (h : StandsFor pa pr) :
      StandsFor (makeRecord v opts (some pa) m) (makeRecord u opts (some pr) mR)

/-- The `matchAs` of a record, if any, is the path (or `/` when that path is
empty) of a record among `avail`, which is the record it stands for. -/
def PointsAt (avail : RouteRecord → Prop) (r : RouteRecord) : Prop :=
  ∀ m, r.matchAs = some m → ∃ r1, avail r1 ∧ StandsFor r r1 ∧ m = pathOrSlash r1.path

/-- The route `/` with the alias `/home`. -/
def Example.rootAlias : List RouteConfig :=
  [RouteConfig.mk { path := ['/'], component := some 1, aliases := some ["/home".toList] } none]

/-- The route `/a` with the alias `/b` and a child with the absolute path `/c`. -/
def Example.absoluteChild : List RouteConfig :=
  [RouteConfig.mk { path := "/a".toList, component := some 1, aliases := some ["/b".toList] }
    (some [RouteConfig.leaf "/c".toList 2])]

/-- The characters `encode` escapes in addition to `encodeURIComponent`. -/
def isReserveChar (c : Char) : Bool :=
  c == '!' || c == apostrophe || c == '(' || c == ')' || c == '*'

/-- What `encode` makes of one character. -/
def encodeQueryChar (c : Char) : Str :=
  if c == ',' then [',']
  else if isReserveChar c then '%' :: toLowerHex c.toNat
  else if uriUnescaped c then [c]
  else (utf8Octets c).flatMap percentOctet

/-- The characters `encode` writes. -/
def isQuerySafe (c : Char) : Bool :=
  isAlphaNum c || c == '-' || c == '_' || c == '.' || c == '~' || c == '%' || c == ','

/-- A value of a query object that the round trip covers: a string, `null`, or
an array of at least two strings or `null`s. -/
def Value.roundTrips : Value → Bool
  | .atom .undef => false
  | .atom _ => true
  | .arr xs => decide (2 ≤ xs.length) && xs.all (fun a => a != Atom.undef)

/-- A query object that the round trip covers: its keys are distinct and
non-empty, its values are strings, `null`, or arrays of at least two of them. -/
def QueryRoundTrips (q : Query) : Prop :=
  (q.map (fun kv => kv.1)).Nodup ∧ ∀ kv ∈ q, kv.1 ≠ [] ∧ kv.2.roundTrips = true

/-- The part `key=value` that `stringifyQuery` writes for a key and one string
or `null`. -/
def queryPart (key : Str) : Atom → Option Str
  | .undef => none
  | .null => some (encode key)
  | .str v => some (encode key ++ ['='] ++ encode v)

/-- The parts `stringifyQuery` writes for a key and its value. -/
def queryPartsOf (key : Str) : Value → List Str
  | .atom a => (queryPart key a).toList
  | .arr xs => xs.filterMap (queryPart key)

/-- The key and the scalars a value of a query object stands for. -/
def queryPairsOf (key : Str) : Value → List (Str × Atom)
  | .atom a => [(key, a)]
  | .arr xs => xs.map (fun a => (key, a))

/-- The query object `{ a: '1 2', b: null, c: ['x', null, 'y,z'] }`. -/
def Example.query : Query :=
  [("a".toList, Value.atom (Atom.str "1 2".toList)), ("b".toList, Value.atom Atom.null),
   ("c".toList, Value.arr [Atom.str "x".toList, Atom.null, Atom.str "y,z".toList])]

/-- The route `{ path: '/a', redirect: '/a' }`. -/
def Example.selfRedirect : List RouteConfig :=
  [RouteConfig.mk
    { path := "/a".toList, redirect := some (Redirect.value (RedirectTarget.str "/a".toList)) }
    none]

/-- The route `{ path: '/old', redirect: { name: 'gone' } }`. -/
def Example.redirectToMissingName : List RouteConfig :=
  [RouteConfig.mk
    { path := "/old".toList,
      redirect := some (Redirect.value (RedirectTarget.obj { name := some "gone".toList })) }
    none]

/-- The routes `/a/:id` and `/b`, the second one named `b`. -/
def Example.plainRoutes : List RouteConfig :=
  [RouteConfig.leaf "/a/:id".toList 1,
   RouteConfig.mk { path := "/b".toList, name := some "b".toList, component := some 2 } none]

/-- Whether a call is the `onAbort` or the `onComplete` given to
`confirmTransition` for transition `t`. -/
def Effect.isVerdict (t : Nat) : Effect → Bool
  | .onAbort u _ => u == t
  | .onComplete u => u == t
  | _ => false

/-- The number of calls of the `onAbort` and of the `onComplete` given to
`confirmTransition` for transition `t`. -/
def verdicts (t : Nat) (es : List Effect) : Nat := es.countP (Effect.isVerdict t)

/-- Every continuation the transition has handed out has been called. -/
def Transition.AllAnswered (tr : Transition) : Prop := ∀ c ∈ tr.invoked, c ∈ tr.answered

/-- At most the continuation handed out last has not been called. -/
def Transition.OneOpen (tr : Transition) : Prop :=
  ∀ c ∈ tr.invoked, c ∉ tr.answered → tr.invoked.getLast? = some c

/-- Whether an event keeps the discipline of transition `t`: no guard of `t`
throws, and a continuation of `t` (the one of the step that loads lazy
components included) is called only if it was not called before. -/
def Event.keepsDiscipline (t : Nat) (s : History) : Event → Bool
  | .transitionTo _ _ _ => true
  | .next u enter index _ =>
    u != t || !(((s.transitions t).map (fun tr => tr.answered.contains (enter, index))).getD false)
  | .throws u _ _ _ => u != t
  | .asyncResolved u =>
    u != t || !(((s.transitions t).map
      (fun tr => tr.answered.contains (false, tr.queue.length - 1))).getD false)
  | .asyncRejected u _ =>
    u != t || !(((s.transitions t).map
      (fun tr => tr.answered.contains (false, tr.queue.length - 1))).getD false)

/-- Every event of the run keeps the discipline of transition `t` in the state
it occurs in. -/
def Disciplined (view : ViewLayer) (t : Nat) : History → List Event → Prop
  | _, [] => True
  | s, e :: es => e.keepsDiscipline t s = true ∧ Disciplined view t (step view s e) es

/-- The transitions started are those made: every closure is stored under an
identity that has been given out. -/
def History.Bounded (s : History) : Prop := ∀ u tr, s.transitions u = some tr → u ≤ s.made

/-- What is known of transition `t` in a state: at most one verdict was
given; once it is given, no continuation of `t` is open; and at most the last
continuation handed out is open. -/
def Settling (t : Nat) (s : History) : Prop :=
  s.WF ∧ s.Bounded ∧
    (s.transitions t = none → verdicts t s.log = 0) ∧
    ∀ tr, s.transitions t = some tr →
      verdicts t s.log ≤ 1 ∧ (verdicts t s.log = 1 → tr.AllAnswered) ∧ tr.OneOpen

/-- The transition `t` is as it was, and no verdict of `t` was given. -/
def Untouched (t : Nat) (s r : History) : Prop :=
  r.transitions t = s.transitions t ∧ verdicts t r.log = verdicts t s.log

/-- The transition `t` has a closure, no continuation of it is open and no
verdict of it was given: a queue of `t` may run. -/
def ReadyToRun (t : Nat) (s : History) : Prop :=
  ∃ tr, s.transitions t = some tr ∧ tr.AllAnswered ∧ verdicts t s.log = 0

/-- The transition `t` has a closure, at most one verdict of it was given,
after which no continuation of it is open, and at most the continuation handed
out last is open. -/
def SettlingAt (t : Nat) (s : History) : Prop :=
  ∃ tr, s.transitions t = some tr ∧ verdicts t s.log ≤ 1 ∧
    (verdicts t s.log = 1 → tr.AllAnswered) ∧ tr.OneOpen

/-! ## The abstract history (`history/abstract.js`)

`AbstractHistory` keeps a `stack` of routes and an `index` into it. Its
methods `push`, `replace` and `go` call `confirmTransition` with an
`onComplete` of their own. Of `confirmTransition` the model keeps what decides
whether and when that `onComplete` runs: the test for the route that is already
current, the assignment `this.pending = route`, and the test
`this.pending !== route` that the last callback of `runQueue` makes. The guard
queues are the time between the call and the event `finish`: a transition
whose guards abort or never answer is a closure that never finishes. -/

/-- What the `onComplete` of a navigation does: that of `push`, that of
`replace`, or that of `go` with the `targetIndex` it has captured. -/
inductive Navigation where
  | push
  | replace
  | go (targetIndex : Int)
deriving Repr, DecidableEq

def Navigation.isGo : Navigation → Bool
  | .go _ => true
  | _ => false

/-- One call of `confirmTransition` by `push`, `replace` or `go`: its `route`,
its `onComplete`, and whether the last callback of its queues has run. -/
structure NavClosure where
  route : RouteObj
  kind : Navigation
  finished : Bool

/-- The state of an `AbstractHistory`: `current` and `pending` of `History`
(`pending` by the identity of the route object), `stack`, `index`, the number
`made` of identities given out (to the route objects `match` returns and to
the closures of `go`), and the closures by identity. -/
structure AbstractHistory where
  current : RouteObj
  pending : Option Nat
  stack : List RouteObj
  index : Int
  made : Nat
  closures : Nat → Option NavClosure

/-- The constructor: `current = START`, `stack = []`, `index = -1`. -/
def AbstractHistory.init : AbstractHistory :=
  { current := { id := 0, route := START }, pending := none, stack := [], index := -1,
    made := 0, closures := fun _ => none }

/-- The call `xs.slice(0, end)`: a negative `end` counts from the end of the
array, and the result is empty when it falls before the start. -/
def sliceTo {α : Type} (xs : List α) (e : Int) : List α :=
  if e < 0 then xs.take ((xs.length : Int) + e).toNat else xs.take e.toNat

def AbstractHistory.setClosure (s : AbstractHistory) (k : Nat) (c : NavClosure) :
    AbstractHistory :=
  { s with closures := fun j => if j = k then some c else s.closures j }

/-- The start of `confirmTransition(route, onComplete)`: a route that is the
same as the current one aborts at once; otherwise `this.pending = route` and
the queues start. -/
def AbstractHistory.confirm (s : AbstractHistory) (route : RouteObj) (kind : Navigation) :
    AbstractHistory :=
  let s1 := { s with made := s.made + 1 }
  if isSameRoute route s.current &&
      route.route.matched.length == s.current.route.matched.length then s1
  else
    { s1 with pending := some route.id }.setClosure (s.made + 1)
      { route := route, kind := kind, finished := false }

/-- The `onComplete` of a navigation. For `push` and `replace` the callback of
`transitionTo` has called `updateRoute(route)` before. -/
def AbstractHistory.commit (s : AbstractHistory) (c : NavClosure) : AbstractHistory :=
  match c.kind with
  | .push =>
    { s with current := c.route
             stack := sliceTo s.stack (s.index + 1) ++ [c.route]
             index := s.index + 1 }
  | .replace =>
    { s with current := c.route
             stack := sliceTo s.stack s.index ++ [c.route] }
  | .go targetIndex =>
    { s with index := targetIndex
             current := c.route }

/-- The last callback of `runQueue` of the closure `k`: it aborts if
`this.pending !== route`, else `this.pending = null` and `onComplete(route)`. -/
def AbstractHistory.finish (s : AbstractHistory) (k : Nat) : AbstractHistory :=
  match s.closures k with
  | none => s
  | some c =>
    let s1 := s.setClosure k { c with finished := true }
    if s1.pending != some c.route.id then s1
    else AbstractHistory.commit { s1 with pending := none } c

/-- What happens to an abstract history: a call of `push` or `replace` (with
the route `match` returns for the location), a call of `go(n)`, or the queues
of a closure running to their end. -/
inductive AbstractEvent where
  | push (route : Route)
  | replace (route : Route)
  | go (n : Int)
  | finish (k : Nat)

/-- One event of the abstract history. -/
def AbstractHistory.step (s : AbstractHistory) : AbstractEvent → AbstractHistory
  | .push route => s.confirm { id := s.made + 1, route := route } Navigation.push
  | .replace route => s.confirm { id := s.made + 1, route := route } Navigation.replace
  | .go n =>
    let targetIndex := s.index + n
    if targetIndex < 0 ∨ targetIndex ≥ s.stack.length then s
    else
      match s.stack[targetIndex.toNat]? with
      | some route => s.confirm route (Navigation.go targetIndex)
      | none => s
  | .finish k => s.finish k

def AbstractHistory.run (s : AbstractHistory) (events : List AbstractEvent) : AbstractHistory :=
  events.foldl AbstractHistory.step s

/-- Whether the event keeps the discipline of guards: the queues of a closure
run to their end at most once. -/
def AbstractEvent.once (s : AbstractHistory) : AbstractEvent → Bool
  | .finish k => ((s.closures k).map (fun c => !c.finished)).getD true
  | _ => true

/-- Every event of the run keeps the discipline in the state it occurs in. -/
def AbstractHistory.Disciplined : AbstractHistory → List AbstractEvent → Prop
  | _, [] => True
  | s, e :: es => e.once s = true ∧ AbstractHistory.Disciplined (s.step e) es

/-- The position invariant: `0 <= index < stack.length` and `stack[index]` is
the current route. -/
def AbstractHistory.Pos (s : AbstractHistory) : Prop :=
  0 ≤ s.index ∧ s.index < s.stack.length ∧ s.stack[s.index.toNat]? = some s.current

/-- The state of a history in which no `push` or `go` has committed: `index`
is `-1` and the stack is empty or holds the current route alone. -/
def AbstractHistory.Degenerate (s : AbstractHistory) : Prop :=
  s.index = -1 ∧ (s.stack = [] ∨ s.stack = [s.current])

/-- What holds of every state a disciplined run reaches. -/
structure AbstractHistory.Inv (s : AbstractHistory) : Prop where
  keys : ∀ k c, s.closures k = some c → k ≤ s.made
  own : ∀ k c, s.closures k = some c → c.kind.isGo = false → c.route.id = k
  fresh : ∀ k c, s.closures k = some c → c.kind.isGo = false → c.finished = false →
    k ∉ s.stack.map RouteObj.id
  nodup : (s.stack.map RouteObj.id).Nodup
  committed : ∀ r ∈ s.stack, ∃ c, s.closures r.id = some c ∧ c.finished = true ∧
    c.kind.isGo = false
  target : ∀ k c t, s.closures k = some c → c.kind = Navigation.go t →
    ∀ (j : Nat) r, s.stack[j]? = some r → r.id = c.route.id → (j : Int) = t ∧ r = c.route
  origin : ∀ k c t, s.closures k = some c → c.kind = Navigation.go t →
    ∃ x, s.closures c.route.id = some x ∧ x.finished = true ∧ x.kind.isGo = false
  pend : ∀ p, s.pending = some p → p ∈ s.stack.map RouteObj.id ∨
    ∃ c, s.closures p = some c ∧ c.kind.isGo = false ∧ c.finished = false
  position : s.Pos ∨ s.Degenerate

/-- The closure `k` is shelved: its route object, whose identity is `k`, is
not the pending one and is not on the stack. -/
def AbstractHistory.Shelved (k : Nat) (s : AbstractHistory) : Prop :=
  s.pending ≠ some k ∧ k ∉ s.stack.map RouteObj.id ∧ k ≤ s.made ∧
    ∃ c, s.closures k = some c ∧ c.route.id = k

/-- A run of an abstract history: `/q` and `/p/c` are pushed and commit, then
`go(-1)` starts (closure 3, to the stored route of `/q`), then a `push` of `/p`
starts (closure 4), then `go(-1)` is called again (closure 5, to the same stored
route). -/
def Example.goTwice : List AbstractEvent :=
  [AbstractEvent.push Example.otherRoute, AbstractEvent.finish 1,
   AbstractEvent.push Example.childRoute, AbstractEvent.finish 2,
   AbstractEvent.go (-1), AbstractEvent.push Example.parentRoute, AbstractEvent.go (-1)]

/-- The calls `cb(err)` of error callbacks of `onReady` among the calls `es`:
the callback and the value it gets. -/
def readyErrorCalls (es : List Effect) : List (Nat × AbortArg) :=
  es.filterMap (fun e =>
    match e with
    | Effect.readyErrorCb cb err => some (cb, err)
    | _ => none)

/-- Calls that neither commit, nor abort with a truthy value, nor call a
callback or an error callback of `onReady`. -/
def Neutral (es : List Effect) : Prop :=
  NoComplete es ∧ NoErrorAbort es ∧ readyCalls es = [] ∧ readyErrorCalls es = []

/-- What one step of the engine does to the flag `ready` and the callbacks of
`onReady`: nothing; or an abort with a truthy value sets `ready` and, if it was
not set, calls the error callbacks; or a commit sets `ready` and, if it was not
set, calls the callbacks. -/
def ReadyStep (x r : History) : Prop :=
  r.readyCbs = x.readyCbs ∧ r.readyErrorCbs = x.readyErrorCbs ∧ ∃ new, r.log = x.log ++ new ∧
    ((r.ready = x.ready ∧ Neutral new) ∨
      (r.ready = true ∧ NoComplete new ∧ readyCalls new = [] ∧
        ∃ pre post t err, new = pre ++ Effect.onAbort t err :: post ∧ err.truthy = true ∧
          NoErrorAbort pre ∧
          readyErrorCalls new =
            if x.ready then [] else x.readyErrorCbs.map (fun cb => (cb, err))) ∨
      (r.ready = true ∧ ∃ pre post t, new = pre ++ Effect.onComplete t :: post ∧
        NoComplete pre ∧ NoErrorAbort pre ∧ readyErrorCalls new = [] ∧
        readyCalls new = if x.ready then [] else x.readyCbs.map (fun cb => (cb, t))))

/-- The callbacks that the calls of `onReady` among `actions` pass. -/
def registeredCbs (actions : List Action) : List Nat :=
  actions.filterMap (fun a =>
    match a with
    | Action.onReady cb _ => some cb
    | _ => none)

/-- The error callbacks that the calls of `onReady` among `actions` pass. -/
def registeredErrorCbs (actions : List Action) : List Nat :=
  actions.filterMap (fun a =>
    match a with
    | Action.onReady _ (some errorCb) => some errorCb
    | _ => none)

/-- After the actions `done` from the state `s`, where the engine was not
ready, the engine is in one of three phases.  It is not ready, nothing has
committed, no callback of `onReady` was called, and the callbacks held are
those of `s` followed by those registered by `done`.  Or it became ready at the
event `e` of `done` by the first commit, of the transition `t`, and the calls
of callbacks of `onReady` are: those of `s` and those registered before `e`,
once each and with the route of `t`; no error callback was called.  Or it
became ready at the event `e` by an abort with the truthy value `err` before
any commit, and the calls are: the error callbacks of `s` and those registered
before `e`, once each with `err`; no callback was called. -/
def ReadyPhase (view : ViewLayer) (s : History) (done : List Action) : Prop :=
  ∃ new, (runActions view s done).log = s.log ++ new ∧
    (((runActions view s done).ready = false ∧ NoComplete new ∧ NoErrorAbort new ∧
        readyCalls new = [] ∧ readyErrorCalls new = [] ∧
        (runActions view s done).readyCbs = s.readyCbs ++ registeredCbs done ∧
        (runActions view s done).readyErrorCbs = s.readyErrorCbs ++ registeredErrorCbs done) ∨
      ((runActions view s done).ready = true ∧
        ∃ before e after pre post t, done = before ++ Action.event e :: after ∧
          (runActions view s before).ready = false ∧
          (runActions view s (before ++ [Action.event e])).ready = true ∧
          new = pre ++ Effect.onComplete t :: post ∧ NoComplete pre ∧ NoErrorAbort pre ∧
          readyCalls new = (s.readyCbs ++ registeredCbs before).map (fun cb => (cb, t)) ∧
          readyErrorCalls new = []) ∨
      ((runActions view s done).ready = true ∧
        ∃ before e after pre post t err, done = before ++ Action.event e :: after ∧
          (runActions view s before).ready = false ∧
          (runActions view s (before ++ [Action.event e])).ready = true ∧
          new = pre ++ Effect.onAbort t err :: post ∧ err.truthy = true ∧
          NoComplete pre ∧ NoErrorAbort pre ∧ readyCalls new = [] ∧
          readyErrorCalls new =
            (s.readyErrorCbs ++ registeredErrorCbs before).map (fun cb => (cb, err))))

/-- The callback 92 is registered, the transition 2 to `/q` is started and its
guards proceed, so that it commits, and then the callback 93 is registered. -/
def Example.readyRun : List Action :=
  [Action.onReady 92 (some 94),
   Action.event (Event.transitionTo Example.otherRoute none none)] ++
    Example.proceedAll 2 ++ [Action.onReady 93 none]

/-- The guards that the option `name` of a component defines, in their order:
`extractGuard` gives nothing, one guard or an array of guards. -/
def definedGuards (view : ViewLayer) (comp : Option Nat) (name : HookName) : List Nat :=
  match view.extractGuard comp name with
  | .undefined => []
  | .single g => [g]
  | .array gs => gs

/-- The leave guards as the specification orders them: the deactivated records
from the deepest to the shallowest, the view components of a record from the
last to the first, the guards of a component in their order, each bound to the
instance of the component; a component without an instance has none. -/
def leaveGuardsInOrder (view : ViewLayer) (deactivated : List RouteRecord) : List Guard :=
  deactivated.reverse.flatMap (fun m => m.components.reverse.flatMap (fun kv =>
    match view.instances m.uid kv.1 with
    | some vm => (definedGuards view kv.2 HookName.beforeRouteLeave).map
        (fun g => Guard.bound HookName.beforeRouteLeave g vm)
    | none => []))

/-- The update guards as the specification orders them: the updated records
from the shallowest to the deepest, the view components of a record in their
order, the guards of a component in their order, each bound to the instance of
the component; a component without an instance has none. -/
def updateGuardsInOrder (view : ViewLayer) (updated : List RouteRecord) : List Guard :=
  updated.flatMap (fun m => m.components.flatMap (fun kv =>
    match view.instances m.uid kv.1 with
    | some vm => (definedGuards view kv.2 HookName.beforeRouteUpdate).map
        (fun g => Guard.bound HookName.beforeRouteUpdate g vm)
    | none => []))

/-- The enter guards as the specification orders them: the activated records
from the shallowest to the deepest, the view components of a record in their
order, the guards of a component in their order. -/
def enterGuardsInOrder (view : ViewLayer) (activated : List RouteRecord) : List Guard :=
  activated.flatMap (fun m => m.components.flatMap (fun kv =>
    (definedGuards view kv.2 HookName.beforeRouteEnter).map
      (fun g => Guard.enter g m.uid kv.1)))

/-- The guards that the specification has a transition from the current route
of `s` to `route` call before the step that loads lazy components: leave
guards, global before-each hooks in the order of registration, update guards,
the `beforeEnter` of the activated records from the shallowest to the
deepest. -/
def guardsBeforeLoading (view : ViewLayer) (s : History) (route : Route) : List Guard :=
  leaveGuardsInOrder view (resolveQueue s.current.route.matched route.matched).deactivated ++
    s.beforeHooks.filterMap (fun h => h.map Guard.beforeEach) ++
    updateGuardsInOrder view (resolveQueue s.current.route.matched route.matched).updated ++
    (resolveQueue s.current.route.matched route.matched).activated.filterMap
      (fun m => m.beforeEnter.map Guard.beforeEnter)

/-- The guards that the specification has the transition call after that step:
enter guards, global resolve hooks in the order of registration. -/
def guardsAfterLoading (view : ViewLayer) (s : History) (route : Route) : List Guard :=
  enterGuardsInOrder view (resolveQueue s.current.route.matched route.matched).activated ++
    s.resolveHooks.filterMap (fun h => h.map Guard.beforeResolve)

/-- A view layer like `Example.view` in which component 1 has an update guard
too. -/
def Example.updateView : ViewLayer :=
  { extractGuard := fun comp name =>
      match comp, name with
      | some 1, HookName.beforeRouteLeave => GuardOption.single 31
      | some 1, HookName.beforeRouteUpdate => GuardOption.array [36, 37]
      | some 2, HookName.beforeRouteLeave => GuardOption.array [32, 33]
      | some 3, HookName.beforeRouteEnter => GuardOption.single 43
      | _, _ => GuardOption.undefined
    instances := fun uid _ => some (100 + uid)
    isAsync := fun _ => false }

/-- A host that knows the user-written group `.*`: it consumes the input up to
the first line terminator, the longest stretch first. -/
def Example.dotStarHost : CustomGroups := fun source _ input =>
  if source == ".*".toList then
    (List.range ((input.takeWhile
      (fun c => !(c == '\n' || c == '\r' || c == '\u2028' || c == '\u2029'))).length + 1)).reverse
  else []

/-- Whether a call belongs to the transition `t`: a call of one of its guards,
of its `onComplete` or of its `onAbort`. -/
def Effect.isOf (t : Nat) : Effect → Bool
  | .guardCalled u _ => u == t
  | .onComplete u => u == t
  | .onAbort u _ => u == t
  | _ => false

/-- The calls of guards of the transition `t`, of its `onComplete` and of its
`onAbort` among the calls `es`, in order. -/
def callsOf (t : Nat) (es : List Effect) : List Effect := es.filter (Effect.isOf t)

/-- From `s` to `r` the closure of the transition `t` is as it was and no
guard of `t`, nor its `onComplete` or `onAbort`, was called. -/
def Apart (t : Nat) (s r : History) : Prop :=
  r.transitions t = s.transitions t ∧ callsOf t r.log = callsOf t s.log

/-- The transition `t` is over in the state `x`: it has a closure and every
continuation it handed out has been called. -/
def Over (t : Nat) (x : History) : Prop :=
  x.WF ∧ t ≤ x.made ∧ ∃ tr, x.transitions t = some tr ∧ tr.AllAnswered

/-- What follows the abort of the transition 1 in the witness of the order of
guards: a second transition to `/q` is started and its `beforeEnter`
proceeds, and a continuation of the second queue of transition 1, which was
never handed out, is called. -/
def Example.afterLoading : List Event :=
  [Event.transitionTo Example.otherRoute none none, Event.next 2 false 0 NextArg.undef,
   Event.next 1 true 0 NextArg.undef]

/-! # Properties -/

/-! ## The post-pass of `createRouteMap` -/

theorem moveWildcards_spec (B : List Str) :
    ∀ (fuel : Nat) (A C : List Str), B.length ≤ fuel →
      moveWildcards fuel A.length (A.length + B.length) (A ++ B ++ C) =
        A ++ B.filter (fun p => p != ['*']) ++ C ++ B.filter (fun p => p == ['*']) := by
  induction B with
  | nil =>
    intro fuel A C _
    cases fuel <;> simp [moveWildcards]
  | cons b B ih =>
    intro fuel A C hf
    cases fuel with
    | zero => simp at hf
    | succ f =>
      have hf' : B.length ≤ f := by simpa using hf
      have hget : (A ++ b :: B ++ C).get? A.length = some b := by
        rw [List.get?_eq_getElem?, List.append_assoc, List.getElem?_append_right (Nat.le_refl _)]
        simp
      rw [moveWildcards, if_pos (by simp), hget]
      by_cases hb : b = ['*']
      · subst hb
        have herase : (A ++ ['*'] :: B ++ C).eraseIdx A.length = A ++ B ++ C := by
          rw [List.append_assoc, List.eraseIdx_append_of_length_le (Nat.le_refl _)]
          simp
        rw [if_pos (by rfl), herase]
        have := ih f A (C ++ [['*']]) hf'
        rw [show A.length + (['*'] :: B).length - 1 = A.length + B.length by simp]
        rw [show A ++ B ++ C ++ ["*".toList] = A ++ B ++ (C ++ [['*']]) by simp, this]
        simp
      · have hb2 : ¬ (some b == some "*".toList) = true := by
          simpa using hb
        rw [if_neg hb2]
        have := ih f (A ++ [b]) C hf'
        simp only [List.length_append, List.length_cons, List.length_nil] at this
        rw [show A.length + (b :: B).length = A.length + (0 + 1) + B.length by simp; omega]
        rw [show A ++ b :: B ++ C = A ++ [b] ++ B ++ C by simp, this]
        simp [List.filter_cons, hb]

/-- The `pathList` that `createRouteMap` returns is the `pathList` after the
registrations with the entries `*` moved behind the others. -/
theorem createRouteMap_pathList (routes : List RouteConfig) (old : RouteMap) :
    (createRouteMap routes old).pathList =
      (addRouteRecords routes old).pathList.filter (fun p => p != ['*']) ++
      (addRouteRecords routes old).pathList.filter (fun p => p == ['*']) := by
  have h := moveWildcards_spec (addRouteRecords routes old).pathList
    (addRouteRecords routes old).pathList.length [] [] (Nat.le_refl _)
  simpa [createRouteMap] using h

/-- C3 (as amended): after `createRouteMap`, for a fresh build and for an
extension of existing tables, `pathList` is the list of the paths registered
(the old entries followed by the new ones) with every entry equal to `*` moved
behind all the other entries, which keep their order. -/
theorem createRouteMap_moves_star_last (routes : List RouteConfig) (old : RouteMap) :
    (createRouteMap routes old).pathList =
      (addRouteRecords routes old).pathList.filter (fun p => p != ['*']) ++
      (addRouteRecords routes old).pathList.filter (fun p => p == ['*']) := by
  have h := moveWildcards_spec (addRouteRecords routes old).pathList
    (addRouteRecords routes old).pathList.length [] [] (Nat.le_refl _)
  simpa [createRouteMap] using h

/-- C3 (counterexample): built from `/files/*` and `/a`, in this order,
`pathList` is `['/files/*', '/a']`: the entry `/files/*`, which has a wildcard
token, comes before the entry `/a`, which has none. -/
theorem createRouteMap_wildcard_pattern_not_last :
    ¬ WildcardPatternsLast
      (createRouteMap [RouteConfig.leaf "/files/*".toList 1, RouteConfig.leaf "/a".toList 2]
        RouteMap.empty).pathList := by
  intro h
  have := h 0 1 "/files/*".toList "/a".toList (by decide) (by decide) (by decide) (by decide)
  omega

/-! ## The host's matcher on the wildcard pattern -/

theorem Re.run_cat (host : CustomGroups) (ic : Bool) (a b : Re) (s : MState) :
    Re.run host ic (Re.cat a b) s = (Re.run host ic a s).flatMap (Re.run host ic b) := rfl

theorem Re.run_eps (host : CustomGroups) (ic : Bool) (s : MState) :
    Re.run host ic Re.eps s = [s] := rfl

theorem Re.run_star (host : CustomGroups) (ic : Bool) (g : Bool) (a : Re) (s : MState) :
    Re.run host ic (Re.star g a) s = starLoop (Re.run host ic a) g s.rest.length s := rfl

theorem Re.run_group (host : CustomGroups) (ic : Bool) (i : Nat) (a : Re) (s : MState) :
    Re.run host ic (Re.group i a) s = (Re.run host ic a s).map (fun t =>
      { t with caps := (i, s.rest.take (s.rest.length - t.rest.length)) :: t.caps }) := rfl

theorem Re.run_opt (host : CustomGroups) (ic : Bool) (a : Re) (s : MState) :
    Re.run host ic (Re.opt a) s = Re.run host ic a s ++ [s] := rfl

theorem Re.run_eol (host : CustomGroups) (ic : Bool) (s : MState) :
    Re.run host ic Re.eol s = if s.rest.isEmpty then [s] else [] := rfl

theorem Re.run_chr_nil (host : CustomGroups) (ic : Bool) (c : Char) (caps : List (Nat × Str)) :
    Re.run host ic (Re.chr c) { rest := [], caps := caps } = [] := rfl

theorem starLoop_consumes_all (step : MState → List MState) (good : Char → Bool)
    (hnil : ∀ caps, step { rest := [], caps := caps } = [])
    (hcons : ∀ a p caps, good a = true →
      step { rest := a :: p, caps := caps } = [{ rest := p, caps := caps }])
    (p : Str) :
    ∀ (fuel : Nat) (caps : List (Nat × Str)), p.length ≤ fuel →
      (∀ c ∈ p, good c = true) →
      ∃ tl, starLoop step true fuel { rest := p, caps := caps } =
        { rest := [], caps := caps } :: tl := by
  induction p with
  | nil =>
    intro fuel caps _ _
    cases fuel <;> simp [starLoop, hnil]
  | cons a p ih =>
    intro fuel caps hf hgood
    cases fuel with
    | zero => simp at hf
    | succ f =>
      have ha : good a = true := hgood a (by simp)
      obtain ⟨tl, htl⟩ := ih f caps (by simpa using hf) (fun c hc => hgood c (by simp [hc]))
      refine ⟨tl ++ [{ rest := a :: p, caps := caps }], ?_⟩
      simp [starLoop, hcons a p caps ha, htl]

/-- The regex compiled for the path `*` matches every path without line
terminator and captures all of it. -/
theorem star_regex_exec (host : CustomGroups) (p : Str)
    (hlt : ∀ c ∈ p, isLineTerminator c = false) :
    (pathToRegexp "*".toList {}).exec host p = some [some p] := by
  obtain ⟨tl, htl⟩ := starLoop_consumes_all (Re.run host true Re.dot)
    (fun c => !isLineTerminator c) (fun _ => rfl)
    (fun a q caps ha => by
      have : isLineTerminator a = false := by simpa using ha
      simp [Re.run, this])
    p p.length [] (Nat.le_refl _) (fun c hc => by simp [hlt c hc])
  have hre : pathToRegexp "*".toList {} =
      { re := Re.cat (Re.cat Re.eps (Re.group 1 (Re.star true Re.dot)))
          (Re.cat (Re.opt (Re.cat (Re.chr '/') (Re.look Re.eol))) Re.eol),
        ignoreCase := true,
        keys := [{ name := KeyName.index 0, pre := [], delimiter := ['/'], optional := false,
                   isRepeat := false, isPartial := false, asterisk := true,
                   pattern := Pattern.wildcard }] } := by rfl
  rw [hre]
  simp only [RouteRegExp.exec, Re.exec, Re.run_cat, Re.run_eps, Re.run_group, Re.run_star, htl,
    Re.run_opt, Re.run_eol, Re.run_chr_nil, List.flatMap_cons, List.flatMap_nil, List.map_cons,
    List.nil_append, List.append_nil, List.isEmpty_nil, if_true, List.cons_append, List.head?_cons,
    Option.map_some']
  simp [List.range_succ]

/-! ## Unfolding `match` and `_createRoute` -/

theorem matcherMatch_zero (router : Router) (m : RouteMap) (raw : RawLocation)
    (cur : Option Route) (rf : Option Location) :
    matcherMatch router m 0 raw cur rf = .error JsError.stackOverflow := by
  rw [matcherMatch]

theorem createRoute_zero (router : Router) (m : RouteMap) (record : Option RouteRecord)
    (loc : Location) (rf : Option Location) :
    _createRoute router m 0 record loc rf = .error JsError.stackOverflow := by
  rw [_createRoute]

/-- The path branch of `match`: a location without name and with a non-empty
path is resolved by the scan of `pathList`. -/
theorem matcherMatch_path (router : Router) (m : RouteMap) (fuel : Nat) (raw : RawLocation)
    (cur : Option Route) (rf : Option Location) (p : Str)
    (hname : truthy (normalizeLocation raw cur false router).name = false)
    (hpath : (normalizeLocation raw cur false router).path = some p) (hp : p ≠ []) :
    matcherMatch router m (fuel + 1) raw cur rf =
      match scanPathList router.customGroups m.pathMap p m.pathList with
      | .error e => .error e
      | .ok (some (record, params)) =>
        _createRoute router m fuel (some record)
          { normalizeLocation raw cur false router with params := some params } rf
      | .ok none =>
        _createRoute router m fuel none
          { normalizeLocation raw cur false router with params := some [] } none := by
  have htp : truthy (some p) = true := by
    cases p with
    | nil => exact absurd rfl hp
    | cons a q => rfl
  rw [matcherMatch]
  simp only [hname, hpath, htp, Option.getD_some, if_true, Bool.false_eq_true, if_false]

/-- The last case of `_createRoute`: a record without redirect and without
`matchAs`, or no record, goes to `createRoute`. -/
theorem createRoute_plain (router : Router) (m : RouteMap) (fuel : Nat) (record : RouteRecord)
    (loc : Location) (rf : Option Location)
    (hr : (record.redirect.map Redirect.truthy).getD false = false)
    (ha : truthy record.matchAs = false) :
    _createRoute router m (fuel + 1) (some record) loc rf =
      .ok (createRoute (some record) loc rf router) := by
  rw [_createRoute]
  simp [hr, ha]

theorem createRoute_none (router : Router) (m : RouteMap) (fuel : Nat)
    (loc : Location) (rf : Option Location) :
    _createRoute router m (fuel + 1) none loc rf = .ok (createRoute none loc rf router) := by
  rw [_createRoute]

/-! ## Matching precedence -/

theorem matchRoute_star (host : CustomGroups) (p d : Str)
    (hlt : ∀ c ∈ p, isLineTerminator c = false) (hd : decodeURIComponent p = some d) :
    matchRoute host (pathToRegexp "*".toList {}) p [] =
      .ok (some [("pathMatch".toList, Value.atom (Atom.str d))]) := by
  have hk : (pathToRegexp "*".toList {}).keys =
      [{ name := KeyName.index 0, pre := [], delimiter := ['/'], optional := false,
         isRepeat := false, isPartial := false, asterisk := true,
         pattern := Pattern.wildcard }] := by rfl
  simp only [matchRoute, star_regex_exec host p hlt, hk, matchRouteLoop, hd]
  rfl

theorem matchRoute_of_exec_none (host : CustomGroups) (regex : RouteRegExp) (p : Str) (params : Params)
    (h : regex.exec host p = none) : matchRoute host regex p params = .ok none := by
  simp [matchRoute, h]

theorem formatMatch_root (r : RouteRecord) (h : r.parent = none) : formatMatch r = [r] := by
  cases r with
  | mk u p re c n par ma rd b md pr =>
    simp only [RouteRecord.parent] at h
    subst h
    rfl

theorem createRoute_matched (record : RouteRecord) (loc : Location) (rf : Option Location)
    (router : Router) : (createRoute (some record) loc rf router).matched = formatMatch record := rfl

/-- Matching against the three records `/a`, `/:x`, `*` in this order of priority. -/
theorem match_three_records (router : Router) (m : RouteMap) (fuel : Nat) (ra rx rs : RouteRecord)
    (hl : m.pathList = ["/a".toList, "/:x".toList, "*".toList])
    (hA : Dict.get? m.pathMap "/a".toList = some ra)
    (hX : Dict.get? m.pathMap "/:x".toList = some rx)
    (hS : Dict.get? m.pathMap "*".toList = some rs)
    (hrA : ra.regex = pathToRegexp "/a".toList {})
    (hrX : rx.regex = pathToRegexp "/:x".toList {})
    (hrS : rs.regex = pathToRegexp "*".toList {})
    (hpA : ra.redirect = none ∧ ra.matchAs = none ∧ ra.parent = none)
    (hpX : rx.redirect = none ∧ rx.matchAs = none ∧ rx.parent = none)
    (hpS : rs.redirect = none ∧ rs.matchAs = none ∧ rs.parent = none) :
    (matcherMatch router m (fuel + 2) (RawLocation.str "/a".toList) none none).map
        (fun r => r.matched) = .ok [ra] ∧
    (matcherMatch router m (fuel + 2) (RawLocation.str "/b".toList) none none).map
        (fun r => r.matched) = .ok [rx] ∧
    ∀ (raw : RawLocation) (cur : Option Route) (rf : Option Location) (p : Str),
      truthy (normalizeLocation raw cur false router).name = false →
      (normalizeLocation raw cur false router).path = some p → p ≠ [] →
      ra.regex.exec router.customGroups p = none →
      rx.regex.exec router.customGroups p = none →
      (∀ c ∈ p, isLineTerminator c = false) →
      (decodeURIComponent p).isSome = true →
      (matcherMatch router m (fuel + 2) raw cur rf).map (fun r => r.matched) = .ok [rs] := by
  obtain ⟨hA1, hA2, hA3⟩ := hpA
  obtain ⟨hX1, hX2, hX3⟩ := hpX
  obtain ⟨hS1, hS2, hS3⟩ := hpS
  refine ⟨?_, ?_, ?_⟩
  · rw [matcherMatch_path router m (fuel + 1) (RawLocation.str "/a".toList) none none "/a".toList rfl rfl (by decide)]
    have h1 : matchRoute router.customGroups ra.regex "/a".toList [] = .ok (some []) := by
      rw [hrA]; rfl
    simp only [hl, scanPathList, hA, h1]
    rw [createRoute_plain router m fuel ra _ _ (by simp [hA1]) (by simp [hA2, truthy])]
    simp [Except.map, createRoute_matched, formatMatch_root ra hA3]
  · rw [matcherMatch_path router m (fuel + 1) (RawLocation.str "/b".toList) none none "/b".toList rfl rfl (by decide)]
    have h1 : matchRoute router.customGroups ra.regex "/b".toList [] = .ok none := by
      rw [hrA]; rfl
    have h2 : matchRoute router.customGroups rx.regex "/b".toList [] =
        .ok (some [("x".toList, Value.atom (Atom.str "b".toList))]) := by
      rw [hrX]; rfl
    simp only [hl, scanPathList, hA, hX, h1, h2]
    rw [createRoute_plain router m fuel rx _ _ (by simp [hX1]) (by simp [hX2, truthy])]
    simp [Except.map, createRoute_matched, formatMatch_root rx hX3]
  · intro raw cur rf p hname hpath hp hA' hX' hlt hdec
    obtain ⟨d, hd⟩ := Option.isSome_iff_exists.mp hdec
    rw [matcherMatch_path router m (fuel + 1) raw cur rf p hname hpath hp]
    have h1 := matchRoute_of_exec_none router.customGroups ra.regex p [] hA'
    have h2 := matchRoute_of_exec_none router.customGroups rx.regex p [] hX'
    have h3 : matchRoute router.customGroups rs.regex p [] =
        .ok (some [("pathMatch".toList, Value.atom (Atom.str d))]) := by
      rw [hrS]; exact matchRoute_star router.customGroups p d hlt hd
    simp only [hl, scanPathList, hA, hX, hS, h1, h2, h3]
    rw [createRoute_plain router m fuel rs _ _ (by simp [hS1]) (by simp [hS2, truthy])]
    simp [Except.map, createRoute_matched, formatMatch_root rs hS3]

/-- C1 (as amended): in a registry built from the three routes `/a`, `/:x`
and `*` with `/a` declared before `/:x` (the wildcard declared first, second
or last), `match('/a')` selects the record of `/a`, `match('/b')` selects the
record of `/:x`, and every location whose path is matched by neither of their
regexes, holds no line terminator and percent-decodes selects the record of
`*`. -/
theorem match_literal_dynamic_wildcard (ca cx cs : Nat) (router : Router) (fuel : Nat)
    (routes : List RouteConfig)
    (horder :
      routes = [RouteConfig.leaf "/a".toList ca, RouteConfig.leaf "/:x".toList cx,
                RouteConfig.leaf "*".toList cs] ∨
      routes = [RouteConfig.leaf "/a".toList ca, RouteConfig.leaf "*".toList cs,
                RouteConfig.leaf "/:x".toList cx] ∨
      routes = [RouteConfig.leaf "*".toList cs, RouteConfig.leaf "/a".toList ca,
                RouteConfig.leaf "/:x".toList cx]) :
    ∃ ra rx rs,
      Dict.get? (createRouteMap routes RouteMap.empty).pathMap "/a".toList = some ra ∧
      Dict.get? (createRouteMap routes RouteMap.empty).pathMap "/:x".toList = some rx ∧
      Dict.get? (createRouteMap routes RouteMap.empty).pathMap "*".toList = some rs ∧
      (matcherMatch router (createRouteMap routes RouteMap.empty) (fuel + 2)
        (RawLocation.str "/a".toList) none none).map (fun r => r.matched) = .ok [ra] ∧
      (matcherMatch router (createRouteMap routes RouteMap.empty) (fuel + 2)
        (RawLocation.str "/b".toList) none none).map (fun r => r.matched) = .ok [rx] ∧
      ∀ (raw : RawLocation) (cur : Option Route) (rf : Option Location) (p : Str),
        truthy (normalizeLocation raw cur false router).name = false →
        (normalizeLocation raw cur false router).path = some p → p ≠ [] →
        ra.regex.exec router.customGroups p = none →
        rx.regex.exec router.customGroups p = none →
        (∀ c ∈ p, isLineTerminator c = false) →
        (decodeURIComponent p).isSome = true →
        (matcherMatch router (createRouteMap routes RouteMap.empty) (fuel + 2) raw cur rf).map
          (fun r => r.matched) = .ok [rs] := by
  rcases horder with h | h | h <;> subst h
  · exact ⟨makeRecord 0 (RouteConfig.leaf "/a".toList ca).options none none,
      makeRecord 1 (RouteConfig.leaf "/:x".toList cx).options none none,
      makeRecord 2 (RouteConfig.leaf "*".toList cs).options none none, rfl, rfl, rfl,
      match_three_records router _ fuel _ _ _ rfl rfl rfl rfl rfl rfl rfl
        ⟨rfl, rfl, rfl⟩ ⟨rfl, rfl, rfl⟩ ⟨rfl, rfl, rfl⟩⟩
  · exact ⟨makeRecord 0 (RouteConfig.leaf "/a".toList ca).options none none,
      makeRecord 2 (RouteConfig.leaf "/:x".toList cx).options none none,
      makeRecord 1 (RouteConfig.leaf "*".toList cs).options none none, rfl, rfl, rfl,
      match_three_records router _ fuel _ _ _ rfl rfl rfl rfl rfl rfl rfl
        ⟨rfl, rfl, rfl⟩ ⟨rfl, rfl, rfl⟩ ⟨rfl, rfl, rfl⟩⟩
  · exact ⟨makeRecord 1 (RouteConfig.leaf "/a".toList ca).options none none,
      makeRecord 2 (RouteConfig.leaf "/:x".toList cx).options none none,
      makeRecord 0 (RouteConfig.leaf "*".toList cs).options none none, rfl, rfl, rfl,
      match_three_records router _ fuel _ _ _ rfl rfl rfl rfl rfl rfl rfl
        ⟨rfl, rfl, rfl⟩ ⟨rfl, rfl, rfl⟩ ⟨rfl, rfl, rfl⟩⟩

theorem match_literal_dynamic_wildcard_witness :
    ∃ ra rx rs,
      Dict.get? (createRouteMap [RouteConfig.leaf "*".toList 3, RouteConfig.leaf "/a".toList 1,
        RouteConfig.leaf "/:x".toList 2] RouteMap.empty).pathMap "/a".toList = some ra ∧
      Dict.get? (createRouteMap [RouteConfig.leaf "*".toList 3, RouteConfig.leaf "/a".toList 1,
        RouteConfig.leaf "/:x".toList 2] RouteMap.empty).pathMap "/:x".toList = some rx ∧
      Dict.get? (createRouteMap [RouteConfig.leaf "*".toList 3, RouteConfig.leaf "/a".toList 1,
        RouteConfig.leaf "/:x".toList 2] RouteMap.empty).pathMap "*".toList = some rs ∧
      (matcherMatch {} (createRouteMap [RouteConfig.leaf "*".toList 3,
        RouteConfig.leaf "/a".toList 1, RouteConfig.leaf "/:x".toList 2] RouteMap.empty) (0 + 2)
        (RawLocation.str "/a".toList) none none).map (fun r => r.matched) = .ok [ra] ∧
      (matcherMatch {} (createRouteMap [RouteConfig.leaf "*".toList 3,
        RouteConfig.leaf "/a".toList 1, RouteConfig.leaf "/:x".toList 2] RouteMap.empty) (0 + 2)
        (RawLocation.str "/b".toList) none none).map (fun r => r.matched) = .ok [rx] ∧
      ∀ (raw : RawLocation) (cur : Option Route) (rf : Option Location) (p : Str),
        truthy (normalizeLocation raw cur false {}).name = false →
        (normalizeLocation raw cur false {}).path = some p → p ≠ [] →
        ra.regex.exec noCustomGroups p = none →
        rx.regex.exec noCustomGroups p = none →
        (∀ c ∈ p, isLineTerminator c = false) →
        (decodeURIComponent p).isSome = true →
        (matcherMatch {} (createRouteMap [RouteConfig.leaf "*".toList 3,
          RouteConfig.leaf "/a".toList 1, RouteConfig.leaf "/:x".toList 2] RouteMap.empty)
          (0 + 2) raw cur rf).map (fun r => r.matched) = .ok [rs] :=
  match_literal_dynamic_wildcard 1 2 3 {} 0 _ (Or.inr (Or.inr rfl))

/-- C1 (counterexample): with `/:x` declared before `/a` (and `*` last),
`match('/a')` selects the record of `/:x`, not the record of `/a`. -/
theorem match_dynamic_declared_first :
    ((matcherMatch {} (createRouteMap [RouteConfig.leaf "/:x".toList 2,
        RouteConfig.leaf "/a".toList 1, RouteConfig.leaf "*".toList 3] RouteMap.empty) 2
        (RawLocation.str "/a".toList) none none).toOption.map
        (fun r => r.matched.map RouteRecord.path)) = some ["/:x".toList] ∧
    ((matcherMatch {} (createRouteMap [RouteConfig.leaf "/:x".toList 2,
        RouteConfig.leaf "/a".toList 1, RouteConfig.leaf "*".toList 3] RouteMap.empty) 2
        (RawLocation.str "/a".toList) none none).toOption.map
        (fun r => r.matched.map RouteRecord.path)) ≠ some ["/a".toList] := by
  constructor <;> decide

/-! ## First match wins -/

/-- The scan of `pathList` skips the entries whose regex does not match the path. -/
theorem scanPathList_skip (host : CustomGroups) (pathMap : Dict RouteRecord) (p : Str)
    (pre rest : List Str)
    (hpre : ∀ q ∈ pre, ∃ r, Dict.get? pathMap q = some r ∧ r.regex.exec host p = none) :
    scanPathList host pathMap p (pre ++ rest) = scanPathList host pathMap p rest := by
  induction pre with
  | nil => rfl
  | cons q pre ih =>
    obtain ⟨r, hr, hex⟩ := hpre q (by simp)
    have := ih (fun q' hq' => hpre q' (by simp [hq']))
    simp [scanPathList, hr, matchRoute, hex, this]

/-- First match wins: when the regexes of the first `i` entries of `pathList` do
not match the path of the location, the regex of entry `i` matches it and the
captured texts percent-decode, `match` returns what `_createRoute` returns for
the record of entry `i`, the location carrying the decoded params. -/
theorem match_first_matching_record (router : Router) (m : RouteMap) (fuel : Nat)
    (raw : RawLocation) (cur : Option Route) (rf : Option Location) (p : Str)
    (pre rest : List Str) (q : Str) (record : RouteRecord) (caps : List (Option Str))
    (params : Params)
    (hname : truthy (normalizeLocation raw cur false router).name = false)
    (hpath : (normalizeLocation raw cur false router).path = some p) (hp : p ≠ [])
    (hlist : m.pathList = pre ++ q :: rest)
    (hpre : ∀ q' ∈ pre, ∃ r, Dict.get? m.pathMap q' = some r ∧
      r.regex.exec router.customGroups p = none)
    (hrec : Dict.get? m.pathMap q = some record)
    (hexec : record.regex.exec router.customGroups p = some caps)
    (hdec : matchRouteLoop caps record.regex.keys [] = .ok params) :
    matcherMatch router m (fuel + 1) raw cur rf =
      _createRoute router m fuel (some record)
        { normalizeLocation raw cur false router with params := some params } rf := by
  rw [matcherMatch_path router m fuel raw cur rf p hname hpath hp, hlist,
    scanPathList_skip router.customGroups m.pathMap p pre (q :: rest) hpre]
  simp [scanPathList, hrec, matchRoute, hexec, hdec, Except.map]

/-- No match: when no regex of `pathList` matches the path of the location,
`match` returns a route without matched record that carries the path, the
query and the hash of the location. -/
theorem match_no_matching_record (router : Router) (m : RouteMap) (fuel : Nat)
    (raw : RawLocation) (cur : Option Route) (rf : Option Location) (p : Str)
    (hname : truthy (normalizeLocation raw cur false router).name = false)
    (hpath : (normalizeLocation raw cur false router).path = some p) (hp : p ≠ [])
    (hall : ∀ q ∈ m.pathList, ∃ r, Dict.get? m.pathMap q = some r ∧
      r.regex.exec router.customGroups p = none) :
    ∃ route, matcherMatch router m (fuel + 2) raw cur rf = .ok route ∧
      route.matched = [] ∧ route.path = p ∧
      route.query = (normalizeLocation raw cur false router).query.getD [] ∧
      route.hash = (normalizeLocation raw cur false router).hash.getD [] := by
  have hskip := scanPathList_skip router.customGroups m.pathMap p m.pathList [] hall
  rw [List.append_nil] at hskip
  refine ⟨createRoute none
    { normalizeLocation raw cur false router with params := some [] } none router, ?_, ?_, ?_, ?_, ?_⟩
  · rw [matcherMatch_path router m (fuel + 1) raw cur rf p hname hpath hp, hskip]
    simp only [scanPathList]
    rw [createRoute_none]
  · rfl
  · cases p with
    | nil => exact absurd rfl hp
    | cons a t => simp [createRoute, hpath, truthy]
  · rfl
  · simp only [createRoute]
    cases h : (normalizeLocation raw cur false router).hash with
    | none => simp [truthy]
    | some hs =>
      cases hs with
      | nil => simp [truthy]
      | cons a t => simp [truthy]

/-- C2 (failing input): in the registry built from the one route `/:x`, the
regex of the first entry matches the path `/%` and captures `%`, and
`match('/%')` throws the `URIError` of `decodeURIComponent` instead of
returning a route. -/
theorem match_throws_on_malformed_escape :
    (createRouteMap [RouteConfig.leaf "/:x".toList 1] RouteMap.empty).pathList = ["/:x".toList] ∧
    (pathToRegexp "/:x".toList {}).exec noCustomGroups "/%".toList = some [some "%".toList] ∧
    matcherMatch {} (createRouteMap [RouteConfig.leaf "/:x".toList 1] RouteMap.empty) 4
      (RawLocation.str "/%".toList) none none = .error JsError.uriError :=
  ⟨rfl, rfl, rfl⟩

/-! ## Routes returned by `match` end in a plain record -/

theorem formatMatch_getLast (r : RouteRecord) : (formatMatch r).getLast? = some r := by
  cases r with
  | mk u p re c n par ma rd b md pr =>
    cases par with
    | none => rfl
    | some q => simp [formatMatch]

theorem redirect_preserves (P : Route → Prop) (router : Router) (m : RouteMap)
    (doMatch : RawLocation → Option Route → Option Location → Js Route)
    (doCreate : Option RouteRecord → Location → Option Location → Js Route)
    (hM : ∀ raw c rf route, doMatch raw c rf = .ok route → P route)
    (hC : ∀ rec loc rf route, doCreate rec loc rf = .ok route → P route)
    (record : RouteRecord) (location : Location) (route : Route)
    (h : redirect router m doMatch doCreate record location = .ok route) : P route := by
  unfold redirect at h
  simp only at h
  split at h
  · exact hC _ _ _ _ h
  · split at h
    · split at h
      · cases h
      · exact hM _ _ _ _ h
    · split at h
      · exact hM _ _ _ _ h
      · exact hC _ _ _ _ h

theorem resolveAlias_preserves (P : Route → Prop) (router : Router)
    (doMatch : RawLocation → Option Route → Option Location → Js Route)
    (doCreate : Option RouteRecord → Location → Option Location → Js Route)
    (hC : ∀ rec loc rf route, doCreate rec loc rf = .ok route → P route)
    (location : Location) (matchAs : Str) (route : Route)
    (h : resolveAlias router doMatch doCreate location matchAs = .ok route) : P route := by
  unfold resolveAlias at h
  simp only at h
  split at h
  · cases h
  · exact hC _ _ _ _ h

/-- Induction over the calls of `match` and `_createRoute`: what holds of the
routes `createRoute` builds for a plain record, or for no record, holds of
every route returned. -/
theorem match_result_induction (P : Route → Prop) (router : Router) (m : RouteMap)
    (hbase : ∀ (rec : Option RouteRecord) (loc : Location) (rf : Option Location),
      (∀ z, rec = some z → z.isPlain) → P (createRoute rec loc rf router))
    (n : Nat) :
    (∀ raw c rf route, matcherMatch router m n raw c rf = .ok route → P route) ∧
    (∀ rec loc rf route, _createRoute router m n rec loc rf = .ok route → P route) := by
  induction n with
  | zero =>
    constructor
    · intro raw c rf route h
      rw [matcherMatch_zero] at h
      cases h
    · intro rec loc rf route h
      rw [createRoute_zero] at h
      cases h
  | succ n ih =>
    obtain ⟨ihM, ihC⟩ := ih
    constructor
    · intro raw c rf route h
      rw [matcherMatch] at h
      simp only at h
      split at h
      · split at h
        · exact ihC _ _ _ _ h
        · exact ihC _ _ _ _ h
      · split at h
        · split at h
          · cases h
          · exact ihC _ _ _ _ h
          · exact ihC _ _ _ _ h
        · exact ihC _ _ _ _ h
    · intro rec loc rf route h
      cases rec with
      | none =>
        rw [createRoute_none] at h
        cases h
        exact hbase none loc rf (fun z hz => by cases hz)
      | some r =>
        rw [_createRoute] at h
        split at h
        · exact redirect_preserves P router m _ _ ihM ihC _ _ _ h
        · rename_i hnr
          split at h
          · exact resolveAlias_preserves P router _ _ ihC _ _ _ h
          · rename_i hna
            cases h
            refine hbase (some r) loc rf (fun z hz => ?_)
            rw [← Option.some.inj hz]
            exact ⟨by simpa using hnr, by simpa using hna⟩

/-- Every route `match` returns ends in a plain record. -/
theorem match_endsPlain (router : Router) (m : RouteMap) (n : Nat) (raw : RawLocation)
    (c : Option Route) (rf : Option Location) (route : Route)
    (h : matcherMatch router m n raw c rf = .ok route) : route.endsPlain := by
  refine (match_result_induction Route.endsPlain router m ?_ n).1 raw c rf route h
  intro rec loc rf hrec z hz
  cases rec with
  | none => simp [createRoute] at hz
  | some r =>
    rw [createRoute_matched, formatMatch_getLast] at hz
    rw [← Option.some.inj hz]
    exact hrec r rfl

/-- The matched chain of every route `match` returns is the chain of ancestors
of its last record. -/
theorem match_matched_chain (router : Router) (m : RouteMap) (n : Nat) (raw : RawLocation)
    (c : Option Route) (rf : Option Location) (route : Route)
    (h : matcherMatch router m n raw c rf = .ok route) :
    route.matched = match route.matched.getLast? with
      | some z => formatMatch z
      | none => [] := by
  refine (match_result_induction
    (fun route => route.matched = match route.matched.getLast? with
      | some z => formatMatch z
      | none => []) router m ?_ n).1 raw c rf route h
  intro rec loc rf _
  cases rec with
  | none => rfl
  | some r => simp only [createRoute_matched, formatMatch_getLast]

/-! ## Static redirects -/

theorem createRoute_matched_eq (router : Router) (m : RouteMap) (n : Nat)
    (rec : Option RouteRecord) (loc1 loc2 : Location) (rf1 rf2 : Option Location)
    (hrec : ∀ z, rec = some z → z.isPlain) :
    (_createRoute router m n rec loc1 rf1).map (fun r => r.matched) =
      (_createRoute router m n rec loc2 rf2).map (fun r => r.matched) := by
  cases n with
  | zero => rw [createRoute_zero, createRoute_zero]
  | succ k =>
    cases rec with
    | none => rw [createRoute_none, createRoute_none]; rfl
    | some z =>
      obtain ⟨h1, h2⟩ := hrec z rfl
      rw [createRoute_plain router m k z loc1 rf1 h1 h2, createRoute_plain router m k z loc2 rf2 h1 h2]
      rfl

/-- For a record that does not redirect, the matched chain `_createRoute`
returns depends on the location only through its params. -/
theorem createRoute_matched_of_params (router : Router) (m : RouteMap) (n : Nat)
    (X : RouteRecord) (loc1 loc2 : Location) (rf1 rf2 : Option Location)
    (hX : (X.redirect.map Redirect.truthy).getD false = false)
    (hparams : loc1.params = loc2.params) :
    (_createRoute router m n (some X) loc1 rf1).map (fun r => r.matched) =
      (_createRoute router m n (some X) loc2 rf2).map (fun r => r.matched) := by
  cases n with
  | zero => rw [createRoute_zero, createRoute_zero]
  | succ k =>
    by_cases hma : truthy X.matchAs = true
    · rw [_createRoute, _createRoute]
      simp only [hX, hma, if_true, Bool.false_eq_true, if_false]
      unfold resolveAlias
      simp only [hparams]
      generalize hm : matcherMatch router m k (RawLocation.obj _) none none = res
      cases res with
      | error e => rfl
      | ok am =>
        exact createRoute_matched_eq router m k _ _ _ _ _
          (fun z hz => match_endsPlain router m k _ _ _ am hm z hz)
    · have hma' : truthy X.matchAs = false := by simpa using hma
      rw [createRoute_plain router m k X loc1 rf1 hX hma',
        createRoute_plain router m k X loc2 rf2 hX hma']
      rfl

theorem fillParams_literal (host : CustomGroups) (p : Str) (params : Params)
    (hlit : parse p = [Token.str p]) : (fillParams host p params).1 = p := by
  simp [fillParams, compile, hlit, tokensToFunction]

theorem takeWhile_ne_of_not_mem (c : Char) (p : Str) (h : c ∉ p) :
    p.takeWhile (fun x => x != c) = p := by
  induction p with
  | nil => rfl
  | cons a t ih =>
    have ha : a ≠ c := fun e => h (by simp [e])
    simp [List.takeWhile_cons, ha, ih (fun hc => h (by simp [hc]))]

theorem dropWhile_ne_of_not_mem (c : Char) (p : Str) (h : c ∉ p) :
    p.dropWhile (fun x => x != c) = [] := by
  induction p with
  | nil => rfl
  | cons a t ih =>
    have ha : a ≠ c := fun e => h (by simp [e])
    simp [List.dropWhile_cons, ha, ih (fun hc => h (by simp [hc]))]

/-- Normalising an absolute path string without query or hash keeps the path. -/
theorem normalizeLocation_absolute (router : Router) (p : Str) (cur : Option Route)
    (habs : p.head? = some '/') (hq : '?' ∉ p) (hh : '#' ∉ p) :
    truthy (normalizeLocation (RawLocation.str p) cur false router).name = false ∧
      (normalizeLocation (RawLocation.str p) cur false router).path = some p := by
  cases p with
  | nil => simp at habs
  | cons a t =>
    simp only [List.head?_cons, Option.some.injEq] at habs
    subst habs
    have hpp : parsePath ('/' :: t) = { path := '/' :: t, query := [], hash := [] } := by
      simp only [parsePath, dropWhile_ne_of_not_mem '#' _ hh, takeWhile_ne_of_not_mem '#' _ hh,
        dropWhile_ne_of_not_mem '?' _ hq, takeWhile_ne_of_not_mem '?' _ hq, List.drop_nil]
    constructor
    · simp [normalizeLocation, truthy]
    · simp [normalizeLocation, truthy, hpp, resolvePath]

/-- Matching a location that selects a record redirecting to the literal
absolute path `p` computes the matched chain that matching `p` computes. -/
theorem redirect_to_literal_path_eq (router : Router) (m : RouteMap) (fuel : Nat)
    (raw : RawLocation) (cur : Option Route) (rf : Option Location) (q : Str)
    (R : RouteRecord) (params : Params) (p : Str)
    (hname : truthy (normalizeLocation raw cur false router).name = false)
    (hpath : (normalizeLocation raw cur false router).path = some q) (hq : q ≠ [])
    (hscan : scanPathList router.customGroups m.pathMap q m.pathList = .ok (some (R, params)))
    (hR : R.redirect = some (Redirect.value (RedirectTarget.str p)))
    (habs : p.head? = some '/') (hlit : parse p = [Token.str p])
    (hnq : '?' ∉ p) (hnh : '#' ∉ p)
    (hX : ∀ X ps, scanPathList router.customGroups m.pathMap p m.pathList = .ok (some (X, ps)) →
      (X.redirect.map Redirect.truthy).getD false = false) :
    (matcherMatch router m (fuel + 3) raw cur rf).map (fun r => r.matched) =
      (matcherMatch router m (fuel + 1) (RawLocation.str p) none none).map (fun r => r.matched) := by
  have hp : p ≠ [] := by
    intro h
    rw [h] at habs
    simp at habs
  have hpt : (!p.isEmpty) = true := by
    cases p with
    | nil => exact absurd rfl hp
    | cons a t => rfl
  have hrp : resolveRecordPath p R = p := by
    cases p with
    | nil => exact absurd rfl hp
    | cons a t =>
      simp only [List.head?_cons, Option.some.injEq] at habs
      subst habs
      simp [resolveRecordPath, resolvePath]
  obtain ⟨hn2, hp2⟩ := normalizeLocation_absolute router p none habs hnq hnh
  rw [matcherMatch_path router m (fuel + 2) raw cur rf q hname hpath hq, hscan]
  simp only
  rw [_createRoute]
  simp only [hR, Option.map_some', Redirect.truthy, hpt, Option.getD_some, if_true]
  unfold redirect
  simp only [hR, truthy, hpt, Option.getD_some, hrp, fillParams_literal _ p _ hlit, Option.isSome_none,
    Bool.false_eq_true, if_false, if_true]
  rw [matcherMatch_path router m fuel _ none _ p (by rfl) (by rfl) hp,
    matcherMatch_path router m fuel (RawLocation.str p) none none p hn2 hp2 hp]
  cases hs : scanPathList router.customGroups m.pathMap p m.pathList with
  | error e => rfl
  | ok found =>
    cases found with
    | none => exact createRoute_matched_eq router m fuel none _ _ _ _ (fun z hz => by cases hz)
    | some Xps =>
      obtain ⟨X, ps⟩ := Xps
      exact createRoute_matched_of_params router m fuel X _ _ _ _ (hX X ps hs) rfl

theorem map_matched_ok {x y : Js Route} {am : Route}
    (h : x.map (fun r => r.matched) = y.map (fun r => r.matched)) (hy : y = .ok am) :
    ∃ route, x = .ok route ∧ route.matched = am.matched := by
  subst hy
  cases x with
  | error e => cases h
  | ok route =>
    refine ⟨route, rfl, ?_⟩
    simpa [Except.map] using h

/-- C4 (as amended): when the path of a location selects a record `R` whose
redirect is the static string `p`, where `p` is an absolute path made of
literal characters only (no parameter token, no escape, no query, no hash) and
the record that `p` selects does not itself redirect, and `match(p)` returns a
route, then `match` of the location returns a route with the same matched
chain. -/
theorem redirect_to_literal_path (router : Router) (m : RouteMap) (fuel : Nat)
    (raw : RawLocation) (cur : Option Route) (rf : Option Location) (q : Str)
    (R : RouteRecord) (params : Params) (p : Str) (direct : Route)
    (hname : truthy (normalizeLocation raw cur false router).name = false)
    (hpath : (normalizeLocation raw cur false router).path = some q) (hq : q ≠ [])
    (hscan : scanPathList router.customGroups m.pathMap q m.pathList = .ok (some (R, params)))
    (hR : R.redirect = some (Redirect.value (RedirectTarget.str p)))
    (habs : p.head? = some '/') (hlit : parse p = [Token.str p])
    (hnq : '?' ∉ p) (hnh : '#' ∉ p)
    (hX : ∀ X ps, scanPathList router.customGroups m.pathMap p m.pathList = .ok (some (X, ps)) →
      (X.redirect.map Redirect.truthy).getD false = false)
    (hdirect : matcherMatch router m (fuel + 1) (RawLocation.str p) none none = .ok direct) :
    ∃ route, matcherMatch router m (fuel + 3) raw cur rf = .ok route ∧
      route.matched = direct.matched :=
  map_matched_ok
    (redirect_to_literal_path_eq router m fuel raw cur rf q R params p hname hpath hq hscan hR
      habs hlit hnq hnh hX) hdirect

/-- C4 (witness): in the registry built from `/old` redirecting to `/new` and
from `/new`, matching `/old` returns a route with the matched chain of matching
`/new`, the record of `/new`. -/
theorem redirect_to_literal_path_witness :
    (∃ route, matcherMatch {} (createRouteMap Example.redirectRoutes RouteMap.empty) (1 + 3)
        (RawLocation.str "/old".toList) none none = .ok route ∧
      route.matched = (createRoute
        (some (makeRecord 1 (RouteConfig.leaf "/new".toList 1).options none none))
        { normalized := true, path := some "/new".toList, query := some [], hash := some [],
          params := some [] } none {}).matched) ∧
    (matcherMatch {} (createRouteMap Example.redirectRoutes RouteMap.empty) (1 + 3)
        (RawLocation.str "/old".toList) none none).toOption.map
        (fun r => (r.matched.map RouteRecord.path, r.redirectedFrom)) =
      some (["/new".toList], some "/old".toList) :=
  ⟨redirect_to_literal_path {} _ 1 (RawLocation.str "/old".toList) none none "/old".toList
      (makeRecord 0
        { path := "/old".toList, redirect := some (Redirect.value (RedirectTarget.str "/new".toList)) }
        none none)
      [] "/new".toList _ rfl rfl (by decide) rfl rfl rfl rfl (by decide) (by decide)
      (fun X ps h => by
        have hs : scanPathList noCustomGroups
            (createRouteMap Example.redirectRoutes RouteMap.empty).pathMap "/new".toList
            (createRouteMap Example.redirectRoutes RouteMap.empty).pathList =
            .ok (some (makeRecord 1 (RouteConfig.leaf "/new".toList 1).options none none, [])) := rfl
        have h2 := h.symm.trans hs
        injection h2 with h3
        injection h3 with h4
        injection h4 with h5 h6
        rw [h5]
        rfl)
      rfl,
    by decide⟩

/-- C4 (counterexample): a child `old` of `/p` redirects to the relative path
`new`; matching `/p/old` yields the chain of `/p/new` (the redirect is resolved
against the parent), while matching `new` yields the chain of `/new`. -/
theorem redirect_relative_path_differs :
    (matcherMatch {} (createRouteMap Example.relativeRedirectRoutes RouteMap.empty) 4
        (RawLocation.str "/p/old".toList) none none).toOption.map
        (fun r => r.matched.map RouteRecord.path) = some ["/p".toList, "/p/new".toList] ∧
    (matcherMatch {} (createRouteMap Example.relativeRedirectRoutes RouteMap.empty) 4
        (RawLocation.str "new".toList) none none).toOption.map
        (fun r => r.matched.map RouteRecord.path) = some ["/new".toList] := by
  constructor <;> decide

/-! ## Redirects that end on an alias -/

/-- C5 (failing input): `/old` redirects to `/alt`, an alias of `/real`.
Matching `/old` returns the route of the real record without `redirectedFrom`;
matching `/old2`, which redirects to `/real` itself, returns the same matched
chain with `redirectedFrom` set to the full path first requested. -/
theorem redirect_to_alias_drops_redirectedFrom :
    (matcherMatch {} (createRouteMap Example.redirectToAliasRoutes RouteMap.empty) 6
        (RawLocation.str "/old".toList) none none).toOption.map
        (fun r => (r.matched.map RouteRecord.path, r.redirectedFrom)) =
      some (["/real".toList], none) ∧
    (matcherMatch {} (createRouteMap Example.redirectToAliasRoutes RouteMap.empty) 6
        (RawLocation.str "/old2".toList) none none).toOption.map
        (fun r => (r.matched.map RouteRecord.path, r.redirectedFrom)) =
      some (["/real".toList], some "/old2".toList) := by
  constructor <;> decide

/-! ## Aliases -/

/-- C6 (as amended): when the path `q` of a location selects an alias-derived
record (one with `matchAs`, not redirecting) and matching the `matchAs` path
filled with the params extracted from `q` returns a route `real`, then `match`
returns a route whose matched chain is the chain of `real`, ending in a record
that is not alias-derived, and whose path is the requested path `q`. -/
theorem alias_match (router : Router) (m : RouteMap) (fuel : Nat)
    (raw : RawLocation) (cur : Option Route) (rf : Option Location) (q : Str)
    (A : RouteRecord) (params : Params) (ma : Str) (real : Route)
    (hname : truthy (normalizeLocation raw cur false router).name = false)
    (hpath : (normalizeLocation raw cur false router).path = some q) (hq : q ≠ [])
    (hscan : scanPathList router.customGroups m.pathMap q m.pathList = .ok (some (A, params)))
    (hAr : (A.redirect.map Redirect.truthy).getD false = false)
    (hAm : A.matchAs = some ma) (hma : ma ≠ [])
    (hreal : matcherMatch router m (fuel + 1)
      (RawLocation.obj { normalized := true,
                         path := some (fillParams router.customGroups ma params).1 })
      none none = .ok real) :
    ∃ route, matcherMatch router m (fuel + 3) raw cur rf = .ok route ∧
      route.matched = real.matched ∧ route.path = q ∧
      (∀ z, route.matched.getLast? = some z → truthy z.matchAs = false) := by
  have hmt : truthy (some ma) = true := by
    cases ma with
    | nil => exact absurd rfl hma
    | cons a t => rfl
  have hplain := match_endsPlain router m _ _ _ _ real hreal
  have hchain := match_matched_chain router m _ _ _ _ real hreal
  have hqpath : (if truthy (some q) = true then (some q).getD [] else ['/']) = q := by
    cases q with
    | nil => exact absurd rfl hq
    | cons a t => rfl
  rw [matcherMatch_path router m (fuel + 2) raw cur rf q hname hpath hq, hscan]
  simp only
  rw [_createRoute]
  simp only [hAr, hAm, hmt, Bool.false_eq_true, if_false, if_true, Option.getD_some]
  unfold resolveAlias
  simp only [Option.getD_some, hreal]
  cases hl : real.matched.getLast? with
  | none =>
    rw [hl] at hchain
    rw [createRoute_none]
    refine ⟨_, rfl, ?_, ?_, ?_⟩
    · rw [hchain]; rfl
    · simp only [createRoute, hpath, hqpath]
    · intro z hz
      simp [createRoute] at hz
  | some z =>
    rw [hl] at hchain
    obtain ⟨hz1, hz2⟩ := hplain z hl
    rw [createRoute_plain router m fuel z _ _ hz1 hz2]
    refine ⟨_, rfl, ?_, ?_, ?_⟩
    · rw [hchain]; rfl
    · simp only [createRoute, hpath, hqpath]
    · intro z' hz'
      rw [createRoute_matched, formatMatch_getLast] at hz'
      rw [← Option.some.inj hz']
      exact hz2

/-- C6 (witness): with the real path `/real` and the alias `/alt`, matching
`/alt` returns the chain of the record of `/real` and the path `/alt`. -/
theorem alias_match_witness :
    (∃ route, matcherMatch {} (createRouteMap Example.aliasRoutes RouteMap.empty) (1 + 3)
        (RawLocation.str "/alt".toList) none none = .ok route ∧
      route.matched = (createRoute
        (some (makeRecord 0
          { path := "/real".toList, component := some 1, aliases := some ["/alt".toList] }
          none none))
        { normalized := true, path := some "/real".toList, params := some [] } none {}).matched ∧
      route.path = "/alt".toList ∧
      (∀ z, route.matched.getLast? = some z → truthy z.matchAs = false)) ∧
    (matcherMatch {} (createRouteMap Example.aliasRoutes RouteMap.empty) (1 + 3)
        (RawLocation.str "/alt".toList) none none).toOption.map
        (fun r => (r.matched.map RouteRecord.path, r.matched.map RouteRecord.matchAs, r.path)) =
      some (["/real".toList], [none], "/alt".toList) :=
  ⟨alias_match {} _ 1 (RawLocation.str "/alt".toList) none none "/alt".toList
      (makeRecord 1 { path := "/alt".toList } none (some "/real".toList)) [] "/real".toList _
      rfl rfl (by decide) rfl rfl rfl (by decide) rfl,
    by decide⟩

/-- C6 (counterexample): `/r:x` is registered before `/real`, which has the
alias `/alt`. Matching `/alt` returns the chain of the record of `/r:x`, not
the chain of the real record. -/
theorem alias_real_path_shadowed :
    (matcherMatch {} (createRouteMap Example.shadowedAliasRoutes RouteMap.empty) 4
        (RawLocation.str "/alt".toList) none none).toOption.map
        (fun r => r.matched.map RouteRecord.path) = some ["/r:x".toList] ∧
    (matcherMatch {} (createRouteMap Example.shadowedAliasRoutes RouteMap.empty) 4
        (RawLocation.str "/alt".toList) none none).toOption.map
        (fun r => r.matched.map RouteRecord.path) ≠ some ["/real".toList] := by
  constructor <;> decide

/-! ## Named locations: params taken over from the current route -/

theorem Dict.get?_nil {α : Type} (k : Str) : Dict.get? ([] : Dict α) k = none := rfl

theorem Dict.get?_cons {α : Type} (k0 : Str) (v0 : α) (rest : Dict α) (k : Str) :
    Dict.get? ((k0, v0) :: rest) k = if k0 = k then some v0 else Dict.get? rest k := by
  unfold Dict.get?
  rw [List.find?_cons]
  by_cases h : k0 = k
  · simp [h]
  · have : (k0 == k) = false := by simpa using h
    simp [this, h]

theorem Dict.has_nil {α : Type} (k : Str) : Dict.has ([] : Dict α) k = false := rfl

theorem Dict.has_cons {α : Type} (k0 : Str) (v0 : α) (rest : Dict α) (k : Str) :
    Dict.has ((k0, v0) :: rest) k = (decide (k0 = k) || Dict.has rest k) := by
  unfold Dict.has
  rw [List.any_cons]
  show ((k0 == k) || rest.any fun kv => kv.1 == k) = _
  rw [Bool.beq_eq_decide_eq]

theorem Dict.set_nil {α : Type} (k : Str) (v : α) : Dict.set ([] : Dict α) k v = [(k, v)] := rfl

theorem Dict.set_cons {α : Type} (k0 : Str) (v0 : α) (rest : Dict α) (k : Str) (v : α) :
    Dict.set ((k0, v0) :: rest) k v =
      if k0 = k then (k0, v) :: rest else (k0, v0) :: Dict.set rest k v := by
  by_cases h : k0 = k
  · simp [Dict.set, h]
  · have : (k0 == k) = false := by simpa using h
    simp [Dict.set, this, h]

theorem Dict.get?_eq_none_of_not_has {α : Type} (d : Dict α) (k : Str) (h : Dict.has d k = false) :
    Dict.get? d k = none := by
  induction d with
  | nil => rfl
  | cons kv rest ih =>
    obtain ⟨k0, v0⟩ := kv
    rw [Dict.has_cons] at h
    simp only [Bool.or_eq_false_iff, decide_eq_false_iff_not] at h
    rw [Dict.get?_cons, if_neg h.1]
    exact ih h.2

theorem Dict.get?_set_self {α : Type} (d : Dict α) (k : Str) (v : α) (h : Dict.has d k = false) :
    Dict.get? (Dict.set d k v) k = some v := by
  induction d with
  | nil => simp [Dict.set_nil, Dict.get?_cons]
  | cons kv rest ih =>
    obtain ⟨k0, v0⟩ := kv
    rw [Dict.has_cons] at h
    simp only [Bool.or_eq_false_iff, decide_eq_false_iff_not] at h
    rw [Dict.set_cons, if_neg h.1, Dict.get?_cons, if_neg h.1]
    exact ih h.2

theorem Dict.get?_set_ne {α : Type} (d : Dict α) (k k' : Str) (v : α) (h : k ≠ k') :
    Dict.get? (Dict.set d k v) k' = Dict.get? d k' := by
  induction d with
  | nil => simp [Dict.set_nil, Dict.get?_cons, Dict.get?_nil, h]
  | cons kv rest ih =>
    obtain ⟨k0, v0⟩ := kv
    rw [Dict.set_cons]
    by_cases h0 : k0 = k
    · subst h0
      simp [Dict.get?_cons, h]
    · rw [if_neg h0, Dict.get?_cons, Dict.get?_cons, ih]

theorem Dict.has_set_ne {α : Type} (d : Dict α) (k k' : Str) (v : α) (h : k ≠ k') :
    Dict.has (Dict.set d k v) k' = Dict.has d k' := by
  induction d with
  | nil => simp [Dict.set_nil, Dict.has_cons, Dict.has_nil, h]
  | cons kv rest ih =>
    obtain ⟨k0, v0⟩ := kv
    rw [Dict.set_cons]
    by_cases h0 : k0 = k
    · subst h0
      simp [Dict.has_cons]
    · rw [if_neg h0, Dict.has_cons, Dict.has_cons, ih]

theorem Dict.has_set_self {α : Type} (d : Dict α) (k : Str) (v : α) :
    Dict.has (Dict.set d k v) k = true := by
  induction d with
  | nil => simp [Dict.set_nil, Dict.has_cons]
  | cons kv rest ih =>
    obtain ⟨k0, v0⟩ := kv
    rw [Dict.set_cons]
    by_cases h0 : k0 = k
    · subst h0
      simp [Dict.has_cons]
    · rw [if_neg h0, Dict.has_cons, ih]
      simp

/-- The params a named location ends with: its own bindings, and for a key it
lacks the binding of the current route exactly when the key is one of
`paramNames` and does not name a member of `Object.prototype`. -/
theorem backfillParams_get? (paramNames : List KeyName) (current : Params) :
    ∀ (target : Params) (k : Str),
      Dict.get? (backfillParams paramNames current target) k =
        if Dict.has target k = true then Dict.get? target k
        else if isProtoName k = false ∧ KeyName.named k ∈ paramNames then Dict.get? current k
        else none := by
  induction current with
  | nil =>
    intro target k
    cases h : Dict.has target k with
    | true => simp [backfillParams]
    | false =>
      simp [backfillParams, Dict.get?_eq_none_of_not_has target k h, Dict.get?_nil]
  | cons kv rest ih =>
    intro target k
    obtain ⟨k0, v0⟩ := kv
    have hstep : backfillParams paramNames ((k0, v0) :: rest) target =
        backfillParams paramNames rest
          (if (!Dict.hasIn target k0 && paramNames.contains (KeyName.named k0)) = true
            then Dict.set target k0 v0 else target) := rfl
    rw [hstep, ih, Dict.get?_cons]
    by_cases hadd : (!Dict.hasIn target k0 && paramNames.contains (KeyName.named k0)) = true
    · rw [if_pos hadd]
      simp only [Bool.and_eq_true, Bool.not_eq_true', List.contains, List.elem_eq_mem,
        decide_eq_true_eq, Dict.hasIn, Bool.or_eq_false_iff] at hadd
      by_cases hk : k0 = k
      · subst hk
        simp [Dict.has_set_self, Dict.get?_set_self target k0 v0 hadd.1.1, hadd.1.1, hadd.1.2,
          hadd.2]
      · rw [Dict.has_set_ne target k0 k v0 hk, Dict.get?_set_ne target k0 k v0 hk, if_neg hk]
    · rw [if_neg hadd]
      by_cases hk : k0 = k
      · subst hk
        cases ht : Dict.has target k0 with
        | true => simp
        | false =>
          have hn : ¬ (isProtoName k0 = false ∧ KeyName.named k0 ∈ paramNames) := by
            intro hh
            apply hadd
            simp [Dict.hasIn, ht, hh.1, hh.2]
          simp [hn]
      · rw [if_neg hk]

theorem mem_paramNames (keys : List Key) (k : Str) :
    KeyName.named k ∈ (keys.filter (fun key => !key.optional)).map (fun key => key.name) ↔
      ∃ key ∈ keys, key.optional = false ∧ key.name = KeyName.named k := by
  simp only [List.mem_map, List.mem_filter, Bool.not_eq_true']
  constructor
  · rintro ⟨key, ⟨h1, h2⟩, h3⟩
    exact ⟨key, h1, h2, h3⟩
  · rintro ⟨key, h1, h2, h3⟩
    exact ⟨key, ⟨h1, h2⟩, h3⟩

/-- C7, amended: for a location whose name is in `nameMap`, `match` fills the
path of the record with the params `used` that hold the bindings of the
location's own params and, for every key the location lacks, the binding of
the current route exactly when the key names a non-optional parameter of the
record and does not name a member of `Object.prototype`.  A key that names
such a member is never taken over from the current route, because the test
`key in location.params` finds the inherited member. -/
theorem named_match_backfills_params (router : Router) (m : RouteMap) (fuel : Nat)
    (raw : RawLocation) (cur : Option Route) (rf : Option Location) (name : Str)
    (record : RouteRecord)
    (hname : (normalizeLocation raw cur false router).name = some name) (hne : name ≠ [])
    (hrec : Dict.get? m.nameMap name = some record) :
    ∃ used : Params,
      used = backfillParams
        ((record.regex.keys.filter (fun key => !key.optional)).map (fun key => key.name))
        ((cur.map (fun c => c.params)).getD [])
        ((normalizeLocation raw cur false router).params.getD []) ∧
      matcherMatch router m (fuel + 1) raw cur rf =
        _createRoute router m fuel (some record)
          { normalizeLocation raw cur false router with
            params := some (fillParams router.customGroups record.path used).2
            path := some (fillParams router.customGroups record.path used).1 } rf ∧
      ∀ k : Str,
        (Dict.has ((normalizeLocation raw cur false router).params.getD []) k = true →
          Dict.get? used k =
            Dict.get? ((normalizeLocation raw cur false router).params.getD []) k) ∧
        (Dict.has ((normalizeLocation raw cur false router).params.getD []) k = false →
          isProtoName k = false →
          (∃ key ∈ record.regex.keys, key.optional = false ∧ key.name = KeyName.named k) →
          Dict.get? used k = Dict.get? ((cur.map (fun c => c.params)).getD []) k) ∧
        (Dict.has ((normalizeLocation raw cur false router).params.getD []) k = false →
          (isProtoName k = true ∨
            ¬ (∃ key ∈ record.regex.keys, key.optional = false ∧ key.name = KeyName.named k)) →
          Dict.get? used k = none) := by
  refine ⟨backfillParams
    ((record.regex.keys.filter (fun key => !key.optional)).map (fun key => key.name))
    ((cur.map (fun c => c.params)).getD [])
    ((normalizeLocation raw cur false router).params.getD []), rfl, ?_, ?_⟩
  · have ht : truthy (some name) = true := by
      cases name with
      | nil => exact absurd rfl hne
      | cons a t => rfl
    rw [matcherMatch]
    simp only [hname, ht, if_true, Option.getD_some, hrec]
    cases cur with
    | none => rfl
    | some c => rfl
  · intro k
    have h := backfillParams_get?
      ((record.regex.keys.filter (fun key => !key.optional)).map (fun key => key.name))
      ((cur.map (fun c => c.params)).getD [])
      ((normalizeLocation raw cur false router).params.getD []) k
    refine ⟨fun ht => ?_, fun hf hp hex => ?_, fun hf hnex => ?_⟩
    · rw [h, if_pos ht]
    · rw [h, if_neg (by simp [hf]), if_pos ⟨hp, (mem_paramNames _ k).mpr hex⟩]
    · rw [h, if_neg (by simp [hf]), if_neg]
      rintro ⟨hp, hm⟩
      rcases hnex with hq | hq
      · rw [hp] at hq
        cases hq
      · exact hq ((mem_paramNames _ k).mp hm)

/-- C7, as stated, fails for a parameter whose name is a member of
`Object.prototype`: the record of `/u/:constructor` declares the non-optional
parameter `constructor`, the current route has the param `constructor = 'x'`
and the target `{ name: 'u' }` has no params, yet the params used to fill the
path do not take the entry over: they stay empty. -/
theorem backfill_skips_inherited_name :
    ((Example.ctorRecord.regex.keys.filter (fun key => !key.optional)).map
        (fun key => key.name)) = [KeyName.named "constructor".toList] ∧
      Dict.has ([] : Params) "constructor".toList = false ∧
      backfillParams
        ((Example.ctorRecord.regex.keys.filter (fun key => !key.optional)).map
          (fun key => key.name))
        [("constructor".toList, Value.atom (Atom.str "x".toList))] [] = [] := by
  decide

/-- C7 (witness): the named location `{ name: 'post', params: {} }` matched
from a current route with the params `id`, `pid` and `tab`, for the record of
`/user/:id/post/:pid?`: only `id` is taken over, and the path is filled to
`/user/7/post`. -/
theorem named_match_backfills_params_witness :
    (∃ used : Params,
      used = backfillParams
        ((Example.postRecord.regex.keys.filter (fun key => !key.optional)).map (fun key => key.name))
        (((some Example.currentRoute).map (fun c => c.params)).getD [])
        ((normalizeLocation Example.postTarget
          (some Example.currentRoute) false {}).params.getD []) ∧
      matcherMatch {} (createRouteMap Example.namedRoutes RouteMap.empty) (1 + 1)
          Example.postTarget
          (some Example.currentRoute) none =
        _createRoute {} (createRouteMap Example.namedRoutes RouteMap.empty) 1
          (some Example.postRecord)
          { normalizeLocation Example.postTarget
              (some Example.currentRoute) false {} with
            params := some (fillParams noCustomGroups
              Example.postRecord.path used).2
            path := some (fillParams noCustomGroups
              Example.postRecord.path used).1 } none ∧
      ∀ k : Str,
        (Dict.has ((normalizeLocation
            Example.postTarget
            (some Example.currentRoute) false {}).params.getD []) k = true →
          Dict.get? used k =
            Dict.get? ((normalizeLocation
              Example.postTarget
              (some Example.currentRoute) false {}).params.getD []) k) ∧
        (Dict.has ((normalizeLocation
            Example.postTarget
            (some Example.currentRoute) false {}).params.getD []) k = false →
          isProtoName k = false →
          (∃ key ∈ Example.postRecord.regex.keys, key.optional = false ∧ key.name = KeyName.named k) →
          Dict.get? used k =
            Dict.get? (((some Example.currentRoute).map (fun c => c.params)).getD []) k) ∧
        (Dict.has ((normalizeLocation
            Example.postTarget
            (some Example.currentRoute) false {}).params.getD []) k = false →
          (isProtoName k = true ∨
            ¬ (∃ key ∈ Example.postRecord.regex.keys,
              key.optional = false ∧ key.name = KeyName.named k)) →
          Dict.get? used k = none)) ∧
    (matcherMatch {} (createRouteMap Example.namedRoutes RouteMap.empty) (1 + 1)
        Example.postTarget
        (some Example.currentRoute) none).toOption.map (fun r => (r.path, r.params)) =
      some ("/user/7/post".toList, [("id".toList, Value.atom (Atom.str "7".toList))]) :=
  ⟨named_match_backfills_params {} (createRouteMap Example.namedRoutes RouteMap.empty) 1
      Example.postTarget
      (some Example.currentRoute) none "post".toList
      Example.postRecord
      rfl (by decide) rfl,
    by decide⟩

/-! ## The transition engine: projections of the state -/

@[simp] theorem History.emit_log (s : History) (es : List Effect) :
    (s.emit es).log = s.log ++ es := rfl
@[simp] theorem History.emit_pending (s : History) (es : List Effect) :
    (s.emit es).pending = s.pending := rfl
@[simp] theorem History.emit_current (s : History) (es : List Effect) :
    (s.emit es).current = s.current := rfl
@[simp] theorem History.emit_transitions (s : History) (es : List Effect) :
    (s.emit es).transitions = s.transitions := rfl
@[simp] theorem History.emit_env (s : History) (es : List Effect) :
    (s.emit es).env = s.env := rfl
@[simp] theorem History.emit_made (s : History) (es : List Effect) :
    (s.emit es).made = s.made := rfl
@[simp] theorem History.setTransition_log (s : History) (tr : Transition) :
    (s.setTransition tr).log = s.log := rfl
@[simp] theorem History.setTransition_pending (s : History) (tr : Transition) :
    (s.setTransition tr).pending = s.pending := rfl
@[simp] theorem History.setTransition_current (s : History) (tr : Transition) :
    (s.setTransition tr).current = s.current := rfl
@[simp] theorem History.setTransition_env (s : History) (tr : Transition) :
    (s.setTransition tr).env = s.env := rfl
@[simp] theorem History.setTransition_made (s : History) (tr : Transition) :
    (s.setTransition tr).made = s.made := rfl
@[simp] theorem History.setTransition_same (s : History) (tr : Transition) :
    (s.setTransition tr).transitions tr.route.id = some tr := by
  simp [History.setTransition]
theorem History.setTransition_other (s : History) (tr : Transition) (t : Nat)
    (h : t ≠ tr.route.id) : (s.setTransition tr).transitions t = s.transitions t := by
  simp [History.setTransition, h]

theorem complete_log (s : History) (tr : Transition) :
    (complete s tr).log = s.log ++ completionLog s.env tr.route.id tr.userOnComplete := by
  unfold complete updateRoute completionLog
  cases hu : tr.userOnComplete <;> cases hl : s.hasListener <;> cases hr : s.ready <;>
    simp [History.emit, History.env, hu, hl, hr]

theorem complete_current (s : History) (tr : Transition) : (complete s tr).current = tr.route := by
  unfold complete updateRoute
  cases hu : tr.userOnComplete <;> cases hl : s.hasListener <;> cases hr : s.ready <;>
    simp [History.emit, hu, hl, hr]

theorem complete_pending (s : History) (tr : Transition) : (complete s tr).pending = s.pending := by
  unfold complete updateRoute
  cases hu : tr.userOnComplete <;> cases hl : s.hasListener <;> cases hr : s.ready <;>
    simp [History.emit, hu, hl, hr]

theorem complete_transitions (s : History) (tr : Transition) :
    (complete s tr).transitions = s.transitions := by
  unfold complete updateRoute
  cases hu : tr.userOnComplete <;> cases hl : s.hasListener <;> cases hr : s.ready <;>
    simp [History.emit, hu, hl, hr]

/-! ## Running a queue -/

theorem stepQueue_done (view : ViewLayer) (t : Nat) (p : Bool) (Q : List (Option Guard))
    (fuel : Nat) (s : History) :
    stepQueue view t p Q (fuel + 1) Q.length s = (s, true) := by
  rw [stepQueue]
  simp

theorem stepQueue_skip (view : ViewLayer) (t : Nat) (p : Bool) (P R : List (Option Guard))
    (fuel : Nat) (s : History) :
    stepQueue view t p (P ++ none :: R) (fuel + 1) P.length s =
      stepQueue view t p (P ++ none :: R) fuel (P.length + 1) s := by
  rw [stepQueue]
  have hlen : ¬ (P ++ none :: R).length ≤ P.length := by simp
  have hget : (P ++ none :: R).get? P.length = some none := by
    rw [List.get?_eq_getElem?, List.getElem?_append_right (Nat.le_refl _)]
    simp
  simp only [hlen, if_false, hget]

theorem get?_append_cons {α : Type} (P : List α) (g : α) (R : List α) :
    (P ++ g :: R).get? P.length = some g := by
  rw [List.get?_eq_getElem?, List.getElem?_append_right (Nat.le_refl _)]
  simp

/-- An application guard that is reached is called, and the engine waits. -/
theorem stepQueue_call (view : ViewLayer) (t : Nat) (p : Bool) (P R : List (Option Guard))
    (g : Guard) (fuel : Nat) (s : History) (tr : Transition)
    (htr : s.transitions t = some tr) (hpend : s.pending = some t)
    (hg : g ≠ Guard.resolveAsync) :
    stepQueue view t p (P ++ some g :: R) (fuel + 1) P.length s =
      ((s.emit [Effect.guardCalled t g]).setTransition
        { tr with invoked := tr.invoked ++ [(p, P.length)] }, false) := by
  rw [stepQueue]
  have hlen : ¬ (P ++ some g :: R).length ≤ P.length := by simp
  have hgb : (g == Guard.resolveAsync) = false := by simpa using hg
  simp only [hlen, if_false, get?_append_cons, htr, hpend, bne_self_eq_false, Bool.false_eq_true,
    hgb, Bool.false_and]

/-- The step `resolveAsyncComponents` with nothing to load is called and calls
its continuation at once. -/
theorem stepQueue_async (view : ViewLayer) (t : Nat) (p : Bool) (P R : List (Option Guard))
    (fuel : Nat) (s : History) (tr : Transition)
    (htr : s.transitions t = some tr) (hpend : s.pending = some t)
    (hasync : hasAsync view tr.activated = false) :
    stepQueue view t p (P ++ some Guard.resolveAsync :: R) (fuel + 1) P.length s =
      stepQueue view t p (P ++ some Guard.resolveAsync :: R) fuel (P.length + 1)
        (((s.emit [Effect.guardCalled t Guard.resolveAsync]).setTransition
            { tr with invoked := tr.invoked ++ [(p, P.length)] }).setTransition
          { tr with invoked := tr.invoked ++ [(p, P.length)]
                    answered := tr.answered ++ [(p, P.length)] }) := by
  rw [stepQueue]
  have hlen : ¬ (P ++ some Guard.resolveAsync :: R).length ≤ P.length := by simp
  simp only [hlen, if_false, get?_append_cons, htr, hpend, bne_self_eq_false, Bool.false_eq_true,
    beq_self_eq_true, hasync, Bool.not_false, Bool.and_self, if_true]

/-- Running a stretch of application guards: either none is defined and the
stretch is passed, or the first defined one is called. -/
theorem stepQueue_app (view : ViewLayer) (t : Nat) (p : Bool) (R : List (Option Guard)) :
    ∀ (P T : List (Option Guard)) (fuel : Nat) (s : History) (tr : Transition),
      AppQueue R → s.transitions t = some tr → s.pending = some t →
      (R.filterMap id = [] ∧
        stepQueue view t p (P ++ R ++ T) (fuel + R.length) P.length s =
          stepQueue view t p (P ++ R ++ T) fuel (P.length + R.length) s) ∨
      (∃ N g R', R = N ++ some g :: R' ∧ N.filterMap id = [] ∧ g ≠ Guard.resolveAsync ∧
        stepQueue view t p (P ++ R ++ T) (fuel + R.length) P.length s =
          ((s.emit [Effect.guardCalled t g]).setTransition
            { tr with invoked := tr.invoked ++ [(p, P.length + N.length)] }, false)) := by
  induction R with
  | nil =>
    intro P T fuel s tr _ _ _
    left
    exact ⟨rfl, rfl⟩
  | cons x R ih =>
    intro P T fuel s tr happ htr hpend
    have happ' : AppQueue R := fun y hy => happ y (by simp [hy])
    cases x with
    | none =>
      have hskip := stepQueue_skip view t p P (R ++ T) (fuel + R.length) s
      have hQ : P ++ none :: R ++ T = P ++ none :: (R ++ T) := by simp
      have hQ2 : P ++ none :: R ++ T = (P ++ [none]) ++ R ++ T := by simp
      rcases ih (P ++ [none]) T fuel s tr happ' htr hpend with ⟨h1, h2⟩ | ⟨N, g, R', h1, h2, h3, h4⟩
      · left
        refine ⟨by simpa using h1, ?_⟩
        rw [show fuel + (none :: R).length = fuel + R.length + 1 by simp; omega, hQ, hskip, ← hQ,
          hQ2]
        simp only [List.length_append, List.length_cons, List.length_nil] at h2
        rw [h2]
        congr 1
        simp only [List.length_cons]
        omega
      · right
        refine ⟨none :: N, g, R', by simp [h1], by simpa using h2, h3, ?_⟩
        rw [show fuel + (none :: R).length = fuel + R.length + 1 by simp; omega, hQ, hskip, ← hQ,
          hQ2]
        simp only [List.length_append, List.length_cons, List.length_nil] at h4
        rw [h4]
        simp only [List.length_cons]
        rw [show P.length + (0 + 1) + N.length = P.length + (N.length + 1) by omega]
    | some g =>
      right
      have hg : g ≠ Guard.resolveAsync := fun h => happ (some g) (by simp) (by rw [h])
      refine ⟨[], g, R, rfl, rfl, hg, ?_⟩
      have hQ : P ++ some g :: R ++ T = P ++ some g :: (R ++ T) := by simp
      rw [show fuel + (some g :: R).length = fuel + R.length + 1 by simp; omega, hQ,
        stepQueue_call view t p P (R ++ T) g _ s tr htr hpend hg]
      simp

theorem finishTransition_pending (s : History) (t : Nat) (tr : Transition)
    (htr : s.transitions t = some tr) (hpend : s.pending = some t) :
    finishTransition s t = complete { s with pending := none } tr := by
  unfold finishTransition
  simp only [htr, hpend, bne_self_eq_false, Bool.false_eq_true, if_false]

/-- The transition waits for the guard it has just called. -/
theorem awaiting_called (s : History) (t : Nat) (tr : Transition) (p : Bool) (j : Nat)
    (es : List Effect) (hid : tr.route.id = t) (hans : (p, j) ∉ tr.answered)
    (hq : p = true ∨ tr.queue.get? j ≠ some (some Guard.resolveAsync)) :
    ((s.emit es).setTransition { tr with invoked := tr.invoked ++ [(p, j)] }).awaiting t =
      some (p, j) := by
  unfold History.awaiting History.setTransition
  simp only [hid, if_true, List.getLast?_append, List.getLast?_singleton, Option.or]
  unfold Transition.handedOut
  have h1 : (tr.invoked ++ [(p, j)]).contains (p, j) = true := by simp
  have h2 : tr.answered.contains (p, j) = false := by simpa using hans
  have h3 : (if p = true then true else tr.queue.get? j != some (some Guard.resolveAsync)) = true := by
    rcases hq with hq | hq
    · simp [hq]
    · rw [List.get?_eq_getElem?] at hq
      simp [hq]
  simp only [h1, h2, h3, Bool.and_self, Bool.not_false, if_true]

/-- The guard the transition waits for proceeds: the queue goes on after it. -/
theorem respond_called_proceed (view : ViewLayer) (s : History) (t : Nat) (tr : Transition)
    (p : Bool) (j : Nat) (es : List Effect) (a : NextArg) (hid : tr.route.id = t)
    (hans : (p, j) ∉ tr.answered)
    (hq : p = true ∨ tr.queue.get? j ≠ some (some Guard.resolveAsync))
    (ha : classify a = Resolution.proceed) :
    respond view ((s.emit es).setTransition { tr with invoked := tr.invoked ++ [(p, j)] }) t a =
      continueQueue view
        (((s.emit es).setTransition { tr with invoked := tr.invoked ++ [(p, j)] }).setTransition
          { tr with invoked := tr.invoked ++ [(p, j)], answered := tr.answered ++ [(p, j)] })
        t p (j + 1) := by
  unfold respond
  rw [awaiting_called s t tr p j es hid hans hq]
  simp only [step]
  have htr : ((s.emit es).setTransition { tr with invoked := tr.invoked ++ [(p, j)] }).transitions t
      = some { tr with invoked := tr.invoked ++ [(p, j)] } := by
    simp [History.setTransition, hid]
  rw [htr]
  have hh : Transition.handedOut { tr with invoked := tr.invoked ++ [(p, j)] } p j = true := by
    unfold Transition.handedOut
    rcases hq with hq | hq
    · simp [hq]
    · rw [List.get?_eq_getElem?] at hq
      simp [hq]
  simp only [hh, if_true]
  unfold callContinuation
  simp only [ha, hid]

/-! ## Running the two queues of a transition -/

theorem filterMap_id_ne_nil {α : Type} (N : List (Option α)) (g : α) (R : List (Option α)) :
    (N ++ some g :: R).filterMap id ≠ [] := by
  simp

/-- What `step(index)` of the second queue does at an index: the rest holds no
guard and the transition commits, or the next guard is called. -/
theorem continueQueue_enter (view : ViewLayer) (t : Nat) (P R : List (Option Guard))
    (s : History) (tr : Transition) (happ : AppQueue R) (htr : s.transitions t = some tr)
    (hpend : s.pending = some t) (henq : tr.enterQueue = some (P ++ R)) :
    (R.filterMap id = [] ∧
      continueQueue view s t true P.length = complete { s with pending := none } tr) ∨
    (∃ N g R', R = N ++ some g :: R' ∧ N.filterMap id = [] ∧ g ≠ Guard.resolveAsync ∧
      continueQueue view s t true P.length =
        (s.emit [Effect.guardCalled t g]).setTransition
          { tr with invoked := tr.invoked ++ [(true, P.length + N.length)] }) := by
  unfold continueQueue
  simp only [htr, if_true, henq, Option.getD_some]
  have hfuel : (P ++ R).length + 1 = (P.length + 1) + R.length := by
    simp only [List.length_append]; omega
  have hQ : P ++ R = P ++ R ++ [] := by simp
  rw [hfuel]
  rcases stepQueue_app view t true R P [] (P.length + 1) s tr happ htr hpend with
    ⟨h1, h2⟩ | ⟨N, g, R', h1, h2, h3, h4⟩
  · left
    refine ⟨h1, ?_⟩
    rw [hQ, h2, ← hQ, ← List.length_append, stepQueue_done]
    simp only [if_true]
    exact finishTransition_pending s t tr htr hpend
  · right
    refine ⟨N, g, R', h1, h2, h3, ?_⟩
    rw [hQ, h4]
    simp [henq]

/-- The callback of the first queue starts the second queue at its head. -/
theorem runEnterQueue_eq (view : ViewLayer) (s : History) (t : Nat) (tr : Transition)
    (htr : s.transitions t = some tr) (hid : tr.route.id = t) :
    runEnterQueue view s t =
      continueQueue view
        (s.setTransition { tr with enterQueue := some (extractEnterGuards view tr.activated ++
          s.resolveHooks.map (fun h => h.map Guard.beforeResolve)) }) t true 0 := by
  unfold runEnterQueue continueQueue
  simp only [htr, History.setTransition, hid, if_true, Option.getD_some]

/-- What `step(index)` of the first queue does at an index when there is no
component to load: the rest holds no guard, the step `resolveAsyncComponents`
is called and continues at once, and the second queue starts; or the next guard
is called. -/
theorem continueQueue_first (view : ViewLayer) (t : Nat) (P R : List (Option Guard))
    (s : History) (tr : Transition) (happ : AppQueue R) (htr : s.transitions t = some tr)
    (hpend : s.pending = some t) (hq : tr.queue = P ++ R ++ [some Guard.resolveAsync])
    (hasync : hasAsync view tr.activated = false) :
    (R.filterMap id = [] ∧
      continueQueue view s t false P.length =
        runEnterQueue view
          (((s.emit [Effect.guardCalled t Guard.resolveAsync]).setTransition
              { tr with invoked := tr.invoked ++ [(false, P.length + R.length)] }).setTransition
            { tr with invoked := tr.invoked ++ [(false, P.length + R.length)]
                      answered := tr.answered ++ [(false, P.length + R.length)] }) t) ∨
    (∃ N g R', R = N ++ some g :: R' ∧ N.filterMap id = [] ∧ g ≠ Guard.resolveAsync ∧
      continueQueue view s t false P.length =
        (s.emit [Effect.guardCalled t g]).setTransition
          { tr with invoked := tr.invoked ++ [(false, P.length + N.length)] }) := by
  unfold continueQueue
  simp only [htr, Bool.false_eq_true, if_false, hq]
  have hfuel : (P ++ R ++ [some Guard.resolveAsync]).length + 1 = (P.length + 2) + R.length := by
    simp only [List.length_append, List.length_singleton]; omega
  rw [hfuel]
  rcases stepQueue_app view t false R P [some Guard.resolveAsync] (P.length + 2) s tr happ htr
    hpend with ⟨h1, h2⟩ | ⟨N, g, R', h1, h2, h3, h4⟩
  · left
    refine ⟨h1, ?_⟩
    rw [h2, ← List.length_append,
      stepQueue_async view t false (P ++ R) [] (P.length + 1) s tr htr hpend hasync]
    have hlen : (P ++ R).length + 1 = (P ++ R ++ [some Guard.resolveAsync]).length := by
      simp only [List.length_append, List.length_singleton]
    rw [hlen, stepQueue_done]
    simp only [if_true, List.length_append, hq]
  · right
    refine ⟨N, g, R', h1, h2, h3, ?_⟩
    rw [h4]
    simp [hq]

theorem drive_nil (view : ViewLayer) (s : History) (t : Nat) : drive view s t [] = s := rfl

theorem drive_cons (view : ViewLayer) (s : History) (t : Nat) (a : NextArg)
    (args : List NextArg) :
    drive view s t (a :: args) = drive view (respond view s t a) t args := rfl

theorem AppQueue.tail {N R : List (Option Guard)} {g : Option Guard}
    (h : AppQueue (N ++ g :: R)) : AppQueue R :=
  fun x hx => h x (by simp [hx])

/-- The second queue: when every guard proceeds, the guards that remain are
called in order and the transition commits. -/
theorem drive_enterQueue (view : ViewLayer) (t : Nat) :
    ∀ (n : Nat) (R P : List (Option Guard)) (s : History) (tr : Transition)
      (args : List NextArg),
      (R.filterMap id).length = n → AppQueue R →
      s.transitions t = some tr → tr.route.id = t → tr.enterQueue = some (P ++ R) →
      s.pending = some t →
      (∀ k, (true, k) ∈ tr.answered → k < P.length) →
      (∀ a ∈ args, classify a = Resolution.proceed) → args.length = n →
      CommitsAfter (drive view (continueQueue view s t true P.length) t args) s tr
        (R.filterMap id) := by
  intro n
  induction n with
  | zero =>
    intro R P s tr args hn happ htr hid henq hpend _ _ hargs
    have hR : R.filterMap id = [] := List.length_eq_zero.mp hn
    have ha : args = [] := List.length_eq_zero.mp hargs
    subst ha
    rw [drive_nil]
    rcases continueQueue_enter view t P R s tr happ htr hpend henq with
      ⟨_, h2⟩ | ⟨N, g, R', h1, _, _, _⟩
    · rw [h2, hR]
      refine ⟨?_, ?_, ?_⟩
      · rw [complete_log]
        simp [History.env, hid]
      · rw [complete_current]
      · rw [complete_pending]
    · exact absurd hR (h1 ▸ filterMap_id_ne_nil N g R')
  | succ n ih =>
    intro R P s tr args hn happ htr hid henq hpend hans hproc hargs
    rcases continueQueue_enter view t P R s tr happ htr hpend henq with
      ⟨h1, _⟩ | ⟨N, g, R', h1, h2, h3, h4⟩
    · rw [h1] at hn
      exact absurd hn (by simp)
    · cases args with
      | nil => exact absurd hargs (by simp)
      | cons a args =>
        have hfm : R.filterMap id = g :: R'.filterMap id := by
          rw [h1, List.filterMap_append, h2]
          simp
        have hnot : (true, P.length + N.length) ∉ tr.answered := fun hmem => by
          have := hans _ hmem
          omega
        rw [drive_cons, h4,
          respond_called_proceed view s t tr true (P.length + N.length) _ a hid hnot (Or.inl rfl)
            (hproc a (by simp))]
        have hP : P.length + N.length + 1 = (P ++ N ++ [some g]).length := by
          simp only [List.length_append, List.length_singleton]
        rw [hP]
        have key := ih R' (P ++ N ++ [some g])
          (((s.emit [Effect.guardCalled t g]).setTransition
              { tr with invoked := tr.invoked ++ [(true, P.length + N.length)] }).setTransition
            { tr with invoked := tr.invoked ++ [(true, P.length + N.length)]
                      answered := tr.answered ++ [(true, P.length + N.length)] })
          { tr with invoked := tr.invoked ++ [(true, P.length + N.length)]
                    answered := tr.answered ++ [(true, P.length + N.length)] }
          args
          (by rw [hfm] at hn; simpa using hn)
          (AppQueue.tail (h1 ▸ happ))
          (by simp [History.setTransition, hid])
          hid
          (by simp [henq, h1])
          (by simp [hpend])
          (by
            intro k hk
            simp only [List.mem_append, List.mem_singleton, Prod.mk.injEq, true_and] at hk
            simp only [List.length_append, List.length_singleton]
            rcases hk with hk | hk
            · have := hans k hk
              omega
            · omega)
          (fun b hb => hproc b (by simp [hb]))
          (by simpa using hargs)
        obtain ⟨k1, k2, k3⟩ := key
        refine ⟨?_, k2, k3⟩
        rw [k1, hfm]
        simp [hid]

theorem mem_extractGuards (view : ViewLayer) (records : List RouteRecord) (name : HookName)
    (bind : Nat → Option Nat → RouteRecord → Str → Option Guard) (reverse : Bool)
    (x : Option Guard) (hx : x ∈ extractGuards view records name bind reverse) :
    x = none ∨ ∃ g vm m key, x = bind g vm m key := by
  unfold extractGuards flatMapComponents at hx
  have hmem : ∃ l, l ∈ (records.flatMap (fun m => m.components.map (fun kv =>
      match view.extractGuard kv.2 name with
      | .undefined => [none]
      | .single g => [bind g (view.instances m.uid kv.1) m kv.1]
      | .array gs => gs.map (fun g => bind g (view.instances m.uid kv.1) m kv.1)))) ∧ x ∈ l := by
    cases reverse with
    | true =>
      simp only [if_true, List.mem_flatten, List.mem_reverse] at hx
      exact hx
    | false =>
      simp only [Bool.false_eq_true, if_false, List.mem_flatten] at hx
      exact hx
  obtain ⟨l, hl, hxl⟩ := hmem
  simp only [List.mem_flatMap, List.mem_map] at hl
  obtain ⟨m, _, kv, _, hkv⟩ := hl
  subst hkv
  cases hg : view.extractGuard kv.2 name with
  | undefined =>
    rw [hg] at hxl
    left
    simpa using hxl
  | single g =>
    rw [hg] at hxl
    right
    exact ⟨g, _, m, kv.1, by simpa using hxl⟩
  | array gs =>
    rw [hg] at hxl
    right
    simp only [List.mem_map] at hxl
    obtain ⟨g, _, hgx⟩ := hxl
    exact ⟨g, _, m, kv.1, hgx.symm⟩

/-- The second queue holds application guards only. -/
theorem appQueue_enterQueue (view : ViewLayer) (activated : List RouteRecord)
    (hooks : List (Option Nat)) :
    AppQueue (extractEnterGuards view activated ++ hooks.map (fun h => h.map Guard.beforeResolve)) := by
  intro x hx
  rw [List.mem_append] at hx
  rcases hx with hx | hx
  · rcases mem_extractGuards view _ _ _ _ x hx with h | ⟨g, vm, m, key, h⟩
    · rw [h]; simp
    · rw [h]; simp
  · simp only [List.mem_map] at hx
    obtain ⟨h, _, hh⟩ := hx
    subst hh
    cases h <;> simp

/-- The part of the first queue before the step `resolveAsyncComponents` holds
application guards only. -/
theorem appQueue_firstQueue (view : ViewLayer) (deactivated updated activated : List RouteRecord)
    (hooks : List (Option Nat)) :
    AppQueue (extractLeaveGuards view deactivated ++
      hooks.map (fun h => h.map Guard.beforeEach) ++
      extractUpdateHooks view updated ++
      activated.map (fun m => m.beforeEnter.map Guard.beforeEnter)) := by
  intro x hx
  simp only [List.mem_append] at hx
  rcases hx with ((hx | hx) | hx) | hx
  · rcases mem_extractGuards view _ _ _ _ x hx with h | ⟨g, vm, m, key, h⟩
    · rw [h]; simp
    · rw [h]; cases vm <;> simp [bindGuard]
  · simp only [List.mem_map] at hx
    obtain ⟨h, _, hh⟩ := hx
    subst hh
    cases h <;> simp
  · rcases mem_extractGuards view _ _ _ _ x hx with h | ⟨g, vm, m, key, h⟩
    · rw [h]; simp
    · rw [h]; cases vm <;> simp [bindGuard]
  · simp only [List.mem_map] at hx
    obtain ⟨m, _, hh⟩ := hx
    subst hh
    cases m.beforeEnter <;> simp

/-- The first queue: when every guard proceeds and there is no component to
load, the guards that remain are called in order, then the step
`resolveAsyncComponents`, then the guards of the second queue, and the
transition commits. -/
theorem drive_firstQueue (view : ViewLayer) (t : Nat) :
    ∀ (n : Nat) (R P : List (Option Guard)) (s : History) (tr : Transition)
      (args : List NextArg),
      (R.filterMap id).length = n → AppQueue R →
      s.transitions t = some tr → tr.route.id = t →
      tr.queue = P ++ R ++ [some Guard.resolveAsync] →
      hasAsync view tr.activated = false →
      s.pending = some t →
      (∀ k, (false, k) ∈ tr.answered → k < P.length) →
      (∀ k, (true, k) ∉ tr.answered) →
      (∀ a ∈ args, classify a = Resolution.proceed) →
      args.length = n + ((extractEnterGuards view tr.activated ++
        s.resolveHooks.map (fun h => h.map Guard.beforeResolve)).filterMap id).length →
      CommitsAfter (drive view (continueQueue view s t false P.length) t args) s tr
        (R.filterMap id ++ [Guard.resolveAsync] ++
          (extractEnterGuards view tr.activated ++
            s.resolveHooks.map (fun h => h.map Guard.beforeResolve)).filterMap id) := by
  intro n
  induction n with
  | zero =>
    intro R P s tr args hn happ htr hid hq hasync hpend _ hans2 hproc hargs
    have hR : R.filterMap id = [] := List.length_eq_zero.mp hn
    rcases continueQueue_first view t P R s tr happ htr hpend hq hasync with
      ⟨_, h2⟩ | ⟨N, g, R', h1, _, _, _⟩
    · rw [h2, runEnterQueue_eq view _ t
        { tr with invoked := tr.invoked ++ [(false, P.length + R.length)]
                  answered := tr.answered ++ [(false, P.length + R.length)] }
        (by simp [History.setTransition, hid]) hid]
      have key := drive_enterQueue view t _
        (extractEnterGuards view tr.activated ++
          s.resolveHooks.map (fun h => h.map Guard.beforeResolve)) []
        ((((s.emit [Effect.guardCalled t Guard.resolveAsync]).setTransition
              { tr with invoked := tr.invoked ++ [(false, P.length + R.length)] }).setTransition
            { tr with invoked := tr.invoked ++ [(false, P.length + R.length)]
                      answered := tr.answered ++ [(false, P.length + R.length)] }).setTransition
          { tr with invoked := tr.invoked ++ [(false, P.length + R.length)]
                    answered := tr.answered ++ [(false, P.length + R.length)]
                    enterQueue := some (extractEnterGuards view tr.activated ++
                      s.resolveHooks.map (fun h => h.map Guard.beforeResolve)) })
        { tr with invoked := tr.invoked ++ [(false, P.length + R.length)]
                  answered := tr.answered ++ [(false, P.length + R.length)]
                  enterQueue := some (extractEnterGuards view tr.activated ++
                    s.resolveHooks.map (fun h => h.map Guard.beforeResolve)) }
        args rfl (appQueue_enterQueue view _ _)
        (by simp [History.setTransition, hid])
        hid
        (by simp)
        (by simp [hpend])
        (by
          intro k hk
          simp only [List.mem_append, List.mem_singleton, Prod.mk.injEq, Bool.true_eq_false,
            false_and, or_false] at hk
          exact absurd hk (hans2 k))
        hproc
        (by simpa using hargs)
      obtain ⟨k1, k2, k3⟩ := key
      refine ⟨?_, k2, k3⟩
      simp only [List.length_nil, History.setTransition_log, History.emit_log,
        History.setTransition_env, History.emit_env] at k1
      simp only [History.setTransition, History.emit] at k1 ⊢
      rw [k1, hR]
      simp [hid]
    · exact absurd hR (h1 ▸ filterMap_id_ne_nil N g R')
  | succ n ih =>
    intro R P s tr args hn happ htr hid hq hasync hpend hans hans2 hproc hargs
    rcases continueQueue_first view t P R s tr happ htr hpend hq hasync with
      ⟨h1, _⟩ | ⟨N, g, R', h1, h2, h3, h4⟩
    · rw [h1] at hn
      exact absurd hn (by simp)
    · cases args with
      | nil => exact absurd hargs (by simp; omega)
      | cons a args =>
        have hfm : R.filterMap id = g :: R'.filterMap id := by
          rw [h1, List.filterMap_append, h2]
          simp
        have hnot : (false, P.length + N.length) ∉ tr.answered := fun hmem => by
          have := hans _ hmem
          omega
        have hget : tr.queue.get? (P.length + N.length) ≠ some (some Guard.resolveAsync) := by
          have hq2 : tr.queue = (P ++ N) ++ some g :: (R' ++ [some Guard.resolveAsync]) := by
            rw [hq, h1]; simp
          rw [hq2, ← List.length_append, get?_append_cons]
          intro hcontra
          exact h3 (Option.some.inj (Option.some.inj hcontra))
        rw [drive_cons, h4,
          respond_called_proceed view s t tr false (P.length + N.length) _ a hid hnot (Or.inr hget)
            (hproc a (by simp))]
        have hP : P.length + N.length + 1 = (P ++ N ++ [some g]).length := by
          simp only [List.length_append, List.length_singleton]
        rw [hP]
        have key := ih R' (P ++ N ++ [some g])
          (((s.emit [Effect.guardCalled t g]).setTransition
              { tr with invoked := tr.invoked ++ [(false, P.length + N.length)] }).setTransition
            { tr with invoked := tr.invoked ++ [(false, P.length + N.length)]
                      answered := tr.answered ++ [(false, P.length + N.length)] })
          { tr with invoked := tr.invoked ++ [(false, P.length + N.length)]
                    answered := tr.answered ++ [(false, P.length + N.length)] }
          args
          (by rw [hfm] at hn; simpa using hn)
          (AppQueue.tail (h1 ▸ happ))
          (by simp [History.setTransition, hid])
          hid
          (by simp [hq, h1])
          hasync
          (by simp [hpend])
          (by
            intro k hk
            simp only [List.mem_append, List.mem_singleton, Prod.mk.injEq, true_and] at hk
            simp only [List.length_append, List.length_singleton]
            rcases hk with hk | hk
            · have := hans k hk
              omega
            · omega)
          (by
            intro k hk
            simp only [List.mem_append, List.mem_singleton, Prod.mk.injEq, Bool.true_eq_false,
              false_and, or_false] at hk
            exact absurd hk (hans2 k))
          (fun b hb => hproc b (by simp [hb]))
          (by
            simp only [List.length_cons] at hargs
            simp only [History.setTransition, History.emit]
            omega)
        obtain ⟨k1, k2, k3⟩ := key
        refine ⟨?_, k2, k3⟩
        simp only [History.setTransition, History.emit] at k1 ⊢
        rw [k1, hfm]
        simp [hid, History.env]

/-- The step `resolveAsyncComponents` with a component to load is called, and
the engine waits for the component. -/
theorem stepQueue_load (view : ViewLayer) (t : Nat) (p : Bool) (P R : List (Option Guard))
    (fuel : Nat) (s : History) (tr : Transition)
    (htr : s.transitions t = some tr) (hpend : s.pending = some t)
    (hasync : hasAsync view tr.activated = true) :
    stepQueue view t p (P ++ some Guard.resolveAsync :: R) (fuel + 1) P.length s =
      ((s.emit [Effect.guardCalled t Guard.resolveAsync]).setTransition
        { tr with invoked := tr.invoked ++ [(p, P.length)] }, false) := by
  rw [stepQueue]
  have hlen : ¬ (P ++ some Guard.resolveAsync :: R).length ≤ P.length := by simp
  simp only [hlen, if_false, get?_append_cons, htr, hpend, bne_self_eq_false, Bool.false_eq_true,
    hasync, Bool.not_true, Bool.and_false]

/-- What `step(index)` of the first queue does at an index when there is a
component to load: the rest holds no guard and the step
`resolveAsyncComponents` is called; or the next guard is called. -/
theorem continueQueue_first_load (view : ViewLayer) (t : Nat) (P R : List (Option Guard))
    (s : History) (tr : Transition) (happ : AppQueue R) (htr : s.transitions t = some tr)
    (hpend : s.pending = some t) (hq : tr.queue = P ++ R ++ [some Guard.resolveAsync])
    (hasync : hasAsync view tr.activated = true) :
    (R.filterMap id = [] ∧
      continueQueue view s t false P.length =
        (s.emit [Effect.guardCalled t Guard.resolveAsync]).setTransition
          { tr with invoked := tr.invoked ++ [(false, P.length + R.length)] }) ∨
    (∃ N g R', R = N ++ some g :: R' ∧ N.filterMap id = [] ∧ g ≠ Guard.resolveAsync ∧
      continueQueue view s t false P.length =
        (s.emit [Effect.guardCalled t g]).setTransition
          { tr with invoked := tr.invoked ++ [(false, P.length + N.length)] }) := by
  unfold continueQueue
  simp only [htr, Bool.false_eq_true, if_false, hq]
  have hfuel : (P ++ R ++ [some Guard.resolveAsync]).length + 1 = (P.length + 2) + R.length := by
    simp only [List.length_append, List.length_singleton]; omega
  rw [hfuel]
  rcases stepQueue_app view t false R P [some Guard.resolveAsync] (P.length + 2) s tr happ htr
    hpend with ⟨h1, h2⟩ | ⟨N, g, R', h1, h2, h3, h4⟩
  · left
    refine ⟨h1, ?_⟩
    rw [h2, ← List.length_append,
      stepQueue_load view t false (P ++ R) [] (P.length + 1) s tr htr hpend hasync]
    simp only [Bool.false_eq_true, if_false, List.length_append, hq]
  · right
    refine ⟨N, g, R', h1, h2, h3, ?_⟩
    rw [h4]
    simp [hq]

/-- The transition waits for no guard while the step `resolveAsyncComponents`
waits for a component. -/
theorem awaiting_load (s : History) (t : Nat) (tr : Transition) (j : Nat) (es : List Effect)
    (hid : tr.route.id = t) (hq : tr.queue.get? j = some (some Guard.resolveAsync)) :
    ((s.emit es).setTransition { tr with invoked := tr.invoked ++ [(false, j)] }).awaiting t =
      none := by
  unfold History.awaiting History.setTransition
  simp only [hid, if_true, List.getLast?_append, List.getLast?_singleton, Option.or]
  unfold Transition.handedOut
  rw [List.get?_eq_getElem?] at hq
  simp [hq]

/-- The first queue with a component to load: when every guard proceeds, the
guards that remain are called in order, then the step `resolveAsyncComponents`,
and the transition is pending while the component loads. -/
theorem drive_firstQueue_load (view : ViewLayer) (t : Nat) :
    ∀ (n : Nat) (R P : List (Option Guard)) (s : History) (tr : Transition)
      (args : List NextArg),
      (R.filterMap id).length = n → AppQueue R →
      s.transitions t = some tr → tr.route.id = t →
      tr.queue = P ++ R ++ [some Guard.resolveAsync] →
      hasAsync view tr.activated = true →
      s.pending = some t →
      (∀ k, (false, k) ∈ tr.answered → k < P.length) →
      (∀ a ∈ args, classify a = Resolution.proceed) →
      args.length = n →
      (drive view (continueQueue view s t false P.length) t args).log =
          s.log ++ (R.filterMap id ++ [Guard.resolveAsync]).map (Effect.guardCalled t) ∧
        (drive view (continueQueue view s t false P.length) t args).current = s.current ∧
        (drive view (continueQueue view s t false P.length) t args).pending = some t ∧
        (drive view (continueQueue view s t false P.length) t args).awaiting t = none := by
  intro n
  induction n with
  | zero =>
    intro R P s tr args hn happ htr hid hq hasync hpend _ _ hargs
    have hR : R.filterMap id = [] := List.length_eq_zero.mp hn
    have ha : args = [] := List.length_eq_zero.mp hargs
    subst ha
    rw [drive_nil]
    rcases continueQueue_first_load view t P R s tr happ htr hpend hq hasync with
      ⟨_, h2⟩ | ⟨N, g, R', h1, _, _, _⟩
    · rw [h2, hR]
      refine ⟨by simp, rfl, hpend, ?_⟩
      apply awaiting_load s t tr _ _ hid
      rw [hq, ← List.length_append, get?_append_cons]
    · exact absurd hR (h1 ▸ filterMap_id_ne_nil N g R')
  | succ n ih =>
    intro R P s tr args hn happ htr hid hq hasync hpend hans hproc hargs
    rcases continueQueue_first_load view t P R s tr happ htr hpend hq hasync with
      ⟨h1, _⟩ | ⟨N, g, R', h1, h2, h3, h4⟩
    · rw [h1] at hn
      exact absurd hn (by simp)
    · cases args with
      | nil => exact absurd hargs (by simp)
      | cons a args =>
        have hfm : R.filterMap id = g :: R'.filterMap id := by
          rw [h1, List.filterMap_append, h2]
          simp
        have hnot : (false, P.length + N.length) ∉ tr.answered := fun hmem => by
          have := hans _ hmem
          omega
        have hget : tr.queue.get? (P.length + N.length) ≠ some (some Guard.resolveAsync) := by
          have hq2 : tr.queue = (P ++ N) ++ some g :: (R' ++ [some Guard.resolveAsync]) := by
            rw [hq, h1]; simp
          rw [hq2, ← List.length_append, get?_append_cons]
          intro hcontra
          exact h3 (Option.some.inj (Option.some.inj hcontra))
        rw [drive_cons, h4,
          respond_called_proceed view s t tr false (P.length + N.length) _ a hid hnot (Or.inr hget)
            (hproc a (by simp))]
        have hP : P.length + N.length + 1 = (P ++ N ++ [some g]).length := by
          simp only [List.length_append, List.length_singleton]
        rw [hP]
        have key := ih R' (P ++ N ++ [some g])
          (((s.emit [Effect.guardCalled t g]).setTransition
              { tr with invoked := tr.invoked ++ [(false, P.length + N.length)] }).setTransition
            { tr with invoked := tr.invoked ++ [(false, P.length + N.length)]
                      answered := tr.answered ++ [(false, P.length + N.length)] })
          { tr with invoked := tr.invoked ++ [(false, P.length + N.length)]
                    answered := tr.answered ++ [(false, P.length + N.length)] }
          args
          (by rw [hfm] at hn; simpa using hn)
          (AppQueue.tail (h1 ▸ happ))
          (by simp [History.setTransition, hid])
          hid
          (by simp [hq, h1])
          hasync
          (by simp [hpend])
          (by
            intro k hk
            simp only [List.mem_append, List.mem_singleton, Prod.mk.injEq, true_and] at hk
            simp only [List.length_append, List.length_singleton]
            rcases hk with hk | hk
            · have := hans k hk
              omega
            · omega)
          (fun b hb => hproc b (by simp [hb]))
          (by simpa using hargs)
        obtain ⟨k1, k2, k3, k4⟩ := key
        refine ⟨?_, k2, k3, k4⟩
        rw [k1, hfm]
        simp [History.setTransition, History.emit]

/-- The log of a transition that runs its queues and whose guards all proceed,
in terms of the queues that `confirmTransition` builds: the defined entries of
the first queue, the step `resolveAsyncComponents` and, with no component to
load, the defined entries of the second queue and the calls of the commit;
with a component to load the transition is pending while the step waits. -/
theorem queues_run_in_order (view : ViewLayer) (s : History) (route : Route)
    (onComplete onAbort : Option Nat) (args : List NextArg)
    (hrun : isNoop s route = false)
    (hproc : ∀ a ∈ args, classify a = Resolution.proceed) :
    (hasAsync view (resolveQueue s.current.route.matched route.matched).activated = false →
      args.length = ((firstQueue view s route).filterMap id).length +
        ((secondQueue view s route).filterMap id).length →
      (drive view (step view s (Event.transitionTo route onComplete onAbort))
          (s.made + 1) args).log =
        s.log ++
          (((extractLeaveGuards view
                (resolveQueue s.current.route.matched route.matched).deactivated ++
              s.beforeHooks.map (fun h => h.map Guard.beforeEach) ++
              extractUpdateHooks view (resolveQueue s.current.route.matched route.matched).updated ++
              (resolveQueue s.current.route.matched route.matched).activated.map
                (fun m => m.beforeEnter.map Guard.beforeEnter) ++
              [some Guard.resolveAsync]) ++
            (extractEnterGuards view
                (resolveQueue s.current.route.matched route.matched).activated ++
              s.resolveHooks.map (fun h => h.map Guard.beforeResolve))).filterMap id).map
            (Effect.guardCalled (s.made + 1)) ++
          completionLog s.env (s.made + 1) onComplete ∧
      (drive view (step view s (Event.transitionTo route onComplete onAbort))
        (s.made + 1) args).current = { id := s.made + 1, route := route }) ∧
    (hasAsync view (resolveQueue s.current.route.matched route.matched).activated = true →
      args.length = ((firstQueue view s route).filterMap id).length →
      (drive view (step view s (Event.transitionTo route onComplete onAbort))
          (s.made + 1) args).log =
        s.log ++
          ((extractLeaveGuards view
                (resolveQueue s.current.route.matched route.matched).deactivated ++
              s.beforeHooks.map (fun h => h.map Guard.beforeEach) ++
              extractUpdateHooks view (resolveQueue s.current.route.matched route.matched).updated ++
              (resolveQueue s.current.route.matched route.matched).activated.map
                (fun m => m.beforeEnter.map Guard.beforeEnter) ++
              [some Guard.resolveAsync]).filterMap id).map
            (Effect.guardCalled (s.made + 1)) ∧
      (drive view (step view s (Event.transitionTo route onComplete onAbort))
        (s.made + 1) args).current = s.current ∧
      (drive view (step view s (Event.transitionTo route onComplete onAbort))
        (s.made + 1) args).pending = some (s.made + 1)) := by
  simp only [step, confirmTransition]
  have hrun2 : (isSameRoute { id := s.made + 1, route := route } s.current &&
      route.matched.length == s.current.route.matched.length) = false := hrun
  simp only [hrun2, Bool.false_eq_true, if_false]
  constructor
  · intro hasync hargs
    have key := drive_firstQueue view (s.made + 1) _ (firstQueue view s route) []
      { History.setTransition { s with made := s.made + 1 }
          { route := { id := s.made + 1, route := route }, current := s.current,
            activated := (resolveQueue s.current.route.matched route.matched).activated,
            queue := firstQueue view s route ++ [some Guard.resolveAsync], enterQueue := none,
            invoked := [], answered := [], userOnComplete := onComplete, userOnAbort := onAbort }
        with pending := some (s.made + 1) }
      { route := { id := s.made + 1, route := route }, current := s.current,
        activated := (resolveQueue s.current.route.matched route.matched).activated,
        queue := firstQueue view s route ++ [some Guard.resolveAsync], enterQueue := none,
        invoked := [], answered := [], userOnComplete := onComplete, userOnAbort := onAbort }
      args rfl (appQueue_firstQueue view _ _ _ _)
      (by simp [History.setTransition])
      rfl
      (by simp)
      hasync
      rfl
      (by intro k hk; simp at hk)
      (by intro k hk; simp at hk)
      hproc
      (by rw [hargs]; rfl)
    obtain ⟨k1, k2, _⟩ := key
    refine ⟨?_, k2⟩
    simp only [List.length_nil, firstQueue] at k1
    rw [k1]
    simp [History.setTransition, History.env, firstQueue]
  · intro hasync hargs
    have key := drive_firstQueue_load view (s.made + 1) _ (firstQueue view s route) []
      { History.setTransition { s with made := s.made + 1 }
          { route := { id := s.made + 1, route := route }, current := s.current,
            activated := (resolveQueue s.current.route.matched route.matched).activated,
            queue := firstQueue view s route ++ [some Guard.resolveAsync], enterQueue := none,
            invoked := [], answered := [], userOnComplete := onComplete, userOnAbort := onAbort }
        with pending := some (s.made + 1) }
      { route := { id := s.made + 1, route := route }, current := s.current,
        activated := (resolveQueue s.current.route.matched route.matched).activated,
        queue := firstQueue view s route ++ [some Guard.resolveAsync], enterQueue := none,
        invoked := [], answered := [], userOnComplete := onComplete, userOnAbort := onAbort }
      args rfl (appQueue_firstQueue view _ _ _ _)
      (by simp [History.setTransition])
      rfl
      (by simp)
      hasync
      rfl
      (by intro k hk; simp at hk)
      hproc
      hargs
    obtain ⟨k1, k2, k3, _⟩ := key
    refine ⟨?_, k2, k3⟩
    simp only [List.length_nil, firstQueue] at k1
    rw [k1]
    simp [History.setTransition, firstQueue]

/-! ## What a step of the engine may change -/

theorem noComplete_nil : NoComplete [] := fun _ h => by cases h

theorem noComplete_append {a b : List Effect} (ha : NoComplete a) (hb : NoComplete b) :
    NoComplete (a ++ b) := fun t h => by
  rcases List.mem_append.mp h with h | h
  · exact ha t h
  · exact hb t h

theorem noComplete_guards (t : Nat) (gs : List Guard) :
    NoComplete (gs.map (Effect.guardCalled t)) := fun u h => by
  simp at h

theorem ext_emit (s r : History) (es : List Effect)
    (h : ∃ new b, r = { s with log := s.log ++ new, ready := b } ∧ NoComplete new)
    (hes : NoComplete es) :
    ∃ new b, r.emit es = { s with log := s.log ++ new, ready := b } ∧ NoComplete new := by
  obtain ⟨new, b, hr, hn⟩ := h
  refine ⟨new ++ es, b, ?_, noComplete_append hn hes⟩
  rw [hr]
  simp [History.emit]

theorem ext_ready (s r : History) (b' : Bool)
    (h : ∃ new b, r = { s with log := s.log ++ new, ready := b } ∧ NoComplete new) :
    ∃ new b, { r with ready := b' } = { s with log := s.log ++ new, ready := b } ∧
      NoComplete new := by
  obtain ⟨new, b, hr, hn⟩ := h
  refine ⟨new, b', ?_, hn⟩
  rw [hr]

theorem ext_ite (s r : History) (c : Bool) (es : List Effect)
    (h : ∃ new b, r = { s with log := s.log ++ new, ready := b } ∧ NoComplete new)
    (hes : NoComplete es) :
    ∃ new b, (if c then { r.emit es with ready := true } else r) =
      { s with log := s.log ++ new, ready := b } ∧ NoComplete new := by
  cases c with
  | true => exact ext_ready s _ true (ext_emit s r es h hes)
  | false => exact h

theorem ext_refl (s : History) :
    ∃ new b, s = { s with log := s.log ++ new, ready := b } ∧ NoComplete new :=
  ⟨[], s.ready, by simp, noComplete_nil⟩

/-- The closure `abort` changes the log and the flag `ready` only, and calls no
`onComplete`. -/
theorem abort_eq (s : History) (tr : Transition) (err : AbortArg) :
    ∃ new b, abort s tr err = { s with log := s.log ++ new, ready := b } ∧ NoComplete new := by
  unfold abort
  have h1 : ∃ new b, (match err with
      | .error e =>
        if 0 < s.errorCbs.length then s.emit (s.errorCbs.map (fun cb => Effect.errorCb cb e))
        else s.emit [Effect.consoleError e]
      | _ => s) = { s with log := s.log ++ new, ready := b } ∧ NoComplete new := by
    cases err with
    | error e =>
      simp only
      split
      · exact ext_emit s s _ (ext_refl s) (fun t h => by simp at h)
      · exact ext_emit s s _ (ext_refl s) (fun t h => by simp at h)
    | undef => exact ext_refl s
    | boolFalse => exact ext_refl s
    | thrown b => exact ext_refl s
  have h2 := ext_emit s _ [Effect.onAbort tr.route.id err] h1 (fun t h => by simp at h)
  have h3 : ∃ new b, (match tr.userOnAbort with
      | some cb => History.emit (History.emit (match err with
          | .error e =>
            if 0 < s.errorCbs.length then s.emit (s.errorCbs.map (fun cb => Effect.errorCb cb e))
            else s.emit [Effect.consoleError e]
          | _ => s) [Effect.onAbort tr.route.id err]) [Effect.userOnAbort tr.route.id cb err]
      | none => History.emit (match err with
          | .error e =>
            if 0 < s.errorCbs.length then s.emit (s.errorCbs.map (fun cb => Effect.errorCb cb e))
            else s.emit [Effect.consoleError e]
          | _ => s) [Effect.onAbort tr.route.id err]) =
      { s with log := s.log ++ new, ready := b } ∧ NoComplete new := by
    cases tr.userOnAbort with
    | none => exact h2
    | some cb => exact ext_emit s _ _ h2 (fun t h => by simp at h)
  exact ext_ite s _ _ _ h3 (fun t h => by simp at h)

theorem abort_transitions (s : History) (tr : Transition) (err : AbortArg) :
    (abort s tr err).transitions = s.transitions := by
  obtain ⟨new, b, h, _⟩ := abort_eq s tr err
  rw [h]

theorem abort_current (s : History) (tr : Transition) (err : AbortArg) :
    (abort s tr err).current = s.current := by
  obtain ⟨new, b, h, _⟩ := abort_eq s tr err
  rw [h]

theorem abort_pending (s : History) (tr : Transition) (err : AbortArg) :
    (abort s tr err).pending = s.pending := by
  obtain ⟨new, b, h, _⟩ := abort_eq s tr err
  rw [h]

theorem abort_made (s : History) (tr : Transition) (err : AbortArg) :
    (abort s tr err).made = s.made := by
  obtain ⟨new, b, h, _⟩ := abort_eq s tr err
  rw [h]

theorem abort_log (s : History) (tr : Transition) (err : AbortArg) :
    ∃ new, (abort s tr err).log = s.log ++ new ∧ NoComplete new := by
  obtain ⟨new, b, h, hn⟩ := abort_eq s tr err
  exact ⟨new, by rw [h], hn⟩

/-- The calls of `abort(false)`. -/
theorem abort_false_log (s : History) (tr : Transition) :
    (abort s tr AbortArg.boolFalse).log =
      s.log ++ [Effect.onAbort tr.route.id AbortArg.boolFalse] ++
        (match tr.userOnAbort with
          | some cb => [Effect.userOnAbort tr.route.id cb AbortArg.boolFalse]
          | none => []) := by
  unfold abort
  cases tr.userOnAbort <;> simp [History.emit, AbortArg.truthy]

theorem wf_setTransition {s : History} (h : s.WF) (tr : Transition) :
    (s.setTransition tr).WF := by
  intro t x hx
  unfold History.setTransition at hx
  by_cases ht : t = tr.route.id
  · simp only [ht, if_true, Option.some.injEq] at hx
    rw [← hx, ht]
  · simp only [ht, if_false] at hx
    exact h t x hx

theorem wf_of_transitions {s r : History} (h : s.WF) (hr : r.transitions = s.transitions) :
    r.WF := fun t x hx => h t x (hr ▸ hx)

theorem awaiting_congr (s r : History) (t : Nat) (h : r.transitions t = s.transitions t) :
    r.awaiting t = s.awaiting t := by
  unfold History.awaiting
  rw [h]

theorem frame_refl {s : History} (h : s.WF) : Frame s s :=
  ⟨h, rfl, fun _ tr htr => ⟨tr, htr, rfl, rfl⟩⟩

theorem frame_trans {a b c : History} (h1 : Frame a b) (h2 : Frame b c) : Frame a c := by
  refine ⟨h2.1, h2.2.1.trans h1.2.1, ?_⟩
  intro t tr htr
  obtain ⟨tr1, e1, r1, u1⟩ := h1.2.2 t tr htr
  obtain ⟨tr2, e2, r2, u2⟩ := h2.2.2 t tr1 e1
  exact ⟨tr2, e2, r2.trans r1, u2.trans u1⟩

/-- A change that keeps the closures and the counter of route objects. -/
theorem frame_of_transitions {s r : History} (h : s.WF) (hr : r.transitions = s.transitions)
    (hm : r.made = s.made) : Frame s r :=
  ⟨wf_of_transitions h hr, hm, fun t tr htr => ⟨tr, by rw [hr]; exact htr, rfl, rfl⟩⟩

/-- Updating the closure of `t` without touching its route and `onAbort`. -/
theorem frame_setTransition {s : History} (h : s.WF) (t : Nat) (tr tr' : Transition)
    (htr : s.transitions t = some tr) (hroute : tr'.route = tr.route)
    (hab : tr'.userOnAbort = tr.userOnAbort) : Frame s (s.setTransition tr') := by
  refine ⟨wf_setTransition h tr', rfl, ?_⟩
  intro u x hx
  have hid : tr'.route.id = t := by rw [hroute]; exact h t tr htr
  by_cases hu : u = t
  · subst hu
    rw [htr] at hx
    refine ⟨tr', by simp [History.setTransition, hid], ?_, ?_⟩
    · rw [hroute, Option.some.inj hx]
    · rw [hab, Option.some.inj hx]
  · exact ⟨x, by simp [History.setTransition, hid, hu, hx], rfl, rfl⟩

theorem stays_refl (s : History) : Stays s s :=
  ⟨rfl, rfl, [], by simp, noComplete_nil⟩

theorem stays_trans {a b c : History} (h1 : Stays a b) (h2 : Stays b c) : Stays a c := by
  obtain ⟨c1, p1, n1, l1, k1⟩ := h1
  obtain ⟨c2, p2, n2, l2, k2⟩ := h2
  exact ⟨c2.trans c1, p2.trans p1, n1 ++ n2, by rw [l2, l1, List.append_assoc],
    noComplete_append k1 k2⟩

theorem stays_then_commits {t : Nat} {a b c : History} (h1 : Stays a b) (h2 : Commits t b c) :
    Commits t a c := by
  obtain ⟨_, p1, n1, l1, k1⟩ := h1
  obtain ⟨p2, q2, x2, n2, l2, m2, k2⟩ := h2
  refine ⟨p1 ▸ p2, q2, x2, n1 ++ n2, by rw [l2, l1, List.append_assoc], by simp [m2], ?_⟩
  intro u hu hmem
  rcases List.mem_append.mp hmem with hmem | hmem
  · exact k1 u hmem
  · exact k2 u hu hmem

theorem abort_stays (s : History) (tr : Transition) (err : AbortArg) :
    Stays s (abort s tr err) := by
  obtain ⟨new, hl, hn⟩ := abort_log s tr err
  exact ⟨abort_current s tr err, abort_pending s tr err, new, hl, hn⟩

theorem abort_frame (s : History) (tr : Transition) (err : AbortArg) (h : s.WF) :
    Frame s (abort s tr err) :=
  frame_of_transitions h (abort_transitions s tr err) (abort_made s tr err)

theorem emit_stays (s : History) (es : List Effect) (h : NoComplete es) : Stays s (s.emit es) :=
  ⟨rfl, rfl, es, rfl, h⟩

theorem complete_made (s : History) (tr : Transition) : (complete s tr).made = s.made := by
  unfold complete updateRoute
  cases hu : tr.userOnComplete <;> cases hl : s.hasListener <;> cases hr : s.ready <;>
    simp [History.emit, hu, hl, hr]

theorem mem_completionLog (env : HistoryEnv) (t u : Nat) (uc : Option Nat) :
    Effect.onComplete u ∈ completionLog env t uc ↔ u = t := by
  unfold completionLog
  cases uc <;> cases env.hasListener <;> cases env.ready <;> simp

/-- A closure whose last continuation handed out has been called waits for no
guard. -/
theorem awaiting_answered (s : History) (t : Nat) (tr : Transition) (p : Bool) (j : Nat)
    (inv ans : List (Bool × Nat)) (hid : tr.route.id = t) :
    (s.setTransition { tr with invoked := inv ++ [(p, j)], answered := ans ++ [(p, j)] }).awaiting t
      = none := by
  unfold History.awaiting History.setTransition
  simp only [hid, if_true, List.getLast?_append, List.getLast?_singleton, Option.or]
  have h2 : (ans ++ [(p, j)]).contains (p, j) = true := by simp
  simp only [h2, Bool.not_true, Bool.and_false, Bool.false_eq_true, if_false]

theorem queueOutcome_same {t : Nat} {s : History} (hwf : s.WF) (b : Bool) :
    QueueOutcome t s s b :=
  ⟨frame_refl hwf, stays_refl s, Or.inl ⟨⟨[], by simp⟩, fun _ h => h⟩⟩

/-- What `step(index)` of `runQueue` may do: it calls guards of `t`, or it
aborts; no route object is made, no closure loses its route, nothing commits. -/
theorem stepQueue_outcome (view : ViewLayer) (t : Nat) (p : Bool) (Q : List (Option Guard)) :
    ∀ (fuel i : Nat) (s : History), s.WF →
      QueueOutcome t s (stepQueue view t p Q fuel i s).1 (stepQueue view t p Q fuel i s).2 := by
  intro fuel
  induction fuel with
  | zero =>
    intro i s hwf
    rw [stepQueue]
    exact queueOutcome_same hwf false
  | succ fuel ih =>
    intro i s hwf
    rw [stepQueue]
    by_cases hlen : Q.length ≤ i
    · simp only [hlen, if_true]
      exact queueOutcome_same hwf true
    · simp only [hlen, if_false]
      cases hget : Q.get? i with
      | none => exact ih (i + 1) s hwf
      | some x =>
        cases x with
        | none => exact ih (i + 1) s hwf
        | some hook =>
          simp only
          cases htr : s.transitions t with
          | none => exact queueOutcome_same hwf false
          | some tr =>
            simp only
            have hid : tr.route.id = t := hwf t tr htr
            by_cases hpend : s.pending = some t
            · simp only [hpend, bne_self_eq_false, Bool.false_eq_true, if_false]
              have hF1 : Frame s ((s.emit [Effect.guardCalled t hook]).setTransition
                  { tr with invoked := tr.invoked ++ [(p, i)] }) :=
                frame_trans (frame_of_transitions hwf rfl rfl)
                  (frame_setTransition (wf_of_transitions hwf rfl) t tr _ htr rfl rfl)
              have hS1 : Stays s ((s.emit [Effect.guardCalled t hook]).setTransition
                  { tr with invoked := tr.invoked ++ [(p, i)] }) :=
                ⟨rfl, rfl, [Effect.guardCalled t hook], rfl, fun u h => by simp at h⟩
              by_cases hauto : (hook == Guard.resolveAsync && !hasAsync view tr.activated) = true
              · simp only [hauto, if_true]
                have hF2 : Frame s (((s.emit [Effect.guardCalled t hook]).setTransition
                    { tr with invoked := tr.invoked ++ [(p, i)] }).setTransition
                    { tr with invoked := tr.invoked ++ [(p, i)]
                              answered := tr.answered ++ [(p, i)] }) :=
                  frame_trans hF1 (frame_setTransition hF1.1 t
                    { tr with invoked := tr.invoked ++ [(p, i)] } _
                    (by simp [History.setTransition, hid]) rfl rfl)
                have hS2 : Stays s (((s.emit [Effect.guardCalled t hook]).setTransition
                    { tr with invoked := tr.invoked ++ [(p, i)] }).setTransition
                    { tr with invoked := tr.invoked ++ [(p, i)]
                              answered := tr.answered ++ [(p, i)] }) :=
                  ⟨rfl, rfl, [Effect.guardCalled t hook], rfl, fun u h => by simp at h⟩
                have hA2 := awaiting_answered ((s.emit [Effect.guardCalled t hook]).setTransition
                    { tr with invoked := tr.invoked ++ [(p, i)] }) t tr p i tr.invoked tr.answered hid
                obtain ⟨f, st, q⟩ := ih (i + 1) _ hF2.1
                refine ⟨frame_trans hF2 f, stays_trans hS2 st, ?_⟩
                rcases q with ⟨⟨gs, hgs⟩, hdone⟩ | ⟨hb, hdone⟩
                · left
                  refine ⟨⟨hook :: gs, ?_⟩, fun hb _ => hdone hb hA2⟩
                  rw [hgs]
                  simp [History.setTransition, History.emit]
                · right
                  exact ⟨hb, fun _ => hdone hA2⟩
              · simp only [hauto, Bool.false_eq_true, if_false]
                exact ⟨hF1, hS1, Or.inl ⟨⟨[hook], by simp [History.setTransition, History.emit]⟩,
                  fun h => by cases h⟩⟩
            · have hne : (s.pending != some t) = true := by simpa using hpend
              simp only [hne, if_true]
              exact ⟨abort_frame s tr _ hwf, abort_stays s tr _,
                Or.inr ⟨rfl, fun h =>
                  (awaiting_congr s (abort s tr AbortArg.undef) t
                    (by rw [abort_transitions])).trans h⟩⟩

theorem outcome_same {t : Nat} {s : History} (hwf : s.WF) : Outcome t s s :=
  ⟨frame_refl hwf, Or.inl (stays_refl s), Or.inr (fun h => h)⟩

theorem QueueOutcome.toOutcome {t : Nat} {s r : History} (h : QueueOutcome t s r false) :
    Outcome t s r := by
  obtain ⟨f, st, q⟩ := h
  refine ⟨f, Or.inl st, ?_⟩
  rcases q with ⟨hgs, _⟩ | ⟨_, hdone⟩
  · exact Or.inl ⟨st.1, hgs⟩
  · exact Or.inr hdone

theorem QueueOutcome.andThen {t : Nat} {s m r : History} (h1 : QueueOutcome t s m true)
    (h2 : Outcome t m r) : Outcome t s r := by
  obtain ⟨f1, st1, q1⟩ := h1
  obtain ⟨f2, sc2, q2⟩ := h2
  have q1' : (∃ gs : List Guard, m.log = s.log ++ gs.map (Effect.guardCalled t)) ∧
      (s.awaiting t = none → m.awaiting t = none) := by
    rcases q1 with ⟨hgs, hdone⟩ | ⟨hb, _⟩
    · exact ⟨hgs, hdone rfl⟩
    · cases hb
  refine ⟨frame_trans f1 f2, ?_, ?_⟩
  · rcases sc2 with st2 | c2
    · exact Or.inl (stays_trans st1 st2)
    · exact Or.inr (stays_then_commits st1 c2)
  · rcases q2 with ⟨hc, gs2, hl2⟩ | hdone
    · obtain ⟨gs1, hl1⟩ := q1'.1
      refine Or.inl ⟨hc.trans st1.1, gs1 ++ gs2, ?_⟩
      rw [hl2, hl1]
      simp
    · exact Or.inr (fun h => hdone (q1'.2 h))

theorem finishTransition_outcome (s : History) (t : Nat) (hwf : s.WF) :
    Outcome t s (finishTransition s t) := by
  unfold finishTransition
  cases htr : s.transitions t with
  | none => exact outcome_same hwf
  | some tr =>
    simp only
    by_cases hpend : s.pending = some t
    · simp only [hpend, bne_self_eq_false, Bool.false_eq_true, if_false]
      have hid : tr.route.id = t := hwf t tr htr
      refine ⟨frame_of_transitions hwf (by rw [complete_transitions]) (by rw [complete_made]),
        Or.inr ⟨hpend, by rw [complete_pending], ⟨tr, ?_, by rw [complete_current]⟩,
          completionLog s.env t tr.userOnComplete, ?_, ?_, ?_⟩,
        Or.inr (fun h => (awaiting_congr s _ t (by rw [complete_transitions])).trans h)⟩
      · rw [complete_transitions]
        exact htr
      · rw [complete_log, hid]
        rfl
      · exact (mem_completionLog _ _ _ _).mpr rfl
      · intro u hu hmem
        exact hu ((mem_completionLog _ _ _ _).mp hmem)
    · have hne : (s.pending != some t) = true := by simpa using hpend
      simp only [hne, if_true]
      exact ⟨abort_frame s tr _ hwf, Or.inl (abort_stays s tr _),
        Or.inr (fun h => (awaiting_congr s _ t (by rw [abort_transitions])).trans h)⟩

theorem runEnterQueue_outcome (view : ViewLayer) (s : History) (t : Nat) (hwf : s.WF) :
    Outcome t s (runEnterQueue view s t) := by
  unfold runEnterQueue
  cases htr : s.transitions t with
  | none => exact outcome_same hwf
  | some tr =>
    simp only
    have hid : tr.route.id = t := hwf t tr htr
    have hF : Frame s (s.setTransition { tr with enterQueue := some (extractEnterGuards view
        tr.activated ++ s.resolveHooks.map (fun h => h.map Guard.beforeResolve)) }) :=
      frame_setTransition hwf t tr _ htr rfl rfl
    have h0 : QueueOutcome t s (s.setTransition { tr with enterQueue := some (extractEnterGuards view
        tr.activated ++ s.resolveHooks.map (fun h => h.map Guard.beforeResolve)) }) true := by
      refine ⟨hF, ⟨rfl, rfl, [], by simp [History.setTransition], noComplete_nil⟩,
        Or.inl ⟨⟨[], by simp [History.setTransition]⟩, fun _ h => ?_⟩⟩
      rw [← h]
      unfold History.awaiting
      simp [History.setTransition, hid, htr, Transition.handedOut]
    have h1 := stepQueue_outcome view t true (extractEnterGuards view
        tr.activated ++ s.resolveHooks.map (fun h => h.map Guard.beforeResolve))
      ((extractEnterGuards view tr.activated ++
        s.resolveHooks.map (fun h => h.map Guard.beforeResolve)).length + 1) 0 _ hF.1
    cases hb : (stepQueue view t true (extractEnterGuards view
        tr.activated ++ s.resolveHooks.map (fun h => h.map Guard.beforeResolve))
      ((extractEnterGuards view tr.activated ++
        s.resolveHooks.map (fun h => h.map Guard.beforeResolve)).length + 1) 0
      (s.setTransition { tr with enterQueue := some (extractEnterGuards view
        tr.activated ++ s.resolveHooks.map (fun h => h.map Guard.beforeResolve)) })).2 with
    | false =>
      rw [hb] at h1
      simp only [Bool.false_eq_true, if_false]
      exact h0.andThen h1.toOutcome
    | true =>
      rw [hb] at h1
      simp only [if_true]
      exact h0.andThen (h1.andThen (finishTransition_outcome _ t h1.1.1))

theorem continueQueue_outcome (view : ViewLayer) (s : History) (t : Nat) (p : Bool) (i : Nat)
    (hwf : s.WF) : Outcome t s (continueQueue view s t p i) := by
  unfold continueQueue
  cases htr : s.transitions t with
  | none => exact outcome_same hwf
  | some tr =>
    simp only
    have h1 := stepQueue_outcome view t p (if p = true then tr.enterQueue.getD [] else tr.queue)
      ((if p = true then tr.enterQueue.getD [] else tr.queue).length + 1) i s hwf
    cases hb : (stepQueue view t p (if p = true then tr.enterQueue.getD [] else tr.queue)
      ((if p = true then tr.enterQueue.getD [] else tr.queue).length + 1) i s).2 with
    | false =>
      rw [hb] at h1
      simp only [Bool.false_eq_true, if_false]
      exact h1.toOutcome
    | true =>
      rw [hb] at h1
      simp only [if_true]
      cases p with
      | true =>
        simp only [if_true]
        exact h1.andThen (finishTransition_outcome _ t h1.1.1)
      | false =>
        simp only [Bool.false_eq_true, if_false]
        exact h1.andThen (runEnterQueue_outcome view _ t h1.1.1)

/-! ## A guard that answers `false` -/

theorem awaiting_some (x : History) (t : Nat) (p : Bool) (j : Nat)
    (h : x.awaiting t = some (p, j)) :
    ∃ tr, x.transitions t = some tr ∧ tr.invoked.getLast? = some (p, j) ∧
      tr.handedOut p j = true := by
  unfold History.awaiting at h
  cases htr : x.transitions t with
  | none => rw [htr] at h; cases h
  | some tr =>
    rw [htr] at h
    simp only at h
    cases hl : tr.invoked.getLast? with
    | none => rw [hl] at h; cases h
    | some q =>
      obtain ⟨p', j'⟩ := q
      rw [hl] at h
      simp only at h
      by_cases hc : (tr.handedOut p' j' && !tr.answered.contains (p', j')) = true
      · rw [if_pos hc] at h
        obtain ⟨hp, hj⟩ := Prod.mk.inj (Option.some.inj h)
        subst hp
        subst hj
        rw [Bool.and_eq_true] at hc
        exact ⟨tr, rfl, hl, hc.1⟩
      · rw [if_neg hc] at h
        cases h

/-- Once the awaited continuation is called, the transition waits for no
guard. -/
theorem awaiting_marked (x : History) (t : Nat) (tr : Transition) (p : Bool) (j : Nat)
    (hid : tr.route.id = t) (hl : tr.invoked.getLast? = some (p, j)) :
    (x.setTransition { tr with answered := tr.answered ++ [(p, j)] }).awaiting t = none := by
  unfold History.awaiting History.setTransition
  simp only [hid, if_true, hl]
  have h2 : (tr.answered ++ [(p, j)]).contains (p, j) = true := by simp
  simp only [h2, Bool.not_true, Bool.and_false, Bool.false_eq_true, if_false]

theorem respond_eq (view : ViewLayer) (x : History) (t : Nat) (p : Bool) (j : Nat)
    (tr : Transition) (a : NextArg) (h : x.awaiting t = some (p, j))
    (htr : x.transitions t = some tr) (hh : tr.handedOut p j = true) :
    respond view x t a = callContinuation view x tr p j a := by
  unfold respond
  rw [h]
  simp only [step, htr, hh, if_true]

theorem respond_done (view : ViewLayer) (x : History) (t : Nat) (a : NextArg)
    (h : x.awaiting t = none) : respond view x t a = x := by
  unfold respond
  rw [h]

theorem drive_done (view : ViewLayer) (t : Nat) (args : List NextArg) :
    ∀ x : History, x.awaiting t = none → drive view x t args = x := by
  induction args with
  | nil => intro x _; rfl
  | cons a args ih =>
    intro x h
    rw [drive_cons, respond_done view x t a h]
    exact ih x h

theorem drive_append (view : ViewLayer) (x : History) (t : Nat) (xs ys : List NextArg) :
    drive view x t (xs ++ ys) = drive view (drive view x t xs) t ys := by
  unfold drive
  rw [List.foldl_append]

/-- A guard that proceeds leaves the transition calling guards, or waiting for
none. -/
theorem respond_proceed_quiet (view : ViewLayer) (t : Nat) (s x : History) (oa : Option Nat)
    (a : NextArg) (ha : classify a = Resolution.proceed)
    (h : Quiet t s x oa ∨ x.awaiting t = none) :
    Quiet t s (respond view x t a) oa ∨ (respond view x t a).awaiting t = none := by
  cases hA : x.awaiting t with
  | none =>
    rw [respond_done view x t a hA]
    exact Or.inr hA
  | some q =>
    obtain ⟨p, j⟩ := q
    rcases h with hq | hnone
    · obtain ⟨hwf, hcur, ⟨gs, hlog⟩, tr0, htr0, hoa⟩ := hq
      obtain ⟨tr, htr, hl, hh⟩ := awaiting_some x t p j hA
      have hid : tr.route.id = t := hwf t tr htr
      have htr_eq : tr0 = tr := Option.some.inj (htr0.symm.trans htr)
      subst htr_eq
      rw [respond_eq view x t p j tr0 a hA htr hh]
      unfold callContinuation
      simp only [ha, hid]
      have hF : Frame x (x.setTransition { tr0 with answered := tr0.answered ++ [(p, j)] }) :=
        frame_setTransition hwf t tr0 _ htr rfl rfl
      obtain ⟨f, _, q⟩ := continueQueue_outcome view
        (x.setTransition { tr0 with answered := tr0.answered ++ [(p, j)] }) t p (j + 1) hF.1
      rcases q with ⟨hc, gs2, hl2⟩ | hdone
      · left
        refine ⟨f.1, hc.trans hcur, ⟨gs ++ gs2, ?_⟩, ?_⟩
        · rw [hl2]
          simp [History.setTransition, hlog]
        · obtain ⟨tr2, e2, _, u2⟩ := f.2.2 t { tr0 with answered := tr0.answered ++ [(p, j)] }
            (by simp [History.setTransition, hid])
          exact ⟨tr2, e2, u2.trans hoa⟩
      · right
        exact hdone (awaiting_marked x t tr0 p j hid hl)
    · rw [hA] at hnone
      cases hnone

theorem drive_proceed_quiet (view : ViewLayer) (t : Nat) (s : History) (oa : Option Nat)
    (args : List NextArg) :
    ∀ x : History, (∀ a ∈ args, classify a = Resolution.proceed) →
      (Quiet t s x oa ∨ x.awaiting t = none) →
      Quiet t s (drive view x t args) oa ∨ (drive view x t args).awaiting t = none := by
  induction args with
  | nil => intro x _ h; exact h
  | cons a args ih =>
    intro x hp h
    rw [drive_cons]
    exact ih _ (fun b hb => hp b (by simp [hb]))
      (respond_proceed_quiet view t s x oa a (hp a (by simp)) h)

/-- The state after `transitionTo`: the new transition has called guards only,
or waits for none. -/
theorem transitionTo_quiet (view : ViewLayer) (s : History) (route : Route)
    (oc oa : Option Nat) (hwf : s.WF) :
    Quiet (s.made + 1) s (step view s (Event.transitionTo route oc oa)) oa ∨
      (step view s (Event.transitionTo route oc oa)).awaiting (s.made + 1) = none := by
  simp only [step, confirmTransition]
  split
  · right
    unfold History.awaiting
    rw [abort_transitions]
    simp [History.setTransition, History.emit]
  · have hwf0 : History.WF { History.setTransition { s with made := s.made + 1 }
          { route := { id := s.made + 1, route := route }, current := s.current,
            activated := (resolveQueue s.current.route.matched route.matched).activated,
            queue := extractLeaveGuards view
                (resolveQueue s.current.route.matched route.matched).deactivated ++
              s.beforeHooks.map (fun h => h.map Guard.beforeEach) ++
              extractUpdateHooks view (resolveQueue s.current.route.matched route.matched).updated ++
              (resolveQueue s.current.route.matched route.matched).activated.map
                (fun m => m.beforeEnter.map Guard.beforeEnter) ++
              [some Guard.resolveAsync],
            enterQueue := none, invoked := [], answered := [], userOnComplete := oc,
            userOnAbort := oa }
        with pending := some (s.made + 1) } :=
      wf_of_transitions
        (wf_setTransition (wf_of_transitions hwf rfl) _) rfl
    obtain ⟨f, _, q⟩ := continueQueue_outcome view _ (s.made + 1) false 0 hwf0
    rcases q with ⟨hc, gs2, hl2⟩ | hdone
    · left
      refine ⟨f.1, hc, ⟨gs2, hl2⟩, ?_⟩
      obtain ⟨tr2, e2, _, u2⟩ := f.2.2 (s.made + 1) _ (by simp [History.setTransition]; rfl)
      exact ⟨tr2, e2, u2⟩
    · right
      apply hdone
      unfold History.awaiting
      simp [History.setTransition]

/-- C9: when the guards of a transition proceed one after the other until one
answers `false`, the current route is the one before the transition, the calls
made since the transition started are calls of its guards followed by
`ensureURL(true)` and one call of `onAbort` with `false` (the user's callback
included) and nothing after, whatever is answered later: `onComplete` is not
called and no later guard is called. -/
theorem guard_false_aborts (view : ViewLayer) (s : History) (route : Route)
    (onComplete onAbort : Option Nat) (before after : List NextArg) (hwf : s.WF)
    (hproc : ∀ a ∈ before, classify a = Resolution.proceed)
    (hwait : (drive view (step view s (Event.transitionTo route onComplete onAbort))
      (s.made + 1) before).awaiting (s.made + 1) ≠ none) :
    (drive view (step view s (Event.transitionTo route onComplete onAbort)) (s.made + 1)
        (before ++ NextArg.boolFalse :: after)).current = s.current ∧
      ∃ gs : List Guard,
        (drive view (step view s (Event.transitionTo route onComplete onAbort)) (s.made + 1)
          (before ++ NextArg.boolFalse :: after)).log =
          s.log ++ gs.map (Effect.guardCalled (s.made + 1)) ++
            [Effect.ensureURL true, Effect.onAbort (s.made + 1) AbortArg.boolFalse] ++
            onAbort.toList.map
              (fun cb => Effect.userOnAbort (s.made + 1) cb AbortArg.boolFalse) := by
  have hq := drive_proceed_quiet view (s.made + 1) s onAbort before _ hproc
    (transitionTo_quiet view s route onComplete onAbort hwf)
  rw [drive_append, drive_cons]
  obtain ⟨x, hx⟩ : ∃ x, x = drive view (step view s (Event.transitionTo route onComplete onAbort))
    (s.made + 1) before := ⟨_, rfl⟩
  rw [← hx] at hq hwait ⊢
  rcases hq with hq | hnone
  · cases hA : x.awaiting (s.made + 1) with
    | none => exact absurd hA hwait
    | some q =>
      obtain ⟨p, j⟩ := q
      obtain ⟨hxwf, hcur, ⟨gs, hlog⟩, tr0, htr0, hoa⟩ := hq
      obtain ⟨tr, htr, hl, hh⟩ := awaiting_some x (s.made + 1) p j hA
      have hid : tr.route.id = s.made + 1 := hxwf _ tr htr
      have htr_eq : tr0 = tr := Option.some.inj (htr0.symm.trans htr)
      subst htr_eq
      rw [respond_eq view x (s.made + 1) p j tr0 NextArg.boolFalse hA htr hh]
      unfold callContinuation
      simp only [classify, NextArg.toAbortArg]
      have hdone : (abort ((x.setTransition
          { tr0 with answered := tr0.answered ++ [(p, j)] }).emit [Effect.ensureURL true]) tr0
          AbortArg.boolFalse).awaiting (s.made + 1) = none :=
        (awaiting_congr (x.setTransition { tr0 with answered := tr0.answered ++ [(p, j)] })
          _ (s.made + 1) (by rw [abort_transitions]; rfl)).trans
          (awaiting_marked x (s.made + 1) tr0 p j hid hl)
      rw [drive_done view (s.made + 1) after _ hdone]
      refine ⟨?_, gs, ?_⟩
      · rw [abort_current]
        exact hcur
      · rw [abort_false_log, hid, hoa]
        cases onAbort <;> simp [History.setTransition, History.emit, hlog]
  · exact absurd hnone hwait

theorem Example.history_WF : Example.history.WF := fun _ _ h => by cases h

/-- Witness of C9: leaving `/p/c` for `/q`, the three leave guards proceed and
the first before-each hook answers `false`. -/
theorem guard_false_aborts_witness :
    (drive Example.view
        (step Example.view Example.history
          (Event.transitionTo Example.otherRoute (some 70) (some 71))) 2
        ([NextArg.undef, NextArg.undef, NextArg.undef] ++
          NextArg.boolFalse :: [NextArg.undef])).current = Example.history.current ∧
      ∃ gs : List Guard,
        (drive Example.view
          (step Example.view Example.history
            (Event.transitionTo Example.otherRoute (some 70) (some 71))) 2
          ([NextArg.undef, NextArg.undef, NextArg.undef] ++
            NextArg.boolFalse :: [NextArg.undef])).log =
          Example.history.log ++ gs.map (Effect.guardCalled 2) ++
            [Effect.ensureURL true, Effect.onAbort 2 AbortArg.boolFalse] ++
            [Effect.userOnAbort 2 71 AbortArg.boolFalse] :=
  guard_false_aborts Example.view Example.history Example.otherRoute (some 70) (some 71)
    [NextArg.undef, NextArg.undef, NextArg.undef] [NextArg.undef]
    (fun _ _ h => by cases h) (by decide) (by decide)

/-! ## A transition that is superseded -/

/-- What the continuation of a guard of `t` may do: no route object is made,
no closure loses its route, and nothing commits except `t` if it is pending. -/
theorem callContinuation_safe (view : ViewLayer) (x : History) (t : Nat) (tr : Transition)
    (p : Bool) (j : Nat) (a : NextArg) (hwf : x.WF) (htr : x.transitions t = some tr) :
    Frame x (callContinuation view x tr p j a) ∧
      (Stays x (callContinuation view x tr p j a) ∨
        Commits t x (callContinuation view x tr p j a)) := by
  have hid : tr.route.id = t := hwf t tr htr
  have hF : Frame x (x.setTransition { tr with answered := tr.answered ++ [(p, j)] }) :=
    frame_setTransition hwf t tr _ htr rfl rfl
  have hS : Stays x (x.setTransition { tr with answered := tr.answered ++ [(p, j)] }) :=
    ⟨rfl, rfl, [], by simp [History.setTransition], noComplete_nil⟩
  unfold callContinuation
  cases hc : classify a with
  | abort =>
    simp only
    have hS1 : Stays x ((x.setTransition { tr with answered := tr.answered ++ [(p, j)] }).emit
        [Effect.ensureURL true]) :=
      stays_trans hS (emit_stays _ _ (fun u h => by simp at h))
    have hF1 : Frame x ((x.setTransition { tr with answered := tr.answered ++ [(p, j)] }).emit
        [Effect.ensureURL true]) :=
      frame_trans hF (frame_of_transitions hF.1 rfl rfl)
    exact ⟨frame_trans hF1 (abort_frame _ _ _ hF1.1), Or.inl (stays_trans hS1 (abort_stays _ _ _))⟩
  | redirect r =>
    simp only
    have hF1 := frame_trans hF (abort_frame _ tr AbortArg.undef hF.1)
    have hS1 := stays_trans hS (abort_stays _ tr AbortArg.undef)
    exact ⟨frame_trans hF1 (frame_of_transitions hF1.1 rfl rfl),
      Or.inl (stays_trans hS1 (emit_stays _ _ (fun u h => by cases r <;> simp at h)))⟩
  | proceed =>
    simp only [hid]
    obtain ⟨f, sc, _⟩ := continueQueue_outcome view
      (x.setTransition { tr with answered := tr.answered ++ [(p, j)] }) t p (j + 1) hF.1
    refine ⟨frame_trans hF f, ?_⟩
    rcases sc with st | c
    · exact Or.inl (stays_trans hS st)
    · exact Or.inr (stays_then_commits hS c)
  | throws =>
    simp only
    exact ⟨hF, Or.inl hS⟩

/-- What an event other than `transitionTo` may do. -/
theorem step_safe (view : ViewLayer) (x : History) (e : Event) (hwf : x.WF)
    (he : e.isTransitionTo = false) :
    Frame x (step view x e) ∧ (Stays x (step view x e) ∨ ∃ t, Commits t x (step view x e)) := by
  have hsame : Frame x x ∧ (Stays x x ∨ ∃ t, Commits t x x) :=
    ⟨frame_refl hwf, Or.inl (stays_refl x)⟩
  cases e with
  | transitionTo r oc oa => cases he
  | next t p j a =>
    simp only [step]
    cases htr : x.transitions t with
    | none => exact hsame
    | some tr =>
      simp only
      split
      · obtain ⟨f, sc⟩ := callContinuation_safe view x t tr p j a hwf htr
        exact ⟨f, sc.imp id (fun c => ⟨t, c⟩)⟩
      · exact hsame
  | throws t p j err =>
    simp only [step]
    cases htr : x.transitions t with
    | none => exact hsame
    | some tr =>
      simp only
      split
      · exact ⟨abort_frame x tr err hwf, Or.inl (abort_stays x tr err)⟩
      · exact hsame
  | asyncResolved t =>
    simp only [step]
    cases htr : x.transitions t with
    | none => exact hsame
    | some tr =>
      simp only
      split
      · obtain ⟨f, sc⟩ := callContinuation_safe view x t tr false (tr.queue.length - 1)
          (NextArg.route t) hwf htr
        exact ⟨f, sc.imp id (fun c => ⟨t, c⟩)⟩
      · exact hsame
  | asyncRejected t err =>
    simp only [step]
    cases htr : x.transitions t with
    | none => exact hsame
    | some tr =>
      simp only
      split
      · obtain ⟨f, sc⟩ := callContinuation_safe view x t tr false (tr.queue.length - 1)
          (NextArg.error err) hwf htr
        exact ⟨f, sc.imp id (fun c => ⟨t, c⟩)⟩
      · exact hsame

/-- What `transitionTo` may do: it ends at once when the target is the current
route; otherwise the new transition is pending, or it has committed. -/
theorem transitionTo_safe (view : ViewLayer) (x : History) (route : Route) (oc oa : Option Nat)
    (hwf : x.WF) :
    (step view x (Event.transitionTo route oc oa)).WF ∧
      (step view x (Event.transitionTo route oc oa)).made = x.made + 1 ∧
      ((isNoop x route = true ∧ Stays x (step view x (Event.transitionTo route oc oa))) ∨
        (isNoop x route = false ∧
          (∃ tr, (step view x (Event.transitionTo route oc oa)).transitions (x.made + 1) = some tr ∧
            tr.route = { id := x.made + 1, route := route }) ∧
          ∃ new, (step view x (Event.transitionTo route oc oa)).log = x.log ++ new ∧
            (((step view x (Event.transitionTo route oc oa)).pending = some (x.made + 1) ∧
                (step view x (Event.transitionTo route oc oa)).current = x.current ∧
                NoComplete new) ∨
              ((step view x (Event.transitionTo route oc oa)).pending = none ∧
                (step view x (Event.transitionTo route oc oa)).current =
                  { id := x.made + 1, route := route } ∧
                Effect.onComplete (x.made + 1) ∈ new ∧
                ∀ u, u ≠ x.made + 1 → Effect.onComplete u ∉ new)))) := by
  simp only [step, confirmTransition]
  cases hn : isNoop x route with
  | true =>
    have hn2 : (isSameRoute { id := x.made + 1, route := route } x.current &&
      route.matched.length == x.current.route.matched.length) = true := hn
    simp only [hn2, if_true]
    have hwf1 : History.WF ((History.setTransition { x with made := x.made + 1 }
        { route := { id := x.made + 1, route := route }, current := x.current, activated := [],
          queue := [], enterQueue := none, invoked := [], answered := [], userOnComplete := oc,
          userOnAbort := oa }).emit [Effect.ensureURL false]) :=
      wf_of_transitions (wf_setTransition (wf_of_transitions hwf rfl) _) rfl
    refine ⟨(abort_frame _ _ _ hwf1).1, by rw [abort_made]; rfl, Or.inl ⟨trivial, ?_⟩⟩
    obtain ⟨new, hl, hnc⟩ := abort_log ((History.setTransition { x with made := x.made + 1 }
        { route := { id := x.made + 1, route := route }, current := x.current, activated := [],
          queue := [], enterQueue := none, invoked := [], answered := [], userOnComplete := oc,
          userOnAbort := oa }).emit [Effect.ensureURL false])
        { route := { id := x.made + 1, route := route }, current := x.current, activated := [],
          queue := [], enterQueue := none, invoked := [], answered := [], userOnComplete := oc,
          userOnAbort := oa } AbortArg.undef
    refine ⟨by rw [abort_current]; rfl, by rw [abort_pending]; rfl,
      [Effect.ensureURL false] ++ new, ?_, noComplete_append (fun u h => by simp at h) hnc⟩
    rw [hl]
    simp [History.setTransition, History.emit]
  | false =>
    have hn2 : (isSameRoute { id := x.made + 1, route := route } x.current &&
      route.matched.length == x.current.route.matched.length) = false := hn
    simp only [hn2, Bool.false_eq_true, if_false]
    have hwf0 : History.WF { History.setTransition { x with made := x.made + 1 }
          { route := { id := x.made + 1, route := route }, current := x.current,
            activated := (resolveQueue x.current.route.matched route.matched).activated,
            queue := extractLeaveGuards view
                (resolveQueue x.current.route.matched route.matched).deactivated ++
              x.beforeHooks.map (fun h => h.map Guard.beforeEach) ++
              extractUpdateHooks view (resolveQueue x.current.route.matched route.matched).updated ++
              (resolveQueue x.current.route.matched route.matched).activated.map
                (fun m => m.beforeEnter.map Guard.beforeEnter) ++
              [some Guard.resolveAsync],
            enterQueue := none, invoked := [], answered := [], userOnComplete := oc,
            userOnAbort := oa }
        with pending := some (x.made + 1) } :=
      wf_of_transitions
        (wf_setTransition (wf_of_transitions hwf rfl) _) rfl
    obtain ⟨f, sc, _⟩ := continueQueue_outcome view _ (x.made + 1) false 0 hwf0
    obtain ⟨tr2, e2, r2, _⟩ := f.2.2 (x.made + 1) _ (by simp [History.setTransition]; rfl)
    refine ⟨f.1, f.2.1, Or.inr ⟨trivial, ⟨tr2, e2, r2⟩, ?_⟩⟩
    rcases sc with ⟨hc, hp, new, hl, hnc⟩ | ⟨_, hp, ⟨tr3, e3, hc⟩, new, hl, hmem, hnc⟩
    · exact ⟨new, hl, Or.inl ⟨hp, hc, hnc⟩⟩
    · refine ⟨new, hl, Or.inr ⟨hp, ?_, hmem, hnc⟩⟩
      rw [hc, ← Option.some.inj (e2.symm.trans e3), r2]

/-- A superseded transition stays superseded, whatever happens. -/
theorem step_superseded (view : ViewLayer) (t : Nat) (x : History) (e : Event)
    (h : Superseded t x) : Superseded t (step view x e) := by
  obtain ⟨hwf, hmade, hpend, hcur, hlog⟩ := h
  cases he : e.isTransitionTo with
  | false =>
    obtain ⟨f, sc⟩ := step_safe view x e hwf he
    refine ⟨f.1, by rw [f.2.1]; exact hmade, ?_⟩
    rcases sc with ⟨hc, hp, new, hl, hnc⟩ | ⟨u, hpu, hp, ⟨tr, htr, hc⟩, new, hl, _, hnc⟩
    · refine ⟨by rw [hp]; exact hpend, by rw [hc]; exact hcur, ?_⟩
      rw [hl]
      intro hmem
      rcases List.mem_append.mp hmem with hmem | hmem
      · exact hlog hmem
      · exact hnc t hmem
    · have hut : t ≠ u := fun htu => hpend (htu ▸ hpu)
      refine ⟨by rw [hp]; simp, ?_, ?_⟩
      · rw [hc, f.1 u tr htr]
        exact fun h => hut h.symm
      · rw [hl]
        intro hmem
        rcases List.mem_append.mp hmem with hmem | hmem
        · exact hlog hmem
        · exact hnc t hut hmem
  | true =>
    cases e with
    | transitionTo route oc oa =>
      obtain ⟨rwf, rmade, hcase⟩ := transitionTo_safe view x route oc oa hwf
      have hne : t ≠ x.made + 1 := by omega
      refine ⟨rwf, by rw [rmade]; omega, ?_⟩
      rcases hcase with ⟨_, hc, hp, new, hl, hnc⟩ | ⟨_, _, new, hl, hcase⟩
      · refine ⟨by rw [hp]; exact hpend, by rw [hc]; exact hcur, ?_⟩
        rw [hl]
        intro hmem
        rcases List.mem_append.mp hmem with hmem | hmem
        · exact hlog hmem
        · exact hnc t hmem
      · rcases hcase with ⟨hp, hc, hnc⟩ | ⟨hp, hc, _, hnc⟩
        · refine ⟨?_, by rw [hc]; exact hcur, ?_⟩
          · rw [hp]
            exact fun h => hne (Option.some.inj h).symm
          · rw [hl]
            intro hmem
            rcases List.mem_append.mp hmem with hmem | hmem
            · exact hlog hmem
            · exact hnc t hmem
        · refine ⟨by rw [hp]; simp, by rw [hc]; exact hne.symm, ?_⟩
          rw [hl]
          intro hmem
          rcases List.mem_append.mp hmem with hmem | hmem
          · exact hlog hmem
          · exact hnc t hne hmem
    | next _ _ _ _ => cases he
    | throws _ _ _ _ => cases he
    | asyncResolved _ => cases he
    | asyncRejected _ _ => cases he

theorem run_superseded (view : ViewLayer) (t : Nat) (events : List Event) :
    ∀ x : History, Superseded t x → Superseded t (run view x events) := by
  induction events with
  | nil => intro x h; exact h
  | cons e events ih =>
    intro x h
    exact ih _ (step_superseded view t x e h)

/-- While no transition is started, the last one started stays pending or
commits. -/
theorem step_lastStarted (view : ViewLayer) (s x : History) (target : RouteObj) (e : Event)
    (he : e.isTransitionTo = false) (h : LastStarted s x target) :
    LastStarted s (step view x e) target := by
  obtain ⟨hwf, ⟨tr, htr, hroute⟩, new, hlog, hcase⟩ := h
  obtain ⟨f, sc⟩ := step_safe view x e hwf he
  obtain ⟨tr', htr', hroute', _⟩ := f.2.2 target.id tr htr
  refine ⟨f.1, ⟨tr', htr', hroute'.trans hroute⟩, ?_⟩
  rcases sc with ⟨hc, hp, new2, hl, hnc⟩ | ⟨u, hpu, hp, ⟨tr2, htr2, hc⟩, new2, hl, hmem, hnc⟩
  · refine ⟨new ++ new2, by rw [hl, hlog, List.append_assoc], ?_⟩
    rcases hcase with ⟨h1, h2, h3⟩ | ⟨h1, h2, h3⟩
    · left
      refine ⟨hp.trans h1, hc.trans h2, ?_⟩
      intro hmem
      rcases List.mem_append.mp hmem with hmem | hmem
      · exact h3 hmem
      · exact hnc _ hmem
    · right
      exact ⟨hp.trans h1, hc.trans h2, List.mem_append.mpr (Or.inl h3)⟩
  · refine ⟨new ++ new2, by rw [hl, hlog, List.append_assoc], ?_⟩
    rcases hcase with ⟨h1, _, _⟩ | ⟨h1, _, _⟩
    · have hu : u = target.id := Option.some.inj (hpu.symm.trans h1)
      subst hu
      right
      refine ⟨hp, ?_, List.mem_append.mpr (Or.inr hmem)⟩
      rw [hc, ← Option.some.inj (htr'.symm.trans htr2), hroute', hroute]
    · rw [h1] at hpu
      cases hpu

theorem run_lastStarted (view : ViewLayer) (s : History) (target : RouteObj)
    (events : List Event) :
    ∀ x : History, (∀ e ∈ events, e.isTransitionTo = false) → LastStarted s x target →
      LastStarted s (run view x events) target := by
  induction events with
  | nil => intro x _ h; exact h
  | cons e events ih =>
    intro x he h
    exact ih _ (fun e' he' => he e' (by simp [he']))
      (step_lastStarted view s x target e (he e (by simp)) h)

/-- C8, as stated, fails when the second transition targets the current route:
from `/p/c`, transition 2 to `/q` waits for a guard, transition 3 to `/p/c`
is started and ends at once without replacing the pending transition, and when
the guards of transition 2 proceed it commits: its `onComplete` is called and
the current route is `/q`, not the target `/p/c` of transition 3. -/
theorem superseded_by_current_route_commits :
    Example.leaving.awaiting 2 = some (false, 0) ∧
      Example.otherRoute.path ≠ Example.childRoute.path ∧
      Effect.onComplete 2 ∈
        (drive Example.view
          (step Example.view Example.leaving (Event.transitionTo Example.childRoute none none)) 2
          (List.replicate 8 NextArg.undef)).log ∧
      (drive Example.view
          (step Example.view Example.leaving (Event.transitionTo Example.childRoute none none)) 2
          (List.replicate 8 NextArg.undef)).current.route.path = "/q".toList ∧
      Example.childRoute.path = "/p/c".toList := by
  decide

theorem Example.leaving_WF : Example.leaving.WF :=
  (transitionTo_safe Example.view Example.history Example.otherRoute none none
    Example.history_WF).1

/-- With `reverse` set, `extractGuards` takes the records from child to parent
(and the components of a record last to first), the guards of one component
staying in their order. -/
theorem extractGuards_reverse (view : ViewLayer) (records : List RouteRecord) (name : HookName)
    (bind : Nat → Option Nat → RouteRecord → Str → Option Guard) :
    extractGuards view records name bind true =
      records.reverse.flatMap (fun m => m.components.reverse.flatMap (fun kv =>
        match view.extractGuard kv.2 name with
        | .undefined => [none]
        | .single g => [bind g (view.instances m.uid kv.1) m kv.1]
        | .array gs => gs.map (fun g => bind g (view.instances m.uid kv.1) m kv.1))) := by
  unfold extractGuards flatMapComponents
  simp only [if_true]
  induction records with
  | nil => rfl
  | cons m rest ih =>
    simp only [List.flatMap_cons, List.reverse_append, List.flatten_append, List.reverse_cons,
      List.flatMap_append, List.flatMap_nil, List.append_nil, ih]
    congr 1
    simp only [List.flatMap, List.map_reverse, List.map_map]

theorem step_WF (view : ViewLayer) (x : History) (e : Event) (hwf : x.WF) :
    (step view x e).WF := by
  cases he : e.isTransitionTo with
  | false => exact (step_safe view x e hwf he).1.1
  | true =>
    cases e with
    | transitionTo route oc oa => exact (transitionTo_safe view x route oc oa hwf).1
    | next _ _ _ _ => cases he
    | throws _ _ _ _ => cases he
    | asyncResolved _ => cases he
    | asyncRejected _ _ => cases he

/-- Every state the engine reaches from a state without closures stores each
closure under the identity of its route. -/
theorem run_WF (view : ViewLayer) (events : List Event) :
    ∀ x : History, x.WF → (run view x events).WF := by
  induction events with
  | nil => intro x h; exact h
  | cons e events ih => intro x h; exact ih _ (step_WF view x e h)

theorem History.init_WF : History.init.WF := fun _ _ h => by cases h

/-! ## Normalising a location twice -/

/-- A location with the marker `_normalized` or with a name is returned as it
is. -/
theorem normalizeLocation_fixed (l : Location) (current : Option Route) (append : Bool)
    (router : Router) (h : l.normalized = true ∨ truthy l.name = true) :
    normalizeLocation (RawLocation.obj l) current append router = l := by
  unfold normalizeLocation
  simp only
  rcases h with h | h
  · simp only [h, if_true]
  · cases hn : l.normalized
    · simp only [h, Bool.false_eq_true, if_false, if_true]
    · simp only [if_true]

/-- What `normalizeLocation` returns has the marker `_normalized` or a name. -/
theorem normalizeLocation_marked (raw : RawLocation) (current : Option Route) (append : Bool)
    (router : Router) :
    (normalizeLocation raw current append router).normalized = true ∨
      truthy (normalizeLocation raw current append router).name = true := by
  unfold normalizeLocation
  simp only
  split
  · left; assumption
  · split
    · right; assumption
    · left
      split
      · split
        · rfl
        · split <;> rfl
      · rfl

/-- C20: normalising the result of `normalizeLocation` again, with any current
route, append flag and router, returns that result; and a location that has the
marker `_normalized` is returned as it is. -/
theorem normalizeLocation_idempotent (raw : RawLocation) (current current' : Option Route)
    (append append' : Bool) (router router' : Router) :
    normalizeLocation (RawLocation.obj (normalizeLocation raw current append router))
        current' append' router' = normalizeLocation raw current append router ∧
      ∀ l : Location, l.normalized = true →
        normalizeLocation (RawLocation.obj l) current' append' router' = l :=
  ⟨normalizeLocation_fixed _ current' append' router'
      (normalizeLocation_marked raw current append router),
    fun l h => normalizeLocation_fixed l current' append' router' (Or.inl h)⟩

/-! ## A transition to the current route -/

/-- The calls of `abort()` with no argument. -/
theorem abort_undef_log (s : History) (tr : Transition) :
    (abort s tr AbortArg.undef).log =
      s.log ++ [Effect.onAbort tr.route.id AbortArg.undef] ++
        tr.userOnAbort.toList.map (fun cb => Effect.userOnAbort tr.route.id cb AbortArg.undef) := by
  unfold abort
  cases tr.userOnAbort <;> simp [History.emit, AbortArg.truthy]

theorem abort_undef_ready (s : History) (tr : Transition) :
    (abort s tr AbortArg.undef).ready = s.ready := by
  unfold abort
  cases tr.userOnAbort <;> simp [History.emit, AbortArg.truthy]

/-- C13: when the target is the same route as the current one, with a matched
chain of the same length, `transitionTo` calls `ensureURL()` and then `onAbort`
once with no argument (and the `onAbort` of the caller, if any) and nothing
else: no guard and no `onComplete` is called, and `current`, `pending` and
`ready` are unchanged. -/
theorem same_route_aborts (view : ViewLayer) (s : History) (route : Route)
    (onComplete onAbort : Option Nat)
    (hsame : isSameRoute { id := s.made + 1, route := route } s.current = true)
    (hlen : route.matched.length = s.current.route.matched.length) :
    (step view s (Event.transitionTo route onComplete onAbort)).log =
        s.log ++ [Effect.ensureURL false, Effect.onAbort (s.made + 1) AbortArg.undef] ++
          onAbort.toList.map (fun cb => Effect.userOnAbort (s.made + 1) cb AbortArg.undef) ∧
      (step view s (Event.transitionTo route onComplete onAbort)).current = s.current ∧
      (step view s (Event.transitionTo route onComplete onAbort)).pending = s.pending ∧
      (step view s (Event.transitionTo route onComplete onAbort)).ready = s.ready := by
  simp only [step, confirmTransition]
  have hc : (isSameRoute { id := s.made + 1, route := route } s.current &&
      route.matched.length == s.current.route.matched.length) = true := by
    rw [hsame, hlen]
    simp
  simp only [hc, if_true]
  refine ⟨?_, ?_, ?_, ?_⟩
  · rw [abort_undef_log]
    simp [History.setTransition, History.emit]
  · rw [abort_current]
    rfl
  · rw [abort_pending]
    rfl
  · rw [abort_undef_ready]
    rfl

/-- Witness of C13: at `/p/c`, a transition to `/p/c`. -/
theorem same_route_aborts_witness :
    (step Example.view Example.history (Event.transitionTo Example.childRoute none (some 71))).log =
        Example.history.log ++ [Effect.ensureURL false, Effect.onAbort 2 AbortArg.undef] ++
          [Effect.userOnAbort 2 71 AbortArg.undef] ∧
      (step Example.view Example.history
        (Event.transitionTo Example.childRoute none (some 71))).current = Example.history.current ∧
      (step Example.view Example.history
        (Event.transitionTo Example.childRoute none (some 71))).pending = Example.history.pending ∧
      (step Example.view Example.history
        (Event.transitionTo Example.childRoute none (some 71))).ready = Example.history.ready :=
  same_route_aborts Example.view Example.history Example.childRoute none (some 71)
    (by decide) (by decide)

/-! ## The function `resolveQueue` -/

theorem sameRecord_some_iff (a b : Option RouteRecord) (h : sameRecord a b = true)
    (hne : a.isSome = true ∨ b.isSome = true) :
    ∃ x y, a = some x ∧ b = some y ∧ x.uid = y.uid := by
  cases a with
  | none =>
    cases b with
    | none => simp at hne
    | some y => simp [sameRecord] at h
  | some x =>
    cases b with
    | none => simp [sameRecord] at h
    | some y => exact ⟨x, y, rfl, rfl, by simpa [sameRecord] using h⟩

/-- The loop of `resolveQueue` stops at the first index where the two chains
differ, or at the end of the longer one. -/
theorem resolveQueueLoop_spec (current next : List RouteRecord) :
    ∀ (fuel i : Nat), max current.length next.length ≤ i + fuel →
      i ≤ resolveQueueLoop current next fuel i ∧
      resolveQueueLoop current next fuel i ≤ max i (max current.length next.length) ∧
      (∀ k, i ≤ k → k < resolveQueueLoop current next fuel i →
        sameRecord (current.get? k) (next.get? k) = true) ∧
      (resolveQueueLoop current next fuel i < max current.length next.length →
        sameRecord (current.get? (resolveQueueLoop current next fuel i))
          (next.get? (resolveQueueLoop current next fuel i)) = false) := by
  intro fuel
  induction fuel with
  | zero =>
    intro i hi
    rw [resolveQueueLoop]
    exact ⟨Nat.le_refl _, by omega, fun k h1 h2 => by omega, fun h => by omega⟩
  | succ fuel ih =>
    intro i hi
    rw [resolveQueueLoop]
    by_cases hlt : i < max current.length next.length
    · simp only [hlt, if_true]
      cases hs : sameRecord (current.get? i) (next.get? i) with
      | true =>
        simp only [if_true]
        obtain ⟨h1, h0, h2, h3⟩ := ih (i + 1) (by omega)
        refine ⟨by omega, by omega, ?_, h3⟩
        intro k hk1 hk2
        by_cases hki : k = i
        · rw [hki]; exact hs
        · exact h2 k (by omega) hk2
      | false =>
        simp only [Bool.false_eq_true, if_false]
        exact ⟨Nat.le_refl _, by omega, fun k h1 h2 => by omega, fun _ => hs⟩
    · rw [if_neg hlt]
      exact ⟨Nat.le_refl _, by omega, fun k h1 h2 => by omega, fun h => absurd h hlt⟩

/-- Two chains that hold the same records up to `j` have the same first `j`
records, when records of the same identity are equal. -/
theorem take_eq_of_sameRecord (current next : List RouteRecord)
    (hident : ∀ a ∈ current, ∀ b ∈ next, a.uid = b.uid → a = b) :
    ∀ j : Nat, (∀ k, k < j → sameRecord (current.get? k) (next.get? k) = true) →
      j ≤ max current.length next.length → current.take j = next.take j ∧ j ≤ current.length ∧
        j ≤ next.length := by
  intro j
  induction j with
  | zero => intro _ _; simp
  | succ j ih =>
    intro h hj
    obtain ⟨e, h1, h2⟩ := ih (fun k hk => h k (by omega)) (by omega)
    have hsome : (current.get? j).isSome = true ∨ (next.get? j).isSome = true := by
      rcases Nat.lt_or_ge j current.length with hc | hc
      · left; simp [List.get?_eq_getElem?, hc]
      · right
        have : j < next.length := by omega
        simp [List.get?_eq_getElem?, this]
    obtain ⟨x, y, hx, hy, hxy⟩ := sameRecord_some_iff _ _ (h j (by omega)) hsome
    rw [List.get?_eq_getElem?] at hx hy
    have hjc : j < current.length := by
      rcases Nat.lt_or_ge j current.length with hc | hc
      · exact hc
      · rw [List.getElem?_eq_none hc] at hx; cases hx
    have hjn : j < next.length := by
      rcases Nat.lt_or_ge j next.length with hc | hc
      · exact hc
      · rw [List.getElem?_eq_none hc] at hy; cases hy
    have hxe : x = y := hident x (List.mem_iff_getElem?.mpr ⟨j, hx⟩) y (List.mem_iff_getElem?.mpr ⟨j, hy⟩) hxy
    refine ⟨?_, hjc, hjn⟩
    rw [List.take_succ, List.take_succ, e, hx, hy, hxe]

/-- Inside a common prefix the two chains hold the same record. -/
theorem sameRecord_of_common (current next p : List RouteRecord) (j : Nat) (hj : j < p.length)
    (hpc : p <+: current) (hpn : p <+: next) :
    sameRecord (current.get? j) (next.get? j) = true := by
  obtain ⟨tc, htc⟩ := hpc
  obtain ⟨tn, htn⟩ := hpn
  rw [← htc, ← htn, List.get?_eq_getElem?, List.get?_eq_getElem?, List.getElem?_append_left hj,
    List.getElem?_append_left hj, List.getElem?_eq_getElem hj]
  simp [sameRecord]

/-- C15: `resolveQueue(current, next)` splits the two chains at the end of
their longest common prefix: `updated ++ activated` is `next`,
`updated ++ deactivated` is `current`, and every common prefix of the two
chains is a prefix of `updated`.  Records are compared by identity, and records
of the same identity are the same record. -/
theorem resolveQueue_spec (current next : List RouteRecord)
    (hident : ∀ a ∈ current, ∀ b ∈ next, a.uid = b.uid → a = b) :
    (resolveQueue current next).updated ++ (resolveQueue current next).activated = next ∧
      (resolveQueue current next).updated ++ (resolveQueue current next).deactivated = current ∧
      (resolveQueue current next).activated =
        next.drop (resolveQueue current next).updated.length ∧
      (resolveQueue current next).deactivated =
        current.drop (resolveQueue current next).updated.length ∧
      ∀ p : List RouteRecord, p <+: current → p <+: next →
        p <+: (resolveQueue current next).updated := by
  obtain ⟨_, hjmax, h2, h3⟩ := resolveQueueLoop_spec current next
    (max current.length next.length) 0 (by omega)
  obtain ⟨e, l1, l2⟩ := take_eq_of_sameRecord current next hident
    (resolveQueueLoop current next (max current.length next.length) 0)
    (fun k hk => h2 k (Nat.zero_le _) hk) (by omega)
  unfold resolveQueue
  simp only
  refine ⟨List.take_append_drop _ _, ?_, ?_, ?_, ?_⟩
  · rw [← e]
    exact List.take_append_drop _ _
  · rw [List.length_take, Nat.min_eq_left l2]
  · rw [List.length_take, Nat.min_eq_left l2]
  · intro p hpc hpn
    have hlen : p.length ≤ resolveQueueLoop current next (max current.length next.length) 0 := by
      by_contra hgt
      have hj : resolveQueueLoop current next (max current.length next.length) 0 < p.length := by
        omega
      have hpcl := hpc.length_le
      have hf := h3 (by omega)
      rw [sameRecord_of_common current next p _ hj hpc hpn] at hf
      cases hf
    have hp : p = next.take p.length := by
      obtain ⟨tn, htn⟩ := hpn
      rw [← htn]
      simp
    rw [hp]
    exact (List.take_prefix_take_left _ hlen : _)

/-- Witness of C15: from the chain of `/p/c` to the chain of `/p` and `/q`. -/
theorem resolveQueue_spec_witness :
    (resolveQueue [Example.parentRecord, Example.childRecord]
        [Example.parentRecord, Example.otherRecord]).updated ++
      (resolveQueue [Example.parentRecord, Example.childRecord]
        [Example.parentRecord, Example.otherRecord]).activated =
        [Example.parentRecord, Example.otherRecord] ∧
    (resolveQueue [Example.parentRecord, Example.childRecord]
        [Example.parentRecord, Example.otherRecord]).updated ++
      (resolveQueue [Example.parentRecord, Example.childRecord]
        [Example.parentRecord, Example.otherRecord]).deactivated =
        [Example.parentRecord, Example.childRecord] ∧
    ((resolveQueue [Example.parentRecord, Example.childRecord]
        [Example.parentRecord, Example.otherRecord]).updated.map RouteRecord.uid = [0] ∧
      (resolveQueue [Example.parentRecord, Example.childRecord]
        [Example.parentRecord, Example.otherRecord]).activated.map RouteRecord.uid = [2] ∧
      (resolveQueue [Example.parentRecord, Example.childRecord]
        [Example.parentRecord, Example.otherRecord]).deactivated.map RouteRecord.uid = [1]) :=
  have h := resolveQueue_spec [Example.parentRecord, Example.childRecord]
    [Example.parentRecord, Example.otherRecord]
    (by
      intro a ha b hb hab
      simp only [List.mem_cons, List.mem_singleton, List.not_mem_nil, or_false] at ha hb
      rcases ha with rfl | rfl <;> rcases hb with rfl | rfl
      · rfl
      · exact absurd hab (by decide)
      · exact absurd hab (by decide)
      · exact absurd hab (by decide))
  ⟨h.1, h.2.1, by decide⟩

/-! ## The value a guard passes to its continuation -/

/-- C11: what the continuation of the guard a transition waits for does with
the value `v` it is called with.  With `false` or an error-like value:
`ensureURL(true)` and `abort(v)`.  With a string, a route or an object whose
`path` or `name` is a string: `abort()` and then `replace(v)` if `v` is an
object with a truthy `replace`, `push(v)` otherwise.  With nothing, a function,
an object without such a `path` or `name`, or any other value but `null`: the
queue goes on at the next index.  With `null` the continuation throws a
`TypeError` and does none of these: the log, `current` and `pending` are as
before and the transition waits for no guard. -/
theorem continuation_cases (view : ViewLayer) (s : History) (t : Nat) (p : Bool) (j : Nat)
    (hwait : s.awaiting t = some (p, j)) :
    ∃ tr, s.transitions t = some tr ∧
      (∀ v, (v = NextArg.boolFalse ∨ ∃ e, v = NextArg.error e) →
        step view s (Event.next t p j v) =
          abort ((s.setTransition { tr with answered := tr.answered ++ [(p, j)] }).emit
            [Effect.ensureURL true]) tr v.toAbortArg) ∧
      (∀ v, ((∃ str, v = NextArg.str str) ∨ (∃ id, v = NextArg.route id) ∨
          ∃ loc, v = NextArg.obj loc ∧ loc.replace = false ∧
            (loc.path.isSome = true ∨ loc.name.isSome = true)) →
        step view s (Event.next t p j v) =
          (abort (s.setTransition { tr with answered := tr.answered ++ [(p, j)] }) tr
            AbortArg.undef).emit [Effect.push v]) ∧
      (∀ loc : Location, loc.replace = true →
        (loc.path.isSome = true ∨ loc.name.isSome = true) →
        step view s (Event.next t p j (NextArg.obj loc)) =
          (abort (s.setTransition { tr with answered := tr.answered ++ [(p, j)] }) tr
            AbortArg.undef).emit [Effect.replace (NextArg.obj loc)]) ∧
      (∀ v, (v = NextArg.undef ∨ v = NextArg.other ∨ (∃ cb, v = NextArg.callback cb) ∨
          ∃ loc, v = NextArg.obj loc ∧ loc.path = none ∧ loc.name = none) →
        step view s (Event.next t p j v) =
          continueQueue view (s.setTransition { tr with answered := tr.answered ++ [(p, j)] })
            tr.route.id p (j + 1)) ∧
      (classify NextArg.null = Resolution.throws ∧
        (step view s (Event.next t p j NextArg.null)).log = s.log ∧
        (step view s (Event.next t p j NextArg.null)).current = s.current ∧
        (step view s (Event.next t p j NextArg.null)).pending = s.pending ∧
        (s.WF → (step view s (Event.next t p j NextArg.null)).awaiting t = none)) := by
  obtain ⟨tr, htr, hl, hh⟩ := awaiting_some s t p j hwait
  refine ⟨tr, htr, ?_, ?_, ?_, ?_, rfl, ?_, ?_, ?_, ?_⟩
  · intro v hv
    simp only [step, htr, hh, if_true]
    rcases hv with rfl | ⟨e, rfl⟩ <;> rfl
  · intro v hv
    simp only [step, htr, hh, if_true]
    rcases hv with ⟨str, rfl⟩ | ⟨id, rfl⟩ | ⟨loc, rfl, hr, hpn⟩
    · rfl
    · rfl
    · have hc : (loc.path.isSome || loc.name.isSome) = true := by
        rcases hpn with h | h <;> simp [h]
      simp [callContinuation, classify, hc, hr]
  · intro loc hr hpn
    simp only [step, htr, hh, if_true]
    have hc : (loc.path.isSome || loc.name.isSome) = true := by
      rcases hpn with h | h <;> simp [h]
    simp [callContinuation, classify, hc, hr]
  · intro v hv
    simp only [step, htr, hh, if_true]
    rcases hv with rfl | rfl | ⟨cb, rfl⟩ | ⟨loc, rfl, hp, hn⟩
    · rfl
    · rfl
    · rfl
    · simp [callContinuation, classify, hp, hn]
  · simp only [step, htr, hh, if_true]
    rfl
  · simp only [step, htr, hh, if_true]
    rfl
  · simp only [step, htr, hh, if_true]
    rfl
  · intro hwf
    simp only [step, htr, hh, if_true]
    exact awaiting_marked s t tr p j (hwf t tr htr) hl

/-- Witness of C11: while transition 2 waits for its first leave guard, that
guard calls its continuation with `null`: no call is made, where the same guard
answering nothing has the next guard called. -/
theorem continuation_cases_witness :
    (step Example.view Example.leaving (Event.next 2 false 0 NextArg.null)).log =
        Example.leaving.log ∧
      (step Example.view Example.leaving (Event.next 2 false 0 NextArg.undef)).log =
        Example.leaving.log ++
          [Effect.guardCalled 2 (Guard.bound HookName.beforeRouteLeave 33 101)] := by
  obtain ⟨_, _, _, _, _, _, _, h, _⟩ :=
    continuation_cases Example.view Example.leaving 2 false 0 (by decide)
  exact ⟨h, by decide⟩

/-! ## A guard that throws and a guard that answers with an error -/

theorem abort_log_eq (s : History) (tr : Transition) (err : AbortArg) :
    (abort s tr err).log = s.log ++ abortLog s.env tr err := by
  unfold abort abortLog
  cases err <;> cases tr.userOnAbort <;> cases hr : s.ready <;>
    simp [History.emit, History.env, AbortArg.truthy, hr] <;>
    split <;> simp [hr]

theorem abort_ready (s : History) (tr : Transition) (err : AbortArg) :
    (abort s tr err).ready = (s.ready || err.truthy) := by
  unfold abort
  cases err <;> cases tr.userOnAbort <;> cases hr : s.ready <;>
    simp [History.emit, AbortArg.truthy, hr] <;>
    split <;> simp_all

theorem ensureURL_not_mem_abortLog (env : HistoryEnv) (tr : Transition) (err : AbortArg)
    (b : Bool) : Effect.ensureURL b ∉ abortLog env tr err := by
  unfold abortLog
  cases err <;> cases tr.userOnAbort <;> simp <;> split <;> simp

/-- C12 (failing input): for the guard a transition waits for and every error
`e`, the guard throwing `e` and the guard answering with `e` make the same
calls to the error observers and to `onAbort` and leave the same `current`,
`pending` and `ready`, but answering with `e` calls `ensureURL(true)` first
and throwing `e` calls `ensureURL` not at all. -/
theorem throw_skips_ensureURL (view : ViewLayer) (s : History) (t : Nat) (p : Bool) (j : Nat)
    (e : Nat) (hwait : s.awaiting t = some (p, j)) :
    ∃ calls : List Effect,
      (step view s (Event.throws t p j (AbortArg.error e))).log = s.log ++ calls ∧
      (step view s (Event.next t p j (NextArg.error e))).log =
        s.log ++ Effect.ensureURL true :: calls ∧
      (∀ b, Effect.ensureURL b ∉ calls) ∧
      (step view s (Event.throws t p j (AbortArg.error e))).log ≠
        (step view s (Event.next t p j (NextArg.error e))).log ∧
      (step view s (Event.throws t p j (AbortArg.error e))).current =
        (step view s (Event.next t p j (NextArg.error e))).current ∧
      (step view s (Event.throws t p j (AbortArg.error e))).pending =
        (step view s (Event.next t p j (NextArg.error e))).pending ∧
      (step view s (Event.throws t p j (AbortArg.error e))).ready =
        (step view s (Event.next t p j (NextArg.error e))).ready := by
  obtain ⟨tr, htr, _, hh⟩ := awaiting_some s t p j hwait
  have h1 : step view s (Event.throws t p j (AbortArg.error e)) = abort s tr (AbortArg.error e) := by
    simp only [step, htr, hh, if_true]
  have h2 : step view s (Event.next t p j (NextArg.error e)) =
      abort ((s.setTransition { tr with answered := tr.answered ++ [(p, j)] }).emit
        [Effect.ensureURL true]) tr (AbortArg.error e) := by
    simp only [step, htr, hh, if_true]
    rfl
  have hl1 : (step view s (Event.throws t p j (AbortArg.error e))).log =
      s.log ++ abortLog s.env tr (AbortArg.error e) := by
    rw [h1, abort_log_eq]
  have hl2 : (step view s (Event.next t p j (NextArg.error e))).log =
      s.log ++ Effect.ensureURL true :: abortLog s.env tr (AbortArg.error e) := by
    rw [h2, abort_log_eq]
    simp [History.setTransition, History.emit, History.env]
  refine ⟨abortLog s.env tr (AbortArg.error e), hl1, hl2,
    fun b => ensureURL_not_mem_abortLog _ _ _ b, ?_, ?_, ?_, ?_⟩
  · rw [hl1, hl2]
    intro h
    have := congrArg List.length h
    simp at this
  · rw [h1, h2, abort_current, abort_current]
    rfl
  · rw [h1, h2, abort_pending, abort_pending]
    rfl
  · rw [h1, h2, abort_ready, abort_ready]
    rfl

/-- Witness of C12: the first leave guard of transition 2 throws, or answers
with, the error 5. -/
theorem throw_skips_ensureURL_witness :
    ∃ calls : List Effect,
      (step Example.view Example.leaving (Event.throws 2 false 0 (AbortArg.error 5))).log =
        Example.leaving.log ++ calls ∧
      (step Example.view Example.leaving (Event.next 2 false 0 (NextArg.error 5))).log =
        Example.leaving.log ++ Effect.ensureURL true :: calls ∧
      (∀ b, Effect.ensureURL b ∉ calls) ∧
      (step Example.view Example.leaving (Event.throws 2 false 0 (AbortArg.error 5))).log ≠
        (step Example.view Example.leaving (Event.next 2 false 0 (NextArg.error 5))).log ∧
      (step Example.view Example.leaving (Event.throws 2 false 0 (AbortArg.error 5))).current =
        (step Example.view Example.leaving (Event.next 2 false 0 (NextArg.error 5))).current ∧
      (step Example.view Example.leaving (Event.throws 2 false 0 (AbortArg.error 5))).pending =
        (step Example.view Example.leaving (Event.next 2 false 0 (NextArg.error 5))).pending ∧
      (step Example.view Example.leaving (Event.throws 2 false 0 (AbortArg.error 5))).ready =
        (step Example.view Example.leaving (Event.next 2 false 0 (NextArg.error 5))).ready :=
  throw_skips_ensureURL Example.view Example.leaving 2 false 0 5 (by decide)

/-! ## The shape of the log of a queue run -/

theorem abort_env (s : History) (tr : Transition) (err : AbortArg) :
    (abort s tr err).env = { s.env with ready := s.ready || err.truthy } := by
  obtain ⟨new, b, h, _⟩ := abort_eq s tr err
  have hr := abort_ready s tr err
  rw [h] at hr ⊢
  simp only [History.env] at hr ⊢
  rw [hr]

theorem abort_undef_env (s : History) (tr : Transition) :
    (abort s tr AbortArg.undef).env = s.env := by
  rw [abort_env]
  simp [AbortArg.truthy, History.env]

theorem complete_env (s : History) (tr : Transition) :
    (complete s tr).env = { s.env with ready := true } := by
  unfold complete updateRoute
  cases hu : tr.userOnComplete <;> cases hl : s.hasListener <;> cases hr : s.ready <;>
    simp [History.emit, History.env, hu, hl, hr]

theorem queueShape_same (t : Nat) (x : History) : QueueShape t x x :=
  Or.inl ⟨rfl, [], by simp⟩

/-- Guards called first, then a queue run. -/
theorem queueShape_after (t : Nat) (x m r : History) (h : QueueShape t m r) (gs : List Guard)
    (henv : m.env = x.env) (hlog : m.log = x.log ++ gs.map (Effect.guardCalled t)) :
    QueueShape t x r := by
  rcases h with ⟨e, gs2, l⟩ | ⟨e, gs2, tr, l⟩ | ⟨e, gs2, u, uc, l⟩
  · exact Or.inl ⟨e.trans henv, gs ++ gs2, by rw [l, hlog]; simp⟩
  · exact Or.inr (Or.inl ⟨e.trans henv, gs ++ gs2, tr, by rw [l, hlog, henv]; simp⟩)
  · exact Or.inr (Or.inr ⟨by rw [e, henv], gs ++ gs2, u, uc, by rw [l, hlog, henv]; simp⟩)

theorem stepQueue_shape (view : ViewLayer) (t : Nat) (p : Bool) (Q : List (Option Guard)) :
    ∀ (fuel i : Nat) (x : History),
      QueueShape t x (stepQueue view t p Q fuel i x).1 ∧
      ((stepQueue view t p Q fuel i x).2 = true →
        (stepQueue view t p Q fuel i x).1.env = x.env ∧
        ∃ gs : List Guard, (stepQueue view t p Q fuel i x).1.log =
          x.log ++ gs.map (Effect.guardCalled t)) := by
  intro fuel
  induction fuel with
  | zero =>
    intro i x
    rw [stepQueue]
    exact ⟨queueShape_same t x, fun h => by cases h⟩
  | succ fuel ih =>
    intro i x
    rw [stepQueue]
    by_cases hlen : Q.length ≤ i
    · rw [if_pos hlen]
      exact ⟨queueShape_same t x, fun _ => ⟨rfl, [], by simp⟩⟩
    · rw [if_neg hlen]
      cases hget : Q.get? i with
      | none => exact ih (i + 1) x
      | some o =>
        cases o with
        | none => exact ih (i + 1) x
        | some hook =>
          simp only
          cases htr : x.transitions t with
          | none => exact ⟨queueShape_same t x, fun h => by cases h⟩
          | some tr =>
            simp only
            by_cases hpend : x.pending = some t
            · have hne : (x.pending != some t) = false := by simp [hpend]
              rw [hne]
              simp only [Bool.false_eq_true, if_false]
              by_cases hauto : (hook == Guard.resolveAsync && !hasAsync view tr.activated) = true
              · rw [if_pos hauto]
                obtain ⟨h1, h2⟩ := ih (i + 1)
                  (((x.emit [Effect.guardCalled t hook]).setTransition
                    { tr with invoked := tr.invoked ++ [(p, i)] }).setTransition
                    { tr with invoked := tr.invoked ++ [(p, i)]
                              answered := tr.answered ++ [(p, i)] })
                refine ⟨queueShape_after t x _ _ h1 [hook] rfl
                  (by simp [History.setTransition, History.emit]), ?_⟩
                intro hb
                obtain ⟨e, gs, l⟩ := h2 hb
                exact ⟨e, hook :: gs, by rw [l]; simp [History.setTransition, History.emit]⟩
              · rw [if_neg hauto]
                exact ⟨Or.inl ⟨rfl, [hook], by simp [History.setTransition, History.emit]⟩,
                  fun h => by cases h⟩
            · have hne : (x.pending != some t) = true := by simpa using hpend
              rw [hne]
              simp only [if_true]
              exact ⟨Or.inr (Or.inl ⟨abort_undef_env x tr, [], tr, by rw [abort_log_eq]; simp⟩),
                fun h => by cases h⟩

theorem finishTransition_shape (x : History) (t : Nat) :
    QueueShape t x (finishTransition x t) := by
  unfold finishTransition
  cases htr : x.transitions t with
  | none => exact queueShape_same t x
  | some tr =>
    simp only
    by_cases hpend : x.pending = some t
    · have hne : (x.pending != some t) = false := by simp [hpend]
      rw [hne]
      simp only [Bool.false_eq_true, if_false]
      refine Or.inr (Or.inr ⟨?_, [], tr.route.id, tr.userOnComplete, ?_⟩)
      · rw [complete_env]
        rfl
      · rw [complete_log]
        simp [History.env]
    · have hne : (x.pending != some t) = true := by simpa using hpend
      rw [hne]
      simp only [if_true]
      exact Or.inr (Or.inl ⟨abort_undef_env x tr, [], tr, by rw [abort_log_eq]; simp⟩)

theorem runEnterQueue_shape (view : ViewLayer) (x : History) (t : Nat) :
    QueueShape t x (runEnterQueue view x t) := by
  unfold runEnterQueue
  cases htr : x.transitions t with
  | none => exact queueShape_same t x
  | some tr =>
    simp only
    obtain ⟨h1, h2⟩ := stepQueue_shape view t true (extractEnterGuards view
        tr.activated ++ x.resolveHooks.map (fun h => h.map Guard.beforeResolve))
      ((extractEnterGuards view tr.activated ++
        x.resolveHooks.map (fun h => h.map Guard.beforeResolve)).length + 1) 0
      (x.setTransition { tr with enterQueue := some (extractEnterGuards view
        tr.activated ++ x.resolveHooks.map (fun h => h.map Guard.beforeResolve)) })
    cases hb : (stepQueue view t true (extractEnterGuards view
        tr.activated ++ x.resolveHooks.map (fun h => h.map Guard.beforeResolve))
      ((extractEnterGuards view tr.activated ++
        x.resolveHooks.map (fun h => h.map Guard.beforeResolve)).length + 1) 0
      (x.setTransition { tr with enterQueue := some (extractEnterGuards view
        tr.activated ++ x.resolveHooks.map (fun h => h.map Guard.beforeResolve)) })).2 with
    | false =>
      simp only [Bool.false_eq_true, if_false]
      exact queueShape_after t x _ _ h1 [] rfl (by simp [History.setTransition])
    | true =>
      simp only [if_true]
      obtain ⟨e, gs, l⟩ := h2 hb
      exact queueShape_after t x _ _ (finishTransition_shape _ t) gs (by rw [e]; rfl)
        (by rw [l]; simp [History.setTransition])

theorem continueQueue_shape (view : ViewLayer) (x : History) (t : Nat) (p : Bool) (i : Nat) :
    QueueShape t x (continueQueue view x t p i) := by
  unfold continueQueue
  cases htr : x.transitions t with
  | none => exact queueShape_same t x
  | some tr =>
    simp only
    obtain ⟨h1, h2⟩ := stepQueue_shape view t p (if p = true then tr.enterQueue.getD [] else tr.queue)
      ((if p = true then tr.enterQueue.getD [] else tr.queue).length + 1) i x
    cases hb : (stepQueue view t p (if p = true then tr.enterQueue.getD [] else tr.queue)
      ((if p = true then tr.enterQueue.getD [] else tr.queue).length + 1) i x).2 with
    | false =>
      simp only [Bool.false_eq_true, if_false]
      exact h1
    | true =>
      simp only [if_true]
      obtain ⟨e, gs, l⟩ := h2 hb
      cases p with
      | true =>
        simp only [if_true]
        exact queueShape_after t x _ _ (finishTransition_shape _ t) gs e l
      | false =>
        simp only [Bool.false_eq_true, if_false]
        exact queueShape_after t x _ _ (runEnterQueue_shape view _ t) gs e l

/-! ## The callbacks of `onReady` -/

theorem readyCalls_append (a b : List Effect) :
    readyCalls (a ++ b) = readyCalls a ++ readyCalls b := by
  unfold readyCalls
  rw [List.filterMap_append]

theorem noErrorAbort_append {a b : List Effect} (ha : NoErrorAbort a) (hb : NoErrorAbort b) :
    NoErrorAbort (a ++ b) := fun t err h => by
  rcases List.mem_append.mp h with h | h
  · exact ha t err h
  · exact hb t err h

theorem readyCalls_eq_nil (es : List Effect) (h : ∀ cb t, Effect.readyCb cb t ∉ es) :
    readyCalls es = [] := by
  unfold readyCalls
  induction es with
  | nil => rfl
  | cons e es ih =>
    have ih' := ih (fun cb t hm => h cb t (List.mem_cons_of_mem _ hm))
    cases e with
    | readyCb cb t => exact absurd (List.mem_cons_self _ _) (h cb t)
    | _ => simpa [List.filterMap_cons] using ih'

theorem readyCalls_abortLog (env : HistoryEnv) (tr : Transition) (err : AbortArg) :
    readyCalls (abortLog env tr err) = [] := by
  apply readyCalls_eq_nil
  intro cb t
  unfold abortLog
  cases err <;> cases tr.userOnAbort <;> simp <;> split <;> simp

theorem noComplete_abortLog (env : HistoryEnv) (tr : Transition) (err : AbortArg) :
    NoComplete (abortLog env tr err) := by
  intro t
  unfold abortLog
  cases err <;> cases tr.userOnAbort <;> simp <;> split <;> simp

/-- The calls of `abort(err)` with a truthy `err`: the first `onAbort` in them
gets `err`. -/
theorem abortLog_truthy (env : HistoryEnv) (tr : Transition) (err : AbortArg) :
    ∃ pre post, abortLog env tr err = pre ++ Effect.onAbort tr.route.id err :: post ∧
      NoErrorAbort pre := by
  unfold abortLog
  refine ⟨_, _, by simp only [List.append_assoc, List.singleton_append]; rfl, ?_⟩
  intro t e hmem
  cases err <;> simp at hmem
  split at hmem <;> simp at hmem

theorem readyCalls_completionLog (env : HistoryEnv) (t : Nat) (uc : Option Nat) :
    readyCalls (completionLog env t uc) =
      if env.ready then [] else env.readyCbs.map (fun cb => (cb, t)) := by
  unfold completionLog
  simp only [readyCalls_append]
  have h1 : readyCalls [Effect.onComplete t] = [] := rfl
  have h2 : readyCalls [Effect.listener t] = [] := rfl
  have h3 : readyCalls (env.afterHooks.filterMap
      (fun h => h.map (fun fn => Effect.afterHook fn t))) = [] :=
    readyCalls_eq_nil _ (fun cb u h => by simp at h)
  have h4 : ∀ cb, readyCalls [Effect.userOnComplete t cb] = [] := fun _ => rfl
  have h5 : readyCalls [Effect.ensureURL false] = [] := rfl
  have h0 : readyCalls [] = [] := rfl
  have h6 : ∀ l : List Nat, readyCalls (l.map (fun cb => Effect.readyCb cb t)) =
      l.map (fun cb => (cb, t)) := by
    intro l
    induction l with
    | nil => rfl
    | cons a l ih =>
      simp only [List.map_cons]
      rw [← ih]
      rfl
  rw [h3]
  cases uc <;> cases env.hasListener <;> cases env.ready <;>
    simp [h0, h1, h2, h4, h5, h6]

theorem abort_readyCbs (s : History) (tr : Transition) (err : AbortArg) :
    (abort s tr err).readyCbs = s.readyCbs := by
  obtain ⟨new, b, h, _⟩ := abort_eq s tr err
  rw [h]

/-- C14, as stated, fails when a transition is aborted with an error before
the first commit: the callback 90 is registered by `onReady` while the engine
is not ready; transition 2 is aborted with an error, which calls the error
callback 91 and sets `ready`; transition 3 commits, it is the first to commit,
and the callback 90 is not called, then or ever. -/
theorem ready_callback_lost_after_error :
    Example.notReady.ready = false ∧ 90 ∈ Example.notReady.readyCbs ∧
      (runActions Example.view Example.notReady Example.errorThenCommit).log.filter
          (fun e => e == Effect.onComplete 2 || e == Effect.onComplete 3) =
        [Effect.onComplete 3] ∧
      Effect.readyErrorCb 91 (AbortArg.error 5) ∈
        (runActions Example.view Example.notReady Example.errorThenCommit).log ∧
      readyCalls (runActions Example.view Example.notReady Example.errorThenCommit).log = [] ∧
      (runActions Example.view Example.notReady Example.errorThenCommit).current.route.path =
        "/q".toList := by
  decide

/-! ## Filling a template: missing values -/

/-- The filler throws when it throws at one of its tokens, whatever the path
built so far. -/
theorem tokensToFunction_fails_at (host : CustomGroups) (data : Params) (pretty : Bool) (k : Key)
    (hfail : ∀ (rest : List Token) (path : Str),
      ∃ e, tokensToFunction host (Token.key k :: rest) data pretty path = .error e) :
    ∀ (tokens : List Token) (path : Str), Token.key k ∈ tokens →
      ∃ e, tokensToFunction host tokens data pretty path = .error e := by
  intro tokens
  induction tokens with
  | nil => intro path h; cases h
  | cons tok rest ih =>
    intro path hmem
    cases tok with
    | str s =>
      rw [tokensToFunction]
      exact ih _ (by simpa using hmem)
    | key k' =>
      by_cases hk : k' = k
      · subst hk
        exact hfail rest path
      · have hrest : Token.key k ∈ rest := by
          rcases List.mem_cons.mp hmem with h | h
          · exact absurd (Token.key.inj h).symm hk
          · exact h
        rw [tokensToFunction]
        cases hv : (Dict.get? data k'.name.prop).getD (Value.atom Atom.undef) with
        | atom a =>
          cases a <;> simp only <;> repeat' split
          all_goals first | exact ⟨_, rfl⟩ | exact ih _ hrest
        | arr xs =>
          simp only
          repeat' split
          all_goals first | exact ⟨_, rfl⟩ | exact ih _ hrest

/-- The filler throws at a required token whose value is missing. -/
theorem tokensToFunction_missing (host : CustomGroups) (data : Params) (pretty : Bool) (k : Key)
    (hreq : k.optional = false) (hmiss : isMissing data k = true) (rest : List Token)
    (path : Str) :
    ∃ e, tokensToFunction host (Token.key k :: rest) data pretty path = .error e := by
  rw [tokensToFunction]
  unfold isMissing at hmiss
  cases hv : (Dict.get? data k.name.prop).getD (Value.atom Atom.undef) with
  | atom a =>
    cases a with
    | undef => simp [hreq]
    | null => simp [hreq]
    | str s => rw [hv] at hmiss; cases hmiss
  | arr xs => rw [hv] at hmiss; cases hmiss

/-- C17, amended: for every path template with a required parameter token and
every params object in which `params[token.name]` is `undefined` or `null`, the
filler of `compile` throws; and `fillParams` returns the empty string, provided
the property the token reads is not `0` or `params.pathMatch` is falsy. -/
theorem missing_param_fills_empty (host : CustomGroups) (path : Str) (params : Params) (k : Key)
    (hk : Token.key k ∈ parse path) (hreq : k.optional = false)
    (hmiss : isMissing params k = true) :
    (∀ pretty, ∃ e, compile host path params pretty = .error e) ∧
      ((k.name.prop ≠ "0".toList ∨ hasPathMatch params = false) →
        (fillParams host path params).1 = []) := by
  constructor
  · intro pretty
    exact tokensToFunction_fails_at host params pretty k
      (tokensToFunction_missing host params pretty k hreq hmiss) _ _ hk
  · intro hcond
    unfold fillParams
    simp only
    have hfail : ∀ params1 : Params, isMissing params1 k = true →
        (match compile host path params1 true with
          | .ok p => p
          | .error _ => []) = [] := by
      intro params1 h1
      obtain ⟨e, he⟩ := tokensToFunction_fails_at host params1 true k
        (tokensToFunction_missing host params1 true k hreq h1) _ [] hk
      unfold compile
      rw [he]
    cases hpm : Dict.get? params "pathMatch".toList with
    | none => exact hfail params hmiss
    | some v =>
      simp only
      cases hv : v.truthy with
      | false =>
        simp only [Bool.false_eq_true, if_false]
        exact hfail params hmiss
      | true =>
        simp only [if_true]
        apply hfail
        rcases hcond with hne | hno
        · unfold isMissing at hmiss ⊢
          rw [Dict.get?_set_ne _ _ _ _ (fun h => hne h.symm)]
          exact hmiss
        · unfold hasPathMatch at hno
          rw [hpm] at hno
          simp only at hno
          rw [hv] at hno
          cases hno

/-- C17, as stated, fails for the template `*` and the params object
`{ pathMatch: '/x' }`: the template has the required token `0`, the object has
no property `0`, the filler throws on it, and `fillParams` returns `/x`. -/
theorem missing_wildcard_param_filled_from_pathMatch :
    (∃ k, Token.key k ∈ parse "*".toList ∧ k.optional = false ∧
      isMissing [("pathMatch".toList, Value.atom (Atom.str "/x".toList))] k = true) ∧
      (compile noCustomGroups "*".toList
        [("pathMatch".toList, Value.atom (Atom.str "/x".toList))] true).toOption = none ∧
      (fillParams noCustomGroups "*".toList
        [("pathMatch".toList, Value.atom (Atom.str "/x".toList))]).1 = "/x".toList := by
  refine ⟨⟨_, List.mem_singleton.mpr rfl, by decide, by decide⟩, by decide, by decide⟩

/-- Witness of C17: the template `/user/:id` and the empty params object. -/
theorem missing_param_fills_empty_witness :
    (∀ pretty, ∃ e, compile noCustomGroups "/user/:id".toList [] pretty = .error e) ∧
      (fillParams noCustomGroups "/user/:id".toList []).1 = [] :=
  have h := missing_param_fills_empty noCustomGroups "/user/:id".toList []
    { name := KeyName.named "id".toList, pre := "/".toList, delimiter := "/".toList,
      optional := false, isRepeat := false, isPartial := false, asterisk := false,
      pattern := Pattern.segment "/".toList }
    (by decide) rfl (by decide)
  ⟨h.1, h.2 (Or.inl (by decide))⟩

/-! ## Filling a template: repeat tokens -/

/-- C18, as stated, fails for the template `/:x+` and the params object
`{ x: 'a' }`: the token `x` is a required repeat token, the value is a string
and not an array, and the filler returns `/a`. -/
theorem repeat_token_accepts_scalar :
    (∃ k, parse "/:x+".toList = [Token.key k] ∧ k.isRepeat = true ∧ k.optional = false) ∧
      compile noCustomGroups "/:x+".toList
        [("x".toList, Value.atom (Atom.str "a".toList))] true = .ok "/a".toList ∧
      compile noCustomGroups "/:x+".toList
        [("x".toList, Value.atom (Atom.str "a".toList))] false = .ok "/a".toList := by
  refine ⟨⟨_, rfl, rfl, rfl⟩, rfl, rfl⟩

/-- C18, amended: for every path template and every parameter token of it:
when the token is not a repeat token and the value is an array, the filler
throws; when the token is a required repeat token and the value is the empty
array, the filler throws; when the token is a repeat token and the value is a
string whose encoding matches the pattern of the token, the filler does not
throw at the token: it appends the prefix and the encoded string, as for the
array of that one string. -/
theorem repeat_token_fill (host : CustomGroups) (path : Str) (data : Params) (k : Key)
    (hk : Token.key k ∈ parse path) :
    (k.isRepeat = false → (∃ xs, Dict.get? data k.name.prop = some (Value.arr xs)) →
      ∀ pretty, ∃ e, compile host path data pretty = .error e) ∧
    (k.isRepeat = true → k.optional = false →
      Dict.get? data k.name.prop = some (Value.arr []) →
      ∀ pretty, ∃ e, compile host path data pretty = .error e) ∧
    (k.isRepeat = true → k.asterisk = false →
      ∀ (v : Str) (pretty : Bool) (rest : List Token) (p0 : Str) (data1 : Params),
        Dict.get? data k.name.prop = some (Value.atom (Atom.str v)) →
        Dict.get? data1 k.name.prop = some (Value.arr [Atom.str v]) →
        segmentMatches host k
          ((if pretty then encodeURIComponentPretty else encodeURIComponent) v) = true →
        tokensToFunction host (Token.key k :: rest) data pretty p0 =
            tokensToFunction host rest data pretty
              (p0 ++ k.pre ++ (if pretty then encodeURIComponentPretty else encodeURIComponent) v) ∧
          tokensToFunction host (Token.key k :: rest) data1 pretty p0 =
            tokensToFunction host rest data1 pretty
              (p0 ++ k.pre ++
                (if pretty then encodeURIComponentPretty else encodeURIComponent) v)) := by
  refine ⟨?_, ?_, ?_⟩
  · intro hrep hval pretty
    obtain ⟨xs, hxs⟩ := hval
    apply tokensToFunction_fails_at host data pretty k _ _ _ hk
    intro rest p
    rw [tokensToFunction, hxs]
    simp [hrep]
  · intro hrep hreq hval pretty
    apply tokensToFunction_fails_at host data pretty k _ _ _ hk
    intro rest p
    rw [tokensToFunction, hval]
    simp [hrep, hreq]
  · intro hrep hast v pretty rest p0 data1 hv hv1 hseg
    constructor
    · rw [tokensToFunction, hv]
      simp only [Option.getD_some, hast, Bool.false_eq_true, if_false, hseg, Bool.not_true]
    · rw [tokensToFunction, hv1]
      simp only [Option.getD_some, hrep, Bool.not_true, Bool.false_eq_true, if_false,
        List.isEmpty_cons, fillRepeat, Atom.toStr, hseg, if_true]

/-- Witness of C18: the template `/:x+`. -/
theorem repeat_token_fill_witness :
    (∀ pretty, ∃ e, compile noCustomGroups "/:x+".toList
        [("x".toList, Value.arr [])] pretty = .error e) ∧
      tokensToFunction noCustomGroups (parse "/:x+".toList)
          [("x".toList, Value.atom (Atom.str "a".toList))] true [] =
        tokensToFunction noCustomGroups []
          [("x".toList, Value.atom (Atom.str "a".toList))] true "/a".toList :=
  have h := repeat_token_fill noCustomGroups "/:x+".toList [("x".toList, Value.arr [])]
    { name := KeyName.named "x".toList, pre := "/".toList, delimiter := "/".toList,
      optional := false, isRepeat := true, isPartial := false, asterisk := false,
      pattern := Pattern.segment "/".toList } (by decide)
  have h2 := repeat_token_fill noCustomGroups "/:x+".toList
    [("x".toList, Value.atom (Atom.str "a".toList))]
    { name := KeyName.named "x".toList, pre := "/".toList, delimiter := "/".toList,
      optional := false, isRepeat := true, isPartial := false, asterisk := false,
      pattern := Pattern.segment "/".toList } (by decide)
  ⟨h.2.1 rfl rfl rfl,
    (h2.2.2 rfl rfl "a".toList true [] [] [("x".toList, Value.arr [Atom.str "a".toList])]
      rfl rfl (by decide)).1⟩

/-! ## The parameter `pathMatch` -/

theorem Dict.get?_set_same {α : Type} (d : Dict α) (k : Str) (v : α) :
    Dict.get? (Dict.set d k v) k = some v := by
  induction d with
  | nil => simp [Dict.set_nil, Dict.get?_cons]
  | cons kv rest ih =>
    obtain ⟨k0, v0⟩ := kv
    rw [Dict.set_cons]
    by_cases h : k0 = k
    · rw [if_pos h, Dict.get?_cons, if_pos h]
    · rw [if_neg h, Dict.get?_cons, if_neg h, ih]

/-- The loop of `matchRoute` leaves alone the properties none of its keys
names. -/
theorem matchRouteLoop_untouched (nm : Str) :
    ∀ (ms : List (Option Str)) (keys : List Key) (params p : Params),
      (∀ k ∈ keys, k.name.orPathMatch ≠ nm) →
      matchRouteLoop ms keys params = .ok p → Dict.get? p nm = Dict.get? params nm := by
  intro ms
  induction ms with
  | nil =>
    intro keys params p _ h
    rw [matchRouteLoop] at h
    rw [← Except.ok.inj h]
  | cons m ms ih =>
    intro keys params p hk h
    cases keys with
    | nil =>
      rw [matchRouteLoop] at h
      exact ih [] params p (fun _ hm => by cases hm) h
    | cons k keys =>
      have hne : k.name.orPathMatch ≠ nm := hk k (List.mem_cons_self _ _)
      have hrest : ∀ k' ∈ keys, k'.name.orPathMatch ≠ nm :=
        fun k' hm => hk k' (List.mem_cons_of_mem _ hm)
      cases m with
      | none =>
        simp only [matchRouteLoop] at h
        rw [ih keys _ p hrest h, Dict.get?_set_ne _ _ _ _ hne]
      | some text =>
        simp only [matchRouteLoop] at h
        cases hd : decodeURIComponent text with
        | none => rw [hd] at h; cases h
        | some v =>
          rw [hd] at h
          simp only at h
          rw [ih keys _ p hrest h, Dict.get?_set_ne _ _ _ _ hne]

/-- The loop of `matchRoute` binds the property a key names to the decoded
capture of the key, when no later key names the same property. -/
theorem matchRouteLoop_binds (nm : Str) :
    ∀ (pre : List Key) (ms : List (Option Str)) (k : Key) (post : List Key) (params p : Params)
      (text : Str),
      k.name.orPathMatch = nm → (∀ k' ∈ post, k'.name.orPathMatch ≠ nm) →
      ms.get? pre.length = some (some text) →
      matchRouteLoop ms (pre ++ k :: post) params = .ok p →
      ∃ v, decodeURIComponent text = some v ∧
        Dict.get? p nm = some (Value.atom (Atom.str v)) := by
  intro pre
  induction pre with
  | nil =>
    intro ms k post params p text hnm hpost hget h
    cases ms with
    | nil => cases hget
    | cons m ms =>
      simp only [List.length_nil, List.get?_cons_zero, Option.some.injEq] at hget
      subst hget
      simp only [List.nil_append, matchRouteLoop] at h
      cases hd : decodeURIComponent text with
      | none => rw [hd] at h; cases h
      | some v =>
        rw [hd] at h
        simp only at h
        refine ⟨v, rfl, ?_⟩
        rw [matchRouteLoop_untouched nm ms post _ p hpost h, hnm, Dict.get?_set_same]
  | cons k0 pre ih =>
    intro ms k post params p text hnm hpost hget h
    cases ms with
    | nil => cases hget
    | cons m ms =>
      simp only [List.length_cons, List.get?_cons_succ] at hget
      simp only [List.cons_append] at h
      cases m with
      | none =>
        simp only [matchRouteLoop] at h
        exact ih ms k post _ p text hnm hpost hget h
      | some t0 =>
        simp only [matchRouteLoop] at h
        cases hd : decodeURIComponent t0 with
        | none => rw [hd] at h; cases h
        | some v0 =>
          rw [hd] at h
          simp only at h
          exact ih ms k post _ p text hnm hpost hget h

/-- C19, as stated, fails for the second wildcard of the route path
`/a/*/b/*`: on the path `/a/x/b/y` the two wildcards capture `x` and `y`;
`matchRoute` binds `pathMatch` to `x` and binds `y`, the text of the second
wildcard, to the name `1`. -/
theorem second_wildcard_not_pathMatch :
    (pathToRegexp "/a/*/b/*".toList {}).keys.map (fun k => (k.name, k.asterisk)) =
        [(KeyName.index 0, true), (KeyName.index 1, true)] ∧
      (pathToRegexp "/a/*/b/*".toList {}).exec noCustomGroups "/a/x/b/y".toList =
        some [some "x".toList, some "y".toList] ∧
      (matchRoute noCustomGroups (pathToRegexp "/a/*/b/*".toList {}) "/a/x/b/y".toList
          []).toOption =
        some (some [("pathMatch".toList, Value.atom (Atom.str "x".toList)),
                    ("1".toList, Value.atom (Atom.str "y".toList))]) := by
  decide

/-! ## The URI codec: decoding what was encoded -/

theorem hexValue_hexDigit (d : Nat) (h : d < 16) : hexValue (hexDigit d) = some d := by
  interval_cases d <;> rfl

theorem hexDigit_not_escaped (d : Nat) (h : d < 16) :
    (hexDigit d == '/' || hexDigit d == '?' || hexDigit d == '#') = false := by
  interval_cases d <;> decide

theorem readOctet_percentOctet (n : Nat) (h : n < 256) (rest : Str) :
    readOctet (percentOctet n ++ rest) = some (n, rest) := by
  unfold percentOctet
  simp only [List.cons_append, List.nil_append, readOctet]
  rw [hexValue_hexDigit (n / 16) (by omega), hexValue_hexDigit (n % 16) (by omega)]
  simp only [Option.some.injEq, Prod.mk.injEq, and_true]
  omega

theorem encodeURIComponentPretty_cons (c : Char) (v : Str) :
    encodeURIComponentPretty (c :: v) = encodePrettyChar c ++ encodeURIComponentPretty v := by
  unfold encodeURIComponentPretty encodePrettyChar encodeURI encodeWith escapeChars
  simp only [List.flatMap_cons, List.flatMap_append]

theorem escapeChars_percentOctet (n : Nat) (h : n < 256) :
    escapeChars (fun c => c == '/' || c == '?' || c == '#') (percentOctet n) = percentOctet n := by
  unfold escapeChars percentOctet
  have h1 := hexDigit_not_escaped (n / 16) (by omega)
  have h2 := hexDigit_not_escaped (n % 16) (by omega)
  have h0 : ('%' == '/' || '%' == '?' || '%' == '#') = false := by decide
  simp only [List.flatMap_cons, List.flatMap_nil, List.append_nil, h0, h1, h2,
    Bool.false_eq_true, if_false, List.singleton_append]

theorem escapeChars_append (bad : Char → Bool) (a b : Str) :
    escapeChars bad (a ++ b) = escapeChars bad a ++ escapeChars bad b := by
  unfold escapeChars
  rw [List.flatMap_append]

theorem utf8Octets_lt (c : Char) : ∀ n ∈ utf8Octets c, n < 256 := by
  have hv : c.toNat < 55296 ∨ 57343 < c.toNat ∧ c.toNat < 1114112 := c.valid
  intro n hn
  unfold utf8Octets at hn
  simp only at hn
  split at hn
  · simp only [List.mem_singleton] at hn; omega
  · split at hn
    · simp only [List.mem_cons, List.mem_singleton, List.not_mem_nil, or_false] at hn; omega
    · split at hn
      · simp only [List.mem_cons, List.mem_singleton, List.not_mem_nil, or_false] at hn; omega
      · simp only [List.mem_cons, List.mem_singleton, List.not_mem_nil, or_false] at hn; omega

theorem escapeChars_octets (l : List Nat) (h : ∀ n ∈ l, n < 256) :
    escapeChars (fun c => c == '/' || c == '?' || c == '#') (l.flatMap percentOctet) =
      l.flatMap percentOctet := by
  induction l with
  | nil => rfl
  | cons n l ih =>
    rw [List.flatMap_cons, escapeChars_append, escapeChars_percentOctet n (h n (by simp)),
      ih (fun m hm => h m (by simp [hm]))]

/-- Decoding one escape `%XX`. -/
theorem decodeAux_percent (fuel b : Nat) (rest1 : Str) (hb : b < 256) :
    decodeURIComponentAux (fuel + 1) (percentOctet b ++ rest1) =
      if b < 128 then (decodeURIComponentAux fuel rest1).map (fun t => Char.ofNat b :: t)
      else
        match (if b / 32 = 6 then
            (readContinuation 1 (b % 32) rest1).bind
              (fun r => if 128 ≤ r.1 then some r else none)
          else if b / 16 = 14 then
            (readContinuation 2 (b % 16) rest1).bind
              (fun r => if 2048 ≤ r.1 ∧ ¬ (55296 ≤ r.1 ∧ r.1 ≤ 57343) then some r else none)
          else if b / 8 = 30 then
            (readContinuation 3 (b % 8) rest1).bind
              (fun r => if 65536 ≤ r.1 ∧ r.1 ≤ 1114111 then some r else none)
          else none : Option (Nat × Str)) with
        | none => none
        | some (v, rest2) =>
          (decodeURIComponentAux fuel rest2).map (fun t => Char.ofNat v :: t) := by
  have hro := readOctet_percentOctet b hb rest1
  unfold percentOctet at hro ⊢
  simp only [List.cons_append, List.nil_append] at hro ⊢
  rw [decodeURIComponentAux]
  simp only [ne_eq, not_true_eq_false, if_false, hro]

theorem readContinuation_one (acc b : Nat) (rest : Str) (hb : b < 64) :
    readContinuation 1 acc (percentOctet (128 + b) ++ rest) = some (acc * 64 + b, rest) := by
  rw [readContinuation, readOctet_percentOctet (128 + b) (by omega) rest]
  simp only
  rw [if_pos (by omega), readContinuation]
  congr 2
  omega

theorem readContinuation_two (acc b1 b2 : Nat) (rest : Str) (h1 : b1 < 64) (h2 : b2 < 64) :
    readContinuation 2 acc (percentOctet (128 + b1) ++ (percentOctet (128 + b2) ++ rest)) =
      some ((acc * 64 + b1) * 64 + b2, rest) := by
  rw [readContinuation, readOctet_percentOctet (128 + b1) (by omega)]
  simp only
  rw [if_pos (by omega)]
  have : (128 + b1) % 64 = b1 := by omega
  rw [this, readContinuation_one _ b2 rest h2]

theorem readContinuation_three (acc b1 b2 b3 : Nat) (rest : Str) (h1 : b1 < 64) (h2 : b2 < 64)
    (h3 : b3 < 64) :
    readContinuation 3 acc (percentOctet (128 + b1) ++ (percentOctet (128 + b2) ++
        (percentOctet (128 + b3) ++ rest))) =
      some (((acc * 64 + b1) * 64 + b2) * 64 + b3, rest) := by
  rw [readContinuation, readOctet_percentOctet (128 + b1) (by omega)]
  simp only
  rw [if_pos (by omega)]
  have : (128 + b1) % 64 = b1 := by omega
  rw [this, readContinuation_two _ b2 b3 rest h2 h3]

theorem flatMap_percentOctet_two (a b : Nat) (rest : Str) :
    [a, b].flatMap percentOctet ++ rest = percentOctet a ++ (percentOctet b ++ rest) := by
  simp [List.flatMap_cons]

theorem flatMap_percentOctet_three (a b c : Nat) (rest : Str) :
    [a, b, c].flatMap percentOctet ++ rest =
      percentOctet a ++ (percentOctet b ++ (percentOctet c ++ rest)) := by
  simp [List.flatMap_cons]

theorem flatMap_percentOctet_four (a b c d : Nat) (rest : Str) :
    [a, b, c, d].flatMap percentOctet ++ rest =
      percentOctet a ++ (percentOctet b ++ (percentOctet c ++ (percentOctet d ++ rest))) := by
  simp [List.flatMap_cons]

/-- Decoding the escapes of the UTF-8 octets of a character gives the
character back. -/
theorem decodeAux_utf8 (fuel : Nat) (c : Char) (rest : Str) :
    decodeURIComponentAux (fuel + 1) ((utf8Octets c).flatMap percentOctet ++ rest) =
      (decodeURIComponentAux fuel rest).map (fun t => c :: t) := by
  have hv : c.toNat < 55296 ∨ 57343 < c.toNat ∧ c.toNat < 1114112 := c.valid
  have hc : Char.ofNat c.toNat = c := Char.ofNat_toNat c
  unfold utf8Octets
  simp only
  generalize hn : c.toNat = n at hv hc
  by_cases h1 : n < 128
  · rw [if_pos h1]
    have e : [n].flatMap percentOctet ++ rest = percentOctet n ++ rest := by
      simp [List.flatMap_cons]
    rw [e, decodeAux_percent fuel n rest (by omega), if_pos h1, hc]
  · rw [if_neg h1]
    by_cases h2 : n < 2048
    · rw [if_pos h2, flatMap_percentOctet_two,
        decodeAux_percent fuel _ _ (by omega), if_neg (by omega), if_pos (by omega),
        readContinuation_one _ (n % 64) rest (by omega)]
      have e : (192 + n / 64) % 32 * 64 + n % 64 = n := by omega
      simp only [Option.bind, e]
      rw [if_pos (by omega)]
      simp only [hc]
    · rw [if_neg h2]
      by_cases h3 : n < 65536
      · rw [if_pos h3, flatMap_percentOctet_three,
          decodeAux_percent fuel _ _ (by omega), if_neg (by omega), if_neg (by omega),
          if_pos (by omega),
          readContinuation_two _ (n / 64 % 64) (n % 64) rest (by omega) (by omega)]
        have e : ((224 + n / 4096) % 16 * 64 + n / 64 % 64) * 64 + n % 64 = n := by omega
        simp only [Option.bind, e]
        rw [if_pos ⟨by omega, by omega⟩]
        simp only [hc]
      · rw [if_neg h3, flatMap_percentOctet_four,
          decodeAux_percent fuel _ _ (by omega), if_neg (by omega), if_neg (by omega),
          if_neg (by omega), if_pos (by omega),
          readContinuation_three _ (n / 4096 % 64) (n / 64 % 64) (n % 64) rest (by omega)
            (by omega) (by omega)]
        have e : (((240 + n / 262144) % 8 * 64 + n / 4096 % 64) * 64 + n / 64 % 64) * 64 +
            n % 64 = n := by omega
        simp only [Option.bind, e]
        rw [if_pos ⟨by omega, by omega⟩]
        simp only [hc]

theorem escapeChars_singleton (bad : Char → Bool) (c : Char) :
    escapeChars bad [c] = if bad c then percentOctet c.toNat else [c] := by
  simp [escapeChars]

/-- Decoding what `encodeURIComponentPretty` makes of a character gives the
character back. -/
theorem decodeAux_prettyChar (fuel : Nat) (c : Char) (rest : Str) :
    decodeURIComponentAux (fuel + 1) (encodePrettyChar c ++ rest) =
      (decodeURIComponentAux fuel rest).map (fun t => c :: t) := by
  unfold encodePrettyChar
  by_cases hk : (uriUnescaped c || uriReserved c) = true
  · rw [if_pos hk]
    by_cases hb : (c == '/' || c == '?' || c == '#') = true
    · have hlt : c.toNat < 128 := by
        simp only [Bool.or_eq_true, beq_iff_eq] at hb
        rcases hb with (rfl | rfl) | rfl <;> decide
      have e : escapeChars (fun c => c == '/' || c == '?' || c == '#') [c] =
          percentOctet c.toNat := by
        rw [escapeChars_singleton]
        exact if_pos hb
      rw [e, decodeAux_percent fuel _ rest (by omega), if_pos hlt, Char.ofNat_toNat]
    · have e : escapeChars (fun c => c == '/' || c == '?' || c == '#') [c] = [c] := by
        rw [escapeChars_singleton]
        exact if_neg hb
      have hne : c ≠ '%' := by
        intro h
        rw [h] at hk
        exact absurd hk (by decide)
      rw [e, List.singleton_append, decodeURIComponentAux]
      simp only [ne_eq, hne, not_false_eq_true, if_true]
  · rw [if_neg hk, escapeChars_octets _ (utf8Octets_lt c)]
    exact decodeAux_utf8 fuel c rest

theorem decodeAux_nil (fuel : Nat) : decodeURIComponentAux fuel [] = some [] := by
  cases fuel <;> rfl

/-- Decoding what `encodeURIComponentPretty` returns gives the string back. -/
theorem decodeAux_pretty (v : Str) :
    ∀ fuel, v.length ≤ fuel →
      decodeURIComponentAux fuel (encodeURIComponentPretty v) = some v := by
  induction v with
  | nil => intro fuel _; exact decodeAux_nil fuel
  | cons c v ih =>
    intro fuel hf
    cases fuel with
    | zero => simp at hf
    | succ fuel =>
      rw [encodeURIComponentPretty_cons, decodeAux_prettyChar,
        ih fuel (by simpa using hf)]
      rfl

theorem encodePrettyChar_length (c : Char) : 1 ≤ (encodePrettyChar c).length := by
  unfold encodePrettyChar
  by_cases hk : (uriUnescaped c || uriReserved c) = true
  · rw [if_pos hk]
    rw [escapeChars_singleton]
    split
    · simp [percentOctet]
    · simp
  · rw [if_neg hk, escapeChars_octets _ (utf8Octets_lt c)]
    unfold utf8Octets
    simp only
    split
    · simp [percentOctet]
    · split
      · simp [percentOctet]
      · split <;> simp [percentOctet]

theorem encodeURIComponentPretty_length (v : Str) :
    v.length ≤ (encodeURIComponentPretty v).length := by
  induction v with
  | nil => simp
  | cons c v ih =>
    rw [encodeURIComponentPretty_cons, List.length_append, List.length_cons]
    have := encodePrettyChar_length c
    omega

/-- The host decodes what `encodeURIComponentPretty` returns to the string
encoded. -/
theorem decode_encodePretty (v : Str) :
    decodeURIComponent (encodeURIComponentPretty v) = some v :=
  decodeAux_pretty v _ (encodeURIComponentPretty_length v)

/-! ## Filling a template and matching the result -/

theorem charEq_self (ic : Bool) (c : Char) : charEq ic c c = true := by
  unfold charEq
  split <;> simp

theorem canonicalize_ne_slash (d : Char) (h : d ≠ '/') : canonicalize d ≠ '/' := by
  unfold canonicalize
  split
  · rename_i hr
    have hd : Char.ofNat d.toNat = d := Char.ofNat_toNat d
    generalize d.toNat = n at hr hd
    obtain ⟨h1, h2⟩ := hr
    interval_cases n <;> decide
  · exact h

theorem charEq_slash (ic : Bool) (d : Char) (h : d ≠ '/') : charEq ic '/' d = false := by
  unfold charEq
  split
  · have h1 : canonicalize '/' = '/' := by decide
    rw [h1]
    have := canonicalize_ne_slash d h
    simp only [beq_eq_false_iff_ne, ne_eq]
    exact fun e => this e.symm
  · simp only [beq_eq_false_iff_ne, ne_eq]
    exact fun e => h e.symm

theorem run_chr_same (host : CustomGroups) (ic : Bool) (c : Char) (x : Str)
    (caps : List (Nat × Str)) :
    Re.run host ic (Re.chr c) { rest := c :: x, caps := caps } =
      [{ rest := x, caps := caps }] := by
  simp [Re.run, charEq_self]

theorem run_chr_slash_other (host : CustomGroups) (ic : Bool) (d : Char) (x : Str)
    (caps : List (Nat × Str)) (h : d ≠ '/') :
    Re.run host ic (Re.chr '/') { rest := d :: x, caps := caps } = [] := by
  simp [Re.run, charEq_slash ic d h]

theorem run_noneOf_other (host : CustomGroups) (ic : Bool) (d : Char) (x : Str)
    (caps : List (Nat × Str)) (h : d ≠ '/') :
    Re.run host ic (Re.noneOf ['/']) { rest := d :: x, caps := caps } =
      [{ rest := x, caps := caps }] := by
  simp [Re.run, charEq_slash ic d h]

theorem run_noneOf_slash (host : CustomGroups) (ic : Bool) (x : Str)
    (caps : List (Nat × Str)) :
    Re.run host ic (Re.noneOf ['/']) { rest := '/' :: x, caps := caps } = [] := by
  simp [Re.run, charEq_self]

theorem run_noneOf_nil (host : CustomGroups) (ic : Bool) (cs : Str)
    (caps : List (Nat × Str)) :
    Re.run host ic (Re.noneOf cs) { rest := [], caps := caps } = [] := rfl

theorem run_noneOf_end (host : CustomGroups) (ic : Bool) (r : Str) (hr : SlashOrEnd r)
    (caps : List (Nat × Str)) :
    Re.run host ic (Re.noneOf ['/']) { rest := r, caps := caps } = [] := by
  rcases hr with rfl | ⟨r1, rfl⟩
  · exact run_noneOf_nil host ic _ caps
  · exact run_noneOf_slash host ic r1 caps

/-! ### Lists of pieces -/

theorem run_catAll_cons (host : CustomGroups) (ic : Bool) (a : Re) (ps : List Re) (s : MState) :
    Re.run host ic (Re.catAll (a :: ps)) s =
      (Re.run host ic a s).flatMap (Re.run host ic (Re.catAll ps)) := by
  cases ps with
  | nil =>
    have e : Re.run host ic (Re.catAll []) = fun t => [t] := rfl
    rw [e]
    simp [Re.catAll]
  | cons b ps => rfl

theorem runThen_nil (host : CustomGroups) (ic : Bool) (K : MState → List MState) (s : MState) :
    runThen host ic [] K s = K s := by
  simp [runThen, Re.catAll, Re.run]

theorem runThen_cons (host : CustomGroups) (ic : Bool) (a : Re) (ps : List Re)
    (K : MState → List MState) (s : MState) :
    runThen host ic (a :: ps) K s = (Re.run host ic a s).flatMap (runThen host ic ps K) := by
  unfold runThen
  rw [run_catAll_cons, List.flatMap_assoc]

theorem runThen_append (host : CustomGroups) (ic : Bool) (ps qs : List Re)
    (K : MState → List MState) :
    ∀ s, runThen host ic (ps ++ qs) K s = runThen host ic ps (runThen host ic qs K) s := by
  induction ps with
  | nil => intro s; rw [List.nil_append, runThen_nil]
  | cons a ps ih =>
    intro s
    rw [List.cons_append, runThen_cons, runThen_cons]
    congr 1
    funext t
    exact ih t

theorem run_catAll_append (host : CustomGroups) (ic : Bool) (ps qs : List Re) (s : MState) :
    Re.run host ic (Re.catAll (ps ++ qs)) s =
      runThen host ic ps (Re.run host ic (Re.catAll qs)) s := by
  have h := runThen_append host ic ps qs (fun t => [t]) s
  have e : ∀ (l : List Re) (t : MState),
      runThen host ic l (fun t => [t]) t = Re.run host ic (Re.catAll l) t := by
    intro l t
    simp [runThen]
  rw [e] at h
  rw [h]
  congr 1
  funext t
  exact e qs t

/-- Literal text matches itself. -/
theorem runThen_literal (host : CustomGroups) (ic : Bool) (K : MState → List MState)
    (x : Str) (caps : List (Nat × Str)) :
    ∀ s : Str, runThen host ic (literalRe s) K { rest := s ++ x, caps := caps } =
      K { rest := x, caps := caps } := by
  intro s
  induction s with
  | nil => exact runThen_nil host ic K _
  | cons c s ih =>
    have e : literalRe (c :: s) = Re.chr c :: literalRe s := rfl
    rw [e, runThen_cons, List.cons_append, run_chr_same]
    simp only [List.flatMap_cons, List.flatMap_nil, List.append_nil]
    exact ih

theorem rejects_slash_first (host : CustomGroups) (ic : Bool) (ps : List Re)
    (K : MState → List MState) :
    RejectsNonSlash (runThen host ic (Re.chr '/' :: ps) K) := by
  intro d r caps hd
  rw [runThen_cons, run_chr_slash_other host ic d r caps hd]
  rfl

/-! ### The lazy pattern of a segment -/

theorem lazy_segment (host : CustomGroups) (ic : Bool) (G : MState → List MState)
    (hG : RejectsNonSlash G) (r : Str) (hr : SlashOrEnd r) :
    ∀ (w : Str) (fuel : Nat) (caps : List (Nat × Str)), w.length ≤ fuel →
      (∀ d ∈ w, d ≠ '/') →
      (starLoop (Re.run host ic (Re.noneOf ['/'])) false fuel
          { rest := w ++ r, caps := caps }).flatMap G = G { rest := r, caps := caps } := by
  intro w
  induction w with
  | nil =>
    intro fuel caps _ _
    cases fuel with
    | zero => simp [starLoop]
    | succ f =>
      simp [starLoop, run_noneOf_end host ic r hr caps]
  | cons d w ih =>
    intro fuel caps hf hns
    cases fuel with
    | zero => simp at hf
    | succ f =>
      have hd : d ≠ '/' := hns d (by simp)
      have h1 := run_noneOf_other host ic d (w ++ r) caps hd
      have h2 := ih f caps (by simpa using hf) (fun c hc => hns c (by simp [hc]))
      have h3 : G { rest := d :: (w ++ r), caps := caps } = [] := hG d (w ++ r) caps hd
      simp only [starLoop, List.cons_append, h1, Bool.false_eq_true, if_false,
        List.flatMap_cons, h3, List.nil_append]
      simp only [List.filter_cons, List.length_cons, Nat.lt_succ_self, decide_True, if_true,
        List.filter_nil, List.flatMap_cons, List.flatMap_nil, List.append_nil]
      exact h2

theorem keyRe_plain (k : Key) (hk : k.isPlain = true) (idx : Nat) :
    keyRe k idx = Re.cat (Re.chr '/') (Re.group idx
      (Re.cat (Re.noneOf ['/']) (Re.star false (Re.noneOf ['/'])))) := by
  unfold Key.isPlain at hk
  simp only [Bool.and_eq_true, beq_iff_eq, Bool.not_eq_true'] at hk
  obtain ⟨⟨⟨⟨⟨hpre, hopt⟩, hrep⟩, _⟩, hpat⟩, _⟩ := hk
  unfold keyRe
  simp only [hpre, hopt, hrep, hpat, Bool.false_eq_true, if_false]
  rfl

/-- A plain parameter matches `/` and the whole of a segment when what
follows the pattern fails inside the segment. -/
theorem run_plainKey (host : CustomGroups) (ic : Bool) (k : Key) (hk : k.isPlain = true)
    (idx : Nat) (K : MState → List MState) (hK : RejectsNonSlash K) (w r : Str)
    (caps : List (Nat × Str)) (hw : w ≠ []) (hns : ∀ d ∈ w, d ≠ '/') (hr : SlashOrEnd r) :
    (Re.run host ic (keyRe k idx) { rest := '/' :: (w ++ r), caps := caps }).flatMap K =
      K { rest := r, caps := (idx, w) :: caps } := by
  rw [keyRe_plain k hk idx, Re.run_cat, run_chr_same]
  simp only [List.flatMap_cons, List.flatMap_nil, List.append_nil]
  rw [Re.run_group, List.flatMap_map]
  cases w with
  | nil => exact absurd rfl hw
  | cons c w =>
    have hc : c ≠ '/' := hns c (by simp)
    rw [Re.run_cat, List.cons_append, run_noneOf_other host ic c (w ++ r) caps hc]
    simp only [List.flatMap_cons, List.flatMap_nil, List.append_nil]
    rw [Re.run_star]
    have hG : RejectsNonSlash (fun t : MState =>
        K { rest := t.rest, caps := (idx, (c :: (w ++ r)).take
          ((c :: (w ++ r)).length - t.rest.length)) :: t.caps }) := by
      intro d r1 caps1 hd
      exact hK d r1 _ hd
    have h := lazy_segment host ic _ hG r hr w (w ++ r).length caps (by simp)
      (fun d hd => hns d (by simp [hd]))
    simp only at h ⊢
    rw [h]
    congr 3
    have : (c :: (w ++ r)).length - r.length = (c :: w).length := by
      simp only [List.length_cons, List.length_append]
      omega
    rw [this]
    have e : c :: (w ++ r) = (c :: w) ++ r := rfl
    rw [e, List.take_left]

/-! ### Plain templates: the regex and the filler, token by token -/

theorem tokensToRoute_eq : ∀ (tokens : List Token) (route : List Re) (keys : List Key),
    tokensToRoute tokens route keys =
      (route ++ routePieces tokens keys.length, keys ++ tokenKeys tokens) := by
  intro tokens
  induction tokens with
  | nil => intro route keys; simp [tokensToRoute, routePieces, tokenKeys]
  | cons t rest ih =>
    intro route keys
    cases t with
    | str s => simp [tokensToRoute, routePieces, tokenKeys, ih]
    | key k => simp [tokensToRoute, routePieces, tokenKeys, ih]

theorem plainKey_pre (k : Key) (hk : k.isPlain = true) : k.pre = ['/'] := by
  unfold Key.isPlain at hk
  simp only [Bool.and_eq_true, beq_iff_eq, Bool.not_eq_true'] at hk
  exact hk.1.1.1.1.1

theorem plainKey_fields (k : Key) (hk : k.isPlain = true) :
    k.optional = false ∧ k.isRepeat = false ∧ k.asterisk = false ∧
      k.pattern = Pattern.segment ['/'] := by
  unfold Key.isPlain at hk
  simp only [Bool.and_eq_true, beq_iff_eq, Bool.not_eq_true'] at hk
  exact ⟨hk.1.1.1.1.2, hk.1.1.1.2, hk.1.1.2, hk.1.2⟩

theorem plainKey_name (k : Key) (hk : k.isPlain = true) :
    k.name.orPathMatch = k.name.prop := by
  unfold Key.isPlain at hk
  simp only [Bool.and_eq_true] at hk
  have h := hk.2
  cases hn : k.name with
  | named s =>
    rw [hn] at h
    simp only [Bool.not_eq_true'] at h
    simp [KeyName.orPathMatch, KeyName.prop, h]
  | index i =>
    rw [hn] at h
    cases h

/-- The test of the filler accepts a non-empty segment without `/`. -/
theorem segmentMatches_plain (host : CustomGroups) (k : Key) (hk : k.isPlain = true)
    (w : Str) (hw : w ≠ []) (hns : ∀ d ∈ w, d ≠ '/') : segmentMatches host k w = true := by
  unfold segmentMatches Re.exec
  rw [(plainKey_fields k hk).2.2.2]
  cases w with
  | nil => exact absurd rfl hw
  | cons c w =>
    have hc : c ≠ '/' := hns c (by simp)
    have hG : RejectsNonSlash (Re.run host false Re.eol) := by
      intro d r caps _
      rfl
    have h := lazy_segment host false _ hG [] (Or.inl rfl) w w.length [] (Nat.le_refl _)
      (fun d hd => hns d (by simp [hd]))
    rw [List.append_nil] at h
    have e : Re.run host false (Re.cat (Pattern.segment ['/']).toRe Re.eol)
        { rest := c :: w, caps := [] } = [{ rest := [], caps := [] }] := by
      simp only [Pattern.toRe]
      rw [Re.run_cat, Re.run_cat, run_noneOf_other host false c w [] hc]
      simp only [List.flatMap_cons, List.flatMap_nil, List.append_nil]
      rw [Re.run_star, h]
      rfl
    rw [e]
    rfl

/-- The filler on the tokens of a plain template whose parameters all have a
non-empty string: it appends the text and the encoded values. -/
theorem tokensToFunction_plain (host : CustomGroups) (params : Params) (pretty : Bool)
    (henc : ∀ v : Str, v ≠ [] →
      (if pretty then encodeURIComponentPretty else encodeURIComponent) v ≠ [] ∧
        ∀ d ∈ (if pretty then encodeURIComponentPretty else encodeURIComponent) v, d ≠ '/') :
    ∀ tokens : List Token, plainTokens tokens = true →
      (∀ k, Token.key k ∈ tokens → ∃ v, v ≠ [] ∧
        Dict.get? params k.name.prop = some (Value.atom (Atom.str v))) →
      ∀ acc : Str, tokensToFunction host tokens params pretty acc =
        .ok (acc ++ filledText (if pretty then encodeURIComponentPretty else encodeURIComponent)
          params tokens) := by
  intro tokens
  induction tokens with
  | nil => intro _ _ acc; simp [tokensToFunction, filledText]
  | cons t rest ih =>
    intro hp hval acc
    cases t with
    | str s =>
      simp only [plainTokens, Bool.and_eq_true] at hp
      rw [tokensToFunction, ih hp.2 (fun k hk => hval k (by simp [hk]))]
      simp [filledText]
    | key k =>
      simp only [plainTokens, Bool.and_eq_true] at hp
      obtain ⟨⟨hk, _⟩, hrest⟩ := hp
      obtain ⟨v, hv, hget⟩ := hval k (by simp)
      obtain ⟨_, _, hast, _⟩ := plainKey_fields k hk
      have hpt : paramText params k = v := by
        unfold paramText
        rw [hget]
      have hseg := segmentMatches_plain host k hk _ (henc v hv).1 (henc v hv).2
      rw [tokensToFunction, hget]
      simp only [Option.getD_some, hast, Bool.false_eq_true, if_false, hseg, Bool.not_true]
      rw [ih hrest (fun k hk => hval k (by simp [hk]))]
      simp [filledText, hpt]

theorem lastIsKey_cons (t t1 : Token) (rest : List Token) :
    lastIsKey (t :: t1 :: rest) = lastIsKey (t1 :: rest) := by
  cases t <;> rfl

theorem lastIsKey_of_tail (t : Token) (rest : List Token) (h : lastIsKey rest = true) :
    lastIsKey (t :: rest) = true := by
  cases rest with
  | nil => cases h
  | cons t1 rest => rw [lastIsKey_cons]; exact h

/-- What follows a parameter in a plain template starts with `/`, in the
regex and in the filled text. -/
theorem follows_rejects (host : CustomGroups) (ic : Bool) (encode : Str → Str)
    (params : Params) (r : Str) (K : MState → List MState) (rest : List Token)
    (hp : plainTokens rest = true) (hf : followsKey rest = true)
    (hlast : rest = [] → RejectsNonSlash K ∧ SlashOrEnd r) (m : Nat) :
    RejectsNonSlash (runThen host ic (routePieces rest m) K) ∧
      SlashOrEnd (filledText encode params rest ++ r) := by
  cases rest with
  | nil =>
    obtain ⟨hK, hr⟩ := hlast rfl
    refine ⟨?_, hr⟩
    intro d r1 caps hd
    have e : routePieces [] m = [] := rfl
    rw [e, runThen_nil]
    exact hK d r1 caps hd
  | cons t rest =>
    cases t with
    | str s =>
      cases s with
      | nil => simp [followsKey] at hf
      | cons c s =>
        have hc : c = '/' := by simpa [followsKey] using hf
        subst hc
        exact ⟨rejects_slash_first host ic _ K, Or.inr ⟨_, rfl⟩⟩
    | key k =>
      simp only [plainTokens, Bool.and_eq_true] at hp
      have hk := hp.1.1
      refine ⟨?_, Or.inr ⟨encode (paramText params k) ++ (filledText encode params rest ++ r),
        ?_⟩⟩
      · intro d r1 caps hd
        have e : routePieces (Token.key k :: rest) m =
            keyRe k (m + 1) :: routePieces rest (m + 1) := rfl
        rw [e, runThen_cons, keyRe_plain k hk, Re.run_cat,
          run_chr_slash_other host ic d r1 caps hd]
        rfl
      · simp [filledText, plainKey_pre k hk]

/-- The regex of a plain template on the text the filler makes: the only
way through is the one in which every parameter takes its whole segment. -/
theorem runThen_tokens (host : CustomGroups) (ic : Bool) (encode : Str → Str) (params : Params)
    (r : Str) (K : MState → List MState) :
    ∀ tokens : List Token, plainTokens tokens = true →
      (∀ k, Token.key k ∈ tokens → encode (paramText params k) ≠ [] ∧
        ∀ d ∈ encode (paramText params k), d ≠ '/') →
      (lastIsKey tokens = true → RejectsNonSlash K ∧ SlashOrEnd r) →
      ∀ (n : Nat) (caps : List (Nat × Str)),
        runThen host ic (routePieces tokens n) K
            { rest := filledText encode params tokens ++ r, caps := caps } =
          K { rest := r, caps := filledCaps encode params tokens n caps } := by
  intro tokens
  induction tokens with
  | nil =>
    intro _ _ _ n caps
    have e : routePieces [] n = [] := rfl
    rw [e, runThen_nil]
    rfl
  | cons t rest ih =>
    intro hp hval hlast n caps
    cases t with
    | str s =>
      simp only [plainTokens, Bool.and_eq_true] at hp
      have e : routePieces (Token.str s :: rest) n = literalRe s ++ routePieces rest n := rfl
      have e2 : filledText encode params (Token.str s :: rest) ++ r =
          s ++ (filledText encode params rest ++ r) := by
        simp [filledText]
      rw [e, runThen_append, e2, runThen_literal]
      exact ih hp.2 (fun k hk => hval k (by simp [hk]))
        (fun h => hlast (lastIsKey_of_tail _ _ h)) n caps
    | key k =>
      simp only [plainTokens, Bool.and_eq_true] at hp
      obtain ⟨⟨hk, hf⟩, hrest⟩ := hp
      obtain ⟨hne, hns⟩ := hval k (by simp)
      have e : routePieces (Token.key k :: rest) n =
          keyRe k (n + 1) :: routePieces rest (n + 1) := rfl
      have e2 : filledText encode params (Token.key k :: rest) ++ r =
          '/' :: (encode (paramText params k) ++ (filledText encode params rest ++ r)) := by
        simp [filledText, plainKey_pre k hk]
      have hfol := follows_rejects host ic encode params r K rest hrest hf
        (fun h => hlast (by rw [h]; rfl)) (n + 1)
      rw [e, runThen_cons, e2, run_plainKey host ic k hk (n + 1) _ hfol.1 _ _ caps hne hns hfol.2]
      exact ih hrest (fun k hk => hval k (by simp [hk]))
        (fun h => hlast (lastIsKey_of_tail _ _ h)) (n + 1) _

/-! ### The encoders of the filler -/

theorem percentOctet_no_slash (n : Nat) (h : n < 256) : ∀ d ∈ percentOctet n, d ≠ '/' := by
  intro d hd
  have h1 := hexDigit_not_escaped (n / 16) (by omega)
  have h2 := hexDigit_not_escaped (n % 16) (by omega)
  simp only [Bool.or_eq_false_iff, beq_eq_false_iff_ne, ne_eq] at h1 h2
  unfold percentOctet at hd
  simp only [List.mem_cons, List.mem_singleton, List.not_mem_nil, or_false] at hd
  rcases hd with rfl | rfl | rfl
  · decide
  · exact h1.1.1
  · exact h2.1.1

theorem octets_no_slash (l : List Nat) (h : ∀ n ∈ l, n < 256) :
    ∀ d ∈ l.flatMap percentOctet, d ≠ '/' := by
  intro d hd
  obtain ⟨n, hn, hdn⟩ := List.mem_flatMap.mp hd
  exact percentOctet_no_slash n (h n hn) d hdn

theorem encodePretty_no_slash (v : Str) : ∀ d ∈ encodeURIComponentPretty v, d ≠ '/' := by
  intro d hd
  unfold encodeURIComponentPretty escapeChars at hd
  obtain ⟨c, _, hdc⟩ := List.mem_flatMap.mp hd
  by_cases hb : (c == '/' || c == '?' || c == '#') = true
  · rw [if_pos hb] at hdc
    have hlt : c.toNat < 256 := by
      simp only [Bool.or_eq_true, beq_iff_eq] at hb
      rcases hb with (rfl | rfl) | rfl <;> decide
    exact percentOctet_no_slash _ hlt d hdc
  · rw [if_neg hb] at hdc
    simp only [List.mem_singleton] at hdc
    subst hdc
    intro h
    subst h
    exact hb (by decide)

theorem encodeURIComponent_no_slash (v : Str) : ∀ d ∈ encodeURIComponent v, d ≠ '/' := by
  intro d hd
  unfold encodeURIComponent encodeWith at hd
  obtain ⟨c, _, hdc⟩ := List.mem_flatMap.mp hd
  by_cases hk : uriUnescaped c = true
  · rw [if_pos hk] at hdc
    simp only [List.mem_singleton] at hdc
    subst hdc
    intro h
    subst h
    exact absurd hk (by decide)
  · rw [if_neg hk] at hdc
    exact octets_no_slash _ (utf8Octets_lt c) d hdc

theorem encodeURIComponent_cons (c : Char) (v : Str) :
    encodeURIComponent (c :: v) =
      (if uriUnescaped c then [c] else (utf8Octets c).flatMap percentOctet) ++
        encodeURIComponent v := by
  simp [encodeURIComponent, encodeWith]

theorem utf8Octets_length (c : Char) : 1 ≤ ((utf8Octets c).flatMap percentOctet).length := by
  unfold utf8Octets
  simp only
  split
  · simp [percentOctet]
  · split
    · simp [percentOctet]
    · split <;> simp [percentOctet]

theorem encodeURIComponent_length (v : Str) : v.length ≤ (encodeURIComponent v).length := by
  induction v with
  | nil => simp
  | cons c v ih =>
    rw [encodeURIComponent_cons, List.length_append, List.length_cons]
    have : 1 ≤ (if uriUnescaped c then [c] else (utf8Octets c).flatMap percentOctet).length := by
      split
      · simp
      · exact utf8Octets_length c
    omega

theorem decodeAux_component (v : Str) :
    ∀ fuel, v.length ≤ fuel →
      decodeURIComponentAux fuel (encodeURIComponent v) = some v := by
  induction v with
  | nil => intro fuel _; exact decodeAux_nil fuel
  | cons c v ih =>
    intro fuel hf
    cases fuel with
    | zero => simp at hf
    | succ fuel =>
      rw [encodeURIComponent_cons]
      by_cases hk : uriUnescaped c = true
      · have hne : c ≠ '%' := by
          intro h
          rw [h] at hk
          exact absurd hk (by decide)
        rw [if_pos hk, List.singleton_append, decodeURIComponentAux]
        simp only [ne_eq, hne, not_false_eq_true, if_true]
        rw [ih fuel (by simpa using hf)]
        rfl
      · rw [if_neg hk, decodeAux_utf8, ih fuel (by simpa using hf)]
        rfl

/-- The host decodes what `encodeURIComponent` returns to the string encoded. -/
theorem decode_encodeURIComponent (v : Str) :
    decodeURIComponent (encodeURIComponent v) = some v :=
  decodeAux_component v _ (encodeURIComponent_length v)

/-- Either encoder of the filler keeps a non-empty string non-empty, writes no
`/`, and is undone by `decodeURIComponent`. -/
theorem encoder_facts (pretty : Bool) :
    (∀ v : Str, v ≠ [] →
      (if pretty then encodeURIComponentPretty else encodeURIComponent) v ≠ [] ∧
        ∀ d ∈ (if pretty then encodeURIComponentPretty else encodeURIComponent) v, d ≠ '/') ∧
      ∀ v : Str, decodeURIComponent
        ((if pretty then encodeURIComponentPretty else encodeURIComponent) v) = some v := by
  cases pretty with
  | true =>
    simp only [if_true]
    refine ⟨fun v hv => ⟨?_, encodePretty_no_slash v⟩, decode_encodePretty⟩
    intro h
    have := encodeURIComponentPretty_length v
    rw [h] at this
    cases v with
    | nil => exact hv rfl
    | cons c v => simp at this
  | false =>
    simp only [Bool.false_eq_true, if_false]
    refine ⟨fun v hv => ⟨?_, encodeURIComponent_no_slash v⟩, decode_encodeURIComponent⟩
    intro h
    have := encodeURIComponent_length v
    rw [h] at this
    cases v with
    | nil => exact hv rfl
    | cons c v => simp at this

/-! ### The captures and the params they give -/

theorem filledCaps_old (encode : Str → Str) (params : Params) :
    ∀ (tokens : List Token) (n : Nat) (caps : List (Nat × Str)) (j : Nat), j ≤ n →
      (filledCaps encode params tokens n caps).find? (fun c => c.1 == j) =
        caps.find? (fun c => c.1 == j) := by
  intro tokens
  induction tokens with
  | nil => intro n caps j _; rfl
  | cons t rest ih =>
    intro n caps j hj
    cases t with
    | str s => exact ih n caps j hj
    | key k =>
      have e : filledCaps encode params (Token.key k :: rest) n caps =
          filledCaps encode params rest (n + 1)
            ((n + 1, encode (paramText params k)) :: caps) := rfl
      rw [e, ih (n + 1) _ j (by omega), List.find?_cons]
      have : (n + 1 == j) = false := by
        simp only [beq_eq_false_iff_ne, ne_eq]
        omega
      simp only [this]

theorem filledCaps_new (encode : Str → Str) (params : Params) :
    ∀ (tokens : List Token) (n : Nat) (caps : List (Nat × Str)) (i : Nat) (k : Key),
      (tokenKeys tokens)[i]? = some k →
      (filledCaps encode params tokens n caps).find? (fun c => c.1 == n + i + 1) =
        some (n + i + 1, encode (paramText params k)) := by
  intro tokens
  induction tokens with
  | nil => intro n caps i k h; simp [tokenKeys] at h
  | cons t rest ih =>
    intro n caps i k h
    cases t with
    | str s => exact ih n caps i k h
    | key k0 =>
      have e : filledCaps encode params (Token.key k0 :: rest) n caps =
          filledCaps encode params rest (n + 1)
            ((n + 1, encode (paramText params k0)) :: caps) := rfl
      have e2 : tokenKeys (Token.key k0 :: rest) = k0 :: tokenKeys rest := rfl
      rw [e2] at h
      rw [e]
      cases i with
      | zero =>
        simp only [List.getElem?_cons_zero, Option.some.injEq] at h
        subst h
        rw [filledCaps_old encode params rest (n + 1) _ (n + 0 + 1) (by omega), List.find?_cons]
        simp
      | succ i =>
        simp only [List.getElem?_cons_succ] at h
        have := ih (n + 1) ((n + 1, encode (paramText params k0)) :: caps) i k h
        have e3 : n + (i + 1) + 1 = n + 1 + i + 1 := by omega
        rw [e3]
        exact this

theorem map_range_eq_map {α β : Type} (l : List α) (f : Nat → β) (g : α → β)
    (h : ∀ i k, l[i]? = some k → f i = g k) : (List.range l.length).map f = l.map g := by
  apply List.ext_getElem
  · simp
  · intro i h1 h2
    simp only [List.getElem_map, List.getElem_range]
    have hi : i < l.length := by simpa using h2
    exact h i l[i] (List.getElem?_eq_getElem hi)

/-- The captures `path.match(regex)` returns after the filled text. -/
theorem filledCaps_exec (encode : Str → Str) (params : Params) (tokens : List Token) :
    (List.range (tokenKeys tokens).length).map (fun i =>
        ((filledCaps encode params tokens 0 []).find? (fun c => c.1 == i + 1)).map
          (fun c => c.2)) =
      (tokenKeys tokens).map (fun k => some (encode (paramText params k))) := by
  apply map_range_eq_map
  intro i k h
  have := filledCaps_new encode params tokens 0 [] i k h
  rw [Nat.zero_add] at this
  rw [this]
  rfl

theorem paramText_congr (params : Params) (k k1 : Key) (h : k.name.prop = k1.name.prop) :
    paramText params k = paramText params k1 := by
  unfold paramText
  rw [h]

/-- The loop of `matchRoute` over the captures of the filled text binds every
parameter to the string that was filled in. -/
theorem matchRouteLoop_plain (encode : Str → Str) (params : Params)
    (hdec : ∀ v, decodeURIComponent (encode v) = some v) :
    ∀ (keys done : List Key) (start : Params), (∀ k ∈ keys, k.isPlain = true) →
      (∀ k ∈ done, Dict.get? start k.name.prop =
        some (Value.atom (Atom.str (paramText params k)))) →
      ∃ p, matchRouteLoop (keys.map (fun k => some (encode (paramText params k)))) keys start =
          .ok p ∧
        ∀ k, k ∈ done ∨ k ∈ keys →
          Dict.get? p k.name.prop = some (Value.atom (Atom.str (paramText params k))) := by
  intro keys
  induction keys with
  | nil =>
    intro done start _ hdone
    refine ⟨start, rfl, fun k hk => ?_⟩
    rcases hk with hk | hk
    · exact hdone k hk
    · cases hk
  | cons k0 keys ih =>
    intro done start hplain hdone
    have hk0 := hplain k0 (by simp)
    obtain ⟨p, hp, hall⟩ := ih (k0 :: done)
      (Dict.set start k0.name.prop (Value.atom (Atom.str (paramText params k0))))
      (fun k hk => hplain k (by simp [hk]))
      (by
        intro k hk
        by_cases hsame : k0.name.prop = k.name.prop
        · rw [← hsame, Dict.get?_set_same, paramText_congr params k0 k hsame]
        · rw [Dict.get?_set_ne _ _ _ _ hsame]
          rcases List.mem_cons.mp hk with rfl | hk
          · exact absurd rfl hsame
          · exact hdone k hk)
    refine ⟨p, ?_, fun k hk => hall k ?_⟩
    · simp only [List.map_cons, matchRouteLoop, hdec, plainKey_name k0 hk0]
      exact hp
    · rcases hk with hk | hk
      · exact Or.inl (by simp [hk])
      · rcases List.mem_cons.mp hk with rfl | hk
        · exact Or.inl (by simp)
        · exact Or.inr hk

theorem mem_tokenKeys (k : Key) : ∀ tokens : List Token,
    k ∈ tokenKeys tokens ↔ Token.key k ∈ tokens := by
  intro tokens
  induction tokens with
  | nil => simp [tokenKeys]
  | cons t rest ih =>
    cases t with
    | str s => simp [tokenKeys, ih]
    | key k0 => simp [tokenKeys, ih]

theorem plainTokens_keys : ∀ tokens : List Token, plainTokens tokens = true →
    ∀ k, Token.key k ∈ tokens → k.isPlain = true := by
  intro tokens
  induction tokens with
  | nil => intro _ k hk; cases hk
  | cons t rest ih =>
    intro hp k hk
    cases t with
    | str s =>
      simp only [plainTokens, Bool.and_eq_true] at hp
      rcases List.mem_cons.mp hk with h | h
      · cases h
      · exact ih hp.2 k h
    | key k0 =>
      simp only [plainTokens, Bool.and_eq_true] at hp
      rcases List.mem_cons.mp hk with h | h
      · cases h
        exact hp.1.1
      · exact ih hp.2 k h

/-! ### The end of the regex -/

theorem tokensToRegExp_keys (tokens : List Token) (options : PathToRegexpOptions) :
    (tokensToRegExp tokens options).keys = tokenKeys tokens := by
  simp [tokensToRegExp, tokensToRoute_eq]

theorem tokensToRegExp_re_open (tokens : List Token) (options : PathToRegexpOptions)
    (h : ((routePieces tokens 0).getLast? == some (Re.chr '/')) = false) :
    (tokensToRegExp tokens options).re =
      Re.catAll (routePieces tokens 0 ++ endPieces options) := by
  obtain ⟨sens, strict, toEnd⟩ := options
  cases strict <;> cases toEnd <;>
    simp [tokensToRegExp, tokensToRoute_eq, endPieces, h]

theorem tokensToRegExp_re_strict (tokens : List Token) (options : PathToRegexpOptions)
    (h : ((routePieces tokens 0).getLast? == some (Re.chr '/')) = true)
    (hs : options.strict = true) :
    (tokensToRegExp tokens options).re =
      Re.catAll (routePieces tokens 0 ++ (if options.toEnd then [Re.eol] else [])) := by
  obtain ⟨sens, strict, toEnd⟩ := options
  simp only at hs
  subst hs
  cases toEnd <;> simp [tokensToRegExp, tokensToRoute_eq, h]

theorem tokensToRegExp_re_loose (tokens : List Token) (options : PathToRegexpOptions)
    (h : ((routePieces tokens 0).getLast? == some (Re.chr '/')) = true)
    (hs : options.strict = false) :
    (tokensToRegExp tokens options).re =
      Re.catAll ((routePieces tokens 0).dropLast ++ endPieces options) := by
  obtain ⟨sens, strict, toEnd⟩ := options
  simp only at hs
  subst hs
  cases toEnd <;> simp [tokensToRegExp, tokensToRoute_eq, endPieces, h]

theorem run_optSlash_other (host : CustomGroups) (ic : Bool) (d : Char) (r : Str)
    (caps : List (Nat × Str)) (hd : d ≠ '/') :
    Re.run host ic (Re.opt (Re.cat (Re.chr '/') (Re.look Re.eol)))
        { rest := d :: r, caps := caps } = [{ rest := d :: r, caps := caps }] := by
  rw [Re.run_opt, Re.run_cat, run_chr_slash_other host ic d r caps hd]
  rfl

theorem run_lookEnd_other (host : CustomGroups) (ic : Bool) (d : Char) (r : Str)
    (caps : List (Nat × Str)) (hd : d ≠ '/') :
    Re.run host ic (Re.look (Re.alt (Re.chr '/') Re.eol))
        { rest := d :: r, caps := caps } = [] := by
  have h : Re.run host ic (Re.alt (Re.chr '/') Re.eol) { rest := d :: r, caps := caps } = [] := by
    show Re.run host ic (Re.chr '/') _ ++ Re.run host ic Re.eol _ = []
    rw [run_chr_slash_other host ic d r caps hd]
    rfl
  simp only [Re.run] at h ⊢
  simp only [h]

theorem endPieces_rejects (host : CustomGroups) (ic : Bool) (options : PathToRegexpOptions) :
    RejectsNonSlash (Re.run host ic (Re.catAll (endPieces options))) := by
  intro d r caps hd
  have hopt := run_optSlash_other host ic d r caps hd
  have hlook := run_lookEnd_other host ic d r caps hd
  obtain ⟨sens, strict, toEnd⟩ := options
  cases strict <;> cases toEnd
  · show Re.run host ic (Re.cat (Re.opt (Re.cat (Re.chr '/') (Re.look Re.eol)))
        (Re.look (Re.alt (Re.chr '/') Re.eol))) _ = []
    rw [Re.run_cat, hopt]
    simp only [List.flatMap_cons, List.flatMap_nil, List.append_nil]
    exact hlook
  · show Re.run host ic (Re.cat (Re.opt (Re.cat (Re.chr '/') (Re.look Re.eol))) Re.eol) _ = []
    rw [Re.run_cat, hopt]
    rfl
  · exact hlook
  · rfl

theorem endPieces_nil (host : CustomGroups) (ic : Bool) (options : PathToRegexpOptions)
    (caps : List (Nat × Str)) :
    Re.run host ic (Re.catAll (endPieces options)) { rest := [], caps := caps } =
      [{ rest := [], caps := caps }] := by
  obtain ⟨sens, strict, toEnd⟩ := options
  cases strict <;> cases toEnd <;> rfl

theorem run_optSlash_slash (host : CustomGroups) (ic : Bool) (caps : List (Nat × Str)) :
    Re.run host ic (Re.opt (Re.cat (Re.chr '/') (Re.look Re.eol)))
        { rest := ['/'], caps := caps } =
      [{ rest := [], caps := caps }, { rest := ['/'], caps := caps }] := by
  rw [Re.run_opt, Re.run_cat, run_chr_same]
  rfl

theorem endPieces_slash (host : CustomGroups) (ic : Bool) (options : PathToRegexpOptions)
    (hs : options.strict = false) (caps : List (Nat × Str)) :
    (Re.run host ic (Re.catAll (endPieces options)) { rest := ['/'], caps := caps }).head? =
      some { rest := [], caps := caps } := by
  have hopt := run_optSlash_slash host ic caps
  obtain ⟨sens, strict, toEnd⟩ := options
  simp only at hs
  subst hs
  cases toEnd
  · show (Re.run host ic (Re.cat (Re.opt (Re.cat (Re.chr '/') (Re.look Re.eol)))
        (Re.look (Re.alt (Re.chr '/') Re.eol))) _).head? = _
    rw [Re.run_cat, hopt]
    have h1 : Re.run host ic (Re.look (Re.alt (Re.chr '/') Re.eol))
        { rest := [], caps := caps } = [{ rest := [], caps := caps }] := rfl
    simp only [List.flatMap_cons, h1, List.singleton_append, List.head?_cons]
  · show (Re.run host ic (Re.cat (Re.opt (Re.cat (Re.chr '/') (Re.look Re.eol)))
        Re.eol) _).head? = _
    rw [Re.run_cat, hopt]
    rfl

/-! ### A template that ends with `/` -/

theorem routePieces_concat_str (s : Str) : ∀ (init : List Token) (n : Nat),
    routePieces (init ++ [Token.str s]) n = routePieces init n ++ literalRe s := by
  intro init
  induction init with
  | nil => intro n; simp [routePieces]
  | cons t init ih =>
    intro n
    cases t with
    | str s0 => simp [routePieces, ih]
    | key k => simp [routePieces, ih]

theorem filledText_concat_str (encode : Str → Str) (params : Params) (s : Str) :
    ∀ init : List Token,
      filledText encode params (init ++ [Token.str s]) = filledText encode params init ++ s := by
  intro init
  induction init with
  | nil => simp [filledText]
  | cons t init ih =>
    cases t with
    | str s0 => simp [filledText, ih]
    | key k => simp [filledText, ih]

theorem filledCaps_concat_str (encode : Str → Str) (params : Params) (s : Str) :
    ∀ (init : List Token) (n : Nat) (caps : List (Nat × Str)),
      filledCaps encode params (init ++ [Token.str s]) n caps =
        filledCaps encode params init n caps := by
  intro init
  induction init with
  | nil => intro n caps; rfl
  | cons t init ih =>
    intro n caps
    cases t with
    | str s0 => exact ih n caps
    | key k => exact ih (n + 1) _

theorem lastIsKey_concat_str (s : Str) : ∀ init : List Token,
    lastIsKey (init ++ [Token.str s]) = false := by
  intro init
  induction init with
  | nil => rfl
  | cons t init ih =>
    cases init with
    | nil => cases t <;> rfl
    | cons t1 init =>
      rw [List.cons_append, List.cons_append, lastIsKey_cons]
      exact ih

theorem plainTokens_concat_str (s : Str) : ∀ init : List Token,
    plainTokens (init ++ [Token.str s]) = true →
      plainTokens init = true ∧ (lastIsKey init = true → s.head? = some '/') := by
  intro init
  induction init with
  | nil => intro _; exact ⟨rfl, fun h => by cases h⟩
  | cons t init ih =>
    intro hp
    cases t with
    | str s0 =>
      simp only [List.cons_append, plainTokens, Bool.and_eq_true] at hp
      obtain ⟨h1, h2⟩ := ih hp.2
      refine ⟨by simp only [plainTokens, Bool.and_eq_true]; exact ⟨hp.1, h1⟩, ?_⟩
      intro hl
      cases init with
      | nil => cases hl
      | cons t1 init => exact h2 (by rw [lastIsKey_cons] at hl; exact hl)
    | key k =>
      simp only [List.cons_append, plainTokens, Bool.and_eq_true] at hp
      obtain ⟨⟨hk, hf⟩, hrest⟩ := hp
      obtain ⟨h1, h2⟩ := ih hrest
      cases init with
      | nil =>
        refine ⟨by simp [plainTokens, hk, followsKey], fun _ => ?_⟩
        simpa [followsKey] using hf
      | cons t1 init =>
        refine ⟨?_, fun hl => h2 (by rw [lastIsKey_cons] at hl; exact hl)⟩
        simp only [plainTokens, Bool.and_eq_true]
        refine ⟨⟨hk, ?_⟩, h1⟩
        cases t1 <;> exact hf

theorem routePieces_ne_nil : ∀ (tokens : List Token) (n : Nat), plainTokens tokens = true →
    tokens ≠ [] → routePieces tokens n ≠ [] := by
  intro tokens n hp hne
  cases tokens with
  | nil => exact absurd rfl hne
  | cons t rest =>
    cases t with
    | str s =>
      simp only [plainTokens, Bool.and_eq_true, Bool.not_eq_true', List.isEmpty_eq_false] at hp
      cases s with
      | nil => exact absurd rfl hp.1
      | cons c s => simp [routePieces, literalRe]
    | key k => simp [routePieces]

/-- A plain template whose route ends with the delimiter ends with text that
ends with `/`. -/
theorem ends_with_delimiter : ∀ (tokens : List Token) (n : Nat), plainTokens tokens = true →
    (routePieces tokens n).getLast? = some (Re.chr '/') →
    ∃ init s, tokens = init ++ [Token.str (s ++ ['/'])] := by
  intro tokens
  induction tokens with
  | nil => intro n _ h; cases h
  | cons t rest ih =>
    intro n hp h
    by_cases hrest : rest = []
    · subst hrest
      cases t with
      | str s =>
        have e : routePieces [Token.str s] n = s.map Re.chr := by
          simp [routePieces, literalRe]
        rw [e, List.getLast?_map] at h
        cases hs : s.getLast? with
        | none => rw [hs] at h; cases h
        | some c =>
          rw [hs] at h
          simp only [Option.map_some', Option.some.injEq, Re.chr.injEq] at h
          subst h
          obtain ⟨s1, rfl⟩ := List.getLast?_eq_some_iff.mp hs
          exact ⟨[], s1, rfl⟩
      | key k =>
        simp only [plainTokens, Bool.and_eq_true] at hp
        have e : routePieces [Token.key k] n = [keyRe k (n + 1)] := rfl
        rw [e, keyRe_plain k hp.1.1] at h
        cases h
    · have hp2 : plainTokens rest = true := by
        cases t with
        | str s => simp only [plainTokens, Bool.and_eq_true] at hp; exact hp.2
        | key k => simp only [plainTokens, Bool.and_eq_true] at hp; exact hp.2
      cases t with
      | str s =>
        have e : routePieces (Token.str s :: rest) n = literalRe s ++ routePieces rest n := rfl
        rw [e, List.getLast?_append_of_ne_nil _ (routePieces_ne_nil rest n hp2 hrest)] at h
        obtain ⟨init, s1, rfl⟩ := ih n hp2 h
        exact ⟨Token.str s :: init, s1, rfl⟩
      | key k =>
        have e : routePieces (Token.key k :: rest) n =
            [keyRe k (n + 1)] ++ routePieces rest (n + 1) := rfl
        rw [e, List.getLast?_append_of_ne_nil _ (routePieces_ne_nil rest (n + 1) hp2 hrest)] at h
        obtain ⟨init, s1, rfl⟩ := ih (n + 1) hp2 h
        exact ⟨Token.key k :: init, s1, rfl⟩

/-! ### The regex of a plain template on the filled text -/

theorem exec_plain (host : CustomGroups) (ic : Bool) (options : PathToRegexpOptions)
    (encode : Str → Str) (params : Params) (tokens : List Token)
    (hp : plainTokens tokens = true)
    (hval : ∀ k, Token.key k ∈ tokens → encode (paramText params k) ≠ [] ∧
      ∀ d ∈ encode (paramText params k), d ≠ '/') :
    Re.exec host ic (tokensToRegExp tokens options).re (filledText encode params tokens) =
      some { rest := [], caps := filledCaps encode params tokens 0 [] } := by
  unfold Re.exec
  cases hewd : ((routePieces tokens 0).getLast? == some (Re.chr '/')) with
  | false =>
    rw [tokensToRegExp_re_open tokens options hewd, run_catAll_append]
    have h := runThen_tokens host ic encode params [] _ tokens hp hval
      (fun _ => ⟨endPieces_rejects host ic options, Or.inl rfl⟩) 0 []
    rw [List.append_nil] at h
    rw [h, endPieces_nil]
    rfl
  | true =>
    obtain ⟨init, s, rfl⟩ := ends_with_delimiter tokens 0 hp (by simpa using hewd)
    cases hs : options.strict with
    | true =>
      rw [tokensToRegExp_re_strict _ options hewd hs, run_catAll_append]
      have h := runThen_tokens host ic encode params []
        (Re.run host ic (Re.catAll (if options.toEnd then [Re.eol] else []))) _ hp hval
        (fun hl => by rw [lastIsKey_concat_str] at hl; cases hl) 0 []
      rw [List.append_nil] at h
      rw [h]
      cases options.toEnd <;> rfl
    | false =>
      obtain ⟨hpi, hhead⟩ := plainTokens_concat_str _ init hp
      have e : (routePieces (init ++ [Token.str (s ++ ['/'])]) 0).dropLast =
          routePieces init 0 ++ literalRe s := by
        rw [routePieces_concat_str]
        have : literalRe (s ++ ['/']) = literalRe s ++ [Re.chr '/'] := by
          simp [literalRe]
        rw [this, ← List.append_assoc, List.dropLast_concat]
      rw [tokensToRegExp_re_loose _ options hewd hs, e, run_catAll_append, runThen_append,
        filledText_concat_str, filledCaps_concat_str]
      have hlast : lastIsKey init = true →
          RejectsNonSlash (runThen host ic (literalRe s)
            (Re.run host ic (Re.catAll (endPieces options)))) ∧ SlashOrEnd (s ++ ['/']) := by
        intro hl
        have hh := hhead hl
        cases s with
        | nil =>
          refine ⟨?_, Or.inr ⟨[], rfl⟩⟩
          intro d r caps hd
          have e1 : literalRe [] = [] := rfl
          rw [e1, runThen_nil]
          exact endPieces_rejects host ic options d r caps hd
        | cons c s =>
          have hc : c = '/' := by simpa using hh
          subst hc
          exact ⟨rejects_slash_first host ic _ _, Or.inr ⟨_, rfl⟩⟩
      rw [runThen_tokens host ic encode params (s ++ ['/']) _ init hpi
        (fun k hk => hval k (by simp [hk])) hlast 0 [], runThen_literal]
      exact endPieces_slash host ic options hs _

/-- The captures `path.match(regex)` returns for a plain template on the text
the filler makes of it. -/
theorem routeExec_plain (host : CustomGroups) (options : PathToRegexpOptions)
    (encode : Str → Str) (params : Params) (tokens : List Token)
    (hp : plainTokens tokens = true)
    (hval : ∀ k, Token.key k ∈ tokens → encode (paramText params k) ≠ [] ∧
      ∀ d ∈ encode (paramText params k), d ≠ '/') :
    (tokensToRegExp tokens options).exec host (filledText encode params tokens) =
      some ((tokenKeys tokens).map (fun k => some (encode (paramText params k)))) := by
  unfold RouteRegExp.exec
  rw [exec_plain host _ options encode params tokens hp hval, tokensToRegExp_keys]
  simp only [Option.map_some']
  rw [filledCaps_exec]

/-- C16, amended: for every plain template (text and required parameters
written `/:name` with the default pattern, each followed by `/` or by the end
of the template) none of whose parameters is named `__proto__`, every params
object that holds a non-empty string for each parameter, either encoder of the
filler and all options of the regex: `compile` returns a path, `matchRoute`
matches that path against the regex of the template, and the params it
extracts give every parameter the string it was filled with.  When `params`
has no `pathMatch`, `fillParams` returns that same path.  The name `__proto__`
is set aside because the assignment `params[key.name] = val` of `matchRoute`
is an ordinary write, as `matchRouteLoop` has it, for every other name only:
for `__proto__` it reaches the setter of `Object.prototype` and stores
nothing. -/
theorem fill_then_match (host : CustomGroups) (template : Str)
    (options : PathToRegexpOptions) (params start : Params) (pretty : Bool)
    (hplain : plainTokens (parse template) = true)
    (_hname : ∀ k, Token.key k ∈ parse template → k.name ≠ KeyName.named "__proto__".toList)
    (hval : ∀ k, Token.key k ∈ parse template → ∃ v, v ≠ [] ∧
      Dict.get? params k.name.prop = some (Value.atom (Atom.str v))) :
    ∃ path p, compile host template params pretty = .ok path ∧
      matchRoute host (pathToRegexp template options) path start = .ok (some p) ∧
      (∀ k, Token.key k ∈ parse template →
        Dict.get? p k.name.prop = Dict.get? params k.name.prop) ∧
      (pretty = true → Dict.get? params "pathMatch".toList = none →
        (fillParams host template params).1 = path) := by
  obtain ⟨henc, hdec⟩ := encoder_facts pretty
  have hfill := tokensToFunction_plain host params pretty henc (parse template) hplain hval []
  rw [List.nil_append] at hfill
  have hval2 : ∀ k, Token.key k ∈ parse template →
      (if pretty then encodeURIComponentPretty else encodeURIComponent) (paramText params k) ≠ [] ∧
        ∀ d ∈ (if pretty then encodeURIComponentPretty else encodeURIComponent)
          (paramText params k), d ≠ '/' := by
    intro k hk
    obtain ⟨v, hv, hget⟩ := hval k hk
    have hpt : paramText params k = v := by
      unfold paramText
      rw [hget]
    rw [hpt]
    exact henc v hv
  have hexec := routeExec_plain host options _ params (parse template) hplain hval2
  obtain ⟨p, hp, hall⟩ := matchRouteLoop_plain _ params hdec (tokenKeys (parse template)) [] start
    (fun k hk => plainTokens_keys _ hplain k ((mem_tokenKeys k _).mp hk))
    (fun _ h => nomatch h)
  refine ⟨_, p, hfill, ?_, ?_, ?_⟩
  · unfold matchRoute pathToRegexp
    rw [hexec]
    simp only [tokensToRegExp_keys]
    rw [hp]
    rfl
  · intro k hk
    obtain ⟨v, _, hget⟩ := hval k hk
    have hpt : paramText params k = v := by
      unfold paramText
      rw [hget]
    rw [hall k (Or.inr ((mem_tokenKeys k _).mpr hk)), hget, hpt]
  · intro hpretty hpm
    subst hpretty
    unfold fillParams compile
    rw [hpm]
    dsimp only
    rw [hfill]

/-- C16, as stated, fails for the template `/:a-:b` with `a = 'x-y'` and
`b = 'z'`: each value satisfies the default pattern of its parameter, the
filler returns `/x-y-z`, and matching that path against the regex of the
template gives `a = 'x'` and `b = 'y-z'`.  It fails for optional, repeated and
user-written patterns too, with `/` between the parameters: `/:x?/:y?` filled
with `y = 'v'` alone gives `/v`, which matches with `x = 'v'` and `y`
undefined; `/:x+` filled with the array of `a` and `b` gives `/a/b`, which
matches with the string `a/b`; and `/:a(.*)/` filled with `a = 'x'` gives
`/x/`, which matches with `a = 'x/'`. -/
theorem fill_then_match_differs :
    compile noCustomGroups "/:a-:b".toList
        [("a".toList, Value.atom (Atom.str "x-y".toList)),
         ("b".toList, Value.atom (Atom.str "z".toList))] true = .ok "/x-y-z".toList ∧
      (fillParams noCustomGroups "/:a-:b".toList
        [("a".toList, Value.atom (Atom.str "x-y".toList)),
         ("b".toList, Value.atom (Atom.str "z".toList))]).1 = "/x-y-z".toList ∧
      (matchRoute noCustomGroups (pathToRegexp "/:a-:b".toList {}) "/x-y-z".toList
          []).toOption =
        some (some [("a".toList, Value.atom (Atom.str "x".toList)),
                    ("b".toList, Value.atom (Atom.str "y-z".toList))]) ∧
      (compile noCustomGroups "/:x?/:y?".toList
          [("y".toList, Value.atom (Atom.str "v".toList))] true).toOption =
        some "/v".toList ∧
      (matchRoute noCustomGroups (pathToRegexp "/:x?/:y?".toList {}) "/v".toList
          []).toOption =
        some (some [("x".toList, Value.atom (Atom.str "v".toList)),
                    ("y".toList, Value.atom Atom.undef)]) ∧
      (compile noCustomGroups "/:x+".toList
          [("x".toList, Value.arr [Atom.str "a".toList, Atom.str "b".toList])] true).toOption =
        some "/a/b".toList ∧
      (matchRoute noCustomGroups (pathToRegexp "/:x+".toList {}) "/a/b".toList
          []).toOption =
        some (some [("x".toList, Value.atom (Atom.str "a/b".toList))]) ∧
      (compile Example.dotStarHost "/:a(.*)/".toList
          [("a".toList, Value.atom (Atom.str "x".toList))] true).toOption =
        some "/x/".toList ∧
      (matchRoute Example.dotStarHost (pathToRegexp "/:a(.*)/".toList {}) "/x/".toList
          []).toOption =
        some (some [("a".toList, Value.atom (Atom.str "x/".toList))]) :=
  ⟨rfl, by decide, by decide, by decide, by decide, by decide, by decide, by decide, by decide⟩

/-- Witness of C16: the template `/user/:id/posts/:post` filled with
`id = 'a b'` and `post = '7/8'`. -/
theorem fill_then_match_witness :
    plainTokens (parse "/user/:id/posts/:post".toList) = true ∧
      ∃ path p, compile noCustomGroups "/user/:id/posts/:post".toList
          [("id".toList, Value.atom (Atom.str "a b".toList)),
           ("post".toList, Value.atom (Atom.str "7/8".toList))] true = .ok path ∧
        matchRoute noCustomGroups (pathToRegexp "/user/:id/posts/:post".toList {}) path [] =
          .ok (some p) ∧
        (∀ k, Token.key k ∈ parse "/user/:id/posts/:post".toList →
          Dict.get? p k.name.prop = Dict.get?
            [("id".toList, Value.atom (Atom.str "a b".toList)),
             ("post".toList, Value.atom (Atom.str "7/8".toList))] k.name.prop) ∧
        (true = true → Dict.get?
            [("id".toList, Value.atom (Atom.str "a b".toList)),
             ("post".toList, Value.atom (Atom.str "7/8".toList))] "pathMatch".toList = none →
          (fillParams noCustomGroups "/user/:id/posts/:post".toList
            [("id".toList, Value.atom (Atom.str "a b".toList)),
             ("post".toList, Value.atom (Atom.str "7/8".toList))]).1 = path) :=
  ⟨by decide,
   fill_then_match noCustomGroups "/user/:id/posts/:post".toList {}
    [("id".toList, Value.atom (Atom.str "a b".toList)),
     ("post".toList, Value.atom (Atom.str "7/8".toList))] [] true (by decide)
    (by
      have e : parse "/user/:id/posts/:post".toList =
          [Token.str "/user".toList,
           Token.key { name := KeyName.named "id".toList, pre := "/".toList,
                       delimiter := "/".toList, optional := false, isRepeat := false,
                       isPartial := false, asterisk := false,
                       pattern := Pattern.segment "/".toList },
           Token.str "/posts".toList,
           Token.key { name := KeyName.named "post".toList, pre := "/".toList,
                       delimiter := "/".toList, optional := false, isRepeat := false,
                       isPartial := false, asterisk := false,
                       pattern := Pattern.segment "/".toList }] := by decide
      rw [e]
      intro k hk
      simp at hk
      rcases hk with rfl | rfl
      · decide
      · decide)
    (by
      have e : parse "/user/:id/posts/:post".toList =
          [Token.str "/user".toList,
           Token.key { name := KeyName.named "id".toList, pre := "/".toList,
                       delimiter := "/".toList, optional := false, isRepeat := false,
                       isPartial := false, asterisk := false,
                       pattern := Pattern.segment "/".toList },
           Token.str "/posts".toList,
           Token.key { name := KeyName.named "post".toList, pre := "/".toList,
                       delimiter := "/".toList, optional := false, isRepeat := false,
                       isPartial := false, asterisk := false,
                       pattern := Pattern.segment "/".toList }] := by decide
      rw [e]
      intro k hk
      simp at hk
      rcases hk with rfl | rfl
      · exact ⟨"a b".toList, by decide, by decide⟩
      · exact ⟨"7/8".toList, by decide, by decide⟩)⟩

/-! ### A wildcard always captures -/

theorem starLoop_keeps (step : MState → List MState) (i : Nat)
    (hstep : ∀ s t, t ∈ step s → HasCap i s → HasCap i t) (g : Bool) :
    ∀ (fuel : Nat) (s t : MState), t ∈ starLoop step g fuel s → HasCap i s → HasCap i t := by
  intro fuel
  induction fuel with
  | zero =>
    intro s t ht hs
    simp only [starLoop, List.mem_singleton] at ht
    rw [ht]
    exact hs
  | succ f ih =>
    intro s t ht hs
    have hmore : ∀ t, t ∈ ((step s).filter (fun t => t.rest.length < s.rest.length)).flatMap
        (starLoop step g f) → HasCap i t := by
      intro t ht
      obtain ⟨u, hu, htu⟩ := List.mem_flatMap.mp ht
      exact ih u t htu (hstep s u (List.mem_filter.mp hu).1 hs)
    simp only [starLoop] at ht
    split at ht
    · rcases List.mem_append.mp ht with h | h
      · exact hmore t h
      · rw [List.mem_singleton.mp h]; exact hs
    · rcases List.mem_cons.mp ht with h | h
      · rw [h]; exact hs
      · exact hmore t h

/-- The matcher never forgets a capture. -/
theorem run_keeps (host : CustomGroups) (ic : Bool) (i : Nat) :
    ∀ (re : Re) (s t : MState), t ∈ Re.run host ic re s → HasCap i s → HasCap i t := by
  intro re
  induction re with
  | chr c =>
    intro s t ht hs
    simp only [Re.run] at ht
    split at ht
    · split at ht
      · rw [List.mem_singleton.mp ht]; exact hs
      · cases ht
    · cases ht
  | dot =>
    intro s t ht hs
    simp only [Re.run] at ht
    split at ht
    · split at ht
      · cases ht
      · rw [List.mem_singleton.mp ht]; exact hs
    · cases ht
  | noneOf cs =>
    intro s t ht hs
    simp only [Re.run] at ht
    split at ht
    · split at ht
      · cases ht
      · rw [List.mem_singleton.mp ht]; exact hs
    · cases ht
  | custom src =>
    intro s t ht hs
    simp only [Re.run, List.mem_filterMap] at ht
    obtain ⟨n, _, hn⟩ := ht
    split at hn
    · cases hn; exact hs
    · cases hn
  | eps =>
    intro s t ht hs
    rw [Re.run_eps, List.mem_singleton] at ht
    rw [ht]; exact hs
  | cat a b iha ihb =>
    intro s t ht hs
    rw [Re.run_cat] at ht
    obtain ⟨u, hu, htu⟩ := List.mem_flatMap.mp ht
    exact ihb u t htu (iha s u hu hs)
  | alt a b iha ihb =>
    intro s t ht hs
    simp only [Re.run] at ht
    rcases List.mem_append.mp ht with h | h
    · exact iha s t h hs
    · exact ihb s t h hs
  | star g a iha =>
    intro s t ht hs
    rw [Re.run_star] at ht
    exact starLoop_keeps _ i iha g _ s t ht hs
  | opt a iha =>
    intro s t ht hs
    rw [Re.run_opt] at ht
    rcases List.mem_append.mp ht with h | h
    · exact iha s t h hs
    · rw [List.mem_singleton.mp h]; exact hs
  | group j a iha =>
    intro s t ht hs
    rw [Re.run_group] at ht
    obtain ⟨u, hu, rfl⟩ := List.mem_map.mp ht
    obtain ⟨c, hc, hci⟩ := iha s u hu hs
    exact ⟨c, List.mem_cons_of_mem _ hc, hci⟩
  | eol =>
    intro s t ht hs
    rw [Re.run_eol] at ht
    split at ht
    · rw [List.mem_singleton.mp ht]; exact hs
    · cases ht
  | look a iha =>
    intro s t ht hs
    simp only [Re.run] at ht
    split at ht
    · cases ht
    · rename_i u tl hrun
      rw [List.mem_singleton.mp ht]
      exact iha s u (by rw [hrun]; simp) hs

theorem run_group_has (host : CustomGroups) (ic : Bool) (i : Nat) (a : Re) (s t : MState)
    (ht : t ∈ Re.run host ic (Re.group i a) s) : HasCap i t := by
  rw [Re.run_group] at ht
  obtain ⟨u, _, rfl⟩ := List.mem_map.mp ht
  exact ⟨_, List.mem_cons_self _ _, rfl⟩

/-- The piece of a required parameter captures whenever it matches. -/
theorem keyRe_required_has (host : CustomGroups) (ic : Bool) (k : Key) (idx : Nat)
    (hreq : k.optional = false) (s t : MState) (ht : t ∈ Re.run host ic (keyRe k idx) s) :
    HasCap idx t := by
  unfold keyRe at ht
  simp only [hreq, Bool.false_eq_true, if_false] at ht
  rw [Re.run_cat] at ht
  obtain ⟨u, _, htu⟩ := List.mem_flatMap.mp ht
  exact run_group_has host ic idx _ u t htu

theorem keyRe_ne_chr (k : Key) (idx : Nat) (c : Char) : keyRe k idx ≠ Re.chr c := by
  unfold keyRe
  simp only
  split
  · split <;> exact fun h => nomatch h
  · exact fun h => nomatch h

theorem catAll_has (host : CustomGroups) (ic : Bool) (i : Nat) (p : Re)
    (hp : ∀ s t, t ∈ Re.run host ic p s → HasCap i t) :
    ∀ pieces : List Re, p ∈ pieces →
      ∀ s t, t ∈ Re.run host ic (Re.catAll pieces) s → HasCap i t := by
  intro pieces
  induction pieces with
  | nil => intro h; cases h
  | cons a rest ih =>
    intro hmem s t ht
    rw [run_catAll_cons] at ht
    obtain ⟨u, hu, htu⟩ := List.mem_flatMap.mp ht
    rcases List.mem_cons.mp hmem with h | h
    · subst h
      exact run_keeps host ic i _ u t htu (hp s u hu)
    · exact ih h u t htu

theorem keyRe_mem_routePieces (k : Key) : ∀ (tokens : List Token) (pre post : List Key) (n : Nat),
    tokenKeys tokens = pre ++ k :: post →
      keyRe k (n + pre.length + 1) ∈ routePieces tokens n := by
  intro tokens
  induction tokens with
  | nil =>
    intro pre post n h
    simp [tokenKeys] at h
  | cons t rest ih =>
    intro pre post n h
    cases t with
    | str s =>
      have e : routePieces (Token.str s :: rest) n = literalRe s ++ routePieces rest n := rfl
      rw [e]
      exact List.mem_append_right _ (ih pre post n h)
    | key k0 =>
      have e : routePieces (Token.key k0 :: rest) n =
          keyRe k0 (n + 1) :: routePieces rest (n + 1) := rfl
      have e2 : tokenKeys (Token.key k0 :: rest) = k0 :: tokenKeys rest := rfl
      rw [e]
      rw [e2] at h
      cases pre with
      | nil =>
        simp only [List.nil_append, List.cons.injEq] at h
        rw [h.1]
        exact List.mem_cons_self _ _
      | cons p0 pre =>
        simp only [List.cons_append, List.cons.injEq] at h
        have := ih pre post (n + 1) h.2
        have e3 : n + (p0 :: pre).length + 1 = n + 1 + pre.length + 1 := by
          simp only [List.length_cons]
          omega
        rw [e3]
        exact List.mem_cons_of_mem _ this

/-- The piece of every key is among the pieces of the regex. -/
theorem keyRe_mem_regex (tokens : List Token) (options : PathToRegexpOptions) (k : Key)
    (pre post : List Key) (hkeys : tokenKeys tokens = pre ++ k :: post) :
    ∃ pieces, (tokensToRegExp tokens options).re = Re.catAll pieces ∧
      keyRe k (pre.length + 1) ∈ pieces := by
  have hmem := keyRe_mem_routePieces k tokens pre post 0 hkeys
  rw [Nat.zero_add] at hmem
  cases hewd : ((routePieces tokens 0).getLast? == some (Re.chr '/')) with
  | false =>
    exact ⟨_, tokensToRegExp_re_open tokens options hewd, List.mem_append_left _ hmem⟩
  | true =>
    cases hs : options.strict with
    | true =>
      exact ⟨_, tokensToRegExp_re_strict tokens options hewd hs, List.mem_append_left _ hmem⟩
    | false =>
      refine ⟨_, tokensToRegExp_re_loose tokens options hewd hs, List.mem_append_left _ ?_⟩
      obtain ⟨init, hinit⟩ := List.getLast?_eq_some_iff.mp (by simpa using hewd)
      rw [hinit] at hmem ⊢
      rw [List.dropLast_concat]
      rcases List.mem_append.mp hmem with h | h
      · exact h
      · exact absurd (List.mem_singleton.mp h) (keyRe_ne_chr k _ '/')

/-! ### An asterisk is a required parameter -/

theorem scanParam_asterisk (pre : Option Char) (s : Str) (m : PathMatch) (r : Str)
    (h : scanParam pre s = some (m, r)) (ha : m.asterisk = true) : m.modifier = none := by
  unfold scanParam at h
  split at h
  · simp only at h
    split at h
    · cases h
    · split at h
      · cases h; cases ha
      · cases h; cases ha
  · split at h
    · cases h; cases ha
    · cases h
  · cases h; rfl
  · cases h

theorem pathRegexpAt_asterisk (s : Str) (m : PathMatch) (r : Str)
    (h : pathRegexpAt s = some (m, r)) (ha : m.asterisk = true) : m.modifier = none := by
  unfold pathRegexpAt at h
  split at h
  · cases h
  · rename_i c rest
    simp only at h
    split at h
    · rename_i r0 hesc
      cases h
      split at hesc
      · split at hesc
        · split at hesc
          · cases hesc
          · cases hesc; cases ha
        · cases hesc
      · cases hesc
    · split at h
      · split at h
        · rename_i r1 hsp
          cases h
          exact scanParam_asterisk _ _ _ _ hsp ha
        · exact scanParam_asterisk _ _ _ _ h ha
      · exact scanParam_asterisk _ _ _ _ h ha

theorem tokenOfMatch_asterisk (m : PathMatch) (next : Option Char) (key : Nat)
    (hm : m.asterisk = true → m.modifier = none)
    (ha : (tokenOfMatch m next key).asterisk = true) :
    (tokenOfMatch m next key).optional = false := by
  have h1 : m.asterisk = true := ha
  have h2 := hm h1
  simp [tokenOfMatch, h2]

theorem parseLoop_asterisk : ∀ (fuel : Nat) (s : Str) (st : ParseState),
    (∀ k, Token.key k ∈ st.tokens → k.asterisk = true → k.optional = false) →
    ∀ k, Token.key k ∈ parseLoop fuel s st → k.asterisk = true → k.optional = false := by
  intro fuel
  induction fuel with
  | zero =>
    intro s st hst k hk
    simp only [parseLoop] at hk
    split at hk
    · exact hst k hk
    · rcases List.mem_append.mp hk with h | h
      · exact hst k h
      · simp at h
  | succ f ih =>
    intro s st hst k hk
    cases s with
    | nil =>
      simp only [parseLoop] at hk
      split at hk
      · exact hst k hk
      · rcases List.mem_append.mp hk with h | h
        · exact hst k h
        · simp at h
    | cons c rest =>
      simp only [parseLoop] at hk
      split at hk
      · refine ih _ _ ?_ k hk
        exact fun k1 h1 => hst k1 h1
      · rename_i m after hm
        split at hk
        · refine ih _ _ ?_ k hk
          exact fun k1 h1 => hst k1 h1
        · refine ih _ _ ?_ k hk
          intro k1 hk1
          simp only at hk1
          rcases List.mem_append.mp hk1 with h | h
          · split at h
            · exact hst k1 h
            · rcases List.mem_append.mp h with h | h
              · exact hst k1 h
              · simp at h
          · simp only [List.mem_singleton, Token.key.injEq] at h
            rw [h]
            exact tokenOfMatch_asterisk m _ _ (pathRegexpAt_asterisk _ m after hm)

/-- An asterisk of a path is a required parameter. -/
theorem parse_asterisk (path : Str) (k : Key) (hk : Token.key k ∈ parse path)
    (ha : k.asterisk = true) : k.optional = false :=
  parseLoop_asterisk _ _ _ (fun _ h => by cases h) k hk ha

theorem exec_has_capture (host : CustomGroups) (regex : RouteRegExp) (path : Str)
    (m : List (Option Str)) (i : Nat) (hi : i < regex.keys.length)
    (hcap : ∀ st, st ∈ Re.run host regex.ignoreCase regex.re { rest := path, caps := [] } →
      HasCap (i + 1) st)
    (hexec : regex.exec host path = some m) :
    ∃ text, m.get? i = some (some text) := by
  unfold RouteRegExp.exec Re.exec at hexec
  cases hrun : Re.run host regex.ignoreCase regex.re { rest := path, caps := [] } with
  | nil =>
    rw [hrun] at hexec
    cases hexec
  | cons st tl =>
    rw [hrun] at hexec
    simp only [List.head?_cons, Option.map_some', Option.some.injEq] at hexec
    obtain ⟨c, hc, hci⟩ := hcap st (by rw [hrun]; simp)
    have hsome : (st.caps.find? (fun c => c.1 == i + 1)).isSome = true := by
      rw [List.find?_isSome]
      exact ⟨c, hc, by simp [hci]⟩
    obtain ⟨c1, hc1⟩ := Option.isSome_iff_exists.mp hsome
    refine ⟨c1.2, ?_⟩
    rw [← hexec]
    simp [List.getElem?_map, List.getElem?_range hi, hc1]

/-- C19, amended: for every route path whose regex has a wildcard key that is
the first unnamed token of the path (its name is the number 0), with no later
key named `pathMatch`, and every path that `matchRoute` matches: the wildcard
has captured a text, that text percent-decodes, and `params` binds `pathMatch`
to the decoded text. -/
theorem wildcard_binds_pathMatch (host : CustomGroups) (route : Str)
    (options : PathToRegexpOptions) (path : Str) (params p : Params) (pre post : List Key)
    (k : Key) (hkeys : (pathToRegexp route options).keys = pre ++ k :: post)
    (hwild : k.asterisk = true) (hname : k.name = KeyName.index 0)
    (hlater : ∀ k' ∈ post, k'.name.orPathMatch ≠ "pathMatch".toList)
    (hmatch : matchRoute host (pathToRegexp route options) path params = .ok (some p)) :
    ∃ m text v, (pathToRegexp route options).exec host path = some m ∧
      m.get? pre.length = some (some text) ∧
      decodeURIComponent text = some v ∧
      Dict.get? p "pathMatch".toList = some (Value.atom (Atom.str v)) := by
  have hk2 : tokenKeys (parse route) = pre ++ k :: post := by
    rw [← tokensToRegExp_keys (parse route) options]
    exact hkeys
  have hmem : Token.key k ∈ parse route :=
    (mem_tokenKeys k _).mp (by rw [hk2]; simp)
  have hreq := parse_asterisk route k hmem hwild
  obtain ⟨pieces, hre, hpiece⟩ := keyRe_mem_regex (parse route) options k pre post hk2
  unfold matchRoute at hmatch
  cases hexec : (pathToRegexp route options).exec host path with
  | none =>
    rw [hexec] at hmatch
    cases hmatch
  | some m =>
    rw [hexec, hkeys] at hmatch
    simp only at hmatch
    cases hloop : matchRouteLoop m (pre ++ k :: post) params with
    | error e =>
      rw [hloop] at hmatch
      cases hmatch
    | ok p' =>
      rw [hloop] at hmatch
      have hp : p' = p := Option.some.inj (Except.ok.inj hmatch)
      subst hp
      obtain ⟨text, hget⟩ := exec_has_capture host (pathToRegexp route options) path m
        pre.length (by rw [hkeys]; simp)
        (by
          intro st hst
          unfold pathToRegexp at hst
          rw [hre] at hst
          exact catAll_has host _ (pre.length + 1) _
            (fun s t ht => keyRe_required_has host _ k _ hreq s t ht) pieces hpiece _ st hst)
        hexec
      obtain ⟨v, hv, hbind⟩ := matchRouteLoop_binds "pathMatch".toList pre m k post params p'
        text (by rw [hname]; rfl) hlater hget hloop
      exact ⟨m, text, v, rfl, hget, hv, hbind⟩

/-- Witness of C19: the route path `/files/*` and the path `/files/a%20b/c`. -/
theorem wildcard_binds_pathMatch_witness :
    ∃ m text v, (pathToRegexp "/files/*".toList {}).exec noCustomGroups
        "/files/a%20b/c".toList = some m ∧
      m.get? 0 = some (some text) ∧
      decodeURIComponent text = some v ∧
      Dict.get? [("pathMatch".toList, Value.atom (Atom.str "a b/c".toList))]
        "pathMatch".toList = some (Value.atom (Atom.str v)) :=
  wildcard_binds_pathMatch noCustomGroups "/files/*".toList {} "/files/a%20b/c".toList []
    [("pathMatch".toList, Value.atom (Atom.str "a b/c".toList))] []  []
    { name := KeyName.index 0, pre := "/".toList, delimiter := "/".toList, optional := false,
      isRepeat := false, isPartial := false, asterisk := true, pattern := Pattern.wildcard }
    (by decide) rfl rfl (fun _ h => by cases h) (by rfl)

/-! ## Route equality -/

theorem atomEqual_refl (a : Atom) : atomEqual a a = true := by
  unfold atomEqual
  split <;> simp

theorem atomEqual_symm (a b : Atom) : atomEqual a b = atomEqual b a := by
  unfold atomEqual
  rw [Bool.and_comm]
  split
  · rfl
  · exact Bool.beq_comm

theorem zipWith_atomEqual_refl (xs : List Atom) :
    (List.zipWith atomEqual xs xs).all id = true := by
  induction xs with
  | nil => rfl
  | cons a xs ih => simp [List.zipWith, atomEqual_refl, ih]

theorem zipWith_atomEqual_symm : ∀ xs ys : List Atom,
    List.zipWith atomEqual xs ys = List.zipWith atomEqual ys xs := by
  intro xs
  induction xs with
  | nil => intro ys; cases ys <;> rfl
  | cons a xs ih =>
    intro ys
    cases ys with
    | nil => rfl
    | cons b ys => simp [List.zipWith, atomEqual_symm a b, ih ys]

theorem valueEqual_refl (x : Option Value) : valueEqual x x = true := by
  cases x with
  | none => rfl
  | some v =>
    cases v with
    | atom a => cases a <;> simp [valueEqual]
    | arr xs =>
      simp only [valueEqual, zipWith_atomEqual_refl, beq_self_eq_true, Bool.and_self]

theorem valueEqual_symm (x y : Option Value) : valueEqual x y = valueEqual y x := by
  have hd : ∀ u v : Option Value,
      ((u.getD (.atom .undef)).toStr == (v.getD (.atom .undef)).toStr ||
        (u == some (.atom .null) && v == some (.atom .null))) =
      ((v.getD (.atom .undef)).toStr == (u.getD (.atom .undef)).toStr ||
        (v == some (.atom .null) && u == some (.atom .null))) := by
    intro u v
    rw [Bool.beq_comm, Bool.and_comm]
  cases x with
  | none =>
    cases y with
    | none => rfl
    | some w =>
      cases w with
      | atom b => cases b <;> simp only [valueEqual] <;> exact hd _ _
      | arr ys => simp only [valueEqual]; exact hd _ _
  | some v =>
    cases v with
    | atom a =>
      cases y with
      | none => cases a <;> simp only [valueEqual] <;> exact hd _ _
      | some w =>
        cases w with
        | atom b => cases a <;> cases b <;> simp only [valueEqual] <;> exact hd _ _
        | arr ys => cases a <;> simp only [valueEqual] <;> first | rfl | exact hd _ _
    | arr xs =>
      cases y with
      | none => simp only [valueEqual]; exact hd _ _
      | some w =>
        cases w with
        | atom b => cases b <;> simp only [valueEqual] <;> first | rfl | exact hd _ _
        | arr ys =>
          simp only [valueEqual]
          rw [zipWith_atomEqual_symm xs ys, Bool.beq_comm]

theorem isObjectEqual_refl (a : Dict Value) : isObjectEqual a a = true := by
  unfold isObjectEqual
  simp only [bne_self_eq_false, Bool.false_eq_true, if_false, List.all_eq_true]
  intro key _
  exact valueEqual_refl _

theorem createRoute_path_ne_nil (record : Option RouteRecord) (location : Location)
    (redirectedFrom : Option Location) (router : Router) :
    (createRoute record location redirectedFrom router).path ≠ [] := by
  unfold createRoute
  simp only
  split
  · rename_i h
    unfold truthy at h
    cases hp : location.path with
    | none => rw [hp] at h; cases h
    | some p =>
      rw [hp] at h
      simp only [Option.getD_some]
      intro hnil
      rw [hnil] at h
      cases h
  · exact fun h => nomatch h

/-- C23: `isSameRoute` is reflexive on the routes `createRoute` builds: for
every route object, the object `START` included, `isSameRoute(r, r)` is true. -/
theorem isSameRoute_refl (id : Nat) (record : Option RouteRecord) (location : Location)
    (redirectedFrom : Option Location) (router : Router) :
    isSameRoute { id := id, route := createRoute record location redirectedFrom router }
        { id := id, route := createRoute record location redirectedFrom router } = true ∧
      isSameRoute { id := 0, route := START } { id := 0, route := START } = true := by
  have hne := createRoute_path_ne_nil record location redirectedFrom router
  refine ⟨?_, rfl⟩
  unfold isSameRoute
  simp only
  split
  · simp
  · have hp : (createRoute record location redirectedFrom router).path.isEmpty = false := by
      cases h : (createRoute record location redirectedFrom router).path with
      | nil => exact absurd h hne
      | cons c p => rfl
    simp [hp, isObjectEqual_refl]

theorem Dict.mem_keys_iff {α : Type} (d : Dict α) (key : Str) :
    key ∈ d.map (fun kv => kv.1) ↔ ∃ x, Dict.get? d key = some x := by
  induction d with
  | nil =>
    simp only [List.map_nil, List.not_mem_nil, Dict.get?_nil, false_iff]
    rintro ⟨x, hx⟩
    cases hx
  | cons kv rest ih =>
    obtain ⟨k0, v0⟩ := kv
    rw [Dict.get?_cons, List.map_cons, List.mem_cons]
    by_cases h : k0 = key
    · subst h
      simp only [if_true, true_or, true_iff]
      exact ⟨v0, rfl⟩
    · rw [if_neg h, ← ih]
      constructor
      · rintro (h3 | h3)
        · exact absurd h3.symm h
        · exact h3
      · exact Or.inr

theorem Dict.get?_mem {α : Type} (d : Dict α) (key : Str) (x : α)
    (h : Dict.get? d key = some x) : (key, x) ∈ d := by
  induction d with
  | nil => simp [Dict.get?_nil] at h
  | cons kv rest ih =>
    obtain ⟨k0, v0⟩ := kv
    rw [Dict.get?_cons] at h
    split at h
    · rename_i hk
      have hk2 : k0 = key := by simpa using hk
      cases h
      rw [hk2]
      exact List.mem_cons_self _ _
    · exact List.mem_cons_of_mem _ (ih h)

theorem isObjectEqual_iff (a b : Dict Value) :
    isObjectEqual a b = true ↔ a.length = b.length ∧
      ∀ key ∈ a.map (fun kv => kv.1), valueEqual (Dict.get? a key) (Dict.get? b key) = true := by
  unfold isObjectEqual
  simp only [List.length_map]
  by_cases h : a.length = b.length
  · simp only [h, bne_self_eq_false, Bool.false_eq_true, if_false, List.all_eq_true,
      true_and]
  · have h2 : (a.length != b.length) = true := by simpa using h
    rw [if_pos h2]
    constructor
    · intro h3
      cases h3
    · intro h3
      exact absurd h3.1 h

theorem valueEqual_none (x : Value) :
    valueEqual (some x) none = true ↔ x.toStr = "undefined".toList := by
  cases x with
  | atom a => cases a <;> simp [valueEqual, Atom.toStr, Value.toStr]
  | arr xs => simp [valueEqual, Atom.toStr, Value.toStr]

/-- When `isObjectEqual(a, b)` holds and no value of `a` reads `undefined`,
every key of `a` is a key of `b`. -/
theorem isObjectEqual_keys_subset (a b : Dict Value)
    (ha : ∀ kv ∈ a, kv.2.toStr ≠ "undefined".toList) (h : isObjectEqual a b = true) :
    a.map (fun kv => kv.1) ⊆ b.map (fun kv => kv.1) := by
  obtain ⟨_, hall⟩ := (isObjectEqual_iff a b).mp h
  intro key hkey
  by_contra hnot
  obtain ⟨x, hx⟩ := (Dict.mem_keys_iff a key).mp hkey
  have hb : Dict.get? b key = none := by
    cases hg : Dict.get? b key with
    | none => rfl
    | some y => exact absurd ((Dict.mem_keys_iff b key).mpr ⟨y, hg⟩) hnot
  have := hall key hkey
  rw [hx, hb] at this
  exact ha (key, x) (Dict.get?_mem a key x hx) ((valueEqual_none x).mp this)

theorem keys_subset_symm (ka kb : List Str) (ha : ka.Nodup) (hlen : ka.length = kb.length)
    (hsub : ka ⊆ kb) : kb ⊆ ka := by
  have h1 : ka.Subperm kb := List.subperm_of_subset ha hsub
  have h2 : ka.Perm kb := h1.perm_of_length_le (le_of_eq hlen.symm)
  exact h2.symm.subset

theorem isObjectEqual_swap (a b : Dict Value) (ha : PlainObject a)
    (h : isObjectEqual a b = true) : isObjectEqual b a = true := by
  have hsub := isObjectEqual_keys_subset a b ha.2 h
  obtain ⟨hlen, hall⟩ := (isObjectEqual_iff a b).mp h
  have hback := keys_subset_symm _ _ ha.1 (by simpa using hlen) hsub
  refine (isObjectEqual_iff b a).mpr ⟨hlen.symm, fun key hkey => ?_⟩
  rw [valueEqual_symm]
  exact hall key (hback hkey)

theorem isObjectEqual_symm (a b : Dict Value) (ha : PlainObject a) (hb : PlainObject b) :
    isObjectEqual a b = isObjectEqual b a := by
  rw [Bool.eq_iff_iff]
  exact ⟨isObjectEqual_swap a b ha, isObjectEqual_swap b a hb⟩

/-- C24, amended: for every two route objects built by `createRoute` that are
both `START` or both not `START`, and whose queries have no duplicate key, no
value that coerces to the string `undefined` and no key that names a member of
`Object.prototype` (for such a key `b[key]` reads the inherited member where
the embedding reads nothing): `isSameRoute(a, b) = isSameRoute(b, a)`. -/
theorem isSameRoute_symm (i j : Nat) (ra rb : Option RouteRecord) (la lb : Location)
    (fa fb : Option Location) (router router1 : Router) (hstart : i = 0 ↔ j = 0)
    (hqa : PlainObject (createRoute ra la fa router).query)
    (hqb : PlainObject (createRoute rb lb fb router1).query)
    (_hna : OwnNamed (createRoute ra la fa router).query)
    (_hnb : OwnNamed (createRoute rb lb fb router1).query) :
    isSameRoute { id := i, route := createRoute ra la fa router }
        { id := j, route := createRoute rb lb fb router1 } =
      isSameRoute { id := j, route := createRoute rb lb fb router1 }
        { id := i, route := createRoute ra la fa router } := by
  have hpa : (createRoute ra la fa router).path.isEmpty = false := by
    cases h : (createRoute ra la fa router).path with
    | nil => exact absurd h (createRoute_path_ne_nil _ _ _ _)
    | cons c p => rfl
  have hpb : (createRoute rb lb fb router1).path.isEmpty = false := by
    cases h : (createRoute rb lb fb router1).path with
    | nil => exact absurd h (createRoute_path_ne_nil _ _ _ _)
    | cons c p => rfl
  unfold isSameRoute
  simp only [hpa, hpb, Bool.not_false, Bool.and_self, if_true]
  by_cases hi : i = 0
  · have hj := hstart.mp hi
    subst hi
    subst hj
    rfl
  · have hj : ¬ j = 0 := fun h => hi (hstart.mpr h)
    have hi2 : (i == 0) = false := by simpa using hi
    have hj2 : (j == 0) = false := by simpa using hj
    simp only [hi2, hj2, Bool.false_eq_true, if_false]
    rw [isObjectEqual_symm _ _ hqa hqb,
      Bool.beq_comm (a := dropTrailingSlash (createRoute ra la fa router).path),
      Bool.beq_comm (a := (createRoute ra la fa router).hash)]

/-- C24, as stated, fails for `START` and the route of the location `/`: with
`START` as first argument the two are the same route, with `START` as second
argument they are not. -/
theorem isSameRoute_start_asymmetric :
    isSameRoute { id := 0, route := START } { id := 1, route := Example.home } = true ∧
      isSameRoute { id := 1, route := Example.home } { id := 0, route := START } = false := by
  decide

/-- Witness of C24: the routes of the locations `/a?x=1` and `/a/?x=1`. -/
theorem isSameRoute_symm_witness :
    isSameRoute
        { id := 1, route := createRoute none
            { path := some "/a".toList,
              query := some [("x".toList, Value.atom (Atom.str "1".toList))] } none {} }
        { id := 2, route := createRoute none
            { path := some "/a/".toList,
              query := some [("x".toList, Value.atom (Atom.str "1".toList))] } none {} } =
      isSameRoute
        { id := 2, route := createRoute none
            { path := some "/a/".toList,
              query := some [("x".toList, Value.atom (Atom.str "1".toList))] } none {} }
        { id := 1, route := createRoute none
            { path := some "/a".toList,
              query := some [("x".toList, Value.atom (Atom.str "1".toList))] } none {} } :=
  isSameRoute_symm 1 2 none none _ _ none none {} {} (by decide)
    ⟨by decide, by decide⟩ ⟨by decide, by decide⟩ (by decide) (by decide)

theorem dropTrailingSlash_eq_nil (p : Str) (hp : p ≠ []) :
    dropTrailingSlash p = [] ↔ p = ['/'] := by
  unfold dropTrailingSlash stripTrailingSlash
  constructor
  · intro h
    split at h
    · rename_i hl
      have hl2 : p.getLast? = some '/' := by simpa using hl
      obtain ⟨q, hq⟩ := List.getLast?_eq_some_iff.mp hl2
      rw [hq, List.dropLast_concat] at h
      rw [hq, h]
      rfl
    · exact absurd h hp
  · intro h
    rw [h]
    rfl

theorem isObjectEqual_nil_left (b : Dict Value) : isObjectEqual [] b = true ↔ b = [] := by
  rw [isObjectEqual_iff]
  constructor
  · intro h
    exact List.length_eq_zero.mp h.1.symm
  · intro h
    rw [h]
    exact ⟨rfl, fun _ hk => nomatch hk⟩

/-- C25, amended: a route object that is not `START` is never the same route
as `START` when `START` is the second argument; with `START` as the first
argument and a route `b` built by `createRoute` that is not `START` as the
second, `isSameRoute(START, b)` is true exactly when the path of `b` is `/`, its
hash is empty and its query has no key. -/
theorem isSameRoute_start (a : RouteObj) (j : Nat) (rb : Option RouteRecord) (lb : Location)
    (fb : Option Location) (router : Router) (ha : a.id ≠ 0) (hj : j ≠ 0) :
    isSameRoute a { id := 0, route := START } = false ∧
      (isSameRoute { id := 0, route := START }
          { id := j, route := createRoute rb lb fb router } = true ↔
        (createRoute rb lb fb router).path = ['/'] ∧ (createRoute rb lb fb router).hash = [] ∧
          (createRoute rb lb fb router).query = []) := by
  constructor
  · unfold isSameRoute
    simp only [beq_self_eq_true, if_true, beq_eq_false_iff_ne, ne_eq]
    exact ha
  · have hne := createRoute_path_ne_nil rb lb fb router
    have hpb : (createRoute rb lb fb router).path.isEmpty = false := by
      cases h : (createRoute rb lb fb router).path with
      | nil => exact absurd h hne
      | cons c p => rfl
    have hj2 : (j == 0) = false := by simpa using hj
    have hs1 : START.path = ['/'] := rfl
    have hs2 : START.hash = [] := rfl
    have hs3 : START.query = [] := rfl
    have hs4 : dropTrailingSlash ['/'] = [] := rfl
    unfold isSameRoute
    simp only [hj2, Bool.false_eq_true, if_false, hpb, hs1, hs2, hs3, hs4, List.isEmpty_cons,
      Bool.not_false, Bool.and_self, if_true, Bool.and_eq_true, beq_iff_eq]
    rw [isObjectEqual_nil_left]
    constructor
    · rintro ⟨⟨h1, h2⟩, h3⟩
      exact ⟨(dropTrailingSlash_eq_nil _ hne).mp h1.symm, h2.symm, h3⟩
    · rintro ⟨h1, h2, h3⟩
      exact ⟨⟨((dropTrailingSlash_eq_nil _ hne).mpr h1).symm, h2.symm⟩, h3⟩

/-- C25, as stated, fails for the route of the record `home` at the location
`/`: it is not the object `START`, and `isSameRoute(START, route)` is true. -/
theorem isSameRoute_start_equal_to_home :
    (createRoute (some Example.homeRecord) { path := some ['/'] } none {}).matched.length = 1 ∧
      START.matched.length = 0 ∧
      isSameRoute { id := 0, route := START }
        { id := 1, route := createRoute (some Example.homeRecord)
            { path := some ['/'] } none {} } = true := by
  decide

/-- Witness of C25: the route of the location `/a` and the route of the
location `/`. -/
theorem isSameRoute_start_witness :
    isSameRoute { id := 1, route := createRoute none { path := some "/a".toList } none {} }
        { id := 0, route := START } = false ∧
      (isSameRoute { id := 0, route := START }
          { id := 2, route := createRoute none { path := some ['/'] } none {} } = true ↔
        (createRoute none { path := some ['/'] } none {}).path = ['/'] ∧
          (createRoute none { path := some ['/'] } none {}).hash = [] ∧
          (createRoute none { path := some ['/'] } none {}).query = []) :=
  isSameRoute_start
    { id := 1, route := createRoute none { path := some "/a".toList } none {} } 2 none
    { path := some ['/'] } none {} (by decide) (by decide)

/-! ## The rule of `isObjectEqual` -/

theorem atomEqual_iff (a b : Atom) :
    atomEqual a b = true ↔ (a = Atom.null ∧ b = Atom.null) ∨ a.toStr = b.toStr := by
  cases a <;> cases b <;> simp [atomEqual, Atom.isObject, Atom.toStr]

theorem zipWith_atomEqual_iff : ∀ xs ys : List Atom,
    (List.zipWith atomEqual xs ys).all id = true ↔
      ∀ (i : Nat) (a b : Atom), xs[i]? = some a → ys[i]? = some b →
        ((a = Atom.null ∧ b = Atom.null) ∨ a.toStr = b.toStr) := by
  intro xs
  induction xs with
  | nil =>
    intro ys
    simp only [List.zipWith_nil_left, List.all_nil, true_iff]
    intro i a b h
    simp at h
  | cons x xs ih =>
    intro ys
    cases ys with
    | nil =>
      simp only [List.zipWith_nil_right, List.all_nil, true_iff]
      intro i a b _ h
      simp at h
    | cons y ys =>
      simp only [List.zipWith_cons_cons, List.all_cons, id_eq, Bool.and_eq_true]
      rw [ih ys, atomEqual_iff]
      constructor
      · rintro ⟨h0, hrest⟩ i a b ha hb
        cases i with
        | zero =>
          simp only [List.getElem?_cons_zero, Option.some.injEq] at ha hb
          rw [← ha, ← hb]
          exact h0
        | succ i =>
          simp only [List.getElem?_cons_succ] at ha hb
          exact hrest i a b ha hb
      · intro h
        exact ⟨h 0 x y (by simp) (by simp), fun i a b ha hb => h (i + 1) a b (by simpa using ha)
          (by simpa using hb)⟩

theorem valueEqual_iff_agree (x : Value) (y : Option Value) :
    valueEqual (some x) y = true ↔ valuesAgree x (y.getD (Value.atom Atom.undef)) := by
  cases x with
  | atom a =>
    cases y with
    | none => cases a <;> simp [valueEqual, valuesAgree, Value.toStr, Atom.toStr]
    | some w =>
      cases w with
      | atom b =>
        cases a <;> cases b <;> simp [valueEqual, valuesAgree, Value.toStr, Atom.toStr]
      | arr ys => cases a <;> simp [valueEqual, valuesAgree, Value.toStr, Atom.toStr]
  | arr xs =>
    cases y with
    | none => simp [valueEqual, valuesAgree, Value.toStr, Atom.toStr]
    | some w =>
      cases w with
      | atom b => cases b <;> simp [valueEqual, valuesAgree, Value.toStr, Atom.toStr]
      | arr ys =>
        simp only [valueEqual, valuesAgree, Option.getD_some, Bool.and_eq_true, beq_iff_eq]
        rw [zipWith_atomEqual_iff]

/-- C26 (failing input and the rule that holds): `isObjectEqual(a, b)` is true
exactly when `a` and `b` have the same number of keys and, for every key of
`a`, the value of `a` agrees with what `b[key]` reads (`undefined` when `b` has
no such key).  When no value of `a` coerces to the string `undefined`, this is
the claim: the same set of keys, with values that agree.  For
`a = { x: 'undefined' }` and `b = { y: 'undefined' }` the sets of keys differ
and `isObjectEqual(a, b)` is true. -/
theorem isObjectEqual_spec (a b : Dict Value) (ha : PlainObject a)
    (hb : (b.map (fun kv => kv.1)).Nodup) :
    (isObjectEqual a b = true ↔ a.length = b.length ∧
        ∀ key x, Dict.get? a key = some x →
          valuesAgree x ((Dict.get? b key).getD (Value.atom Atom.undef))) ∧
      (isObjectEqual a b = true ↔
        (∀ key, key ∈ a.map (fun kv => kv.1) ↔ key ∈ b.map (fun kv => kv.1)) ∧
          ∀ key x y, Dict.get? a key = some x → Dict.get? b key = some y →
            valuesAgree x y) ∧
      (isObjectEqual [("x".toList, Value.atom (Atom.str "undefined".toList))]
          [("y".toList, Value.atom (Atom.str "undefined".toList))] = true ∧
        "x".toList ∉ [("y".toList, Value.atom (Atom.str "undefined".toList))].map
          (fun kv => kv.1)) := by
  have h1 : isObjectEqual a b = true ↔ a.length = b.length ∧
      ∀ key x, Dict.get? a key = some x →
        valuesAgree x ((Dict.get? b key).getD (Value.atom Atom.undef)) := by
    rw [isObjectEqual_iff]
    constructor
    · rintro ⟨hlen, hall⟩
      refine ⟨hlen, fun key x hx => ?_⟩
      have := hall key ((Dict.mem_keys_iff a key).mpr ⟨x, hx⟩)
      rw [hx] at this
      exact (valueEqual_iff_agree x _).mp this
    · rintro ⟨hlen, hall⟩
      refine ⟨hlen, fun key hkey => ?_⟩
      obtain ⟨x, hx⟩ := (Dict.mem_keys_iff a key).mp hkey
      rw [hx]
      exact (valueEqual_iff_agree x _).mpr (hall key x hx)
  refine ⟨h1, ?_, by decide, by decide⟩
  constructor
  · intro h
    have hsub := isObjectEqual_keys_subset a b ha.2 h
    obtain ⟨hlen, hall⟩ := h1.mp h
    have hback := keys_subset_symm _ _ ha.1 (by simpa using hlen) hsub
    refine ⟨fun key => ⟨fun hk => hsub hk, fun hk => hback hk⟩, fun key x y hx hy => ?_⟩
    have := hall key x hx
    rw [hy] at this
    exact this
  · rintro ⟨hkeys, hall⟩
    refine h1.mpr ⟨?_, fun key x hx => ?_⟩
    · have hperm : (a.map (fun kv => kv.1)).Perm (b.map (fun kv => kv.1)) :=
        (List.perm_ext_iff_of_nodup ha.1 hb).mpr hkeys
      simpa using hperm.length_eq
    · obtain ⟨y, hy⟩ := (Dict.mem_keys_iff b key).mp
        ((hkeys key).mp ((Dict.mem_keys_iff a key).mpr ⟨x, hx⟩))
      rw [hy]
      exact hall key x y hx hy

/-- Witness of C26: the objects `{ x: '1', y: null }` and `{ y: null, x: '1' }`. -/
theorem isObjectEqual_spec_witness :
    isObjectEqual [("x".toList, Value.atom (Atom.str "1".toList)),
                   ("y".toList, Value.atom Atom.null)]
        [("y".toList, Value.atom Atom.null),
         ("x".toList, Value.atom (Atom.str "1".toList))] = true ↔
      (∀ key, key ∈ [("x".toList, Value.atom (Atom.str "1".toList)),
                     ("y".toList, Value.atom Atom.null)].map (fun kv => kv.1) ↔
          key ∈ [("y".toList, Value.atom Atom.null),
                 ("x".toList, Value.atom (Atom.str "1".toList))].map (fun kv => kv.1)) ∧
        ∀ key x y,
          Dict.get? [("x".toList, Value.atom (Atom.str "1".toList)),
                     ("y".toList, Value.atom Atom.null)] key = some x →
          Dict.get? [("y".toList, Value.atom Atom.null),
                     ("x".toList, Value.atom (Atom.str "1".toList))] key = some y →
            valuesAgree x y :=
  (isObjectEqual_spec _ _ ⟨by decide, by decide⟩ (by decide)).2.1

/-! ## Route inclusion (`isIncludedRoute`) -/

theorem replaceTrailingSlash_eq (path : Str) :
    replaceTrailingSlash path = withTrailingSlash path := by
  unfold replaceTrailingSlash withTrailingSlash
  by_cases h : path.getLast? = some '/'
  · obtain ⟨q, hq⟩ := List.getLast?_eq_some_iff.mp h
    rw [if_pos (by simpa using h), if_pos h, hq, List.dropLast_concat]
  · rw [if_neg (by simpa using h), if_neg h]

theorem indexOf_zero_iff : ∀ s x : Str, indexOf s x = some 0 ↔ x <+: s := by
  intro s x
  cases s with
  | nil =>
    unfold indexOf
    cases x with
    | nil => simp
    | cons c x => simp
  | cons c s =>
    unfold indexOf
    by_cases h : x.isPrefixOf (c :: s) = true
    · rw [if_pos h]
      exact ⟨fun _ => List.isPrefixOf_iff_prefix.mp h, fun _ => rfl⟩
    · rw [if_neg h]
      constructor
      · intro h2
        cases hi : indexOf s x with
        | none => rw [hi] at h2; cases h2
        | some i => rw [hi] at h2; simp at h2
      · intro h2
        exact absurd (List.isPrefixOf_iff_prefix.mpr h2) h

theorem queryIncludes_iff (current target : Query) :
    queryIncludes current target = true ↔
      ∀ key ∈ target.map (fun kv => kv.1),
        key ∈ current.map (fun kv => kv.1) ∨ isProtoName key = true := by
  unfold queryIncludes Dict.hasIn Dict.has
  simp only [List.all_eq_true, List.any_eq_true, beq_iff_eq, List.mem_map, Bool.or_eq_true]
  constructor
  · rintro h key ⟨kv, hkv, rfl⟩
    rcases h kv hkv with ⟨kv2, hkv2, he⟩ | hp
    · exact Or.inl ⟨kv2, hkv2, he⟩
    · exact Or.inr hp
  · intro h kv hkv
    rcases h kv.1 ⟨kv, hkv, rfl⟩ with ⟨kv2, hkv2, he⟩ | hp
    · exact Or.inl ⟨kv2, hkv2, he⟩
    · exact Or.inr hp

/-- C27, amended: `isIncludedRoute(current, target)` is true exactly when the
path of `current`, with one `/` appended unless it ends with `/` (a path that
ends with several keeps them), starts with the path of `target` treated the
same way, the hash of `target` is empty or equal to the hash of `current`, and
every key of the query of `target` is a key of the query of `current` or the
name of a member of `Object.prototype`, which `key in current` finds on every
object. -/
theorem isIncludedRoute_iff (current target : Route) :
    isIncludedRoute current target = true ↔
      withTrailingSlash target.path <+: withTrailingSlash current.path ∧
        (target.hash = [] ∨ current.hash = target.hash) ∧
        ∀ key ∈ target.query.map (fun kv => kv.1),
          key ∈ current.query.map (fun kv => kv.1) ∨ isProtoName key = true := by
  unfold isIncludedRoute
  simp only [Bool.and_eq_true, Bool.or_eq_true, beq_iff_eq, List.isEmpty_iff]
  rw [indexOf_zero_iff, queryIncludes_iff, replaceTrailingSlash_eq, replaceTrailingSlash_eq]
  exact and_assoc

/-- C27, as stated, fails in two ways.  The target `/a?toString=1` is included
in the current route `/a`, whose query has no key: `'toString' in {}` is true.
And the target path `/a//` is not included in the current path `/a/`, although
both paths normalised to exactly one trailing slash are `/a/`: the regex
replaces one trailing slash only. -/
theorem included_by_inherited_key :
    isIncludedRoute (createRoute none { path := some "/a".toList } none {})
        (createRoute none
          { path := some "/a".toList,
            query := some [("toString".toList, Value.atom (Atom.str "1".toList))] } none {}) =
        true ∧
      (createRoute none { path := some "/a".toList } none {}).query = [] ∧
      isIncludedRoute (createRoute none { path := some "/a/".toList } none {})
        (createRoute none { path := some "/a//".toList } none {}) = false ∧
      oneTrailingSlash "/a//".toList = oneTrailingSlash "/a/".toList := by
  decide

/-! ## The path of a normalised location -/

theorem head?_takeWhile (p : Char → Bool) (l : Str) (c : Char)
    (h : (l.takeWhile p).head? = some c) : p c = true := by
  cases l with
  | nil => simp at h
  | cons a t =>
    rw [List.takeWhile_cons] at h
    split at h
    · rename_i ha
      simp only [List.head?_cons, Option.some.injEq] at h
      rw [← h]
      exact ha
    · simp at h

theorem parsePath_head (s : Str) :
    (parsePath s).path.head? ≠ some '?' ∧ (parsePath s).path.head? ≠ some '#' := by
  unfold parsePath
  simp only
  constructor
  · intro h
    have := head?_takeWhile _ _ _ h
    simp at this
  · intro h
    cases hl : (List.takeWhile (fun c => c != '#') s) with
    | nil => rw [hl] at h; simp at h
    | cons a t =>
      rw [hl] at h
      rw [List.takeWhile_cons] at h
      split at h
      · simp only [List.head?_cons, Option.some.injEq] at h
        have h2 : (List.takeWhile (fun c => c != '#') s).head? = some '#' := by
          rw [hl, h]
          rfl
        have := head?_takeWhile _ _ _ h2
        simp at this
      · simp at h

theorem joinWith_head (tl : List Str) :
    joinWith ['/'] ([] :: tl) = [] ∨ (joinWith ['/'] ([] :: tl)).head? = some '/' := by
  cases tl with
  | nil => exact Or.inl rfl
  | cons b tl => exact Or.inr rfl

theorem joinWith_leading (stack : List Str) :
    joinWith ['/'] (if stack.head? != some [] then [] :: stack else stack) = [] ∨
      (joinWith ['/'] (if stack.head? != some [] then [] :: stack else stack)).head? =
        some '/' := by
  by_cases h : (stack.head? != some []) = true
  · rw [if_pos h]
    exact joinWith_head stack
  · rw [if_neg h]
    cases stack with
    | nil => simp at h
    | cons a tl =>
      have ha : a = [] := by simpa using h
      rw [ha]
      exact joinWith_head tl

/-- What `resolvePath` returns for a relative path that does not start with
`?` or `#` is empty or starts with `/`. -/
theorem resolvePath_shape (relative base : Str) (append : Bool)
    (hq : relative.head? ≠ some '?') (hh : relative.head? ≠ some '#') :
    resolvePath relative base append = [] ∨
      (resolvePath relative base append).head? = some '/' := by
  unfold resolvePath
  split
  · rename_i h
    exact Or.inr h
  · rename_i h
    exact absurd h hq
  · rename_i h
    exact absurd h hh
  · exact joinWith_leading _

/-- The path of the location `normalizeLocation` builds from a location that
has no name and does not ask for relative params. -/
theorem normalizeLocation_path (next : Location) (cur : Route)
    (append : Bool) (router : Router)
    (hnorm : next.normalized = false) (hname : truthy next.name = false)
    (hmain : truthy next.path = true ∨ next.params = none) :
    (normalizeLocation (RawLocation.obj next) (some cur) append router).path =
      some (if !(parsePath (next.path.getD [])).path.isEmpty then
          resolvePath (parsePath (next.path.getD [])).path
            (if cur.path.isEmpty then ['/'] else cur.path) (append || next.append)
        else (if cur.path.isEmpty then ['/'] else cur.path)) := by
  unfold normalizeLocation
  simp only [hnorm, hname, Bool.false_eq_true, if_false]
  rcases hmain with h | h
  · rw [h]
  · rw [h]
    cases truthy next.path <;> rfl

theorem normalizeLocation_str (s : Str) (cur : Option Route) (append : Bool)
    (router : Router) :
    normalizeLocation (RawLocation.str s) cur append router =
      normalizeLocation (RawLocation.obj { path := some s }) cur append router := rfl

/-- C21 (failing input and the rule that holds): for every raw location that
is a string, or an object with a path and without a name and the marker
`_normalized`, and every current route whose path begins with `/`, the path of
the location `normalizeLocation` returns is empty or begins with `/`.  It is
empty for the relative path `..` at the route `/a/b`, while the relative path
`../` gives `/` there. -/
theorem normalizeLocation_path_shape (raw : RawLocation) (cur : Route) (append : Bool)
    (router : Router)
    (hraw : (∃ s, raw = RawLocation.str s) ∨
      ∃ l, raw = RawLocation.obj l ∧ l.normalized = false ∧ truthy l.name = false ∧
        truthy l.path = true)
    (hcur : cur.path.head? = some '/') :
    (∃ p, (normalizeLocation raw (some cur) append router).path = some p ∧
        (p = [] ∨ p.head? = some '/')) ∧
      (Example.atAB.path = "/a/b".toList ∧
        (normalizeLocation (RawLocation.str "..".toList) (some Example.atAB) false {}).path =
          some [] ∧
        (normalizeLocation (RawLocation.str "../".toList) (some Example.atAB) false {}).path =
          some ['/']) := by
  refine ⟨?_, by decide, by decide, by decide⟩
  have hbase : (if cur.path.isEmpty then ['/'] else cur.path).head? = some '/' := by
    split
    · rfl
    · exact hcur
  have hshape : ∀ next : Location,
      ((if !(parsePath (next.path.getD [])).path.isEmpty then
          resolvePath (parsePath (next.path.getD [])).path
            (if cur.path.isEmpty then ['/'] else cur.path) (append || next.append)
        else (if cur.path.isEmpty then ['/'] else cur.path)) = [] ∨
      (if !(parsePath (next.path.getD [])).path.isEmpty then
          resolvePath (parsePath (next.path.getD [])).path
            (if cur.path.isEmpty then ['/'] else cur.path) (append || next.append)
        else (if cur.path.isEmpty then ['/'] else cur.path)).head? = some '/') := by
    intro next
    split
    · exact resolvePath_shape _ _ _ (parsePath_head _).1 (parsePath_head _).2
    · exact Or.inr hbase
  rcases hraw with ⟨s, rfl⟩ | ⟨l, rfl, hn, hname, hpath⟩
  · rw [normalizeLocation_str]
    exact ⟨_, normalizeLocation_path { path := some s } cur append router rfl rfl
      (Or.inr rfl), hshape _⟩
  · exact ⟨_, normalizeLocation_path l cur append router hn hname (Or.inl hpath),
      hshape _⟩

/-- Witness of C21: the relative path `c` at the route `/a/b`. -/
theorem normalizeLocation_path_shape_witness :
    ∃ p, (normalizeLocation (RawLocation.str "c".toList) (some Example.atAB) false {}).path =
        some p ∧ (p = [] ∨ p.head? = some '/') :=
  (normalizeLocation_path_shape (RawLocation.str "c".toList) Example.atAB false {}
    (Or.inl ⟨_, rfl⟩) (by decide)).1

/-! ## Parsing a query string -/

theorem splitOn_ne_nil (sep : Char) : ∀ s : Str, splitOn sep s ≠ [] := by
  intro s
  cases s with
  | nil => simp [splitOn]
  | cons c rest =>
    rw [splitOn]
    split
    · simp
    · split <;> simp

theorem joinWith_cons_cons (sep a b : Str) (rest : List Str) :
    joinWith sep (a :: b :: rest) = a ++ sep ++ joinWith sep (b :: rest) := rfl

/-- Joining what `split` returns gives the string back. -/
theorem joinWith_splitOn (sep : Char) : ∀ s : Str, joinWith [sep] (splitOn sep s) = s := by
  intro s
  induction s with
  | nil => rfl
  | cons c rest ih =>
    rw [splitOn]
    cases hs : splitOn sep rest with
    | nil => exact absurd hs (splitOn_ne_nil sep rest)
    | cons seg segs =>
      rw [hs] at ih
      simp only
      by_cases hc : c = sep
      · subst hc
        simp only [beq_self_eq_true, if_true]
        rw [joinWith_cons_cons, ih]
        rfl
      · have hc2 : (c == sep) = false := by simpa using hc
        simp only [hc2, Bool.false_eq_true, if_false]
        cases segs with
        | nil =>
          have : joinWith [sep] [seg] = seg := rfl
          rw [this] at ih
          rw [ih]
          rfl
        | cons b bs =>
          rw [joinWith_cons_cons] at ih ⊢
          rw [← ih]
          simp

/-- The array `split('=')` returns: the text before the first `=`, followed by
pieces that join to the text after it. -/
theorem splitOn_eq_form : ∀ p : Str, ∃ vs,
    splitOn '=' p = p.takeWhile (fun c => c != '=') :: vs ∧
      (0 < vs.length ↔ '=' ∈ p) ∧
      ('=' ∈ p → joinWith ['='] vs = (p.dropWhile (fun c => c != '=')).drop 1) := by
  intro p
  induction p with
  | nil => exact ⟨[], rfl, by simp, by simp⟩
  | cons c rest ih =>
    obtain ⟨vs, hsplit, hlen, hjoin⟩ := ih
    by_cases hc : c = '='
    · subst hc
      refine ⟨splitOn '=' rest, ?_, ?_, ?_⟩
      · rw [splitOn, hsplit]
        simp [hsplit]
      · have := splitOn_ne_nil '=' rest
        simp [List.length_pos, this]
      · intro _
        rw [joinWith_splitOn]
        simp
    · have hc2 : (c == '=') = false := by simpa using hc
      have hc3 : (c != '=') = true := by simpa using hc
      refine ⟨vs, ?_, ?_, ?_⟩
      · rw [splitOn, hsplit]
        simp [hc2, List.takeWhile_cons, hc3]
      · rw [hlen]
        constructor
        · exact fun h => List.mem_cons_of_mem _ h
        · intro h
          rcases List.mem_cons.mp h with h | h
          · exact absurd h.symm hc
          · exact h
      · intro hmem
        have hmem2 : '=' ∈ rest := by
          rcases List.mem_cons.mp hmem with h | h
          · exact absurd h.symm hc
          · exact h
        rw [hjoin hmem2]
        simp [List.dropWhile_cons, hc3]

theorem proto_name_ne (key : Str) (h : isProtoName key = false) :
    (key == "__proto__".toList) = false := by
  cases hk : key == "__proto__".toList with
  | false => rfl
  | true =>
    have : key = "__proto__".toList := by simpa using hk
    rw [this] at h
    exact absurd h (by decide)

theorem readMember_own (res : Query) (key : Str) (h : isProtoName key = false) :
    readMember res key = Dict.get? res key := by
  unfold readMember
  cases Dict.get? res key with
  | none => simp [h]
  | some v => rfl

theorem addQueryPair_eq (res : Query) (key : Str) (v : Atom) :
    (if (key == "__proto__".toList) = true then (Except.ok res : Js Query)
      else
        match readMember res key with
        | none => (Except.ok (Dict.set res key (Value.atom v)) : Js Query)
        | some (Value.atom .undef) => .ok (Dict.set res key (Value.atom v))
        | some (Value.arr xs) => .ok (Dict.set res key (Value.arr (xs ++ [v])))
        | some (Value.atom a) => .ok (Dict.set res key (Value.arr [a, v]))) =
      .ok (addQueryPair res (key, v)) := by
  unfold addQueryPair
  simp only
  split
  · rfl
  · cases readMember res key with
    | none => rfl
    | some val =>
      cases val with
      | atom a => cases a <;> rfl
      | arr xs => rfl

/-- The body of the `forEach` of `parseQuery`: it decodes the part and stores
the pair, or throws when an escape is malformed. -/
theorem parseQueryParam_eq (res : Query) (param : Str) :
    parseQueryParam res param =
      match decodePart param with
      | none => .error JsError.uriError
      | some kv => .ok (addQueryPair res kv) := by
  obtain ⟨vs, hsplit, hlen, hjoin⟩ :=
    splitOn_eq_form (param.map (fun c => if c == '+' then ' ' else c))
  unfold parseQueryParam decodePart partKeyValue
  simp only [hsplit]
  unfold decode
  cases hk : decodeURIComponent
      (List.takeWhile (fun c => c != '=')
        (param.map (fun c => if c == '+' then ' ' else c))) with
  | none => rfl
  | some key =>
    simp only
    by_cases hmem : '=' ∈ param.map (fun c => if c == '+' then ' ' else c)
    · have hpos : 0 < vs.length := hlen.mpr hmem
      rw [if_pos hpos, if_pos hmem, hjoin hmem]
      simp only
      cases hv : decodeURIComponent
          (List.drop 1 (List.dropWhile (fun c => c != '=')
            (param.map (fun c => if c == '+' then ' ' else c)))) with
      | none => rfl
      | some val =>
        simp only [Except.map, Option.map_some']
        exact addQueryPair_eq res key (Atom.str val)
    · have hpos : ¬ 0 < vs.length := fun h => hmem (hlen.mp h)
      rw [if_neg hpos, if_neg hmem]
      simp only
      exact addQueryPair_eq res key Atom.null

theorem parseQueryParams_ok : ∀ (parts : List Str) (pairs : List (Str × Atom)) (res : Query),
    parts.map decodePart = pairs.map some →
      parseQueryParams parts res = .ok (pairs.foldl addQueryPair res) := by
  intro parts
  induction parts with
  | nil =>
    intro pairs res h
    cases pairs with
    | nil => rfl
    | cons kv pairs => simp at h
  | cons part parts ih =>
    intro pairs res h
    cases pairs with
    | nil => simp at h
    | cons kv pairs =>
      simp only [List.map_cons, List.cons.injEq] at h
      rw [parseQueryParams, parseQueryParam_eq, h.1]
      exact ih pairs _ h.2

theorem parseQueryParams_error : ∀ (parts : List Str) (res : Query),
    (∃ part ∈ parts, decodePart part = none) →
      parseQueryParams parts res = .error JsError.uriError := by
  intro parts
  induction parts with
  | nil =>
    intro res h
    obtain ⟨_, hmem, _⟩ := h
    cases hmem
  | cons part parts ih =>
    intro res h
    rw [parseQueryParams, parseQueryParam_eq]
    cases hd : decodePart part with
    | none => rfl
    | some kv =>
      simp only
      obtain ⟨p, hmem, hp⟩ := h
      rcases List.mem_cons.mp hmem with rfl | hmem
      · rw [hd] at hp
        cases hp
      · exact ih _ ⟨p, hmem, hp⟩

theorem parseQuery_eq (query : Str) :
    parseQuery query =
      if (queryBody query).isEmpty then .ok [] else
        parseQueryParams (splitOn '&' (queryBody query)) [] := by
  unfold parseQuery queryBody
  cases trim query <;> rfl

theorem decodePart_value (part : Str) (kv : Str × Atom) (h : decodePart part = some kv) :
    kv.2 ≠ Atom.undef := by
  unfold decodePart at h
  split at h
  · cases h
  · split at h
    · cases h
      exact fun hh => nomatch hh
    · cases hv : decodeURIComponent _ with
      | none => rw [hv] at h; cases h
      | some val =>
        rw [hv] at h
        cases h
        exact fun hh => nomatch hh

theorem queryValue_shape (pairs : List (Str × Atom)) (key : Str) :
    (queryValue pairs key = none ∧
        (pairs.filter (fun kv => kv.1 == key)).map (fun kv => kv.2) = []) ∨
      (∃ v, queryValue pairs key = some (Value.atom v) ∧
        (pairs.filter (fun kv => kv.1 == key)).map (fun kv => kv.2) = [v]) ∨
      (∃ v w vs, queryValue pairs key = some (Value.arr (v :: w :: vs)) ∧
        (pairs.filter (fun kv => kv.1 == key)).map (fun kv => kv.2) = v :: w :: vs) := by
  unfold queryValue
  cases h : (pairs.filter (fun kv => kv.1 == key)).map (fun kv => kv.2) with
  | nil => exact Or.inl ⟨rfl, rfl⟩
  | cons v rest =>
    cases rest with
    | nil => exact Or.inr (Or.inl ⟨v, rfl, rfl⟩)
    | cons w vs => exact Or.inr (Or.inr ⟨v, w, vs, rfl, rfl⟩)

theorem queryValue_append_ne (pairs : List (Str × Atom)) (kv : Str × Atom) (key : Str)
    (h : kv.1 ≠ key) : queryValue (pairs ++ [kv]) key = queryValue pairs key := by
  unfold queryValue
  have h1 : (kv.1 == key) = false := by simpa using h
  have h2 : [kv].filter (fun x => x.1 == key) = [] := by
    rw [List.filter_cons, h1]
    rfl
  rw [List.filter_append, h2, List.append_nil]

theorem queryValue_append_same (pairs : List (Str × Atom)) (kv : Str × Atom) :
    ((pairs ++ [kv]).filter (fun x => x.1 == kv.1)).map (fun x => x.2) =
      ((pairs.filter (fun x => x.1 == kv.1)).map (fun x => x.2)) ++ [kv.2] := by
  have h2 : [kv].filter (fun x => x.1 == kv.1) = [kv] := by
    rw [List.filter_cons, beq_self_eq_true, if_pos rfl]
    rfl
  rw [List.filter_append, h2, List.map_append]
  rfl

theorem addQueryPair_of_get (res : Query) (kv : Str × Atom) (hp : isProtoName kv.1 = false) :
    (Dict.get? res kv.1 = none → addQueryPair res kv = Dict.set res kv.1 (Value.atom kv.2)) ∧
      (∀ a, a ≠ Atom.undef → Dict.get? res kv.1 = some (Value.atom a) →
        addQueryPair res kv = Dict.set res kv.1 (Value.arr [a, kv.2])) ∧
      (∀ xs, Dict.get? res kv.1 = some (Value.arr xs) →
        addQueryPair res kv = Dict.set res kv.1 (Value.arr (xs ++ [kv.2]))) := by
  unfold addQueryPair
  rw [proto_name_ne kv.1 hp, readMember_own res kv.1 hp]
  simp only [Bool.false_eq_true, if_false]
  refine ⟨fun h => ?_, fun a ha h => ?_, fun xs h => ?_⟩
  · rw [h]
  · rw [h]
    cases a with
    | undef => exact absurd rfl ha
    | null => rfl
    | str t => rfl
  · rw [h]

theorem addQueryPair_other (res : Query) (kv : Str × Atom) (key : Str) (h : kv.1 ≠ key) :
    Dict.get? (addQueryPair res kv) key = Dict.get? res key := by
  unfold addQueryPair
  split
  · rfl
  · split <;> exact Dict.get?_set_ne _ _ _ _ h

/-- The query object after the decoded parts: every key holds what
`queryValue` says. -/
theorem foldl_addQueryPair (pairs : List (Str × Atom)) :
    (∀ kv ∈ pairs, kv.2 ≠ Atom.undef) → (∀ kv ∈ pairs, isProtoName kv.1 = false) →
    ∀ key, Dict.get? (pairs.foldl addQueryPair []) key = queryValue pairs key := by
  induction pairs using List.reverseRecOn with
  | nil =>
    intro _ _ key
    rfl
  | append_singleton pairs kv ih =>
    intro hval hown key
    have ih2 := ih (fun x hx => hval x (by simp [hx])) (fun x hx => hown x (by simp [hx]))
    rw [List.foldl_append]
    simp only [List.foldl_cons, List.foldl_nil]
    by_cases hk : kv.1 = key
    · subst hk
      have happ := queryValue_append_same pairs kv
      have hold := ih2 kv.1
      obtain ⟨hnone, hatom, harr⟩ :=
        addQueryPair_of_get (pairs.foldl addQueryPair []) kv (hown kv (by simp))
      rcases queryValue_shape pairs kv.1 with ⟨hq, hf⟩ | ⟨v, hq, hf⟩ | ⟨v, w, vs, hq, hf⟩
      · rw [hq] at hold
        rw [hnone hold, Dict.get?_set_same]
        unfold queryValue
        rw [happ, hf]
        rfl
      · rw [hq] at hold
        have hv : v ≠ Atom.undef := by
          have hmem : v ∈ (pairs.filter (fun x => x.1 == kv.1)).map (fun x => x.2) := by
            rw [hf]
            exact List.mem_singleton.mpr rfl
          obtain ⟨x, hx, hxv⟩ := List.mem_map.mp hmem
          rw [← hxv]
          exact hval x (List.mem_append_left _ (List.mem_filter.mp hx).1)
        rw [hatom v hv hold, Dict.get?_set_same]
        unfold queryValue
        rw [happ, hf]
        rfl
      · rw [hq] at hold
        rw [harr _ hold, Dict.get?_set_same]
        unfold queryValue
        rw [happ, hf]
        rfl
    · rw [queryValue_append_ne pairs kv key hk, ← ih2 key]
      exact addQueryPair_other _ kv key hk

/-- C22, amended: for every query string whose parts all percent-decode and
none of whose decoded keys names a member of `Object.prototype`, `parseQuery`
returns an object that holds, for every key, what the decoded parts say:
nothing for a key that does not occur, the decoded value for a key that occurs
once (`null` when its part has no `=`), and for a key that occurs several
times the array of its values in order of occurrence; a `+` of a key or of a
value is read as a space.  When a part has a malformed escape, `parseQuery`
throws a `URIError`.  A key that names a member of `Object.prototype` is read
as present: `toString=1` gives the array of the inherited function and `1`,
and the part `__proto__=1` stores nothing. -/
theorem parseQuery_spec (query : Str) :
    (∀ pairs : List (Str × Atom), (queryParts query).map decodePart = pairs.map some →
      (∀ kv ∈ pairs, isProtoName kv.1 = false) →
      ∃ res, parseQuery query = .ok res ∧
        ∀ key, Dict.get? res key = queryValue pairs key) ∧
      ((∃ part ∈ queryParts query, decodePart part = none) →
        parseQuery query = .error JsError.uriError) ∧
      parseQuery "toString=1".toList =
        .ok [("toString".toList,
          Value.arr [Atom.str "function toString() { [native code] }".toList,
            Atom.str "1".toList])] ∧
      parseQuery "__proto__=1".toList = .ok [] := by
  refine ⟨?_, ?_, rfl, rfl⟩
  · rw [parseQuery_eq]
    unfold queryParts
    intro pairs h hown
    have hval : ∀ kv ∈ pairs, kv.2 ≠ Atom.undef := by
      intro kv hkv
      have hmem : some kv ∈ pairs.map some := List.mem_map.mpr ⟨kv, hkv, rfl⟩
      rw [← h] at hmem
      obtain ⟨part, _, hpart⟩ := List.mem_map.mp hmem
      exact decodePart_value part kv hpart
    split at h
    · rename_i he
      rw [if_pos he]
      cases pairs with
      | nil => exact ⟨[], rfl, fun key => rfl⟩
      | cons kv pairs => simp at h
    · rename_i he
      rw [if_neg he, parseQueryParams_ok _ pairs [] h]
      exact ⟨_, rfl, foldl_addQueryPair pairs hval hown⟩
  · rw [parseQuery_eq]
    unfold queryParts
    intro h
    split at h
    · obtain ⟨_, hmem, _⟩ := h
      cases hmem
    · rename_i he
      rw [if_neg he]
      exact parseQueryParams_error _ [] h

/-- C22, as stated, fails for the query string `a=%`: the value is not a
percent-encoding, and `parseQuery` throws instead of mapping the key `a`. -/
theorem parseQuery_throws_on_malformed_escape :
    parseQuery "a=%".toList = .error JsError.uriError := rfl

/-- Witness of C22: the query string `?a=1&b&a=x+y&c=%2B`. -/
theorem parseQuery_spec_witness :
    ∃ res, parseQuery "?a=1&b&a=x+y&c=%2B".toList = .ok res ∧
      ∀ key, Dict.get? res key =
        queryValue [("a".toList, Atom.str "1".toList), ("b".toList, Atom.null),
          ("a".toList, Atom.str "x y".toList), ("c".toList, Atom.str "+".toList)] key :=
  (parseQuery_spec "?a=1&b&a=x+y&c=%2B".toList).1 _ (by decide) (by decide)

/-! ## The registry as a sequence of registrations -/

theorem registerRecord_nextUid (m : RouteMap) (r : RouteRecord) :
    (registerRecord m r).nextUid = m.nextUid := by
  unfold registerRecord
  simp only
  split
  · split <;> split <;> rfl
  · split <;> rfl

theorem registerRecord_withUid (m : RouteMap) (r : RouteRecord) (u : Nat) :
    registerRecord { m with nextUid := u } r = { registerRecord m r with nextUid := u } := by
  unfold registerRecord
  simp only
  split
  · split <;> split <;> rfl
  · split <;> rfl

theorem foldl_registerRecord_withUid (rs : List RouteRecord) :
    ∀ (m : RouteMap) (u : Nat),
      rs.foldl registerRecord { m with nextUid := u } =
        { rs.foldl registerRecord m with nextUid := u } := by
  induction rs with
  | nil => intro m u; rfl
  | cons r rs ih =>
    intro m u
    simp only [List.foldl_cons]
    rw [registerRecord_withUid, ih]

/-- Folding a step that registers the records `g` lists registers the lists
one after the other. -/
theorem foldl_registers {α : Type} (f : RouteMap → α → RouteMap)
    (g : Nat → α → List RouteRecord × Nat)
    (hfg : ∀ m x, f m x =
      { (g m.nextUid x).1.foldl registerRecord m with nextUid := (g m.nextUid x).2 }) :
    ∀ (xs : List α) (m : RouteMap) (pre : List RouteRecord) (u : Nat),
      xs.foldl f { pre.foldl registerRecord m with nextUid := u } =
        { (collectRecords g xs (pre, u)).1.foldl registerRecord m with
          nextUid := (collectRecords g xs (pre, u)).2 } := by
  intro xs
  induction xs with
  | nil => intro m pre u; rfl
  | cons x xs ih =>
    intro m pre u
    simp only [List.foldl_cons, collectRecords]
    rw [hfg]
    simp only
    rw [foldl_registerRecord_withUid, ← List.foldl_append]
    exact ih m (pre ++ (g u x).1) (g u x).2

/-- The tables `addRouteRecord` returns are those obtained by registering the
records of `registrations` in order. -/
theorem addRouteRecord_eq : ∀ (fuel : Nat) (m : RouteMap) (route : RouteConfig)
    (parent : Option RouteRecord) (matchAs : Option Str),
    addRouteRecord fuel m route parent matchAs =
      { (registrations fuel m.nextUid route parent matchAs).1.foldl registerRecord m with
        nextUid := (registrations fuel m.nextUid route parent matchAs).2 } := by
  intro fuel
  induction fuel with
  | zero => intro m route parent matchAs; rfl
  | succ fuel ih =>
    intro m route parent matchAs
    obtain ⟨opts, ch⟩ := route
    have hC := fun children => foldl_registers
      (fun acc child => addRouteRecord fuel acc child
        (some (makeRecord m.nextUid opts parent matchAs))
        (if truthy matchAs then
          some (cleanPath (matchAs.getD [] ++ ['/'] ++ child.options.path))
        else none))
      (fun u child => registrations fuel u child
        (some (makeRecord m.nextUid opts parent matchAs))
        (if truthy matchAs then
          some (cleanPath (matchAs.getD [] ++ ['/'] ++ child.options.path))
        else none))
      (fun m x => ih m x _ _) children m [] (m.nextUid + 1)
    have hA := fun aliases pre u => foldl_registers
      (fun acc aliasPath => addRouteRecord fuel acc (RouteConfig.mk { path := aliasPath } ch)
        parent (some (if (makeRecord m.nextUid opts parent matchAs).path.isEmpty then ['/']
          else (makeRecord m.nextUid opts parent matchAs).path)))
      (fun u aliasPath => registrations fuel u (RouteConfig.mk { path := aliasPath } ch)
        parent (some (if (makeRecord m.nextUid opts parent matchAs).path.isEmpty then ['/']
          else (makeRecord m.nextUid opts parent matchAs).path)))
      (fun m x => ih m _ _ _) aliases m pre u
    have e1 : (RouteConfig.mk opts ch).options = opts := rfl
    have e2 : (RouteConfig.mk opts ch).children = ch := rfl
    rw [addRouteRecord, registrations]
    simp only [e1, e2]
    cases ch with
    | none =>
      simp only
      cases ha : opts.aliases with
      | none =>
        simp only
        rw [List.foldl_append, registerRecord_withUid]
        rfl
      | some aliases =>
        simp only
        have h := hA aliases [] (m.nextUid + 1)
        simp only [List.foldl_nil] at h
        rw [h, registerRecord_withUid, List.foldl_append]
        rfl
    | some children =>
      simp only
      have h1 := hC children
      simp only [List.foldl_nil] at h1
      rw [h1]
      cases ha : opts.aliases with
      | none =>
        simp only
        rw [registerRecord_withUid, List.foldl_append]
        rfl
      | some aliases =>
        simp only
        rw [hA aliases _ _, registerRecord_withUid, List.foldl_append]
        rfl

/-- The tables before the post-pass of `createRouteMap` are those obtained by
registering the records of `registrationsOf` in order. -/
theorem addRouteRecords_eq (routes : List RouteConfig) (old : RouteMap) :
    ∃ u, addRouteRecords routes old =
      { (registrationsOf routes old.nextUid).foldl registerRecord old with nextUid := u } := by
  have h := foldl_registers
    (fun acc route => addRouteRecord (2 * RouteConfig.depthList routes + 1) acc route none none)
    (fun u route => registrations (2 * RouteConfig.depthList routes + 1) u route none none)
    (fun m x => addRouteRecord_eq _ m x none none) routes old [] old.nextUid
  exact ⟨_, h⟩

/-! ## The fuel of `addRouteRecord` is enough -/

theorem depth_le_depthList : ∀ (cs : List RouteConfig) (c : RouteConfig), c ∈ cs →
    RouteConfig.depth c ≤ RouteConfig.depthList cs := by
  intro cs
  induction cs with
  | nil => intro c h; cases h
  | cons d cs ih =>
    intro c h
    rw [RouteConfig.depthList]
    rcases List.mem_cons.mp h with rfl | h
    · exact Nat.le_max_left _ _
    · exact Nat.le_trans (ih c h) (Nat.le_max_right _ _)

theorem depth_pos (route : RouteConfig) : 1 ≤ RouteConfig.depth route := by
  obtain ⟨o, ch⟩ := route
  cases ch with
  | none => rw [RouteConfig.depth]
  | some cs => rw [RouteConfig.depth]; omega

theorem collectRecords_congr {α : Type} (g g1 : Nat → α → List RouteRecord × Nat) :
    ∀ (xs : List α) (start : List RouteRecord × Nat), (∀ u x, x ∈ xs → g u x = g1 u x) →
      collectRecords g xs start = collectRecords g1 xs start := by
  intro xs
  induction xs with
  | nil => intro start _; rfl
  | cons x xs ih =>
    intro start h
    unfold collectRecords at ih ⊢
    simp only [List.foldl_cons]
    rw [h start.2 x (List.mem_cons_self _ _)]
    exact ih _ (fun u y hy => h u y (List.mem_cons_of_mem _ hy))

/-- One level of `registrations` with one more unit of fuel, given that the
recursive calls do not change. -/
theorem registrations_succ_congr (fuel u : Nat) (opts : RouteOptions)
    (ch : Option (List RouteConfig)) (parent : Option RouteRecord) (matchAs : Option Str)
    (hch : ∀ children, ch = some children → ∀ (v : Nat) (child : RouteConfig),
      child ∈ children → ∀ (p : Option RouteRecord) (ma : Option Str),
        registrations (fuel + 1) v child p ma = registrations fuel v child p ma)
    (hal : ∀ aliases, opts.aliases = some aliases → ∀ (v : Nat) (a : Str)
      (p : Option RouteRecord) (ma : Option Str),
        registrations (fuel + 1) v (RouteConfig.mk { path := a } ch) p ma =
          registrations fuel v (RouteConfig.mk { path := a } ch) p ma) :
    registrations (fuel + 2) u (RouteConfig.mk opts ch) parent matchAs =
      registrations (fuel + 1) u (RouteConfig.mk opts ch) parent matchAs := by
  have e1 : (RouteConfig.mk opts ch).options = opts := rfl
  have e2 : (RouteConfig.mk opts ch).children = ch := rfl
  rw [registrations, registrations]
  simp only [e1, e2]
  generalize hA : opts.aliases = al at hal ⊢
  cases ch with
  | none =>
    cases al with
    | none => rfl
    | some aliases =>
      simp only
      rw [collectRecords_congr _ _ aliases _ (fun v a _ => hal aliases rfl v a _ _)]
  | some children =>
    simp only
    rw [collectRecords_congr _ _ children ([], u + 1)
      (fun v child hmem => hch children rfl v child hmem _ _)]
    cases al with
    | none => rfl
    | some aliases =>
      simp only
      rw [collectRecords_congr _ _ aliases _ (fun v a _ => hal aliases rfl v a _ _)]

/-- One more unit of fuel changes nothing once the fuel is twice the depth of
the configuration (one less for a configuration without aliases). -/
theorem registrations_stable : ∀ (fuel : Nat) (u : Nat) (route : RouteConfig)
    (parent : Option RouteRecord) (matchAs : Option Str),
    (2 * RouteConfig.depth route ≤ fuel ∨
      (route.options.aliases = none ∧ 2 * RouteConfig.depth route ≤ fuel + 1)) →
    registrations (fuel + 1) u route parent matchAs =
      registrations fuel u route parent matchAs := by
  intro fuel
  induction fuel with
  | zero =>
    intro u route parent matchAs h
    have := depth_pos route
    omega
  | succ fuel ih =>
    intro u route parent matchAs h
    obtain ⟨opts, ch⟩ := route
    have e1 : (RouteConfig.mk opts ch).options = opts := rfl
    rw [e1] at h
    have hd : 2 * RouteConfig.depth (RouteConfig.mk opts ch) ≤ fuel + 2 := by omega
    apply registrations_succ_congr
    · intro children hc v child hmem p ma
      apply ih
      left
      have h1 := depth_le_depthList children child hmem
      rw [hc, RouteConfig.depth] at hd
      omega
    · intro aliases hne v a p ma
      apply ih
      right
      refine ⟨rfl, ?_⟩
      have hd2 : 2 * RouteConfig.depth (RouteConfig.mk opts ch) ≤ fuel + 1 := by
        rcases h with h | h
        · exact h
        · rw [hne] at h
          exact absurd h.1 (fun hh => nomatch hh)
      have : RouteConfig.depth (RouteConfig.mk { path := a } ch) =
          RouteConfig.depth (RouteConfig.mk opts ch) := by
        cases ch <;> simp only [RouteConfig.depth]
      omega

theorem registrations_more_fuel (fuel : Nat) (u : Nat) (route : RouteConfig)
    (parent : Option RouteRecord) (matchAs : Option Str)
    (h : 2 * RouteConfig.depth route ≤ fuel) :
    ∀ k, registrations (fuel + k) u route parent matchAs =
      registrations fuel u route parent matchAs := by
  intro k
  induction k with
  | zero => rfl
  | succ k ih =>
    rw [← Nat.add_assoc, registrations_stable (fuel + k) u route parent matchAs
      (Or.inl (by omega)), ih]

/-- The records `createRouteMap` registers do not depend on the fuel: with
any larger fuel `addRouteRecord` registers the same records. -/
theorem registrationsOf_fuel (routes : List RouteConfig) (uid k : Nat) :
    (collectRecords (fun u route =>
        registrations (2 * RouteConfig.depthList routes + 1 + k) u route none none)
        routes ([], uid)).1 = registrationsOf routes uid := by
  unfold registrationsOf
  rw [collectRecords_congr _ _ routes _ (fun u route hmem =>
    registrations_more_fuel (2 * RouteConfig.depthList routes + 1) u route none none
      (by have := depth_le_depthList routes route hmem; omega) k)]

/-! ## One registration -/

theorem registerRecord_pathMap (m : RouteMap) (r : RouteRecord) :
    (registerRecord m r).pathMap =
      if (Dict.get? m.pathMap r.path).isNone then Dict.set m.pathMap r.path r
      else m.pathMap := by
  unfold registerRecord
  simp only
  split
  · split <;> split <;> rfl
  · split <;> rfl

theorem registerRecord_pathList (m : RouteMap) (r : RouteRecord) :
    (registerRecord m r).pathList =
      if (Dict.get? m.pathMap r.path).isNone then m.pathList ++ [r.path] else m.pathList := by
  unfold registerRecord
  simp only
  split
  · split <;> split <;> rfl
  · split <;> rfl

theorem registerRecord_nameMap (m : RouteMap) (r : RouteRecord) :
    (registerRecord m r).nameMap =
      match r.name with
      | some name =>
        if !name.isEmpty && (Dict.get? m.nameMap name).isNone then Dict.set m.nameMap name r
        else m.nameMap
      | none => m.nameMap := by
  unfold registerRecord
  cases hn : r.name with
  | none =>
    simp only
    split <;> rfl
  | some name =>
    simp only
    by_cases h1 : (Dict.get? m.pathMap r.path).isNone = true
    · by_cases h2 : (!name.isEmpty && (Dict.get? m.nameMap name).isNone) = true
      · simp only [h1, h2, if_true]
      · simp only [h1, h2, if_true, if_false, Bool.false_eq_true]
    · by_cases h2 : (!name.isEmpty && (Dict.get? m.nameMap name).isNone) = true
      · simp only [h1, h2, if_true, if_false, Bool.false_eq_true]
      · simp only [h1, h2, if_false, Bool.false_eq_true]

theorem registerRecord_pathMap_frame (m : RouteMap) (r : RouteRecord) (p : Str)
    (x : RouteRecord) (h : Dict.get? m.pathMap p = some x) :
    Dict.get? (registerRecord m r).pathMap p = some x := by
  rw [registerRecord_pathMap]
  split
  · rename_i hn
    have hne : r.path ≠ p := by
      intro e
      rw [e, h] at hn
      cases hn
    rw [Dict.get?_set_ne _ _ _ _ hne]
    exact h
  · exact h

theorem registerRecord_nameMap_frame (m : RouteMap) (r : RouteRecord) (n : Str)
    (x : RouteRecord) (h : Dict.get? m.nameMap n = some x) :
    Dict.get? (registerRecord m r).nameMap n = some x := by
  rw [registerRecord_nameMap]
  split
  · rename_i name _
    split
    · rename_i hn
      have hne : name ≠ n := by
        intro e
        rw [e, h] at hn
        simp at hn
      rw [Dict.get?_set_ne _ _ _ _ hne]
      exact h
    · exact h
  · exact h

theorem registerRecord_pathList_extends (m : RouteMap) (r : RouteRecord) :
    ∃ added, (registerRecord m r).pathList = m.pathList ++ added := by
  rw [registerRecord_pathList]
  split
  · exact ⟨_, rfl⟩
  · exact ⟨[], (List.append_nil _).symm⟩

theorem foldl_registerRecord_frame (rs : List RouteRecord) :
    ∀ m : RouteMap,
      (∀ p x, Dict.get? m.pathMap p = some x →
        Dict.get? (rs.foldl registerRecord m).pathMap p = some x) ∧
      (∀ n x, Dict.get? m.nameMap n = some x →
        Dict.get? (rs.foldl registerRecord m).nameMap n = some x) ∧
      ∃ added, (rs.foldl registerRecord m).pathList = m.pathList ++ added := by
  induction rs with
  | nil => intro m; exact ⟨fun _ _ h => h, fun _ _ h => h, [], (List.append_nil _).symm⟩
  | cons r rs ih =>
    intro m
    obtain ⟨h1, h2, added, h3⟩ := ih (registerRecord m r)
    obtain ⟨added0, h0⟩ := registerRecord_pathList_extends m r
    refine ⟨fun p x h => h1 p x (registerRecord_pathMap_frame m r p x h),
      fun n x h => h2 n x (registerRecord_nameMap_frame m r n x h), added0 ++ added, ?_⟩
    simp only [List.foldl_cons]
    rw [h3, h0, List.append_assoc]

/-! ## Alignment of the tables -/

theorem registerRecord_aligned (m : RouteMap) (r : RouteRecord) (h : TablesAligned m) :
    TablesAligned (registerRecord m r) := by
  obtain ⟨hnd, hmem, hrec⟩ := h
  unfold TablesAligned
  rw [registerRecord_pathList, registerRecord_pathMap]
  by_cases hn : (Dict.get? m.pathMap r.path).isNone = true
  · rw [if_pos hn, if_pos hn]
    have hnone : Dict.get? m.pathMap r.path = none := Option.isNone_iff_eq_none.mp hn
    have hnot : r.path ∉ m.pathList := by
      intro hin
      have := (hmem r.path).mp hin
      rw [hnone] at this
      cases this
    refine ⟨?_, ?_, ?_⟩
    · rw [List.nodup_append]
      refine ⟨hnd, List.nodup_singleton _, ?_⟩
      intro a ha hb
      rw [List.mem_singleton] at hb
      rw [hb] at ha
      exact hnot ha
    · intro p
      by_cases hp : r.path = p
      · subst hp
        rw [Dict.get?_set_same]
        simp
      · rw [Dict.get?_set_ne _ _ _ _ hp, ← hmem p]
        simp only [List.mem_append, List.mem_singleton]
        constructor
        · rintro (h1 | h1)
          · exact h1
          · exact absurd h1.symm hp
        · exact Or.inl
    · intro p x hx
      by_cases hp : r.path = p
      · subst hp
        rw [Dict.get?_set_same] at hx
        cases hx
        rfl
      · rw [Dict.get?_set_ne _ _ _ _ hp] at hx
        exact hrec p x hx
  · rw [if_neg hn, if_neg hn]
    exact ⟨hnd, hmem, hrec⟩

theorem foldl_registerRecord_aligned (rs : List RouteRecord) :
    ∀ m : RouteMap, TablesAligned m → TablesAligned (rs.foldl registerRecord m) := by
  induction rs with
  | nil => intro m h; exact h
  | cons r rs ih => intro m h; exact ih _ (registerRecord_aligned m r h)

theorem tablesAligned_empty : TablesAligned RouteMap.empty :=
  ⟨List.nodup_nil, fun p => by simp [RouteMap.empty, Dict.get?_nil],
    fun p r h => by simp [RouteMap.empty, Dict.get?_nil] at h⟩

theorem filter_star_perm (l : List Str) :
    (l.filter (fun p => p != ['*']) ++ l.filter (fun p => p == ['*'])).Perm l := by
  have h := List.filter_append_perm (fun p => p != ['*']) l
  have e : (fun p : Str => !(p != ['*'])) = (fun p => p == ['*']) := by
    funext p
    simp [bne]
  simp only [e] at h
  exact h

/-- C28: the tables `createRouteMap` returns are aligned when it starts from
aligned tables, and when it starts from empty tables: `pathList` has no
duplicate entry, its entries are the keys of `pathMap`, and the record
`pathMap[p]` has the path `p`. -/
theorem createRouteMap_aligned (routes : List RouteConfig) (old : RouteMap)
    (h : TablesAligned old) :
    TablesAligned (createRouteMap routes old) ∧
      TablesAligned (createRouteMap routes RouteMap.empty) := by
  have key : ∀ old0 : RouteMap, TablesAligned old0 →
      TablesAligned (createRouteMap routes old0) := by
    intro old0 h0
    obtain ⟨u, hu⟩ := addRouteRecords_eq routes old0
    obtain ⟨hnd, hmem, hrec⟩ :=
      foldl_registerRecord_aligned (registrationsOf routes old0.nextUid) old0 h0
    have hlist := createRouteMap_pathList routes old0
    have hperm := filter_star_perm (addRouteRecords routes old0).pathList
    rw [← hlist] at hperm
    have hpl : (addRouteRecords routes old0).pathList =
        ((registrationsOf routes old0.nextUid).foldl registerRecord old0).pathList := by
      rw [hu]
    have hpm : (createRouteMap routes old0).pathMap =
        ((registrationsOf routes old0.nextUid).foldl registerRecord old0).pathMap := by
      unfold createRouteMap
      simp only
      rw [hu]
    rw [hpl] at hperm
    refine ⟨hperm.nodup_iff.mpr hnd, fun p => ?_, fun p r hr => ?_⟩
    · rw [hperm.mem_iff, hpm]
      exact hmem p
    · rw [hpm] at hr
      exact hrec p r hr
  exact ⟨key old h, key _ tablesAligned_empty⟩

/-! ## The first registration of a name wins -/

theorem registerRecord_nameMap_new (m : RouteMap) (r : RouteRecord) (name : Str)
    (hname : name ≠ []) (hold : Dict.get? m.nameMap name = none) :
    Dict.get? (registerRecord m r).nameMap name =
      if r.name = some name then some r else none := by
  rw [registerRecord_nameMap]
  cases hrn : r.name with
  | none =>
    simp only [hold]
    rw [if_neg (fun h => nomatch h)]
  | some other =>
    simp only
    by_cases hne : other = name
    · subst hne
      have he : other.isEmpty = false := by
        cases other with
        | nil => exact absurd rfl hname
        | cons c t => rfl
      simp only [he, hold, Bool.not_false, Option.isNone_none, Bool.and_self, if_true,
        Dict.get?_set_same]
    · rw [if_neg (fun h => hne (Option.some.inj h))]
      split
      · rw [Dict.get?_set_ne _ _ _ _ hne, hold]
      · exact hold

theorem foldl_registerRecord_nameMap (name : Str) (hname : name ≠ []) (rs : List RouteRecord) :
    ∀ m : RouteMap, Dict.get? (rs.foldl registerRecord m).nameMap name =
      match Dict.get? m.nameMap name with
      | some r => some r
      | none => rs.find? (fun r => r.name == some name) := by
  induction rs with
  | nil =>
    intro m
    simp only [List.foldl_nil, List.find?_nil]
    cases h : Dict.get? m.nameMap name <;> rfl
  | cons r rs ih =>
    intro m
    simp only [List.foldl_cons]
    rw [ih (registerRecord m r)]
    cases hold : Dict.get? m.nameMap name with
    | some x =>
      rw [registerRecord_nameMap_frame m r name x hold]
    | none =>
      rw [registerRecord_nameMap_new m r name hname hold, List.find?_cons]
      by_cases hr : r.name = some name
      · rw [if_pos hr]
        have hr2 : (r.name == some name) = true := by simpa using hr
        rw [hr2]
      · rw [if_neg hr]
        have hr2 : (r.name == some name) = false := by simpa using hr
        rw [hr2]

/-- C29: the tables of `createRouteMap` are those obtained by registering the
records of `registrationsOf` one after the other, and for every non-empty
name `nameMap` maps the name to the record the old `nameMap` had for it or,
when it had none, to the first record of that name in the order of the
registrations; registering a record whose name is taken leaves `nameMap` as it
is.  (A record is registered after the records of its children and aliases.) -/
theorem nameMap_first_wins (routes : List RouteConfig) (old : RouteMap) (name : Str)
    (hname : name ≠ []) :
    (createRouteMap routes old).nameMap =
        ((registrationsOf routes old.nextUid).foldl registerRecord old).nameMap ∧
      Dict.get? (createRouteMap routes old).nameMap name =
        (match Dict.get? old.nameMap name with
          | some r => some r
          | none => (registrationsOf routes old.nextUid).find? (fun r => r.name == some name)) ∧
      ∀ (m : RouteMap) (r : RouteRecord), r.name = some name →
        (Dict.get? m.nameMap name).isSome = true → (registerRecord m r).nameMap = m.nameMap := by
  obtain ⟨u, hu⟩ := addRouteRecords_eq routes old
  have hnm : (createRouteMap routes old).nameMap =
      ((registrationsOf routes old.nextUid).foldl registerRecord old).nameMap := by
    unfold createRouteMap
    simp only
    rw [hu]
  refine ⟨hnm, ?_, ?_⟩
  · rw [hnm]
    exact foldl_registerRecord_nameMap name hname _ old
  · intro m r hr hsome
    rw [registerRecord_nameMap, hr]
    simp only
    have : (Dict.get? m.nameMap name).isNone = false := by
      cases hg : Dict.get? m.nameMap name with
      | none => rw [hg] at hsome; cases hsome
      | some x => rfl
    rw [this]
    simp

/-! ## Extending the tables -/

/-- C30: extending tables is additive.  After `createRouteMap(routes, old)`
every key of the old `pathMap` and of the old `nameMap` maps to the record it
mapped to, every entry of the old `pathList` is an entry of the new one, the
new `pathList` is the old one followed by the added paths with the entries `*`
moved behind all the others, and the old entries other than `*` keep their
order. -/
theorem createRouteMap_additive (routes : List RouteConfig) (old : RouteMap) :
    (∀ p r, Dict.get? old.pathMap p = some r →
        Dict.get? (createRouteMap routes old).pathMap p = some r) ∧
      (∀ n r, Dict.get? old.nameMap n = some r →
        Dict.get? (createRouteMap routes old).nameMap n = some r) ∧
      (∀ p ∈ old.pathList, p ∈ (createRouteMap routes old).pathList) ∧
      (∃ added, (createRouteMap routes old).pathList =
        (old.pathList ++ added).filter (fun p => p != ['*']) ++
          (old.pathList ++ added).filter (fun p => p == ['*'])) ∧
      (old.pathList.filter (fun p => p != ['*'])).Sublist
        (createRouteMap routes old).pathList := by
  obtain ⟨u, hu⟩ := addRouteRecords_eq routes old
  obtain ⟨h1, h2, added, h3⟩ :=
    foldl_registerRecord_frame (registrationsOf routes old.nextUid) old
  have hpm : (createRouteMap routes old).pathMap =
      ((registrationsOf routes old.nextUid).foldl registerRecord old).pathMap := by
    unfold createRouteMap
    simp only
    rw [hu]
  have hnm : (createRouteMap routes old).nameMap =
      ((registrationsOf routes old.nextUid).foldl registerRecord old).nameMap := by
    unfold createRouteMap
    simp only
    rw [hu]
  have hpl : (addRouteRecords routes old).pathList = old.pathList ++ added := by
    rw [hu]
    exact h3
  have hlist := createRouteMap_pathList routes old
  rw [hpl] at hlist
  refine ⟨fun p r h => ?_, fun n r h => ?_, fun p hp => ?_, ⟨added, hlist⟩, ?_⟩
  · rw [hpm]
    exact h1 p r h
  · rw [hnm]
    exact h2 n r h
  · rw [hlist, (filter_star_perm _).mem_iff]
    exact List.mem_append_left _ hp
  · rw [hlist, List.filter_append, List.append_assoc]
    exact List.sublist_append_left _ _

/-- Witness of C29: three routes named `page`; the child `/a/b` is registered
first and `nameMap` maps `page` to its record. -/
theorem nameMap_first_wins_witness :
    (registrationsOf Example.samePageNames 0).map (fun r => r.path) =
        ["/a/b".toList, "/a".toList, "/c".toList] ∧
      (Dict.get? (createRouteMap Example.samePageNames RouteMap.empty).nameMap
          "page".toList).map (fun r => r.path) = some "/a/b".toList ∧
      Dict.get? (createRouteMap Example.samePageNames RouteMap.empty).nameMap "page".toList =
        (match Dict.get? RouteMap.empty.nameMap "page".toList with
          | some r => some r
          | none => (registrationsOf Example.samePageNames RouteMap.empty.nextUid).find?
              (fun r => r.name == some "page".toList)) :=
  ⟨by decide, by decide,
    (nameMap_first_wins Example.samePageNames RouteMap.empty "page".toList (by decide)).2.1⟩

/-- Witness of C28: the tables built from three routes, starting from empty
tables. -/
theorem createRouteMap_aligned_witness :
    TablesAligned (createRouteMap Example.samePageNames RouteMap.empty) :=
  (createRouteMap_aligned Example.samePageNames RouteMap.empty tablesAligned_empty).1

/-! ## The records of a configuration tree -/

theorem mem_segment {α : Type} (x : α) (pre mid post : List α) (h : x ∈ mid) :
    x ∈ pre ++ mid ++ post :=
  List.mem_append_left _ (List.mem_append_right _ h)

theorem collectRecords_nil {α : Type} (g : Nat → α → List RouteRecord × Nat)
    (start : List RouteRecord × Nat) : collectRecords g [] start = start := rfl

theorem collectRecords_cons {α : Type} (g : Nat → α → List RouteRecord × Nat) (x : α)
    (xs : List α) (start : List RouteRecord × Nat) :
    collectRecords g (x :: xs) start =
      collectRecords g xs (start.1 ++ (g start.2 x).1, (g start.2 x).2) := rfl

/-- The records collected over a list extend the records at the start. -/
theorem collectRecords_extends {α : Type} (g : Nat → α → List RouteRecord × Nat) :
    ∀ (xs : List α) (start : List RouteRecord × Nat),
      ∃ added, (collectRecords g xs start).1 = start.1 ++ added ∧
        (∀ r ∈ added, ∃ x ∈ xs, ∃ v, r ∈ (g v x).1) ∧
        (∀ x ∈ xs, ∃ v pre post, added = pre ++ (g v x).1 ++ post) ∧
        ∀ P : List RouteRecord → Prop, P [] → (∀ A B, P A → P B → P (A ++ B)) →
          (∀ x ∈ xs, ∀ v, P (g v x).1) → P added := by
  intro xs
  induction xs with
  | nil =>
    intro start
    exact ⟨[], by simp [collectRecords_nil], fun r h => (by cases h), fun x h => (by cases h),
      fun P h0 _ _ => h0⟩
  | cons x xs ih =>
    intro start
    obtain ⟨added, h1, h2, h3, h4⟩ := ih (start.1 ++ (g start.2 x).1, (g start.2 x).2)
    refine ⟨(g start.2 x).1 ++ added, ?_, ?_, ?_, ?_⟩
    · rw [collectRecords_cons, h1, List.append_assoc]
    · intro r hr
      rcases List.mem_append.mp hr with hr | hr
      · exact ⟨x, List.mem_cons_self _ _, start.2, hr⟩
      · obtain ⟨y, hy, v, hv⟩ := h2 r hr
        exact ⟨y, List.mem_cons_of_mem _ hy, v, hv⟩
    · intro y hy
      rcases List.mem_cons.mp hy with rfl | hy
      · exact ⟨start.2, [], added, by simp⟩
      · obtain ⟨v, pre, post, e⟩ := h3 y hy
        exact ⟨v, (g start.2 x).1 ++ pre, post, by rw [e]; simp⟩
    · intro P h0 happ hP
      exact happ _ _ (hP x (List.mem_cons_self _ _) start.2)
        (h4 P h0 happ (fun y hy v => hP y (List.mem_cons_of_mem _ hy) v))

theorem mem_collectRecords {α : Type} (g : Nat → α → List RouteRecord × Nat) (xs : List α)
    (start : List RouteRecord × Nat) (r : RouteRecord)
    (h : r ∈ (collectRecords g xs start).1) :
    r ∈ start.1 ∨ ∃ x ∈ xs, ∃ v, r ∈ (g v x).1 := by
  obtain ⟨added, h1, h2, _, _⟩ := collectRecords_extends g xs start
  rw [h1] at h
  rcases List.mem_append.mp h with h | h
  · exact Or.inl h
  · exact Or.inr (h2 r h)

theorem collectRecords_sub {α : Type} (g : Nat → α → List RouteRecord × Nat) (xs : List α)
    (start : List RouteRecord × Nat) (x : α) (hx : x ∈ xs) :
    ∃ v, ∀ r ∈ (g v x).1, r ∈ (collectRecords g xs start).1 := by
  obtain ⟨added, h1, _, h3, _⟩ := collectRecords_extends g xs start
  obtain ⟨v, pre, post, e⟩ := h3 x hx
  refine ⟨v, fun r hr => ?_⟩
  rw [h1, e]
  simp [hr]

theorem collectRecords_start_sub {α : Type} (g : Nat → α → List RouteRecord × Nat)
    (xs : List α) (start : List RouteRecord × Nat) (r : RouteRecord) (h : r ∈ start.1) :
    r ∈ (collectRecords g xs start).1 := by
  obtain ⟨added, h1, _, _, _⟩ := collectRecords_extends g xs start
  rw [h1]
  exact List.mem_append_left _ h

theorem makeRecord_path (uid : Nat) (route : RouteOptions) (parent : Option RouteRecord)
    (matchAs : Option Str) :
    (makeRecord uid route parent matchAs).path =
      normalizePath route.path parent (route.pathToRegexpOptions.getD {}).strict := rfl

theorem makeRecord_parent (uid : Nat) (route : RouteOptions) (parent : Option RouteRecord)
    (matchAs : Option Str) : (makeRecord uid route parent matchAs).parent = parent := rfl

theorem makeRecord_matchAs (uid : Nat) (route : RouteOptions) (parent : Option RouteRecord)
    (matchAs : Option Str) : (makeRecord uid route parent matchAs).matchAs = matchAs := rfl

theorem makeRecord_name (uid : Nat) (route : RouteOptions) (parent : Option RouteRecord)
    (matchAs : Option Str) : (makeRecord uid route parent matchAs).name = route.name := rfl

/-- The three parts of the records of a call of `addRouteRecord`: those of the
children, those of the aliases, and the record of the call. -/
theorem registrations_succ (fuel uid : Nat) (opts : RouteOptions)
    (ch : Option (List RouteConfig)) (parent : Option RouteRecord) (matchAs : Option Str) :
    ∃ (viaChildren viaAliases : List RouteRecord),
      (registrations (fuel + 1) uid (RouteConfig.mk opts ch) parent matchAs).1 =
        viaChildren ++ viaAliases ++ [makeRecord uid opts parent matchAs] ∧
      (∀ r ∈ viaChildren, ∃ children, ch = some children ∧ ∃ child ∈ children, ∃ v,
        r ∈ (registrations fuel v child (some (makeRecord uid opts parent matchAs))
          (if truthy matchAs then
            some (cleanPath (matchAs.getD [] ++ ['/'] ++ child.options.path))
          else none)).1) ∧
      (∀ children, ch = some children → ∀ child ∈ children, ∃ v pre post,
        viaChildren = pre ++
          (registrations fuel v child (some (makeRecord uid opts parent matchAs))
            (if truthy matchAs then
              some (cleanPath (matchAs.getD [] ++ ['/'] ++ child.options.path))
            else none)).1 ++ post) ∧
      (∀ r ∈ viaAliases, ∃ aliases, opts.aliases = some aliases ∧ ∃ a ∈ aliases, ∃ v,
        r ∈ (registrations fuel v (RouteConfig.mk { path := a } ch) parent
          (some (if (makeRecord uid opts parent matchAs).path.isEmpty then ['/']
            else (makeRecord uid opts parent matchAs).path))).1) ∧
      (∀ aliases, opts.aliases = some aliases → ∀ a ∈ aliases, ∃ v pre post,
        viaAliases = pre ++
          (registrations fuel v (RouteConfig.mk { path := a } ch) parent
            (some (if (makeRecord uid opts parent matchAs).path.isEmpty then ['/']
              else (makeRecord uid opts parent matchAs).path))).1 ++ post) ∧
      (∀ P : List RouteRecord → Prop, P [] → (∀ A B, P A → P B → P (A ++ B)) →
        (∀ children, ch = some children → ∀ child ∈ children, ∀ v,
          P (registrations fuel v child (some (makeRecord uid opts parent matchAs))
            (if truthy matchAs then
              some (cleanPath (matchAs.getD [] ++ ['/'] ++ child.options.path))
            else none)).1) → P viaChildren) := by
  have e1 : (RouteConfig.mk opts ch).options = opts := rfl
  have e2 : (RouteConfig.mk opts ch).children = ch := rfl
  rw [registrations]
  simp only [e1, e2]
  generalize hA : opts.aliases = al
  cases ch with
  | none =>
    cases al with
    | none =>
      refine ⟨[], [], rfl, fun r h => (by cases h), fun c h => (by cases h),
        fun r h => (by cases h), fun a h => (by cases h), fun P h0 _ _ => h0⟩
    | some aliases =>
      simp only
      obtain ⟨added, h1, h2, h3, _⟩ := collectRecords_extends
        (fun u aliasPath => registrations fuel u (RouteConfig.mk { path := aliasPath } none) parent
          (some (if (makeRecord uid opts parent matchAs).path.isEmpty then ['/']
            else (makeRecord uid opts parent matchAs).path))) aliases ([], uid + 1)
      refine ⟨[], added, ?_, fun r h => (by cases h), fun c h => (by cases h), ?_, ?_,
        fun P h0 _ _ => h0⟩
      · rw [h1]
      · intro r hr
        exact ⟨aliases, rfl, h2 r hr⟩
      · intro al1 hal a ha
        cases hal
        exact h3 a ha
  | some children =>
    simp only
    obtain ⟨viaC, c1, c2, c3, c4⟩ := collectRecords_extends
      (fun u child => registrations fuel u child (some (makeRecord uid opts parent matchAs))
        (if truthy matchAs then
          some (cleanPath (matchAs.getD [] ++ ['/'] ++ child.options.path))
        else none)) children ([], uid + 1)
    cases al with
    | none =>
      refine ⟨viaC, [], ?_, ?_, ?_, fun r h => (by cases h), fun a h => (by cases h), ?_⟩
      · simp only
        rw [c1]
        simp
      · intro r hr
        exact ⟨children, rfl, c2 r hr⟩
      · intro ch1 hch c hc
        cases hch
        exact c3 c hc
      · intro P h0 happ hP
        exact c4 P h0 happ (fun c hc v => hP children rfl c hc v)
    | some aliases =>
      simp only
      obtain ⟨added, h1, h2, h3, _⟩ := collectRecords_extends
        (fun u aliasPath => registrations fuel u
          (RouteConfig.mk { path := aliasPath } (some children)) parent
          (some (if (makeRecord uid opts parent matchAs).path.isEmpty then ['/']
            else (makeRecord uid opts parent matchAs).path))) aliases
        (collectRecords
          (fun u child => registrations fuel u child (some (makeRecord uid opts parent matchAs))
            (if truthy matchAs then
              some (cleanPath (matchAs.getD [] ++ ['/'] ++ child.options.path))
            else none)) children ([], uid + 1))
      refine ⟨viaC, added, ?_, ?_, ?_, ?_, ?_, ?_⟩
      · rw [h1, c1]
        simp
      · intro r hr
        exact ⟨children, rfl, c2 r hr⟩
      · intro ch1 hch c hc
        cases hch
        exact c3 c hc
      · intro r hr
        exact ⟨aliases, rfl, h2 r hr⟩
      · intro al1 hal a ha
        cases hal
        exact h3 a ha
      · intro P h0 happ hP
        exact c4 P h0 happ (fun c hc v => hP children rfl c hc v)

/-- The records of `registrationsOf` are those of the calls for the routes of
the list. -/
theorem registrationsOf_parts (routes : List RouteConfig) (uid : Nat) :
    (∀ r ∈ registrationsOf routes uid, ∃ route ∈ routes, ∃ v,
      r ∈ (registrations (2 * RouteConfig.depthList routes + 1) v route none none).1) ∧
      (∀ route ∈ routes, ∃ v pre post,
        registrationsOf routes uid = pre ++
          (registrations (2 * RouteConfig.depthList routes + 1) v route none none).1 ++ post) ∧
      ∀ P : List RouteRecord → Prop, P [] → (∀ A B, P A → P B → P (A ++ B)) →
        (∀ route ∈ routes, ∀ v,
          P (registrations (2 * RouteConfig.depthList routes + 1) v route none none).1) →
        P (registrationsOf routes uid) := by
  obtain ⟨added, h1, h2, h3, h4⟩ := collectRecords_extends
    (fun u route => registrations (2 * RouteConfig.depthList routes + 1) u route none none)
    routes ([], uid)
  have e : registrationsOf routes uid = added := by
    unfold registrationsOf
    rw [h1]
    rfl
  rw [e]
  exact ⟨h2, h3, h4⟩

/-- The records in the tables come from the old tables or are registered. -/
theorem foldl_registerRecord_sources (rs : List RouteRecord) :
    ∀ m : RouteMap,
      (∀ p x, Dict.get? (rs.foldl registerRecord m).pathMap p = some x →
        Dict.get? m.pathMap p = some x ∨ x ∈ rs) ∧
      (∀ n x, Dict.get? (rs.foldl registerRecord m).nameMap n = some x →
        Dict.get? m.nameMap n = some x ∨ x ∈ rs) := by
  induction rs with
  | nil => intro m; exact ⟨fun p x h => Or.inl h, fun n x h => Or.inl h⟩
  | cons r rs ih =>
    intro m
    obtain ⟨h1, h2⟩ := ih (registerRecord m r)
    simp only [List.foldl_cons]
    constructor
    · intro p x hx
      rcases h1 p x hx with h | h
      · rw [registerRecord_pathMap] at h
        split at h
        · by_cases hp : r.path = p
          · subst hp
            rw [Dict.get?_set_same] at h
            cases h
            exact Or.inr (List.mem_cons_self _ _)
          · rw [Dict.get?_set_ne _ _ _ _ hp] at h
            exact Or.inl h
        · exact Or.inl h
      · exact Or.inr (List.mem_cons_of_mem _ h)
    · intro n x hx
      rcases h2 n x hx with h | h
      · rw [registerRecord_nameMap] at h
        cases hn : r.name with
        | none =>
          rw [hn] at h
          exact Or.inl h
        | some name =>
          rw [hn] at h
          simp only at h
          split at h
          · by_cases hp : name = n
            · subst hp
              rw [Dict.get?_set_same] at h
              cases h
              exact Or.inr (List.mem_cons_self _ _)
            · rw [Dict.get?_set_ne _ _ _ _ hp] at h
              exact Or.inl h
          · exact Or.inl h
      · exact Or.inr (List.mem_cons_of_mem _ h)

theorem createRouteMap_pathMap (routes : List RouteConfig) (old : RouteMap) :
    (createRouteMap routes old).pathMap =
      ((registrationsOf routes old.nextUid).foldl registerRecord old).pathMap := by
  obtain ⟨u, h⟩ := addRouteRecords_eq routes old
  show (addRouteRecords routes old).pathMap = _
  rw [h]

theorem createRouteMap_nameMap (routes : List RouteConfig) (old : RouteMap) :
    (createRouteMap routes old).nameMap =
      ((registrationsOf routes old.nextUid).foldl registerRecord old).nameMap := by
  obtain ⟨u, h⟩ := addRouteRecords_eq routes old
  show (addRouteRecords routes old).nameMap = _
  rw [h]

/-- Every record in the tables built from empty tables is one of the records
registered. -/
theorem createRouteMap_sources (routes : List RouteConfig) :
    (∀ p x, Dict.get? (createRouteMap routes RouteMap.empty).pathMap p = some x →
      x ∈ registrationsOf routes 0) ∧
    ∀ n x, Dict.get? (createRouteMap routes RouteMap.empty).nameMap n = some x →
      x ∈ registrationsOf routes 0 := by
  obtain ⟨h1, h2⟩ := foldl_registerRecord_sources (registrationsOf routes 0) RouteMap.empty
  constructor
  · intro p x hx
    rw [createRouteMap_pathMap] at hx
    rcases h1 p x hx with h | h
    · simp [RouteMap.empty, Dict.get?_nil] at h
    · exact h
  · intro n x hx
    rw [createRouteMap_nameMap] at hx
    rcases h2 n x hx with h | h
    · simp [RouteMap.empty, Dict.get?_nil] at h
    · exact h

/-! ## The paths of the records -/

theorem cleanPath_head (s : Str) : (cleanPath ('/' :: s)).head? = some '/' := by
  cases s with
  | nil => rfl
  | cons d rest =>
    rw [cleanPath]
    split <;> rfl

theorem stripTrailingSlash_head (path : Str) (h : path.head? = some '/') :
    (stripTrailingSlash path).head? = some '/' ∨ stripTrailingSlash path = [] := by
  unfold stripTrailingSlash
  split
  · cases path with
    | nil => right; rfl
    | cons c rest =>
      cases rest with
      | nil => right; rfl
      | cons d rest =>
        left
        simpa [List.dropLast] using h
  · exact Or.inl h

theorem normalizePath_child (path : Str) (par : RouteRecord) (strict : Bool)
    (hpar : par.path = [] ∨ par.path.head? = some '/') :
    (normalizePath path (some par) strict).head? = some '/' := by
  unfold normalizePath
  simp only
  generalize (if (!strict) = true then stripTrailingSlash path else path) = p1
  by_cases h : (p1.head? == some '/') = true
  · rw [if_pos h]
    simpa using h
  · rw [if_neg h]
    rcases hpar with hp | hp
    · rw [hp]
      exact cleanPath_head _
    · cases hq : par.path with
      | nil => rw [hq] at hp; cases hp
      | cons c rest =>
        rw [hq] at hp
        simp only [List.head?_cons, Option.some.injEq] at hp
        subst hp
        exact cleanPath_head _

theorem normalizePath_top (path : Str) (strict : Bool) (h : path.head? = some '/') :
    (normalizePath path none strict).head? = some '/' ∨ normalizePath path none strict = [] := by
  have e : normalizePath path none strict =
      if (!strict) = true then stripTrailingSlash path else path := by
    unfold normalizePath
    simp only
    generalize (if (!strict) = true then stripTrailingSlash path else path) = p1
    exact ite_self _
  rw [e]
  cases strict with
  | true => exact Or.inl h
  | false => exact stripTrailingSlash_head path h

/-- The paths of the records of a call of `addRouteRecord` whose parent, if
any, has a path that is empty or begins with `/`. -/
theorem registrations_paths : ∀ (fuel uid : Nat) (route : RouteConfig)
    (parent : Option RouteRecord) (matchAs : Option Str),
    (∀ par, parent = some par → par.path = [] ∨ par.path.head? = some '/') →
    (parent = none → route.TopAbsolute) →
    ∀ r ∈ (registrations fuel uid route parent matchAs).1, r.AbsoluteOrRoot := by
  intro fuel
  induction fuel with
  | zero => intro uid route parent matchAs _ _ r hr; cases hr
  | succ fuel ih =>
    intro uid route parent matchAs hpar htop r hr
    obtain ⟨opts, ch⟩ := route
    obtain ⟨viaC, viaA, hsplit, hC, _, hA, _, _⟩ := registrations_succ fuel uid opts ch parent matchAs
    have hown : (makeRecord uid opts parent matchAs).AbsoluteOrRoot := by
      unfold RouteRecord.AbsoluteOrRoot
      rw [makeRecord_path, makeRecord_parent]
      cases parent with
      | none =>
        rcases normalizePath_top opts.path (opts.pathToRegexpOptions.getD {}).strict
          (htop rfl).1 with h | h
        · exact Or.inl h
        · exact Or.inr ⟨h, rfl⟩
      | some par => exact Or.inl (normalizePath_child _ par _ (hpar par rfl))
    have hown1 : (makeRecord uid opts parent matchAs).path = [] ∨
        (makeRecord uid opts parent matchAs).path.head? = some '/' := by
      rcases hown with h | h
      · exact Or.inr h
      · exact Or.inl h.1
    rw [hsplit] at hr
    rcases List.mem_append.mp hr with hr | hr
    · rcases List.mem_append.mp hr with hr | hr
      · obtain ⟨children, _, child, _, v, hv⟩ := hC r hr
        refine ih v child _ _ ?_ ?_ r hv
        · intro par0 hp
          cases hp
          exact hown1
        · intro hp
          cases hp
      · obtain ⟨aliases, hal, a, ha, v, hv⟩ := hA r hr
        refine ih v _ parent _ hpar ?_ r hv
        intro hp
        exact ⟨(htop hp).2 aliases hal a ha, fun al hh => by cases hh⟩
    · simp only [List.mem_singleton] at hr
      rw [hr]
      exact hown

/-- C31, amended: when the path and the aliases of every top-level route
configuration begin with `/`, the path of every record `addRouteRecord`
creates begins with `/`, or it is empty and the record is a top-level one (the
record of the path `/`, whose trailing slash is removed).  This holds for the
records registered, in the order of registration, and for every record held by
`pathMap` and `nameMap`. -/
theorem record_paths_absolute (routes : List RouteConfig) (uid : Nat)
    (htop : ∀ route ∈ routes, route.TopAbsolute) :
    (∀ r ∈ registrationsOf routes uid, r.AbsoluteOrRoot) ∧
      (∀ p r, Dict.get? (createRouteMap routes RouteMap.empty).pathMap p = some r →
        r.AbsoluteOrRoot) ∧
      ∀ n r, Dict.get? (createRouteMap routes RouteMap.empty).nameMap n = some r →
        r.AbsoluteOrRoot := by
  have key : ∀ u, ∀ r ∈ registrationsOf routes u, r.AbsoluteOrRoot := by
    intro u r hr
    obtain ⟨route, hroute, v, hv⟩ := (registrationsOf_parts routes u).1 r hr
    exact registrations_paths _ v route none none (fun par h => by cases h)
      (fun _ => htop route hroute) r hv
  refine ⟨key uid, ?_, ?_⟩
  · intro p r h
    exact key 0 r ((createRouteMap_sources routes).1 p r h)
  · intro n r h
    exact key 0 r ((createRouteMap_sources routes).2 n r h)

/-- C31, as stated, fails for the routes `/` and `*`: the record of `/` has the
empty path, the record of `*` the path `*`. -/
theorem root_record_path_empty :
    (registrationsOf [RouteConfig.leaf ['/'] 1, RouteConfig.leaf ['*'] 2] 0).map
        RouteRecord.path = [[], ['*']] ∧
      (createRouteMap [RouteConfig.leaf ['/'] 1, RouteConfig.leaf ['*'] 2]
        RouteMap.empty).pathList = [[], ['*']] := by
  decide

/-- Witness of C31: the route `/a` with the alias `/b` and the children `c`
and `/d`. -/
theorem record_paths_absolute_witness :
    (∀ route ∈
        [RouteConfig.mk { path := "/a".toList, aliases := some ["/b".toList] }
          (some [RouteConfig.leaf "c".toList 1, RouteConfig.leaf "/d".toList 2])],
      route.TopAbsolute) ∧
      ∀ r ∈ registrationsOf
          [RouteConfig.mk { path := "/a".toList, aliases := some ["/b".toList] }
            (some [RouteConfig.leaf "c".toList 1, RouteConfig.leaf "/d".toList 2])] 0,
        r.AbsoluteOrRoot :=
  have htop : ∀ route ∈
      [RouteConfig.mk { path := "/a".toList, aliases := some ["/b".toList] }
        (some [RouteConfig.leaf "c".toList 1, RouteConfig.leaf "/d".toList 2])],
      route.TopAbsolute := by
    intro route h
    simp only [List.mem_singleton] at h
    subst h
    refine ⟨rfl, ?_⟩
    intro aliases hal a ha
    cases hal
    simp only [List.mem_singleton] at ha
    subst ha
    rfl
  ⟨htop, (record_paths_absolute
    [RouteConfig.mk { path := "/a".toList, aliases := some ["/b".toList] }
      (some [RouteConfig.leaf "c".toList 1, RouteConfig.leaf "/d".toList 2])] 0 htop).1⟩

/-! ## Named records are not alias-derived -/

/-- The names among the records of a call of `addRouteRecord` do not depend
on the parent, on `matchAs` or on the identities, and more fuel keeps them. -/
theorem registrations_names : ∀ (f1 f2 : Nat), f1 ≤ f2 → ∀ (route : RouteConfig) (u1 u2 : Nat)
    (p1 p2 : Option RouteRecord) (m1 m2 : Option Str),
    ∀ r ∈ (registrations f1 u1 route p1 m1).1,
      ∃ r1 ∈ (registrations f2 u2 route p2 m2).1, r1.name = r.name := by
  intro f1
  induction f1 with
  | zero => intro f2 _ route u1 u2 p1 p2 m1 m2 r hr; cases hr
  | succ f1 ih =>
    intro f2 hle route u1 u2 p1 p2 m1 m2 r hr
    obtain ⟨f2, rfl⟩ : ∃ k, f2 = k + 1 := ⟨f2 - 1, by omega⟩
    have hle1 : f1 ≤ f2 := by omega
    obtain ⟨opts, ch⟩ := route
    obtain ⟨c1, a1, s1, hc1, _, ha1, _, _⟩ := registrations_succ f1 u1 opts ch p1 m1
    obtain ⟨c2, a2, s2, _, hc2, _, ha2, _⟩ := registrations_succ f2 u2 opts ch p2 m2
    rw [s1] at hr
    rw [s2]
    rcases List.mem_append.mp hr with hr | hr
    · rcases List.mem_append.mp hr with hr | hr
      · obtain ⟨children, hch, child, hchild, v, hv⟩ := hc1 r hr
        obtain ⟨v2, pre, post, e⟩ := hc2 children hch child hchild
        obtain ⟨r1, hr1, hn⟩ := ih f2 hle1 child v v2 _ _ _ _ r hv
        refine ⟨r1, ?_, hn⟩
        rw [e]
        exact List.mem_append_left _ (List.mem_append_left _ (mem_segment _ _ _ _ hr1))
      · obtain ⟨aliases, hal, a, ha, v, hv⟩ := ha1 r hr
        obtain ⟨v2, pre, post, e⟩ := ha2 aliases hal a ha
        obtain ⟨r1, hr1, hn⟩ := ih f2 hle1 _ v v2 _ _ _ _ r hv
        refine ⟨r1, ?_, hn⟩
        rw [e]
        exact List.mem_append_left _ (List.mem_append_right _ (mem_segment _ _ _ _ hr1))
    · simp only [List.mem_singleton] at hr
      subst hr
      exact ⟨makeRecord u2 opts p2 m2, by simp, rfl⟩

theorem firstNamedIsReal_nil (n : Str) : FirstNamedIsReal n [] := by
  intro r h
  cases h

theorem firstNamedIsReal_append (n : Str) (A B : List RouteRecord)
    (hA : FirstNamedIsReal n A) (hB : FirstNamedIsReal n B) : FirstNamedIsReal n (A ++ B) := by
  intro r h
  rw [List.find?_append] at h
  cases hf : A.find? (fun r => r.name == some n) with
  | none =>
    rw [hf] at h
    exact hB r (by simpa [Option.or] using h)
  | some x =>
    rw [hf] at h
    simp only [Option.or, Option.some.injEq] at h
    subst h
    exact hA x hf

/-- In the records of a call of `addRouteRecord` without `matchAs`, the first
record of a name has no `matchAs`: the records of an alias repeat the names of
the records of the children, which come before them. -/
theorem registrations_firstNamed (n : Str) : ∀ (fuel uid : Nat) (route : RouteConfig)
    (parent : Option RouteRecord),
    FirstNamedIsReal n (registrations fuel uid route parent none).1 := by
  intro fuel
  induction fuel with
  | zero => intro uid route parent; exact firstNamedIsReal_nil n
  | succ fuel ih =>
    intro uid route parent
    obtain ⟨opts, ch⟩ := route
    obtain ⟨viaC, viaA, hsplit, _, hC, hA, _, hP⟩ := registrations_succ fuel uid opts ch parent none
    rw [hsplit]
    have hQC : FirstNamedIsReal n viaC := by
      refine hP (FirstNamedIsReal n) (firstNamedIsReal_nil n) (firstNamedIsReal_append n) ?_
      intro children _ child _ v
      have e : (if truthy (none : Option Str) = true then
          some (cleanPath ((none : Option Str).getD [] ++ ['/'] ++ child.options.path))
          else none) = none := rfl
      rw [e]
      exact ih v child _
    intro r hr
    rw [List.append_assoc, List.find?_append] at hr
    cases hf : viaC.find? (fun r => r.name == some n) with
    | some x =>
      rw [hf] at hr
      simp only [Option.or, Option.some.injEq] at hr
      subst hr
      exact hQC x hf
    | none =>
      rw [hf] at hr
      simp only [Option.or] at hr
      have hnoA : viaA.find? (fun r => r.name == some n) = none := by
        rw [List.find?_eq_none]
        intro x hx hname
        obtain ⟨aliases, _, a, _, v, hv⟩ := hA x hx
        -- the record of the alias has no name: `x` is a record of a child
        cases fuel with
        | zero => cases hv
        | succ fuel =>
          obtain ⟨c1, a1, s1, hc1, _, ha1, _, _⟩ :=
            registrations_succ fuel v { path := a } ch parent
              (some (if (makeRecord uid opts parent none).path.isEmpty then ['/']
                else (makeRecord uid opts parent none).path))
          rw [s1] at hv
          rcases List.mem_append.mp hv with hv | hv
          · rcases List.mem_append.mp hv with hv | hv
            · obtain ⟨children, hch, child, hchild, w, hw⟩ := hc1 x hv
              obtain ⟨w2, pre, post, e⟩ := hC children hch child hchild
              obtain ⟨x1, hx1, hn1⟩ := registrations_names fuel (fuel + 1) (Nat.le_succ _) child
                w w2 _ (some (makeRecord uid opts parent none)) _
                (if truthy (none : Option Str) = true then
                  some (cleanPath ((none : Option Str).getD [] ++ ['/'] ++ child.options.path))
                else none) x hw
              have hmem : x1 ∈ viaC := by
                rw [e]
                exact mem_segment _ _ _ _ hx1
              rw [List.find?_eq_none] at hf
              exact hf x1 hmem (by rw [hn1]; exact hname)
            · obtain ⟨aliases1, hal1, _⟩ := ha1 x hv
              cases hal1
          · simp only [List.mem_singleton] at hv
            subst hv
            rw [makeRecord_name] at hname
            simp at hname
      rw [List.find?_append, hnoA] at hr
      simp only [Option.or] at hr
      simp only [List.find?_cons, List.find?_nil] at hr
      split at hr
      · cases hr
        rfl
      · cases hr

theorem foldl_registerRecord_noEmptyName (rs : List RouteRecord) :
    ∀ m : RouteMap, Dict.get? (rs.foldl registerRecord m).nameMap [] = Dict.get? m.nameMap [] := by
  induction rs with
  | nil => intro m; rfl
  | cons r rs ih =>
    intro m
    simp only [List.foldl_cons]
    rw [ih, registerRecord_nameMap]
    cases hn : r.name with
    | none => rfl
    | some name =>
      simp only
      split
      · rename_i h
        simp only [Bool.and_eq_true, Bool.not_eq_true', List.isEmpty_eq_false] at h
        rw [Dict.get?_set_ne]
        intro e
        cases name with
        | nil => simp at h
        | cons c t => cases e
      · rfl

/-- C37: in the tables `createRouteMap` builds from empty tables, no record of
`nameMap` is alias-derived: every record stored under a name has `matchAs`
undefined. -/
theorem nameMap_records_real (routes : List RouteConfig) (n : Str) (r : RouteRecord)
    (h : Dict.get? (createRouteMap routes RouteMap.empty).nameMap n = some r) :
    r.matchAs = none := by
  rw [createRouteMap_nameMap] at h
  by_cases hn : n = []
  · subst hn
    rw [foldl_registerRecord_noEmptyName] at h
    simp [RouteMap.empty, Dict.get?_nil] at h
  · rw [foldl_registerRecord_nameMap n hn] at h
    have e : Dict.get? RouteMap.empty.nameMap n = none := by
      simp [RouteMap.empty, Dict.get?_nil]
    rw [e] at h
    simp only at h
    have hQ : FirstNamedIsReal n (registrationsOf routes RouteMap.empty.nextUid) :=
      (registrationsOf_parts routes _).2.2 (FirstNamedIsReal n) (firstNamedIsReal_nil n)
        (firstNamedIsReal_append n)
        (fun route _ v => registrations_firstNamed n _ v route none)
    exact hQ r h

/-- Witness of C37: for the route `/a` named `a` with the alias `/b` and the
child `c` named `c` with the alias `d`, six records are registered, four of
them alias-derived, and the record found under the name `c` is the real one,
at `/a/c`. -/
theorem nameMap_records_real_witness :
    (registrationsOf Example.aliasedTree 0).map (fun r => (r.path, r.matchAs)) =
        [("/a/d".toList, some "/a/c".toList), ("/a/c".toList, none),
         ("/b/d".toList, some "/b/c".toList), ("/b/c".toList, some "/a/c".toList),
         ("/b".toList, some "/a".toList), ("/a".toList, none)] ∧
      ∃ r, Dict.get? (createRouteMap Example.aliasedTree RouteMap.empty).nameMap "c".toList =
          some r ∧ r.path = "/a/c".toList ∧ r.matchAs = none := by
  refine ⟨by decide, ?_⟩
  cases h : Dict.get? (createRouteMap Example.aliasedTree RouteMap.empty).nameMap "c".toList with
  | none =>
    have h1 : (Dict.get? (createRouteMap Example.aliasedTree RouteMap.empty).nameMap
        "c".toList).isSome = true := by decide
    rw [h] at h1
    cases h1
  | some r =>
    refine ⟨r, rfl, ?_, nameMap_records_real Example.aliasedTree "c".toList r h⟩
    have h2 : (Dict.get? (createRouteMap Example.aliasedTree RouteMap.empty).nameMap
        "c".toList).map RouteRecord.path = some "/a/c".toList := by decide
    rw [h] at h2
    simpa using h2

/-! ## Registering and unregistering global hooks (`index.js`) -/

theorem hookIndexOf_append_of_not_mem (fn : Option Nat) (more : List (Option Nat)) :
    ∀ list : List (Option Nat), fn ∉ list →
      hookIndexOf (list ++ fn :: more) fn = some list.length := by
  intro list
  induction list with
  | nil => intro _; simp [hookIndexOf]
  | cons x rest ih =>
    intro h
    have hx : (x == fn) = false := by
      simp only [beq_eq_false_iff_ne, ne_eq]
      intro e
      exact h (by simp [e])
    have hr : fn ∉ rest := fun hm => h (List.mem_cons_of_mem _ hm)
    simp [hookIndexOf, hx, ih hr]

theorem unregisterHook_cons (fn x : Option Nat) (rest : List (Option Nat)) :
    unregisterHook fn (x :: rest) = if x == fn then rest else x :: unregisterHook fn rest := by
  unfold unregisterHook
  by_cases hx : (x == fn) = true
  · simp [hookIndexOf, hx]
  · simp only [hookIndexOf, hx, Bool.false_eq_true, if_false]
    cases h : hookIndexOf rest fn with
    | none => rfl
    | some i => rfl

theorem unregisterHook_eq_erase (fn : Option Nat) :
    ∀ list : List (Option Nat), unregisterHook fn list = list.erase fn := by
  intro list
  induction list with
  | nil => rfl
  | cons x rest ih =>
    rw [unregisterHook_cons, List.erase_cons, ih]

theorem unregisterHook_perm (g : Option Nat) :
    ∀ l : List (Option Nat), (unregisterHook g (l ++ [g])).Perm l := by
  intro l
  induction l with
  | nil =>
    rw [List.nil_append, unregisterHook_cons]
    simp
  | cons x rest ih =>
    rw [List.cons_append, unregisterHook_cons]
    by_cases hx : (x == g) = true
    · rw [if_pos hx]
      have e : x = g := by simpa using hx
      subst e
      simp
    · rw [if_neg hx]
      exact List.Perm.cons x ih

/-- C33, amended: registering a function that is not yet in the hook list and
calling the returned function removes exactly that registration, also after
further hooks were registered behind it: the list is what it was before,
followed by the hooks registered since.  In general the returned function
removes the first entry equal to the function, so the list it leaves has the
entries of the list before the registration, possibly in another order.  The
same holds for `beforeEach`, `beforeResolve` and `afterEach`, which apply
`registerHook` to the three lists of the router. -/
theorem registerHook_unregister (list more : List (Option Nat)) (fn : Option Nat)
    (h : fn ∉ list) :
    (registerHook list fn).2 ((registerHook list fn).1 ++ more) = list ++ more ∧
      (registerHook list fn).2 (registerHook list fn).1 = list ∧
      (∀ (l : List (Option Nat)) (g : Option Nat),
        (registerHook l g).1 = l ++ [g] ∧
        (registerHook l g).2 (registerHook l g).1 = (l ++ [g]).erase g ∧
        ((registerHook l g).2 (registerHook l g).1).Perm l) ∧
      (∀ s : History,
        (beforeEach s fn).1.beforeHooks = (registerHook s.beforeHooks fn).1 ∧
        ((beforeEach s fn).2 (beforeEach s fn).1).beforeHooks =
          (registerHook s.beforeHooks fn).2 (registerHook s.beforeHooks fn).1 ∧
        (beforeResolve s fn).1.resolveHooks = (registerHook s.resolveHooks fn).1 ∧
        ((beforeResolve s fn).2 (beforeResolve s fn).1).resolveHooks =
          (registerHook s.resolveHooks fn).2 (registerHook s.resolveHooks fn).1 ∧
        (afterEach s fn).1.afterHooks = (registerHook s.afterHooks fn).1 ∧
        ((afterEach s fn).2 (afterEach s fn).1).afterHooks =
          (registerHook s.afterHooks fn).2 (registerHook s.afterHooks fn).1) := by
  have key : ∀ more1 : List (Option Nat),
      unregisterHook fn (list ++ fn :: more1) = list ++ more1 := by
    intro more1
    unfold unregisterHook
    rw [hookIndexOf_append_of_not_mem fn more1 list h]
    simp only
    rw [List.eraseIdx_append_of_length_le (Nat.le_refl _)]
    simp
  refine ⟨?_, ?_, ?_, ?_⟩
  · have := key more
    simpa [registerHook] using this
  · have := key []
    simpa [registerHook] using this
  · intro l g
    refine ⟨rfl, unregisterHook_eq_erase g _, ?_⟩
    exact unregisterHook_perm g l
  · intro s
    exact ⟨rfl, rfl, rfl, rfl, rfl, rfl⟩

/-- C33, as stated, fails for a function that is already registered: with the
hooks `[f, g]`, registering `f` again and calling the returned function leaves
`[g, f]`. -/
theorem unregister_removes_first_occurrence :
    (registerHook [some 1, some 2] (some 1)).2 (registerHook [some 1, some 2] (some 1)).1 =
      [some 2, some 1] := by
  decide

/-- Witness of C33: the hooks `[f, g]`, a new function `h`, and a hook `k`
registered after it. -/
theorem registerHook_unregister_witness :
    (registerHook [some 1, some 2] (some 3)).2
        ((registerHook [some 1, some 2] (some 3)).1 ++ [some 4]) =
      [some 1, some 2] ++ [some 4] :=
  (registerHook_unregister [some 1, some 2] [some 4] (some 3) (by decide)).1

/-! ## The step that loads lazy components -/

theorem mem_abortLog_onAbort (env : HistoryEnv) (tr : Transition) (err : AbortArg) :
    Effect.onAbort tr.route.id err ∈ abortLog env tr err := by
  unfold abortLog
  simp

theorem abortLog_no_guard (env : HistoryEnv) (tr : Transition) (err : AbortArg) (u : Nat)
    (g : Guard) : Effect.guardCalled u g ∉ abortLog env tr err := by
  unfold abortLog
  intro h
  simp only [List.mem_append, List.mem_map, List.mem_singleton, Option.mem_toList] at h
  rcases h with ((h | h) | h) | h
  · cases err with
    | error e =>
      simp only at h
      split at h
      · simp at h
      · simp at h
    | undef => simp at h
    | boolFalse => simp at h
    | thrown b => simp at h
  · cases h
  · obtain ⟨_, _, h⟩ := h
    cases h
  · split at h
    · simp at h
    · simp at h

/-- C34 (failing input and what the step does): when the last lazy component
of the transition `t` has resolved, the step `resolveAsyncComponents` calls its
continuation with the route `to`.  The continuation reads a route as a
redirect, not as `proceed`: it calls `abort()` and then `push(to)`.  The calls
made are those of `abort()` followed by `push`; no further guard of the
transition is called, `onComplete` is not called, and `current` and `pending`
are as before.  Called with nothing, the same continuation would go on with
the queue. -/
theorem lazy_resolution_redirects (view : ViewLayer) (s : History) (t : Nat) (tr : Transition)
    (htr : s.transitions t = some tr) (hid : tr.route.id = t)
    (hinv : tr.invoked.contains (false, tr.queue.length - 1) = true)
    (hasync : hasAsync view tr.activated = true) :
    classify (NextArg.route t) = Resolution.redirect false ∧
      (∃ new, (step view s (Event.asyncResolved t)).log = s.log ++ new ∧
        new = abortLog s.env tr AbortArg.undef ++ [Effect.push (NextArg.route t)] ∧
        Effect.onAbort t AbortArg.undef ∈ new ∧
        (∀ u g, Effect.guardCalled u g ∉ new) ∧
        (∀ u, Effect.onComplete u ∉ new)) ∧
      (step view s (Event.asyncResolved t)).current = s.current ∧
      (step view s (Event.asyncResolved t)).pending = s.pending ∧
      callContinuation view s tr false (tr.queue.length - 1) NextArg.undef =
        continueQueue view
          (s.setTransition { tr with answered := tr.answered ++ [(false, tr.queue.length - 1)] })
          t false (tr.queue.length - 1 + 1) := by
  have hstep : step view s (Event.asyncResolved t) =
      (abort (s.setTransition { tr with answered := tr.answered ++ [(false, tr.queue.length - 1)] })
        tr AbortArg.undef).emit [Effect.push (NextArg.route t)] := by
    simp only [step, htr, hinv, hasync, Bool.and_self, if_true]
    rfl
  refine ⟨rfl, ⟨abortLog s.env tr AbortArg.undef ++ [Effect.push (NextArg.route t)], ?_, rfl,
    ?_, ?_, ?_⟩, ?_, ?_, ?_⟩
  · rw [hstep, History.emit_log, abort_log_eq, History.setTransition_log, List.append_assoc]
    rfl
  · have h := mem_abortLog_onAbort s.env tr AbortArg.undef
    rw [hid] at h
    exact List.mem_append_left _ h
  · intro u g h
    rcases List.mem_append.mp h with h | h
    · exact abortLog_no_guard _ _ _ _ _ h
    · simp at h
  · intro u h
    rcases List.mem_append.mp h with h | h
    · unfold abortLog at h
      simp at h
    · simp at h
  · rw [hstep, History.emit_current, abort_current, History.setTransition_current]
  · rw [hstep, History.emit_pending, abort_pending, History.setTransition_pending]
  · simp only [callContinuation, classify, hid]

/-- Witness of C34: in a new engine the transition 1 to `/q` waits for the lazy
component of `/q`; when the component has resolved, the calls are `onAbort` and
`push` of the same route, and the route is still not current. -/
theorem lazy_resolution_redirects_witness :
    Example.loading.log =
        [Effect.guardCalled 1 (Guard.beforeEnter 51), Effect.guardCalled 1 Guard.resolveAsync] ∧
      (step Example.lazyView Example.loading (Event.asyncResolved 1)).log =
        Example.loading.log ++
          [Effect.onAbort 1 AbortArg.undef, Effect.push (NextArg.route 1)] ∧
      (step Example.lazyView Example.loading (Event.asyncResolved 1)).current.id = 0 := by
  have htr : ∃ tr, Example.loading.transitions 1 = some tr ∧ tr.route.id = 1 ∧
      tr.invoked.contains (false, tr.queue.length - 1) = true ∧
      hasAsync Example.lazyView tr.activated = true ∧
      abortLog Example.loading.env tr AbortArg.undef = [Effect.onAbort 1 AbortArg.undef] := by
    refine ⟨_, rfl, ?_, ?_, ?_, ?_⟩ <;> decide
  obtain ⟨tr, h1, h2, h3, h4, h5⟩ := htr
  obtain ⟨_, ⟨new, hlog, hnew, _⟩, hcur, _⟩ :=
    lazy_resolution_redirects Example.lazyView Example.loading 1 tr h1 h2 h3 h4
  refine ⟨by decide, ?_, ?_⟩
  · rw [hlog, hnew, h5]
    rfl
  · rw [hcur]
    decide

/-! ## The order of `pathList`: descendants and aliases first -/

theorem addRouteRecord_succ (fuel : Nat) (m : RouteMap) (route : RouteConfig)
    (parent : Option RouteRecord) (matchAs : Option Str) :
    addRouteRecord (fuel + 1) m route parent matchAs =
      registerRecord (addDescendants fuel m route parent matchAs)
        (makeRecord m.nextUid route.options parent matchAs) := rfl

theorem tablesAligned_withUid (m : RouteMap) (u : Nat) (h : TablesAligned m) :
    TablesAligned { m with nextUid := u } := h

/-- A call of `addRouteRecord` keeps the tables aligned and extends `pathList`. -/
theorem addRouteRecord_grows (fuel : Nat) (m : RouteMap) (route : RouteConfig)
    (parent : Option RouteRecord) (matchAs : Option Str) (h : TablesAligned m) :
    TablesAligned (addRouteRecord fuel m route parent matchAs) ∧
      ∃ added, (addRouteRecord fuel m route parent matchAs).pathList = m.pathList ++ added := by
  rw [addRouteRecord_eq]
  exact ⟨tablesAligned_withUid _ _ (foldl_registerRecord_aligned _ m h),
    (foldl_registerRecord_frame _ m).2.2⟩

theorem foldl_addRouteRecord_grows {α : Type} (f : RouteMap → α → RouteMap)
    (hf : ∀ m x, TablesAligned m →
      TablesAligned (f m x) ∧ ∃ added, (f m x).pathList = m.pathList ++ added) :
    ∀ (xs : List α) (m : RouteMap), TablesAligned m →
      TablesAligned (xs.foldl f m) ∧ ∃ added, (xs.foldl f m).pathList = m.pathList ++ added := by
  intro xs
  induction xs with
  | nil => intro m h; exact ⟨h, [], by simp⟩
  | cons x xs ih =>
    intro m h
    obtain ⟨h1, a1, e1⟩ := hf m x h
    obtain ⟨h2, a2, e2⟩ := ih (f m x) h1
    exact ⟨h2, a1 ++ a2, by simp only [List.foldl_cons]; rw [e2, e1, List.append_assoc]⟩

theorem addDescendants_grows (fuel : Nat) (m : RouteMap) (route : RouteConfig)
    (parent : Option RouteRecord) (matchAs : Option Str) (h : TablesAligned m) :
    TablesAligned (addDescendants fuel m route parent matchAs) ∧
      ∃ added, (addDescendants fuel m route parent matchAs).pathList = m.pathList ++ added := by
  obtain ⟨opts, ch⟩ := route
  have e1 : (RouteConfig.mk opts ch).options = opts := rfl
  have e2 : (RouteConfig.mk opts ch).children = ch := rfl
  unfold addDescendants
  simp only [e1, e2]
  generalize hA : opts.aliases = al
  have h0 : TablesAligned { m with nextUid := m.nextUid + 1 } := tablesAligned_withUid _ _ h
  have hC : ∀ children : List RouteConfig,
      TablesAligned (children.foldl (fun acc child =>
        addRouteRecord fuel acc child (some (makeRecord m.nextUid opts parent matchAs))
          (if truthy matchAs then
            some (cleanPath (matchAs.getD [] ++ ['/'] ++ child.options.path))
          else none)) { m with nextUid := m.nextUid + 1 }) ∧
      ∃ added, (children.foldl (fun acc child =>
        addRouteRecord fuel acc child (some (makeRecord m.nextUid opts parent matchAs))
          (if truthy matchAs then
            some (cleanPath (matchAs.getD [] ++ ['/'] ++ child.options.path))
          else none)) { m with nextUid := m.nextUid + 1 }).pathList = m.pathList ++ added :=
    fun children => foldl_addRouteRecord_grows _
      (fun m1 x hm1 => addRouteRecord_grows fuel m1 x _ _ hm1) children _ h0
  have hAl : ∀ (aliases : List Str) (m1 : RouteMap), TablesAligned m1 →
      TablesAligned (aliases.foldl (fun acc aliasPath =>
        addRouteRecord fuel acc (RouteConfig.mk { path := aliasPath } ch) parent
          (some (if (makeRecord m.nextUid opts parent matchAs).path.isEmpty then ['/']
            else (makeRecord m.nextUid opts parent matchAs).path))) m1) ∧
      ∃ added, (aliases.foldl (fun acc aliasPath =>
        addRouteRecord fuel acc (RouteConfig.mk { path := aliasPath } ch) parent
          (some (if (makeRecord m.nextUid opts parent matchAs).path.isEmpty then ['/']
            else (makeRecord m.nextUid opts parent matchAs).path))) m1).pathList =
        m1.pathList ++ added :=
    fun aliases m1 hm1 => foldl_addRouteRecord_grows _
      (fun m2 x hm2 => addRouteRecord_grows fuel m2 _ _ _ hm2) aliases m1 hm1
  cases ch with
  | none =>
    cases al with
    | none => exact ⟨h0, [], by simp⟩
    | some aliases => exact hAl aliases _ h0
  | some children =>
    obtain ⟨c1, a1, e⟩ := hC children
    cases al with
    | none => exact ⟨c1, a1, e⟩
    | some aliases =>
      obtain ⟨c2, a2, e3⟩ := hAl aliases _ c1
      refine ⟨c2, a1 ++ a2, ?_⟩
      simp only at e3 ⊢
      rw [e3, e, List.append_assoc]

theorem precedes_wildcardsLast (l later : List Str) (p q : Str) (hp : p ∈ l) (hq : q ∉ l)
    (hstar : p ≠ ['*']) : Precedes p q (wildcardsLast (l ++ [q] ++ later)) := by
  have hpf : p ∈ l.filter (fun p => p != ['*']) := by
    rw [List.mem_filter]
    exact ⟨hp, by simpa using hstar⟩
  obtain ⟨xs, ys, e⟩ := List.append_of_mem hpf
  have hqxs : q ∉ xs := by
    intro h
    have : q ∈ l.filter (fun p => p != ['*']) := by
      rw [e]
      exact List.mem_append_left _ h
    exact hq (List.mem_filter.mp this).1
  refine ⟨xs, ys ++ ([q] ++ later).filter (fun p => p != ['*']) ++
    (l ++ [q] ++ later).filter (fun p => p == ['*']), ?_, hqxs, ?_⟩
  · unfold wildcardsLast
    rw [List.append_assoc l, List.filter_append, e]
    simp only [List.append_assoc, List.cons_append]
  · by_cases hs : q = ['*']
    · refine List.mem_append_right _ ?_
      rw [List.mem_filter]
      exact ⟨by simp, by simp [hs]⟩
    · refine List.mem_append_left _ (List.mem_append_right _ ?_)
      rw [List.mem_filter]
      exact ⟨by simp, by simpa using hs⟩

theorem addRouteRecords_split (before after : List RouteConfig) (route : RouteConfig) :
    ∃ m0 later, TablesAligned m0 ∧
      (addRouteRecords (before ++ route :: after) RouteMap.empty).pathList =
        (addRouteRecord (2 * RouteConfig.depthList (before ++ route :: after) + 1) m0 route
          none none).pathList ++ later := by
  unfold addRouteRecords
  simp only [List.foldl_append, List.foldl_cons]
  generalize 2 * RouteConfig.depthList (before ++ route :: after) + 1 = F
  have hstep : ∀ (m : RouteMap) (x : RouteConfig), TablesAligned m →
      TablesAligned (addRouteRecord F m x none none) ∧
        ∃ added, (addRouteRecord F m x none none).pathList = m.pathList ++ added :=
    fun m x hm => addRouteRecord_grows F m x none none hm
  obtain ⟨h1, _⟩ := foldl_addRouteRecord_grows _ hstep before RouteMap.empty tablesAligned_empty
  obtain ⟨h2, _⟩ := hstep _ route h1
  obtain ⟨_, later, e⟩ := foldl_addRouteRecord_grows _ hstep after _ h2
  exact ⟨_, later, h1, e⟩

/-- C36, amended: a call of `addRouteRecord` on aligned tables registers the
record of the configuration after the records of its children and aliases.
When the path of the configuration is registered by the configuration itself
(it is not in `pathList` once the children and aliases are processed), it is
appended to `pathList`, and every path other than `*` that is in `pathList` at
that point, among them the paths registered by the descendants and aliases,
comes before it in the final `pathList`, whatever is registered later.  The
final `pathList` is the one after the registrations with the entries `*` moved
behind the others, and for each top-level route the `pathList` after the
registrations extends the one after the call for that route. -/
theorem descendants_precede (fuel : Nat) (m : RouteMap) (route : RouteConfig)
    (parent : Option RouteRecord) (matchAs : Option Str) (hm : TablesAligned m) :
    addRouteRecord (fuel + 1) m route parent matchAs =
        registerRecord (addDescendants fuel m route parent matchAs)
          (makeRecord m.nextUid route.options parent matchAs) ∧
      (∃ added, (addDescendants fuel m route parent matchAs).pathList = m.pathList ++ added) ∧
      ((makeRecord m.nextUid route.options parent matchAs).path ∉
          (addDescendants fuel m route parent matchAs).pathList →
        (addRouteRecord (fuel + 1) m route parent matchAs).pathList =
            (addDescendants fuel m route parent matchAs).pathList ++
              [(makeRecord m.nextUid route.options parent matchAs).path] ∧
          ∀ p ∈ (addDescendants fuel m route parent matchAs).pathList, p ≠ ['*'] →
            ∀ later, Precedes p (makeRecord m.nextUid route.options parent matchAs).path
              (wildcardsLast
                ((addRouteRecord (fuel + 1) m route parent matchAs).pathList ++ later))) ∧
      (∀ routes old,
        (createRouteMap routes old).pathList = wildcardsLast (addRouteRecords routes old).pathList) ∧
      ∀ before top after, ∃ m0 later, TablesAligned m0 ∧
        (addRouteRecords (before ++ top :: after) RouteMap.empty).pathList =
          (addRouteRecord (2 * RouteConfig.depthList (before ++ top :: after) + 1) m0 top
            none none).pathList ++ later := by
  obtain ⟨hal, hext⟩ := addDescendants_grows fuel m route parent matchAs hm
  refine ⟨rfl, hext, ?_, fun routes old => createRouteMap_pathList routes old,
    fun before top after => addRouteRecords_split before after top⟩
  intro hown
  have hnone : (Dict.get? (addDescendants fuel m route parent matchAs).pathMap
      (makeRecord m.nextUid route.options parent matchAs).path).isNone = true := by
    cases hg : Dict.get? (addDescendants fuel m route parent matchAs).pathMap
      (makeRecord m.nextUid route.options parent matchAs).path with
    | none => rfl
    | some x =>
      exact absurd ((hal.2.1 _).2 (by rw [hg]; rfl)) hown
  have hpl : (addRouteRecord (fuel + 1) m route parent matchAs).pathList =
      (addDescendants fuel m route parent matchAs).pathList ++
        [(makeRecord m.nextUid route.options parent matchAs).path] := by
    rw [addRouteRecord_succ, registerRecord_pathList, if_pos hnone]
  refine ⟨hpl, fun p hp hstar later => ?_⟩
  rw [hpl]
  exact precedes_wildcardsLast _ later p _ hp hown hstar

/-- C36, as stated, fails for the route `/a` with the alias `*`: the path `*` is
registered by the alias, before `/a`, and the final `pathList` has it behind
`/a`. -/
theorem alias_star_after_own_path :
    (addRouteRecords [RouteConfig.mk { path := "/a".toList, aliases := some [['*']] } none]
        RouteMap.empty).pathList = [['*'], "/a".toList] ∧
      (createRouteMap [RouteConfig.mk { path := "/a".toList, aliases := some [['*']] } none]
        RouteMap.empty).pathList = ["/a".toList, ['*']] := by
  decide

/-- Witness of C36: the route `/a` with a child of empty path, registered into
empty tables: the entry `/a/` of the child comes before the entry `/a`. -/
theorem descendants_precede_witness :
    (createRouteMap Example.defaultChild RouteMap.empty).pathList =
        ["/a/".toList, "/a".toList] ∧
      Precedes "/a/".toList "/a".toList
        (wildcardsLast ((addRouteRecord (2 + 1) RouteMap.empty
          (RouteConfig.mk { path := "/a".toList, component := some 1 }
            (some [RouteConfig.leaf [] 2])) none none).pathList ++ [])) :=
  ⟨by decide,
    (descendants_precede 2 RouteMap.empty
      (RouteConfig.mk { path := "/a".toList, component := some 1 }
        (some [RouteConfig.leaf [] 2])) none none tablesAligned_empty).2.2.1 (by decide)
      |>.2 "/a/".toList (by decide) (by decide) []⟩

/-! ## What `matchAs` points at -/

theorem collectRecords_mem_sub {α : Type} (g : Nat → α → List RouteRecord × Nat) :
    ∀ (xs : List α) (start : List RouteRecord × Nat) (r : RouteRecord),
      r ∈ (collectRecords g xs start).1 →
        r ∈ start.1 ∨ ∃ x ∈ xs, ∃ v, r ∈ (g v x).1 ∧
          ∀ y ∈ (g v x).1, y ∈ (collectRecords g xs start).1 := by
  intro xs
  induction xs with
  | nil => intro start r h; exact Or.inl h
  | cons x xs ih =>
    intro start r h
    rw [collectRecords_cons] at h ⊢
    rcases ih _ r h with h1 | ⟨y, hy, v, hv, hsub⟩
    · rcases List.mem_append.mp h1 with h2 | h2
      · exact Or.inl h2
      · refine Or.inr ⟨x, List.mem_cons_self _ _, start.2, h2, fun y hy => ?_⟩
        exact collectRecords_start_sub g xs _ y (List.mem_append_right _ hy)
    · exact Or.inr ⟨y, List.mem_cons_of_mem _ hy, v, hv, hsub⟩

/-- Where a record of a call of `addRouteRecord` comes from: it is the record
of the call, or a record of the call for a child, or a record of the call for
an alias. -/
theorem registrations_mem (fuel uid : Nat) (opts : RouteOptions)
    (ch : Option (List RouteConfig)) (parent : Option RouteRecord) (matchAs : Option Str)
    (r : RouteRecord)
    (h : r ∈ (registrations (fuel + 1) uid (RouteConfig.mk opts ch) parent matchAs).1) :
    r = makeRecord uid opts parent matchAs ∨
      (∃ children, ch = some children ∧ ∃ child ∈ children, ∃ v,
        r ∈ (registrations fuel v child (some (makeRecord uid opts parent matchAs))
          (if truthy matchAs then
            some (cleanPath (matchAs.getD [] ++ ['/'] ++ child.options.path))
          else none)).1 ∧
        ∀ y ∈ (registrations fuel v child (some (makeRecord uid opts parent matchAs))
          (if truthy matchAs then
            some (cleanPath (matchAs.getD [] ++ ['/'] ++ child.options.path))
          else none)).1,
          y ∈ (registrations (fuel + 1) uid (RouteConfig.mk opts ch) parent matchAs).1) ∨
      (∃ aliases, opts.aliases = some aliases ∧ ∃ a ∈ aliases, ∃ v,
        r ∈ (registrations fuel v (RouteConfig.mk { path := a } ch) parent
          (some (if (makeRecord uid opts parent matchAs).path.isEmpty then ['/']
            else (makeRecord uid opts parent matchAs).path))).1 ∧
        ∀ y ∈ (registrations fuel v (RouteConfig.mk { path := a } ch) parent
          (some (if (makeRecord uid opts parent matchAs).path.isEmpty then ['/']
            else (makeRecord uid opts parent matchAs).path))).1,
          y ∈ (registrations (fuel + 1) uid (RouteConfig.mk opts ch) parent matchAs).1) := by
  have e1 : (RouteConfig.mk opts ch).options = opts := rfl
  have e2 : (RouteConfig.mk opts ch).children = ch := rfl
  rw [registrations] at h ⊢
  simp only [e1, e2] at h ⊢
  generalize hA : opts.aliases = al at h ⊢
  rcases List.mem_append.mp h with h | h
  · right
    cases al with
    | none =>
      simp only at h ⊢
      cases ch with
      | none => cases h
      | some children =>
        simp only at h ⊢
        rcases collectRecords_mem_sub _ children _ r h with h1 | ⟨c, hc, v, hv, hsub⟩
        · cases h1
        · exact Or.inl ⟨children, rfl, c, hc, v, hv, fun y hy => List.mem_append_left _ (hsub y hy)⟩
    | some aliases =>
      simp only at h ⊢
      rcases collectRecords_mem_sub _ aliases _ r h with h1 | ⟨a, ha, v, hv, hsub⟩
      · cases ch with
        | none => cases h1
        | some children =>
          simp only at h1 ⊢
          rcases collectRecords_mem_sub _ children _ r h1 with h2 | ⟨c, hc, v, hv, hsub⟩
          · cases h2
          · refine Or.inl ⟨children, rfl, c, hc, v, hv, fun y hy => ?_⟩
            exact List.mem_append_left _ (collectRecords_start_sub _ aliases _ y (hsub y hy))
      · exact Or.inr ⟨aliases, rfl, a, ha, v, hv, fun y hy => List.mem_append_left _ (hsub y hy)⟩
  · left
    simpa using h

theorem registrations_own_mem (fuel uid : Nat) (opts : RouteOptions)
    (ch : Option (List RouteConfig)) (parent : Option RouteRecord) (matchAs : Option Str) :
    makeRecord uid opts parent matchAs ∈
      (registrations (fuel + 1) uid (RouteConfig.mk opts ch) parent matchAs).1 := by
  obtain ⟨c, a, s, _⟩ := registrations_succ fuel uid opts ch parent matchAs
  rw [s]
  simp

theorem registrations_child_sub (fuel uid : Nat) (opts : RouteOptions)
    (children : List RouteConfig) (parent : Option RouteRecord) (matchAs : Option Str)
    (child : RouteConfig) (hc : child ∈ children) :
    ∃ v, ∀ y ∈ (registrations fuel v child (some (makeRecord uid opts parent matchAs))
        (if truthy matchAs then
          some (cleanPath (matchAs.getD [] ++ ['/'] ++ child.options.path))
        else none)).1,
      y ∈ (registrations (fuel + 1) uid (RouteConfig.mk opts (some children)) parent matchAs).1 := by
  obtain ⟨c, a, s, _, hseg, _⟩ := registrations_succ fuel uid opts (some children) parent matchAs
  obtain ⟨v, pre, post, e⟩ := hseg children rfl child hc
  refine ⟨v, fun y hy => ?_⟩
  rw [s, e]
  exact List.mem_append_left _ (List.mem_append_left _ (mem_segment _ _ _ _ hy))

theorem relativeAll_mem : ∀ (cs : List RouteConfig), RouteConfig.relativeAll cs = true →
    ∀ c ∈ cs, c.relativePath = true ∧ c.relativeBelow = true := by
  intro cs
  induction cs with
  | nil => intro _ c hc; cases hc
  | cons d cs ih =>
    intro h c hc
    rw [RouteConfig.relativeAll] at h
    simp only [Bool.and_eq_true] at h
    rcases List.mem_cons.mp hc with rfl | hc
    · exact h.1
    · exact ih h.2 c hc

theorem relativeBelow_some (opts : RouteOptions) (children : List RouteConfig)
    (h : (RouteConfig.mk opts (some children)).relativeBelow = true) :
    RouteConfig.relativeAll children = true := by
  rw [RouteConfig.relativeBelow] at h
  exact h

theorem cleanPath_ne_nil (s : Str) (h : s ≠ []) : cleanPath s ≠ [] := by
  cases s with
  | nil => exact absurd rfl h
  | cons c rest =>
    cases rest with
    | nil => simp [cleanPath]
    | cons d rest =>
      rw [cleanPath]
      split <;> simp

theorem pathOrSlash_ne_nil (p : Str) : pathOrSlash p ≠ [] := by
  unfold pathOrSlash
  cases p with
  | nil => simp
  | cons c rest => simp

theorem pathOrSlash_of_ne_nil (p : Str) (h : p ≠ []) : pathOrSlash p = p := by
  unfold pathOrSlash
  cases p with
  | nil => exact absurd rfl h
  | cons c rest => rfl

theorem truthy_some (s : Str) (h : s ≠ []) : truthy (some s) = true := by
  cases s with
  | nil => exact absurd rfl h
  | cons c rest => rfl

theorem joined_ne_nil (a b : Str) : a ++ ['/'] ++ b ≠ [] := by
  cases a <;> simp

/-- The path of the record of a configuration with a relative path under a
parent record is `cleanPath(matchAs + '/' + path)` for the `matchAs` that an
alias of the parent hands down. -/
theorem makeRecord_relative_path (u : Nat) (c : RouteConfig) (hrel : c.relativePath = true)
    (par : RouteRecord) (mR : Option Str) :
    (makeRecord u c.options (some par) mR).path =
      cleanPath (pathOrSlash par.path ++ ['/'] ++ c.options.path) := by
  rw [makeRecord_path]
  unfold RouteConfig.relativePath at hrel
  simp only [Bool.and_eq_true, Bool.or_eq_true, bne_iff_ne, ne_eq] at hrel
  obtain ⟨hhead, hlast⟩ := hrel
  have hp1 : (if (!(c.options.pathToRegexpOptions.getD {}).strict) = true
      then stripTrailingSlash c.options.path else c.options.path) = c.options.path := by
    rcases hlast with hs | hl
    · rw [hs]
      rfl
    · split
      · unfold stripTrailingSlash
        rw [if_neg]
        simpa using hl
      · rfl
  unfold normalizePath
  simp only
  rw [hp1]
  have hh : (c.options.path.head? == some '/') = false := by
    simpa using hhead
  rw [hh]
  simp only [Bool.false_eq_true, if_false]
  unfold pathOrSlash
  cases hpar : par.path with
  | cons x rest => rfl
  | nil =>
    simp only [List.isEmpty_nil, if_true, List.nil_append, List.singleton_append]
    cases hc : c.options.path with
    | nil => rfl
    | cons d rest =>
      rw [hc] at hhead
      have hd : d ≠ '/' := by simpa using hhead
      show cleanPath ('/' :: d :: rest) = cleanPath ('/' :: '/' :: d :: rest)
      rw [cleanPath, cleanPath]
      simp [hd]

/-- The records of a child under an alias record point at registered records,
given that they do so with one unit of fuel less (`hS`). -/
theorem alias_call_points (g f2 : Nat) (hle : g ≤ f2 + 1)
    (hS : ∀ g1, g = g1 + 1 → ∀ (c : RouteConfig), c.relativePath = true → c.relativeBelow = true →
      ∀ (pa pr : RouteRecord) (mR : Option Str) (u1 u2 : Nat), StandsFor pa pr →
      ∀ r ∈ (registrations g1 u1 c (some pa)
          (some (cleanPath (pathOrSlash pr.path ++ ['/'] ++ c.options.path)))).1,
        PointsAt (fun x => x ∈ (registrations g1 u1 c (some pa)
            (some (cleanPath (pathOrSlash pr.path ++ ['/'] ++ c.options.path)))).1 ∨
          x ∈ (registrations f2 u2 c (some pr) mR).1) r)
    (a : Str) (ch : Option (List RouteConfig))
    (hrel : ∀ children, ch = some children → RouteConfig.relativeAll children = true)
    (parent : Option RouteRecord) (R : RouteRecord) (uA : Nat) (avail : RouteRecord → Prop)
    (hR : avail R)
    (uR : Nat) (optsR : RouteOptions) (mRR : Option Str) (aliases : List Str)
    (hRe : R = makeRecord uR optsR parent mRR) (hal0 : optsR.aliases = some aliases)
    (ha0 : a ∈ aliases)
    (hch : ∀ children, ch = some children → ∀ child ∈ children, ∃ v mR,
      ∀ x ∈ (registrations f2 v child (some R) mR).1, avail x) :
    ∀ r ∈ (registrations g uA (RouteConfig.mk { path := a } ch) parent
        (some (pathOrSlash R.path))).1,
      PointsAt (fun x => x ∈ (registrations g uA (RouteConfig.mk { path := a } ch) parent
        (some (pathOrSlash R.path))).1 ∨ avail x) r := by
  intro r hr
  cases g with
  | zero => cases hr
  | succ g1 =>
    rcases registrations_mem g1 uA { path := a } ch parent (some (pathOrSlash R.path)) r hr with
      h | ⟨children, hchildren, child, hchild, v, hv, hsub⟩ | ⟨aliases, hal, _⟩
    · intro m hm
      rw [h, makeRecord_matchAs] at hm
      cases hm
      refine ⟨R, Or.inr hR, ?_, rfl⟩
      rw [h]
      subst hRe
      exact StandsFor.ofAlias uR uA optsR parent mRR aliases a hal0 ha0
    · have et : (if truthy (some (pathOrSlash R.path)) = true then
          some (cleanPath ((some (pathOrSlash R.path)).getD [] ++ ['/'] ++ child.options.path))
          else none) =
          some (cleanPath (pathOrSlash R.path ++ ['/'] ++ child.options.path)) := by
        rw [if_pos (truthy_some _ (pathOrSlash_ne_nil _))]
        rfl
      rw [et] at hv hsub
      obtain ⟨hrp, hrb⟩ := relativeAll_mem children (hrel children hchildren) child hchild
      obtain ⟨v2, mR, hav⟩ := hch children hchildren child hchild
      intro m hm
      have hst : StandsFor
          (makeRecord uA { path := a } parent (some (pathOrSlash R.path))) R := by
        subst hRe
        exact StandsFor.ofAlias uR uA optsR parent mRR aliases a hal0 ha0
      obtain ⟨r1, hr1, e⟩ := hS g1 rfl child hrp hrb _ R mR v v2 hst r hv m hm
      refine ⟨r1, ?_, e⟩
      rcases hr1 with h1 | h1
      · exact Or.inl (hsub r1 h1)
      · exact Or.inr (hav r1 h1)
    · cases hal

/-- The records of a configuration with relative paths under an alias record:
each `matchAs` is the path of a record of this call or of the call for the same
configuration under the record the alias record stands for. -/
theorem child_call_points : ∀ (f1 f2 : Nat), f1 ≤ f2 → ∀ (c : RouteConfig),
    c.relativePath = true → c.relativeBelow = true →
    ∀ (pa pr : RouteRecord) (mR : Option Str) (u1 u2 : Nat), StandsFor pa pr →
    ∀ r ∈ (registrations f1 u1 c (some pa)
        (some (cleanPath (pathOrSlash pr.path ++ ['/'] ++ c.options.path)))).1,
      PointsAt (fun x => x ∈ (registrations f1 u1 c (some pa)
          (some (cleanPath (pathOrSlash pr.path ++ ['/'] ++ c.options.path)))).1 ∨
        x ∈ (registrations f2 u2 c (some pr) mR).1) r := by
  intro f1
  induction f1 using Nat.strong_induction_on with
  | _ f1 ih =>
    intro f2 hle c hrp hrb pa pr mR u1 u2 hst r hr
    cases f1 with
    | zero => cases hr
    | succ f1 =>
      obtain ⟨f2, rfl⟩ : ∃ k, f2 = k + 1 := ⟨f2 - 1, by omega⟩
      have hle1 : f1 ≤ f2 := by omega
      obtain ⟨opts, ch⟩ := c
      have e1 : (RouteConfig.mk opts ch).options = opts := rfl
      rw [e1] at hr ⊢
      -- the record of the same configuration under the record stood for
      have hreal : (makeRecord u2 opts (some pr) mR).path =
          cleanPath (pathOrSlash pr.path ++ ['/'] ++ opts.path) :=
        makeRecord_relative_path u2 (RouteConfig.mk opts ch) hrp pr mR
      have hne : cleanPath (pathOrSlash pr.path ++ ['/'] ++ opts.path) ≠ [] :=
        cleanPath_ne_nil _ (joined_ne_nil _ _)
      have hpos : pathOrSlash (makeRecord u2 opts (some pr) mR).path =
          cleanPath (pathOrSlash pr.path ++ ['/'] ++ opts.path) := by
        rw [hreal]
        exact pathOrSlash_of_ne_nil _ hne
      rcases registrations_mem f1 u1 opts ch (some pa) _ r hr with
        h | ⟨children, hchildren, child, hchild, v, hv, hsub⟩ |
          ⟨aliases, hal, a, ha, v, hv, hsub⟩
      · intro m hm
        rw [h, makeRecord_matchAs] at hm
        cases hm
        refine ⟨makeRecord u2 opts (some pr) mR,
          Or.inr (registrations_own_mem f2 u2 opts ch (some pr) mR), ?_, hpos.symm⟩
        rw [h]
        exact StandsFor.ofChild u2 u1 opts pa pr _ mR hst
      · subst hchildren
        have et : (if truthy (some (cleanPath (pathOrSlash pr.path ++ ['/'] ++ opts.path))) = true
            then some (cleanPath ((some (cleanPath (pathOrSlash pr.path ++ ['/'] ++
              opts.path))).getD [] ++ ['/'] ++ child.options.path))
            else none) =
            some (cleanPath (pathOrSlash (makeRecord u2 opts (some pr) mR).path ++ ['/'] ++
              child.options.path)) := by
          rw [if_pos (truthy_some _ hne), hpos]
          rfl
        rw [et] at hv hsub
        obtain ⟨hcp, hcb⟩ := relativeAll_mem children (relativeBelow_some opts children hrb)
          child hchild
        obtain ⟨v2, hsub2⟩ := registrations_child_sub f2 u2 opts children (some pr) mR child hchild
        intro m hm
        obtain ⟨r1, hr1, e⟩ := ih f1 (Nat.lt_succ_self _) f2 hle1 child hcp hcb _
          (makeRecord u2 opts (some pr) mR) _ v v2
          (StandsFor.ofChild u2 u1 opts pa pr _ mR hst) r hv m hm
        refine ⟨r1, ?_, e⟩
        rcases hr1 with h1 | h1
        · exact Or.inl (hsub r1 h1)
        · exact Or.inr (hsub2 r1 h1)
      · have hA := alias_call_points f1 f1 (Nat.le_succ _)
          (fun g1 hg c1 hc1 hc2 pa1 pr1 mR1 w1 w2 hst1 r0 hr0 =>
            ih g1 (by omega) f1 (by omega) c1 hc1 hc2 pa1 pr1 mR1 w1 w2 hst1 r0 hr0)
          a ch (fun children hchildren => by
            subst hchildren
            exact relativeBelow_some opts children hrb)
          (some pa)
          (makeRecord u1 opts (some pa)
            (some (cleanPath (pathOrSlash pr.path ++ ['/'] ++ opts.path)))) v
          (fun x => x ∈ (registrations (f1 + 1) u1 (RouteConfig.mk opts ch) (some pa)
            (some (cleanPath (pathOrSlash pr.path ++ ['/'] ++ opts.path)))).1)
          (registrations_own_mem f1 u1 opts ch (some pa) _)
          u1 opts (some (cleanPath (pathOrSlash pr.path ++ ['/'] ++ opts.path))) aliases rfl hal ha
          (fun children hchildren child hchild => by
            subst hchildren
            obtain ⟨w, hw⟩ := registrations_child_sub f1 u1 opts children (some pa)
              (some (cleanPath (pathOrSlash pr.path ++ ['/'] ++ opts.path))) child hchild
            exact ⟨w, _, hw⟩)
        intro m hm
        obtain ⟨r1, hr1, e⟩ := hA r hv m hm
        refine ⟨r1, Or.inl ?_, e⟩
        rcases hr1 with h1 | h1
        · exact hsub r1 h1
        · exact h1

/-- In the records of a call of `addRouteRecord` without `matchAs`, for a
configuration whose descendants have relative paths, every `matchAs` is the
path of a record of the call. -/
theorem top_call_points : ∀ (fuel : Nat) (route : RouteConfig), route.relativeBelow = true →
    ∀ (parent : Option RouteRecord) (u : Nat),
    ∀ r ∈ (registrations fuel u route parent none).1,
      PointsAt (fun x => x ∈ (registrations fuel u route parent none).1) r := by
  intro fuel
  induction fuel with
  | zero => intro route _ parent u r hr; cases hr
  | succ fuel ih =>
    intro route hrb parent u r hr
    obtain ⟨opts, ch⟩ := route
    rcases registrations_mem fuel u opts ch parent none r hr with
      h | ⟨children, hchildren, child, hchild, v, hv, hsub⟩ |
        ⟨aliases, hal, a, ha, v, hv, hsub⟩
    · intro m hm
      rw [h, makeRecord_matchAs] at hm
      cases hm
    · subst hchildren
      have et : (if truthy (none : Option Str) = true then
          some (cleanPath ((none : Option Str).getD [] ++ ['/'] ++ child.options.path))
          else none) = none := rfl
      rw [et] at hv hsub
      obtain ⟨_, hcb⟩ := relativeAll_mem children (relativeBelow_some opts children hrb)
        child hchild
      intro m hm
      obtain ⟨r1, hr1, e⟩ := ih child hcb _ v r hv m hm
      exact ⟨r1, hsub r1 hr1, e⟩
    · have hA := alias_call_points fuel fuel (Nat.le_succ _)
        (fun g1 hg c1 hc1 hc2 pa1 pr1 mR1 w1 w2 hst1 r0 hr0 =>
          child_call_points g1 fuel (by omega) c1 hc1 hc2 pa1 pr1 mR1 w1 w2 hst1 r0 hr0)
        a ch (fun children hchildren => by
          subst hchildren
          exact relativeBelow_some opts children hrb)
        parent (makeRecord u opts parent none) v
        (fun x => x ∈ (registrations (fuel + 1) u (RouteConfig.mk opts ch) parent none).1)
        (registrations_own_mem fuel u opts ch parent none)
        u opts none aliases rfl hal ha
        (fun children hchildren child hchild => by
          subst hchildren
          obtain ⟨w, hw⟩ := registrations_child_sub fuel u opts children parent none child hchild
          exact ⟨w, _, hw⟩)
      intro m hm
      obtain ⟨r1, hr1, e⟩ := hA r hv m hm
      refine ⟨r1, ?_, e⟩
      rcases hr1 with h1 | h1
      · exact hsub r1 h1
      · exact h1

theorem foldl_registerRecord_has_path (rs : List RouteRecord) :
    ∀ (m : RouteMap) (r : RouteRecord), r ∈ rs →
      (Dict.get? (rs.foldl registerRecord m).pathMap r.path).isSome = true := by
  induction rs with
  | nil => intro m r h; cases h
  | cons x rs ih =>
    intro m r h
    simp only [List.foldl_cons]
    rcases List.mem_cons.mp h with rfl | h
    · have h1 : (Dict.get? (registerRecord m r).pathMap r.path).isSome = true := by
        rw [registerRecord_pathMap]
        split
        · rw [Dict.get?_set_same]
          rfl
        · rename_i hn
          cases hg : Dict.get? m.pathMap r.path with
          | none => rw [hg] at hn; exact absurd rfl hn
          | some y => rfl
      cases hg : Dict.get? (registerRecord m r).pathMap r.path with
      | none => rw [hg] at h1; cases h1
      | some y =>
        rw [(foldl_registerRecord_frame rs (registerRecord m r)).1 r.path y hg]
        rfl
    · exact ih _ r h

/-- C32, amended: when every configuration below the top-level routes has a
relative path that `normalizePath` keeps (it does not begin with `/` and, unless
the configuration is strict, does not end with `/`), every record that carries
a `matchAs` stands for a registered record and carries the path of that record
(`/` when that path is empty), and `pathMap` has a record for that path.  The
record it stands for is, for the record of an alias of a configuration, the
record of that configuration under the same parent, and for the record of a
child under a record that stands for another one, the record of the same child
configuration under that other record. -/
theorem matchAs_points_at_record (routes : List RouteConfig) (uid : Nat)
    (hrel : ∀ route ∈ routes, route.relativeBelow = true) :
    (∀ r ∈ registrationsOf routes uid, ∀ m, r.matchAs = some m →
      ∃ r1 ∈ registrationsOf routes uid, StandsFor r r1 ∧ m = pathOrSlash r1.path) ∧
      ∀ r ∈ registrationsOf routes 0, ∀ m, r.matchAs = some m →
        ∃ r1 ∈ registrationsOf routes 0, StandsFor r r1 ∧ m = pathOrSlash r1.path ∧
          (Dict.get? (createRouteMap routes RouteMap.empty).pathMap r1.path).isSome = true := by
  have key : ∀ u, ∀ r ∈ registrationsOf routes u, ∀ m, r.matchAs = some m →
      ∃ r1 ∈ registrationsOf routes u, StandsFor r r1 ∧ m = pathOrSlash r1.path := by
    intro u r hr m hm
    unfold registrationsOf at hr ⊢
    rcases collectRecords_mem_sub _ routes _ r hr with h | ⟨route, hroute, v, hv, hsub⟩
    · cases h
    · obtain ⟨r1, hr1, hst, e⟩ := top_call_points _ route (hrel route hroute) none v r hv m hm
      exact ⟨r1, hsub r1 hr1, hst, e⟩
  refine ⟨key uid, ?_⟩
  intro r hr m hm
  obtain ⟨r1, hr1, hst, e⟩ := key 0 r hr m hm
  refine ⟨r1, hr1, hst, e, ?_⟩
  rw [createRouteMap_pathMap]
  exact foldl_registerRecord_has_path _ RouteMap.empty r1 hr1

/-- C32, as stated, fails for the route `/` with the alias `/home`, where the
alias record carries `/` and the real record has the empty path, and for the
route `/a` with the alias `/b` and a child of absolute path `/c`, where the
record of the child under the alias carries `/a/c`, which is the path of no
record. -/
theorem matchAs_differs_from_real_path :
    (registrationsOf Example.rootAlias 0).map (fun r => (r.path, r.matchAs)) =
        [("/home".toList, some ['/']), ([], none)] ∧
      (registrationsOf Example.absoluteChild 0).map (fun r => (r.path, r.matchAs)) =
        [("/c".toList, none), ("/c".toList, some "/a/c".toList),
         ("/b".toList, some "/a".toList), ("/a".toList, none)] := by
  decide

/-- Witness of C32: the route `/a` named `a` with the alias `/b` and the child
`c` with the alias `d`. -/
theorem matchAs_points_at_record_witness :
    (∀ route ∈ Example.aliasedTree, route.relativeBelow = true) ∧
      ∀ r ∈ registrationsOf Example.aliasedTree 0, ∀ m, r.matchAs = some m →
        ∃ r1 ∈ registrationsOf Example.aliasedTree 0,
          StandsFor r r1 ∧ m = pathOrSlash r1.path :=
  have hrel : ∀ route ∈ Example.aliasedTree, route.relativeBelow = true := by decide
  ⟨hrel, (matchAs_points_at_record Example.aliasedTree 0 hrel).1⟩

/-! ## The query codec, character by character -/

theorem restoreCommas_cons (x : Char) (rest : Str) (h : x ≠ '%') :
    restoreCommas (x :: rest) = x :: restoreCommas rest := by
  cases rest with
  | nil => rfl
  | cons d rest =>
    cases rest with
    | nil => rfl
    | cons e rest =>
      rw [restoreCommas]
      have hx : (x == '%') = false := by simpa using h
      simp [hx]

theorem restoreCommas_escape (h1 h2 : Char) (rest : Str) (n1 : h1 ≠ '%') (n2 : h2 ≠ '%') :
    restoreCommas ('%' :: h1 :: h2 :: rest) =
      (if h1 = '2' ∧ h2 = 'C' then [','] else ['%', h1, h2]) ++ restoreCommas rest := by
  rw [restoreCommas]
  by_cases h : h1 = '2' ∧ h2 = 'C'
  · rw [if_pos h]
    obtain ⟨rfl, rfl⟩ := h
    simp
  · rw [if_neg h]
    have hb : ('%' == '%' && h1 == '2' && h2 == 'C') = false := by
      simp only [Bool.and_eq_false_iff, beq_eq_false_iff_ne, ne_eq]
      by_cases e1 : h1 = '2'
      · right
        exact fun e2 => h ⟨e1, e2⟩
      · left
        right
        exact e1
    rw [hb]
    simp only [Bool.false_eq_true, if_false]
    rw [restoreCommas_cons h1 _ n1, restoreCommas_cons h2 _ n2]
    rfl

theorem hexDigit_facts (d : Nat) (h : d < 16) :
    hexDigit d ≠ '%' ∧ isReserveChar (hexDigit d) = false ∧ isQuerySafe (hexDigit d) = true ∧
      (hexDigit d = '2' → d = 2) ∧ (hexDigit d = 'C' → d = 12) := by
  interval_cases d <;> decide

theorem restoreCommas_percentOctet (b : Nat) (hb : b < 256) (rest : Str) :
    restoreCommas (percentOctet b ++ rest) =
      (if b = 44 then [','] else percentOctet b) ++ restoreCommas rest := by
  obtain ⟨a1, _, _, a4, _⟩ := hexDigit_facts (b / 16) (by omega)
  obtain ⟨b1, _, _, _, b5⟩ := hexDigit_facts (b % 16) (by omega)
  unfold percentOctet
  simp only [List.cons_append, List.nil_append]
  rw [restoreCommas_escape _ _ _ a1 b1]
  by_cases h : b = 44
  · subst h
    rfl
  · rw [if_neg h, if_neg]
    intro hh
    have := a4 hh.1
    have := b5 hh.2
    omega

theorem restoreCommas_octets : ∀ (l : List Nat), (∀ n ∈ l, n < 256) → 44 ∉ l → ∀ rest : Str,
    restoreCommas (l.flatMap percentOctet ++ rest) = l.flatMap percentOctet ++ restoreCommas rest := by
  intro l
  induction l with
  | nil => intro _ _ rest; rfl
  | cons b l ih =>
    intro hl h44 rest
    simp only [List.flatMap_cons, List.append_assoc]
    rw [restoreCommas_percentOctet b (hl b (List.mem_cons_self _ _)),
      if_neg (fun e => h44 (by simp [e])),
      ih (fun n hn => hl n (List.mem_cons_of_mem _ hn))
        (fun hm => h44 (List.mem_cons_of_mem _ hm))]

theorem reserve_percentOctet (b : Nat) (hb : b < 256) :
    (percentOctet b).flatMap (fun c =>
      if c == '!' || c == apostrophe || c == '(' || c == ')' || c == '*'
      then '%' :: toLowerHex c.toNat else [c]) = percentOctet b := by
  obtain ⟨_, a2, _⟩ := hexDigit_facts (b / 16) (by omega)
  obtain ⟨_, b2, _⟩ := hexDigit_facts (b % 16) (by omega)
  unfold isReserveChar at a2 b2
  have h0 : ('%' == '!' || '%' == apostrophe || '%' == '(' || '%' == ')' || '%' == '*') = false := by
    decide
  unfold percentOctet
  simp only [List.flatMap_cons, List.flatMap_nil, List.append_nil, h0, a2, b2,
    Bool.false_eq_true, if_false, List.singleton_append]

theorem reserve_octets : ∀ (l : List Nat), (∀ n ∈ l, n < 256) →
    (l.flatMap percentOctet).flatMap (fun c =>
      if c == '!' || c == apostrophe || c == '(' || c == ')' || c == '*'
      then '%' :: toLowerHex c.toNat else [c]) = l.flatMap percentOctet := by
  intro l
  induction l with
  | nil => intro _; rfl
  | cons b l ih =>
    intro hl
    simp only [List.flatMap_cons, List.flatMap_append]
    rw [reserve_percentOctet b (hl b (List.mem_cons_self _ _)),
      ih (fun n hn => hl n (List.mem_cons_of_mem _ hn))]

theorem utf8Octets_no_comma (c : Char) (h : c ≠ ',') : 44 ∉ utf8Octets c := by
  have hc : Char.ofNat c.toNat = c := Char.ofNat_toNat c
  intro hm
  unfold utf8Octets at hm
  simp only at hm
  split at hm
  · simp only [List.mem_singleton] at hm
    apply h
    rw [← hc, ← hm]
  · split at hm
    · simp only [List.mem_cons, List.mem_singleton, List.not_mem_nil, or_false] at hm
      omega
    · split at hm
      · simp only [List.mem_cons, List.mem_singleton, List.not_mem_nil, or_false] at hm
        omega
      · simp only [List.mem_cons, List.mem_singleton, List.not_mem_nil, or_false] at hm
        omega

theorem isReserveChar_cases (c : Char) (h : isReserveChar c = true) :
    c = '!' ∨ c = apostrophe ∨ c = '(' ∨ c = ')' ∨ c = '*' := by
  unfold isReserveChar at h
  simp only [Bool.or_eq_true, beq_iff_eq] at h
  rcases h with (((h | h) | h) | h) | h
  · exact Or.inl h
  · exact Or.inr (Or.inl h)
  · exact Or.inr (Or.inr (Or.inl h))
  · exact Or.inr (Or.inr (Or.inr (Or.inl h)))
  · exact Or.inr (Or.inr (Or.inr (Or.inr h)))

theorem reserve_mid (c : Char) (hres : isReserveChar c = true) :
    ∃ h1 h2, h1 ≠ '%' ∧ h2 ≠ '%' ∧ ¬ (h1 = '2' ∧ h2 = 'C') ∧
      (if uriUnescaped c then [c] else (utf8Octets c).flatMap percentOctet).flatMap (fun c =>
        if c == '!' || c == apostrophe || c == '(' || c == ')' || c == '*'
        then '%' :: toLowerHex c.toNat else [c]) = ['%', h1, h2] ∧
      '%' :: toLowerHex c.toNat = ['%', h1, h2] := by
  rcases isReserveChar_cases c hres with h | h | h | h | h <;> subst h
  · exact ⟨'2', '1', by decide, by decide, by decide, by decide, by decide⟩
  · exact ⟨'2', '7', by decide, by decide, by decide, by decide, by decide⟩
  · exact ⟨'2', '8', by decide, by decide, by decide, by decide, by decide⟩
  · exact ⟨'2', '9', by decide, by decide, by decide, by decide, by decide⟩
  · exact ⟨'2', 'a', by decide, by decide, by decide, by decide, by decide⟩

/-- The function `encode` works character by character. -/
theorem encode_cons (c : Char) (v : Str) : encode (c :: v) = encodeQueryChar c ++ encode v := by
  unfold encode
  rw [encodeURIComponent_cons, List.flatMap_append]
  generalize (encodeURIComponent v).flatMap (fun c =>
    if c == '!' || c == apostrophe || c == '(' || c == ')' || c == '*'
    then '%' :: toLowerHex c.toNat else [c]) = rest
  unfold encodeQueryChar
  by_cases hcomma : c = ','
  · subst hcomma
    rfl
  · have hc1 : (c == ',') = false := by simpa using hcomma
    rw [hc1]
    simp only [Bool.false_eq_true, if_false]
    by_cases hres : isReserveChar c = true
    · rw [if_pos hres]
      obtain ⟨h1, h2, n1, n2, n3, e1, e2⟩ := reserve_mid c hres
      rw [e1, e2]
      show restoreCommas ('%' :: h1 :: h2 :: rest) = _
      rw [restoreCommas_escape h1 h2 rest n1 n2, if_neg n3]
    · rw [if_neg hres]
      have hres1 : (c == '!' || c == apostrophe || c == '(' || c == ')' || c == '*') = false := by
        simpa [isReserveChar] using hres
      by_cases hun : uriUnescaped c = true
      · rw [if_pos hun]
        have hne : c ≠ '%' := by
          intro h
          rw [h] at hun
          exact absurd hun (by decide)
        simp only [List.flatMap_cons, List.flatMap_nil, List.append_nil, hres1,
          Bool.false_eq_true, if_false, List.singleton_append]
        exact restoreCommas_cons c rest hne
      · rw [if_neg hun, reserve_octets _ (utf8Octets_lt c)]
        exact restoreCommas_octets _ (utf8Octets_lt c) (utf8Octets_no_comma c hcomma) rest

theorem encode_nil : encode [] = [] := rfl

theorem encode_eq_flatMap (v : Str) : encode v = v.flatMap encodeQueryChar := by
  induction v with
  | nil => rfl
  | cons c v ih => rw [encode_cons, ih, List.flatMap_cons]

theorem encodeQueryChar_length (c : Char) : 1 ≤ (encodeQueryChar c).length := by
  unfold encodeQueryChar
  split
  · simp
  · split
    · simp
    · split
      · simp
      · exact utf8Octets_length c

theorem encode_length (v : Str) : v.length ≤ (encode v).length := by
  induction v with
  | nil => simp
  | cons c v ih =>
    rw [encode_cons, List.length_append, List.length_cons]
    have := encodeQueryChar_length c
    omega

theorem encode_ne_nil (v : Str) (h : v ≠ []) : encode v ≠ [] := by
  intro e
  have := encode_length v
  rw [e] at this
  cases v with
  | nil => exact h rfl
  | cons c v => simp at this

theorem decodeAux_queryChar (fuel : Nat) (c : Char) (rest : Str) :
    decodeURIComponentAux (fuel + 1) (encodeQueryChar c ++ rest) =
      (decodeURIComponentAux fuel rest).map (fun t => c :: t) := by
  unfold encodeQueryChar
  by_cases hcomma : c = ','
  · subst hcomma
    simp only [beq_self_eq_true, if_true, List.singleton_append]
    rw [decodeURIComponentAux]
    simp
  · have hc1 : (c == ',') = false := by simpa using hcomma
    rw [hc1]
    simp only [Bool.false_eq_true, if_false]
    by_cases hres : isReserveChar c = true
    · rw [if_pos hres]
      rcases isReserveChar_cases c hres with h | h | h | h | h <;> subst h
      · show decodeURIComponentAux (fuel + 1) (percentOctet 33 ++ rest) = _
        rw [decodeAux_percent fuel 33 rest (by omega)]
        rfl
      · show decodeURIComponentAux (fuel + 1) (percentOctet 39 ++ rest) = _
        rw [decodeAux_percent fuel 39 rest (by omega)]
        rfl
      · show decodeURIComponentAux (fuel + 1) (percentOctet 40 ++ rest) = _
        rw [decodeAux_percent fuel 40 rest (by omega)]
        rfl
      · show decodeURIComponentAux (fuel + 1) (percentOctet 41 ++ rest) = _
        rw [decodeAux_percent fuel 41 rest (by omega)]
        rfl
      · show decodeURIComponentAux (fuel + 1) ('%' :: '2' :: 'a' :: rest) = _
        rw [decodeURIComponentAux]
        simp only [ne_eq, not_true_eq_false, if_false]
        rfl
    · rw [if_neg hres]
      by_cases hun : uriUnescaped c = true
      · have hne : c ≠ '%' := by
          intro h
          rw [h] at hun
          exact absurd hun (by decide)
        rw [if_pos hun, List.singleton_append, decodeURIComponentAux]
        simp only [ne_eq, hne, not_false_eq_true, if_true]
      · rw [if_neg hun, decodeAux_utf8]

theorem decodeAux_encode (v : Str) :
    ∀ fuel, v.length ≤ fuel → decodeURIComponentAux fuel (encode v) = some v := by
  induction v with
  | nil => intro fuel _; exact decodeAux_nil fuel
  | cons c v ih =>
    intro fuel hf
    cases fuel with
    | zero => simp at hf
    | succ fuel =>
      rw [encode_cons, decodeAux_queryChar, ih fuel (by simpa using hf)]
      rfl

/-- The host decodes what `encode` returns to the string encoded. -/
theorem decode_encode (v : Str) : decodeURIComponent (encode v) = some v :=
  decodeAux_encode v _ (encode_length v)

theorem isQuerySafe_cases (d : Char) (h : isQuerySafe d = true) :
    (48 ≤ d.toNat ∧ d.toNat ≤ 57) ∨ (65 ≤ d.toNat ∧ d.toNat ≤ 90) ∨
      (97 ≤ d.toNat ∧ d.toNat ≤ 122) ∨ d.toNat = 45 ∨ d.toNat = 95 ∨ d.toNat = 46 ∨
      d.toNat = 126 ∨ d.toNat = 37 ∨ d.toNat = 44 := by
  unfold isQuerySafe isAlphaNum at h
  simp only [Bool.or_eq_true, Bool.and_eq_true, decide_eq_true_eq, beq_iff_eq] at h
  rcases h with (((((h | h) | h) | h) | h) | h) | h
  · rcases h with (h | h) | h
    · exact Or.inl h
    · exact Or.inr (Or.inl h)
    · exact Or.inr (Or.inr (Or.inl h))
  · subst h; right; right; right; left; rfl
  · subst h; right; right; right; right; left; rfl
  · subst h; right; right; right; right; right; left; rfl
  · subst h; right; right; right; right; right; right; left; rfl
  · subst h; right; right; right; right; right; right; right; left; rfl
  · subst h; right; right; right; right; right; right; right; right; rfl

/-- A character `encode` writes is none of `&`, `=`, `+`, `?`, `#`, and it is
not white space. -/
theorem isQuerySafe_plain (d : Char) (h : isQuerySafe d = true) :
    d ≠ '&' ∧ d ≠ '=' ∧ d ≠ '+' ∧ d ≠ '?' ∧ d ≠ '#' ∧ isJsWhitespace d = false := by
  have hc := isQuerySafe_cases d h
  refine ⟨?_, ?_, ?_, ?_, ?_, ?_⟩
  · intro e; subst e; revert h; decide
  · intro e; subst e; revert h; decide
  · intro e; subst e; revert h; decide
  · intro e; subst e; revert h; decide
  · intro e; subst e; revert h; decide
  · unfold isJsWhitespace
    simp only [Bool.or_eq_false_iff, Bool.and_eq_false_iff, decide_eq_false_iff_not,
      beq_eq_false_iff_ne, ne_eq]
    omega

theorem encodeQueryChar_safe (c : Char) : ∀ d ∈ encodeQueryChar c, isQuerySafe d = true := by
  intro d hd
  unfold encodeQueryChar at hd
  split at hd
  · simp only [List.mem_singleton] at hd
    subst hd
    rfl
  · split at hd
    · rename_i hres
      rcases isReserveChar_cases c hres with h | h | h | h | h <;> subst h <;>
        revert d <;> decide
    · rename_i hres
      split at hd
      · rename_i hcomma hun
        simp only [List.mem_singleton] at hd
        subst hd
        unfold uriUnescaped at hun
        unfold isReserveChar at hres
        unfold isQuerySafe
        simp only [Bool.or_eq_true, beq_iff_eq, Bool.not_eq_true, Bool.or_eq_false_iff,
          beq_eq_false_iff_ne, ne_eq] at hun hres ⊢
        tauto
      · simp only [List.mem_flatMap] at hd
        obtain ⟨b, hb, hdb⟩ := hd
        have hb256 := utf8Octets_lt c b hb
        unfold percentOctet at hdb
        simp only [List.mem_cons, List.mem_singleton, List.not_mem_nil, or_false] at hdb
        rcases hdb with h | h | h
        · subst h; rfl
        · subst h; exact (hexDigit_facts (b / 16) (by omega)).2.2.1
        · subst h; exact (hexDigit_facts (b % 16) (by omega)).2.2.1

theorem encode_safe (v : Str) : ∀ d ∈ encode v, isQuerySafe d = true := by
  intro d hd
  rw [encode_eq_flatMap, List.mem_flatMap] at hd
  obtain ⟨c, _, hc⟩ := hd
  exact encodeQueryChar_safe c d hc

/-! ## The round trip of the query codec -/

theorem joinWith_singleton (sep a : Str) : joinWith sep [a] = a := rfl

theorem joinWith_append (sep : Str) : ∀ (l1 l2 : List Str), l1 ≠ [] → l2 ≠ [] →
    joinWith sep (l1 ++ l2) = joinWith sep l1 ++ sep ++ joinWith sep l2 := by
  intro l1
  induction l1 with
  | nil => intro l2 h; exact absurd rfl h
  | cons a l1 ih =>
    intro l2 _ h2
    cases l1 with
    | nil =>
      cases l2 with
      | nil => exact absurd rfl h2
      | cons b l2 => rfl
    | cons b l1 =>
      rw [List.cons_append, List.cons_append, joinWith_cons_cons, ← List.cons_append,
        ih l2 (by simp) h2, joinWith_cons_cons]
      simp only [List.append_assoc]

theorem joinWith_flatten (sep : Str) : ∀ L : List (List Str), (∀ l ∈ L, l ≠ []) →
    joinWith sep (L.map (joinWith sep)) = joinWith sep L.flatten := by
  intro L
  induction L with
  | nil => intro _; rfl
  | cons l L ih =>
    intro h
    have hl : l ≠ [] := h l (List.mem_cons_self _ _)
    have hL : ∀ x ∈ L, x ≠ [] := fun x hx => h x (List.mem_cons_of_mem _ hx)
    cases L with
    | nil => simp [joinWith_singleton]
    | cons l2 L =>
      have hne : (l2 :: L).flatten ≠ [] := by
        have := hL l2 (List.mem_cons_self _ _)
        cases l2 with
        | nil => exact absurd rfl this
        | cons a l2 => simp
      rw [List.map_cons, List.map_cons, joinWith_cons_cons, ← List.map_cons, ih hL,
        List.flatten_cons (l := l), joinWith_append sep l _ hl hne]

theorem splitOn_of_not_mem (sep : Char) : ∀ p : Str, sep ∉ p → splitOn sep p = [p] := by
  intro p
  induction p with
  | nil => intro _; rfl
  | cons c p ih =>
    intro h
    have hc : (c == sep) = false := by
      simp only [beq_eq_false_iff_ne, ne_eq]
      intro e
      exact h (by simp [e])
    rw [splitOn, ih (fun hm => h (List.mem_cons_of_mem _ hm))]
    simp [hc]

theorem splitOn_append_sep (sep : Char) (rest : Str) : ∀ p : Str, sep ∉ p →
    splitOn sep (p ++ sep :: rest) = p :: splitOn sep rest := by
  intro p
  induction p with
  | nil =>
    intro _
    rw [List.nil_append, splitOn]
    cases h : splitOn sep rest with
    | nil => exact absurd h (splitOn_ne_nil sep rest)
    | cons seg segs => simp
  | cons c p ih =>
    intro h
    have hc : (c == sep) = false := by
      simp only [beq_eq_false_iff_ne, ne_eq]
      intro e
      exact h (by simp [e])
    rw [List.cons_append, splitOn, ih (fun hm => h (List.mem_cons_of_mem _ hm))]
    simp [hc]

/-- Splitting what `join` returns gives the parts back, when no part holds
the separator. -/
theorem splitOn_joinWith (sep : Char) : ∀ ps : List Str, ps ≠ [] → (∀ p ∈ ps, sep ∉ p) →
    splitOn sep (joinWith [sep] ps) = ps := by
  intro ps
  induction ps with
  | nil => intro h; exact absurd rfl h
  | cons p ps ih =>
    intro _ h
    cases ps with
    | nil => exact splitOn_of_not_mem sep p (h p (List.mem_cons_self _ _))
    | cons q ps =>
      rw [joinWith_cons_cons, List.append_assoc, List.singleton_append,
        splitOn_append_sep sep _ p (h p (List.mem_cons_self _ _)),
        ih (by simp) (fun x hx => h x (List.mem_cons_of_mem _ hx))]

theorem trim_of_ends (c : Char) (r : Str) (hc : isJsWhitespace c = false)
    (hr : ∀ z, (c :: r).getLast? = some z → isJsWhitespace z = false) :
    trim (c :: r) = c :: r := by
  unfold trim
  have h1 : (c :: r).dropWhile isJsWhitespace = c :: r := by
    rw [List.dropWhile_cons, hc]
    simp
  rw [h1]
  have h2 : ∃ init z, c :: r = init ++ [z] :=
    ⟨(c :: r).dropLast, (c :: r).getLast (by simp),
      (List.dropLast_append_getLast (by simp)).symm⟩
  obtain ⟨init, z, e⟩ := h2
  have hz : isJsWhitespace z = false := by
    apply hr
    rw [e]
    simp
  rw [e, List.reverse_append, List.reverse_singleton, List.singleton_append,
    List.dropWhile_cons, hz]
  simp

theorem map_plus_of_safe (p : Str) (h : ∀ d ∈ p, d ≠ '+') :
    p.map (fun c => if c == '+' then ' ' else c) = p := by
  induction p with
  | nil => rfl
  | cons c p ih =>
    have hc : (c == '+') = false := by
      simpa using h c (List.mem_cons_self _ _)
    rw [List.map_cons, ih (fun d hd => h d (List.mem_cons_of_mem _ hd)), hc]
    rfl

theorem encode_no_char (v : Str) :
    '&' ∉ encode v ∧ '=' ∉ encode v ∧ '+' ∉ encode v := by
  refine ⟨fun h => ?_, fun h => ?_, fun h => ?_⟩
  · exact (isQuerySafe_plain _ (encode_safe v _ h)).1 rfl
  · exact (isQuerySafe_plain _ (encode_safe v _ h)).2.1 rfl
  · exact (isQuerySafe_plain _ (encode_safe v _ h)).2.2.1 rfl

/-- The part written for a key and a string or `null` decodes to them. -/
theorem decodePart_queryPart (key : Str) (a : Atom) (p : Str) (h : queryPart key a = some p) :
    decodePart p = some (key, a) ∧ '&' ∉ p ∧ p ≠ [] ∨ key = [] := by
  by_cases hk : key = []
  · exact Or.inr hk
  left
  obtain ⟨k1, k2, k3⟩ := encode_no_char key
  cases a with
  | undef => cases h
  | null =>
    simp only [queryPart, Option.some.injEq] at h
    subst h
    refine ⟨?_, k1, encode_ne_nil key hk⟩
    unfold decodePart partKeyValue
    simp only
    rw [map_plus_of_safe _ (fun d hd e => k3 (e ▸ hd)), takeWhile_ne_of_not_mem '=' _ k2,
      decode_encode]
    simp only
    rw [if_neg k2]
  | str v =>
    obtain ⟨v1, v2, v3⟩ := encode_no_char v
    simp only [queryPart, Option.some.injEq] at h
    subst h
    refine ⟨?_, ?_, ?_⟩
    · unfold decodePart partKeyValue
      simp only
      have hplus : ∀ d ∈ encode key ++ ['='] ++ encode v, d ≠ '+' := by
        intro d hd e
        subst e
        simp only [List.mem_append, List.mem_singleton] at hd
        rcases hd with (hd | hd) | hd
        · exact k3 hd
        · exact absurd hd (by decide)
        · exact v3 hd
      rw [map_plus_of_safe _ hplus]
      have ht : (encode key ++ ['='] ++ encode v).takeWhile (fun c => c != '=') = encode key := by
        rw [List.append_assoc, List.takeWhile_append_of_pos]
        · simp
        · intro d hd
          simp only [bne_iff_ne, ne_eq]
          intro e
          exact k2 (e ▸ hd)
      have hd : ((encode key ++ ['='] ++ encode v).dropWhile (fun c => c != '=')).drop 1 =
          encode v := by
        rw [List.append_assoc, List.dropWhile_append_of_pos]
        · simp
        · intro d hd
          simp only [bne_iff_ne, ne_eq]
          intro e
          exact k2 (e ▸ hd)
      rw [ht, hd, decode_encode]
      simp only
      rw [if_pos (by simp)]
      simp only
      rw [decode_encode]
      rfl
    · intro hm
      simp only [List.mem_append, List.mem_singleton] at hm
      rcases hm with (hm | hm) | hm
      · exact k1 hm
      · exact absurd hm (by decide)
      · exact v1 hm
    · simp

theorem Dict.get?_absent {α : Type} (k : Str) : ∀ d : Dict α, k ∉ d.map (fun kv => kv.1) →
    Dict.get? d k = none := by
  intro d
  induction d with
  | nil => intro _; rfl
  | cons kv d ih =>
    intro h
    obtain ⟨k0, v0⟩ := kv
    simp only [List.map_cons, List.mem_cons, not_or] at h
    rw [Dict.get?_cons, if_neg (fun e => h.1 e.symm)]
    exact ih h.2

theorem Dict.set_absent {α : Type} (k : Str) (v : α) : ∀ d : Dict α,
    k ∉ d.map (fun kv => kv.1) → Dict.set d k v = d ++ [(k, v)] := by
  intro d
  induction d with
  | nil => intro _; rfl
  | cons kv d ih =>
    intro h
    obtain ⟨k0, v0⟩ := kv
    simp only [List.map_cons, List.mem_cons, not_or] at h
    rw [Dict.set_cons, if_neg (fun e => h.1 e.symm), ih h.2]
    rfl

theorem Dict.get?_append_last {α : Type} (k : Str) (v : α) : ∀ d : Dict α,
    k ∉ d.map (fun kv => kv.1) → Dict.get? (d ++ [(k, v)]) k = some v := by
  intro d
  induction d with
  | nil => intro _; rw [List.nil_append, Dict.get?_cons, if_pos rfl]
  | cons kv d ih =>
    intro h
    obtain ⟨k0, v0⟩ := kv
    simp only [List.map_cons, List.mem_cons, not_or] at h
    rw [List.cons_append, Dict.get?_cons, if_neg (fun e => h.1 e.symm)]
    exact ih h.2

theorem Dict.set_append_last {α : Type} (k : Str) (v w : α) : ∀ d : Dict α,
    k ∉ d.map (fun kv => kv.1) → Dict.set (d ++ [(k, v)]) k w = d ++ [(k, w)] := by
  intro d
  induction d with
  | nil => intro _; rw [List.nil_append, Dict.set_cons, if_pos rfl]; rfl
  | cons kv d ih =>
    intro h
    obtain ⟨k0, v0⟩ := kv
    simp only [List.map_cons, List.mem_cons, not_or] at h
    rw [List.cons_append, Dict.set_cons, if_neg (fun e => h.1 e.symm), ih h.2]
    rfl

theorem addQueryPair_first (done : Query) (k : Str) (a : Atom) (hp : isProtoName k = false)
    (h : k ∉ done.map (fun kv => kv.1)) :
    addQueryPair done (k, a) = done ++ [(k, Value.atom a)] := by
  unfold addQueryPair
  simp only
  rw [proto_name_ne k hp, readMember_own done k hp, Dict.get?_absent k done h]
  exact Dict.set_absent k _ done h

theorem addQueryPair_second (done : Query) (k : Str) (x y : Atom) (hx : x ≠ Atom.undef)
    (hp : isProtoName k = false) (h : k ∉ done.map (fun kv => kv.1)) :
    addQueryPair (done ++ [(k, Value.atom x)]) (k, y) = done ++ [(k, Value.arr [x, y])] := by
  unfold addQueryPair
  simp only
  rw [proto_name_ne k hp, readMember_own _ k hp, Dict.get?_append_last k _ done h]
  simp only [Bool.false_eq_true, if_false]
  cases x with
  | undef => exact absurd rfl hx
  | null => exact Dict.set_append_last k _ _ done h
  | str s => exact Dict.set_append_last k _ _ done h

theorem addQueryPair_more (done : Query) (k : Str) (acc : List Atom) (z : Atom)
    (hp : isProtoName k = false) (h : k ∉ done.map (fun kv => kv.1)) :
    addQueryPair (done ++ [(k, Value.arr acc)]) (k, z) =
      done ++ [(k, Value.arr (acc ++ [z]))] := by
  unfold addQueryPair
  simp only
  rw [proto_name_ne k hp, readMember_own _ k hp, Dict.get?_append_last k _ done h]
  exact Dict.set_append_last k _ _ done h

theorem foldl_addQueryPair_more (done : Query) (k : Str) (hp : isProtoName k = false)
    (h : k ∉ done.map (fun kv => kv.1)) : ∀ (zs acc : List Atom),
    (zs.map (fun a => (k, a))).foldl addQueryPair (done ++ [(k, Value.arr acc)]) =
      done ++ [(k, Value.arr (acc ++ zs))] := by
  intro zs
  induction zs with
  | nil => intro acc; simp
  | cons z zs ih =>
    intro acc
    rw [List.map_cons, List.foldl_cons, addQueryPair_more done k acc z hp h, ih]
    simp

/-- Adding the scalars of one entry of a query object to an object without
its key appends the entry. -/
theorem foldl_addQueryPair_entry (done : Query) (k : Str) (v : Value)
    (hv : v.roundTrips = true) (hp : isProtoName k = false)
    (h : k ∉ done.map (fun kv => kv.1)) :
    (queryPairsOf k v).foldl addQueryPair done = done ++ [(k, v)] := by
  cases v with
  | atom a =>
    simp only [queryPairsOf, List.foldl_cons, List.foldl_nil]
    exact addQueryPair_first done k a hp h
  | arr xs =>
    simp only [Value.roundTrips, Bool.and_eq_true, decide_eq_true_eq, List.all_eq_true,
      bne_iff_ne, ne_eq] at hv
    obtain ⟨hlen, hall⟩ := hv
    cases xs with
    | nil => simp at hlen
    | cons x xs =>
      cases xs with
      | nil => simp at hlen
      | cons y zs =>
        simp only [queryPairsOf, List.map_cons, List.foldl_cons]
        rw [addQueryPair_first done k x hp h,
          addQueryPair_second done k x y (hall x (by simp)) hp h,
          foldl_addQueryPair_more done k hp h zs [x, y]]
        rfl

theorem foldl_addQueryPair_all : ∀ (rest done : Query),
    ((done ++ rest).map (fun kv => kv.1)).Nodup →
    (∀ kv ∈ rest, kv.2.roundTrips = true) → OwnNamed rest →
    ((rest.map (fun kv => queryPairsOf kv.1 kv.2)).flatten).foldl addQueryPair done =
      done ++ rest := by
  intro rest
  induction rest with
  | nil => intro done _ _ _; simp
  | cons kv rest ih =>
    intro done hnd hv hown
    have hk : kv.1 ∉ done.map (fun kv => kv.1) := by
      rw [List.map_append, List.map_cons] at hnd
      have := (List.nodup_append.mp hnd).2.2
      intro hm
      exact this hm (List.mem_cons_self _ _)
    rw [List.map_cons, List.flatten_cons, List.foldl_append,
      foldl_addQueryPair_entry done kv.1 kv.2 (hv kv (List.mem_cons_self _ _))
        (hown kv (List.mem_cons_self _ _)) hk,
      ih (done ++ [(kv.1, kv.2)]) (by simpa using hnd)
        (fun x hx => hv x (List.mem_cons_of_mem _ hx))
        (fun x hx => hown x (List.mem_cons_of_mem _ hx))]
    simp

theorem stringifyEntry_eq (key : Str) (v : Value) :
    stringifyEntry key v = joinWith ['&'] (queryPartsOf key v) := by
  cases v with
  | atom a => cases a <;> rfl
  | arr xs =>
    unfold stringifyEntry queryPartsOf
    congr 1

theorem queryPart_chars (key : Str) (a : Atom) (p : Str) (h : queryPart key a = some p) :
    ∀ d ∈ p, isJsWhitespace d = false := by
  intro d hd
  cases a with
  | undef => cases h
  | null =>
    simp only [queryPart, Option.some.injEq] at h
    subst h
    exact (isQuerySafe_plain d (encode_safe key d hd)).2.2.2.2.2
  | str v =>
    simp only [queryPart, Option.some.injEq] at h
    subst h
    simp only [List.mem_append, List.mem_singleton] at hd
    rcases hd with (hd | hd) | hd
    · exact (isQuerySafe_plain d (encode_safe key d hd)).2.2.2.2.2
    · subst hd
      decide
    · exact (isQuerySafe_plain d (encode_safe v d hd)).2.2.2.2.2

theorem queryPart_isSome (key : Str) (a : Atom) (h : a ≠ Atom.undef) :
    ∃ p, queryPart key a = some p := by
  cases a with
  | undef => exact absurd rfl h
  | null => exact ⟨_, rfl⟩
  | str v => exact ⟨_, rfl⟩

theorem filterMap_queryPart (key : Str) (hk : key ≠ []) : ∀ xs : List Atom,
    (∀ a ∈ xs, a ≠ Atom.undef) →
    (xs.filterMap (queryPart key)).map decodePart = (xs.map (fun a => (key, a))).map some ∧
      (xs.filterMap (queryPart key)).length = xs.length ∧
      ∀ p ∈ xs.filterMap (queryPart key), '&' ∉ p ∧ p ≠ [] ∧
        ∀ d ∈ p, isJsWhitespace d = false := by
  intro xs
  induction xs with
  | nil => intro _; exact ⟨rfl, rfl, fun p hp => by cases hp⟩
  | cons a xs ih =>
    intro h
    obtain ⟨p, hp⟩ := queryPart_isSome key a (h a (List.mem_cons_self _ _))
    obtain ⟨i1, i2, i3⟩ := ih (fun b hb => h b (List.mem_cons_of_mem _ hb))
    have hd := decodePart_queryPart key a p hp
    rcases hd with ⟨d1, d2, d3⟩ | hd
    · rw [List.filterMap_cons_some hp]
      refine ⟨?_, ?_, ?_⟩
      · rw [List.map_cons, d1, i1]
        rfl
      · simp [i2]
      · intro x hx
        rcases List.mem_cons.mp hx with rfl | hx
        · exact ⟨d2, d3, queryPart_chars key a x hp⟩
        · exact i3 x hx
    · exact absurd hd hk

/-- The parts written for one entry decode to its key and scalars. -/
theorem entry_parts (key : Str) (hk : key ≠ []) (v : Value) (hv : v.roundTrips = true) :
    (queryPartsOf key v).map decodePart = (queryPairsOf key v).map some ∧
      queryPartsOf key v ≠ [] ∧
      ∀ p ∈ queryPartsOf key v, '&' ∉ p ∧ p ≠ [] ∧ ∀ d ∈ p, isJsWhitespace d = false := by
  cases v with
  | atom a =>
    have ha : a ≠ Atom.undef := by
      intro e
      subst e
      cases hv
    obtain ⟨h1, h2, h3⟩ := filterMap_queryPart key hk [a] (by simpa using ha)
    obtain ⟨p, hp⟩ := queryPart_isSome key a ha
    have e : queryPartsOf key (Value.atom a) = [a].filterMap (queryPart key) := by
      simp [queryPartsOf, hp]
    rw [e]
    refine ⟨h1, ?_, h3⟩
    intro hn
    rw [hn] at h2
    simp at h2
  | arr xs =>
    simp only [Value.roundTrips, Bool.and_eq_true, decide_eq_true_eq, List.all_eq_true,
      bne_iff_ne, ne_eq] at hv
    obtain ⟨hlen, hall⟩ := hv
    obtain ⟨h1, h2, h3⟩ := filterMap_queryPart key hk xs hall
    refine ⟨h1, ?_, h3⟩
    intro hn
    have e : queryPartsOf key (Value.arr xs) = xs.filterMap (queryPart key) := rfl
    rw [e] at hn
    rw [hn] at h2
    simp only [List.length_nil] at h2
    omega

theorem joinWith_ne_nil (sep : Str) : ∀ l : List Str, l ≠ [] → (∀ p ∈ l, p ≠ []) →
    joinWith sep l ≠ [] := by
  intro l hl hp
  cases l with
  | nil => exact absurd rfl hl
  | cons a l =>
    have ha := hp a (List.mem_cons_self _ _)
    cases l with
    | nil => exact ha
    | cons b l =>
      rw [joinWith_cons_cons]
      cases a with
      | nil => exact absurd rfl ha
      | cons c a => simp

theorem mem_joinWith (sep : Str) (d : Char) : ∀ l : List Str, d ∈ joinWith sep l →
    d ∈ sep ∨ ∃ p ∈ l, d ∈ p := by
  intro l
  induction l with
  | nil => intro h; cases h
  | cons a l ih =>
    intro h
    cases l with
    | nil => exact Or.inr ⟨a, by simp, h⟩
    | cons b l =>
      rw [joinWith_cons_cons] at h
      simp only [List.mem_append] at h
      rcases h with (h | h) | h
      · exact Or.inr ⟨a, by simp, h⟩
      · exact Or.inl h
      · rcases ih h with h1 | ⟨p, hp, hd⟩
        · exact Or.inl h1
        · exact Or.inr ⟨p, List.mem_cons_of_mem _ hp, hd⟩

/-- The parts `stringifyQuery` writes for a query object the round trip
covers, and the text it returns. -/
theorem stringifyQuery_parts (q : Query) (hq : QueryRoundTrips q) (hne : q ≠ []) :
    (q.map (fun kv => queryPartsOf kv.1 kv.2)).flatten ≠ [] ∧
      (∀ p ∈ (q.map (fun kv => queryPartsOf kv.1 kv.2)).flatten,
        '&' ∉ p ∧ p ≠ [] ∧ ∀ d ∈ p, isJsWhitespace d = false) ∧
      stringifyQuery q =
        '?' :: joinWith ['&'] (q.map (fun kv => queryPartsOf kv.1 kv.2)).flatten := by
  have hentry : ∀ kv ∈ q, (queryPartsOf kv.1 kv.2 ≠ [] ∧
      ∀ p ∈ queryPartsOf kv.1 kv.2, '&' ∉ p ∧ p ≠ [] ∧ ∀ d ∈ p, isJsWhitespace d = false) :=
    fun kv hkv => (entry_parts kv.1 (hq.2 kv hkv).1 kv.2 (hq.2 kv hkv).2).2
  have hparts : ∀ p ∈ (q.map (fun kv => queryPartsOf kv.1 kv.2)).flatten,
      '&' ∉ p ∧ p ≠ [] ∧ ∀ d ∈ p, isJsWhitespace d = false := by
    intro p hp
    simp only [List.mem_flatten, List.mem_map] at hp
    obtain ⟨l, ⟨kv, hkv, rfl⟩, hpl⟩ := hp
    exact (hentry kv hkv).2 p hpl
  have hflat : (q.map (fun kv => queryPartsOf kv.1 kv.2)).flatten ≠ [] := by
    cases q with
    | nil => exact absurd rfl hne
    | cons kv q =>
      have := (hentry kv (List.mem_cons_self _ _)).1
      rw [List.map_cons, List.flatten_cons]
      cases h : queryPartsOf kv.1 kv.2 with
      | nil => exact absurd h this
      | cons a l => simp
  refine ⟨hflat, hparts, ?_⟩
  have hmap : q.map (fun kv => stringifyEntry kv.1 kv.2) =
      (q.map (fun kv => queryPartsOf kv.1 kv.2)).map (joinWith ['&']) := by
    rw [List.map_map]
    apply List.map_congr_left
    intro kv _
    exact stringifyEntry_eq kv.1 kv.2
  have hfilter : (q.map (fun kv => stringifyEntry kv.1 kv.2)).filter (fun x => 0 < x.length) =
      q.map (fun kv => stringifyEntry kv.1 kv.2) := by
    rw [List.filter_eq_self]
    intro x hx
    simp only [List.mem_map] at hx
    obtain ⟨kv, hkv, rfl⟩ := hx
    rw [stringifyEntry_eq]
    have := joinWith_ne_nil ['&'] _ (hentry kv hkv).1 (fun p hp => ((hentry kv hkv).2 p hp).2.1)
    simp only [decide_eq_true_eq]
    exact List.length_pos.mpr this
  unfold stringifyQuery
  simp only
  rw [hfilter, hmap, joinWith_flatten ['&'] _ (by
    intro l hl
    simp only [List.mem_map] at hl
    obtain ⟨kv, hkv, rfl⟩ := hl
    exact (hentry kv hkv).1)]
  have hres := joinWith_ne_nil ['&'] _ hflat (fun p hp => (hparts p hp).2.1)
  cases hj : joinWith ['&'] (q.map (fun kv => queryPartsOf kv.1 kv.2)).flatten with
  | nil => exact absurd hj hres
  | cons c r => rfl

/-- C35, amended: for every query object whose keys are distinct non-empty
strings none of which names a member of `Object.prototype`, and whose values
are strings, `null`, or arrays of at least two strings or `null`s,
`parseQuery(stringifyQuery(q))` returns `q`, with the keys in the same order. -/
theorem query_round_trip (q : Query) (hq : QueryRoundTrips q) (hown : OwnNamed q) :
    parseQuery (stringifyQuery q) = .ok q := by
  by_cases hne : q = []
  · subst hne
    rfl
  obtain ⟨hflat, hparts, hs⟩ := stringifyQuery_parts q hq hne
  have hres := joinWith_ne_nil ['&'] _ hflat (fun p hp => (hparts p hp).2.1)
  have hws : ∀ d ∈ joinWith ['&'] (q.map (fun kv => queryPartsOf kv.1 kv.2)).flatten,
      isJsWhitespace d = false := by
    intro d hd
    rcases mem_joinWith ['&'] d _ hd with h | ⟨p, hp, hdp⟩
    · simp only [List.mem_singleton] at h
      subst h
      decide
    · exact (hparts p hp).2.2 d hdp
  have htrim : trim (stringifyQuery q) = stringifyQuery q := by
    rw [hs]
    apply trim_of_ends
    · decide
    · intro z hz
      cases hj : joinWith ['&'] (q.map (fun kv => queryPartsOf kv.1 kv.2)).flatten with
      | nil => exact absurd hj hres
      | cons c r =>
        rw [hj] at hz hws
        rw [List.getLast?_cons_cons] at hz
        exact hws z (List.mem_of_getLast?_eq_some hz)
  have hbody : queryBody (stringifyQuery q) =
      joinWith ['&'] (q.map (fun kv => queryPartsOf kv.1 kv.2)).flatten := by
    unfold queryBody
    rw [htrim, hs]
    rfl
  have hdec : ((q.map (fun kv => queryPartsOf kv.1 kv.2)).flatten).map decodePart =
      ((q.map (fun kv => queryPairsOf kv.1 kv.2)).flatten).map some := by
    rw [List.map_flatten, List.map_flatten, List.map_map, List.map_map]
    congr 1
    apply List.map_congr_left
    intro kv hkv
    exact (entry_parts kv.1 (hq.2 kv hkv).1 kv.2 (hq.2 kv hkv).2).1
  rw [parseQuery_eq, hbody]
  have he : (joinWith ['&'] (q.map (fun kv => queryPartsOf kv.1 kv.2)).flatten).isEmpty = false := by
    cases hj : joinWith ['&'] (q.map (fun kv => queryPartsOf kv.1 kv.2)).flatten with
    | nil => exact absurd hj hres
    | cons c r => rfl
  rw [he]
  simp only [Bool.false_eq_true, if_false]
  rw [splitOn_joinWith '&' _ hflat (fun p hp => (hparts p hp).1),
    parseQueryParams_ok _ _ [] hdec,
    foldl_addQueryPair_all q [] (by simpa using hq.1) (fun kv hkv => (hq.2 kv hkv).2) hown]
  rfl

/-- C35, as stated, fails for the query object `{ toString: '1' }`: it is
written as `?toString=1`, and `parseQuery` finds the inherited function under
the key and returns the array of that function and `1`. -/
theorem round_trip_fails_for_inherited_key :
    (∀ kv ∈ [("toString".toList, Value.atom (Atom.str "1".toList))],
        kv.1 ≠ [] ∧ Value.roundTrips kv.2 = true) ∧
      stringifyQuery [("toString".toList, Value.atom (Atom.str "1".toList))] =
        "?toString=1".toList ∧
      parseQuery (stringifyQuery [("toString".toList, Value.atom (Atom.str "1".toList))]) =
        .ok [("toString".toList,
          Value.arr [Atom.str "function toString() { [native code] }".toList,
            Atom.str "1".toList])] ∧
      (parseQuery (stringifyQuery
          [("toString".toList, Value.atom (Atom.str "1".toList))])).toOption ≠
        some [("toString".toList, Value.atom (Atom.str "1".toList))] :=
  ⟨by decide, by decide, rfl, by decide⟩

/-- Witness of C35: the query object `{ a: '1 2', b: null, c: ['x', null, 'y,z'] }`
is written as `?a=1%202&b&c=x&c&c=y,z` and read back. -/
theorem query_round_trip_witness :
    stringifyQuery Example.query = "?a=1%202&b&c=x&c&c=y,z".toList ∧
      parseQuery (stringifyQuery Example.query) = .ok Example.query :=
  ⟨by decide, query_round_trip Example.query (by
    refine ⟨by decide, ?_⟩
    intro kv hkv
    simp only [Example.query, List.mem_cons, List.mem_singleton, List.not_mem_nil,
      or_false] at hkv
    rcases hkv with rfl | rfl | rfl <;> exact ⟨by decide, by decide⟩) (by decide)⟩

/-! ## When `match` returns -/

theorem matchRouteLoop_error : ∀ (ms : List (Option Str)) (keys : List Key) (params : Params)
    (e : JsError), matchRouteLoop ms keys params = .error e → e = JsError.uriError := by
  intro ms
  induction ms with
  | nil => intro keys params e h; cases h
  | cons m ms ih =>
    intro keys params e h
    cases keys with
    | nil =>
      rw [matchRouteLoop] at h
      exact ih _ _ e h
    | cons key keys =>
      cases m with
      | none =>
        rw [matchRouteLoop] at h
        exact ih _ _ e h
      | some text =>
        rw [matchRouteLoop] at h
        cases hd : decodeURIComponent text with
        | none =>
          rw [hd] at h
          cases h
          rfl
        | some val =>
          rw [hd] at h
          exact ih _ _ e h

theorem matchRoute_error (host : CustomGroups) (regex : RouteRegExp) (path : Str)
    (params : Params) (e : JsError) (h : matchRoute host regex path params = .error e) :
    e = JsError.uriError := by
  unfold matchRoute at h
  cases hx : regex.exec host path with
  | none =>
    rw [hx] at h
    cases h
  | some m =>
    rw [hx] at h
    simp only at h
    cases hl : matchRouteLoop m regex.keys params with
    | error e1 =>
      rw [hl] at h
      have := matchRouteLoop_error _ _ _ e1 hl
      cases h
      exact this
    | ok p =>
      rw [hl] at h
      cases h

/-- What the loop of `match` over `pathList` returns when every entry has a
record: a `URIError`, nothing, or a record of `pathMap`. -/
theorem scanPathList_cases (host : CustomGroups) (pathMap : Dict RouteRecord) (p : Str) :
    ∀ l : List Str, (∀ q ∈ l, (Dict.get? pathMap q).isSome = true) →
      scanPathList host pathMap p l = .error JsError.uriError ∨
        scanPathList host pathMap p l = .ok none ∨
        ∃ q record params, Dict.get? pathMap q = some record ∧
          scanPathList host pathMap p l = .ok (some (record, params)) := by
  intro l
  induction l with
  | nil => intro _; exact Or.inr (Or.inl rfl)
  | cons q l ih =>
    intro h
    rw [scanPathList]
    cases hg : Dict.get? pathMap q with
    | none =>
      have := h q (List.mem_cons_self _ _)
      rw [hg] at this
      cases this
    | some record =>
      simp only
      cases hm : matchRoute host record.regex p [] with
      | error e =>
        left
        rw [matchRoute_error _ _ _ _ e hm]
      | ok found =>
        cases found with
        | some params => exact Or.inr (Or.inr ⟨q, record, params, hg, rfl⟩)
        | none => exact ih (fun x hx => h x (List.mem_cons_of_mem _ hx))

/-- In a registry whose records neither redirect nor stand for an alias,
`match` returns a route or throws a `URIError`. -/
theorem matcherMatch_plain (router : Router) (m : RouteMap) (hal : TablesAligned m)
    (hp : ∀ p r, Dict.get? m.pathMap p = some r → r.isPlain)
    (hn : ∀ n r, Dict.get? m.nameMap n = some r → r.isPlain)
    (fuel : Nat) (raw : RawLocation) (cur : Option Route) (rf : Option Location) :
    ((∃ route, matcherMatch router m (fuel + 2) raw cur rf = .ok route) ∨
      matcherMatch router m (fuel + 2) raw cur rf = .error JsError.uriError) ∧
      (truthy (normalizeLocation raw cur false router).name = true →
        ∃ route, matcherMatch router m (fuel + 2) raw cur rf = .ok route) := by
  by_cases hname : truthy (normalizeLocation raw cur false router).name = true
  · have hok : ∃ route, matcherMatch router m (fuel + 2) raw cur rf = .ok route := by
      rw [matcherMatch]
      simp only [hname, if_true]
      cases hg : Dict.get? m.nameMap ((normalizeLocation raw cur false router).name.getD []) with
      | none =>
        simp only
        exact ⟨_, createRoute_none router m fuel _ _⟩
      | some record =>
        simp only
        exact ⟨_, createRoute_plain router m fuel record _ _ (hn _ record hg).1
          (hn _ record hg).2⟩
    exact ⟨Or.inl hok, fun _ => hok⟩
  · have hname1 : truthy (normalizeLocation raw cur false router).name = false := by
      simpa using hname
    refine ⟨?_, fun h => absurd h hname⟩
    by_cases hpath : truthy (normalizeLocation raw cur false router).path = true
    · obtain ⟨p, hpe, hpne⟩ : ∃ p, (normalizeLocation raw cur false router).path = some p ∧
          p ≠ [] := by
        cases hx : (normalizeLocation raw cur false router).path with
        | none => rw [hx] at hpath; cases hpath
        | some p =>
          refine ⟨p, rfl, ?_⟩
          intro e
          rw [hx, e] at hpath
          cases hpath
      rw [matcherMatch_path router m (fuel + 1) raw cur rf p hname1 hpe hpne]
      rcases scanPathList_cases router.customGroups m.pathMap p m.pathList
          (fun q hq => (hal.2.1 q).1 hq) with h | h | ⟨q, record, params, hg, h⟩
      · rw [h]
        exact Or.inr rfl
      · rw [h]
        exact Or.inl ⟨_, createRoute_none router m fuel _ _⟩
      · rw [h]
        exact Or.inl ⟨_, createRoute_plain router m fuel record _ _ (hp q record hg).1
          (hp q record hg).2⟩
    · left
      rw [matcherMatch]
      simp only [hname1, hpath, Bool.false_eq_true, if_false]
      exact ⟨_, createRoute_none router m fuel _ _⟩

/-- A location whose path selects a record that redirects to that same
literal path: `match` does not return, whatever the depth of the stack. -/
theorem self_redirect_overflows (router : Router) (m : RouteMap) (R : RouteRecord)
    (params : Params) (p : Str)
    (hscan : scanPathList router.customGroups m.pathMap p m.pathList = .ok (some (R, params)))
    (hR : R.redirect = some (Redirect.value (RedirectTarget.str p)))
    (habs : p.head? = some '/') (hlit : parse p = [Token.str p]) :
    ∀ (fuel : Nat) (raw : RawLocation) (cur : Option Route) (rf : Option Location),
      truthy (normalizeLocation raw cur false router).name = false →
      (normalizeLocation raw cur false router).path = some p →
      matcherMatch router m fuel raw cur rf = .error JsError.stackOverflow := by
  have hp : p ≠ [] := by
    intro h
    rw [h] at habs
    simp at habs
  have hpt : (!p.isEmpty) = true := by
    cases p with
    | nil => exact absurd rfl hp
    | cons a t => rfl
  have hrp : resolveRecordPath p R = p := by
    cases p with
    | nil => exact absurd rfl hp
    | cons a t =>
      simp only [List.head?_cons, Option.some.injEq] at habs
      subst habs
      simp [resolveRecordPath, resolvePath]
  intro fuel
  induction fuel using Nat.strong_induction_on with
  | _ fuel ih =>
    intro raw cur rf hname hpath
    cases fuel with
    | zero => exact matcherMatch_zero router m raw cur rf
    | succ k =>
      rw [matcherMatch_path router m k raw cur rf p hname hpath hp, hscan]
      simp only
      cases k with
      | zero => exact createRoute_zero router m _ _ _
      | succ j =>
        rw [_createRoute]
        simp only [hR, Option.map_some', Redirect.truthy, hpt, Option.getD_some, if_true]
        unfold redirect
        simp only [hR, truthy, hpt, Option.getD_some, hrp, fillParams_literal _ p _ hlit,
          Option.isSome_none, Bool.false_eq_true, if_false, if_true]
        exact ih j (by omega) _ none _ (by rfl) (by rfl)

theorem createRouteMap_tablesAligned (routes : List RouteConfig) :
    TablesAligned (createRouteMap routes RouteMap.empty) := by
  obtain ⟨u, hu⟩ := addRouteRecords_eq routes RouteMap.empty
  have hA := foldl_registerRecord_aligned (registrationsOf routes RouteMap.empty.nextUid)
    RouteMap.empty tablesAligned_empty
  have hlist := createRouteMap_pathList routes RouteMap.empty
  have hpl : (addRouteRecords routes RouteMap.empty).pathList =
      ((registrationsOf routes RouteMap.empty.nextUid).foldl registerRecord
        RouteMap.empty).pathList := by
    rw [hu]
  rw [hpl] at hlist
  refine ⟨?_, ?_, ?_⟩
  · rw [hlist]
    exact (filter_star_perm _).nodup_iff.mpr hA.1
  · intro p
    rw [hlist, (filter_star_perm _).mem_iff, createRouteMap_pathMap]
    exact hA.2.1 p
  · intro p r h
    rw [createRouteMap_pathMap] at h
    exact hA.2.2 p r h

/-- C38 (failing inputs and the rule that holds): `match` is not total.  For
the route `/a` that redirects to `/a`, `match('/a')` does not return at any
depth of the stack; for the route `/a/:id`, `match('/a/%')` throws a
`URIError`; for a route that redirects to a name that is not registered,
`match` fails the assertion of `redirect`.  When no record of the registry
redirects or stands for an alias, `match` returns a route for every location
or throws a `URIError`, and it returns a route for every location with a
name. -/
theorem match_returns_or_throws (router : Router) (routes : List RouteConfig) (fuel : Nat)
    (raw : RawLocation) (cur : Option Route) (rf : Option Location)
    (hplain : ∀ r ∈ registrationsOf routes 0, r.isPlain) :
    ((∃ route, matcherMatch router (createRouteMap routes RouteMap.empty) (fuel + 2) raw cur rf =
        .ok route) ∨
      matcherMatch router (createRouteMap routes RouteMap.empty) (fuel + 2) raw cur rf =
        .error JsError.uriError) ∧
      (truthy (normalizeLocation raw cur false router).name = true →
        ∃ route, matcherMatch router (createRouteMap routes RouteMap.empty) (fuel + 2) raw cur
          rf = .ok route) ∧
      (∀ depth, matcherMatch {} (createRouteMap Example.selfRedirect RouteMap.empty) depth
        (RawLocation.str "/a".toList) none none = .error JsError.stackOverflow) ∧
      matcherMatch {} (createRouteMap Example.plainRoutes RouteMap.empty) 3
        (RawLocation.str "/a/%".toList) none none = .error JsError.uriError ∧
      matcherMatch {} (createRouteMap Example.redirectToMissingName RouteMap.empty) 3
        (RawLocation.str "/old".toList) none none =
          .error (JsError.assertion "redirect failed: named route not found".toList) := by
  have h := matcherMatch_plain router (createRouteMap routes RouteMap.empty)
    (createRouteMap_tablesAligned routes)
    (fun p r hg => hplain r ((createRouteMap_sources routes).1 p r hg))
    (fun n r hg => hplain r ((createRouteMap_sources routes).2 n r hg)) fuel raw cur rf
  refine ⟨h.1, h.2, ?_, rfl, rfl⟩
  intro depth
  obtain ⟨hn, hp⟩ := normalizeLocation_absolute {} "/a".toList none rfl (by decide) (by decide)
  exact self_redirect_overflows {} (createRouteMap Example.selfRedirect RouteMap.empty)
    (makeRecord 0
      { path := "/a".toList, redirect := some (Redirect.value (RedirectTarget.str "/a".toList)) }
      none none) [] "/a".toList rfl rfl rfl rfl depth _ none none hn hp

/-- Witness of C38: in the registry of the routes `/a/:id` and `/b`, the
location `/a/7` gets a route. -/
theorem match_returns_or_throws_witness :
    (∃ route, matcherMatch {} (createRouteMap Example.plainRoutes RouteMap.empty) (0 + 2)
        (RawLocation.str "/a/7".toList) none none = .ok route) ∨
      matcherMatch {} (createRouteMap Example.plainRoutes RouteMap.empty) (0 + 2)
        (RawLocation.str "/a/7".toList) none none = .error JsError.uriError :=
  (match_returns_or_throws {} Example.plainRoutes 0 (RawLocation.str "/a/7".toList) none none
    (by
      intro r hr
      have e : registrationsOf Example.plainRoutes 0 =
          [makeRecord 0 { path := "/a/:id".toList, component := some 1 } none none,
           makeRecord 1 { path := "/b".toList, name := some "b".toList, component := some 2 }
             none none] := rfl
      rw [e] at hr
      simp only [List.mem_cons, List.mem_singleton, List.not_mem_nil, or_false] at hr
      rcases hr with rfl | rfl <;> exact ⟨rfl, rfl⟩)).1

/-! ## One verdict for each call of `confirmTransition` -/

theorem verdicts_append (t : Nat) (a b : List Effect) :
    verdicts t (a ++ b) = verdicts t a + verdicts t b := by
  unfold verdicts
  exact List.countP_append _ _ _

theorem verdicts_eq_zero (t : Nat) (es : List Effect)
    (h : ∀ e ∈ es, Effect.isVerdict t e = false) : verdicts t es = 0 := by
  unfold verdicts
  rw [List.countP_eq_zero]
  intro e he
  rw [h e he]
  simp

theorem verdicts_abortLog (t : Nat) (env : HistoryEnv) (tr : Transition) (err : AbortArg) :
    verdicts t (abortLog env tr err) = if tr.route.id = t then 1 else 0 := by
  have hA : ∀ l1 l3 l4 : List Effect, verdicts t l1 = 0 → verdicts t l3 = 0 →
      verdicts t l4 = 0 →
      verdicts t (l1 ++ [Effect.onAbort tr.route.id err] ++ l3 ++ l4) =
        if tr.route.id = t then 1 else 0 := by
    intro l1 l3 l4 h1 h3 h4
    rw [verdicts_append, verdicts_append, verdicts_append, h1, h3, h4]
    by_cases h : tr.route.id = t
    · simp [verdicts, Effect.isVerdict, h]
    · simp [verdicts, Effect.isVerdict, h]
  unfold abortLog
  apply hA
  · apply verdicts_eq_zero
    intro e he
    cases err with
    | error x =>
      simp only at he
      split at he
      · simp only [List.mem_map] at he
        obtain ⟨cb, _, rfl⟩ := he
        rfl
      · simp only [List.mem_singleton] at he
        subst he
        rfl
    | undef => cases he
    | boolFalse => cases he
    | thrown b => cases he
  · apply verdicts_eq_zero
    intro e he
    simp only [List.mem_map] at he
    obtain ⟨cb, _, rfl⟩ := he
    rfl
  · apply verdicts_eq_zero
    intro e he
    split at he
    · simp only [List.mem_map] at he
      obtain ⟨cb, _, rfl⟩ := he
      rfl
    · cases he

theorem verdicts_completionLog (t : Nat) (env : HistoryEnv) (u : Nat) (uc : Option Nat) :
    verdicts t (completionLog env u uc) = if u = t then 1 else 0 := by
  have hA : ∀ l2 l3 l4 l6 : List Effect, verdicts t l2 = 0 → verdicts t l3 = 0 →
      verdicts t l4 = 0 → verdicts t l6 = 0 →
      verdicts t ([Effect.onComplete u] ++ l2 ++ l3 ++ l4 ++ [Effect.ensureURL false] ++ l6) =
        if u = t then 1 else 0 := by
    intro l2 l3 l4 l6 h2 h3 h4 h6
    have h5 : verdicts t [Effect.ensureURL false] = 0 := rfl
    rw [verdicts_append, verdicts_append, verdicts_append, verdicts_append, verdicts_append,
      h2, h3, h4, h5, h6]
    by_cases h : u = t
    · simp [verdicts, Effect.isVerdict, h]
    · simp [verdicts, Effect.isVerdict, h]
  unfold completionLog
  apply hA
  · apply verdicts_eq_zero
    intro e he
    split at he
    · simp only [List.mem_singleton] at he
      subst he
      rfl
    · cases he
  · apply verdicts_eq_zero
    intro e he
    simp only [List.mem_filterMap] at he
    obtain ⟨h, _, hh⟩ := he
    cases h with
    | none => cases hh
    | some fn =>
      simp only [Option.map_some', Option.some.injEq] at hh
      subst hh
      rfl
  · apply verdicts_eq_zero
    intro e he
    cases uc with
    | none => cases he
    | some cb =>
      simp only [List.mem_singleton] at he
      subst he
      rfl
  · apply verdicts_eq_zero
    intro e he
    split at he
    · simp only [List.mem_map] at he
      obtain ⟨cb, _, rfl⟩ := he
      rfl
    · cases he

theorem untouched_refl (t : Nat) (s : History) : Untouched t s s := ⟨rfl, rfl⟩

theorem untouched_trans {t : Nat} {a b c : History} (h1 : Untouched t a b)
    (h2 : Untouched t b c) : Untouched t a c :=
  ⟨h2.1.trans h1.1, h2.2.trans h1.2⟩

theorem untouched_emit (t : Nat) (s : History) (es : List Effect)
    (h : ∀ e ∈ es, Effect.isVerdict t e = false) : Untouched t s (s.emit es) := by
  refine ⟨rfl, ?_⟩
  rw [History.emit_log, verdicts_append, verdicts_eq_zero t es h]
  rfl

theorem untouched_setTransition (t : Nat) (s : History) (tr : Transition)
    (h : tr.route.id ≠ t) : Untouched t s (s.setTransition tr) :=
  ⟨History.setTransition_other s tr t (fun e => h e.symm), rfl⟩

theorem untouched_abort (t : Nat) (s : History) (tr : Transition) (err : AbortArg)
    (h : tr.route.id ≠ t) : Untouched t s (abort s tr err) := by
  refine ⟨by rw [abort_transitions], ?_⟩
  rw [abort_log_eq, verdicts_append, verdicts_abortLog, if_neg h]
  rfl

theorem untouched_complete (t : Nat) (s : History) (tr : Transition)
    (h : tr.route.id ≠ t) : Untouched t s (complete s tr) := by
  refine ⟨by rw [complete_transitions], ?_⟩
  rw [complete_log, verdicts_append, verdicts_completionLog, if_neg h]
  rfl

theorem wf_emit {s : History} (h : s.WF) (es : List Effect) : (s.emit es).WF :=
  fun t tr ht => h t tr ht

theorem wf_pending {s : History} (h : s.WF) (p : Option Nat) :
    History.WF { s with pending := p } :=
  fun t tr ht => h t tr ht

theorem wf_abort {s : History} (h : s.WF) (tr : Transition) (err : AbortArg) :
    (abort s tr err).WF := by
  intro t x hx
  rw [abort_transitions] at hx
  exact h t x hx

theorem wf_complete {s : History} (h : s.WF) (tr : Transition) : (complete s tr).WF := by
  intro t x hx
  rw [complete_transitions] at hx
  exact h t x hx

/-- Running a queue of the transition `u` leaves another transition `t` as it
is and gives no verdict of `t`. -/
theorem stepQueue_untouched (view : ViewLayer) (t u : Nat) (hne : u ≠ t) (p : Bool)
    (Q : List (Option Guard)) :
    ∀ (fuel i : Nat) (s : History), s.WF →
      (stepQueue view u p Q fuel i s).1.WF ∧ Untouched t s (stepQueue view u p Q fuel i s).1 := by
  intro fuel
  induction fuel with
  | zero => intro i s hwf; exact ⟨hwf, untouched_refl t s⟩
  | succ fuel ih =>
    intro i s hwf
    rw [stepQueue]
    split
    · exact ⟨hwf, untouched_refl t s⟩
    · split
      · rename_i hook hq
        split
        · exact ⟨hwf, untouched_refl t s⟩
        · rename_i tr htr
          have hid : tr.route.id ≠ t := by
            rw [hwf u tr htr]
            exact hne
          split
          · exact ⟨wf_abort hwf _ _, untouched_abort t s tr _ hid⟩
          · have hs1 : Untouched t s ((s.emit [Effect.guardCalled u hook]).setTransition
                { tr with invoked := tr.invoked ++ [(p, i)] }) :=
              untouched_trans (untouched_emit t s _ (by
                intro e he
                simp only [List.mem_singleton] at he
                subst he
                rfl)) (untouched_setTransition t _
                  { tr with invoked := tr.invoked ++ [(p, i)] } hid)
            have hw1 : ((s.emit [Effect.guardCalled u hook]).setTransition
                { tr with invoked := tr.invoked ++ [(p, i)] }).WF :=
              wf_setTransition (wf_emit hwf _) { tr with invoked := tr.invoked ++ [(p, i)] }
            split
            · obtain ⟨w, h⟩ := ih (i + 1)
                (((s.emit [Effect.guardCalled u hook]).setTransition
                  { tr with invoked := tr.invoked ++ [(p, i)] }).setTransition
                  { tr with invoked := tr.invoked ++ [(p, i)]
                            answered := tr.answered ++ [(p, i)] })
                (wf_setTransition hw1 _)
              exact ⟨w, untouched_trans (untouched_trans hs1
                (untouched_setTransition t _
                  { tr with invoked := tr.invoked ++ [(p, i)]
                            answered := tr.answered ++ [(p, i)] } hid)) h⟩
            · exact ⟨hw1, hs1⟩
      · exact ih (i + 1) s hwf

theorem finishTransition_untouched (t u : Nat) (hne : u ≠ t) (s : History) (hwf : s.WF) :
    (finishTransition s u).WF ∧ Untouched t s (finishTransition s u) := by
  unfold finishTransition
  split
  · exact ⟨hwf, untouched_refl t s⟩
  · rename_i tr htr
    have hid : tr.route.id ≠ t := by
      rw [hwf u tr htr]
      exact hne
    split
    · exact ⟨wf_abort hwf _ _, untouched_abort t s tr _ hid⟩
    · exact ⟨wf_complete (wf_pending hwf none) tr,
        untouched_trans (⟨rfl, rfl⟩ : Untouched t s { s with pending := none })
          (untouched_complete t _ tr hid)⟩

theorem runEnterQueue_untouched (view : ViewLayer) (t u : Nat) (hne : u ≠ t) (s : History)
    (hwf : s.WF) :
    (runEnterQueue view s u).WF ∧ Untouched t s (runEnterQueue view s u) := by
  unfold runEnterQueue
  split
  · exact ⟨hwf, untouched_refl t s⟩
  · rename_i tr htr
    have hid : tr.route.id ≠ t := by
      rw [hwf u tr htr]
      exact hne
    simp only
    have h1 : Untouched t s (s.setTransition
        { tr with enterQueue := (some (extractEnterGuards view tr.activated ++
            s.resolveHooks.map (fun h => h.map Guard.beforeResolve))) }) :=
      untouched_setTransition t s
        { tr with enterQueue := (some (extractEnterGuards view tr.activated ++
            s.resolveHooks.map (fun h => h.map Guard.beforeResolve))) } hid
    obtain ⟨w2, h2⟩ := stepQueue_untouched view t u hne true
      (extractEnterGuards view tr.activated ++
        s.resolveHooks.map (fun h => h.map Guard.beforeResolve))
      ((extractEnterGuards view tr.activated ++
        s.resolveHooks.map (fun h => h.map Guard.beforeResolve)).length + 1) 0 _
      (wf_setTransition hwf
        { tr with enterQueue := (some (extractEnterGuards view tr.activated ++
            s.resolveHooks.map (fun h => h.map Guard.beforeResolve))) })
    split
    · obtain ⟨w3, h3⟩ := finishTransition_untouched t u hne _ w2
      exact ⟨w3, untouched_trans (untouched_trans h1 h2) h3⟩
    · exact ⟨w2, untouched_trans h1 h2⟩

theorem continueQueue_untouched (view : ViewLayer) (t u : Nat) (hne : u ≠ t) (s : History)
    (p : Bool) (i : Nat) (hwf : s.WF) :
    (continueQueue view s u p i).WF ∧ Untouched t s (continueQueue view s u p i) := by
  unfold continueQueue
  split
  · exact ⟨hwf, untouched_refl t s⟩
  · rename_i tr htr
    cases p with
    | true =>
      simp only [if_true]
      obtain ⟨w2, h2⟩ := stepQueue_untouched view t u hne true (tr.enterQueue.getD [])
        ((tr.enterQueue.getD []).length + 1) i s hwf
      split
      · obtain ⟨w3, h3⟩ := finishTransition_untouched t u hne _ w2
        exact ⟨w3, untouched_trans h2 h3⟩
      · exact ⟨w2, h2⟩
    | false =>
      simp only [Bool.false_eq_true, if_false]
      obtain ⟨w2, h2⟩ := stepQueue_untouched view t u hne false tr.queue
        (tr.queue.length + 1) i s hwf
      split
      · obtain ⟨w3, h3⟩ := runEnterQueue_untouched view t u hne _ w2
        exact ⟨w3, untouched_trans h2 h3⟩
      · exact ⟨w2, h2⟩

theorem callContinuation_untouched (view : ViewLayer) (t : Nat) (s : History)
    (tr : Transition) (hid : tr.route.id ≠ t) (p : Bool) (i : Nat) (arg : NextArg)
    (hwf : s.WF) :
    Untouched t s (callContinuation view s tr p i arg) := by
  have h0 : Untouched t s (s.setTransition { tr with answered := tr.answered ++ [(p, i)] }) :=
    untouched_setTransition t s { tr with answered := tr.answered ++ [(p, i)] } hid
  have w0 : (s.setTransition { tr with answered := tr.answered ++ [(p, i)] }).WF :=
    wf_setTransition hwf { tr with answered := tr.answered ++ [(p, i)] }
  unfold callContinuation
  simp only
  split
  · exact untouched_trans (untouched_trans h0 (untouched_emit t _ _ (by
      intro e he
      simp only [List.mem_singleton] at he
      subst he
      rfl))) (untouched_abort t _ tr _ hid)
  · exact untouched_trans (untouched_trans h0 (untouched_abort t _ tr _ hid))
      (untouched_emit t _ _ (by
        intro e he
        simp only [List.mem_singleton] at he
        subst he
        split <;> rfl))
  · exact untouched_trans h0 (continueQueue_untouched view t tr.route.id hid _ p (i + 1) w0).2
  · exact h0

theorem allAnswered_oneOpen {tr : Transition} (h : tr.AllAnswered) : tr.OneOpen :=
  fun c hc hn => absurd (h c hc) hn

theorem readyToRun_settling {t : Nat} {s : History} (h : ReadyToRun t s) : SettlingAt t s := by
  obtain ⟨tr, htr, ha, hv⟩ := h
  exact ⟨tr, htr, by omega, fun _ => ha, allAnswered_oneOpen ha⟩

theorem settlingAt_abort (t : Nat) (s : History) (tr : Transition) (err : AbortArg)
    (hid : tr.route.id = t) (h : ReadyToRun t s) : SettlingAt t (abort s tr err) := by
  obtain ⟨x, hx, ha, hv⟩ := h
  refine ⟨x, by rw [abort_transitions]; exact hx, ?_, fun _ => ha, allAnswered_oneOpen ha⟩
  rw [abort_log_eq, verdicts_append, verdicts_abortLog, if_pos hid, hv]

theorem settlingAt_complete (t : Nat) (s : History) (tr : Transition)
    (hid : tr.route.id = t) (h : ReadyToRun t s) : SettlingAt t (complete s tr) := by
  obtain ⟨x, hx, ha, hv⟩ := h
  refine ⟨x, by rw [complete_transitions]; exact hx, ?_, fun _ => ha, allAnswered_oneOpen ha⟩
  rw [complete_log, verdicts_append, verdicts_completionLog, if_pos hid, hv]

theorem readyToRun_emit (t : Nat) (s : History) (es : List Effect)
    (hes : ∀ e ∈ es, Effect.isVerdict t e = false) (h : ReadyToRun t s) :
    ReadyToRun t (s.emit es) := by
  obtain ⟨x, hx, ha, hv⟩ := h
  refine ⟨x, hx, ha, ?_⟩
  rw [History.emit_log, verdicts_append, hv, verdicts_eq_zero t es hes]

/-- A queue of the transition `t` that may run: when it is drained the
callback of the queue may run; when it stops, at most one verdict was given
and at most the last continuation is open. -/
theorem stepQueue_self (view : ViewLayer) (t : Nat) (p : Bool) (Q : List (Option Guard)) :
    ∀ (fuel i : Nat) (s : History), s.WF → ReadyToRun t s →
      ((stepQueue view t p Q fuel i s).2 = true → ReadyToRun t (stepQueue view t p Q fuel i s).1) ∧
      ((stepQueue view t p Q fuel i s).2 = false →
        SettlingAt t (stepQueue view t p Q fuel i s).1) := by
  intro fuel
  induction fuel with
  | zero =>
    intro i s hwf h
    exact ⟨fun hh => (by cases hh), fun _ => readyToRun_settling h⟩
  | succ fuel ih =>
    intro i s hwf h
    rw [stepQueue]
    split
    · exact ⟨fun _ => h, fun hh => by cases hh⟩
    · split
      · rename_i hook hq
        split
        · exact ⟨fun hh => (by cases hh), fun _ => readyToRun_settling h⟩
        · rename_i tr htr
          have hid : tr.route.id = t := hwf t tr htr
          obtain ⟨x, hx, ha, hv⟩ := h
          rw [htr] at hx
          cases hx
          split
          · exact ⟨fun hh => (by cases hh),
              fun _ => settlingAt_abort t s tr _ hid ⟨tr, htr, ha, hv⟩⟩
          · have hlog : verdicts t (s.log ++ [Effect.guardCalled t hook]) = 0 := by
              rw [verdicts_append, hv]
              rfl
            split
            · have hR : ReadyToRun t
                  (((s.emit [Effect.guardCalled t hook]).setTransition
                    { tr with invoked := tr.invoked ++ [(p, i)] }).setTransition
                    { tr with invoked := tr.invoked ++ [(p, i)]
                              answered := tr.answered ++ [(p, i)] }) := by
                refine ⟨{ tr with invoked := tr.invoked ++ [(p, i)]
                                  answered := tr.answered ++ [(p, i)] }, ?_, ?_, hlog⟩
                · have := History.setTransition_same
                    ((s.emit [Effect.guardCalled t hook]).setTransition
                      { tr with invoked := tr.invoked ++ [(p, i)] })
                    { tr with invoked := tr.invoked ++ [(p, i)]
                              answered := tr.answered ++ [(p, i)] }
                  rw [← hid]
                  exact this
                · intro c hc
                  simp only [List.mem_append, List.mem_singleton] at hc ⊢
                  rcases hc with hc | hc
                  · exact Or.inl (ha c hc)
                  · exact Or.inr hc
              exact ih (i + 1) _
                (wf_setTransition (wf_setTransition (wf_emit hwf _)
                  { tr with invoked := tr.invoked ++ [(p, i)] })
                  { tr with invoked := tr.invoked ++ [(p, i)]
                            answered := tr.answered ++ [(p, i)] }) hR
            · refine ⟨fun hh => (by cases hh), fun _ => ?_⟩
              refine ⟨{ tr with invoked := tr.invoked ++ [(p, i)] }, ?_, ?_, ?_, ?_⟩
              · have := History.setTransition_same (s.emit [Effect.guardCalled t hook])
                  { tr with invoked := tr.invoked ++ [(p, i)] }
                rw [← hid]
                exact this
              · show verdicts t (s.log ++ [Effect.guardCalled t hook]) ≤ 1
                omega
              · intro h1
                have : verdicts t (s.log ++ [Effect.guardCalled t hook]) = 1 := h1
                omega
              · intro c hc hn
                simp only [List.mem_append, List.mem_singleton] at hc
                rcases hc with hc | hc
                · exact absurd (ha c hc) hn
                · subst hc
                  simp
      · exact ih (i + 1) s hwf h

theorem finishTransition_self (t : Nat) (s : History) (hwf : s.WF) (h : ReadyToRun t s) :
    SettlingAt t (finishTransition s t) := by
  unfold finishTransition
  split
  · exact readyToRun_settling h
  · rename_i tr htr
    have hid : tr.route.id = t := hwf t tr htr
    split
    · exact settlingAt_abort t s tr _ hid h
    · exact settlingAt_complete t _ tr hid h

theorem runEnterQueue_self (view : ViewLayer) (t : Nat) (s : History) (hwf : s.WF)
    (h : ReadyToRun t s) : SettlingAt t (runEnterQueue view s t) := by
  unfold runEnterQueue
  split
  · exact readyToRun_settling h
  · rename_i tr htr
    have hid : tr.route.id = t := hwf t tr htr
    obtain ⟨x, hx, ha, hv⟩ := h
    rw [htr] at hx
    cases hx
    simp only
    have hR : ReadyToRun t (s.setTransition
        { tr with enterQueue := (some (extractEnterGuards view tr.activated ++
            s.resolveHooks.map (fun h => h.map Guard.beforeResolve))) }) := by
      refine ⟨{ tr with enterQueue := (some (extractEnterGuards view tr.activated ++
            s.resolveHooks.map (fun h => h.map Guard.beforeResolve))) }, ?_, ha, hv⟩
      have := History.setTransition_same s
        { tr with enterQueue := (some (extractEnterGuards view tr.activated ++
            s.resolveHooks.map (fun h => h.map Guard.beforeResolve))) }
      rw [← hid]
      exact this
    have hw : (s.setTransition
        { tr with enterQueue := (some (extractEnterGuards view tr.activated ++
            s.resolveHooks.map (fun h => h.map Guard.beforeResolve))) }).WF :=
      wf_setTransition hwf _
    obtain ⟨h1, h2⟩ := stepQueue_self view t true
      (extractEnterGuards view tr.activated ++
        s.resolveHooks.map (fun h => h.map Guard.beforeResolve))
      ((extractEnterGuards view tr.activated ++
        s.resolveHooks.map (fun h => h.map Guard.beforeResolve)).length + 1) 0 _ hw hR
    split
    · rename_i hd
      exact finishTransition_self t _ (stepQueue_outcome view t true _ _ 0 _ hw).1.1 (h1 hd)
    · rename_i hd
      exact h2 (by simpa using hd)

theorem continueQueue_self (view : ViewLayer) (t : Nat) (s : History) (p : Bool) (i : Nat)
    (hwf : s.WF) (h : ReadyToRun t s) : SettlingAt t (continueQueue view s t p i) := by
  unfold continueQueue
  split
  · exact readyToRun_settling h
  · rename_i tr htr
    cases p with
    | true =>
      simp only [if_true]
      obtain ⟨h1, h2⟩ := stepQueue_self view t true (tr.enterQueue.getD [])
        ((tr.enterQueue.getD []).length + 1) i s hwf h
      split
      · rename_i hd
        exact finishTransition_self t _ (stepQueue_outcome view t true _ _ i s hwf).1.1 (h1 hd)
      · rename_i hd
        exact h2 (by simpa using hd)
    | false =>
      simp only [Bool.false_eq_true, if_false]
      obtain ⟨h1, h2⟩ := stepQueue_self view t false tr.queue (tr.queue.length + 1) i s hwf h
      split
      · rename_i hd
        exact runEnterQueue_self view t _ (stepQueue_outcome view t false _ _ i s hwf).1.1 (h1 hd)
      · rename_i hd
        exact h2 (by simpa using hd)

/-- The continuation of `t` that is open is called: afterwards at most one
verdict was given and at most the last continuation is open. -/
theorem callContinuation_self (view : ViewLayer) (t : Nat) (s : History) (tr : Transition)
    (p : Bool) (i : Nat) (arg : NextArg) (hwf : s.WF) (htr : s.transitions t = some tr)
    (hopen : tr.OneOpen) (hinv : (p, i) ∈ tr.invoked) (hnot : (p, i) ∉ tr.answered)
    (hv : verdicts t s.log = 0) :
    SettlingAt t (callContinuation view s tr p i arg) := by
  have hid : tr.route.id = t := hwf t tr htr
  have hR : ReadyToRun t (s.setTransition { tr with answered := tr.answered ++ [(p, i)] }) := by
    refine ⟨{ tr with answered := tr.answered ++ [(p, i)] }, ?_, ?_, hv⟩
    · have := History.setTransition_same s { tr with answered := tr.answered ++ [(p, i)] }
      rw [← hid]
      exact this
    · intro c hc
      show c ∈ tr.answered ++ [(p, i)]
      by_cases hca : c ∈ tr.answered
      · exact List.mem_append_left _ hca
      · have h1 := hopen c hc hca
        have h2 := hopen (p, i) hinv hnot
        rw [h1] at h2
        cases h2
        simp
  have hw : (s.setTransition { tr with answered := tr.answered ++ [(p, i)] }).WF :=
    wf_setTransition hwf _
  unfold callContinuation
  simp only
  split
  · exact settlingAt_abort t _ tr _ hid (readyToRun_emit t _ _ (by
      intro e he
      simp only [List.mem_singleton] at he
      subst he
      rfl) hR)
  · rename_i rep _
    obtain ⟨x, hx, h1, h2, h3⟩ := settlingAt_abort t _ tr AbortArg.undef hid hR
    have h0 : verdicts t [if rep = true then Effect.replace arg else Effect.push arg] = 0 := by
      apply verdicts_eq_zero
      intro e he
      simp only [List.mem_singleton] at he
      subst he
      split <;> rfl
    refine ⟨x, hx, ?_, ?_, h3⟩
    · rw [History.emit_log, verdicts_append]
      omega
    · intro hh
      apply h2
      rw [History.emit_log, verdicts_append] at hh
      omega
  · rw [hid]
    exact continueQueue_self view t _ p (i + 1) hw hR
  · exact readyToRun_settling hR

theorem settling_of {t : Nat} (u : Nat) {s r : History} (hs : Settling t s) (hwf : r.WF)
    (hmade : s.made ≤ r.made) (hu : u ≤ r.made) (hframe : ∀ k, k ≠ u → Untouched k s r)
    (hself : u = t → SettlingAt t r) : Settling t r := by
  obtain ⟨_, hb, hnone, hsome⟩ := hs
  refine ⟨hwf, ?_, ?_, ?_⟩
  · intro k x hk
    by_cases hku : k = u
    · rw [hku]
      exact hu
    · rw [(hframe k hku).1] at hk
      exact Nat.le_trans (hb k x hk) hmade
  · intro hn
    by_cases hut : u = t
    · obtain ⟨x, hx, _⟩ := hself hut
      rw [hx] at hn
      cases hn
    · have h := hframe t (fun e => hut e.symm)
      rw [h.1] at hn
      rw [h.2]
      exact hnone hn
  · intro x hx
    by_cases hut : u = t
    · obtain ⟨y, hy, h1, h2, h3⟩ := hself hut
      rw [hx] at hy
      cases hy
      exact ⟨h1, h2, h3⟩
    · have h := hframe t (fun e => hut e.symm)
      rw [h.1] at hx
      rw [h.2]
      exact hsome x hx

theorem settling_open_zero {t : Nat} {s : History} {tr : Transition} (hs : Settling t s)
    (htr : s.transitions t = some tr) (c : Bool × Nat) (hc : c ∈ tr.invoked)
    (hn : c ∉ tr.answered) : verdicts t s.log = 0 ∧ tr.OneOpen := by
  obtain ⟨h1, h2, h3⟩ := hs.2.2.2 tr htr
  refine ⟨?_, h3⟩
  by_contra h0
  exact hn (h2 (by omega) c hc)

theorem readyToRun_start (t : Nat) (x : History) (tr : Transition) (hid : tr.route.id = t)
    (hinv : tr.invoked = []) (hv : verdicts t x.log = 0) : ReadyToRun t (x.setTransition tr) := by
  refine ⟨tr, ?_, ?_, hv⟩
  · rw [← hid]
    exact History.setTransition_same x tr
  · intro c hc
    rw [hinv] at hc
    cases hc

theorem readyToRun_started (t : Nat) (x : History) (tr : Transition) (p : Option Nat)
    (hid : tr.route.id = t) (hinv : tr.invoked = []) (hv : verdicts t x.log = 0) :
    ReadyToRun t { x.setTransition tr with pending := p } :=
  readyToRun_start t x tr hid hinv hv

/-- A continuation of the transition of `tr` is called: every other transition
is as it was, and if it is the transition `t`, called as its discipline asks,
its verdicts are settled as before. -/
theorem callContinuation_settling (view : ViewLayer) (t : Nat) (s : History) (tr : Transition)
    (u : Nat) (p : Bool) (i : Nat) (arg : NextArg) (hs : Settling t s)
    (htr : s.transitions u = some tr) (hinv : (p, i) ∈ tr.invoked)
    (hd : u = t → (p, i) ∉ tr.answered)
    (hwf : (callContinuation view s tr p i arg).WF)
    (hmade : (callContinuation view s tr p i arg).made = s.made) :
    Settling t (callContinuation view s tr p i arg) := by
  have hid : tr.route.id = u := hs.1 u tr htr
  refine settling_of u hs hwf (by omega) (by rw [hmade]; exact hs.2.1 u tr htr) ?_ ?_
  · intro k hk
    exact callContinuation_untouched view k s tr (by rw [hid]; exact fun e => hk e.symm) p i arg
      hs.1
  · intro hut
    subst hut
    obtain ⟨h0, h1⟩ := settling_open_zero hs htr (p, i) hinv (hd rfl)
    exact callContinuation_self view u s tr p i arg hs.1 htr h1 hinv (hd rfl) h0

/-- The call `transitionTo` keeps what is known of the verdicts of `t`. -/
theorem transitionTo_settling (view : ViewLayer) (t : Nat) (s : History) (route : Route)
    (oc oa : Option Nat) (hs : Settling t s) :
    Settling t (step view s (Event.transitionTo route oc oa)) := by
  obtain ⟨hwf', hmade, _⟩ := transitionTo_safe view s route oc oa hs.1
  have hnew : s.transitions (s.made + 1) = none := by
    cases h : s.transitions (s.made + 1) with
    | none => rfl
    | some x =>
      have := hs.2.1 _ x h
      omega
  have hw1 : History.WF { s with made := s.made + 1 } := fun a b c => hs.1 a b c
  refine settling_of (s.made + 1) hs hwf' (by omega) (by omega) ?_ ?_
  · intro k hk
    simp only [step]
    unfold confirmTransition
    simp only
    split
    · refine untouched_trans (untouched_trans (b := History.setTransition
        { s with made := s.made + 1 }
        { route := { id := s.made + 1, route := route }, current := s.current, activated := [],
          queue := [], enterQueue := none, invoked := [], answered := [], userOnComplete := oc,
          userOnAbort := oa }) ?_ (untouched_emit k _ _ ?_)) (untouched_abort k _ _ _ ?_)
      · exact ⟨History.setTransition_other _ _ k hk, rfl⟩
      · intro e he
        simp only [List.mem_singleton] at he
        subst he
        rfl
      · exact fun e => hk e.symm
    · refine untouched_trans ?_ (continueQueue_untouched view k (s.made + 1)
        (fun e => hk e.symm) _ false 0 (wf_pending (wf_setTransition hw1 _) _)).2
      exact ⟨History.setTransition_other _ _ k hk, rfl⟩
  · intro hut
    subst hut
    have hv : verdicts (s.made + 1) s.log = 0 := hs.2.2.1 hnew
    simp only [step]
    unfold confirmTransition
    simp only
    split
    · refine settlingAt_abort (s.made + 1) _ _ _ rfl (readyToRun_emit (s.made + 1) _ _ ?_ ?_)
      · intro e he
        simp only [List.mem_singleton] at he
        subst he
        rfl
      · exact readyToRun_start (s.made + 1) _ _ rfl rfl hv
    · exact continueQueue_self view (s.made + 1) _ false 0
        (wf_pending (wf_setTransition hw1 _) (some (s.made + 1)))
        (readyToRun_started (s.made + 1) _ _ _ rfl rfl hv)

/-- Every event that keeps the discipline of `t` keeps what is known of the
verdicts of `t`. -/
theorem step_settling (view : ViewLayer) (t : Nat) (s : History) (e : Event)
    (hs : Settling t s) (hd : e.keepsDiscipline t s = true) : Settling t (step view s e) := by
  cases e with
  | transitionTo route oc oa => exact transitionTo_settling view t s route oc oa hs
  | next u p i arg =>
    obtain ⟨⟨hwf', hmade, _⟩, _⟩ := step_safe view s (Event.next u p i arg) hs.1 rfl
    simp only [step] at hwf' hmade ⊢
    cases htr : s.transitions u with
    | none => exact hs
    | some tr =>
      rw [htr] at hwf' hmade
      simp only at hwf' hmade ⊢
      by_cases hh : tr.handedOut p i = true
      · rw [if_pos hh] at hwf' hmade ⊢
        have hinv : (p, i) ∈ tr.invoked := by
          unfold Transition.handedOut at hh
          simp only [Bool.and_eq_true] at hh
          simpa using hh.1
        refine callContinuation_settling view t s tr u p i arg hs htr hinv ?_ hwf' hmade
        intro hut
        subst hut
        simp only [Event.keepsDiscipline, htr, Option.map_some', Option.getD_some, bne_self_eq_false,
          Bool.false_or, Bool.not_eq_true'] at hd
        intro hc
        have : tr.answered.contains (p, i) = true := by simpa using hc
        rw [hd] at this
        cases this
      · rw [if_neg hh]
        exact hs
  | throws u p i err =>
    have hut : u ≠ t := by
      simpa [Event.keepsDiscipline] using hd
    obtain ⟨⟨hwf', hmade, _⟩, _⟩ := step_safe view s (Event.throws u p i err) hs.1 rfl
    simp only [step] at hwf' hmade ⊢
    cases htr : s.transitions u with
    | none => exact hs
    | some tr =>
      rw [htr] at hwf' hmade
      simp only at hwf' hmade ⊢
      have hid : tr.route.id = u := hs.1 u tr htr
      by_cases hh : tr.handedOut p i = true
      · rw [if_pos hh] at hwf' hmade ⊢
        refine settling_of u hs hwf' (by omega) (by rw [hmade]; exact hs.2.1 u tr htr) ?_
          (fun e => absurd e hut)
        intro k hk
        exact untouched_abort k s tr err (by rw [hid]; exact fun e => hk e.symm)
      · rw [if_neg hh]
        exact hs
  | asyncResolved u =>
    obtain ⟨⟨hwf', hmade, _⟩, _⟩ := step_safe view s (Event.asyncResolved u) hs.1 rfl
    simp only [step] at hwf' hmade ⊢
    cases htr : s.transitions u with
    | none => exact hs
    | some tr =>
      rw [htr] at hwf' hmade
      simp only at hwf' hmade ⊢
      by_cases hh : (tr.invoked.contains (false, tr.queue.length - 1) &&
          hasAsync view tr.activated) = true
      · rw [if_pos hh] at hwf' hmade ⊢
        have hinv : (false, tr.queue.length - 1) ∈ tr.invoked := by
          simp only [Bool.and_eq_true] at hh
          simpa using hh.1
        refine callContinuation_settling view t s tr u false _ _ hs htr hinv ?_ hwf' hmade
        intro hut
        subst hut
        simp only [Event.keepsDiscipline, htr, Option.map_some', Option.getD_some, bne_self_eq_false,
          Bool.false_or, Bool.not_eq_true'] at hd
        intro hc
        have : tr.answered.contains (false, tr.queue.length - 1) = true := by simpa using hc
        rw [hd] at this
        cases this
      · rw [if_neg hh]
        exact hs
  | asyncRejected u err =>
    obtain ⟨⟨hwf', hmade, _⟩, _⟩ := step_safe view s (Event.asyncRejected u err) hs.1 rfl
    simp only [step] at hwf' hmade ⊢
    cases htr : s.transitions u with
    | none => exact hs
    | some tr =>
      rw [htr] at hwf' hmade
      simp only at hwf' hmade ⊢
      by_cases hh : (tr.invoked.contains (false, tr.queue.length - 1) &&
          hasAsync view tr.activated) = true
      · rw [if_pos hh] at hwf' hmade ⊢
        have hinv : (false, tr.queue.length - 1) ∈ tr.invoked := by
          simp only [Bool.and_eq_true] at hh
          simpa using hh.1
        refine callContinuation_settling view t s tr u false _ _ hs htr hinv ?_ hwf' hmade
        intro hut
        subst hut
        simp only [Event.keepsDiscipline, htr, Option.map_some', Option.getD_some, bne_self_eq_false,
          Bool.false_or, Bool.not_eq_true'] at hd
        intro hc
        have : tr.answered.contains (false, tr.queue.length - 1) = true := by simpa using hc
        rw [hd] at this
        cases this
      · rw [if_neg hh]
        exact hs

theorem run_settling (view : ViewLayer) (t : Nat) (events : List Event) :
    ∀ s : History, Settling t s → Disciplined view t s events → Settling t (run view s events) := by
  induction events with
  | nil => intro s hs _; exact hs
  | cons e es ih =>
    intro s hs hd
    exact ih (step view s e) (step_settling view t s e hs hd.1) hd.2

theorem settling_verdicts {t : Nat} {s : History} (hs : Settling t s) : verdicts t s.log ≤ 1 := by
  cases h : s.transitions t with
  | none =>
    rw [hs.2.2.1 h]
    omega
  | some tr => exact (hs.2.2.2 tr h).1

/-- C39: one call of `confirmTransition` settles at most once. Let `t` be the
transition a later `transitionTo` starts (its identity is not given out yet and
no verdict of it is in the log). In every run of events in which no guard of
`t` throws and every continuation of `t` is called at most once, whatever the
other transitions do, the calls `onAbort` and `onComplete` of `t` are together
at most one. -/
theorem one_verdict (view : ViewLayer) (s : History) (t : Nat) (events : List Event)
    (hwf : s.WF) (hb : s.Bounded) (hnew : s.made < t) (hlog : verdicts t s.log = 0)
    (hd : Disciplined view t s events) :
    verdicts t (run view s events).log ≤ 1 := by
  have hnone : s.transitions t = none := by
    cases h : s.transitions t with
    | none => rfl
    | some x =>
      have := hb t x h
      omega
  have hs : Settling t s :=
    ⟨hwf, hb, fun _ => hlog, fun tr htr => by rw [hnone] at htr; cases htr⟩
  exact settling_verdicts (run_settling view t events s hs hd)

/-- Witness of C39: from the engine at `/p/c` the transition 2 to `/q` is
started and its first leave guard answers `next(false)`; one `onAbort` and no
`onComplete` of the transition is called. -/
theorem one_verdict_witness :
    Disciplined Example.view 2 Example.history
        [Event.transitionTo Example.otherRoute (some 70) (some 71),
         Event.next 2 false 0 NextArg.boolFalse] ∧
      verdicts 2 (run Example.view Example.history
        [Event.transitionTo Example.otherRoute (some 70) (some 71),
         Event.next 2 false 0 NextArg.boolFalse]).log ≤ 1 :=
  have hd : Disciplined Example.view 2 Example.history
      [Event.transitionTo Example.otherRoute (some 70) (some 71),
       Event.next 2 false 0 NextArg.boolFalse] := ⟨by decide, by decide, trivial⟩
  ⟨hd, one_verdict Example.view Example.history 2 _
    (fun t tr h => by cases h) (fun t tr h => by cases h) (by decide) (by decide) hd⟩

theorem AbstractHistory.inv_init : AbstractHistory.init.Inv where
  keys := fun k c h => by cases h
  own := fun k c h => by cases h
  fresh := fun k c h => by cases h
  nodup := List.nodup_nil
  committed := fun r h => by cases h
  target := fun k c t h => by cases h
  origin := fun k c t h => by cases h
  pend := fun p h => by cases h
  position := Or.inr ⟨rfl, Or.inl rfl⟩

/-- A route object was made but no closure: the transition aborted at once. -/
theorem AbstractHistory.inv_bumped {s r : AbstractHistory} (h : s.Inv)
    (hcl : r.closures = s.closures) (hmade : r.made = s.made + 1) (hstack : r.stack = s.stack)
    (hpend : r.pending = s.pending) (hcur : r.current = s.current) (hidx : r.index = s.index) :
    r.Inv where
  keys := fun k c hk => by rw [hcl] at hk; rw [hmade]; exact Nat.le_succ_of_le (h.keys k c hk)
  own := fun k c hk => by rw [hcl] at hk; exact h.own k c hk
  fresh := fun k c hk => by rw [hcl] at hk; rw [hstack]; exact h.fresh k c hk
  nodup := by rw [hstack]; exact h.nodup
  committed := fun r' hr => by rw [hstack] at hr; rw [hcl]; exact h.committed r' hr
  target := fun k c t hk => by rw [hcl] at hk; rw [hstack]; exact h.target k c t hk
  origin := fun k c t hk => by rw [hcl] at hk ⊢; exact h.origin k c t hk
  pend := fun p hp => by rw [hpend] at hp; rw [hstack, hcl]; exact h.pend p hp
  position := by
    unfold AbstractHistory.Pos AbstractHistory.Degenerate
    rw [hstack, hcur, hidx]
    exact h.position

theorem AbstractHistory.position_congr {s r : AbstractHistory} (h : s.Pos ∨ s.Degenerate)
    (hstack : r.stack = s.stack) (hcur : r.current = s.current) (hidx : r.index = s.index) :
    r.Pos ∨ r.Degenerate := by
  unfold AbstractHistory.Pos AbstractHistory.Degenerate
  rw [hstack, hcur, hidx]
  exact h

/-- A `push` or `replace` has started: its closure is new, its route object is
new, and the route is pending. -/
theorem AbstractHistory.inv_started {s r : AbstractHistory} (h : s.Inv) (x : NavClosure)
    (hx : x.kind.isGo = false) (hid : x.route.id = s.made + 1) (hfin : x.finished = false)
    (hcl : r.closures = fun j => if j = s.made + 1 then some x else s.closures j)
    (hmade : r.made = s.made + 1) (hstack : r.stack = s.stack)
    (hpend : r.pending = some (s.made + 1)) (hcur : r.current = s.current)
    (hidx : r.index = s.index) : r.Inv := by
  have hnone : s.closures (s.made + 1) = none := by
    cases hc : s.closures (s.made + 1) with
    | none => rfl
    | some c =>
      have := h.keys _ c hc
      omega
  have hlook : ∀ k c, r.closures k = some c →
      (k = s.made + 1 ∧ c = x) ∨ (k ≠ s.made + 1 ∧ s.closures k = some c) := by
    intro k c hk
    rw [hcl] at hk
    by_cases hkk : k = s.made + 1
    · simp only [hkk, if_true, Option.some.injEq] at hk
      exact Or.inl ⟨hkk, hk.symm⟩
    · simp only [hkk, if_false] at hk
      exact Or.inr ⟨hkk, hk⟩
  have hkeep : ∀ k c, s.closures k = some c → r.closures k = some c := by
    intro k c hk
    rw [hcl]
    have : k ≠ s.made + 1 := by
      intro e
      rw [e, hnone] at hk
      cases hk
    simp only [this, if_false]
    exact hk
  have hnotin : s.made + 1 ∉ s.stack.map RouteObj.id := by
    intro hm
    obtain ⟨r', hr', hrid⟩ := List.mem_map.mp hm
    obtain ⟨c, hc, _⟩ := h.committed r' hr'
    rw [hrid, hnone] at hc
    cases hc
  refine ⟨?_, ?_, ?_, ?_, ?_, ?_, ?_, ?_, ?_⟩
  · intro k c hk
    rw [hmade]
    rcases hlook k c hk with ⟨e, _⟩ | ⟨_, hs⟩
    · omega
    · exact Nat.le_succ_of_le (h.keys k c hs)
  · intro k c hk hgo
    rcases hlook k c hk with ⟨e, ec⟩ | ⟨_, hs⟩
    · rw [ec, e]
      exact hid
    · exact h.own k c hs hgo
  · intro k c hk hgo hf
    rw [hstack]
    rcases hlook k c hk with ⟨e, ec⟩ | ⟨_, hs⟩
    · rw [e]
      exact hnotin
    · exact h.fresh k c hs hgo hf
  · rw [hstack]
    exact h.nodup
  · intro r' hr'
    rw [hstack] at hr'
    obtain ⟨c, hc, h1, h2⟩ := h.committed r' hr'
    exact ⟨c, hkeep _ c hc, h1, h2⟩
  · intro k c t hk hgo
    rw [hstack]
    rcases hlook k c hk with ⟨e, ec⟩ | ⟨_, hs⟩
    · rw [← ec, hgo] at hx
      cases hx
    · exact h.target k c t hs hgo
  · intro k c t hk hgo
    rcases hlook k c hk with ⟨e, ec⟩ | ⟨_, hs⟩
    · rw [← ec, hgo] at hx
      cases hx
    · obtain ⟨y, hy, h1, h2⟩ := h.origin k c t hs hgo
      exact ⟨y, hkeep _ y hy, h1, h2⟩
  · intro p hp
    rw [hpend] at hp
    cases hp
    refine Or.inr ⟨x, ?_, hx, hfin⟩
    rw [hcl]
    simp
  · exact AbstractHistory.position_congr h.position hstack hcur hidx

/-- A `go` has started: its closure is new, its route is the one at the target
index of the stack, and the route is pending. -/
theorem AbstractHistory.inv_started_go {s r : AbstractHistory} (h : s.Inv) (x : NavClosure)
    (j : Nat) (hx : x.kind = Navigation.go (j : Int)) (hj : s.stack[j]? = some x.route)
    (hcl : r.closures = fun i => if i = s.made + 1 then some x else s.closures i)
    (hmade : r.made = s.made + 1) (hstack : r.stack = s.stack)
    (hpend : r.pending = some x.route.id) (hcur : r.current = s.current)
    (hidx : r.index = s.index) : r.Inv := by
  have hnone : s.closures (s.made + 1) = none := by
    cases hc : s.closures (s.made + 1) with
    | none => rfl
    | some c =>
      have := h.keys _ c hc
      omega
  have hlook : ∀ k c, r.closures k = some c →
      (k = s.made + 1 ∧ c = x) ∨ (k ≠ s.made + 1 ∧ s.closures k = some c) := by
    intro k c hk
    rw [hcl] at hk
    by_cases hkk : k = s.made + 1
    · simp only [hkk, if_true, Option.some.injEq] at hk
      exact Or.inl ⟨hkk, hk.symm⟩
    · simp only [hkk, if_false] at hk
      exact Or.inr ⟨hkk, hk⟩
  have hkeep : ∀ k c, s.closures k = some c → r.closures k = some c := by
    intro k c hk
    rw [hcl]
    have : k ≠ s.made + 1 := by
      intro e
      rw [e, hnone] at hk
      cases hk
    simp only [this, if_false]
    exact hk
  have hmem : x.route ∈ s.stack := List.mem_iff_getElem?.mpr ⟨j, hj⟩
  have hxgo : x.kind.isGo = true := by rw [hx]; rfl
  refine ⟨?_, ?_, ?_, ?_, ?_, ?_, ?_, ?_, ?_⟩
  · intro k c hk
    rw [hmade]
    rcases hlook k c hk with ⟨e, _⟩ | ⟨_, hs⟩
    · omega
    · exact Nat.le_succ_of_le (h.keys k c hs)
  · intro k c hk hgo
    rcases hlook k c hk with ⟨e, ec⟩ | ⟨_, hs⟩
    · rw [ec, hxgo] at hgo
      cases hgo
    · exact h.own k c hs hgo
  · intro k c hk hgo hf
    rw [hstack]
    rcases hlook k c hk with ⟨e, ec⟩ | ⟨_, hs⟩
    · rw [ec, hxgo] at hgo
      cases hgo
    · exact h.fresh k c hs hgo hf
  · rw [hstack]
    exact h.nodup
  · intro r' hr'
    rw [hstack] at hr'
    obtain ⟨c, hc, h1, h2⟩ := h.committed r' hr'
    exact ⟨c, hkeep _ c hc, h1, h2⟩
  · intro k c t hk hgo
    rw [hstack]
    rcases hlook k c hk with ⟨e, ec⟩ | ⟨_, hs⟩
    · subst ec
      rw [hx] at hgo
      cases hgo
      intro i r' hi hid
      have hi1 : (s.stack.map RouteObj.id)[i]? = some c.route.id := by
        rw [List.getElem?_map, hi, ← hid]
        rfl
      have hj1 : (s.stack.map RouteObj.id)[j]? = some c.route.id := by
        rw [List.getElem?_map, hj]
        rfl
      have hij : i = j := by
        obtain ⟨hil, hie⟩ := List.getElem?_eq_some_iff.mp hi1
        obtain ⟨hjl, hje⟩ := List.getElem?_eq_some_iff.mp hj1
        exact (List.Nodup.getElem_inj_iff h.nodup).mp (hie.trans hje.symm)
      subst hij
      rw [hj] at hi
      cases hi
      exact ⟨rfl, rfl⟩
    · exact h.target k c t hs hgo
  · intro k c t hk hgo
    rcases hlook k c hk with ⟨e, ec⟩ | ⟨_, hs⟩
    · subst ec
      obtain ⟨y, hy, h1, h2⟩ := h.committed c.route hmem
      exact ⟨y, hkeep _ y hy, h1, h2⟩
    · obtain ⟨y, hy, h1, h2⟩ := h.origin k c t hs hgo
      exact ⟨y, hkeep _ y hy, h1, h2⟩
  · intro p hp
    rw [hpend] at hp
    cases hp
    rw [hstack]
    exact Or.inl (List.mem_map.mpr ⟨x.route, hmem, rfl⟩)
  · exact AbstractHistory.position_congr h.position hstack hcur hidx

theorem AbstractHistory.marked_look {s r : AbstractHistory} (k : Nat) (c : NavClosure)
    (hk : s.closures k = some c)
    (hcl : r.closures = fun j => if j = k then some { c with finished := true } else s.closures j)
    (j : Nat) (y : NavClosure) (hy : r.closures j = some y) :
    ∃ y0, s.closures j = some y0 ∧ y.route = y0.route ∧ y.kind = y0.kind ∧
      (y.finished = false → y0.finished = false ∧ j ≠ k) := by
  rw [hcl] at hy
  by_cases hjk : j = k
  · simp only [hjk, if_true, Option.some.injEq] at hy
    subst hy
    rw [hjk]
    exact ⟨c, hk, rfl, rfl, fun hf => by cases hf⟩
  · simp only [hjk, if_false] at hy
    exact ⟨y, hy, rfl, rfl, fun hf => ⟨hf, hjk⟩⟩

theorem AbstractHistory.marked_keep {s r : AbstractHistory} (k : Nat) (c : NavClosure)
    (hk : s.closures k = some c)
    (hcl : r.closures = fun j => if j = k then some { c with finished := true } else s.closures j)
    (j : Nat) (y0 : NavClosure) (hy : s.closures j = some y0) :
    ∃ y, r.closures j = some y ∧ y.route = y0.route ∧ y.kind = y0.kind ∧
      (y0.finished = true → y.finished = true) ∧ (j ≠ k → y = y0) := by
  rw [hcl]
  by_cases hjk : j = k
  · simp only [hjk, if_true]
    rw [hjk, hk] at hy
    cases hy
    exact ⟨_, rfl, rfl, rfl, fun _ => rfl, fun hn => absurd rfl hn⟩
  · simp only [hjk, if_false]
    exact ⟨y0, hy, rfl, rfl, fun hf => hf, fun _ => rfl⟩

/-- The queues of the closure `k` have run to their end and the stack is as it
was: the transition aborted, or it was a `go` that committed. -/
theorem AbstractHistory.inv_marked {s r : AbstractHistory} (h : s.Inv) (k : Nat) (c : NavClosure)
    (hk : s.closures k = some c)
    (hcl : r.closures = fun j => if j = k then some { c with finished := true } else s.closures j)
    (hmade : r.made = s.made) (hstack : r.stack = s.stack)
    (hpend : r.pending = none ∨ (r.pending = s.pending ∧ s.pending ≠ some c.route.id))
    (hpos : r.Pos ∨ r.Degenerate) : r.Inv := by
  refine ⟨?_, ?_, ?_, ?_, ?_, ?_, ?_, ?_, hpos⟩
  · intro j y hy
    obtain ⟨y0, h0, _⟩ := AbstractHistory.marked_look k c hk hcl j y hy
    rw [hmade]
    exact h.keys j y0 h0
  · intro j y hy hgo
    obtain ⟨y0, h0, h1, h2, _⟩ := AbstractHistory.marked_look k c hk hcl j y hy
    rw [h1]
    exact h.own j y0 h0 (by rw [← h2]; exact hgo)
  · intro j y hy hgo hf
    obtain ⟨y0, h0, h1, h2, h3⟩ := AbstractHistory.marked_look k c hk hcl j y hy
    rw [hstack]
    exact h.fresh j y0 h0 (by rw [← h2]; exact hgo) (h3 hf).1
  · rw [hstack]
    exact h.nodup
  · intro r' hr'
    rw [hstack] at hr'
    obtain ⟨y0, h0, h1, h2⟩ := h.committed r' hr'
    obtain ⟨y, hy, _, h4, h5, _⟩ := AbstractHistory.marked_keep k c hk hcl r'.id y0 h0
    exact ⟨y, hy, h5 h1, by rw [h4]; exact h2⟩
  · intro j y t hy hgo
    obtain ⟨y0, h0, h1, h2, _⟩ := AbstractHistory.marked_look k c hk hcl j y hy
    rw [hstack, h1]
    exact h.target j y0 t h0 (by rw [← h2]; exact hgo)
  · intro j y t hy hgo
    obtain ⟨y0, h0, h1, h2, _⟩ := AbstractHistory.marked_look k c hk hcl j y hy
    obtain ⟨x0, hx0, h3, h4⟩ := h.origin j y0 t h0 (by rw [← h2]; exact hgo)
    obtain ⟨x, hx, _, h6, h7, _⟩ := AbstractHistory.marked_keep k c hk hcl _ x0 hx0
    rw [h1]
    exact ⟨x, hx, h7 h3, by rw [h6]; exact h4⟩
  · intro p hp
    rcases hpend with hn | ⟨he, hne⟩
    · rw [hn] at hp
      cases hp
    · rw [he] at hp
      rw [hstack]
      rcases h.pend p hp with hin | ⟨y0, h0, h1, h2⟩
      · exact Or.inl hin
      · have hpk : p ≠ k := by
          intro e
          rw [e, hk] at h0
          cases h0
          apply hne
          rw [hp, h.own k c hk h1, e]
        obtain ⟨y, hy, _, _, _, h8⟩ := AbstractHistory.marked_keep k c hk hcl p y0 h0
        rw [h8 hpk] at hy
        exact Or.inr ⟨y0, hy, h1, h2⟩

/-- A `push` or `replace` has committed: the stack is cut and the route of the
closure is appended to it. -/
theorem AbstractHistory.inv_truncated {s r : AbstractHistory} (h : s.Inv) (k : Nat)
    (c : NavClosure) (m : Nat) (hk : s.closures k = some c) (hgo : c.kind.isGo = false)
    (hfin : c.finished = false)
    (hcl : r.closures = fun j => if j = k then some { c with finished := true } else s.closures j)
    (hmade : r.made = s.made) (hstack : r.stack = s.stack.take m ++ [c.route])
    (hpend : r.pending = none) (hpos : r.Pos ∨ r.Degenerate) : r.Inv := by
  have hid : c.route.id = k := h.own k c hk hgo
  have hnot : k ∉ s.stack.map RouteObj.id := h.fresh k c hk hgo hfin
  have hids : r.stack.map RouteObj.id = (s.stack.map RouteObj.id).take m ++ [k] := by
    rw [hstack, List.map_append, List.map_take, List.map_singleton, hid]
  have hsub : ∀ a, a ∈ (s.stack.map RouteObj.id).take m → a ∈ s.stack.map RouteObj.id :=
    fun a ha => List.mem_of_mem_take ha
  refine ⟨?_, ?_, ?_, ?_, ?_, ?_, ?_, ?_, hpos⟩
  · intro j y hy
    obtain ⟨y0, h0, _⟩ := AbstractHistory.marked_look k c hk hcl j y hy
    rw [hmade]
    exact h.keys j y0 h0
  · intro j y hy hg
    obtain ⟨y0, h0, h1, h2, _⟩ := AbstractHistory.marked_look k c hk hcl j y hy
    rw [h1]
    exact h.own j y0 h0 (by rw [← h2]; exact hg)
  · intro j y hy hg hf
    obtain ⟨y0, h0, h1, h2, h3⟩ := AbstractHistory.marked_look k c hk hcl j y hy
    rw [hids]
    intro hin
    rcases List.mem_append.mp hin with hin | hin
    · exact h.fresh j y0 h0 (by rw [← h2]; exact hg) (h3 hf).1 (hsub j hin)
    · simp only [List.mem_singleton] at hin
      exact (h3 hf).2 hin
  · rw [hids]
    refine List.Nodup.append (List.Nodup.sublist (List.take_sublist m _) h.nodup)
      (List.nodup_singleton k) ?_
    intro a ha hb
    simp only [List.mem_singleton] at hb
    rw [hb] at ha
    exact hnot (hsub k ha)
  · intro r' hr'
    rw [hstack] at hr'
    rcases List.mem_append.mp hr' with hin | hin
    · obtain ⟨y0, h0, h1, h2⟩ := h.committed r' (List.mem_of_mem_take hin)
      obtain ⟨y, hy, _, h4, h5, _⟩ := AbstractHistory.marked_keep k c hk hcl r'.id y0 h0
      exact ⟨y, hy, h5 h1, by rw [h4]; exact h2⟩
    · simp only [List.mem_singleton] at hin
      rw [hin, hid, hcl]
      exact ⟨{ c with finished := true }, by simp, rfl, hgo⟩
  · intro j y t hy hg i r' hi hri
    obtain ⟨y0, h0, h1, h2, _⟩ := AbstractHistory.marked_look k c hk hcl j y hy
    have hg0 : y0.kind = Navigation.go t := by rw [← h2]; exact hg
    rw [hstack] at hi
    by_cases hlt : i < (s.stack.take m).length
    · rw [List.getElem?_append_left hlt] at hi
      have hi2 : s.stack[i]? = some r' := by
        rw [List.getElem?_take] at hi
        split at hi
        · exact hi
        · cases hi
      rw [h1] at hri ⊢
      exact h.target j y0 t h0 hg0 i r' hi2 hri
    · exfalso
      rw [List.getElem?_append_right (Nat.le_of_not_lt hlt)] at hi
      have hr : r' = c.route := by
        cases hd : i - (s.stack.take m).length with
        | zero =>
          rw [hd] at hi
          simp only [List.getElem?_cons_zero, Option.some.injEq] at hi
          exact hi.symm
        | succ n =>
          rw [hd] at hi
          simp at hi
      obtain ⟨x0, hx0, h3, _⟩ := h.origin j y0 t h0 hg0
      rw [← h1, ← hri, hr, hid, hk] at hx0
      cases hx0
      rw [hfin] at h3
      cases h3
  · intro j y t hy hg
    obtain ⟨y0, h0, h1, h2, _⟩ := AbstractHistory.marked_look k c hk hcl j y hy
    obtain ⟨x0, hx0, h3, h4⟩ := h.origin j y0 t h0 (by rw [← h2]; exact hg)
    obtain ⟨x, hx, _, h6, h7, _⟩ := AbstractHistory.marked_keep k c hk hcl _ x0 hx0
    rw [h1]
    exact ⟨x, hx, h7 h3, by rw [h6]; exact h4⟩
  · intro p hp
    rw [hpend] at hp
    cases hp

theorem sliceTo_take {α : Type} (xs : List α) (e : Int) :
    sliceTo xs e = xs.take (if e < 0 then ((xs.length : Int) + e).toNat else e.toNat) := by
  unfold sliceTo
  split <;> rfl

theorem AbstractHistory.confirm_index (s : AbstractHistory) (route : RouteObj)
    (kind : Navigation) : (s.confirm route kind).index = s.index := by
  unfold AbstractHistory.confirm
  simp only
  split <;> rfl

theorem AbstractHistory.inv_confirm_new (s : AbstractHistory) (route : Route) (kind : Navigation)
    (hkind : kind.isGo = false) (h : s.Inv) :
    (s.confirm { id := s.made + 1, route := route } kind).Inv := by
  unfold AbstractHistory.confirm
  simp only
  split
  · exact AbstractHistory.inv_bumped h rfl rfl rfl rfl rfl rfl
  · exact AbstractHistory.inv_started h
      { route := { id := s.made + 1, route := route }, kind := kind, finished := false }
      hkind rfl rfl rfl rfl rfl rfl rfl rfl

theorem AbstractHistory.inv_confirm_go (s : AbstractHistory) (route : RouteObj) (t : Int)
    (ht : 0 ≤ t) (hr : s.stack[t.toNat]? = some route) (h : s.Inv) :
    (s.confirm route (Navigation.go t)).Inv := by
  unfold AbstractHistory.confirm
  simp only
  split
  · exact AbstractHistory.inv_bumped h rfl rfl rfl rfl rfl rfl
  · refine AbstractHistory.inv_started_go h
      { route := route, kind := Navigation.go t, finished := false } t.toNat ?_ hr
      rfl rfl rfl rfl rfl rfl
    show Navigation.go t = Navigation.go (t.toNat : Int)
    rw [Int.toNat_of_nonneg ht]

/-- The route of a `go` closure that is pending is at the target index of the
stack. -/
theorem AbstractHistory.go_target {s : AbstractHistory} (h : s.Inv) (k : Nat) (c : NavClosure)
    (t : Int) (hk : s.closures k = some c) (hkind : c.kind = Navigation.go t)
    (hp : s.pending = some c.route.id) :
    0 ≤ t ∧ t < s.stack.length ∧ s.stack[t.toNat]? = some c.route := by
  obtain ⟨x, hx, hxf, hxg⟩ := h.origin k c t hk hkind
  rcases h.pend _ hp with hin | ⟨y, hy, _, hyf⟩
  · obtain ⟨r, hr, hrid⟩ := List.mem_map.mp hin
    obtain ⟨j, hj⟩ := List.mem_iff_getElem?.mp hr
    obtain ⟨hjt, hrc⟩ := h.target k c t hk hkind j r hj hrid
    obtain ⟨hlt, _⟩ := List.getElem?_eq_some_iff.mp hj
    subst hjt
    subst hrc
    refine ⟨by omega, by omega, ?_⟩
    rw [Int.toNat_ofNat]
    exact hj
  · rw [hx] at hy
    cases hy
    rw [hxf] at hyf
    cases hyf

theorem AbstractHistory.pos_push (s : AbstractHistory) (r : RouteObj)
    (h : s.Pos ∨ s.Degenerate) :
    AbstractHistory.Pos { s with current := r
                                 stack := sliceTo s.stack (s.index + 1) ++ [r]
                                 index := s.index + 1 } := by
  have hb : -1 ≤ s.index ∧ s.index < s.stack.length := by
    rcases h with ⟨h1, h2, _⟩ | ⟨h1, _⟩
    · omega
    · rw [h1]
      omega
  have hlen : (s.stack.take (s.index + 1).toNat).length = (s.index + 1).toNat := by
    rw [List.length_take]
    omega
  refine ⟨?_, ?_, ?_⟩
  · show 0 ≤ s.index + 1
    omega
  · show s.index + 1 < ((sliceTo s.stack (s.index + 1) ++ [r]).length : Int)
    rw [sliceTo_take, if_neg (by omega), List.length_append, hlen]
    simp only [List.length_singleton]
    omega
  · show (sliceTo s.stack (s.index + 1) ++ [r])[(s.index + 1).toNat]? = some r
    rw [sliceTo_take, if_neg (by omega), List.getElem?_append_right (by omega), hlen]
    simp

theorem AbstractHistory.pos_replace (s : AbstractHistory) (r : RouteObj)
    (h : s.Pos ∨ s.Degenerate) :
    AbstractHistory.Pos { s with current := r, stack := sliceTo s.stack s.index ++ [r] } ∨
      AbstractHistory.Degenerate
        { s with current := r, stack := sliceTo s.stack s.index ++ [r] } := by
  rcases h with ⟨h1, h2, _⟩ | ⟨h1, h2⟩
  · left
    have hlen : (s.stack.take s.index.toNat).length = s.index.toNat := by
      rw [List.length_take]
      omega
    refine ⟨h1, ?_, ?_⟩
    · show s.index < ((sliceTo s.stack s.index ++ [r]).length : Int)
      rw [sliceTo_take, if_neg (by omega), List.length_append, hlen]
      simp only [List.length_singleton]
      omega
    · show (sliceTo s.stack s.index ++ [r])[s.index.toNat]? = some r
      rw [sliceTo_take, if_neg (by omega), List.getElem?_append_right (by omega), hlen]
      simp
  · right
    refine ⟨h1, Or.inr ?_⟩
    show sliceTo s.stack s.index ++ [r] = [r]
    rw [h1]
    rcases h2 with h2 | h2 <;> rw [h2] <;> rfl

theorem Navigation.kinds (n : Navigation) :
    n = Navigation.push ∨ n = Navigation.replace ∨ ∃ t, n = Navigation.go t := by
  cases n with
  | push => exact Or.inl rfl
  | replace => exact Or.inr (Or.inl rfl)
  | go t => exact Or.inr (Or.inr ⟨t, rfl⟩)

theorem AbstractHistory.commit_push (s : AbstractHistory) (c : NavClosure)
    (h : c.kind = Navigation.push) :
    s.commit c = { s with current := c.route
                          stack := sliceTo s.stack (s.index + 1) ++ [c.route]
                          index := s.index + 1 } := by
  unfold AbstractHistory.commit
  rw [h]

theorem AbstractHistory.commit_replace (s : AbstractHistory) (c : NavClosure)
    (h : c.kind = Navigation.replace) :
    s.commit c = { s with current := c.route
                          stack := sliceTo s.stack s.index ++ [c.route] } := by
  unfold AbstractHistory.commit
  rw [h]

theorem AbstractHistory.commit_go (s : AbstractHistory) (c : NavClosure) (t : Int)
    (h : c.kind = Navigation.go t) :
    s.commit c = { s with index := t, current := c.route } := by
  unfold AbstractHistory.commit
  rw [h]

theorem AbstractHistory.inv_finish (s : AbstractHistory) (k : Nat) (h : s.Inv)
    (honce : (AbstractEvent.finish k).once s = true) : (s.finish k).Inv := by
  unfold AbstractHistory.finish
  cases hk : s.closures k with
  | none => exact h
  | some c =>
    have hfin : c.finished = false := by
      simpa [AbstractEvent.once, hk] using honce
    simp only
    split
    · rename_i hne
      refine AbstractHistory.inv_marked h k c hk rfl rfl rfl (Or.inr ⟨rfl, ?_⟩)
        (AbstractHistory.position_congr h.position rfl rfl rfl)
      intro e
      have : (s.setClosure k { c with finished := true }).pending = some c.route.id := e
      rw [this] at hne
      simp at hne
    · rename_i hne
      have hp : s.pending = some c.route.id := by
        have : ((s.setClosure k { c with finished := true }).pending != some c.route.id) = false := by
          simpa using hne
        have h2 : (s.pending != some c.route.id) = false := this
        simpa using h2
      rcases Navigation.kinds c.kind with hkind | hkind | ⟨t, hkind⟩
      · rw [AbstractHistory.commit_push _ _ hkind]
        refine AbstractHistory.inv_truncated h k c
          (if s.index + 1 < 0 then ((s.stack.length : Int) + (s.index + 1)).toNat
            else (s.index + 1).toNat) hk (by rw [hkind]; rfl) hfin rfl rfl ?_ rfl
          (Or.inl (AbstractHistory.pos_push
            { s.setClosure k { c with finished := true } with pending := none } c.route
            (AbstractHistory.position_congr h.position rfl rfl rfl)))
        show sliceTo s.stack (s.index + 1) ++ [c.route] = _
        rw [sliceTo_take]
      · rw [AbstractHistory.commit_replace _ _ hkind]
        refine AbstractHistory.inv_truncated h k c
          (if s.index < 0 then ((s.stack.length : Int) + s.index).toNat else s.index.toNat)
          hk (by rw [hkind]; rfl) hfin rfl rfl ?_ rfl
          (AbstractHistory.pos_replace
            { s.setClosure k { c with finished := true } with pending := none } c.route
            (AbstractHistory.position_congr h.position rfl rfl rfl))
        show sliceTo s.stack s.index ++ [c.route] = _
        rw [sliceTo_take]
      · rw [AbstractHistory.commit_go _ _ t hkind]
        obtain ⟨h1, h2, h3⟩ := AbstractHistory.go_target h k c t hk hkind hp
        exact AbstractHistory.inv_marked h k c hk rfl rfl rfl (Or.inl rfl) (Or.inl ⟨h1, h2, h3⟩)

theorem AbstractHistory.inv_step (s : AbstractHistory) (e : AbstractEvent) (h : s.Inv)
    (honce : e.once s = true) : (s.step e).Inv := by
  cases e with
  | push route => exact AbstractHistory.inv_confirm_new s route Navigation.push rfl h
  | replace route => exact AbstractHistory.inv_confirm_new s route Navigation.replace rfl h
  | go n =>
    simp only [AbstractHistory.step]
    split
    · exact h
    · rename_i hr
      split
      · rename_i route hroute
        exact AbstractHistory.inv_confirm_go s route (s.index + n) (by omega) hroute h
      · exact h
  | finish k => exact AbstractHistory.inv_finish s k h honce

theorem AbstractHistory.inv_run (events : List AbstractEvent) :
    ∀ s : AbstractHistory, s.Inv → s.Disciplined events → (s.run events).Inv := by
  induction events with
  | nil => intro s h _; exact h
  | cons e es ih =>
    intro s h hd
    exact ih (s.step e) (AbstractHistory.inv_step s e h hd.1) hd.2

/-- An event does not take the index below zero. -/
theorem AbstractHistory.index_step (s : AbstractHistory) (e : AbstractEvent) (h : s.Inv)
    (hi : 0 ≤ s.index) : 0 ≤ (s.step e).index := by
  cases e with
  | push route => simp only [AbstractHistory.step]; rw [AbstractHistory.confirm_index]; exact hi
  | replace route =>
    simp only [AbstractHistory.step]; rw [AbstractHistory.confirm_index]; exact hi
  | go n =>
    simp only [AbstractHistory.step]
    split
    · exact hi
    · split
      · rw [AbstractHistory.confirm_index]; exact hi
      · exact hi
  | finish k =>
    simp only [AbstractHistory.step]
    unfold AbstractHistory.finish
    cases hk : s.closures k with
    | none => exact hi
    | some c =>
      simp only
      split
      · exact hi
      · rename_i hne
        have hp : s.pending = some c.route.id := by
          have : ((s.setClosure k { c with finished := true }).pending != some c.route.id) = false := by
            simpa using hne
          have h2 : (s.pending != some c.route.id) = false := this
          simpa using h2
        rcases Navigation.kinds c.kind with hkind | hkind | ⟨t, hkind⟩
        · rw [AbstractHistory.commit_push _ _ hkind]
          show 0 ≤ s.index + 1
          omega
        · rw [AbstractHistory.commit_replace _ _ hkind]
          exact hi
        · rw [AbstractHistory.commit_go _ _ t hkind]
          exact (AbstractHistory.go_target h k c t hk hkind hp).1

/-- C40: the position invariant of `AbstractHistory` fails when the first
navigation that commits is a `replace`. In every state that a run from a new
history reaches, in which the queues of every closure run to their end at most
once, either `0 <= index < stack.length` and `stack[index]` is the current
route, or `index` is `-1` and the stack is empty or holds the current route
alone; once `index` is not negative, the invariant holds after every further
event; a `push` that commits always establishes it. A `replace` of a new
history that commits leaves `index = -1` with the route on the stack. -/
theorem abstract_position (events : List AbstractEvent)
    (hd : AbstractHistory.init.Disciplined events) :
    ((AbstractHistory.init.run events).Pos ∨ (AbstractHistory.init.run events).Degenerate) ∧
      (∀ e : AbstractEvent, e.once (AbstractHistory.init.run events) = true →
        0 ≤ (AbstractHistory.init.run events).index →
          ((AbstractHistory.init.run events).step e).Pos) ∧
      (∀ k c, (AbstractHistory.init.run events).closures k = some c → c.finished = false →
        c.kind = Navigation.push →
        (AbstractHistory.init.run events).pending = some c.route.id →
          ((AbstractHistory.init.run events).finish k).Pos ∧
            ((AbstractHistory.init.run events).finish k).current = c.route) ∧
      ∀ route : Route,
        (AbstractHistory.init.run
          [AbstractEvent.replace route, AbstractEvent.finish 1]).index = -1 ∧
        (AbstractHistory.init.run
          [AbstractEvent.replace route, AbstractEvent.finish 1]).stack =
            [{ id := 1, route := route }] ∧
        (AbstractHistory.init.run
          [AbstractEvent.replace route, AbstractEvent.finish 1]).current =
            { id := 1, route := route } := by
  have hinv := AbstractHistory.inv_run events _ AbstractHistory.inv_init hd
  refine ⟨hinv.position, ?_, ?_, ?_⟩
  · intro e he hi
    have h1 := (AbstractHistory.inv_step _ e hinv he).position
    have h2 := AbstractHistory.index_step _ e hinv hi
    rcases h1 with h1 | ⟨h1, _⟩
    · exact h1
    · omega
  · intro k c hk hfin hkind hp
    have hb : ((AbstractHistory.init.run events).pending != some c.route.id) = false := by
      rw [hp]
      simp
    unfold AbstractHistory.finish
    rw [hk]
    simp only
    rw [if_neg (by
      show ¬ ((AbstractHistory.init.run events).pending != some c.route.id) = true
      rw [hb]
      simp)]
    rw [AbstractHistory.commit_push _ _ hkind]
    exact ⟨AbstractHistory.pos_push
      { (AbstractHistory.init.run events).setClosure k { c with finished := true } with
        pending := none } c.route
      (AbstractHistory.position_congr hinv.position rfl rfl rfl), rfl⟩
  · intro route
    exact ⟨rfl, rfl, rfl⟩

/-- Witness of C40: two routes are pushed and `go(-1)` commits; the run keeps
the discipline and the position invariant holds at its end. -/
theorem abstract_position_witness :
    AbstractHistory.init.Disciplined
        [AbstractEvent.push Example.otherRoute, AbstractEvent.finish 1,
         AbstractEvent.push Example.childRoute, AbstractEvent.finish 2,
         AbstractEvent.go (-1), AbstractEvent.finish 3] ∧
      ((AbstractHistory.init.run
        [AbstractEvent.push Example.otherRoute, AbstractEvent.finish 1,
         AbstractEvent.push Example.childRoute, AbstractEvent.finish 2,
         AbstractEvent.go (-1), AbstractEvent.finish 3]).Pos ∨
       (AbstractHistory.init.run
        [AbstractEvent.push Example.otherRoute, AbstractEvent.finish 1,
         AbstractEvent.push Example.childRoute, AbstractEvent.finish 2,
         AbstractEvent.go (-1), AbstractEvent.finish 3]).Degenerate) :=
  have hd : AbstractHistory.init.Disciplined
      [AbstractEvent.push Example.otherRoute, AbstractEvent.finish 1,
       AbstractEvent.push Example.childRoute, AbstractEvent.finish 2,
       AbstractEvent.go (-1), AbstractEvent.finish 3] :=
    ⟨by decide, by decide, by decide, by decide, by decide, by decide, trivial⟩
  ⟨hd, (abstract_position _ hd).1⟩

theorem AbstractHistory.confirm_stack (s : AbstractHistory) (route : RouteObj)
    (kind : Navigation) : (s.confirm route kind).stack = s.stack := by
  unfold AbstractHistory.confirm
  simp only
  split <;> rfl

theorem AbstractHistory.confirm_made (s : AbstractHistory) (route : RouteObj)
    (kind : Navigation) : (s.confirm route kind).made = s.made + 1 := by
  unfold AbstractHistory.confirm
  simp only
  split <;> rfl

theorem AbstractHistory.confirm_pending (s : AbstractHistory) (route : RouteObj)
    (kind : Navigation) :
    (s.confirm route kind).pending = s.pending ∨ (s.confirm route kind).pending = some route.id := by
  unfold AbstractHistory.confirm
  simp only
  split
  · exact Or.inl rfl
  · exact Or.inr rfl

theorem AbstractHistory.confirm_closure (s : AbstractHistory) (route : RouteObj)
    (kind : Navigation) (k : Nat) (hk : k ≤ s.made) :
    (s.confirm route kind).closures k = s.closures k := by
  unfold AbstractHistory.confirm
  simp only
  split
  · rfl
  · show (if k = s.made + 1 then _ else s.closures k) = s.closures k
    rw [if_neg (by omega)]

theorem AbstractHistory.shelved_confirm (s : AbstractHistory) (route : RouteObj)
    (kind : Navigation) (k : Nat) (h : s.Shelved k) (hr : route.id ≠ k) :
    (s.confirm route kind).Shelved k := by
  obtain ⟨hp, hs, hm, c, hc, hg⟩ := h
  refine ⟨?_, ?_, ?_, c, ?_, hg⟩
  · rcases AbstractHistory.confirm_pending s route kind with e | e
    · rw [e]
      exact hp
    · rw [e]
      exact fun hh => hr (Option.some.inj hh)
  · rw [AbstractHistory.confirm_stack]
    exact hs
  · rw [AbstractHistory.confirm_made]
    omega
  · rw [AbstractHistory.confirm_closure s route kind k hm]
    exact hc

theorem mem_sliceTo {α : Type} (xs : List α) (e : Int) (x : α) (h : x ∈ sliceTo xs e) :
    x ∈ xs := by
  rw [sliceTo_take] at h
  exact List.mem_of_mem_take h

/-- The last callback of a closure other than a shelved one, or of the shelved
one itself, leaves it shelved. -/
theorem AbstractHistory.shelved_finish (s : AbstractHistory) (j k : Nat)
    (h : s.Shelved k) : (s.finish j).Shelved k := by
  obtain ⟨hp, hs, hm, c, hc, hg⟩ := h
  unfold AbstractHistory.finish
  cases hj : s.closures j with
  | none => exact ⟨hp, hs, hm, c, hc, hg⟩
  | some cj =>
    simp only
    have hclos : ∃ c', (s.setClosure j { cj with finished := true }).closures k = some c' ∧
        c'.route.id = k := by
      show ∃ c', (if k = j then some { cj with finished := true } else s.closures k) = some c' ∧
        c'.route.id = k
      by_cases hkj : k = j
      · rw [if_pos hkj]
        subst hkj
        rw [hc] at hj
        cases hj
        exact ⟨_, rfl, hg⟩
      · rw [if_neg hkj]
        exact ⟨c, hc, hg⟩
    split
    · exact ⟨hp, hs, hm, hclos⟩
    · rename_i hne
      have hpj : s.pending = some cj.route.id := by
        have : ((s.setClosure j { cj with finished := true }).pending != some cj.route.id) =
            false := by
          simpa using hne
        have h2 : (s.pending != some cj.route.id) = false := this
        simpa using h2
      have hidne : cj.route.id ≠ k := by
        intro e
        rw [e] at hpj
        exact hp hpj
      rcases Navigation.kinds cj.kind with hkind | hkind | ⟨t, hkind⟩
      · rw [AbstractHistory.commit_push _ _ hkind]
        refine ⟨fun hh => (by cases hh), ?_, hm, hclos⟩
        show k ∉ (sliceTo s.stack (s.index + 1) ++ [cj.route]).map RouteObj.id
        intro hmem
        rcases List.mem_map.mp hmem with ⟨r, hr, hrid⟩
        rcases List.mem_append.mp hr with hr | hr
        · exact hs (List.mem_map.mpr ⟨r, mem_sliceTo _ _ _ hr, hrid⟩)
        · simp only [List.mem_singleton] at hr
          rw [hr] at hrid
          exact hidne hrid
      · rw [AbstractHistory.commit_replace _ _ hkind]
        refine ⟨fun hh => (by cases hh), ?_, hm, hclos⟩
        show k ∉ (sliceTo s.stack s.index ++ [cj.route]).map RouteObj.id
        intro hmem
        rcases List.mem_map.mp hmem with ⟨r, hr, hrid⟩
        rcases List.mem_append.mp hr with hr | hr
        · exact hs (List.mem_map.mpr ⟨r, mem_sliceTo _ _ _ hr, hrid⟩)
        · simp only [List.mem_singleton] at hr
          rw [hr] at hrid
          exact hidne hrid
      · rw [AbstractHistory.commit_go _ _ t hkind]
        exact ⟨fun hh => (by cases hh), hs, hm, hclos⟩

theorem AbstractHistory.shelved_step (s : AbstractHistory) (e : AbstractEvent) (k : Nat)
    (h : s.Shelved k) : (s.step e).Shelved k := by
  cases e with
  | push route =>
    exact AbstractHistory.shelved_confirm s _ _ k h (by
      show s.made + 1 ≠ k
      have := h.2.2.1
      omega)
  | replace route =>
    exact AbstractHistory.shelved_confirm s _ _ k h (by
      show s.made + 1 ≠ k
      have := h.2.2.1
      omega)
  | go n =>
    simp only [AbstractHistory.step]
    split
    · exact h
    · split
      · rename_i route hroute
        refine AbstractHistory.shelved_confirm s _ _ k h ?_
        intro e
        exact h.2.1 (List.mem_map.mpr ⟨route, List.mem_iff_getElem?.mpr ⟨_, hroute⟩, e⟩)
      · exact h
  | finish j => exact AbstractHistory.shelved_finish s j k h

theorem AbstractHistory.shelved_run (events : List AbstractEvent) (k : Nat) :
    ∀ s : AbstractHistory, s.Shelved k → (s.run events).Shelved k := by
  induction events with
  | nil => intro s hs; exact hs
  | cons e es ih =>
    intro s hs
    exact ih (s.step e) (AbstractHistory.shelved_step s e k hs)

/-- The last callback of a shelved closure aborts: nothing is committed. -/
theorem AbstractHistory.shelved_aborts (s : AbstractHistory) (k : Nat) (h : s.Shelved k) :
    (s.finish k).current = s.current ∧ (s.finish k).stack = s.stack ∧
      (s.finish k).index = s.index ∧ (s.finish k).pending = s.pending := by
  obtain ⟨hp, _, _, c, hc, hid⟩ := h
  unfold AbstractHistory.finish
  rw [hc]
  simp only
  rw [if_pos]
  · exact ⟨rfl, rfl, rfl, rfl⟩
  · show (s.pending != some c.route.id) = true
    rw [hid]
    simpa using hp

/-- A closure of `push` or `replace` that has not finished and whose route is
not pending, in a state that a disciplined run reaches, is shelved. -/
theorem AbstractHistory.shelved_of_inv (s : AbstractHistory) (k : Nat) (c : NavClosure)
    (hinv : s.Inv) (hc : s.closures k = some c) (hg : c.kind.isGo = false)
    (hf : c.finished = false) (hp : s.pending ≠ some k) : s.Shelved k :=
  ⟨hp, hinv.fresh k c hc hg hf, hinv.keys k c hc, c, hc, hinv.own k c hc hg⟩

/-- C8, amended: a transition `t` started by `transitionTo`, which has not
committed when a later transition starts that is not ended at once as a
transition to the current route, never commits, whatever events of transitions
started by `transitionTo` follow: its `onComplete` is not called and it does
not become the current route.  And while no further transition is started, the
current route is the target of the later transition once the `onComplete` of
that one is called, and is unchanged until then.  In an abstract history the
same holds of the closure of a `push` or `replace`, also when calls of `go`
follow: once its route is not the pending one, its last callback aborts.  A
transition started by `go` is not protected, because `go` confirms the route
object stored in the stack again: in `Example.goTwice` the first `go(-1)`
(closure 3) is followed by a `push` of another route (closure 4) and by a
second `go(-1)`, after which the last callback of closure 3 commits. -/
theorem superseded_never_commits (view : ViewLayer) (s : History) (t : Nat) (route : Route)
    (onComplete onAbort : Option Nat) (events : List Event) (hwf : s.WF)
    (hstarted : t ≤ s.made) (hcur : s.current.id ≠ t) (hnot : Effect.onComplete t ∉ s.log)
    (hrun : isNoop s route = false) :
    (Effect.onComplete t ∉
        (run view (step view s (Event.transitionTo route onComplete onAbort)) events).log ∧
      (run view (step view s (Event.transitionTo route onComplete onAbort)) events).current.id ≠ t) ∧
    ((∀ e ∈ events, e.isTransitionTo = false) →
      ∃ new, (run view (step view s (Event.transitionTo route onComplete onAbort)) events).log =
          s.log ++ new ∧
        ((Effect.onComplete (s.made + 1) ∈ new ∧
            (run view (step view s (Event.transitionTo route onComplete onAbort)) events).current =
              { id := s.made + 1, route := route }) ∨
          (Effect.onComplete (s.made + 1) ∉ new ∧
            (run view (step view s (Event.transitionTo route onComplete onAbort)) events).current =
              s.current))) ∧
    (∀ (evs es : List AbstractEvent) (k : Nat) (c : NavClosure),
      AbstractHistory.init.Disciplined evs →
      (AbstractHistory.init.run evs).closures k = some c → c.kind.isGo = false →
      c.finished = false → (AbstractHistory.init.run evs).pending ≠ some k →
      ((AbstractHistory.init.run evs).run es).pending ≠ some k ∧
        (((AbstractHistory.init.run evs).run es).finish k).current =
          ((AbstractHistory.init.run evs).run es).current ∧
        (((AbstractHistory.init.run evs).run es).finish k).stack =
          ((AbstractHistory.init.run evs).run es).stack ∧
        (((AbstractHistory.init.run evs).run es).finish k).index =
          ((AbstractHistory.init.run evs).run es).index) ∧
    (((AbstractHistory.init.run Example.goTwice).closures 3).map
        (fun c => (c.route.id, c.kind, c.finished)) = some (1, Navigation.go 0, false) ∧
      ((AbstractHistory.init.run Example.goTwice).closures 4).map
        (fun c => (c.route.id, c.kind, c.finished)) = some (4, Navigation.push, false) ∧
      (AbstractHistory.init.run (Example.goTwice.take 6)).pending = some 4 ∧
      (AbstractHistory.init.run Example.goTwice).pending = some 1 ∧
      (AbstractHistory.init.run Example.goTwice).current.id = 2 ∧
      (AbstractHistory.init.run Example.goTwice).index = 1 ∧
      ((AbstractHistory.init.run Example.goTwice).finish 3).current.id = 1 ∧
      ((AbstractHistory.init.run Example.goTwice).finish 3).index = 0) := by
  have hengine : (Effect.onComplete t ∉
        (run view (step view s (Event.transitionTo route onComplete onAbort)) events).log ∧
      (run view (step view s (Event.transitionTo route onComplete onAbort)) events).current.id ≠ t) ∧
    ((∀ e ∈ events, e.isTransitionTo = false) →
      ∃ new, (run view (step view s (Event.transitionTo route onComplete onAbort)) events).log =
          s.log ++ new ∧
        ((Effect.onComplete (s.made + 1) ∈ new ∧
            (run view (step view s (Event.transitionTo route onComplete onAbort)) events).current =
              { id := s.made + 1, route := route }) ∨
          (Effect.onComplete (s.made + 1) ∉ new ∧
            (run view (step view s (Event.transitionTo route onComplete onAbort)) events).current =
              s.current))) := by
    obtain ⟨rwf, rmade, hcase⟩ := transitionTo_safe view s route onComplete onAbort hwf
    have hne : t ≠ s.made + 1 := by omega
    rcases hcase with ⟨hn, _⟩ | ⟨_, htr, new, hl, hcase⟩
    · rw [hrun] at hn
      cases hn
    · constructor
      · have hsup : Superseded t (step view s (Event.transitionTo route onComplete onAbort)) := by
          refine ⟨rwf, by rw [rmade]; omega, ?_⟩
          rcases hcase with ⟨hp, hc, hnc⟩ | ⟨hp, hc, _, hnc⟩
          · refine ⟨?_, by rw [hc]; exact hcur, ?_⟩
            · rw [hp]
              exact fun h => hne (Option.some.inj h).symm
            · rw [hl]
              intro hmem
              rcases List.mem_append.mp hmem with hmem | hmem
              · exact hnot hmem
              · exact hnc t hmem
          · refine ⟨by rw [hp]; simp, by rw [hc]; exact hne.symm, ?_⟩
            rw [hl]
            intro hmem
            rcases List.mem_append.mp hmem with hmem | hmem
            · exact hnot hmem
            · exact hnc t hne hmem
        obtain ⟨_, _, _, h4, h5⟩ := run_superseded view t events _ hsup
        exact ⟨h5, h4⟩
      · intro hev
        have hlast : LastStarted s (step view s (Event.transitionTo route onComplete onAbort))
            { id := s.made + 1, route := route } := by
          refine ⟨rwf, htr, new, hl, ?_⟩
          rcases hcase with ⟨hp, hc, hnc⟩ | ⟨hp, hc, hmem, _⟩
          · exact Or.inl ⟨hp, hc, hnc _⟩
          · exact Or.inr ⟨hp, hc, hmem⟩
        obtain ⟨_, _, new2, hl2, hfin⟩ := run_lastStarted view s _ events _ hev hlast
        refine ⟨new2, hl2, ?_⟩
        rcases hfin with ⟨_, hc, hn⟩ | ⟨_, hc, hm⟩
        · exact Or.inr ⟨hn, hc⟩
        · exact Or.inl ⟨hm, hc⟩
  refine ⟨hengine.1, hengine.2, ?_, by decide⟩
  intro evs es k c hd hc hg hf hp
  have hinv := AbstractHistory.inv_run evs _ AbstractHistory.inv_init hd
  have hsh := AbstractHistory.shelved_run es k _
    (AbstractHistory.shelved_of_inv _ k c hinv hc hg hf hp)
  obtain ⟨h1, h2, h3, _⟩ := AbstractHistory.shelved_aborts _ k hsh
  exact ⟨hsh.1, h1, h2, h3⟩

/-- Witness of C8: from `/p/c`, transition 2 to `/q` waits for a guard when
transition 3 to `/p` starts; then the guard of transition 2 proceeds. -/
theorem superseded_never_commits_witness :
    (Effect.onComplete 2 ∉
        (run Example.view
          (step Example.view Example.leaving (Event.transitionTo Example.parentRoute none none))
          [Event.next 2 false 0 NextArg.undef]).log ∧
      (run Example.view
          (step Example.view Example.leaving (Event.transitionTo Example.parentRoute none none))
          [Event.next 2 false 0 NextArg.undef]).current.id ≠ 2) ∧
    ((∀ e ∈ [Event.next 2 false 0 NextArg.undef], e.isTransitionTo = false) →
      ∃ new, (run Example.view
          (step Example.view Example.leaving (Event.transitionTo Example.parentRoute none none))
          [Event.next 2 false 0 NextArg.undef]).log = Example.leaving.log ++ new ∧
        ((Effect.onComplete (Example.leaving.made + 1) ∈ new ∧
            (run Example.view
              (step Example.view Example.leaving
                (Event.transitionTo Example.parentRoute none none))
              [Event.next 2 false 0 NextArg.undef]).current =
              { id := Example.leaving.made + 1, route := Example.parentRoute }) ∨
          (Effect.onComplete (Example.leaving.made + 1) ∉ new ∧
            (run Example.view
              (step Example.view Example.leaving
                (Event.transitionTo Example.parentRoute none none))
              [Event.next 2 false 0 NextArg.undef]).current = Example.leaving.current))) :=
  have h := superseded_never_commits Example.view Example.leaving 2 Example.parentRoute none none
    [Event.next 2 false 0 NextArg.undef] Example.leaving_WF (by decide) (by decide) (by decide)
    (by decide)
  ⟨h.1, h.2.1⟩

theorem readyErrorCalls_append (a b : List Effect) :
    readyErrorCalls (a ++ b) = readyErrorCalls a ++ readyErrorCalls b := by
  unfold readyErrorCalls
  rw [List.filterMap_append]

theorem readyErrorCalls_eq_nil (es : List Effect) (h : ∀ cb err, Effect.readyErrorCb cb err ∉ es) :
    readyErrorCalls es = [] := by
  unfold readyErrorCalls
  induction es with
  | nil => rfl
  | cons e es ih =>
    have ih' := ih (fun cb t hm => h cb t (List.mem_cons_of_mem _ hm))
    cases e with
    | readyErrorCb cb t => exact absurd (List.mem_cons_self _ _) (h cb t)
    | _ => simpa [List.filterMap_cons] using ih'

theorem neutral_nil : Neutral [] :=
  ⟨noComplete_nil, fun _ _ h => (nomatch h), rfl, rfl⟩

theorem neutral_append {a b : List Effect} (ha : Neutral a) (hb : Neutral b) :
    Neutral (a ++ b) :=
  ⟨noComplete_append ha.1 hb.1, noErrorAbort_append ha.2.1 hb.2.1, by
    rw [readyCalls_append, ha.2.2.1, hb.2.2.1]; rfl, by
    rw [readyErrorCalls_append, ha.2.2.2, hb.2.2.2]; rfl⟩

theorem neutral_guards (t : Nat) (gs : List Guard) : Neutral (gs.map (Effect.guardCalled t)) :=
  ⟨noComplete_guards t gs, fun u err h => by simp at h,
    readyCalls_eq_nil _ (fun cb u h => by simp at h),
    readyErrorCalls_eq_nil _ (fun cb u h => by simp at h)⟩

/-- The error callbacks of `onReady` that `abort(err)` calls. -/
theorem readyErrorCalls_abortLog (env : HistoryEnv) (tr : Transition) (err : AbortArg) :
    readyErrorCalls (abortLog env tr err) =
      if err.truthy && !env.ready then env.readyErrorCbs.map (fun cb => (cb, err)) else [] := by
  have h0 : readyErrorCalls [] = [] := rfl
  have h2 : ∀ err, readyErrorCalls [Effect.onAbort tr.route.id err] = [] := fun _ => rfl
  have h3 : ∀ err, readyErrorCalls
      (tr.userOnAbort.toList.map (fun cb => Effect.userOnAbort tr.route.id cb err)) = [] :=
    fun _ => readyErrorCalls_eq_nil _ (fun cb e h => by simp at h)
  have h4 : ∀ err (l : List Nat), readyErrorCalls (l.map (fun cb => Effect.readyErrorCb cb err)) =
      l.map (fun cb => (cb, err)) := by
    intro err l
    induction l with
    | nil => rfl
    | cons a l ih =>
      simp only [List.map_cons]
      rw [← ih]
      rfl
  have h5 : ∀ e (l : List Nat), readyErrorCalls (l.map (fun cb => Effect.errorCb cb e)) = [] :=
    fun _ _ => readyErrorCalls_eq_nil _ (fun cb e h => by simp at h)
  have h6 : ∀ e, readyErrorCalls [Effect.consoleError e] = [] := fun _ => rfl
  cases err <;>
    simp only [abortLog, readyErrorCalls_append, apply_ite readyErrorCalls, h0, h2, h3, h4, h5,
      h6, List.nil_append, List.append_nil, ite_self]

/-- The calls of `abort(err)` with a falsy `err`. -/
theorem neutral_abortLog (env : HistoryEnv) (tr : Transition) (err : AbortArg)
    (h : err.truthy = false) : Neutral (abortLog env tr err) := by
  refine ⟨noComplete_abortLog env tr err, ?_, readyCalls_abortLog env tr err, ?_⟩
  · intro t e hmem
    unfold abortLog at hmem
    have : e = err := by
      cases err <;> cases tr.userOnAbort <;> simp [AbortArg.truthy] at h hmem <;>
        simp_all
    rw [this]
    exact h
  · rw [readyErrorCalls_abortLog, h]
    rfl

theorem readyErrorCalls_completionLog (env : HistoryEnv) (t : Nat) (uc : Option Nat) :
    readyErrorCalls (completionLog env t uc) = [] := by
  apply readyErrorCalls_eq_nil
  intro cb err
  unfold completionLog
  cases uc <;> cases env.hasListener <;> cases env.ready <;> simp

theorem readyStep_same (x : History) : ReadyStep x x :=
  ⟨rfl, rfl, [], by simp, Or.inl ⟨rfl, neutral_nil⟩⟩

theorem readyStep_of_queueShape (t : Nat) (x r : History) (h : QueueShape t x r) :
    ReadyStep x r := by
  rcases h with ⟨e, gs, l⟩ | ⟨e, gs, tr, l⟩ | ⟨e, gs, u, uc, l⟩
  · exact ⟨congrArg HistoryEnv.readyCbs e, congrArg HistoryEnv.readyErrorCbs e, _, l,
      Or.inl ⟨congrArg HistoryEnv.ready e, neutral_guards t gs⟩⟩
  · refine ⟨congrArg HistoryEnv.readyCbs e, congrArg HistoryEnv.readyErrorCbs e, _,
      by rw [l, List.append_assoc], Or.inl ⟨congrArg HistoryEnv.ready e, ?_⟩⟩
    exact neutral_append (neutral_guards t gs) (neutral_abortLog _ _ _ rfl)
  · refine ⟨congrArg HistoryEnv.readyCbs e, congrArg HistoryEnv.readyErrorCbs e, _,
      by rw [l, List.append_assoc],
      Or.inr (Or.inr ⟨congrArg HistoryEnv.ready e, gs.map (Effect.guardCalled t), ?_⟩)⟩
    refine ⟨(completionLog x.env u uc).tail, u, ?_, (neutral_guards t gs).1,
      (neutral_guards t gs).2.1, ?_, ?_⟩
    · unfold completionLog
      simp
    · rw [readyErrorCalls_append, (neutral_guards t gs).2.2.2, readyErrorCalls_completionLog]
      rfl
    · rw [readyCalls_append, (neutral_guards t gs).2.2.1, readyCalls_completionLog]
      rfl

/-- Calls that change nothing, then a step. -/
theorem readyStep_of_extension (x m r : History) (h : ReadyStep m r) (pre0 : List Effect)
    (hlog : m.log = x.log ++ pre0) (hn : Neutral pre0) (hready : m.ready = x.ready)
    (hcbs : m.readyCbs = x.readyCbs) (hecbs : m.readyErrorCbs = x.readyErrorCbs) :
    ReadyStep x r := by
  obtain ⟨hc, hec, new, hl, hcase⟩ := h
  refine ⟨hc.trans hcbs, hec.trans hecbs, pre0 ++ new, by rw [hl, hlog, List.append_assoc], ?_⟩
  rcases hcase with ⟨hr, hnew⟩ |
    ⟨hr, hnc, hrc, pre, post, t, err, hsplit, htruthy, hpre, hrec⟩ |
    ⟨hr, pre, post, t, hsplit, hnc, hpre, hrec, hrc⟩
  · exact Or.inl ⟨hr.trans hready, neutral_append hn hnew⟩
  · refine Or.inr (Or.inl ⟨hr, noComplete_append hn.1 hnc, ?_, pre0 ++ pre, post, t, err, ?_,
      htruthy, noErrorAbort_append hn.2.1 hpre, ?_⟩)
    · rw [readyCalls_append, hn.2.2.1, hrc]
      rfl
    · rw [hsplit, List.append_assoc]
    · rw [readyErrorCalls_append, hn.2.2.2, hrec, hready, hecbs]
      rfl
  · refine Or.inr (Or.inr ⟨hr, pre0 ++ pre, post, t, ?_, noComplete_append hn.1 hnc,
      noErrorAbort_append hn.2.1 hpre, ?_, ?_⟩)
    · rw [hsplit, List.append_assoc]
    · rw [readyErrorCalls_append, hn.2.2.2, hrec]
      rfl
    · rw [readyCalls_append, hn.2.2.1, hrc, hready, hcbs]
      rfl

/-- A step, then calls that change nothing. -/
theorem readyStep_emit (x r : History) (h : ReadyStep x r) (es : List Effect)
    (hn : Neutral es) : ReadyStep x (r.emit es) := by
  obtain ⟨hc, hec, new, hl, hcase⟩ := h
  refine ⟨hc, hec, new ++ es, by simp [History.emit, hl], ?_⟩
  rcases hcase with ⟨hr, hnew⟩ |
    ⟨hr, hnc, hrc, pre, post, t, err, hsplit, htruthy, hpre, hrec⟩ |
    ⟨hr, pre, post, t, hsplit, hnc, hpre, hrec, hrc⟩
  · exact Or.inl ⟨hr, neutral_append hnew hn⟩
  · refine Or.inr (Or.inl ⟨hr, noComplete_append hnc hn.1, ?_, pre, post ++ es, t, err, ?_,
      htruthy, hpre, ?_⟩)
    · rw [readyCalls_append, hn.2.2.1, hrc]
      rfl
    · rw [hsplit]
      simp
    · rw [readyErrorCalls_append, hn.2.2.2, hrec]
      simp
  · refine Or.inr (Or.inr ⟨hr, pre, post ++ es, t, ?_, hnc, hpre, ?_, ?_⟩)
    · rw [hsplit]
      simp
    · rw [readyErrorCalls_append, hn.2.2.2, hrec]
      rfl
    · rw [readyCalls_append, hn.2.2.1, hrc]
      simp

theorem abort_readyErrorCbs (s : History) (tr : Transition) (err : AbortArg) :
    (abort s tr err).readyErrorCbs = s.readyErrorCbs := by
  obtain ⟨new, b, h, _⟩ := abort_eq s tr err
  rw [h]

theorem readyStep_abort (x : History) (tr : Transition) (err : AbortArg) :
    ReadyStep x (abort x tr err) := by
  refine ⟨abort_readyCbs x tr err, abort_readyErrorCbs x tr err, abortLog x.env tr err,
    abort_log_eq x tr err, ?_⟩
  cases ht : err.truthy with
  | false =>
    refine Or.inl ⟨?_, neutral_abortLog _ _ _ ht⟩
    rw [abort_ready, ht]
    simp
  | true =>
    obtain ⟨pre, post, hsplit, hpre⟩ := abortLog_truthy x.env tr err
    refine Or.inr (Or.inl ⟨?_, noComplete_abortLog _ _ _, readyCalls_abortLog _ _ _, pre, post,
      tr.route.id, err, hsplit, ht, hpre, ?_⟩)
    · rw [abort_ready, ht]
      simp
    · rw [readyErrorCalls_abortLog, ht]
      cases hr : x.ready <;> simp [History.env, hr]

theorem neutral_single (e : Effect) (h1 : ∀ t, e ≠ Effect.onComplete t)
    (h2 : ∀ t err, e ≠ Effect.onAbort t err) (h3 : ∀ cb t, e ≠ Effect.readyCb cb t)
    (h4 : ∀ cb err, e ≠ Effect.readyErrorCb cb err) :
    Neutral [e] :=
  ⟨fun t h => h1 t (List.mem_singleton.mp h).symm,
    fun t err h => absurd (List.mem_singleton.mp h).symm (h2 t err),
    readyCalls_eq_nil _ (fun cb t h => h3 cb t (List.mem_singleton.mp h).symm),
    readyErrorCalls_eq_nil _ (fun cb t h => h4 cb t (List.mem_singleton.mp h).symm)⟩

theorem callContinuation_ready (view : ViewLayer) (x : History) (tr : Transition) (p : Bool)
    (j : Nat) (a : NextArg) : ReadyStep x (callContinuation view x tr p j a) := by
  unfold callContinuation
  cases hc : classify a with
  | abort =>
    simp only
    exact readyStep_of_extension x _ _ (readyStep_abort _ tr a.toAbortArg) [Effect.ensureURL true]
      (by simp [History.setTransition, History.emit])
      (neutral_single _ (fun _ h => by cases h) (fun _ _ h => by cases h) (fun _ _ h => by cases h)
        (fun _ _ h => by cases h))
      rfl rfl rfl
  | redirect r =>
    simp only
    apply readyStep_emit
    · exact readyStep_of_extension x _ _ (readyStep_abort _ tr AbortArg.undef) []
        (by simp [History.setTransition]) neutral_nil rfl rfl rfl
    · cases r
      · exact neutral_single _ (fun _ h => by cases h) (fun _ _ h => by cases h)
          (fun _ _ h => by cases h) (fun _ _ h => by cases h)
      · exact neutral_single _ (fun _ h => by cases h) (fun _ _ h => by cases h)
          (fun _ _ h => by cases h) (fun _ _ h => by cases h)
  | proceed =>
    simp only
    exact readyStep_of_extension x _ _
      (readyStep_of_queueShape _ _ _ (continueQueue_shape view _ tr.route.id p (j + 1))) []
      (by simp [History.setTransition]) neutral_nil rfl rfl rfl
  | throws =>
    simp only
    exact ⟨rfl, rfl, [], by simp [History.setTransition], Or.inl ⟨rfl, neutral_nil⟩⟩

/-- Every event is one step for the flag `ready` and the callbacks of
`onReady`. -/
theorem step_ready (view : ViewLayer) (x : History) (e : Event) :
    ReadyStep x (step view x e) := by
  cases e with
  | transitionTo route oc oa =>
    simp only [step, confirmTransition]
    split
    · exact readyStep_of_extension x _ _ (readyStep_abort _ _ AbortArg.undef)
        [Effect.ensureURL false] (by simp [History.setTransition, History.emit])
        (neutral_single _ (fun _ h => by cases h) (fun _ _ h => by cases h)
          (fun _ _ h => by cases h) (fun _ _ h => by cases h)) rfl rfl rfl
    · exact readyStep_of_extension x _ _
        (readyStep_of_queueShape _ _ _ (continueQueue_shape view _ (x.made + 1) false 0)) []
        (by simp [History.setTransition]) neutral_nil rfl rfl rfl
  | next t p j a =>
    simp only [step]
    cases htr : x.transitions t with
    | none => exact readyStep_same x
    | some tr =>
      simp only
      split
      · exact callContinuation_ready view x tr p j a
      · exact readyStep_same x
  | throws t p j err =>
    simp only [step]
    cases htr : x.transitions t with
    | none => exact readyStep_same x
    | some tr =>
      simp only
      split
      · exact readyStep_abort x tr err
      · exact readyStep_same x
  | asyncResolved t =>
    simp only [step]
    cases htr : x.transitions t with
    | none => exact readyStep_same x
    | some tr =>
      simp only
      split
      · exact callContinuation_ready view x tr false _ _
      · exact readyStep_same x
  | asyncRejected t err =>
    simp only [step]
    cases htr : x.transitions t with
    | none => exact readyStep_same x
    | some tr =>
      simp only
      split
      · exact callContinuation_ready view x tr false _ _
      · exact readyStep_same x

theorem runActions_snoc (view : ViewLayer) (s : History) (done : List Action) (a : Action) :
    runActions view s (done ++ [a]) = act view (runActions view s done) a := by
  simp [runActions, List.foldl_append]

theorem registeredCbs_event (done : List Action) (e : Event) :
    registeredCbs (done ++ [Action.event e]) = registeredCbs done := by
  simp [registeredCbs, List.filterMap_append]

theorem registeredErrorCbs_event (done : List Action) (e : Event) :
    registeredErrorCbs (done ++ [Action.event e]) = registeredErrorCbs done := by
  simp [registeredErrorCbs, List.filterMap_append]

theorem registeredCbs_onReady (done : List Action) (cb : Nat) (errorCb : Option Nat) :
    registeredCbs (done ++ [Action.onReady cb errorCb]) = registeredCbs done ++ [cb] := by
  simp [registeredCbs, List.filterMap_append]

theorem registeredErrorCbs_onReady (done : List Action) (cb : Nat) (errorCb : Option Nat) :
    registeredErrorCbs (done ++ [Action.onReady cb errorCb]) =
      registeredErrorCbs done ++ errorCb.toList := by
  cases errorCb <;> simp [registeredErrorCbs, List.filterMap_append]

theorem readyPhase_start (view : ViewLayer) (s : History) (h : s.ready = false) :
    ReadyPhase view s [] :=
  ⟨[], by simp [runActions], Or.inl ⟨h, noComplete_nil, fun _ _ hm => (nomatch hm), rfl, rfl,
    by simp [runActions, registeredCbs], by simp [runActions, registeredErrorCbs]⟩⟩

theorem noComplete_of_append_left {a b : List Effect} (h : NoComplete (a ++ b)) : NoComplete a :=
  fun t hm => h t (List.mem_append.mpr (Or.inl hm))

/-- What a step leaves of the flag and of the calls, once the engine is
ready. -/
theorem readyStep_of_ready (x r : History) (hstep : ReadyStep x r) (hr : x.ready = true) :
    r.ready = true ∧ ∃ new2, r.log = x.log ++ new2 ∧ readyCalls new2 = [] ∧
      readyErrorCalls new2 = [] := by
  obtain ⟨_, _, new2, hl2, hcase⟩ := hstep
  rcases hcase with ⟨h, hn⟩ | ⟨h, _, hrc, _, _, _, _, _, _, _, hrec⟩ |
    ⟨h, _, _, _, _, _, _, hrec, hrc⟩
  · exact ⟨h.trans hr, new2, hl2, hn.2.2.1, hn.2.2.2⟩
  · refine ⟨h, new2, hl2, hrc, ?_⟩
    rw [hrec, hr]
    rfl
  · refine ⟨h, new2, hl2, ?_, hrec⟩
    rw [hrc, hr]
    rfl

/-- An event keeps the phase or moves it on. -/
theorem readyPhase_event (view : ViewLayer) (s : History) (done : List Action) (e : Event)
    (h : ReadyPhase view s done) : ReadyPhase view s (done ++ [Action.event e]) := by
  have hstep := step_ready view (runActions view s done) e
  have hsnoc : runActions view s (done ++ [Action.event e]) =
      step view (runActions view s done) e := runActions_snoc view s done _
  unfold ReadyPhase
  rw [hsnoc]
  obtain ⟨new, hl, hphase⟩ := h
  rcases hphase with ⟨hr, hnc, hne, hrc, hrec, hcbs, hecbs⟩ |
    ⟨hr, before, e0, after, pre, post, t, hdone, hb, hb2, hsplit, hnc, hne, hrc, hrec⟩ |
    ⟨hr, before, e0, after, pre, post, t, err, hdone, hb, hb2, hsplit, htruthy, hnc, hne, hrc,
      hrec⟩
  · obtain ⟨hcbs2, hecbs2, new2, hl2, hcase⟩ := hstep
    refine ⟨new ++ new2, by rw [hl2, hl, List.append_assoc], ?_⟩
    rcases hcase with ⟨hr2, hn2⟩ |
      ⟨hr2, hnc2, hrc2, pre2, post2, t2, err2, hs2, ht2, hp2, hrec2⟩ |
      ⟨hr2, pre2, post2, t2, hs2, hnc2, hp2, hrec2, hrc2⟩
    · refine Or.inl ⟨hr2.trans hr, noComplete_append hnc hn2.1, noErrorAbort_append hne hn2.2.1,
        ?_, ?_, ?_, ?_⟩
      · rw [readyCalls_append, hrc, hn2.2.2.1]
        rfl
      · rw [readyErrorCalls_append, hrec, hn2.2.2.2]
        rfl
      · rw [hcbs2, hcbs, registeredCbs_event]
      · rw [hecbs2, hecbs, registeredErrorCbs_event]
    · refine Or.inr (Or.inr ⟨hr2, done, e, [], new ++ pre2, post2, t2, err2, rfl, hr, ?_, ?_,
        ht2, ?_, noErrorAbort_append hne hp2, ?_, ?_⟩)
      · rw [hsnoc]
        exact hr2
      · rw [hs2, List.append_assoc]
      · exact noComplete_append hnc (noComplete_of_append_left (hs2 ▸ hnc2))
      · rw [readyCalls_append, hrc, hrc2]
        rfl
      · rw [readyErrorCalls_append, hrec, hrec2, hr, hecbs]
        simp
    · refine Or.inr (Or.inl ⟨hr2, done, e, [], new ++ pre2, post2, t2, rfl, hr, ?_, ?_,
        noComplete_append hnc hnc2, noErrorAbort_append hne hp2, ?_, ?_⟩)
      · rw [hsnoc]
        exact hr2
      · rw [hs2, List.append_assoc]
      · rw [readyCalls_append, hrc, hrc2, hr, hcbs]
        simp
      · rw [readyErrorCalls_append, hrec, hrec2]
        rfl
  · obtain ⟨hr2, new2, hl2, hrc2, hrec2⟩ := readyStep_of_ready _ _ hstep hr
    refine ⟨new ++ new2, by rw [hl2, hl, List.append_assoc], ?_⟩
    refine Or.inr (Or.inl ⟨hr2, before, e0, after ++ [Action.event e], pre, post ++ new2, t, ?_,
      hb, hb2, ?_, hnc, hne, ?_, ?_⟩)
    · rw [hdone]
      simp
    · rw [hsplit]
      simp
    · rw [readyCalls_append, hrc, hrc2]
      simp
    · rw [readyErrorCalls_append, hrec, hrec2]
      rfl
  · obtain ⟨hr2, new2, hl2, hrc2, hrec2⟩ := readyStep_of_ready _ _ hstep hr
    refine ⟨new ++ new2, by rw [hl2, hl, List.append_assoc], ?_⟩
    refine Or.inr (Or.inr ⟨hr2, before, e0, after ++ [Action.event e], pre, post ++ new2, t, err,
      ?_, hb, hb2, ?_, htruthy, hnc, hne, ?_, ?_⟩)
    · rw [hdone]
      simp
    · rw [hsplit]
      simp
    · rw [readyCalls_append, hrc, hrc2]
      rfl
    · rw [readyErrorCalls_append, hrec, hrec2]
      simp

/-- A call of `onReady` keeps the phase: before the engine is ready it adds its
callbacks to those held, afterwards it calls no callback of the queues. -/
theorem readyPhase_onReady (view : ViewLayer) (s : History) (done : List Action) (cb : Nat)
    (errorCb : Option Nat) (h : ReadyPhase view s done) :
    ReadyPhase view s (done ++ [Action.onReady cb errorCb]) := by
  have hsnoc : runActions view s (done ++ [Action.onReady cb errorCb]) =
      onReady (runActions view s done) cb errorCb := runActions_snoc view s done _
  unfold ReadyPhase
  rw [hsnoc]
  obtain ⟨new, hl, hphase⟩ := h
  have hrn : readyCalls [Effect.readyNow cb] = [] := rfl
  have hren : readyErrorCalls [Effect.readyNow cb] = [] := rfl
  rcases hphase with ⟨hr, hnc, hne, hrc, hrec, hcbs, hecbs⟩ |
    ⟨hr, before, e0, after, pre, post, t, hdone, hb, hb2, hsplit, hnc, hne, hrc, hrec⟩ |
    ⟨hr, before, e0, after, pre, post, t, err, hdone, hb, hb2, hsplit, htruthy, hnc, hne, hrc,
      hrec⟩
  · have ho : onReady (runActions view s done) cb errorCb =
        { runActions view s done with
          readyCbs := (runActions view s done).readyCbs ++ [cb]
          readyErrorCbs := (runActions view s done).readyErrorCbs ++ errorCb.toList } := by
      unfold onReady
      rw [hr]
      cases errorCb <;> simp [hr]
    rw [ho]
    refine ⟨new, hl, Or.inl ⟨hr, hnc, hne, hrc, hrec, ?_, ?_⟩⟩
    · simp only
      rw [hcbs, registeredCbs_onReady, List.append_assoc]
    · simp only
      rw [hecbs, registeredErrorCbs_onReady, List.append_assoc]
  · have ho : onReady (runActions view s done) cb errorCb =
        (runActions view s done).emit [Effect.readyNow cb] := by
      unfold onReady
      rw [hr]
      rfl
    rw [ho]
    refine ⟨new ++ [Effect.readyNow cb], by simp [History.emit, hl], ?_⟩
    refine Or.inr (Or.inl ⟨hr, before, e0, after ++ [Action.onReady cb errorCb], pre,
      post ++ [Effect.readyNow cb], t, ?_, hb, hb2, ?_, hnc, hne, ?_, ?_⟩)
    · rw [hdone]
      simp
    · rw [hsplit]
      simp
    · rw [readyCalls_append, hrc, hrn]
      simp
    · rw [readyErrorCalls_append, hrec, hren]
      rfl
  · have ho : onReady (runActions view s done) cb errorCb =
        (runActions view s done).emit [Effect.readyNow cb] := by
      unfold onReady
      rw [hr]
      rfl
    rw [ho]
    refine ⟨new ++ [Effect.readyNow cb], by simp [History.emit, hl], ?_⟩
    refine Or.inr (Or.inr ⟨hr, before, e0, after ++ [Action.onReady cb errorCb], pre,
      post ++ [Effect.readyNow cb], t, err, ?_, hb, hb2, ?_, htruthy, hnc, hne, ?_, ?_⟩)
    · rw [hdone]
      simp
    · rw [hsplit]
      simp
    · rw [readyCalls_append, hrc, hrn]
      rfl
    · rw [readyErrorCalls_append, hrec, hren]
      simp

theorem runActions_readyPhase (view : ViewLayer) (s : History) (hready : s.ready = false)
    (actions : List Action) : ReadyPhase view s actions := by
  induction actions using List.reverseRecOn with
  | nil => exact readyPhase_start view s hready
  | append_singleton done a ih =>
    cases a with
    | event e => exact readyPhase_event view s done e ih
    | onReady cb errorCb => exact readyPhase_onReady view s done cb errorCb ih

/-- C14, amended: in an engine that is not ready, over every sequence of
events and of calls of `onReady`, one of three holds.  Nothing has committed
and no abort got a truthy value: then no callback of `onReady` was called, and
the engine holds the callbacks it had and those registered since.  Or the
engine became ready at an event by the first commit, before any abort with a
truthy value: then every callback held at the start or registered before that
event was called exactly once, in the order of registration and with the route
of that commit, no other call of a callback of `onReady` was made, by later
commits either, and no error callback was called.  Or the engine became ready
at an event by an abort with a truthy value before any commit: then every error
callback held at the start or registered before that event was called exactly
once with that value, and no callback of `onReady` was called, then or at
later commits. -/
theorem ready_callbacks_called_once (view : ViewLayer) (s : History) (actions : List Action)
    (hready : s.ready = false) :
    ∃ new, (runActions view s actions).log = s.log ++ new ∧
      (((runActions view s actions).ready = false ∧ NoComplete new ∧ NoErrorAbort new ∧
          readyCalls new = [] ∧ readyErrorCalls new = [] ∧
          (runActions view s actions).readyCbs = s.readyCbs ++ registeredCbs actions ∧
          (runActions view s actions).readyErrorCbs =
            s.readyErrorCbs ++ registeredErrorCbs actions) ∨
        ((runActions view s actions).ready = true ∧
          ∃ before e after pre post t, actions = before ++ Action.event e :: after ∧
            (runActions view s before).ready = false ∧
            (runActions view s (before ++ [Action.event e])).ready = true ∧
            new = pre ++ Effect.onComplete t :: post ∧ NoComplete pre ∧ NoErrorAbort pre ∧
            readyCalls new = (s.readyCbs ++ registeredCbs before).map (fun cb => (cb, t)) ∧
            readyErrorCalls new = []) ∨
        ((runActions view s actions).ready = true ∧
          ∃ before e after pre post t err, actions = before ++ Action.event e :: after ∧
            (runActions view s before).ready = false ∧
            (runActions view s (before ++ [Action.event e])).ready = true ∧
            new = pre ++ Effect.onAbort t err :: post ∧ err.truthy = true ∧
            NoComplete pre ∧ NoErrorAbort pre ∧ readyCalls new = [] ∧
            readyErrorCalls new =
              (s.readyErrorCbs ++ registeredErrorCbs before).map (fun cb => (cb, err)))) :=
  runActions_readyPhase view s hready actions

/-- Witness of C14: with the callback 90 held at the start, the run
`Example.readyRun` calls the callbacks 90 and 92 once, with the route of
transition 2, and calls 93 at once when it is registered. -/
theorem ready_callbacks_called_once_witness :
    Example.notReady.ready = false ∧
    readyCalls (runActions Example.view Example.notReady Example.readyRun).log =
      [(90, 2), (92, 2)] ∧
    Effect.readyNow 93 ∈ (runActions Example.view Example.notReady Example.readyRun).log ∧
    ∃ new, (runActions Example.view Example.notReady Example.readyRun).log =
        Example.notReady.log ++ new ∧
      (((runActions Example.view Example.notReady Example.readyRun).ready = false ∧
          NoComplete new ∧ NoErrorAbort new ∧
          readyCalls new = [] ∧ readyErrorCalls new = [] ∧
          (runActions Example.view Example.notReady Example.readyRun).readyCbs =
            Example.notReady.readyCbs ++ registeredCbs Example.readyRun ∧
          (runActions Example.view Example.notReady Example.readyRun).readyErrorCbs =
            Example.notReady.readyErrorCbs ++ registeredErrorCbs Example.readyRun) ∨
        ((runActions Example.view Example.notReady Example.readyRun).ready = true ∧
          ∃ before e after pre post t, Example.readyRun = before ++ Action.event e :: after ∧
            (runActions Example.view Example.notReady before).ready = false ∧
            (runActions Example.view Example.notReady (before ++ [Action.event e])).ready = true ∧
            new = pre ++ Effect.onComplete t :: post ∧ NoComplete pre ∧ NoErrorAbort pre ∧
            readyCalls new =
              (Example.notReady.readyCbs ++ registeredCbs before).map (fun cb => (cb, t)) ∧
            readyErrorCalls new = []) ∨
        ((runActions Example.view Example.notReady Example.readyRun).ready = true ∧
          ∃ before e after pre post t err,
            Example.readyRun = before ++ Action.event e :: after ∧
            (runActions Example.view Example.notReady before).ready = false ∧
            (runActions Example.view Example.notReady (before ++ [Action.event e])).ready = true ∧
            new = pre ++ Effect.onAbort t err :: post ∧ err.truthy = true ∧
            NoComplete pre ∧ NoErrorAbort pre ∧ readyCalls new = [] ∧
            readyErrorCalls new =
              (Example.notReady.readyErrorCbs ++ registeredErrorCbs before).map
                (fun cb => (cb, err)))) :=
  ⟨by decide, by decide, by decide,
    ready_callbacks_called_once Example.view Example.notReady Example.readyRun (by decide)⟩

theorem filterMap_guardOption (opt : GuardOption) (b : Nat → Option Guard) :
    (match opt with
      | .undefined => [none]
      | .single g => [b g]
      | .array gs => gs.map b).filterMap id =
    (match opt with
      | .undefined => []
      | .single g => [g]
      | .array gs => gs).filterMap b := by
  cases opt with
  | undefined => rfl
  | single g => cases h : b g <;> simp [h]
  | array gs => rw [List.filterMap_map]; rfl

theorem filterMap_flatten_map {α β : Type} (f : α → List (Option β)) (l : List α) :
    ((l.map f).flatten).filterMap id = l.flatMap (fun x => (f x).filterMap id) := by
  induction l with
  | nil => rfl
  | cons a l ih =>
    simp only [List.map_cons, List.flatten_cons, List.filterMap_append, List.flatMap_cons, ih]

/-- The guards that `extractGuards` yields, in the order of the records. -/
theorem filterMap_extractGuards (view : ViewLayer) (records : List RouteRecord) (name : HookName)
    (bind : Nat → Option Nat → RouteRecord → Str → Option Guard) :
    (extractGuards view records name bind false).filterMap id =
      records.flatMap (fun m => m.components.flatMap (fun kv =>
        (definedGuards view kv.2 name).filterMap
          (fun g => bind g (view.instances m.uid kv.1) m kv.1))) := by
  unfold extractGuards flatMapComponents
  simp only [Bool.false_eq_true, if_false]
  induction records with
  | nil => rfl
  | cons m rest ih =>
    simp only [List.flatMap_cons, List.flatten_append, List.filterMap_append, ih]
    congr 1
    rw [filterMap_flatten_map]
    congr 1
    funext kv
    exact filterMap_guardOption _ _

/-- The guards that `extractGuards` yields with `reverse` set. -/
theorem filterMap_extractGuards_reverse (view : ViewLayer) (records : List RouteRecord)
    (name : HookName) (bind : Nat → Option Nat → RouteRecord → Str → Option Guard) :
    (extractGuards view records name bind true).filterMap id =
      records.reverse.flatMap (fun m => m.components.reverse.flatMap (fun kv =>
        (definedGuards view kv.2 name).filterMap
          (fun g => bind g (view.instances m.uid kv.1) m kv.1))) := by
  rw [extractGuards_reverse]
  generalize records.reverse = rs
  induction rs with
  | nil => rfl
  | cons m rest ih =>
    simp only [List.flatMap_cons, List.filterMap_append, ih]
    congr 1
    generalize m.components.reverse = cs
    induction cs with
    | nil => rfl
    | cons kv cs ih2 =>
      simp only [List.flatMap_cons, List.filterMap_append, ih2]
      congr 1
      exact filterMap_guardOption _ _

theorem filterMap_bindGuard (name : HookName) (gs : List Nat) (vm : Option Nat) :
    gs.filterMap (fun g => bindGuard name g vm) =
      match vm with
      | some v => gs.map (fun g => Guard.bound name g v)
      | none => [] := by
  cases vm with
  | none => simp [bindGuard]
  | some v =>
    simp only [bindGuard, Option.map_some']
    induction gs with
    | nil => rfl
    | cons g gs ih => simp [List.filterMap_cons, ih]

theorem filterMap_extractLeaveGuards (view : ViewLayer) (deactivated : List RouteRecord) :
    (extractLeaveGuards view deactivated).filterMap id = leaveGuardsInOrder view deactivated := by
  unfold extractLeaveGuards leaveGuardsInOrder
  rw [filterMap_extractGuards_reverse]
  simp only [filterMap_bindGuard]

theorem filterMap_extractUpdateHooks (view : ViewLayer) (updated : List RouteRecord) :
    (extractUpdateHooks view updated).filterMap id = updateGuardsInOrder view updated := by
  unfold extractUpdateHooks updateGuardsInOrder
  rw [filterMap_extractGuards]
  simp only [filterMap_bindGuard]

theorem filterMap_extractEnterGuards (view : ViewLayer) (activated : List RouteRecord) :
    (extractEnterGuards view activated).filterMap id = enterGuardsInOrder view activated := by
  unfold extractEnterGuards enterGuardsInOrder
  rw [filterMap_extractGuards]
  congr 1
  funext m
  congr 1
  funext kv
  induction definedGuards view kv.2 HookName.beforeRouteEnter with
  | nil => rfl
  | cons g gs ih => simp [List.filterMap_cons, ih]

theorem filterMap_id_map {α β : Type} (f : α → Option β) (l : List α) :
    (l.map f).filterMap id = l.filterMap f := by
  rw [List.filterMap_map]
  rfl

/-- The guards of the first queue are those of the specification, in its
order. -/
theorem firstQueue_guards (view : ViewLayer) (s : History) (route : Route) :
    (firstQueue view s route).filterMap id = guardsBeforeLoading view s route := by
  unfold firstQueue guardsBeforeLoading
  simp only [List.filterMap_append, filterMap_extractLeaveGuards, filterMap_extractUpdateHooks,
    filterMap_id_map]

/-- The guards of the second queue are those of the specification, in its
order. -/
theorem secondQueue_guards (view : ViewLayer) (s : History) (route : Route) :
    (secondQueue view s route).filterMap id = guardsAfterLoading view s route := by
  unfold secondQueue guardsAfterLoading
  simp only [List.filterMap_append, filterMap_extractEnterGuards, filterMap_id_map]

/-- The first queue with a component to load: when every guard proceeds, the
guards that remain are called in order, then the step `resolveAsyncComponents`,
and the transition waits for the component: the continuation of the step is
the only one that has not been called. -/
theorem drive_firstQueue_waits (view : ViewLayer) (t : Nat) :
    ∀ (n : Nat) (R P : List (Option Guard)) (s : History) (tr : Transition)
      (args : List NextArg),
      (R.filterMap id).length = n → AppQueue R →
      s.transitions t = some tr → tr.route.id = t →
      tr.queue = P ++ R ++ [some Guard.resolveAsync] →
      hasAsync view tr.activated = true →
      s.pending = some t →
      (∀ k, (false, k) ∈ tr.answered → k < P.length) →
      tr.AllAnswered →
      (∀ a ∈ args, classify a = Resolution.proceed) →
      args.length = n →
      (drive view (continueQueue view s t false P.length) t args).env = s.env ∧
      ∃ tr', (drive view (continueQueue view s t false P.length) t args).transitions t =
          some tr' ∧
        tr'.route = tr.route ∧ tr'.queue = tr.queue ∧ tr'.activated = tr.activated ∧
        tr'.userOnAbort = tr.userOnAbort ∧ tr'.enterQueue = tr.enterQueue ∧
        (false, tr.queue.length - 1) ∈ tr'.invoked ∧
        ∀ c ∈ tr'.invoked, c ∈ tr'.answered ∨ c = (false, tr.queue.length - 1) := by
  intro n
  induction n with
  | zero =>
    intro R P s tr args hn happ htr hid hq hasync hpend _ hall _ hargs
    have hR : R.filterMap id = [] := List.length_eq_zero.mp hn
    have ha : args = [] := List.length_eq_zero.mp hargs
    subst ha
    rw [drive_nil]
    have hlen : tr.queue.length - 1 = P.length + R.length := by
      rw [hq]
      simp
    rcases continueQueue_first_load view t P R s tr happ htr hpend hq hasync with
      ⟨_, h2⟩ | ⟨N, g, R', h1, _, _, _⟩
    · rw [h2, hlen]
      refine ⟨rfl, { tr with invoked := tr.invoked ++ [(false, P.length + R.length)] },
        by simp [History.setTransition, hid], rfl, rfl, rfl, rfl, rfl, by simp, ?_⟩
      intro c hc
      simp only [List.mem_append, List.mem_singleton] at hc
      rcases hc with hc | hc
      · exact Or.inl (hall c hc)
      · exact Or.inr hc
    · exact absurd hR (h1 ▸ filterMap_id_ne_nil N g R')
  | succ n ih =>
    intro R P s tr args hn happ htr hid hq hasync hpend hans hall hproc hargs
    rcases continueQueue_first_load view t P R s tr happ htr hpend hq hasync with
      ⟨h1, _⟩ | ⟨N, g, R', h1, h2, h3, h4⟩
    · rw [h1] at hn
      exact absurd hn (by simp)
    · cases args with
      | nil => exact absurd hargs (by simp)
      | cons a args =>
        have hfm : R.filterMap id = g :: R'.filterMap id := by
          rw [h1, List.filterMap_append, h2]
          simp
        have hnot : (false, P.length + N.length) ∉ tr.answered := fun hmem => by
          have := hans _ hmem
          omega
        have hget : tr.queue.get? (P.length + N.length) ≠ some (some Guard.resolveAsync) := by
          have hq2 : tr.queue = (P ++ N) ++ some g :: (R' ++ [some Guard.resolveAsync]) := by
            rw [hq, h1]; simp
          rw [hq2, ← List.length_append, get?_append_cons]
          intro hcontra
          exact h3 (Option.some.inj (Option.some.inj hcontra))
        rw [drive_cons, h4,
          respond_called_proceed view s t tr false (P.length + N.length) _ a hid hnot (Or.inr hget)
            (hproc a (by simp))]
        have hP : P.length + N.length + 1 = (P ++ N ++ [some g]).length := by
          simp only [List.length_append, List.length_singleton]
        rw [hP]
        exact ih R' (P ++ N ++ [some g])
          (((s.emit [Effect.guardCalled t g]).setTransition
              { tr with invoked := tr.invoked ++ [(false, P.length + N.length)] }).setTransition
            { tr with invoked := tr.invoked ++ [(false, P.length + N.length)]
                      answered := tr.answered ++ [(false, P.length + N.length)] })
          { tr with invoked := tr.invoked ++ [(false, P.length + N.length)]
                    answered := tr.answered ++ [(false, P.length + N.length)] }
          args
          (by rw [hfm] at hn; simpa using hn)
          (AppQueue.tail (h1 ▸ happ))
          (by simp [History.setTransition, hid])
          hid
          (by simp [hq, h1])
          hasync
          (by simp [hpend])
          (by
            intro k hk
            simp only [List.mem_append, List.mem_singleton, Prod.mk.injEq, true_and] at hk
            simp only [List.length_append, List.length_singleton]
            rcases hk with hk | hk
            · have := hans k hk
              omega
            · omega)
          (by
            intro c hc
            simp only [List.mem_append, List.mem_singleton] at hc ⊢
            rcases hc with hc | hc
            · exact Or.inl (hall c hc)
            · exact Or.inr hc)
          (fun b hb => hproc b (by simp [hb]))
          (by simpa using hargs)

/-- When the last lazy component has resolved, the transition that waits for it
is aborted and `push` is called with its route: the continuation of the step
is called with the route, which reads as a redirect. -/
theorem asyncResolved_aborts (view : ViewLayer) (d : History) (t : Nat) (tr : Transition)
    (htr : d.transitions t = some tr) (hinv : (false, tr.queue.length - 1) ∈ tr.invoked)
    (hasync : hasAsync view tr.activated = true) :
    step view d (Event.asyncResolved t) =
      (abort (d.setTransition { tr with answered := tr.answered ++ [(false, tr.queue.length - 1)] })
        tr AbortArg.undef).emit [Effect.push (NextArg.route t)] := by
  have hc : tr.invoked.contains (false, tr.queue.length - 1) = true := by
    simpa using hinv
  simp only [step, htr, hc, hasync, Bool.and_self, if_true]
  rfl

theorem abortLog_undef (env : HistoryEnv) (tr : Transition) :
    abortLog env tr AbortArg.undef =
      [Effect.onAbort tr.route.id AbortArg.undef] ++
        tr.userOnAbort.toList.map (fun cb => Effect.userOnAbort tr.route.id cb AbortArg.undef) := by
  unfold abortLog
  simp [AbortArg.truthy]

/-- A transition that runs its queues starts with the first step of its first
queue. -/
theorem transitionTo_starts (view : ViewLayer) (s : History) (route : Route)
    (onComplete onAbort : Option Nat) (hrun : isNoop s route = false) :
    step view s (Event.transitionTo route onComplete onAbort) =
      continueQueue view
        { History.setTransition { s with made := s.made + 1 }
            { route := { id := s.made + 1, route := route }, current := s.current,
              activated := (resolveQueue s.current.route.matched route.matched).activated,
              queue := firstQueue view s route ++ [some Guard.resolveAsync], enterQueue := none,
              invoked := [], answered := [], userOnComplete := onComplete,
              userOnAbort := onAbort }
          with pending := some (s.made + 1) }
        (s.made + 1) false ([] : List (Option Guard)).length := by
  simp only [step, confirmTransition]
  have hrun2 : (isSameRoute { id := s.made + 1, route := route } s.current &&
      route.matched.length == s.current.route.matched.length) = false := hrun
  simp only [hrun2, Bool.false_eq_true, if_false]
  rfl

theorem callsOf_append (t : Nat) (a b : List Effect) :
    callsOf t (a ++ b) = callsOf t a ++ callsOf t b := by
  unfold callsOf
  rw [List.filter_append]

theorem callsOf_eq_nil (t : Nat) (es : List Effect) (h : ∀ e ∈ es, Effect.isOf t e = false) :
    callsOf t es = [] := by
  unfold callsOf
  rw [List.filter_eq_nil_iff]
  intro e he
  rw [h e he]
  simp

theorem callsOf_abortLog (t : Nat) (env : HistoryEnv) (tr : Transition) (err : AbortArg)
    (h : tr.route.id ≠ t) : callsOf t (abortLog env tr err) = [] := by
  apply callsOf_eq_nil
  intro e he
  unfold abortLog at he
  simp only [List.mem_append, List.mem_map, List.mem_singleton, Option.mem_toList] at he
  rcases he with ((he | he) | he) | he
  · cases err with
    | error e1 =>
      simp only at he
      split at he
      · simp only [List.mem_map] at he
        obtain ⟨_, _, rfl⟩ := he
        rfl
      · simp only [List.mem_singleton] at he
        subst he
        rfl
    | undef => simp at he
    | boolFalse => simp at he
    | thrown b => simp at he
  · subst he
    simp [Effect.isOf, h]
  · obtain ⟨_, _, rfl⟩ := he
    rfl
  · split at he
    · simp only [List.mem_map] at he
      obtain ⟨_, _, rfl⟩ := he
      rfl
    · simp at he

theorem callsOf_completionLog (t : Nat) (env : HistoryEnv) (u : Nat) (uc : Option Nat)
    (h : u ≠ t) : callsOf t (completionLog env u uc) = [] := by
  apply callsOf_eq_nil
  intro e he
  unfold completionLog at he
  simp only [List.mem_append, List.mem_singleton, List.mem_filterMap, List.mem_map] at he
  rcases he with ((((he | he) | he) | he) | he) | he
  · subst he
    simp [Effect.isOf, h]
  · split at he
    · simp only [List.mem_singleton] at he
      subst he
      rfl
    · simp at he
  · obtain ⟨a, _, ha⟩ := he
    cases a with
    | none => simp at ha
    | some fn =>
      simp only [Option.map_some', Option.some.injEq] at ha
      subst ha
      rfl
  · cases uc with
    | none => simp at he
    | some cb =>
      simp only [List.mem_singleton] at he
      subst he
      rfl
  · subst he
    rfl
  · split at he
    · simp only [List.mem_map] at he
      obtain ⟨_, _, rfl⟩ := he
      rfl
    · simp at he

theorem apart_refl (t : Nat) (s : History) : Apart t s s := ⟨rfl, rfl⟩

theorem apart_trans {t : Nat} {a b c : History} (h1 : Apart t a b) (h2 : Apart t b c) :
    Apart t a c :=
  ⟨h2.1.trans h1.1, h2.2.trans h1.2⟩

theorem apart_emit (t : Nat) (s : History) (es : List Effect)
    (h : ∀ e ∈ es, Effect.isOf t e = false) : Apart t s (s.emit es) := by
  refine ⟨rfl, ?_⟩
  rw [History.emit_log, callsOf_append, callsOf_eq_nil t es h, List.append_nil]

theorem apart_setTransition (t : Nat) (s : History) (tr : Transition)
    (h : tr.route.id ≠ t) : Apart t s (s.setTransition tr) :=
  ⟨History.setTransition_other s tr t (fun e => h e.symm), rfl⟩

theorem apart_abort (t : Nat) (s : History) (tr : Transition) (err : AbortArg)
    (h : tr.route.id ≠ t) : Apart t s (abort s tr err) := by
  refine ⟨by rw [abort_transitions], ?_⟩
  rw [abort_log_eq, callsOf_append, callsOf_abortLog t _ tr err h, List.append_nil]

theorem apart_complete (t : Nat) (s : History) (tr : Transition)
    (h : tr.route.id ≠ t) : Apart t s (complete s tr) := by
  refine ⟨by rw [complete_transitions], ?_⟩
  rw [complete_log, callsOf_append, callsOf_completionLog t _ _ _ h, List.append_nil]

theorem isOf_guard (t u : Nat) (hne : u ≠ t) (hook : Guard) :
    ∀ e ∈ [Effect.guardCalled u hook], Effect.isOf t e = false := by
  intro e he
  simp only [List.mem_singleton] at he
  subst he
  simp [Effect.isOf, hne]

/-- Running a queue of the transition `u` leaves another transition `t` as it
is and calls nothing of `t`. -/
theorem stepQueue_apart (view : ViewLayer) (t u : Nat) (hne : u ≠ t) (p : Bool)
    (Q : List (Option Guard)) :
    ∀ (fuel i : Nat) (s : History), s.WF → Apart t s (stepQueue view u p Q fuel i s).1 := by
  intro fuel
  induction fuel with
  | zero => intro i s _; exact apart_refl t s
  | succ fuel ih =>
    intro i s hwf
    rw [stepQueue]
    split
    · exact apart_refl t s
    · split
      · rename_i hook hq
        split
        · exact apart_refl t s
        · rename_i tr htr
          have hid : tr.route.id ≠ t := by
            rw [hwf u tr htr]
            exact hne
          split
          · exact apart_abort t s tr _ hid
          · have hs1 : Apart t s ((s.emit [Effect.guardCalled u hook]).setTransition
                { tr with invoked := tr.invoked ++ [(p, i)] }) :=
              apart_trans (apart_emit t s _ (isOf_guard t u hne hook))
                (apart_setTransition t _ { tr with invoked := tr.invoked ++ [(p, i)] } hid)
            have hw1 : ((s.emit [Effect.guardCalled u hook]).setTransition
                { tr with invoked := tr.invoked ++ [(p, i)] }).WF :=
              wf_setTransition (wf_emit hwf _) { tr with invoked := tr.invoked ++ [(p, i)] }
            split
            · have h := ih (i + 1)
                (((s.emit [Effect.guardCalled u hook]).setTransition
                  { tr with invoked := tr.invoked ++ [(p, i)] }).setTransition
                  { tr with invoked := tr.invoked ++ [(p, i)]
                            answered := tr.answered ++ [(p, i)] })
                (wf_setTransition hw1 _)
              exact apart_trans (apart_trans hs1
                (apart_setTransition t _
                  { tr with invoked := tr.invoked ++ [(p, i)]
                            answered := tr.answered ++ [(p, i)] } hid)) h
            · exact hs1
      · exact ih (i + 1) s hwf

theorem finishTransition_apart (t u : Nat) (hne : u ≠ t) (s : History) (hwf : s.WF) :
    Apart t s (finishTransition s u) := by
  unfold finishTransition
  split
  · exact apart_refl t s
  · rename_i tr htr
    have hid : tr.route.id ≠ t := by
      rw [hwf u tr htr]
      exact hne
    split
    · exact apart_abort t s tr _ hid
    · exact apart_trans (⟨rfl, rfl⟩ : Apart t s { s with pending := none })
        (apart_complete t _ tr hid)

theorem runEnterQueue_apart (view : ViewLayer) (t u : Nat) (hne : u ≠ t) (s : History)
    (hwf : s.WF) : Apart t s (runEnterQueue view s u) := by
  unfold runEnterQueue
  split
  · exact apart_refl t s
  · rename_i tr htr
    have hid : tr.route.id ≠ t := by
      rw [hwf u tr htr]
      exact hne
    simp only
    have h1 : Apart t s (s.setTransition
        { tr with enterQueue := (some (extractEnterGuards view tr.activated ++
            s.resolveHooks.map (fun h => h.map Guard.beforeResolve))) }) :=
      apart_setTransition t s
        { tr with enterQueue := (some (extractEnterGuards view tr.activated ++
            s.resolveHooks.map (fun h => h.map Guard.beforeResolve))) } hid
    have hw1 := wf_setTransition hwf
        { tr with enterQueue := (some (extractEnterGuards view tr.activated ++
            s.resolveHooks.map (fun h => h.map Guard.beforeResolve))) }
    have h2 := stepQueue_apart view t u hne true
      (extractEnterGuards view tr.activated ++
        s.resolveHooks.map (fun h => h.map Guard.beforeResolve))
      ((extractEnterGuards view tr.activated ++
        s.resolveHooks.map (fun h => h.map Guard.beforeResolve)).length + 1) 0 _ hw1
    have w2 := (stepQueue_untouched view t u hne true
      (extractEnterGuards view tr.activated ++
        s.resolveHooks.map (fun h => h.map Guard.beforeResolve))
      ((extractEnterGuards view tr.activated ++
        s.resolveHooks.map (fun h => h.map Guard.beforeResolve)).length + 1) 0 _ hw1).1
    split
    · exact apart_trans (apart_trans h1 h2) (finishTransition_apart t u hne _ w2)
    · exact apart_trans h1 h2

theorem continueQueue_apart (view : ViewLayer) (t u : Nat) (hne : u ≠ t) (s : History)
    (p : Bool) (i : Nat) (hwf : s.WF) : Apart t s (continueQueue view s u p i) := by
  unfold continueQueue
  split
  · exact apart_refl t s
  · rename_i tr htr
    cases p with
    | true =>
      simp only [if_true]
      have h2 := stepQueue_apart view t u hne true (tr.enterQueue.getD [])
        ((tr.enterQueue.getD []).length + 1) i s hwf
      have w2 := (stepQueue_untouched view t u hne true (tr.enterQueue.getD [])
        ((tr.enterQueue.getD []).length + 1) i s hwf).1
      split
      · exact apart_trans h2 (finishTransition_apart t u hne _ w2)
      · exact h2
    | false =>
      simp only [Bool.false_eq_true, if_false]
      have h2 := stepQueue_apart view t u hne false tr.queue (tr.queue.length + 1) i s hwf
      have w2 := (stepQueue_untouched view t u hne false tr.queue
        (tr.queue.length + 1) i s hwf).1
      split
      · exact apart_trans h2 (runEnterQueue_apart view t u hne _ w2)
      · exact h2

theorem callContinuation_apart (view : ViewLayer) (t : Nat) (s : History)
    (tr : Transition) (hid : tr.route.id ≠ t) (p : Bool) (i : Nat) (arg : NextArg)
    (hwf : s.WF) : Apart t s (callContinuation view s tr p i arg) := by
  have h0 : Apart t s (s.setTransition { tr with answered := tr.answered ++ [(p, i)] }) :=
    apart_setTransition t s { tr with answered := tr.answered ++ [(p, i)] } hid
  have w0 : (s.setTransition { tr with answered := tr.answered ++ [(p, i)] }).WF :=
    wf_setTransition hwf { tr with answered := tr.answered ++ [(p, i)] }
  unfold callContinuation
  simp only
  split
  · exact apart_trans (apart_trans h0 (apart_emit t _ _ (by
      intro e he
      simp only [List.mem_singleton] at he
      subst he
      rfl))) (apart_abort t _ tr _ hid)
  · exact apart_trans (apart_trans h0 (apart_abort t _ tr _ hid))
      (apart_emit t _ _ (by
        intro e he
        simp only [List.mem_singleton] at he
        subst he
        split <;> rfl))
  · exact apart_trans h0 (continueQueue_apart view t tr.route.id hid _ p (i + 1) w0)
  · exact h0

theorem over_of_apart {t : Nat} {x r : History} (h : Over t x) (hwf : r.WF)
    (hmade : x.made ≤ r.made) (ha : Apart t x r) : Over t r := by
  obtain ⟨_, hle, tr, htr, hall⟩ := h
  exact ⟨hwf, Nat.le_trans hle hmade, tr, by rw [ha.1]; exact htr, hall⟩

/-- A continuation of a transition that is over has been called: under the
discipline it is not called again. -/
theorem over_answered {t : Nat} {x : History} {tr : Transition} (h : Over t x)
    (htr : x.transitions t = some tr) (c : Bool × Nat) (hc : tr.invoked.contains c = true) :
    tr.answered.contains c = true := by
  obtain ⟨_, _, tr', htr', hall⟩ := h
  rw [htr] at htr'
  cases htr'
  have hmem : c ∈ tr.invoked := by simpa using hc
  simpa using hall c hmem

/-- An event that keeps the discipline of a transition that is over leaves the
transition over, and calls no guard of it, nor its `onComplete` or
`onAbort`. -/
theorem step_over (view : ViewLayer) (t : Nat) (x : History) (e : Event) (h : Over t x)
    (hd : e.keepsDiscipline t x = true) :
    Over t (step view x e) ∧ Apart t x (step view x e) := by
  have hwf := h.1
  have key : ∀ e : Event, e.isTransitionTo = false → Apart t x (step view x e) →
      Over t (step view x e) ∧ Apart t x (step view x e) := by
    intro e he ha
    obtain ⟨⟨w, m, _⟩, _⟩ := step_safe view x e hwf he
    exact ⟨over_of_apart h w (by omega) ha, ha⟩
  cases e with
  | transitionTo route oc oa =>
    obtain ⟨w, m, _⟩ := transitionTo_safe view x route oc oa hwf
    have hk : t ≠ x.made + 1 := by
      have := h.2.1
      omega
    have hw1 : History.WF { x with made := x.made + 1 } := fun a b c => hwf a b c
    have ha : Apart t x (step view x (Event.transitionTo route oc oa)) := by
      simp only [step]
      unfold confirmTransition
      simp only
      split
      · refine apart_trans (apart_trans (b := History.setTransition
          { x with made := x.made + 1 }
          { route := { id := x.made + 1, route := route }, current := x.current, activated := [],
            queue := [], enterQueue := none, invoked := [], answered := [], userOnComplete := oc,
            userOnAbort := oa }) ?_ (apart_emit t _ _ ?_)) (apart_abort t _ _ _ ?_)
        · exact ⟨History.setTransition_other _ _ t hk, rfl⟩
        · intro e he
          simp only [List.mem_singleton] at he
          subst he
          rfl
        · exact fun e => hk e.symm
      · refine apart_trans ?_ (continueQueue_apart view t (x.made + 1)
          (fun e => hk e.symm) _ false 0 (wf_pending (wf_setTransition hw1 _) _))
        exact ⟨History.setTransition_other _ _ t hk, rfl⟩
    exact ⟨over_of_apart h w (by omega) ha, ha⟩
  | next u p i arg =>
    apply key (Event.next u p i arg) rfl
    simp only [step]
    cases htr : x.transitions u with
    | none => exact apart_refl t x
    | some tr =>
      simp only
      by_cases hh : tr.handedOut p i = true
      · rw [if_pos hh]
        have hut : u ≠ t := by
          intro hut
          subst hut
          have hinv : tr.invoked.contains (p, i) = true := by
            unfold Transition.handedOut at hh
            simp only [Bool.and_eq_true] at hh
            exact hh.1
          have hans := over_answered h htr (p, i) hinv
          simp only [Event.keepsDiscipline, htr, Option.map_some', Option.getD_some,
            bne_self_eq_false, Bool.false_or, hans] at hd
          cases hd
        exact callContinuation_apart view t x tr (by rw [hwf u tr htr]; exact hut) p i arg hwf
      · rw [if_neg hh]
        exact apart_refl t x
  | throws u p i err =>
    apply key (Event.throws u p i err) rfl
    have hut : u ≠ t := by
      simpa [Event.keepsDiscipline] using hd
    simp only [step]
    cases htr : x.transitions u with
    | none => exact apart_refl t x
    | some tr =>
      simp only
      split
      · exact apart_abort t x tr err (by rw [hwf u tr htr]; exact hut)
      · exact apart_refl t x
  | asyncResolved u =>
    apply key (Event.asyncResolved u) rfl
    simp only [step]
    cases htr : x.transitions u with
    | none => exact apart_refl t x
    | some tr =>
      simp only
      by_cases hh : (tr.invoked.contains (false, tr.queue.length - 1) &&
          hasAsync view tr.activated) = true
      · rw [if_pos hh]
        have hut : u ≠ t := by
          intro hut
          subst hut
          simp only [Bool.and_eq_true] at hh
          have hans := over_answered h htr _ hh.1
          simp only [Event.keepsDiscipline, htr, Option.map_some', Option.getD_some,
            bne_self_eq_false, Bool.false_or, hans] at hd
          cases hd
        exact callContinuation_apart view t x tr (by rw [hwf u tr htr]; exact hut) false _ _ hwf
      · rw [if_neg hh]
        exact apart_refl t x
  | asyncRejected u err =>
    apply key (Event.asyncRejected u err) rfl
    simp only [step]
    cases htr : x.transitions u with
    | none => exact apart_refl t x
    | some tr =>
      simp only
      by_cases hh : (tr.invoked.contains (false, tr.queue.length - 1) &&
          hasAsync view tr.activated) = true
      · rw [if_pos hh]
        have hut : u ≠ t := by
          intro hut
          subst hut
          simp only [Bool.and_eq_true] at hh
          have hans := over_answered h htr _ hh.1
          simp only [Event.keepsDiscipline, htr, Option.map_some', Option.getD_some,
            bne_self_eq_false, Bool.false_or, hans] at hd
          cases hd
        exact callContinuation_apart view t x tr (by rw [hwf u tr htr]; exact hut) false _ _ hwf
      · rw [if_neg hh]
        exact apart_refl t x

/-- Once a transition is over, no run of events that keeps its discipline
calls a guard of it, its `onComplete` or its `onAbort`. -/
theorem run_over (view : ViewLayer) (t : Nat) (events : List Event) :
    ∀ x : History, Over t x → Disciplined view t x events →
      Over t (run view x events) ∧ Apart t x (run view x events) := by
  induction events with
  | nil => intro x h _; exact ⟨h, apart_refl t x⟩
  | cons e es ih =>
    intro x h hd
    obtain ⟨h1, a1⟩ := step_over view t x e h hd.1
    obtain ⟨h2, a2⟩ := ih (step view x e) h1 hd.2
    exact ⟨h2, apart_trans a1 a2⟩

theorem respond_WF (view : ViewLayer) (x : History) (t : Nat) (a : NextArg) (hwf : x.WF) :
    (respond view x t a).WF ∧ (respond view x t a).made = x.made := by
  unfold respond
  split
  · obtain ⟨⟨w, m, _⟩, _⟩ := step_safe view x (Event.next t _ _ a) hwf rfl
    exact ⟨w, m⟩
  · exact ⟨hwf, rfl⟩

theorem drive_WF (view : ViewLayer) (t : Nat) (args : List NextArg) :
    ∀ x : History, x.WF → (drive view x t args).WF ∧ (drive view x t args).made = x.made := by
  induction args with
  | nil => intro x h; exact ⟨h, rfl⟩
  | cons a args ih =>
    intro x h
    rw [drive_cons]
    obtain ⟨w, m⟩ := respond_WF view x t a h
    obtain ⟨w2, m2⟩ := ih _ w
    exact ⟨w2, m2.trans m⟩

/-- C10 (what holds and where the code departs): a transition that runs its
queues and whose guards all proceed calls its guards one after the other.
With no component to load the calls are, in this order: the leave guards of the
deactivated records from the deepest record, the global before-each hooks in
the order of registration, the update guards of the updated records, the
`beforeEnter` of the activated records from the shallowest, the step that
loads lazy components, the enter guards of the activated records from the
shallowest, the global resolve hooks in the order of registration; then the
transition commits.  With a component to load, the calls up to that step are
the same and the transition waits; when the last component has resolved, the
step calls its continuation with the route, the transition is aborted and
`push` is called with the route: neither an enter guard nor a resolve hook of
the transition is called, its second queue is not built, and every
continuation it handed out has been called.  Nor does anything of the
transition follow: in an engine whose closures are stored under the identity
of their route, whatever events come next, of this or of other transitions, as
long as no continuation of the transition is called a second time, no guard of
the transition is called and it does not commit. -/
theorem guards_called_in_order (view : ViewLayer) (s : History) (route : Route)
    (onComplete onAbort : Option Nat) (args : List NextArg)
    (hrun : isNoop s route = false)
    (hproc : ∀ a ∈ args, classify a = Resolution.proceed) :
    (hasAsync view (resolveQueue s.current.route.matched route.matched).activated = false →
      args.length = (guardsBeforeLoading view s route).length +
        (guardsAfterLoading view s route).length →
      (drive view (step view s (Event.transitionTo route onComplete onAbort))
          (s.made + 1) args).log =
        s.log ++
          (guardsBeforeLoading view s route ++ [Guard.resolveAsync] ++
            guardsAfterLoading view s route).map (Effect.guardCalled (s.made + 1)) ++
          completionLog s.env (s.made + 1) onComplete ∧
      (drive view (step view s (Event.transitionTo route onComplete onAbort))
        (s.made + 1) args).current = { id := s.made + 1, route := route }) ∧
    (hasAsync view (resolveQueue s.current.route.matched route.matched).activated = true →
      args.length = (guardsBeforeLoading view s route).length →
      (drive view (step view s (Event.transitionTo route onComplete onAbort))
          (s.made + 1) args).log =
        s.log ++ (guardsBeforeLoading view s route ++ [Guard.resolveAsync]).map
          (Effect.guardCalled (s.made + 1)) ∧
      (drive view (step view s (Event.transitionTo route onComplete onAbort))
        (s.made + 1) args).current = s.current ∧
      (drive view (step view s (Event.transitionTo route onComplete onAbort))
        (s.made + 1) args).pending = some (s.made + 1) ∧
      (step view (drive view (step view s (Event.transitionTo route onComplete onAbort))
          (s.made + 1) args) (Event.asyncResolved (s.made + 1))).log =
        s.log ++ (guardsBeforeLoading view s route ++ [Guard.resolveAsync]).map
            (Effect.guardCalled (s.made + 1)) ++
          [Effect.onAbort (s.made + 1) AbortArg.undef] ++
          onAbort.toList.map (fun cb => Effect.userOnAbort (s.made + 1) cb AbortArg.undef) ++
          [Effect.push (NextArg.route (s.made + 1))] ∧
      (step view (drive view (step view s (Event.transitionTo route onComplete onAbort))
          (s.made + 1) args) (Event.asyncResolved (s.made + 1))).current = s.current ∧
      (∃ tr, (step view (drive view (step view s (Event.transitionTo route onComplete onAbort))
            (s.made + 1) args) (Event.asyncResolved (s.made + 1))).transitions (s.made + 1) =
          some tr ∧
        tr.AllAnswered ∧ tr.enterQueue = none) ∧
      (s.WF → ∀ events : List Event,
          Disciplined view (s.made + 1)
            (step view (drive view (step view s (Event.transitionTo route onComplete onAbort))
              (s.made + 1) args) (Event.asyncResolved (s.made + 1))) events →
          callsOf (s.made + 1)
              (run view
                (step view (drive view (step view s (Event.transitionTo route onComplete onAbort))
                  (s.made + 1) args) (Event.asyncResolved (s.made + 1))) events).log =
            callsOf (s.made + 1)
              (step view (drive view (step view s (Event.transitionTo route onComplete onAbort))
                (s.made + 1) args) (Event.asyncResolved (s.made + 1))).log)) := by
  have hf := firstQueue_guards view s route
  have hs := secondQueue_guards view s route
  have hold := queues_run_in_order view s route onComplete onAbort args hrun hproc
  constructor
  · intro hasync hargs
    obtain ⟨h1, h2⟩ := hold.1 hasync (by rw [hf, hs]; exact hargs)
    refine ⟨?_, h2⟩
    rw [h1]
    have e : ((firstQueue view s route ++ [some Guard.resolveAsync]) ++
        secondQueue view s route).filterMap id =
        guardsBeforeLoading view s route ++ [Guard.resolveAsync] ++
          guardsAfterLoading view s route := by
      rw [List.filterMap_append, List.filterMap_append, hf, hs]
      rfl
    exact congrArg (fun l => s.log ++ l.map (Effect.guardCalled (s.made + 1)) ++
      completionLog s.env (s.made + 1) onComplete) e
  · intro hasync hargs
    obtain ⟨h1, h2, h3⟩ := hold.2 hasync (by rw [hf]; exact hargs)
    have e : (firstQueue view s route ++ [some Guard.resolveAsync]).filterMap id =
        guardsBeforeLoading view s route ++ [Guard.resolveAsync] := by
      rw [List.filterMap_append, hf]
      rfl
    have h1' : (drive view (step view s (Event.transitionTo route onComplete onAbort))
          (s.made + 1) args).log =
        s.log ++ (guardsBeforeLoading view s route ++ [Guard.resolveAsync]).map
          (Effect.guardCalled (s.made + 1)) := by
      rw [h1]
      exact congrArg (fun l => s.log ++ l.map (Effect.guardCalled (s.made + 1))) e
    refine ⟨h1', h2, h3, ?_⟩
    have key := drive_firstQueue_waits view (s.made + 1) _ (firstQueue view s route) []
      { History.setTransition { s with made := s.made + 1 }
          { route := { id := s.made + 1, route := route }, current := s.current,
            activated := (resolveQueue s.current.route.matched route.matched).activated,
            queue := firstQueue view s route ++ [some Guard.resolveAsync], enterQueue := none,
            invoked := [], answered := [], userOnComplete := onComplete, userOnAbort := onAbort }
        with pending := some (s.made + 1) }
      { route := { id := s.made + 1, route := route }, current := s.current,
        activated := (resolveQueue s.current.route.matched route.matched).activated,
        queue := firstQueue view s route ++ [some Guard.resolveAsync], enterQueue := none,
        invoked := [], answered := [], userOnComplete := onComplete, userOnAbort := onAbort }
      args rfl (appQueue_firstQueue view _ _ _ _)
      (by simp [History.setTransition])
      rfl
      (by simp)
      hasync
      rfl
      (by intro k hk; simp at hk)
      (by intro c hc; simp at hc)
      hproc
      (by rw [hf]; exact hargs)
    rw [← transitionTo_starts view s route onComplete onAbort hrun] at key
    obtain ⟨kenv, tr', ktr, kroute, kqueue, kact, kabort, kenter, kinv, kall⟩ := key
    have hstep := asyncResolved_aborts view _ (s.made + 1) tr' ktr (kqueue ▸ kinv)
      (kact ▸ hasync)
    rw [hstep]
    have htr2 : ((abort ((drive view (step view s (Event.transitionTo route onComplete onAbort))
          (s.made + 1) args).setTransition
          { tr' with answered := tr'.answered ++ [(false, tr'.queue.length - 1)] })
        tr' AbortArg.undef).emit [Effect.push (NextArg.route (s.made + 1))]).transitions
          (s.made + 1) =
        some { tr' with answered := tr'.answered ++ [(false, tr'.queue.length - 1)] } := by
      rw [History.emit_transitions, abort_transitions]
      simp [History.setTransition, kroute]
    have hall2 : Transition.AllAnswered
        { tr' with answered := tr'.answered ++ [(false, tr'.queue.length - 1)] } := by
      intro c hc
      rcases kall c hc with h | h
      · exact List.mem_append_left _ h
      · rw [kqueue]
        exact List.mem_append_right _ (by simp [h])
    refine ⟨?_, ?_,
      ⟨{ tr' with answered := tr'.answered ++ [(false, tr'.queue.length - 1)] }, htr2, hall2,
        kenter⟩, ?_⟩
    · rw [History.emit_log, abort_log_eq, History.setTransition_log, h1', abortLog_undef, kroute,
        kabort]
      simp only [List.append_assoc]
    · rw [History.emit_current, abort_current, History.setTransition_current, h2]
    · intro hwf events hdisc
      obtain ⟨w1, m1, _⟩ := transitionTo_safe view s route onComplete onAbort hwf
      obtain ⟨w2, m2⟩ := drive_WF view (s.made + 1) args _ w1
      have hover : Over (s.made + 1)
          ((abort ((drive view (step view s (Event.transitionTo route onComplete onAbort))
            (s.made + 1) args).setTransition
            { tr' with answered := tr'.answered ++ [(false, tr'.queue.length - 1)] })
          tr' AbortArg.undef).emit [Effect.push (NextArg.route (s.made + 1))]) := by
        refine ⟨wf_emit (wf_abort (wf_setTransition w2 _) _ _) _, ?_, _, htr2, hall2⟩
        rw [History.emit_made, abort_made, History.setTransition_made, m2, m1]
      exact (run_over view (s.made + 1) events _ hover hdisc).2.2

/-- Witness of C10: leaving `/p/c` for `/p`, the two leave guards of the child
come first, then the before-each hooks, the two update guards of the parent,
the step for lazy components, the resolve hook, and the commit.  In a new
engine, going to `/q` whose component is loaded lazily, the `beforeEnter` and
the step are called, and when the component has resolved the transition is
aborted and `push` is called; after the events `Example.afterLoading` the
calls of the transition are still those. -/
theorem guards_called_in_order_witness :
    (drive Example.updateView
        (step Example.updateView Example.history
          (Event.transitionTo Example.parentRoute none none)) 2
        (List.replicate 7 NextArg.undef)).log =
      [Effect.guardCalled 2 (Guard.bound HookName.beforeRouteLeave 32 101),
       Effect.guardCalled 2 (Guard.bound HookName.beforeRouteLeave 33 101),
       Effect.guardCalled 2 (Guard.beforeEach 10),
       Effect.guardCalled 2 (Guard.beforeEach 11),
       Effect.guardCalled 2 (Guard.bound HookName.beforeRouteUpdate 36 100),
       Effect.guardCalled 2 (Guard.bound HookName.beforeRouteUpdate 37 100),
       Effect.guardCalled 2 Guard.resolveAsync,
       Effect.guardCalled 2 (Guard.beforeResolve 20),
       Effect.onComplete 2,
       Effect.listener 2,
       Effect.afterHook 60 2,
       Effect.ensureURL false] ∧
    (step Example.lazyView
        (drive Example.lazyView
          (step Example.lazyView History.init (Event.transitionTo Example.otherRoute none none))
          1 [NextArg.undef])
        (Event.asyncResolved 1)).log =
      [Effect.guardCalled 1 (Guard.beforeEnter 51),
       Effect.guardCalled 1 Guard.resolveAsync,
       Effect.onAbort 1 AbortArg.undef,
       Effect.push (NextArg.route 1)] ∧
    callsOf 1 (run Example.lazyView
        (step Example.lazyView
          (drive Example.lazyView
            (step Example.lazyView History.init (Event.transitionTo Example.otherRoute none none))
            1 [NextArg.undef])
          (Event.asyncResolved 1)) Example.afterLoading).log =
      [Effect.guardCalled 1 (Guard.beforeEnter 51),
       Effect.guardCalled 1 Guard.resolveAsync,
       Effect.onAbort 1 AbortArg.undef] :=
  ⟨((guards_called_in_order Example.updateView Example.history Example.parentRoute none none
      (List.replicate 7 NextArg.undef) rfl (by decide)).1 rfl rfl).1,
    ((guards_called_in_order Example.lazyView History.init Example.otherRoute none none
      [NextArg.undef] rfl (by decide)).2 rfl rfl).2.2.2.1,
    ((guards_called_in_order Example.lazyView History.init Example.otherRoute none none
      [NextArg.undef] rfl (by decide)).2 rfl rfl).2.2.2.2.2.2 History.init_WF
        Example.afterLoading ⟨by decide, by decide, by decide, trivial⟩⟩

end VueRouter
